import Mathlib

/-!
# hy3 layout tree: node store, tree surgery and focus

A shallow embedding of the node tree of `src/Hy3Node.cpp` / `src/Hy3Layout.cpp`.

* A `Hy3Node*` is an `Option Nat`: `none` is `nullptr`, `some a` is the address of the
  list element holding the node.  `Hy3Layout::nodes` (a `std::list<Hy3Node>`) is a list of
  nodes, each carrying its own address; fresh addresses come from a counter and are never
  handed out twice.
* `size_ratio` is an exact rational.
* Every operation that dereferences a pointer returns `Option`: `none` stands for undefined
  behaviour of the C++ (null or dangling dereference, reading `as_group` of a window node,
  dereferencing `end()`), or for a loop that used up its fuel.
* The geometry fields (`position`, `size`, the gap offsets, `hidden`) and the tab bar handle are
  written only by the layout pass (`recalcSizePosRecursive`, `updateTabBar`, `setHidden`), which
  never touches the fields kept here; they are not part of `Hy3Node` below, and the calls to the
  layout pass, to the compositor and to the logger are left out of the operations.
-/

namespace Hy3

/-! ## Data model (`Hy3Node.hpp`) -/

inductive Hy3GroupLayout where
  | SplitH
  | SplitV
  | Tabbed
  deriving DecidableEq, Repr

inductive Hy3NodeType where
  | Window
  | Group
  deriving DecidableEq, Repr

inductive ExpandFocusType where
  | NotExpanded
  | Latch
  | Stack
  deriving DecidableEq, Repr

/-- Modelled from the spec: the enum `GroupEphemeralityOption` of `Hy3Layout.hpp`, which is not
among the sources; its three values are the ones `Hy3GroupData::setEphemeral` switches over. -/
inductive GroupEphemeralityOption where
  | Ephemeral
  | Standard
  | ForceEphemeral
  deriving DecidableEq, Repr

/-- The group payload `Hy3GroupData` (without the external `tab_bar` handle). The defaults are the
default member initializers of the struct. -/
structure Hy3GroupData where
  layout : Hy3GroupLayout := Hy3GroupLayout.SplitH
  previous_nontab_layout : Hy3GroupLayout := Hy3GroupLayout.SplitH
  children : List Nat := []
  group_focused : Bool := true
  focused_child : Option Nat := none
  expand_focused : ExpandFocusType := ExpandFocusType.NotExpanded
  ephemeral : Bool := false
  containment : Bool := false
  deriving DecidableEq, Repr

/-- The constructor `Hy3GroupData::Hy3GroupData(Hy3GroupLayout layout)`. -/
def Hy3GroupData.new (layout : Hy3GroupLayout) : Hy3GroupData :=
  { layout := layout
    previous_nontab_layout :=
      if layout ≠ Hy3GroupLayout.Tabbed then layout else Hy3GroupLayout.SplitH }

/-- The move constructor `Hy3GroupData::Hy3GroupData(Hy3GroupData&& from)`: the new object takes
`layout`, `previous_nontab_layout`, `children`, `group_focused`, `expand_focused` and
`focused_child` from `from`; the fields it does not assign (`ephemeral`, `containment`) keep their
default member initializers. -/
def Hy3GroupData.moved (src : Hy3GroupData) : Hy3GroupData :=
  { layout := src.layout
    previous_nontab_layout := src.previous_nontab_layout
    children := src.children
    group_focused := src.group_focused
    expand_focused := src.expand_focused
    focused_child := src.focused_child }

/-- The tagged union `Hy3NodeData`: a window handle (`CWindow*`, possibly null) or a group. -/
inductive Hy3NodeData where
  | window (as_window : Option Nat)
  | group (as_group : Hy3GroupData)
  deriving DecidableEq, Repr

/-- The tag `Hy3NodeData::type`. -/
def Hy3NodeData.type : Hy3NodeData → Hy3NodeType
  | Hy3NodeData.window _ => Hy3NodeType.Window
  | Hy3NodeData.group _ => Hy3NodeType.Group

/-- The move constructor / move assignment of `Hy3NodeData`. -/
def Hy3NodeData.moved : Hy3NodeData → Hy3NodeData
  | Hy3NodeData.window w => Hy3NodeData.window w
  | Hy3NodeData.group g => Hy3NodeData.group g.moved

/-- A node `Hy3Node` together with its address in `Hy3Layout::nodes`. -/
structure Hy3Node where
  addr : Nat
  parent : Option Nat := none
  reparenting : Bool := false
  data : Hy3NodeData
  size_ratio : ℚ := 1
  workspace : Option Nat := none
  deriving DecidableEq

/-- The group payload of a node, `none` for a window node. -/
def Hy3Node.asGroup (n : Hy3Node) : Option Hy3GroupData :=
  match n.data with
  | Hy3NodeData.group g => some g
  | Hy3NodeData.window _ => none

/-- The child list of a payload (empty for a window). -/
def Hy3NodeData.children : Hy3NodeData → List Nat
  | Hy3NodeData.group g => g.children
  | Hy3NodeData.window _ => []

/-- The child list of a node (empty for a window node). -/
def Hy3Node.children (n : Hy3Node) : List Nat := n.data.children

/-- The node store `Hy3Layout::nodes` with its allocation counter. -/
structure Hy3Layout where
  nodes : List Hy3Node := []
  next : Nat := 0
  deriving DecidableEq

namespace Hy3Layout

/-- Dereference of the pointer `a`. -/
def get (h : Hy3Layout) (a : Nat) : Option Hy3Node :=
  h.nodes.find? (fun n => n.addr == a)

/-- The group payload behind the pointer `a` (`a->data.as_group`). -/
def group (h : Hy3Layout) (a : Nat) : Option Hy3GroupData :=
  (h.get a).bind Hy3Node.asGroup

/-- In-place update of the node at address `a`. -/
def modify (h : Hy3Layout) (a : Nat) (f : Hy3Node → Hy3Node) : Hy3Layout :=
  { h with nodes := h.nodes.map fun n => if n.addr = a then { f n with addr := n.addr } else n }

/-- In-place update of the group payload of the node at address `a`. -/
def modifyGroup (h : Hy3Layout) (a : Nat) (f : Hy3GroupData → Hy3GroupData) : Hy3Layout :=
  h.modify a fun n =>
    match n.data with
    | Hy3NodeData.group g => { n with data := Hy3NodeData.group (f g) }
    | Hy3NodeData.window _ => n

/-- The call `nodes.remove(*a)`: node equality is address identity. -/
def remove (h : Hy3Layout) (a : Nat) : Hy3Layout :=
  { h with nodes := h.nodes.filter fun n => n.addr != a }

/-- The call `nodes.push_back(n)`; the new element lives at the fresh address `h.next`. -/
def push_back (h : Hy3Layout) (n : Hy3Node) : Hy3Layout :=
  { nodes := h.nodes ++ [{ n with addr := h.next }], next := h.next + 1 }

end Hy3Layout

/-! ## Expansion helpers (`Hy3Node.cpp`) -/

/-- `Hy3Node::getExpandActor`: climb while the parent group has an active expansion. -/
def getExpandActor : Nat → Hy3Layout → Nat → Option Nat
  | 0, _, _ => none
  | fuel + 1, h, node =>
    match h.get node with
    | none => none
    | some n =>
      match n.parent with
      | none => some node
      | some p =>
        match h.group p with
        | none => none
        | some g =>
          if g.expand_focused ≠ ExpandFocusType.NotExpanded then getExpandActor fuel h p
          else some node

/-- The `while` loop of `Hy3GroupData::collapseExpansions`. -/
def collapseStack : Nat → Hy3Layout → Option Nat → Option Hy3Layout
  | 0, _, _ => none
  | _ + 1, _, none => none
  | fuel + 1, h, some a =>
    match h.get a with
    | none => none
    | some n =>
      match n.data with
      | Hy3NodeData.window _ => some h
      | Hy3NodeData.group g =>
        if g.expand_focused = ExpandFocusType.Stack then
          collapseStack fuel
            (h.modifyGroup a fun g => { g with expand_focused := ExpandFocusType.NotExpanded })
            g.focused_child
        else some h

/-- `Hy3GroupData::collapseExpansions` on the group held by the node at `a`. -/
def collapseExpansions (fuel : Nat) (h : Hy3Layout) (a : Nat) : Option Hy3Layout :=
  match h.group a with
  | none => none
  | some g =>
    if g.expand_focused = ExpandFocusType.NotExpanded then some h
    else
      collapseStack fuel
        (h.modifyGroup a fun g => { g with expand_focused := ExpandFocusType.NotExpanded })
        g.focused_child

/-! ## `Hy3Node::removeFromParentRecursive` -/

/-- Lines 676-687: collapse the expansion the node takes part in; the second component is the
value written to `*expand_actor` (`none` when nothing is written). -/
def removePrelude (fuel : Nat) (h : Hy3Layout) (this : Nat) : Option (Hy3Layout × Option Nat) :=
  match h.get this with
  | none => none
  | some tn =>
    match tn.parent with
    | none => some (h, none)
    | some _ =>
      match getExpandActor fuel h this with
      | none => none
      | some actor =>
        match h.get actor with
        | none => none
        | some an =>
          match an.data with
          | Hy3NodeData.window _ => some (h, none)
          | Hy3NodeData.group _ =>
            match collapseExpansions fuel h actor with
            | none => none
            | some h1 => some (h1, some actor)

/-- Lines 699-708: in a group of more than two children the focus moves to a neighbour of the
child about to be removed (`*std::next(iter)` when it is first, else `*std::prev(iter)`). -/
def focusBeforeRemove (h : Hy3Layout) (parent : Nat) (cs : List Nat) (child : Nat) : Hy3Layout :=
  if cs.length > 2 then
    h.modifyGroup parent fun g =>
      { g with
        group_focused := false
        focused_child :=
          if cs.head? = some child then cs.get? 1 else cs.get? (cs.indexOf child - 1) }
  else h

/-- The loop `for (auto* child: group.children) child->size_ratio += splitmod`. -/
def addRatioAll (h : Hy3Layout) : List Nat → ℚ → Option Hy3Layout
  | [], _ => some h
  | c :: cs, d =>
    match h.get c with
    | none => none
    | some _ =>
      addRatioAll (h.modify c fun n => { n with size_ratio := n.size_ratio + d }) cs d

/-- The `while (parent != nullptr)` loop of `removeFromParentRecursive` (lines 689-752), started
with the loop variable `parent`; the result is the store and the returned pointer. -/
def removeLoop (this : Nat) : Nat → Hy3Layout → Nat → Option (Hy3Layout × Option Nat)
  | 0, _, _ => none
  | fuel + 1, h, parent =>
    match h.get parent with
    | none => none
    | some pn =>
      match pn.parent with
      | none => some (if parent ≠ this then h.remove parent else h, none)
      | some gp =>
        let child := parent
        match h.group gp with
        | none => none
        | some group =>
          let h1 := focusBeforeRemove h gp group.children child
          if child ∉ group.children then some (h1, none)
          else
            let cs := group.children.filter fun c => c ≠ child
            let h2 := h1.modifyGroup gp fun g =>
              { g with
                children := cs
                group_focused := false
                focused_child := if cs.length = 1 then cs.head? else g.focused_child }
            match h2.get child with
            | none => none
            | some cn =>
              let child_size_ratio := cn.size_ratio
              let h3 :=
                if child ≠ this then h2.remove child
                else h2.modify child fun n => { n with parent := none }
              if cs ≠ [] then
                let child_count : Nat := cs.length - (if this ∈ cs then 1 else 0)
                let splitmod : ℚ := -((1 - child_size_ratio) / child_count)
                match addRatioAll h3 cs splitmod with
                | none => none
                | some h4 => some (h4.modify this fun n => { n with parent := none }, some gp)
              else removeLoop this fuel h3 gp

/-- The result of `removeFromParentRecursive`: the store, the returned pointer and the value
written through `expand_actor`. -/
structure RemoveResult where
  layout : Hy3Layout
  ret : Option Nat
  expand_actor : Option Nat
  deriving DecidableEq

/-- `Hy3Node::removeFromParentRecursive`. -/
def removeFromParentRecursive (fuel : Nat) (h : Hy3Layout) (this : Nat) : Option RemoveResult :=
  match removePrelude fuel h this with
  | none => none
  | some (h1, actor) =>
    match removeLoop this fuel h1 this with
    | none => none
    | some (h2, ret) => some { layout := h2, ret := ret, expand_actor := actor }

/-! ## Projections of the store -/

namespace Hy3Layout

/-- The `size_ratio` of the node at `a`. -/
def ratioOf (h : Hy3Layout) (a : Nat) : Option ℚ := (h.get a).map Hy3Node.size_ratio

/-- The `parent` pointer of the node at `a`. -/
def parentOf (h : Hy3Layout) (a : Nat) : Option (Option Nat) := (h.get a).map Hy3Node.parent

/-- The child list of the node at `a` (empty when `a` is a window or not in the store). -/
def childrenOf (h : Hy3Layout) (a : Nat) : List Nat :=
  match h.get a with
  | some n => n.children
  | none => []

/-- The sum of the `size_ratio` values of the nodes in `cs` (absent nodes count as 0). -/
def ratioSum (h : Hy3Layout) (cs : List Nat) : ℚ :=
  (cs.map fun c => (h.ratioOf c).getD 0).sum

end Hy3Layout

/-! ## Auxiliary predicates -/

/-- The node-level effect of `modifyGroup`. -/
def Hy3Node.mapGroup (f : Hy3GroupData → Hy3GroupData) (n : Hy3Node) : Hy3Node :=
  match n.data with
  | Hy3NodeData.group g => { n with data := Hy3NodeData.group (f g) }
  | Hy3NodeData.window _ => n

/-- A group payload with its `expand_focused` field blanked. -/
def Hy3GroupData.noExpand (g : Hy3GroupData) : Hy3GroupData :=
  { g with expand_focused := ExpandFocusType.NotExpanded }

/-- A node with the `expand_focused` field of its payload blanked. -/
def Hy3Node.noExpand (n : Hy3Node) : Hy3Node :=
  { n with
    data :=
      match n.data with
      | Hy3NodeData.group g => Hy3NodeData.group g.noExpand
      | Hy3NodeData.window w => Hy3NodeData.window w }

/-- Two stores that agree on everything except `expand_focused` fields. -/
def SameButExpand (h h' : Hy3Layout) : Prop :=
  ∀ a, (h'.get a).map Hy3Node.noExpand = (h.get a).map Hy3Node.noExpand

/-- The store's bookkeeping: distinct list elements live at distinct addresses, all below the
allocation counter. -/
def StoreOK (h : Hy3Layout) : Prop :=
  (h.nodes.map Hy3Node.addr).Nodup ∧ ∀ n ∈ h.nodes, n.addr < h.next

/-- No dangling child pointer: every entry of every child list is in the store. -/
def ChildrenInStore (h : Hy3Layout) : Prop :=
  ∀ a n, h.get a = some n → ∀ c ∈ n.children, (h.get c).isSome

/-- What `swapData a b` leaves at address `x`, where `na`, `nb` are the nodes at `a`, `b` before
the call and `n` the node at `x` before the call. -/
def swapNode (a b : Nat) (na nb : Hy3Node) (x : Nat) (n : Hy3Node) : Hy3Node :=
  let n1 : Hy3Node :=
    if x = a then { n with data := nb.data.moved }
    else if x = b then { n with data := na.data.moved.moved }
    else n
  let n2 : Hy3Node := if x ∈ nb.data.moved.children then { n1 with parent := some a } else n1
  if x ∈ na.data.moved.moved.children then { n2 with parent := some b } else n2

/-- The group payload `intoGroup` gives the wrapped node. -/
def wrapperGroup (layout : Hy3GroupLayout) (ephemeral : GroupEphemeralityOption) (node : Nat) :
    Hy3GroupData :=
  { Hy3GroupData.new layout with
    children := [node]
    group_focused := false
    focused_child := some node
    ephemeral :=
      ephemeral == GroupEphemeralityOption.Ephemeral
        || ephemeral == GroupEphemeralityOption.ForceEphemeral }

/-- Tree well-formedness: every node with a non-null parent occurs exactly once in that parent's
child list, and every member of a child list has that group as its parent. -/
def WellFormed (h : Hy3Layout) : Prop :=
  (∀ a n p, h.get a = some n → n.parent = some p →
    ∃ pn, h.get p = some pn ∧ pn.children.count a = 1) ∧
  (∀ a g c, h.get a = some g → c ∈ g.children → ∃ cn, h.get c = some cn ∧ cn.parent = some a)

/-- A decision procedure for `WellFormed`. -/
def wellFormedCheck (h : Hy3Layout) : Bool :=
  (h.nodes.all fun n =>
    match n.parent with
    | none => true
    | some p =>
      match h.get p with
      | none => false
      | some pn => pn.children.count n.addr == 1) &&
  (h.nodes.all fun g =>
    g.children.all fun c =>
      match h.get c with
      | none => false
      | some cn => cn.parent == some g.addr)

/-- A group payload with its focus fields blanked. -/
def Hy3GroupData.noFocus (g : Hy3GroupData) : Hy3GroupData :=
  { g with group_focused := true, focused_child := none }

/-- Two stores that agree on everything except the focus fields of groups. -/
def SameButFocus (h h' : Hy3Layout) : Prop :=
  h'.next = h.next ∧ h'.nodes.map Hy3Node.addr = h.nodes.map Hy3Node.addr ∧
  ∀ a, (h'.get a).map (Hy3Node.mapGroup Hy3GroupData.noFocus)
    = (h.get a).map (Hy3Node.mapGroup Hy3GroupData.noFocus)

/-! ## Focus (`Hy3Node.cpp`, lines 177-231) -/

/-- `markGroupFocusedRecursive`, on the group held by the node at `a`. -/
def markGroupFocusedRecursive : Nat → Hy3Layout → Nat → Option Hy3Layout
  | 0, _, _ => none
  | fuel + 1, h, a =>
    match h.group a with
    | none => none
    | some g =>
      g.children.foldlM
        (fun acc c =>
          match acc.get c with
          | none => none
          | some cn =>
            match cn.data with
            | Hy3NodeData.group _ => markGroupFocusedRecursive fuel acc c
            | Hy3NodeData.window _ => some acc)
        (h.modifyGroup a fun g => { g with group_focused := true })

/-- The `while (root->parent != nullptr)` loop of `Hy3Node::markFocused`. -/
def markFocusedLoop : Nat → Hy3Layout → Nat → Option Hy3Layout
  | 0, _, _ => none
  | fuel + 1, h, root =>
    match h.get root with
    | none => none
    | some rn =>
      match rn.parent with
      | none => some h
      | some p =>
        match h.group p with
        | none => none
        | some _ =>
          markFocusedLoop fuel
            (h.modifyGroup p fun g => { g with focused_child := some root, group_focused := false })
            p

/-- `Hy3Node::markFocused`. -/
def markFocused (fuel : Nat) (h : Hy3Layout) (this : Nat) : Option Hy3Layout :=
  match h.get this with
  | none => none
  | some n =>
    match n.data with
    | Hy3NodeData.group _ =>
      match markGroupFocusedRecursive fuel h this with
      | none => none
      | some h1 => markFocusedLoop fuel h1 this
    | Hy3NodeData.window _ => markFocusedLoop fuel h this

/-- `Hy3Node::getFocusedNode`; the inner option is the returned pointer. -/
def getFocusedNode : Nat → Hy3Layout → Nat → Bool → Bool → Option (Option Nat)
  | 0, _, _, _, _ => none
  | fuel + 1, h, this, ignore_group_focus, stop_at_expanded =>
    match h.get this with
    | none => none
    | some n =>
      match n.data with
      | Hy3NodeData.window _ => some (some this)
      | Hy3NodeData.group g =>
        match g.focused_child with
        | none => some (some this)
        | some fc =>
          if (!ignore_group_focus && g.group_focused)
              || (stop_at_expanded && g.expand_focused != ExpandFocusType.NotExpanded) then
            some (some this)
          else getFocusedNode fuel h fc ignore_group_focus stop_at_expanded

/-! ## Payload swap, grouping and swallowing (`Hy3Node.cpp`, lines 755-795 and 911-927) -/

/-- The loop `for (auto child: children) child->parent = &p`. -/
def setParentAll (h : Hy3Layout) (p : Nat) : List Nat → Option Hy3Layout
  | [] => some h
  | c :: cs =>
    match h.get c with
    | none => none
    | some _ => setParentAll (h.modify c fun n => { n with parent := some p }) p cs

/-- The parent fix-up `if (x.data.type == Group) for (child: x.children) child->parent = &x`
for a node `x` whose payload is now `d`. -/
def fixParents (h : Hy3Layout) (x : Nat) (d : Hy3NodeData) : Option Hy3Layout :=
  match d with
  | Hy3NodeData.group g => setParentAll h x g.children
  | Hy3NodeData.window _ => some h

/-- `Hy3Node::swapData`. Swapping a group node with itself move-assigns a destroyed payload and is
undefined. -/
def swapData (h : Hy3Layout) (a b : Nat) : Option Hy3Layout :=
  match h.get a, h.get b with
  | some na, some nb =>
    if a = b then
      match na.data with
      | Hy3NodeData.window _ => some h
      | Hy3NodeData.group _ => none
    else
      let aData := na.data.moved
      let h1 := h.modify a fun n => { n with data := nb.data.moved }
      let h2 := h1.modify b fun n => { n with data := aData.moved }
      match fixParents h2 a nb.data.moved with
      | none => none
      | some h3 => fixParents h3 b aData.moved
  | _, _ => none

/-- `Hy3Node::intoGroup`; the second component is the returned pointer (the new child). The
payload assigned by `this->data = layout` is a freshly constructed group. -/
def intoGroup (h : Hy3Layout) (this : Nat) (layout : Hy3GroupLayout)
    (ephemeral : GroupEphemeralityOption) : Option (Hy3Layout × Nat) :=
  match h.get this with
  | none => none
  | some tn =>
    let node := h.next
    let h1 := h.push_back
      { addr := node, parent := some this, data := Hy3NodeData.group (Hy3GroupData.new layout),
        workspace := tn.workspace }
    match swapData h1 this node with
    | none => none
    | some h2 =>
      some
        (h2.modify this fun n =>
          { n with
            data := Hy3NodeData.group
              { Hy3GroupData.new layout with
                children := [node]
                group_focused := false
                focused_child := some node
                ephemeral :=
                  ephemeral == GroupEphemeralityOption.Ephemeral
                    || ephemeral == GroupEphemeralityOption.ForceEphemeral } },
          node)

/-- `Hy3Node::swallowGroups`; the second component is the returned flag. -/
def swallowGroups (h : Hy3Layout) (into : Option Nat) : Option (Hy3Layout × Bool) :=
  match into with
  | none => some (h, false)
  | some i =>
    match h.get i with
    | none => none
    | some n =>
      match n.data with
      | Hy3NodeData.window _ => some (h, false)
      | Hy3NodeData.group g =>
        match g.children with
        | [child] =>
          match h.get child with
          | none => none
          | some cn =>
            if n.parent = none ∧ cn.data.type ≠ Hy3NodeType.Group then some (h, false)
            else
              match swapData h i child with
              | none => none
              | some h1 => some (h1.remove child, true)
        | _ => some (h, false)

/-! ## Trees: subtrees, ancestor chains, acyclicity -/

/-- `x` lies in the subtree below `a` (following child lists; `a` itself included). -/
inductive InSubtree (h : Hy3Layout) : Nat → Nat → Prop where
  | self (a : Nat) : InSubtree h a a
  | step {a c x : Nat} : c ∈ h.childrenOf a → InSubtree h c x → InSubtree h a x

/-- The ancestors of a node in order, from its parent up to a parentless root. -/
inductive AncestorChain (h : Hy3Layout) : Nat → List Nat → Prop where
  | root {a : Nat} {n : Hy3Node} : h.get a = some n → n.parent = none → AncestorChain h a []
  | step {a p : Nat} {n : Hy3Node} {ps : List Nat} :
      h.get a = some n → n.parent = some p → AncestorChain h p ps → AncestorChain h a (p :: ps)

/-- A rank that strictly decreases from every node to its parent and is at most `B` on the
store. -/
def RankedBy (h : Hy3Layout) (rank : Nat → Nat) (B : Nat) : Prop :=
  ∀ a n, h.get a = some n → rank a ≤ B ∧ ∀ p, n.parent = some p → rank p < rank a

/-- No node is its own ancestor. -/
def Acyclic (h : Hy3Layout) : Prop := ∃ rank B, RankedBy h rank B

/-- `h'` is `h` with `group_focused` set on every group whose address satisfies `S`. -/
def MarkedFrom (h h' : Hy3Layout) (S : Nat → Prop) : Prop :=
  h'.next = h.next ∧ h'.nodes.map Hy3Node.addr = h.nodes.map Hy3Node.addr ∧
  ∀ x, (S x → h'.get x =
      (h.get x).map (Hy3Node.mapGroup fun g => { g with group_focused := true })) ∧
    (¬ S x → h'.get x = h.get x)

/-- Every child pointer leads to a stored node of larger rank (at most `B`). -/
def ChildrenRanked (h : Hy3Layout) (rank : Nat → Nat) (B : Nat) : Prop :=
  ∀ a n c, h.get a = some n → c ∈ n.data.children →
    (h.get c).isSome ∧ rank a < rank c ∧ rank c ≤ B

/-- The child that `markFocused`, started at `a` with ancestors `ps`, leaves in the
`focused_child` of `x` (`none` when `x` is not one of the ancestors). -/
def focusTarget : Nat → List Nat → Nat → Option Nat
  | _, [], _ => none
  | a, p :: ps, x =>
    match focusTarget p ps x with
    | some c => some c
    | none => if x = p then some a else none

/-- What the upward loop of `markFocused` does to the node at `x`. -/
def focusUpdate (a : Nat) (ps : List Nat) (x : Nat) (n : Hy3Node) : Hy3Node :=
  match focusTarget a ps x with
  | some c => n.mapGroup fun g => { g with focused_child := some c, group_focused := false }
  | none => n

/-- A decision procedure for `RankedBy`. -/
def rankedCheck (h : Hy3Layout) (rank : Nat → Nat) (B : Nat) : Bool :=
  h.nodes.all fun n =>
    decide (rank n.addr ≤ B) &&
      match n.parent with
      | none => true
      | some p => decide (rank p < rank n.addr)

/-- The store after lines 699-733 of `removeFromParentRecursive`, for a round that takes `child`
out of the child list `cs0` of its parent `gp`. -/
def detachStore (this child gp : Nat) (cs0 : List Nat) (h : Hy3Layout) : Hy3Layout :=
  let h2 := (focusBeforeRemove h gp cs0 child).modifyGroup gp fun g =>
    { g with
      children := cs0.filter fun c => c ≠ child
      group_focused := false
      focused_child :=
        if (cs0.filter fun c => c ≠ child).length = 1 then (cs0.filter fun c => c ≠ child).head?
        else g.focused_child }
  if child ≠ this then h2.remove child else h2.modify child fun n => { n with parent := none }

/-! ## The tree manager (`Hy3Layout.cpp`) -/

/-- Modelled from the spec: the enum `ShiftDirection` of `Hy3Layout.hpp`, which is not among the
sources; its four values are the ones the `switch` statements of `Hy3Node.cpp` name. -/
inductive ShiftDirection where
  | Left
  | Down
  | Up
  | Right
  deriving DecidableEq, Repr

/-- What the layout reads from its collaborators (compositor, configuration, monitor, geometry
computed by the layout pass). -/
structure Env where
  /-- `valid(workspace)`. -/
  validWorkspace : Option Nat → Bool
  /-- `g_pCompositor->m_pLastWindow`. -/
  lastWindow : Option Nat
  /-- The window under the mouse cursor (`vectorToWindowUnified`). -/
  mouseWindow : Option Nat
  /-- `window->m_pWorkspace`. -/
  windowWorkspace : Nat → Option Nat
  /-- `window->m_bIsFloating`. -/
  windowFloating : Nat → Bool
  /-- `window->m_bIsMapped`. -/
  windowMapped : Nat → Bool
  /-- Usable width of the monitor of a workspace. -/
  monitorWidth : Option Nat → ℚ
  /-- Usable height of the monitor of a workspace. -/
  monitorHeight : Option Nat → ℚ
  /-- `plugin:hy3:tab_first_window`. -/
  tab_first_window : Int
  /-- `plugin:hy3:autotile:enable`. -/
  at_enable : Int
  /-- `plugin:hy3:autotile:ephemeral_groups`. -/
  at_ephemeral : Int
  /-- `plugin:hy3:autotile:trigger_width`. -/
  at_trigger_width : Int
  /-- `plugin:hy3:autotile:trigger_height`. -/
  at_trigger_height : Int
  /-- `Hy3Layout::shouldAutotileWorkspace`. -/
  shouldAutotileWorkspace : Option Nat → Bool
  /-- `Hy3Node::size` (x, y) as left by the last layout pass. -/
  nodeSize : Nat → ℚ × ℚ
  /-- `plugin:hy3:node_collapse_policy`. -/
  node_collapse_policy : Int

/-- `Hy3GroupData::setLayout`. -/
def Hy3GroupData.setLayout (g : Hy3GroupData) (layout : Hy3GroupLayout) : Hy3GroupData :=
  { g with
    layout := layout
    previous_nontab_layout :=
      if layout ≠ Hy3GroupLayout.Tabbed then layout else g.previous_nontab_layout }

/-- `Hy3Layout::getWorkspaceRootGroup`. -/
def getWorkspaceRootGroup (h : Hy3Layout) (workspace : Option Nat) : Option Nat :=
  (h.nodes.find? fun n =>
    n.workspace == workspace && n.parent == none && n.data.type == Hy3NodeType.Group
      && !n.reparenting).map Hy3Node.addr

/-- `Hy3Layout::getNodeFromWindow`. -/
def getNodeFromWindow (h : Hy3Layout) (window : Option Nat) : Option Nat :=
  (h.nodes.find? fun n => n.data == Hy3NodeData.window window).map Hy3Node.addr

/-- The loop of `Hy3Node::hasChild`. -/
def hasChildLoop : Nat → Hy3Layout → Nat → Option Nat → Option Bool
  | 0, _, _, _ => none
  | _ + 1, _, _, none => some false
  | fuel + 1, h, this, some a =>
    match h.get a with
    | none => none
    | some an => if an.parent = some this then some true else hasChildLoop fuel h this an.parent

/-- `Hy3Node::hasChild`. -/
def hasChild (fuel : Nat) (h : Hy3Layout) (this : Nat) (node : Option Nat) : Option Bool :=
  match h.get this with
  | none => none
  | some tn =>
    match tn.data with
    | Hy3NodeData.window _ => some false
    | Hy3NodeData.group _ => hasChildLoop fuel h this node

/-- `children.insert(std::next(std::find(begin, end, after)), node)`; `none` when `after` is not
in the list (`std::next(end())`). -/
def insertAfter : List Nat → Nat → Nat → Option (List Nat)
  | [], _, _ => none
  | x :: xs, after, node =>
    if x = after then some (x :: node :: xs)
    else (insertAfter xs after node).map fun r => x :: r

/-- `insertNode`, lines 140-150: the focused node of the workspace root, wrapped into a group when
it is the root itself. -/
def openingAfterFromRoot (fuel : Nat) (h : Hy3Layout) (workspace : Option Nat) :
    Option (Hy3Layout × Option Nat) :=
  match getWorkspaceRootGroup h workspace with
  | none => some (h, none)
  | some root =>
    match getFocusedNode fuel h root false false with
    | none => none
    | some opening_after =>
      if opening_after = some root then
        match intoGroup h root Hy3GroupLayout.SplitH GroupEphemeralityOption.Standard with
        | none => none
        | some (h1, c) => some (h1, some c)
      else some (h, opening_after)

/-- `insertNode`, lines 152-171: the node of the last focused window, else of the window under
the cursor. The test `node.data.type == Window || m_pLastWindow != node.data.as_window` is taken
as true: for a group node it compares a live window pointer with the first bytes of the group
payload. -/
def fallbackAnchor (env : Env) (h : Hy3Layout) (workspace : Option Nat) : Option Nat :=
  let mouse : Option Nat :=
    match env.mouseWindow with
    | some mw => if env.windowWorkspace mw = workspace then getNodeFromWindow h (some mw) else none
    | none => none
  match env.lastWindow with
  | some lw =>
    if env.windowWorkspace lw = workspace ∧ env.windowFloating lw = false
        ∧ env.windowMapped lw = true then
      getNodeFromWindow h (some lw)
    else mouse
  | none => mouse

/-- `insertNode`, lines 173-179: drop an anchor that is the node itself, lies below it, or is
being reparented. -/
def anchorUsable (fuel : Nat) (h : Hy3Layout) (node : Nat) (opening_after : Option Nat) :
    Option (Option Nat) :=
  match opening_after with
  | none => some none
  | some a =>
    match h.get node, h.get a with
    | some nn, some an =>
      let below : Option Bool :=
        if nn.data.type = Hy3NodeType.Group then
          if a = node then some true else hasChild fuel h node (some a)
        else some false
      match below with
      | none => none
      | some b => if b || an.reparenting then some none else some (some a)
    | _, _ => none

/-- `insertNode`, lines 181-218: the group to open into; a root (and under `tab_first_window` a
tabbed child) is created when the workspace has none. -/
def openingInto (env : Env) (h : Hy3Layout) (workspace : Option Nat)
    (opening_after : Option Nat) : Option (Hy3Layout × Option Nat) :=
  match opening_after with
  | some a =>
    match h.get a with
    | none => none
    | some an => some (h, an.parent)
  | none =>
    match getWorkspaceRootGroup h workspace with
    | some r => some (h, some r)
    | none =>
      let root := h.next
      let h1 := h.push_back
        { addr := root, workspace := workspace,
          data := Hy3NodeData.group (Hy3GroupData.new
            (if env.monitorHeight workspace > env.monitorWidth workspace then Hy3GroupLayout.SplitV
             else Hy3GroupLayout.SplitH)) }
      if env.tab_first_window ≠ 0 then
        let tab := h1.next
        let h2 := h1.push_back
          { addr := tab, parent := some root, workspace := workspace,
            data := Hy3NodeData.group (Hy3GroupData.new Hy3GroupLayout.Tabbed) }
        some (h2.modifyGroup root fun g => { g with children := g.children ++ [tab] }, some tab)
      else some (h1, some root)

/-- `insertNode`, lines 237-266: the autotile heuristic; returns the store, `opening_into` and
`opening_after`. -/
def autotile (env : Env) (h : Hy3Layout) (opening_into : Nat) (opening_after : Option Nat) :
    Option (Hy3Layout × Nat × Option Nat) :=
  match h.get opening_into with
  | none => none
  | some oin =>
    match oin.data with
    | Hy3NodeData.window _ => none
    | Hy3NodeData.group target_group =>
      match opening_after with
      | none => some (h, opening_into, none)
      | some a =>
        if env.at_enable ≠ 0 ∧ target_group.children.length > 1
            ∧ target_group.layout ≠ Hy3GroupLayout.Tabbed
            ∧ env.shouldAutotileWorkspace oin.workspace = true then
          let is_horizontal : Bool := target_group.layout = Hy3GroupLayout.SplitH
          let trigger : Int := if is_horizontal then env.at_trigger_width else env.at_trigger_height
          let target_size : ℚ :=
            if is_horizontal then (env.nodeSize opening_into).1 else (env.nodeSize opening_into).2
          let size_after_addition : ℚ := target_size / ((target_group.children.length : ℚ) + 1)
          if trigger ≥ 0 ∧ (trigger = 0 ∨ size_after_addition < (trigger : ℚ)) then
            match intoGroup h a
                (if is_horizontal then Hy3GroupLayout.SplitV else Hy3GroupLayout.SplitH)
                (if env.at_ephemeral ≠ 0 then GroupEphemeralityOption.Ephemeral
                 else GroupEphemeralityOption.Standard) with
            | none => none
            | some (h1, a1) => some (h1, a, some a1)
          else some (h, opening_into, some a)
        else some (h, opening_into, some a)

/-- `insertNode`, lines 271-278: splice the node into the child list. -/
def attach (h : Hy3Layout) (opening_into node : Nat) (opening_after : Option Nat) :
    Option Hy3Layout :=
  match h.group opening_into with
  | none => none
  | some g =>
    match opening_after with
    | none => some (h.modifyGroup opening_into fun g => { g with children := g.children ++ [node] })
    | some a =>
      match insertAfter g.children a node with
      | none => none
      | some cs => some (h.modifyGroup opening_into fun g => { g with children := cs })

/-- `Hy3Layout::insertNode`. -/
def insertNode (env : Env) (fuel : Nat) (h : Hy3Layout) (node : Nat) : Option Hy3Layout :=
  match h.get node with
  | none => none
  | some nn =>
    if nn.parent ≠ none then some h
    else if env.validWorkspace nn.workspace = false then some h
    else
      let h0 := h.modify node fun n => { n with reparenting := true }
      match openingAfterFromRoot fuel h0 nn.workspace with
      | none => none
      | some (h1, from_root) =>
        let opening_after0 : Option Nat :=
          match from_root with
          | some a => some a
          | none => fallbackAnchor env h1 nn.workspace
        match anchorUsable fuel h1 node opening_after0 with
        | none => none
        | some opening_after1 =>
          match openingInto env h1 nn.workspace opening_after1 with
          | none => none
          | some (_, none) => none
          | some (h2, some opening_into0) =>
            match h2.get opening_into0 with
            | none => none
            | some oin =>
              match oin.data with
              | Hy3NodeData.window _ => some h2
              | Hy3NodeData.group _ =>
                match autotile env h2 opening_into0 opening_after1 with
                | none => none
                | some (h3, opening_into, opening_after) =>
                  let h4 := h3.modify node fun n =>
                    { n with parent := some opening_into, reparenting := false }
                  match attach h4 opening_into node opening_after with
                  | none => none
                  | some h5 => markFocused fuel h5 node

/-- `Hy3Layout::onWindowCreatedTiling`. -/
def onWindowCreatedTiling (env : Env) (fuel : Nat) (h : Hy3Layout) (window : Nat) :
    Option Hy3Layout :=
  if env.windowFloating window = true then some h
  else
    match getNodeFromWindow h (some window) with
    | some _ => some h
    | none =>
      insertNode env fuel
        (h.push_back
          { addr := h.next, parent := none, data := Hy3NodeData.window (some window),
            workspace := env.windowWorkspace window })
        h.next

/-- `changeNodeWorkspaceRecursive`. -/
def changeNodeWorkspaceRecursive : Nat → Hy3Layout → Nat → Option Nat → Option Hy3Layout
  | 0, _, _, _ => none
  | fuel + 1, h, node, workspace =>
    match h.get node with
    | none => none
    | some n =>
      match n.data with
      | Hy3NodeData.window _ => some (h.modify node fun m => { m with workspace := workspace })
      | Hy3NodeData.group g =>
        g.children.foldlM (fun acc c => changeNodeWorkspaceRecursive fuel acc c workspace)
          (h.modify node fun m => { m with workspace := workspace })

/-- `Hy3Layout::moveNodeToWorkspace`, lines 1383-1388: the tiled branch, moving the focused node
`node` to the workspace `workspace`. -/
def moveNodeToWorkspaceTiled (env : Env) (fuel : Nat) (h : Hy3Layout) (node : Nat)
    (workspace : Option Nat) : Option Hy3Layout :=
  match removeFromParentRecursive fuel h node with
  | none => none
  | some r =>
    match changeNodeWorkspaceRecursive fuel r.layout node workspace with
    | none => none
    | some h1 => insertNode env fuel h1 node

/-! ## Removing windows and shifting nodes (`Hy3Layout.cpp`) -/

/-- `shiftIsForward`. -/
def shiftIsForward (direction : ShiftDirection) : Bool :=
  direction == ShiftDirection.Right || direction == ShiftDirection.Down

/-- `shiftIsVertical`. -/
def shiftIsVertical (direction : ShiftDirection) : Bool :=
  direction == ShiftDirection.Up || direction == ShiftDirection.Down

/-- `shiftMatchesLayout`. -/
def shiftMatchesLayout (layout : Hy3GroupLayout) (direction : ShiftDirection) : Bool :=
  (layout == Hy3GroupLayout.SplitV && shiftIsVertical direction)
    || (layout != Hy3GroupLayout.SplitV && !shiftIsVertical direction)

/-- The lambda `node_is_collapsible` of `onWindowRemovedTiling`. -/
def nodeIsCollapsible (env : Env) (h : Hy3Layout) (node : Nat) : Option Bool :=
  match h.get node with
  | none => none
  | some n =>
    if n.data.type ≠ Hy3NodeType.Group then some false
    else if env.node_collapse_policy = 0 then some true
    else if env.node_collapse_policy = 1 then some false
    else
      match n.parent with
      | none => none
      | some p =>
        match h.group p with
        | none => none
        | some pg => some (pg.layout != Hy3GroupLayout.Tabbed)

/-- The loop `while (target_parent != nullptr && Hy3Node::swallowGroups(target_parent))
target_parent = target_parent->parent`. -/
def swallowLoop : Nat → Hy3Layout → Option Nat → Option Hy3Layout
  | 0, _, _ => none
  | _ + 1, h, none => some h
  | fuel + 1, h, some target_parent =>
    match swallowGroups h (some target_parent) with
    | none => none
    | some (h1, false) => some h1
    | some (h1, true) =>
      match h1.get target_parent with
      | none => none
      | some tn => swallowLoop fuel h1 tn.parent

/-- `Hy3Layout::onWindowRemovedTiling`. The reference `group` bound before the test
`parent != nullptr` is only read under that test. -/
def onWindowRemovedTiling (env : Env) (fuel : Nat) (h : Hy3Layout) (window : Nat) :
    Option Hy3Layout :=
  match getNodeFromWindow h (some window) with
  | none => some h
  | some node =>
    match removeFromParentRecursive fuel h node with
    | none => none
    | some r =>
      let h1 := r.layout.remove node
      match r.ret with
      | none => some h1
      | some parent =>
        match h1.group parent with
        | none => none
        | some group =>
          match group.children with
          | [front] =>
            let collapse : Option Bool :=
              if group.ephemeral then some true else nodeIsCollapsible env h1 front
            match collapse with
            | none => none
            | some true => swallowLoop fuel h1 (some parent)
            | some false => some h1
          | _ => some h1

/-- `shiftOrGetFocus`, lines 1984-2048: the loop that breaks out of parents. The inner `none` is
`return nullptr`; otherwise the result holds the store, `break_origin`, `break_parent` and
`has_broken_once` at the `break`. -/
def breakLoop (node : Nat) (direction : ShiftDirection) (shift once visible : Bool) :
    Nat → Hy3Layout → Nat → Option Nat → Bool → Option (Option (Hy3Layout × Nat × Nat × Bool))
  | 0, _, _, _, _ => none
  | _ + 1, _, _, none, _ => some none
  | fuel + 1, h, break_origin, some break_parent, has_broken_once =>
    match h.get break_parent with
    | none => none
    | some pn =>
      match pn.data with
      | Hy3NodeData.window _ => none
      | Hy3NodeData.group group =>
        let first : Option (Bool × Bool) :=
          if shiftMatchesLayout group.layout direction
              && (!visible || group.layout != Hy3GroupLayout.Tabbed) then
            if once && shift && has_broken_once then some (true, has_broken_once)
            else
              let hbo := has_broken_once || break_origin != node
              if hbo && once && shift then some (true, hbo)
              else
                match (if shiftIsForward direction then group.children.getLast?
                  else group.children.head?) with
                | none => none
                | some edge => some (edge != break_origin, hbo)
          else some (false, has_broken_once)
        match first with
        | none => none
        | some (true, hbo) => some (some (h, break_origin, break_parent, hbo))
        | some (false, hbo) =>
          match pn.parent with
          | none =>
            if !shift then some none
            else if group.layout != Hy3GroupLayout.Tabbed
                && shiftMatchesLayout group.layout direction then
              some (some (h, break_origin, break_parent, hbo))
            else if group.layout != Hy3GroupLayout.Tabbed && group.children.length == 2
                && group.children.contains node then
              some (some
                (h.modifyGroup break_parent fun g =>
                  g.setLayout
                    (if shiftIsVertical direction then Hy3GroupLayout.SplitV
                     else Hy3GroupLayout.SplitH),
                 break_origin, break_parent, hbo))
            else
              let newChild := h.next
              let h1 := h.push_back
                { addr := newChild, parent := some break_parent,
                  data := Hy3NodeData.group (Hy3GroupData.new
                    (if shiftIsVertical direction then Hy3GroupLayout.SplitV
                     else Hy3GroupLayout.SplitH)),
                  workspace := pn.workspace }
              match swapData h1 break_parent newChild with
              | none => none
              | some h2 =>
                some (some
                  (h2.modifyGroup break_parent fun g =>
                    { g with
                      children := g.children ++ [newChild]
                      group_focused := false
                      focused_child := some newChild },
                   newChild, break_parent, hbo))
          | some grandparent => breakLoop node direction shift once visible fuel h break_parent
              (some grandparent) hbo

/-- What `shiftOrGetFocus` has decided once the insert position is resolved: the pointer to
return without moving anything, or the group and the position in its child list where the node
goes. -/
inductive ShiftTarget where
  | ret (result : Option Nat)
  | place (target_group insert : Nat)
  deriving DecidableEq

/-- `shiftOrGetFocus`, lines 2092-2160: break into neighbouring groups until a window is hit;
`iter` is the group entered. -/
def descendLoop (direction : ShiftDirection) (shift once visible : Bool) :
    Nat → Hy3Layout → Nat → Option ShiftTarget
  | 0, _, _ => none
  | fuel + 1, h, iter =>
    match h.group iter with
    | none => none
    | some group_data =>
      if group_data.children = [] then some (ShiftTarget.ret none)
      else
        let cs := group_data.children
        let tabbed : Bool := group_data.layout == Hy3GroupLayout.Tabbed
        let edge : Nat × Bool :=
          if shiftIsForward direction then (0, false) else (cs.length - 1, true)
        let pick : Nat × Bool :=
          match group_data.focused_child with
          | some fc =>
            if !shift && tabbed then (cs.indexOf fc, false)
            else if visible && tabbed then (cs.indexOf fc, true)
            else if shiftMatchesLayout group_data.layout direction || (visible && tabbed) then edge
            else (cs.indexOf fc, true)
          | none =>
            if shiftMatchesLayout group_data.layout direction || (visible && tabbed) then edge
            else (0, false)
        let insert : Option Nat :=
          if pick.2 then (if pick.1 < cs.length then some (pick.1 + 1) else none)
          else some pick.1
        if shift && once then insert.map (ShiftTarget.place iter)
        else
          match cs.get? pick.1 with
          | none => none
          | some next =>
            match h.get next with
            | none => none
            | some nn =>
              let stop : Bool :=
                match nn.data with
                | Hy3NodeData.window _ => true
                | Hy3NodeData.group g => g.expand_focused != ExpandFocusType.NotExpanded
              if stop then
                if shift then insert.map (ShiftTarget.place iter)
                else (getFocusedNode fuel h next false false).map ShiftTarget.ret
              else descendLoop direction shift once visible fuel h next

/-- `shiftOrGetFocus`, lines 2050-2161: resolve the insert position (an index into the child list
of the target group). -/
def resolveInsert (fuel : Nat) (h : Hy3Layout) (node break_origin break_parent : Nat)
    (has_broken_once : Bool) (direction : ShiftDirection) (shift once visible : Bool) :
    Option ShiftTarget :=
  match h.group break_parent with
  | none => none
  | some parent_group =>
    let cs := parent_group.children
    match cs.head?, cs.getLast? with
    | some front, some back =>
      if break_origin == front && !shiftIsForward direction then
        if !shift then some (ShiftTarget.ret none) else some (ShiftTarget.place break_parent 0)
      else if break_origin == back && shiftIsForward direction then
        if !shift then some (ShiftTarget.ret none)
        else some (ShiftTarget.place break_parent cs.length)
      else
        let found := cs.indexOf break_origin
        let pos : Option Nat :=
          if shiftIsForward direction then (if found < cs.length then some (found + 1) else none)
          else (if found = 0 then none else some (found - 1))
        match pos with
        | none => none
        | some i =>
          match cs.get? i with
          | none => none
          | some iter =>
            match h.get iter with
            | none => none
            | some itn =>
              let stop : Bool :=
                match itn.data with
                | Hy3NodeData.window _ => true
                | Hy3NodeData.group g => g.expand_focused != ExpandFocusType.NotExpanded
              if stop || (shift && once && has_broken_once) then
                if shift then
                  match h.get node with
                  | none => none
                  | some nn =>
                    if nn.parent = some break_parent then
                      some (ShiftTarget.place break_parent
                        (if shiftIsForward direction then i + 1 else i))
                    else
                      some (ShiftTarget.place break_parent
                        (if shiftIsForward direction then i else i + 1))
                else (getFocusedNode fuel h iter false false).map ShiftTarget.ret
              else descendLoop direction shift once visible fuel h iter
    | _, _ => none

/-- `children.insert(insert, node)` with the iterator `insert` given as an index. -/
def insertAt (cs : List Nat) (insert node : Nat) : List Nat :=
  cs.take insert ++ node :: cs.drop insert

/-- Lines 2166-2170: the entry of `node` is overwritten with `nullptr`, `node` is inserted at
`insert`, and the `nullptr` entry is removed. -/
def reorderChild (cs : List Nat) (node insert : Nat) : Option (List Nat) :=
  if node ∈ cs then
    let marked : List (Option Nat) := (cs.map some).set (cs.indexOf node) none
    some ((marked.take insert ++ some node :: marked.drop insert).filterMap id)
  else none

/-- `shiftOrGetFocus`, lines 2163-2204: move the node to position `insert` of `target_group`. -/
def applyShift (fuel : Nat) (h : Hy3Layout) (node target_group insert : Nat) :
    Option Hy3Layout :=
  match h.get node, h.group target_group with
  | some nn, some group_data =>
    if nn.parent = some target_group then
      match reorderChild group_data.children node insert with
      | none => none
      | some cs => some (h.modifyGroup target_group fun g => { g with children := cs })
    else
      let h1 := h.modifyGroup target_group fun g =>
        { g with children := insertAt g.children insert node }
      match removeFromParentRecursive fuel h1 node with
      | none => none
      | some r =>
        let h2 := r.layout.modify node fun n =>
          { n with parent := some target_group, size_ratio := 1 }
        let swallowed : Option Hy3Layout :=
          match r.ret with
          | none => some h2
          | some old_parent =>
            match h2.get old_parent with
            | none => none
            | some opn =>
              match opn.data with
              | Hy3NodeData.window _ => none
              | Hy3NodeData.group group =>
                if opn.parent ≠ none ∧ group.ephemeral = true ∧ group.children.length = 1 then
                  match hasChild fuel h2 old_parent (some node) with
                  | none => none
                  | some true => some h2
                  | some false => (swallowGroups h2 (some old_parent)).map Prod.fst
                else some h2
        match swallowed with
        | none => none
        | some h3 =>
          match h3.get target_group with
          | none => none
          | some tn =>
            match swallowLoop fuel h3 tn.parent with
            | none => none
            | some h4 => markFocused fuel h4 node
  | _, _ => none

/-- `Hy3Layout::shiftOrGetFocus`; the second component is the returned pointer. -/
def shiftOrGetFocus (fuel : Nat) (h : Hy3Layout) (node : Nat) (direction : ShiftDirection)
    (shift once visible : Bool) : Option (Hy3Layout × Option Nat) :=
  match getExpandActor fuel h node with
  | none => none
  | some break_origin =>
    match h.get break_origin with
    | none => none
    | some bn =>
      match breakLoop node direction shift once visible fuel h break_origin bn.parent false with
      | none => none
      | some none => some (h, none)
      | some (some (h1, origin, parent, has_broken_once)) =>
        match resolveInsert fuel h1 node origin parent has_broken_once direction shift once
            visible with
        | none => none
        | some (ShiftTarget.ret result) => some (h1, result)
        | some (ShiftTarget.place target_group insert) =>
          (applyShift fuel h1 node target_group insert).map fun h2 => (h2, none)

/-- `Hy3Layout::shiftNode`. -/
def shiftNode (fuel : Nat) (h : Hy3Layout) (node : Nat) (direction : ShiftDirection)
    (once visible : Bool) : Option Hy3Layout :=
  match h.get node with
  | none => none
  | some nn =>
    let shifted : Option Hy3Layout :=
      (shiftOrGetFocus fuel h node direction true once visible).map Prod.fst
    if once then
      match nn.parent with
      | none => shifted
      | some p =>
        match h.get p with
        | none => none
        | some pn =>
          match pn.data with
          | Hy3NodeData.window _ => none
          | Hy3NodeData.group pg =>
            if pg.children.length = 1 then
              match pn.parent with
              | none => some (h.modifyGroup p fun g => g.setLayout Hy3GroupLayout.SplitH)
              | some _ =>
                match swapData h node p with
                | none => none
                | some h1 => some (h1.remove node)
            else shifted
    else shifted

/-- The node `r` is below the allocation counter, no node of the store is at or above it, `r` is
a parentless group if it is in the store, and `r` is in no child list. -/
structure RootKept (r : Nat) (h : Hy3Layout) : Prop where
  lt : r < h.next
  fresh : ∀ a, h.next ≤ a → h.get a = none
  root : ∀ n, h.get r = some n → n.data.type = Hy3NodeType.Group ∧ n.parent = none
  nochild : ∀ a g, h.get a = some g → r ∉ g.data.children

/-! ## Reachable stores and the focus invariant -/

/-- A group that does not hold the focus itself names one of its children as focused. -/
def Hy3GroupData.focusOK (g : Hy3GroupData) : Prop :=
  g.group_focused = false → ∃ fc, g.focused_child = some fc ∧ fc ∈ g.children

/-- Every group of the store with `group_focused == false` has a non-null `focused_child` that
is a member of its own child list. -/
def FocusInv (h : Hy3Layout) : Prop := ∀ a g, h.group a = some g → g.focusOK

/-- The empty node store. -/
def Hy3Layout.empty : Hy3Layout := { nodes := [], next := 0 }

/-- The stores reachable from the empty store by opening windows (`onWindowCreatedTiling`
creates the node and calls `insertNode`) and by `insertNode`, `markFocused`, `intoGroup`,
`swallowGroups` and `removeFromParentRecursive` on arbitrary nodes, in any environment. -/
inductive Reachable : Hy3Layout → Prop where
  | empty : Reachable Hy3Layout.empty
  | onWindowCreatedTiling {h h' : Hy3Layout} (env : Env) (fuel window : Nat) :
      Reachable h → Hy3.onWindowCreatedTiling env fuel h window = some h' → Reachable h'
  | insertNode {h h' : Hy3Layout} (env : Env) (fuel node : Nat) :
      Reachable h → Hy3.insertNode env fuel h node = some h' → Reachable h'
  | markFocused {h h' : Hy3Layout} (fuel node : Nat) :
      Reachable h → Hy3.markFocused fuel h node = some h' → Reachable h'
  | intoGroup {h h' : Hy3Layout} (node : Nat) (layout : Hy3GroupLayout)
      (ephemeral : GroupEphemeralityOption) (c : Nat) :
      Reachable h → Hy3.intoGroup h node layout ephemeral = some (h', c) → Reachable h'
  | swallowGroups {h h' : Hy3Layout} (into : Option Nat) (b : Bool) :
      Reachable h → Hy3.swallowGroups h into = some (h', b) → Reachable h'
  | removeFromParentRecursive {h : Hy3Layout} (fuel node : Nat) (r : RemoveResult) :
      Reachable h → Hy3.removeFromParentRecursive fuel h node = some r → Reachable r.layout

/-! ## Geometry and resizing (`Hy3Node.cpp`, lines 257-459 and 797-909)

The layout fields of a node (`position`, `size`, the two gap offsets and `hidden`) are kept in a
table indexed by node address, next to the node store: the functions of the tree above never
read or write them, and the layout pass never changes the tree. All arithmetic is exact. -/

/-- The compositor's `Vector2D`. -/
structure Vector2D where
  x : ℚ
  y : ℚ
  deriving DecidableEq

/-- The layout fields of `Hy3Node`. -/
structure NodeGeometry where
  position : Vector2D := ⟨0, 0⟩
  size : Vector2D := ⟨0, 0⟩
  gap_topleft_offset : Vector2D := ⟨0, 0⟩
  gap_bottomright_offset : Vector2D := ⟨0, 0⟩
  hidden : Bool := false
  deriving DecidableEq

/-- The layout fields of every node, by address. -/
abbrev Geometry := Nat → NodeGeometry

/-- Overwrite the layout fields of one node. -/
def Geometry.set (geo : Geometry) (a : Nat) (g : NodeGeometry) : Geometry :=
  fun x => if x = a then g else geo x

/-- The compositor's `CCssGapData` (`general:gaps_in`, `general:gaps_out`). -/
structure CCssGapData where
  left : Int
  top : Int
  right : Int
  bottom : Int

/-- What `recalcSizePosRecursive` reads from the configuration and the compositor. -/
structure LayoutConfig where
  /-- `general:gaps_in`. -/
  gaps_in : CCssGapData
  /-- `general:gaps_out`. -/
  gaps_out : CCssGapData
  /-- `plugin:hy3:group_inset`. -/
  group_inset : Int
  /-- `plugin:hy3:tabs:height`. -/
  tab_bar_height : Int
  /-- `plugin:hy3:tabs:padding`. -/
  tab_bar_padding : Int

/-- Modelled from the spec: the enum `Axis` of `Hy3Layout.hpp`, which is not among the sources. -/
inductive Axis where
  | None
  | Horizontal
  | Vertical
  deriving DecidableEq, Repr

/-- Modelled from the spec: `getAxis(Hy3GroupLayout)` of `Hy3Layout.cpp`, declared in a header
that is not among the sources; a horizontal split lies on the horizontal axis, a vertical split
on the vertical one, a tabbed group on none. -/
def getAxisOfLayout : Hy3GroupLayout → Axis
  | Hy3GroupLayout.SplitH => Axis.Horizontal
  | Hy3GroupLayout.SplitV => Axis.Vertical
  | Hy3GroupLayout.Tabbed => Axis.None

/-- Modelled from the spec: `getAxis(ShiftDirection)`; left and right lie on the horizontal axis,
up and down on the vertical one. -/
def getAxisOfDirection : ShiftDirection → Axis
  | ShiftDirection.Left => Axis.Horizontal
  | ShiftDirection.Right => Axis.Horizontal
  | ShiftDirection.Up => Axis.Vertical
  | ShiftDirection.Down => Axis.Vertical

/-- `Hy3Node::setHidden`. -/
def setHidden : Nat → Hy3Layout → Geometry → Nat → Bool → Option Geometry
  | 0, _, _, _, _ => none
  | fuel + 1, h, geo, this, hidden =>
    match h.get this with
    | none => none
    | some n =>
      let geo1 := geo.set this { geo this with hidden := hidden }
      match n.data with
      | Hy3NodeData.window _ => some geo1
      | Hy3NodeData.group g =>
        g.children.foldlM (fun acc child => setHidden fuel h acc child hidden) geo1

/-- `recalcSizePosRecursive`, lines 343-351: follow `focused_child` through the expanded groups
below a latch; the inner `none` is a null `expanded_node`. -/
def expansionTarget : Nat → Hy3Layout → Option Nat → Option (Option Nat)
  | 0, _, _ => none
  | _ + 1, _, none => some none
  | fuel + 1, h, some expanded_node =>
    match h.get expanded_node with
    | none => none
    | some n =>
      match n.data with
      | Hy3NodeData.window _ => some (some expanded_node)
      | Hy3NodeData.group g =>
        if g.expand_focused ≠ ExpandFocusType.NotExpanded then
          expansionTarget fuel h g.focused_child
        else some (some expanded_node)

/-- The body of the `switch` in the child loop of `recalcSizePosRecursive` (lines 382-459): the
layout fields written to one child, and the new `offset`. -/
def placeChild (layout : Hy3GroupLayout) (tpos tsize gap_topleft_offset
    gap_bottomright_offset : Vector2D) (tab_height_offset ratio_mul : ℚ) (group_inset : Int)
    (has_parent this_hidden expand_focused : Bool) (children : List Nat)
    (focused_child : Option Nat) (child : Nat) (size_ratio offset : ℚ) : NodeGeometry × ℚ :=
  match layout with
  | Hy3GroupLayout.SplitH =>
    let size_x := size_ratio * ratio_mul
    let offset1 := offset + size_x
    let position : Vector2D := ⟨tpos.x + offset, tpos.y⟩
    let hidden := this_hidden || expand_focused
    if children.length = 1 then
      ({ position := position, size := ⟨tsize.x, tsize.y⟩, hidden := hidden,
         gap_topleft_offset := gap_topleft_offset,
         gap_bottomright_offset :=
          ⟨gap_bottomright_offset.x + (if has_parent then (group_inset : ℚ) else 0),
            gap_bottomright_offset.y⟩ }, offset1)
    else if children.head? = some child then
      ({ position := position, size := ⟨size_x + gap_topleft_offset.x, tsize.y⟩, hidden := hidden,
         gap_topleft_offset := gap_topleft_offset,
         gap_bottomright_offset := ⟨0, gap_bottomright_offset.y⟩ },
        offset1 + gap_topleft_offset.x)
    else if children.getLast? = some child then
      ({ position := position, size := ⟨size_x + gap_bottomright_offset.x, tsize.y⟩,
         hidden := hidden,
         gap_topleft_offset := ⟨0, gap_topleft_offset.y⟩,
         gap_bottomright_offset := gap_bottomright_offset }, offset1)
    else
      ({ position := position, size := ⟨size_x, tsize.y⟩, hidden := hidden,
         gap_topleft_offset := ⟨0, gap_topleft_offset.y⟩,
         gap_bottomright_offset := ⟨0, gap_bottomright_offset.y⟩ }, offset1)
  | Hy3GroupLayout.SplitV =>
    let size_y := size_ratio * ratio_mul
    let offset1 := offset + size_y
    let position : Vector2D := ⟨tpos.x, tpos.y + offset⟩
    let hidden := this_hidden || expand_focused
    if children.length = 1 then
      ({ position := position, size := ⟨tsize.x, tsize.y⟩, hidden := hidden,
         gap_topleft_offset := gap_topleft_offset,
         gap_bottomright_offset :=
          ⟨gap_bottomright_offset.x,
            gap_bottomright_offset.y + (if has_parent then (group_inset : ℚ) else 0)⟩ }, offset1)
    else if children.head? = some child then
      ({ position := position, size := ⟨tsize.x, size_y + gap_topleft_offset.y⟩, hidden := hidden,
         gap_topleft_offset := gap_topleft_offset,
         gap_bottomright_offset := ⟨gap_bottomright_offset.x, 0⟩ },
        offset1 + gap_topleft_offset.y)
    else if children.getLast? = some child then
      ({ position := position, size := ⟨tsize.x, size_y + gap_bottomright_offset.y⟩,
         hidden := hidden,
         gap_topleft_offset := ⟨gap_topleft_offset.x, 0⟩,
         gap_bottomright_offset := gap_bottomright_offset }, offset1)
    else
      ({ position := position, size := ⟨tsize.x, size_y⟩, hidden := hidden,
         gap_topleft_offset := ⟨gap_topleft_offset.x, 0⟩,
         gap_bottomright_offset := ⟨gap_bottomright_offset.x, 0⟩ }, offset1)
  | Hy3GroupLayout.Tabbed =>
    ({ position := tpos, size := tsize,
       hidden := this_hidden || expand_focused || decide (focused_child ≠ some child),
       gap_topleft_offset := ⟨gap_topleft_offset.x, gap_topleft_offset.y + tab_height_offset⟩,
       gap_bottomright_offset := gap_bottomright_offset }, offset)

/-- The child loop of `recalcSizePosRecursive` (lines 373-461); `recurse` is the recursive call
on a child. `this->hidden` is read again in every round. -/
def recalcChildren (recurse : Geometry → Nat → Option Geometry) (h : Hy3Layout) (this : Nat)
    (group : Hy3GroupData) (tpos tsize gap_topleft_offset gap_bottomright_offset : Vector2D)
    (tab_height_offset ratio_mul : ℚ) (group_inset : Int) (has_parent expand_focused
    directly_contains_expanded : Bool) : List Nat → Geometry → ℚ → Option Geometry
  | [], geo, _ => some geo
  | child :: rest, geo, offset =>
    match h.get child with
    | none => none
    | some cn =>
      if directly_contains_expanded && decide (group.focused_child = some child) then
        recalcChildren recurse h this group tpos tsize gap_topleft_offset gap_bottomright_offset
          tab_height_offset ratio_mul group_inset has_parent expand_focused
          directly_contains_expanded rest geo
          (if group.layout = Hy3GroupLayout.Tabbed then offset
           else offset + cn.size_ratio * ratio_mul)
      else
        let placed := placeChild group.layout tpos tsize gap_topleft_offset
          gap_bottomright_offset tab_height_offset ratio_mul group_inset has_parent
          (geo this).hidden expand_focused group.children group.focused_child child
          cn.size_ratio offset
        match recurse (geo.set child placed.1) child with
        | none => none
        | some geo1 =>
          recalcChildren recurse h this group tpos tsize gap_topleft_offset
            gap_bottomright_offset tab_height_offset ratio_mul group_inset has_parent
            expand_focused directly_contains_expanded rest geo1 placed.2

/-- `Hy3Node::recalcSizePosRecursive`, as far as the layout fields of nodes go: what is written
to windows of the compositor is outside the model, so a window node (fullscreen or not) leaves
the table as it is. -/
def recalcSizePosRecursive (cfg : LayoutConfig) :
    Nat → Hy3Layout → Geometry → Nat → Option Geometry
  | 0, _, _, _ => none
  | fuel + 1, h, geo, this =>
    match h.get this with
    | none => none
    | some n =>
      match n.data with
      | Hy3NodeData.window none => none
      | Hy3NodeData.window (some _) => some geo
      | Hy3NodeData.group group =>
        let gap_topleft_offset : Vector2D :=
          if n.parent ≠ none then (geo this).gap_topleft_offset
          else ⟨((-(cfg.gaps_in.left - cfg.gaps_out.left) : Int) : ℚ),
                ((-(cfg.gaps_in.top - cfg.gaps_out.top) : Int) : ℚ)⟩
        let gap_bottomright_offset : Vector2D :=
          if n.parent ≠ none then (geo this).gap_bottomright_offset
          else ⟨((-(cfg.gaps_in.right - cfg.gaps_out.right) : Int) : ℚ),
                ((-(cfg.gaps_in.bottom - cfg.gaps_out.bottom) : Int) : ℚ)⟩
        let tpos := (geo this).position
        let tsize := (geo this).size
        let tab_height_offset : ℚ := ((cfg.tab_bar_height + cfg.tab_bar_padding : Int) : ℚ)
        let constraint : ℚ :=
          match group.layout with
          | Hy3GroupLayout.SplitH => tsize.x - gap_topleft_offset.x - gap_bottomright_offset.x
          | Hy3GroupLayout.SplitV => tsize.y - gap_topleft_offset.y - gap_bottomright_offset.y
          | Hy3GroupLayout.Tabbed => 0
        let expand_focused : Bool := group.expand_focused != ExpandFocusType.NotExpanded
        let directly_contains_expanded : Option Bool :=
          if expand_focused then
            match group.focused_child with
            | none => none
            | some fc =>
              match h.get fc with
              | none => none
              | some fn =>
                match fn.data with
                | Hy3NodeData.window _ => some true
                | Hy3NodeData.group fg =>
                  some (fg.expand_focused == ExpandFocusType.NotExpanded)
          else some false
        match directly_contains_expanded with
        | none => none
        | some directly_contains_expanded =>
          let ratio_mul : ℚ :=
            if group.layout ≠ Hy3GroupLayout.Tabbed then
              (if group.children.length = 0 then 0 else constraint / group.children.length)
            else 0
          let unhidden : Option Geometry :=
            if group.layout = Hy3GroupLayout.Tabbed then
              match group.focused_child with
              | none => some geo
              | some fc =>
                match h.get fc with
                | none => none
                | some _ => if (geo fc).hidden = false then setHidden fuel h geo fc false
                            else some geo
            else some geo
          match unhidden with
          | none => none
          | some geo1 =>
            let latched : Option (Option Geometry) :=
              if group.expand_focused = ExpandFocusType.Latch then
                match expansionTarget fuel h group.focused_child with
                | none => none
                | some none => some none
                | some (some expanded_node) =>
                  let geo2 := geo1.set expanded_node
                    { geo1 expanded_node with position := tpos, size := tsize }
                  match setHidden fuel h geo2 expanded_node (geo2 this).hidden with
                  | none => none
                  | some geo3 =>
                    (recalcSizePosRecursive cfg fuel h
                      (geo3.set expanded_node
                        { geo3 expanded_node with
                          gap_topleft_offset := gap_topleft_offset
                          gap_bottomright_offset := gap_bottomright_offset })
                      expanded_node).map some
              else some (some geo1)
            match latched with
            | none => none
            | some none => some geo1
            | some (some geo4) =>
              recalcChildren (recalcSizePosRecursive cfg fuel h) h this group tpos tsize
                gap_topleft_offset gap_bottomright_offset tab_height_offset ratio_mul
                cfg.group_inset (decide (n.parent ≠ none)) expand_focused
                directly_contains_expanded group.children geo4 0

/-- `getOuterChild`; `none` is `front()` or `back()` of an empty list. -/
def getOuterChild (group : Hy3GroupData) (direction : ShiftDirection) : Option Nat :=
  match direction with
  | ShiftDirection.Left => group.children.head?
  | ShiftDirection.Up => group.children.head?
  | ShiftDirection.Right => group.children.getLast?
  | ShiftDirection.Down => group.children.getLast?

/-- `directionToIteratorIncrement`. -/
def directionToIteratorIncrement (direction : ShiftDirection) : Int :=
  match direction with
  | ShiftDirection.Left => -1
  | ShiftDirection.Up => -1
  | ShiftDirection.Right => 1
  | ShiftDirection.Down => 1

/-- `Hy3Node::getImmediateSibling`; `none` is a null parent, `std::prev(begin())` or
`std::next(end())`. -/
def getImmediateSibling (h : Hy3Layout) (this : Nat) (direction : ShiftDirection) :
    Option Nat :=
  match h.get this with
  | none => none
  | some n =>
    match n.parent with
    | none => none
    | some p =>
      match h.group p with
      | none => none
      | some group =>
        let iter := group.children.indexOf this
        let list_sibling : Option Nat :=
          if directionToIteratorIncrement direction = -1 then
            (if iter = 0 then none else some (iter - 1))
          else (if iter < group.children.length then some (iter + 1) else none)
        match list_sibling with
        | none => none
        | some s =>
          if s = group.children.length then group.children.get? iter
          else group.children.get? s

/-- The loop of `Hy3Node::findNeighbor`, started with the loop variable `current_node`; the
loop ends as soon as `sibling` is set. -/
def findNeighborLoop (direction : ShiftDirection) : Nat → Hy3Layout → Nat → Option (Option Nat)
  | 0, _, _ => none
  | fuel + 1, h, current_node =>
    match h.get current_node with
    | none => none
    | some cn =>
      match cn.parent with
      | none => some none
      | some p =>
        match h.group p with
        | none => none
        | some parent_group =>
          if parent_group.layout ≠ Hy3GroupLayout.Tabbed
              ∧ getAxisOfLayout parent_group.layout = getAxisOfDirection direction then
            match getOuterChild parent_group direction with
            | none => none
            | some outer =>
              if outer ≠ current_node then
                (getImmediateSibling h current_node direction).map some
              else findNeighborLoop direction fuel h p
          else findNeighborLoop direction fuel h p

/-- `Hy3Node::findNeighbor`. -/
def findNeighbor (fuel : Nat) (h : Hy3Layout) (this : Nat) (direction : ShiftDirection) :
    Option (Option Nat) :=
  findNeighborLoop direction fuel h this

/-- What `resize` has computed when it reaches the comparison with `MIN_RATIO`. -/
structure ResizeRequest where
  parent_node : Nat
  neighbor : Nat
  parent_size : ℚ
  requested_size_ratio : ℚ
  requested_neighbor_size_ratio : ℚ
  deriving DecidableEq

/-- `Hy3Node::resize`, lines 866-891: the neighbour and the two requested ratios; the inner
`none` means that there is nothing to resize (the layout does not match the direction, or `this`
or the neighbour is not found in the child list). -/
def resizeRequest (h : Hy3Layout) (geo : Geometry) (this : Nat) (direction : ShiftDirection)
    (delta : ℚ) : Option (Option ResizeRequest) :=
  match h.get this with
  | none => none
  | some tn =>
    match tn.parent with
    | none => none
    | some parent_node =>
      match h.group parent_node with
      | none => none
      | some containing_group =>
        if containing_group.layout ≠ Hy3GroupLayout.Tabbed
            ∧ getAxisOfDirection direction = getAxisOfLayout containing_group.layout then
          let parent_size : ℚ :=
            if getAxisOfDirection direction = Axis.Horizontal then (geo parent_node).size.x
            else (geo parent_node).size.y
          let ratio_mod0 : ℚ := delta * (containing_group.children.length : ℚ) / parent_size
          if this ∈ containing_group.children then
            let iter0 := containing_group.children.indexOf this
            match getOuterChild containing_group direction with
            | none => none
            | some outermost_node_in_group =>
              let inc := directionToIteratorIncrement direction
              let moved : Option (Nat × ℚ) :=
                if this ≠ outermost_node_in_group then
                  (if inc = -1 then
                    (if iter0 = 0 then none else some (iter0 - 1, ratio_mod0 * (inc : ℚ)))
                   else some (iter0 + 1, ratio_mod0 * (inc : ℚ)))
                else some (iter0, ratio_mod0)
              match moved with
              | none => none
              | some (iter, ratio_mod) =>
                match containing_group.children.get? iter with
                | none => some none
                | some neighbor =>
                  match h.get neighbor with
                  | none => none
                  | some nn =>
                    some (some
                      { parent_node := parent_node, neighbor := neighbor,
                        parent_size := parent_size,
                        requested_size_ratio := tn.size_ratio + ratio_mod,
                        requested_neighbor_size_ratio := nn.size_ratio - ratio_mod })
          else some none
        else some none

/-- `Hy3Node::resize`, with `MIN_RATIO = 0`. When the parent's extent on the axis is zero the
floating-point `ratio_mod` is infinite or not a number, one of the two comparisons with
`MIN_RATIO` fails and nothing is changed. -/
def resize (cfg : LayoutConfig) (fuel : Nat) (h : Hy3Layout) (geo : Geometry) (this : Nat)
    (direction : ShiftDirection) (delta : ℚ) : Option (Hy3Layout × Geometry) :=
  match resizeRequest h geo this direction delta with
  | none => none
  | some none => some (h, geo)
  | some (some r) =>
    if r.parent_size ≠ 0 ∧ r.requested_size_ratio ≥ 0 ∧ r.requested_neighbor_size_ratio ≥ 0 then
      let h1 := h.modify this fun n => { n with size_ratio := r.requested_size_ratio }
      let h2 := h1.modify r.neighbor fun n =>
        { n with size_ratio := r.requested_neighbor_size_ratio }
      (recalcSizePosRecursive cfg fuel h2 geo r.parent_node).map fun g => (h2, g)
    else some (h, geo)

/-! ## Reference definitions that follow the specification's wording -/

/-- Following the specification's wording: `y` is a child of a non-tabbed group `p` whose axis is
the axis of `direction`, and `y` is not the outermost child of `p` in that direction. -/
def notOutermostOnAxis (h : Hy3Layout) (direction : ShiftDirection) (y p : Nat) : Bool :=
  match h.group p with
  | none => false
  | some g =>
    g.layout != Hy3GroupLayout.Tabbed
      && getAxisOfLayout g.layout == getAxisOfDirection direction
      && getOuterChild g direction != some y

/-- Following the specification's wording: the immediate sibling of `y` in `direction` in the
child list `cs` (the entry before `y` for left and up, the entry after it for right and
down). -/
def siblingInDirection (cs : List Nat) (y : Nat) (direction : ShiftDirection) : Option Nat :=
  if directionToIteratorIncrement direction = -1 then
    (if cs.indexOf y = 0 then none else cs.get? (cs.indexOf y - 1))
  else cs.get? (cs.indexOf y + 1)

/-- Following the specification's wording: walking up from `y` through its ancestors `ps`, the
immediate sibling in `direction` of the lowest node that is not outermost on the axis; `none`
when there is no such node. -/
def findNeighborSpec (h : Hy3Layout) (direction : ShiftDirection) : Nat → List Nat → Option Nat
  | _, [] => none
  | y, p :: ps =>
    if notOutermostOnAxis h direction y p then siblingInDirection (h.childrenOf p) y direction
    else findNeighborSpec h direction p ps

/-- Following the specification's wording: the proper ancestors of `c` (whose ancestors are `ps`,
parent first) that are left with zero children when `c` is taken out of its parent, and the
nearest ancestor that still has a child (`none` when every ancestor is emptied or there is
none). -/
def emptiedAncestors (h : Hy3Layout) : Nat → List Nat → List Nat × Option Nat
  | _, [] => ([], none)
  | c, p :: ps =>
    if (h.childrenOf p).filter (fun s => s ≠ c) = [] then
      (p :: (emptiedAncestors h p ps).1, (emptiedAncestors h p ps).2)
    else ([], some p)

/-- Every group with an active expansion names one of its children as focused. -/
def ExpandInv (h : Hy3Layout) : Prop :=
  ∀ a g, h.group a = some g → g.expand_focused ≠ ExpandFocusType.NotExpanded →
    ∃ fc, g.focused_child = some fc ∧ fc ∈ g.children

/-- A decision procedure for `ExpandInv`. -/
def expandCheck (h : Hy3Layout) : Bool :=
  h.nodes.all fun n =>
    match n.asGroup with
    | none => true
    | some g =>
      decide (g.expand_focused = ExpandFocusType.NotExpanded) ||
        match g.focused_child with
        | none => false
        | some fc => decide (fc ∈ g.children)

/-- No group of the store has an empty child list. -/
def NoEmptyGroup (h : Hy3Layout) : Prop :=
  ∀ a g, h.group a = some g → g.children ≠ []

/-- A decision procedure for `NoEmptyGroup`. -/
def noEmptyGroupCheck (h : Hy3Layout) : Bool :=
  h.nodes.all fun n =>
    match n.asGroup with
    | none => true
    | some g => !g.children.isEmpty

/-- A decision procedure for `FocusInv`. -/
def focusCheck (h : Hy3Layout) : Bool :=
  h.nodes.all fun n =>
    match n.asGroup with
    | none => true
    | some g =>
      g.group_focused ||
        match g.focused_child with
        | none => false
        | some fc => decide (fc ∈ g.children)

/-- The node `x` lies strictly below `a`. -/
def ProperDesc (h : Hy3Layout) (a x : Nat) : Prop :=
  ∃ c ∈ h.childrenOf a, InSubtree h c x

/-- What the layout pass dereferences: every window node holds a window, and a non-null
`focused_child` is one of the group's children. -/
def LayoutReady (h : Hy3Layout) : Prop :=
  (∀ a n, h.get a = some n → n.data ≠ Hy3NodeData.window none) ∧
  ∀ a g fc, h.group a = some g → g.focused_child = some fc → fc ∈ g.children

/-- A decision procedure for `LayoutReady`. -/
def layoutReadyCheck (h : Hy3Layout) : Bool :=
  h.nodes.all fun n =>
    match n.data with
    | Hy3NodeData.window w => w.isSome
    | Hy3NodeData.group g =>
      match g.focused_child with
      | none => true
      | some fc => decide (fc ∈ g.children)

/-- The layout fields that the child loop of `recalcSizePosRecursive` assigns to the children
`l`, in order, starting at `offset`, when no child is skipped. -/
def placements (h : Hy3Layout) (layout : Hy3GroupLayout) (tpos tsize gap_topleft_offset
    gap_bottomright_offset : Vector2D) (tab_height_offset ratio_mul : ℚ) (group_inset : Int)
    (has_parent this_hidden expand_focused : Bool) (children : List Nat)
    (focused_child : Option Nat) : List Nat → ℚ → List (Nat × NodeGeometry)
  | [], _ => []
  | c :: rest, offset =>
    (c, (placeChild layout tpos tsize gap_topleft_offset gap_bottomright_offset
      tab_height_offset ratio_mul group_inset has_parent this_hidden expand_focused children
      focused_child c ((h.ratioOf c).getD 0) offset).1) ::
    placements h layout tpos tsize gap_topleft_offset gap_bottomright_offset tab_height_offset
      ratio_mul group_inset has_parent this_hidden expand_focused children focused_child rest
      (placeChild layout tpos tsize gap_topleft_offset gap_bottomright_offset
        tab_height_offset ratio_mul group_inset has_parent this_hidden expand_focused children
        focused_child c ((h.ratioOf c).getD 0) offset).2

/-- The component of a vector along the axis of a split layout (`x` for a horizontal split). -/
def Vector2D.along (layout : Hy3GroupLayout) (v : Vector2D) : ℚ :=
  if layout = Hy3GroupLayout.SplitV then v.y else v.x

/-- The component of a vector across the axis of a split layout (`y` for a horizontal
split). -/
def Vector2D.cross (layout : Hy3GroupLayout) (v : Vector2D) : ℚ :=
  if layout = Hy3GroupLayout.SplitV then v.x else v.y

/-- The gap offsets `recalcSizePosRecursive` works with: the node's own ones when it has a
parent, the difference of the configured outer and inner gaps when it is a root (lines 267-275
and 300-303). -/
def effectiveGaps (cfg : LayoutConfig) (parent : Option Nat) (own : NodeGeometry) :
    Vector2D × Vector2D :=
  (if parent ≠ none then own.gap_topleft_offset
   else ⟨((-(cfg.gaps_in.left - cfg.gaps_out.left) : Int) : ℚ),
         ((-(cfg.gaps_in.top - cfg.gaps_out.top) : Int) : ℚ)⟩,
   if parent ≠ none then own.gap_bottomright_offset
   else ⟨((-(cfg.gaps_in.right - cfg.gaps_out.right) : Int) : ℚ),
         ((-(cfg.gaps_in.bottom - cfg.gaps_out.bottom) : Int) : ℚ)⟩)

/-- The `constraint` of `recalcSizePosRecursive` (lines 318-327): the extent of the group along
its axis without the two outer gaps. -/
def splitConstraint (layout : Hy3GroupLayout) (tsize gap_topleft_offset
    gap_bottomright_offset : Vector2D) : ℚ :=
  match layout with
  | Hy3GroupLayout.SplitH => tsize.x - gap_topleft_offset.x - gap_bottomright_offset.x
  | Hy3GroupLayout.SplitV => tsize.y - gap_topleft_offset.y - gap_bottomright_offset.y
  | Hy3GroupLayout.Tabbed => 0

/-- The `ratio_mul` of `recalcSizePosRecursive` (lines 335-337). -/
def ratioMul (layout : Hy3GroupLayout) (tsize gap_topleft_offset gap_bottomright_offset : Vector2D)
    (child_count : Nat) : ℚ :=
  if layout ≠ Hy3GroupLayout.Tabbed then
    (if child_count = 0 then 0
     else splitConstraint layout tsize gap_topleft_offset gap_bottomright_offset / child_count)
  else 0

/-- The layout fields `recalcSizePosRecursive` assigns to the children of the group `group`
stored in the node `n` with layout fields `own`, when the group has no active expansion. -/
def groupPlacements (cfg : LayoutConfig) (h : Hy3Layout) (n : Hy3Node) (group : Hy3GroupData)
    (own : NodeGeometry) : List (Nat × NodeGeometry) :=
  placements h group.layout own.position own.size (effectiveGaps cfg n.parent own).1
    (effectiveGaps cfg n.parent own).2
    (((cfg.tab_bar_height + cfg.tab_bar_padding : Int) : ℚ))
    (ratioMul group.layout own.size (effectiveGaps cfg n.parent own).1
      (effectiveGaps cfg n.parent own).2 group.children.length)
    cfg.group_inset (decide (n.parent ≠ none)) own.hidden false group.children
    group.focused_child group.children 0

/-! ## The chain that `getFocusedNode` follows -/

/-- The tests under which `getFocusedNode` returns the node it stands on: the node is a window,
or a group without `focused_child`, or a group with `group_focused` set (unless
`ignore_group_focus`), or a group with an active expansion (if `stop_at_expanded`). -/
def focusStops (h : Hy3Layout) (ignore_group_focus stop_at_expanded : Bool) (a : Nat) : Bool :=
  match h.get a with
  | none => false
  | some n =>
    match n.data with
    | Hy3NodeData.window _ => true
    | Hy3NodeData.group g =>
      g.focused_child.isNone || (!ignore_group_focus && g.group_focused)
        || (stop_at_expanded && g.expand_focused != ExpandFocusType.NotExpanded)

/-- The chain of `focused_child` pointers from `a` to `x` on which no node before `x` passes
the tests of `focusStops`. -/
inductive FocusChain (h : Hy3Layout) (ignore_group_focus stop_at_expanded : Bool) :
    Nat → Nat → Prop where
  | here (a : Nat) : FocusChain h ignore_group_focus stop_at_expanded a a
  | step {a c x : Nat} {g : Hy3GroupData} : h.group a = some g → g.focused_child = some c →
      focusStops h ignore_group_focus stop_at_expanded a = false →
      FocusChain h ignore_group_focus stop_at_expanded c x →
      FocusChain h ignore_group_focus stop_at_expanded a x


/-! ## Changing the layout of a group (`Hy3Layout.cpp`, lines 795-864) -/

/-- `Hy3GroupData::setEphemeral`. -/
def Hy3GroupData.setEphemeral (g : Hy3GroupData) (ephemeral : GroupEphemeralityOption) :
    Hy3GroupData :=
  match ephemeral with
  | GroupEphemeralityOption.Standard => { g with ephemeral := false }
  | GroupEphemeralityOption.ForceEphemeral => { g with ephemeral := true }
  | GroupEphemeralityOption.Ephemeral => g

/-- `Hy3Layout::makeGroupOn`, on the node store (the tab bar and the geometry are outside it). -/
def makeGroupOn (h : Hy3Layout) (node : Option Nat) (layout : Hy3GroupLayout)
    (ephemeral : GroupEphemeralityOption) : Option Hy3Layout :=
  match node with
  | none => some h
  | some node =>
    match h.get node with
    | none => none
    | some n =>
      match n.parent with
      | none => (intoGroup h node layout ephemeral).map Prod.fst
      | some p =>
        match h.group p with
        | none => none
        | some group =>
          if group.children.length = 1 then
            some (h.modifyGroup p fun g => (g.setLayout layout).setEphemeral ephemeral)
          else (intoGroup h node layout ephemeral).map Prod.fst

/-- `Hy3Layout::changeGroupOn`, on the node store. -/
def changeGroupOn (h : Hy3Layout) (node : Nat) (layout : Hy3GroupLayout) : Option Hy3Layout :=
  match h.get node with
  | none => none
  | some n =>
    match n.parent with
    | none => makeGroupOn h (some node) layout GroupEphemeralityOption.Ephemeral
    | some p =>
      match h.group p with
      | none => none
      | some _ => some (h.modifyGroup p fun g => g.setLayout layout)

/-- `Hy3Layout::untabGroupOn`. -/
def untabGroupOn (h : Hy3Layout) (node : Nat) : Option Hy3Layout :=
  match h.get node with
  | none => none
  | some n =>
    match n.parent with
    | none => some h
    | some p =>
      match h.group p with
      | none => none
      | some group =>
        if group.layout ≠ Hy3GroupLayout.Tabbed then some h
        else changeGroupOn h node group.previous_nontab_layout

/-- `Hy3Layout::toggleTabGroupOn`. -/
def toggleTabGroupOn (h : Hy3Layout) (node : Nat) : Option Hy3Layout :=
  match h.get node with
  | none => none
  | some n =>
    match n.parent with
    | none => some h
    | some p =>
      match h.group p with
      | none => none
      | some group =>
        if group.layout ≠ Hy3GroupLayout.Tabbed then changeGroupOn h node Hy3GroupLayout.Tabbed
        else changeGroupOn h node group.previous_nontab_layout

/-- The layout fields of `g` are the ones that the constructor `Hy3GroupData(L)` or a call
`setLayout(L)` leaves. -/
def Hy3GroupData.layoutSetTo (g : Hy3GroupData) (L : Hy3GroupLayout) : Prop :=
  (g.layout = (Hy3GroupData.new L).layout ∧
      g.previous_nontab_layout = (Hy3GroupData.new L).previous_nontab_layout) ∨
    ∃ g0 : Hy3GroupData, g.layout = (g0.setLayout L).layout ∧
      g.previous_nontab_layout = (g0.setLayout L).previous_nontab_layout


/-! ## The focus-override table (`Hy3Layout.cpp`, lines 1284-1320) -/

/-- Modelled from the spec: the struct `FocusOverride` of `Hy3Layout.hpp`, which is not among
the sources: the node recorded for each direction, null when none is recorded. -/
structure FocusOverride where
  left : Option Nat := none
  up : Option Nat := none
  right : Option Nat := none
  down : Option Nat := none
  deriving DecidableEq, Repr

/-- Modelled from the spec: `FocusOverride::forDirection` of `Hy3Layout.hpp`, read through the
returned accessor. -/
def FocusOverride.forDirection (o : FocusOverride) : ShiftDirection → Option Nat
  | ShiftDirection.Left => o.left
  | ShiftDirection.Up => o.up
  | ShiftDirection.Right => o.right
  | ShiftDirection.Down => o.down

/-- Modelled from the spec: an assignment through the accessor `forDirection` returns. -/
def FocusOverride.setDirection (o : FocusOverride) (direction : ShiftDirection)
    (dest : Option Nat) : FocusOverride :=
  match direction with
  | ShiftDirection.Left => { o with left := dest }
  | ShiftDirection.Up => { o with up := dest }
  | ShiftDirection.Right => { o with right := dest }
  | ShiftDirection.Down => { o with down := dest }

/-- Modelled from the spec: `FocusOverride::isEmpty` of `Hy3Layout.hpp`. -/
def FocusOverride.isEmpty (o : FocusOverride) : Bool :=
  o.left.isNone && o.up.isNone && o.right.isNone && o.down.isNone

/-- The result of `getFocusOverride`: the table `m_focusIntercepts` after the call and the
returned pointer. -/
structure OverrideResult where
  intercepts : List (Nat × FocusOverride)
  ret : Option Nat
  deriving DecidableEq, Repr

/-- `Hy3Layout::getFocusOverride`; the table `m_focusIntercepts` is a list of entries with
distinct windows, and `src->m_pWorkspace` is `env.windowWorkspace src`. Reading
`override->workspace` of a node that is not in the store is undefined. -/
def getFocusOverride (env : Env) (h : Hy3Layout) (intercepts : List (Nat × FocusOverride))
    (src : Nat) (direction : ShiftDirection) : Option OverrideResult :=
  match intercepts.lookup src with
  | none => some { intercepts := intercepts, ret := none }
  | some intercept =>
    match intercept.forDirection direction with
    | none => some { intercepts := intercepts, ret := none }
    | some override =>
      match h.get override with
      | none => none
      | some rn =>
        if rn.workspace ≠ env.windowWorkspace src ∨ ¬ (h.nodes.any fun m => m.addr == override)
        then
          let cleared := intercept.setDirection direction none
          if cleared.isEmpty then
            some { intercepts := intercepts.filter (fun e => e.1 != src), ret := some override }
          else
            some { intercepts :=
                     intercepts.map (fun e => if e.1 = src then (e.1, cleared) else e),
                   ret := some override }
        else some { intercepts := intercepts, ret := some override }

/-- `Hy3Layout::setFocusOverride`. -/
def setFocusOverride (intercepts : List (Nat × FocusOverride)) (src : Nat)
    (direction : ShiftDirection) (dest : Option Nat) : List (Nat × FocusOverride) :=
  match intercepts.lookup src with
  | some _ =>
    intercepts.map fun e => if e.1 = src then (e.1, e.2.setDirection direction dest) else e
  | none => intercepts ++ [(src, ({} : FocusOverride).setDirection direction dest)]


/-! ## The focus query: `shiftOrGetFocus` at `shift == false` -/

/-- The index of the child that `descendLoop` moves to in a group with payload `g` (and whether
the insert position is after that child). -/
def descendPick (direction : ShiftDirection) (shift visible : Bool) (g : Hy3GroupData) :
    Nat × Bool :=
  let cs := g.children
  let tabbed : Bool := g.layout == Hy3GroupLayout.Tabbed
  let edge : Nat × Bool :=
    if shiftIsForward direction then (0, false) else (cs.length - 1, true)
  match g.focused_child with
  | some fc =>
    if !shift && tabbed then (cs.indexOf fc, false)
    else if visible && tabbed then (cs.indexOf fc, true)
    else if shiftMatchesLayout g.layout direction || (visible && tabbed) then edge
    else (cs.indexOf fc, true)
  | none =>
    if shiftMatchesLayout g.layout direction || (visible && tabbed) then edge
    else (0, false)

/-- The test `(*iter)->data.type == Hy3NodeType::Window || ((*iter)->data.type ==
Hy3NodeType::Group && (*iter)->data.as_group.expand_focused != ExpandFocusType::NotExpanded)`
of `shiftOrGetFocus`. -/
def stopsDescent (n : Hy3Node) : Bool :=
  match n.data with
  | Hy3NodeData.window _ => true
  | Hy3NodeData.group g => g.expand_focused != ExpandFocusType.NotExpanded

/-- The sibling that `shiftOrGetFocus` moves to from `break_origin` in the child list `cs`
(lines 2064-2070). -/
def shiftNeighbour (direction : ShiftDirection) (cs : List Nat) (break_origin : Nat) :
    Option Nat :=
  let found := cs.indexOf break_origin
  let pos : Option Nat :=
    if shiftIsForward direction then (if found < cs.length then some (found + 1) else none)
    else (if found = 0 then none else some (found - 1))
  match pos with
  | none => none
  | some i => cs.get? i

/-- The test of the break loop of `shiftOrGetFocus` (lines 1990-2005) when `shift == false`:
the layout of the parent group `g` matches the direction (and the group is not a tab group when
`visible`), and `break_origin` is not the last child in that direction. -/
def breaksAt (direction : ShiftDirection) (visible : Bool) (g : Hy3GroupData)
    (break_origin : Nat) : Option Bool :=
  if shiftMatchesLayout g.layout direction
      && (!visible || g.layout != Hy3GroupLayout.Tabbed) then
    match (if shiftIsForward direction then g.children.getLast? else g.children.head?) with
    | none => none
    | some edge => some (edge != break_origin)
  else some false

/-- The break loop `breakLoop` at `shift == false`, without the store (which it leaves alone)
and the flag `has_broken_once` (which it then never reads). -/
def queryClimb (direction : ShiftDirection) (visible : Bool) :
    Nat → Hy3Layout → Nat → Option Nat → Option (Option (Nat × Nat))
  | 0, _, _, _ => none
  | _ + 1, _, _, none => some none
  | fuel + 1, h, break_origin, some break_parent =>
    match h.get break_parent with
    | none => none
    | some pn =>
      match pn.data with
      | Hy3NodeData.window _ => none
      | Hy3NodeData.group group =>
        match breaksAt direction visible group break_origin with
        | none => none
        | some true => some (some (break_origin, break_parent))
        | some false =>
          match pn.parent with
          | none => some none
          | some grandparent => queryClimb direction visible fuel h break_parent (some grandparent)

/-- The loop `descendLoop` at `shift == false`: the returned pointer. -/
def queryDescend (direction : ShiftDirection) (visible : Bool) :
    Nat → Hy3Layout → Nat → Option (Option Nat)
  | 0, _, _ => none
  | fuel + 1, h, iter =>
    match h.group iter with
    | none => none
    | some g =>
      if g.children = [] then some none
      else
        match g.children.get? (descendPick direction false visible g).1 with
        | none => none
        | some next =>
          match h.get next with
          | none => none
          | some nn =>
            if stopsDescent nn then getFocusedNode fuel h next false false
            else queryDescend direction visible fuel h next

/-- The step `resolveInsert` at `shift == false`: the returned pointer. -/
def queryResolve (fuel : Nat) (h : Hy3Layout) (break_origin break_parent : Nat)
    (direction : ShiftDirection) (visible : Bool) : Option (Option Nat) :=
  match h.group break_parent with
  | none => none
  | some pg =>
    match pg.children.head?, pg.children.getLast? with
    | some front, some back =>
      if break_origin == front && !shiftIsForward direction then some none
      else if break_origin == back && shiftIsForward direction then some none
      else
        match shiftNeighbour direction pg.children break_origin with
        | none => none
        | some iter =>
          match h.get iter with
          | none => none
          | some itn =>
            if stopsDescent itn then getFocusedNode fuel h iter false false
            else queryDescend direction visible fuel h iter
    | _, _ => none

/-- The pointer `shiftOrGetFocus` returns when `shift == false`. -/
def focusQuery (fuel : Nat) (h : Hy3Layout) (node : Nat) (direction : ShiftDirection)
    (visible : Bool) : Option (Option Nat) :=
  match getExpandActor fuel h node with
  | none => none
  | some break_origin =>
    match h.get break_origin with
    | none => none
    | some bn =>
      match queryClimb direction visible fuel h break_origin bn.parent with
      | none => none
      | some none => some none
      | some (some (origin, parent)) => queryResolve fuel h origin parent direction visible


/-! ## The quantities of the autotile test (`Hy3Layout.cpp`, lines 246-253) -/

/-- The autotile trigger for the axis of the target group `g`: `autotile:trigger_width` for a
horizontal split, else `autotile:trigger_height` (line 248). -/
def autotileTrigger (env : Env) (g : Hy3GroupData) : Int :=
  if g.layout = Hy3GroupLayout.SplitH then env.at_trigger_width else env.at_trigger_height

/-- The extent of the target group (the node `p` with payload `g`) along its axis (line
249). -/
def autotileExtent (env : Env) (p : Nat) (g : Hy3GroupData) : ℚ :=
  if g.layout = Hy3GroupLayout.SplitH then (env.nodeSize p).1 else (env.nodeSize p).2

/-- The layout of the group that autotile wraps the anchor into (line 253). -/
def autotileLayout (g : Hy3GroupData) : Hy3GroupLayout :=
  if g.layout = Hy3GroupLayout.SplitH then Hy3GroupLayout.SplitV else Hy3GroupLayout.SplitH


/-! ## The autotile workspace list (`Hy3Layout.cpp`, lines 2209-2256) -/

/-- The characters the class `\s` of the regular expression `[\s,]+` matches in the C locale
(space, `\t`, `\n`, `\v`, `\f`, `\r`), which are also the ones `std::isspace` accepts. -/
def isSpaceChar (c : Char) : Bool :=
  c.toNat == 32 || (9 ≤ c.toNat && c.toNat ≤ 13)

/-- A character matched by `[\s,]`. -/
def isSeparator (c : Char) : Bool := isSpaceChar c || c.toNat == 44

/-- The pieces that `std::sregex_token_iterator(begin, end, regex, -1)` yields after the first
match of `[\s,]+` has started or while a piece is being read: the text before each maximal run
of separators (empty when the input starts with a separator), and the text after the last run
when it is not empty. `cur` is the piece read so far and `in_run` tells whether the previous
character was a separator. -/
def tokensFrom : List Char → List Char → Bool → List (List Char)
  | [], cur, _ => if cur = [] then [] else [cur]
  | c :: cs, cur, in_run =>
    if isSeparator c then
      if in_run then tokensFrom cs [] true else cur :: tokensFrom cs [] true
    else tokensFrom cs (cur ++ [c]) false

/-- The tokens `std::sregex_token_iterator(begin, end, regex, -1)` yields for the regular
expression `[\s,]+`: the whole input when nothing matches (also when the input is empty). -/
def regexTokens (s : List Char) : List (List Char) :=
  if s.all (fun c => !isSeparator c) then [s] else tokensFrom s [] false

/-- The value of a run of decimal digits. -/
def digitsValue (ds : List Char) : Int :=
  ds.foldl (fun acc c => 10 * acc + ((c.toNat - 48 : Nat) : Int)) 0

/-- `std::stoi(str)` (base 10): leading white space is skipped, an optional sign and the longest
run of decimal digits are read and the rest of the string is ignored; `none` stands for the
exceptions `std::invalid_argument` (no digit) and `std::out_of_range` (not an `int`). -/
def stoi (str : List Char) : Option Int :=
  let t := str.dropWhile isSpaceChar
  let signed : Bool × List Char :=
    match t with
    | '-' :: r => (true, r)
    | '+' :: r => (false, r)
    | r => (false, r)
  let digits := signed.2.takeWhile Char.isDigit
  if digits = [] then none
  else
    let v : Int := if signed.1 then -digitsValue digits else digitsValue digits
    if -2147483648 ≤ v ∧ v ≤ 2147483647 then some v else none

/-- Modelled from the spec: the members of `Hy3Layout::autotile` (declared in `Hy3Layout.hpp`,
which is not among the sources) that `updateAutotileWorkspaces` and `shouldAutotileWorkspace`
use; the set of workspace ids is kept as a list. -/
structure AutotileState where
  raw_workspaces : List Char := []
  workspace_blacklist : Bool := false
  workspaces : List Int := []
  deriving DecidableEq

/-- The loop of `updateAutotileWorkspaces` (lines 2240-2246): insert what `std::stoi` returns,
skip the token when it throws. -/
def insertTokens (workspaces : List Int) : List (List Char) → List Int
  | [] => workspaces
  | tok :: rest =>
    match stoi tok with
    | some v => insertTokens (if v ∈ workspaces then workspaces else workspaces ++ [v]) rest
    | none => insertTokens workspaces rest

/-- `Hy3Layout::updateAutotileWorkspaces`, with the value of the option
`plugin:hy3:autotile:workspaces` as the argument `autotile_raw_workspaces`. -/
def updateAutotileWorkspaces (st : AutotileState) (autotile_raw_workspaces : List Char) :
    AutotileState :=
  if autotile_raw_workspaces = st.raw_workspaces then st
  else if autotile_raw_workspaces = "all".toList then
    { st with raw_workspaces := autotile_raw_workspaces, workspaces := [] }
  else
    let blacklist : Bool := "not:".toList.isPrefixOf autotile_raw_workspaces
    let filtered : List Char :=
      if blacklist then autotile_raw_workspaces.drop 4 else autotile_raw_workspaces
    { raw_workspaces := autotile_raw_workspaces
      workspace_blacklist := blacklist
      workspaces := insertTokens [] (regexTokens filtered) }

/-- `Hy3Layout::shouldAutotileWorkspace`, with `workspace->m_iID` as the argument. -/
def shouldAutotileWorkspace (st : AutotileState) (id : Int) : Bool :=
  if st.workspace_blacklist then !st.workspaces.contains id
  else st.workspaces.isEmpty || st.workspaces.contains id


/-! ## Reversing a direction, and entering a node in the focus query -/

/-- `reverse` (`Hy3Layout.cpp`, lines 406-414). -/
def reverse (direction : ShiftDirection) : ShiftDirection :=
  match direction with
  | ShiftDirection.Left => ShiftDirection.Right
  | ShiftDirection.Right => ShiftDirection.Left
  | ShiftDirection.Up => ShiftDirection.Down
  | ShiftDirection.Down => ShiftDirection.Up

/-- The step that `descendLoop` and `resolveInsert` share at `shift == false`, once the node
`iter` to move to is chosen: a window (or a group with an active expansion) ends the descent
with `getFocusedNode`, any other group is descended into. -/
def queryEnter (direction : ShiftDirection) (visible : Bool) (fuel : Nat) (h : Hy3Layout)
    (iter : Nat) : Option (Option Nat) :=
  match h.get iter with
  | none => none
  | some itn =>
    if stopsDescent itn then getFocusedNode fuel h iter false false
    else queryDescend direction visible fuel h iter

/-! ## Layout messages (`Hy3Layout.cpp`, lines 607-628) -/

/-- `Hy3Layout::layoutMessage` (lines 607-628) on the node store: `"togglesplit"` flips the
layout of the parent of the window's node between SplitH and SplitV by assigning to the field
`layout`. The layout pass it then runs does not change the store. -/
def layoutMessage (h : Hy3Layout) (window : Option Nat) (content : String) :
    Option Hy3Layout :=
  if content == "togglesplit" then
    match getNodeFromWindow h window with
    | none => some h
    | some node =>
      match h.get node with
      | none => none
      | some nn =>
        match nn.parent with
        | none => some h
        | some parent =>
          match h.group parent with
          | none => none
          | some group =>
            match group.layout with
            | Hy3GroupLayout.SplitH =>
              some (h.modifyGroup parent fun g => { g with layout := Hy3GroupLayout.SplitV })
            | Hy3GroupLayout.SplitV =>
              some (h.modifyGroup parent fun g => { g with layout := Hy3GroupLayout.SplitH })
            | Hy3GroupLayout.Tabbed => some h
  else some h

/-! ## Expansion (`Hy3Layout.cpp`, lines 1649-1708) -/

/-- Modelled from the spec: the enumeration `ExpandOption` of the dispatcher `hy3:expand`
(its header is not among the sources); the names are those used in `dispatchers.cpp`. -/
inductive ExpandOption where
  | Expand
  | Shrink
  | Base
  | Maximize
  | Fullscreen
  deriving DecidableEq, Repr

/-- `Hy3Layout::getWorkspaceFocusedNode`. -/
def getWorkspaceFocusedNode (fuel : Nat) (h : Hy3Layout) (workspace : Option Nat)
    (ignore_group_focus stop_at_expanded : Bool) : Option (Option Nat) :=
  match getWorkspaceRootGroup h workspace with
  | none => some none
  | some rootNode => getFocusedNode fuel h rootNode ignore_group_focus stop_at_expanded

/-- `Hy3Layout::expand` (lines 1649-1708) on the node store. The fullscreen branches, which
`fs_option` selects, write to the compositor only, and the layout pass does not change the
store, so neither appears. -/
def expand (fuel : Nat) (h : Hy3Layout) (workspace : Option Nat) (option : ExpandOption) :
    Option Hy3Layout :=
  match getWorkspaceFocusedNode fuel h workspace false true with
  | none => none
  | some none => some h
  | some (some node) =>
    match h.get node with
    | none => none
    | some nn =>
      match option with
      | ExpandOption.Expand =>
        match nn.parent with
        | none => some h
        | some parent =>
          let h1 : Hy3Layout :=
            match nn.data with
            | Hy3NodeData.group g =>
              if !g.group_focused then
                h.modifyGroup node fun g => { g with expand_focused := ExpandFocusType.Stack }
              else h
            | Hy3NodeData.window _ => h
          match h1.group parent with
          | none => none
          | some _ =>
            some (h1.modifyGroup parent fun g =>
              { g with focused_child := some node, expand_focused := ExpandFocusType.Latch })
      | ExpandOption.Shrink =>
        match nn.data with
        | Hy3NodeData.window _ => some h
        | Hy3NodeData.group group =>
          let h1 := h.modifyGroup node fun g =>
            { g with expand_focused := ExpandFocusType.NotExpanded }
          match group.focused_child with
          | none => none
          | some fc =>
            match h1.get fc with
            | none => none
            | some fn =>
              match fn.data with
              | Hy3NodeData.group _ =>
                some (h1.modifyGroup fc fun g =>
                  { g with expand_focused := ExpandFocusType.Latch })
              | Hy3NodeData.window _ => some h1
      | ExpandOption.Base =>
        match nn.data with
        | Hy3NodeData.window _ => some h
        | Hy3NodeData.group _ => collapseExpansions fuel h node
      | ExpandOption.Maximize => some h
      | ExpandOption.Fullscreen => some h

/-! ## Resizing through the neighbour (`Hy3Layout.cpp`, lines 416-488) -/

/-- `executeResizeOperation`, lines 450-488: once the two target edges and `resize_delta` are
fixed, the neighbour of `node` towards each edge is looked up and, when there is one, resized
against the reversed edge. How the edges and the delta follow from the corner and the monitor
(lines 425-468) is left to the caller. -/
def executeResizeOperation (cfg : LayoutConfig) (fuel : Nat) (h : Hy3Layout) (geo : Geometry)
    (node : Nat) (target_edge_x target_edge_y : ShiftDirection) (resize_delta : Vector2D) :
    Option (Hy3Layout × Geometry) :=
  if resize_delta.x ≠ 0 ∨ resize_delta.y ≠ 0 then
    match findNeighbor fuel h node target_edge_x, findNeighbor fuel h node target_edge_y with
    | some horizontal_neighbor, some vertical_neighbor =>
      let first : Option (Hy3Layout × Geometry) :=
        match horizontal_neighbor with
        | none => some (h, geo)
        | some hn => resize cfg fuel h geo hn (reverse target_edge_x) resize_delta.x
      match first with
      | none => none
      | some (h1, geo1) =>
        match vertical_neighbor with
        | none => some (h1, geo1)
        | some vn => resize cfg fuel h1 geo1 vn (reverse target_edge_y) resize_delta.y
    | _, _ => none
  else some (h, geo)

/-! ## The target of `insertNode` -/


/-- `Hy3Layout::insertNode`, lines 112-266: the steps before the node is attached. The result
holds the store at that point and, unless the function returns there, the pointers
`opening_into` and `opening_after` that lines 268-278 go on to use. -/
def insertTarget (env : Env) (fuel : Nat) (h : Hy3Layout) (node : Nat) :
    Option (Hy3Layout × Option (Nat × Option Nat)) :=
  match h.get node with
  | none => none
  | some nn =>
    if nn.parent ≠ none then some (h, none)
    else if env.validWorkspace nn.workspace = false then some (h, none)
    else
      let h0 := h.modify node fun n => { n with reparenting := true }
      match openingAfterFromRoot fuel h0 nn.workspace with
      | none => none
      | some (h1, from_root) =>
        let opening_after0 : Option Nat :=
          match from_root with
          | some a => some a
          | none => fallbackAnchor env h1 nn.workspace
        match anchorUsable fuel h1 node opening_after0 with
        | none => none
        | some opening_after1 =>
          match openingInto env h1 nn.workspace opening_after1 with
          | none => none
          | some (_, none) => none
          | some (h2, some opening_into0) =>
            match h2.get opening_into0 with
            | none => none
            | some oin =>
              match oin.data with
              | Hy3NodeData.window _ => some (h2, none)
              | Hy3NodeData.group _ =>
                match autotile env h2 opening_into0 opening_after1 with
                | none => none
                | some (h3, opening_into, opening_after) =>
                  some (h3, some (opening_into, opening_after))


/-! ## Window handles of the store -/


/-- The window handle of a payload: `some w` for a Window payload holding the handle `w`, `none`
for a group. -/
def Hy3NodeData.windowOf : Hy3NodeData → Option (Option Nat)
  | Hy3NodeData.window w => some w
  | Hy3NodeData.group _ => none

/-- The window handles held by the Window nodes of the store, one entry per Window node, in the
order of `Hy3Layout::nodes`. -/
def windowsOf (h : Hy3Layout) : List (Option Nat) :=
  h.nodes.filterMap fun n => n.data.windowOf

/-- The window handle held by the node at address `a`; `none` when the node is a group or the
address is not in the store. -/
def Hy3Layout.windowAt (h : Hy3Layout) (a : Nat) : Option (Option Nat) :=
  (h.get a).bind fun n => n.data.windowOf


/-! ## The store in the middle of a shift -/


/-- The state of the store between lines 2173 and 2176 of `shiftOrGetFocus`: the node `x` has
been inserted into the child list of the group `T` but still has its old parent. Apart from that
one entry the store is well-formed: every node with a parent occurs once in that parent's child
list, and every member of a child list other than the entry `x` of `T` has that group as its
parent. -/
def Pending (h : Hy3Layout) (x T : Nat) : Prop :=
  (∀ a p, h.parentOf a = some (some p) → (h.childrenOf p).count a = 1) ∧
  (∀ a c, c ∈ h.childrenOf a → (c = x ∧ a = T) ∨ h.parentOf c = some (some a)) ∧
  (h.childrenOf T).count x = 1 ∧ h.parentOf x ≠ some (some T) ∧ (h.get x).isSome


/-! ## Concrete stores used as witnesses -/

/-- A group (address 0) with three window children of ratios 1/2, 1 and 3/2. -/
def exRemoval : Hy3Layout :=
  { nodes :=
      [ { addr := 0, workspace := some 0,
          data := Hy3NodeData.group
            { children := [1, 2, 3], group_focused := false, focused_child := some 1 } },
        { addr := 1, parent := some 0, workspace := some 0, size_ratio := 1 / 2,
          data := Hy3NodeData.window (some 101) },
        { addr := 2, parent := some 0, workspace := some 0, size_ratio := 1,
          data := Hy3NodeData.window (some 102) },
        { addr := 3, parent := some 0, workspace := some 0, size_ratio := 3 / 2,
          data := Hy3NodeData.window (some 103) } ],
    next := 4 }

/-- A lone parentless window node. -/
def exLoneWindow : Hy3Layout :=
  { nodes := [ { addr := 0, workspace := some 0, data := Hy3NodeData.window (some 101) } ],
    next := 1 }

/-- A workspace root (address 0) whose only child is a window. -/
def exRootWindow : Hy3Layout :=
  { nodes :=
      [ { addr := 0, workspace := some 0,
          data := Hy3NodeData.group
            { children := [1], group_focused := false, focused_child := some 1 } },
        { addr := 1, parent := some 0, workspace := some 0,
          data := Hy3NodeData.window (some 101) } ],
    next := 2 }

/-- A root (address 0) holding an ephemeral group (address 1) with two windows. -/
def exEphemeral : Hy3Layout :=
  { nodes :=
      [ { addr := 0, workspace := some 0,
          data := Hy3NodeData.group
            { children := [1], group_focused := false, focused_child := some 1 } },
        { addr := 1, parent := some 0, workspace := some 0,
          data := Hy3NodeData.group
            { layout := Hy3GroupLayout.SplitV, previous_nontab_layout := Hy3GroupLayout.SplitV,
              children := [2, 3], group_focused := false, focused_child := some 2,
              ephemeral := true } },
        { addr := 2, parent := some 1, workspace := some 0,
          data := Hy3NodeData.window (some 101) },
        { addr := 3, parent := some 1, workspace := some 0,
          data := Hy3NodeData.window (some 102) } ],
    next := 4 }

/-- An environment with one valid workspace (0) on a landscape monitor, no focused or hovered
window, and every option switched off. -/
def exEnv : Env :=
  { validWorkspace := fun w => w == some 0
    lastWindow := none
    mouseWindow := none
    windowWorkspace := fun _ => some 0
    windowFloating := fun _ => false
    windowMapped := fun _ => true
    monitorWidth := fun _ => 1920
    monitorHeight := fun _ => 1080
    tab_first_window := 0
    at_enable := 0
    at_ephemeral := 0
    at_trigger_width := 0
    at_trigger_height := 0
    shouldAutotileWorkspace := fun _ => false
    nodeSize := fun _ => (0, 0)
    node_collapse_policy := 0 }

/-- Two workspaces: on workspace 1 the root 0 holds windows 1 and 2 with ratios 1/2 and 3/2; on
workspace 0 the root 3 holds the single window 4. -/
def exTwoWorkspaces : Hy3Layout :=
  { nodes :=
      [ { addr := 0, workspace := some 1,
          data := Hy3NodeData.group
            { children := [1, 2], group_focused := false, focused_child := some 1 } },
        { addr := 1, parent := some 0, workspace := some 1, size_ratio := 1 / 2,
          data := Hy3NodeData.window (some 101) },
        { addr := 2, parent := some 0, workspace := some 1, size_ratio := 3 / 2,
          data := Hy3NodeData.window (some 102) },
        { addr := 3, workspace := some 0,
          data := Hy3NodeData.group
            { children := [4], group_focused := false, focused_child := some 4 } },
        { addr := 4, parent := some 3, workspace := some 0,
          data := Hy3NodeData.window (some 103) } ],
    next := 5 }

/-- The store `exEphemeral` together with a detached window node (address 4) on workspace 0. -/
def exDetached : Hy3Layout :=
  { nodes := exEphemeral.nodes ++
      [ { addr := 4, workspace := some 0, data := Hy3NodeData.window (some 103) } ],
    next := 5 }

/-- A horizontal split (address 0) with two windows of ratios `a` and `b`. -/
def exPair (a b : ℚ) : Hy3Layout :=
  { nodes :=
      [ { addr := 0, workspace := some 0,
          data := Hy3NodeData.group
            { children := [1, 2], group_focused := false, focused_child := some 1 } },
        { addr := 1, parent := some 0, workspace := some 0, size_ratio := a,
          data := Hy3NodeData.window (some 101) },
        { addr := 2, parent := some 0, workspace := some 0, size_ratio := b,
          data := Hy3NodeData.window (some 102) } ],
    next := 3 }

/-- A layout-field table in which every node has position (0, 0) and size 100 x 50. -/
def exGeometry : Geometry :=
  fun _ => { position := ⟨0, 0⟩, size := ⟨100, 50⟩ }

/-- A configuration without gaps, inset or tab bar. -/
def exConfig : LayoutConfig :=
  { gaps_in := ⟨0, 0, 0, 0⟩, gaps_out := ⟨0, 0, 0, 0⟩, group_inset := 0, tab_bar_height := 0,
    tab_bar_padding := 0 }

/-- The environment `exEnv` with `plugin:hy3:tab_first_window` switched on. -/
def exEnvTab : Env := { exEnv with tab_first_window := 1 }

/-- A configuration with inner gaps 5, outer gaps 20, a group inset of 10 and a tab bar of
height 15 with padding 5. -/
def exGapConfig : LayoutConfig :=
  { gaps_in := ⟨5, 5, 5, 5⟩, gaps_out := ⟨20, 20, 20, 20⟩, group_inset := 10,
    tab_bar_height := 15, tab_bar_padding := 5 }

/-- A parentless tabbed group (address 0) with two windows, the first one focused. -/
def exTabRoot : Hy3Layout :=
  { nodes :=
      [ { addr := 0, workspace := some 0,
          data := Hy3NodeData.group
            { layout := Hy3GroupLayout.Tabbed, children := [1, 2], group_focused := false,
              focused_child := some 1 } },
        { addr := 1, parent := some 0, workspace := some 0,
          data := Hy3NodeData.window (some 101) },
        { addr := 2, parent := some 0, workspace := some 0,
          data := Hy3NodeData.window (some 102) } ],
    next := 3 }

/-- The store after the first window `w1` of the workspace `ws` has been tiled: the window node
0 under the root 1. -/
def exFirst (w1 : Nat) (ws : Option Nat) : Hy3Layout :=
  { nodes :=
      [ { addr := 0, parent := some 1, workspace := ws, data := Hy3NodeData.window (some w1) },
        { addr := 1, workspace := ws,
          data := Hy3NodeData.group
            { children := [0], group_focused := false, focused_child := some 0 } } ],
    next := 2 }

/-- The store after a second window `w2` has been tiled: the window nodes 0 and 2 under the
horizontal root 1, both with the default `size_ratio` 1. -/
def exSecond (w1 w2 : Nat) (ws : Option Nat) : Hy3Layout :=
  { nodes :=
      [ { addr := 0, parent := some 1, workspace := ws, data := Hy3NodeData.window (some w1) },
        { addr := 1, workspace := ws,
          data := Hy3NodeData.group
            { children := [0, 2], group_focused := false, focused_child := some 2 } },
        { addr := 2, parent := some 1, workspace := ws,
          data := Hy3NodeData.window (some w2) } ],
    next := 3 }

/-! ## Further concrete stores -/

/-- A root group (address 0) that holds the focus itself and has no focused child, with one
window. -/
def exUnfocused : Hy3Layout :=
  { nodes :=
      [ { addr := 0, workspace := some 0,
          data := Hy3NodeData.group { children := [1] } },
        { addr := 1, parent := some 0, workspace := some 0,
          data := Hy3NodeData.window (some 101) } ],
    next := 2 }


/-- A root group in horizontal split (address 0) with three windows. -/
def exThree : Hy3Layout :=
  { nodes :=
      [ { addr := 0, workspace := some 0,
          data := Hy3NodeData.group
            { children := [1, 2, 3], group_focused := false, focused_child := some 2 } },
        { addr := 1, parent := some 0, workspace := some 0,
          data := Hy3NodeData.window (some 101) },
        { addr := 2, parent := some 0, workspace := some 0,
          data := Hy3NodeData.window (some 102) },
        { addr := 3, parent := some 0, workspace := some 0,
          data := Hy3NodeData.window (some 103) } ],
    next := 4 }


/-- A root group (address 0) that is ephemeral and holds two windows. -/
def exRootEphemeral : Hy3Layout :=
  { nodes :=
      [ { addr := 0, workspace := some 0,
          data := Hy3NodeData.group
            { children := [1, 2], group_focused := false, focused_child := some 1,
              ephemeral := true } },
        { addr := 1, parent := some 0, workspace := some 0,
          data := Hy3NodeData.window (some 101) },
        { addr := 2, parent := some 0, workspace := some 0,
          data := Hy3NodeData.window (some 102) } ],
    next := 3 }

/-- A root (address 0) holding a group (address 1, not ephemeral) with the windows 2 and 3, and
the window 4. -/
def exNested : Hy3Layout :=
  { nodes :=
      [ { addr := 0, workspace := some 0,
          data := Hy3NodeData.group
            { children := [1, 4], group_focused := false, focused_child := some 1 } },
        { addr := 1, parent := some 0, workspace := some 0,
          data := Hy3NodeData.group
            { layout := Hy3GroupLayout.SplitV, previous_nontab_layout := Hy3GroupLayout.SplitV,
              children := [2, 3], group_focused := false, focused_child := some 2 } },
        { addr := 2, parent := some 1, workspace := some 0,
          data := Hy3NodeData.window (some 102) },
        { addr := 3, parent := some 1, workspace := some 0,
          data := Hy3NodeData.window (some 103) },
        { addr := 4, parent := some 0, workspace := some 0,
          data := Hy3NodeData.window (some 104) } ],
    next := 5 }

/-- A root (address 0) holding a group (address 1, not ephemeral) and the window 5; the only
child of group 1 is the ephemeral group 2 with the windows 3 and 4. -/
def exCascade : Hy3Layout :=
  { nodes :=
      [ { addr := 0, workspace := some 0,
          data := Hy3NodeData.group
            { children := [1, 5], group_focused := false, focused_child := some 1 } },
        { addr := 1, parent := some 0, workspace := some 0,
          data := Hy3NodeData.group
            { layout := Hy3GroupLayout.SplitV, previous_nontab_layout := Hy3GroupLayout.SplitV,
              children := [2], group_focused := false, focused_child := some 2 } },
        { addr := 2, parent := some 1, workspace := some 0,
          data := Hy3NodeData.group
            { children := [3, 4], group_focused := false, focused_child := some 3,
              ephemeral := true } },
        { addr := 3, parent := some 2, workspace := some 0,
          data := Hy3NodeData.window (some 103) },
        { addr := 4, parent := some 2, workspace := some 0,
          data := Hy3NodeData.window (some 104) },
        { addr := 5, parent := some 0, workspace := some 0,
          data := Hy3NodeData.window (some 105) } ],
    next := 6 }
/-- A root (address 0) holding a group (address 1, not ephemeral) and the window 5; group 1
holds the group 2 (with the windows 3 and 6) and the window 4. -/
def exNestedGroup : Hy3Layout :=
  { nodes :=
      [ { addr := 0, workspace := some 0,
          data := Hy3NodeData.group
            { children := [1, 5], group_focused := false, focused_child := some 1 } },
        { addr := 1, parent := some 0, workspace := some 0,
          data := Hy3NodeData.group
            { layout := Hy3GroupLayout.SplitV, previous_nontab_layout := Hy3GroupLayout.SplitV,
              children := [2, 4], group_focused := false, focused_child := some 2 } },
        { addr := 2, parent := some 1, workspace := some 0,
          data := Hy3NodeData.group
            { children := [3, 6], group_focused := false, focused_child := some 3 } },
        { addr := 3, parent := some 2, workspace := some 0,
          data := Hy3NodeData.window (some 103) },
        { addr := 4, parent := some 1, workspace := some 0,
          data := Hy3NodeData.window (some 104) },
        { addr := 5, parent := some 0, workspace := some 0,
          data := Hy3NodeData.window (some 105) },
        { addr := 6, parent := some 2, workspace := some 0,
          data := Hy3NodeData.window (some 106) } ],
    next := 7 }

/-- The environment `exEnv` with `node_collapse_policy` set to 1 (never collapse). -/
def exEnvNever : Env := { exEnv with node_collapse_policy := 1 }


/-- The environment `exEnv` with autotile enabled on every workspace and both triggers 0. -/
def exEnvAuto : Env :=
  { exEnv with
    at_enable := 1
    shouldAutotileWorkspace := fun _ => true
    nodeSize := fun _ => (1920, 1080) }

/-- A root split `0` with the focused window `1` and the tab group `2`, whose second tab `4`
is the focused one. -/
def exTabs : Hy3Layout :=
  { nodes :=
      [ { addr := 0, workspace := some 0,
          data := Hy3NodeData.group
            { children := [1, 2], group_focused := false, focused_child := some 1 } },
        { addr := 1, parent := some 0, workspace := some 0,
          data := Hy3NodeData.window (some 101) },
        { addr := 2, parent := some 0, workspace := some 0,
          data := Hy3NodeData.group
            { layout := Hy3GroupLayout.Tabbed, children := [3, 4], group_focused := false,
              focused_child := some 4 } },
        { addr := 3, parent := some 2, workspace := some 0,
          data := Hy3NodeData.window (some 102) },
        { addr := 4, parent := some 2, workspace := some 0,
          data := Hy3NodeData.window (some 103) } ],
    next := 5 }

/-- A horizontal split (address 0) that is focused as a group (`group_focused == true`), with
two windows. -/
def exFocusedPair : Hy3Layout :=
  { nodes :=
      [ { addr := 0, workspace := some 0,
          data := Hy3NodeData.group
            { children := [1, 2], group_focused := true, focused_child := some 1 } },
        { addr := 1, parent := some 0, workspace := some 0,
          data := Hy3NodeData.window (some 101) },
        { addr := 2, parent := some 0, workspace := some 0,
          data := Hy3NodeData.window (some 102) } ],
    next := 3 }

/-- The store `exNestedGroup` after its group 2 (with the windows 3 and 6) has been focused
as a group: `group_focused` is set on the group 2. -/
def exNestedGroupFocused : Hy3Layout :=
  { nodes :=
      [ { addr := 0, workspace := some 0,
          data := Hy3NodeData.group
            { children := [1, 5], group_focused := false, focused_child := some 1 } },
        { addr := 1, parent := some 0, workspace := some 0,
          data := Hy3NodeData.group
            { layout := Hy3GroupLayout.SplitV, previous_nontab_layout := Hy3GroupLayout.SplitV,
              children := [2, 4], group_focused := false, focused_child := some 2 } },
        { addr := 2, parent := some 1, workspace := some 0,
          data := Hy3NodeData.group
            { children := [3, 6], group_focused := true, focused_child := some 3 } },
        { addr := 3, parent := some 2, workspace := some 0,
          data := Hy3NodeData.window (some 103) },
        { addr := 4, parent := some 1, workspace := some 0,
          data := Hy3NodeData.window (some 104) },
        { addr := 5, parent := some 0, workspace := some 0,
          data := Hy3NodeData.window (some 105) },
        { addr := 6, parent := some 2, workspace := some 0,
          data := Hy3NodeData.window (some 106) } ],
    next := 7 }

/-- A root (address 0) holding the group 1 and the window 6; group 1 (ephemeral when `eph` is
set) has a latched expansion and holds the focused group 2 and the window 3; group 2, whose
expansion state is `Stack`, holds the windows 4 and 5. -/
def exLatched (eph : Bool) : Hy3Layout :=
  { nodes :=
      [ { addr := 0, workspace := some 0,
          data := Hy3NodeData.group
            { children := [1, 6], group_focused := false, focused_child := some 1 } },
        { addr := 1, parent := some 0, workspace := some 0,
          data := Hy3NodeData.group
            { children := [2, 3], group_focused := false, focused_child := some 2,
              expand_focused := ExpandFocusType.Latch, ephemeral := eph } },
        { addr := 2, parent := some 1, workspace := some 0,
          data := Hy3NodeData.group
            { layout := Hy3GroupLayout.SplitV, previous_nontab_layout := Hy3GroupLayout.SplitV,
              children := [4, 5], group_focused := false, focused_child := some 4,
              expand_focused := ExpandFocusType.Stack } },
        { addr := 3, parent := some 1, workspace := some 0,
          data := Hy3NodeData.window (some 103) },
        { addr := 4, parent := some 2, workspace := some 0,
          data := Hy3NodeData.window (some 104) },
        { addr := 5, parent := some 2, workspace := some 0,
          data := Hy3NodeData.window (some 105) },
        { addr := 6, parent := some 0, workspace := some 0,
          data := Hy3NodeData.window (some 106) } ],
    next := 7 }

/-! # Theorems -/

open Hy3Layout

/-! ## Basic facts about the store -/

namespace Hy3Layout

theorem get_addr {h : Hy3Layout} {a : Nat} {n : Hy3Node} (hn : h.get a = some n) : n.addr = a := by
  have := List.find?_some hn
  simpa using this

theorem get_mem {h : Hy3Layout} {a : Nat} {n : Hy3Node} (hn : h.get a = some n) : n ∈ h.nodes :=
  List.mem_of_find?_eq_some hn

theorem get_modify (h : Hy3Layout) (a b : Nat) (f : Hy3Node → Hy3Node) :
    (h.modify a f).get b =
      if b = a then (h.get b).map (fun n => { f n with addr := b }) else h.get b := by
  unfold get modify
  simp only
  induction h.nodes with
  | nil => simp
  | cons x xs ih =>
    by_cases hxa : x.addr = a
    · by_cases hxb : x.addr = b
      · subst hxa; subst hxb; simp [List.find?_cons]
      · have hba : ¬ b = a := fun e => hxb (by rw [hxa, e])
        simp only [List.map_cons, hxa, if_true, List.find?_cons, hba, if_false] at ih ⊢
        have h1 : (a == b) = false := by simpa using fun e => hba e.symm
        have h2 : (x.addr == b) = false := by simpa using hxb
        simp only [h1, h2]
        exact ih
    · by_cases hxb : x.addr = b
      · have hba : ¬ b = a := fun e => hxa (by rw [hxb, e])
        simp [List.find?_cons, hxa, hxb, hba]
      · have h2 : (x.addr == b) = false := by simpa using hxb
        simp only [List.map_cons, hxa, if_false, List.find?_cons, h2]
        exact ih

theorem get_modify_ne {h : Hy3Layout} {a b : Nat} (f : Hy3Node → Hy3Node) (hne : b ≠ a) :
    (h.modify a f).get b = h.get b := by
  rw [get_modify, if_neg hne]

theorem get_modify_same (h : Hy3Layout) (a : Nat) (f : Hy3Node → Hy3Node) :
    (h.modify a f).get a = (h.get a).map (fun n => { f n with addr := a }) := by
  rw [get_modify, if_pos rfl]

theorem get_remove (h : Hy3Layout) (a b : Nat) :
    (h.remove a).get b = if b = a then none else h.get b := by
  unfold get remove
  simp only
  induction h.nodes with
  | nil => simp
  | cons x xs ih =>
    by_cases hxa : x.addr = a
    · have hf : (x.addr != a) = false := by simp [hxa]
      by_cases hba : b = a
      · simp only [List.filter_cons, hf, Bool.false_eq_true, if_false, hba, if_true] at ih ⊢
        exact ih
      · have hxb : (x.addr == b) = false := by
          simpa using fun e => hba (by rw [← e, hxa])
        simp only [List.filter_cons, hf, Bool.false_eq_true, if_false,
          List.find?_cons, hxb, hba] at ih ⊢
        exact ih
    · have hne : (x.addr != a) = true := by simpa using hxa
      by_cases hxb : x.addr = b
      · have hba : ¬ b = a := fun e => hxa (by rw [hxb, e])
        simp [List.filter_cons, hne, List.find?_cons, hxb, hba]
      · have h2 : (x.addr == b) = false := by simpa using hxb
        simp only [List.filter_cons, hne, if_true, List.find?_cons, h2]
        exact ih

theorem get_push_back (h : Hy3Layout) (n : Hy3Node) (b : Nat) :
    (h.push_back n).get b =
      match h.get b with
      | some m => some m
      | none => if b = h.next then some { n with addr := h.next } else none := by
  unfold get push_back
  simp only [List.find?_append]
  cases hb : List.find? (fun n => n.addr == b) h.nodes with
  | some m => simp
  | none =>
    by_cases e : b = h.next
    · simp [e]
    · have : ¬ h.next = b := fun e2 => e e2.symm
      simp [e, this]

theorem get_modify_eq {h : Hy3Layout} {a : Nat} {n : Hy3Node} (f : Hy3Node → Hy3Node)
    (hn : h.get a = some n) : (h.modify a f).get a = some { f n with addr := a } := by
  rw [get_modify_same, hn]; rfl

theorem get_modify_none {h : Hy3Layout} {a b : Nat} (f : Hy3Node → Hy3Node)
    (hn : h.get b = none) : (h.modify a f).get b = none := by
  rw [get_modify, hn]; simp

theorem get_modify_isSome (h : Hy3Layout) (a b : Nat) (f : Hy3Node → Hy3Node) :
    ((h.modify a f).get b).isSome = (h.get b).isSome := by
  rw [get_modify]; split <;> simp

theorem get_modifyGroup_ne {h : Hy3Layout} {a b : Nat} (f : Hy3GroupData → Hy3GroupData)
    (hne : b ≠ a) : (h.modifyGroup a f).get b = h.get b :=
  get_modify_ne _ hne

theorem get_modifyGroup_group {h : Hy3Layout} {a : Nat} {n : Hy3Node} {g : Hy3GroupData}
    (f : Hy3GroupData → Hy3GroupData) (hn : h.get a = some n)
    (hg : n.data = Hy3NodeData.group g) :
    (h.modifyGroup a f).get a = some { n with data := Hy3NodeData.group (f g) } := by
  have ha := get_addr hn
  unfold modifyGroup
  rw [get_modify_eq _ hn]
  simp only [hg]
  cases n
  simp_all

theorem get_modifyGroup_window {h : Hy3Layout} {a : Nat} {n : Hy3Node} {w : Option Nat}
    (f : Hy3GroupData → Hy3GroupData) (hn : h.get a = some n)
    (hg : n.data = Hy3NodeData.window w) :
    (h.modifyGroup a f).get a = some n := by
  have ha := get_addr hn
  unfold modifyGroup
  rw [get_modify_eq _ hn]
  simp only [hg]
  cases n
  simp_all

theorem get_modifyGroup_isSome (h : Hy3Layout) (a b : Nat) (f : Hy3GroupData → Hy3GroupData) :
    ((h.modifyGroup a f).get b).isSome = (h.get b).isSome :=
  get_modify_isSome _ _ _ _

theorem group_eq_some {h : Hy3Layout} {a : Nat} {g : Hy3GroupData} (hg : h.group a = some g) :
    ∃ n, h.get a = some n ∧ n.data = Hy3NodeData.group g := by
  unfold group at hg
  cases hn : h.get a with
  | none => simp [hn] at hg
  | some n =>
    refine ⟨n, rfl, ?_⟩
    simp only [hn, Option.some_bind, Hy3Node.asGroup] at hg
    cases hd : n.data with
    | window w => simp [hd] at hg
    | group g2 => simp [hd] at hg; rw [hg]

theorem group_of_get {h : Hy3Layout} {a : Nat} {n : Hy3Node} {g : Hy3GroupData}
    (hn : h.get a = some n) (hg : n.data = Hy3NodeData.group g) : h.group a = some g := by
  simp [group, hn, Hy3Node.asGroup, hg]

end Hy3Layout

/-! ## The expansion prelude only touches `expand_focused` -/

theorem SameButExpand.refl (h : Hy3Layout) : SameButExpand h h := fun _ => rfl

theorem SameButExpand.trans {h1 h2 h3 : Hy3Layout} (h12 : SameButExpand h1 h2)
    (h23 : SameButExpand h2 h3) : SameButExpand h1 h3 := fun a => (h23 a).trans (h12 a)

theorem SameButExpand.modifyGroup (h : Hy3Layout) (a : Nat) (f : Hy3GroupData → Hy3GroupData)
    (hf : ∀ g, (f g).noExpand = g.noExpand) : SameButExpand h (h.modifyGroup a f) := by
  intro b
  by_cases hb : b = a
  · subst hb
    cases hn : h.get b with
    | none =>
      have : (h.modifyGroup b f).get b = none := Hy3Layout.get_modify_none _ hn
      rw [this]
    | some n =>
      cases hd : n.data with
      | window w => rw [Hy3Layout.get_modifyGroup_window f hn hd]
      | group g =>
        rw [Hy3Layout.get_modifyGroup_group f hn hd]
        simp only [Option.map_some', Hy3Node.noExpand, hd, hf]
  · rw [Hy3Layout.get_modifyGroup_ne f hb]

theorem SameButExpand.get {h h' : Hy3Layout} (hs : SameButExpand h h') {a : Nat} {n : Hy3Node}
    (hn : h.get a = some n) : ∃ n', h'.get a = some n' ∧ n'.noExpand = n.noExpand := by
  have := hs a
  rw [hn] at this
  cases hn' : h'.get a with
  | none => simp [hn'] at this
  | some n' => exact ⟨n', rfl, by simpa [hn'] using this⟩

theorem Hy3Node.noExpand_parent {n n' : Hy3Node} (e : n'.noExpand = n.noExpand) :
    n'.parent = n.parent := by
  have := congrArg Hy3Node.parent e
  simpa [Hy3Node.noExpand] using this

theorem Hy3Node.noExpand_ratio {n n' : Hy3Node} (e : n'.noExpand = n.noExpand) :
    n'.size_ratio = n.size_ratio := by
  have := congrArg Hy3Node.size_ratio e
  simpa [Hy3Node.noExpand] using this

theorem Hy3Node.noExpand_group {n n' : Hy3Node} {g : Hy3GroupData}
    (e : n'.noExpand = n.noExpand) (hg : n.data = Hy3NodeData.group g) :
    ∃ g', n'.data = Hy3NodeData.group g' ∧ g'.noExpand = g.noExpand := by
  have := congrArg Hy3Node.data e
  simp only [Hy3Node.noExpand, hg] at this
  cases hd : n'.data with
  | window w => simp [hd] at this
  | group g' => exact ⟨g', rfl, by simpa [hd] using this⟩

theorem Hy3GroupData.noExpand_children {g g' : Hy3GroupData} (e : g'.noExpand = g.noExpand) :
    g'.children = g.children := by
  have := congrArg Hy3GroupData.children e
  simpa [Hy3GroupData.noExpand] using this

theorem collapseStack_same : ∀ (fuel : Nat) (h : Hy3Layout) (p : Option Nat) (h' : Hy3Layout),
    collapseStack fuel h p = some h' → SameButExpand h h'
  | 0, _, _, _, e => by simp [collapseStack] at e
  | _ + 1, _, none, _, e => by simp [collapseStack] at e
  | fuel + 1, h, some a, h', e => by
    unfold collapseStack at e
    cases hn : h.get a with
    | none => simp [hn] at e
    | some n =>
      simp only [hn] at e
      cases hd : n.data with
      | window w =>
        simp only [hd, Option.some.injEq] at e
        subst e; exact SameButExpand.refl _
      | group g =>
        simp only [hd] at e
        split at e
        · have ih := collapseStack_same fuel _ _ _ e
          exact SameButExpand.trans (SameButExpand.modifyGroup h a _ (by intro _; rfl)) ih
        · simp only [Option.some.injEq] at e
          subst e; exact SameButExpand.refl _

theorem collapseExpansions_same {fuel : Nat} {h h' : Hy3Layout} {a : Nat}
    (e : collapseExpansions fuel h a = some h') : SameButExpand h h' := by
  unfold collapseExpansions at e
  cases hg : h.group a with
  | none => simp [hg] at e
  | some g =>
    simp only [hg] at e
    split at e
    · simp only [Option.some.injEq] at e
      subst e; exact SameButExpand.refl _
    · have ih := collapseStack_same _ _ _ _ e
      exact SameButExpand.trans (SameButExpand.modifyGroup h a _ (by intro _; rfl)) ih

theorem removePrelude_same {fuel : Nat} {h h' : Hy3Layout} {this : Nat} {actor : Option Nat}
    (e : removePrelude fuel h this = some (h', actor)) : SameButExpand h h' := by
  unfold removePrelude at e
  cases hn : h.get this with
  | none => simp [hn] at e
  | some tn =>
    simp only [hn] at e
    cases hp : tn.parent with
    | none =>
      simp only [hp, Option.some.injEq, Prod.mk.injEq] at e
      rw [← e.1]; exact SameButExpand.refl _
    | some p =>
      simp only [hp] at e
      cases ha : getExpandActor fuel h this with
      | none => simp [ha] at e
      | some act =>
        simp only [ha] at e
        cases han : h.get act with
        | none => simp [han] at e
        | some an =>
          simp only [han] at e
          cases hd : an.data with
          | window w =>
            simp only [hd, Option.some.injEq, Prod.mk.injEq] at e
            rw [← e.1]; exact SameButExpand.refl _
          | group g =>
            simp only [hd] at e
            cases hc : collapseExpansions fuel h act with
            | none => simp [hc] at e
            | some h1 =>
              simp only [hc, Option.some.injEq, Prod.mk.injEq] at e
              rw [← e.1]; exact collapseExpansions_same hc

/-! ## Projections under updates -/

namespace Hy3Layout

theorem ratioOf_modify_of (h : Hy3Layout) (a b : Nat) (f : Hy3Node → Hy3Node)
    (hf : ∀ n, (f n).size_ratio = n.size_ratio) : (h.modify a f).ratioOf b = h.ratioOf b := by
  unfold ratioOf
  rw [get_modify]
  split
  · cases h.get b <;> simp [hf]
  · rfl

theorem ratioOf_modifyGroup (h : Hy3Layout) (a b : Nat) (f : Hy3GroupData → Hy3GroupData) :
    (h.modifyGroup a f).ratioOf b = h.ratioOf b := by
  apply ratioOf_modify_of
  intro n
  cases n.data <;> rfl

theorem group_modify_of (h : Hy3Layout) (a b : Nat) (f : Hy3Node → Hy3Node)
    (hf : ∀ n, (f n).data = n.data) : (h.modify a f).group b = h.group b := by
  unfold group
  rw [get_modify]
  split
  · cases h.get b <;> simp [Hy3Node.asGroup, hf]
  · rfl

theorem group_modifyGroup (h : Hy3Layout) (a b : Nat) (f : Hy3GroupData → Hy3GroupData) :
    (h.modifyGroup a f).group b = if b = a then (h.group b).map f else h.group b := by
  by_cases hb : b = a
  · subst hb
    simp only [if_true]
    cases hn : h.get b with
    | none => simp [group, get_modify_none _ hn, hn, modifyGroup]
    | some n =>
      cases hd : n.data with
      | window w => simp [group, get_modifyGroup_window f hn hd, hn, Hy3Node.asGroup, hd]
      | group g => simp [group, get_modifyGroup_group f hn hd, hn, Hy3Node.asGroup, hd]
  · simp only [if_neg hb, group, get_modifyGroup_ne f hb]

theorem parentOf_modifyGroup (h : Hy3Layout) (a b : Nat) (f : Hy3GroupData → Hy3GroupData) :
    (h.modifyGroup a f).parentOf b = h.parentOf b := by
  unfold parentOf modifyGroup
  rw [get_modify]
  split
  · cases h.get b with
    | none => rfl
    | some n => cases hd : n.data <;> simp [hd]
  · rfl

end Hy3Layout

/-! ## The ratio loop -/

theorem addRatioAll_spec (d : ℚ) : ∀ (cs : List Nat) (h : Hy3Layout),
    (∀ c ∈ cs, (h.get c).isSome) →
    ∃ h', addRatioAll h cs d = some h' ∧
      ∀ a, h'.get a =
        (h.get a).map (fun n => { n with size_ratio := n.size_ratio + (cs.count a : ℚ) * d })
  | [], h, _ => by
    refine ⟨h, rfl, fun a => ?_⟩
    cases h.get a <;> simp
  | c :: cs, h, hall => by
    have hc : (h.get c).isSome := hall c (List.mem_cons_self _ _)
    obtain ⟨n, hn⟩ := Option.isSome_iff_exists.mp hc
    have hall' : ∀ c' ∈ cs, ((h.modify c fun n => { n with size_ratio := n.size_ratio + d }).get c').isSome := by
      intro c' hc'
      rw [get_modify_isSome]
      exact hall c' (List.mem_cons_of_mem _ hc')
    obtain ⟨h', e, hget⟩ := addRatioAll_spec d cs _ hall'
    refine ⟨h', ?_, fun a => ?_⟩
    · simp only [addRatioAll, hn]; exact e
    · rw [hget a, get_modify]
      by_cases hac : a = c
      · subst hac
        cases hg : h.get a with
        | none => simp
        | some m =>
          have := get_addr hg
          simp only [if_true, Option.map_some', List.count_cons_self, Nat.cast_add, Nat.cast_one]
          congr 1
          cases m; simp_all; ring
      · have : ¬ c = a := fun e => hac e.symm
        simp only [if_neg hac, List.count_cons, beq_iff_eq, this, if_false, add_zero]

/-! ## One round of the removal loop -/


theorem focusBeforeRemove_ratioOf (h : Hy3Layout) (p : Nat) (cs : List Nat) (c a : Nat) :
    (focusBeforeRemove h p cs c).ratioOf a = h.ratioOf a := by
  unfold focusBeforeRemove
  split
  · exact ratioOf_modifyGroup _ _ _ _
  · rfl

theorem focusBeforeRemove_parentOf (h : Hy3Layout) (p : Nat) (cs : List Nat) (c a : Nat) :
    (focusBeforeRemove h p cs c).parentOf a = h.parentOf a := by
  unfold focusBeforeRemove
  split
  · exact parentOf_modifyGroup _ _ _ _
  · rfl

theorem focusBeforeRemove_children (h : Hy3Layout) (p : Nat) (cs : List Nat) (c a : Nat) :
    ((focusBeforeRemove h p cs c).group a).map Hy3GroupData.children =
      (h.group a).map Hy3GroupData.children := by
  unfold focusBeforeRemove
  split
  · rw [group_modifyGroup]
    split
    · cases h.group a <;> simp
    · rfl
  · rfl

theorem ratioOf_modify_parent (h : Hy3Layout) (a b : Nat) (p : Option Nat) :
    (h.modify a fun n => { n with parent := p }).ratioOf b = h.ratioOf b :=
  ratioOf_modify_of _ _ _ _ (fun _ => rfl)

theorem group_modify_parent (h : Hy3Layout) (a b : Nat) (p : Option Nat) :
    (h.modify a fun n => { n with parent := p }).group b = h.group b :=
  group_modify_of _ _ _ _ (fun _ => rfl)

theorem ratioOf_eq_some {h : Hy3Layout} {a : Nat} {r : ℚ} (e : h.ratioOf a = some r) :
    ∃ n, h.get a = some n ∧ n.size_ratio = r := by
  unfold ratioOf at e
  cases hn : h.get a with
  | none => simp [hn] at e
  | some n => exact ⟨n, rfl, by simpa [hn] using e⟩

theorem removeLoop_detach (fuel : Nat) (h : Hy3Layout) (c G : Nat) (cn : Hy3Node)
    (gd : Hy3GroupData) (hc : h.get c = some cn) (hp : cn.parent = some G)
    (hG : h.group G = some gd) (hmem : c ∈ gd.children)
    (hne : gd.children.filter (fun s => s ≠ c) ≠ [])
    (hall : ∀ s ∈ gd.children, (h.get s).isSome) :
    ∃ h', removeLoop c (fuel + 1) h c = some (h', some G) ∧
      (∀ a, h'.ratioOf a = (h.ratioOf a).map fun r =>
        r + ((gd.children.filter (fun s => s ≠ c)).count a : ℚ) *
          -((1 - cn.size_ratio) / ((gd.children.filter (fun s => s ≠ c)).length : ℚ))) ∧
      (h'.group G).map Hy3GroupData.children = some (gd.children.filter (fun s => s ≠ c)) ∧
      h'.parentOf c = some none := by
  set cs := gd.children.filter (fun s => s ≠ c) with hcs
  have hcnot : c ∉ cs := by simp [hcs]
  set h1 := focusBeforeRemove h G gd.children c with hh1
  set h2 := h1.modifyGroup G fun g =>
      { g with
        children := cs
        group_focused := false
        focused_child := if cs.length = 1 then cs.head? else g.focused_child } with hh2
  have hr2 : ∀ a, h2.ratioOf a = h.ratioOf a := fun a => by
    rw [hh2, ratioOf_modifyGroup, hh1, focusBeforeRemove_ratioOf]
  have hrc : h.ratioOf c = some cn.size_ratio := by simp [ratioOf, hc]
  obtain ⟨cn2, hcn2, hcr2⟩ := ratioOf_eq_some ((hr2 c).trans hrc)
  set h3 := h2.modify c fun n => { n with parent := none } with hh3
  have hr3 : ∀ a, h3.ratioOf a = h.ratioOf a := fun a => by
    rw [hh3, ratioOf_modify_parent, hr2]
  have hall3 : ∀ s ∈ cs, (h3.get s).isSome := by
    intro s hs
    have hs' : s ∈ gd.children := (List.mem_filter.mp hs).1
    have := hall s hs'
    have e := hr3 s
    unfold ratioOf at e
    cases h3g : h3.get s with
    | some _ => rfl
    | none =>
      rw [h3g] at e
      obtain ⟨n, hn⟩ := Option.isSome_iff_exists.mp this
      simp [hn] at e
  obtain ⟨h4, e4, hget4⟩ := addRatioAll_spec
    (-((1 - cn.size_ratio) / ((cs.length - (if c ∈ cs then 1 else 0) : ℕ) : ℚ))) cs h3 hall3
  refine ⟨h4.modify c fun n => { n with parent := none }, ?_, ?_, ?_, ?_⟩
  · unfold removeLoop
    simp only [hc, hp, hG, hmem, not_true_eq_false, if_false, ← hcs, ← hh1, ← hh2, hcn2,
      ne_eq, not_true_eq_false, ← hh3, hne, not_false_eq_true, if_true, hcr2, e4]
  · intro a
    rw [ratioOf_modify_parent]
    have : h4.ratioOf a = (h3.ratioOf a).map fun r =>
        r + (cs.count a : ℚ) *
          -((1 - cn.size_ratio) / ((cs.length - (if c ∈ cs then 1 else 0) : ℕ) : ℚ)) := by
      unfold ratioOf
      rw [hget4 a]
      cases h3.get a <;> simp
    rw [this, hr3 a]
    simp [hcnot]
  · rw [group_modify_parent]
    have g4 : h4.group G = h3.group G := by
      unfold group
      rw [hget4 G]
      cases h3.get G <;> simp [Hy3Node.asGroup]
    rw [g4, hh3, group_modify_parent, hh2, group_modifyGroup, if_pos rfl]
    have := focusBeforeRemove_children h G gd.children c G
    rw [hG] at this
    cases hg1 : h1.group G with
    | none => rw [← hh1, hg1] at this; simp at this
    | some g1 => simp
  · unfold parentOf
    rw [get_modify_same]
    have : (h4.get c).isSome := by
      rw [hget4 c]
      have := hr3 c
      rw [hrc] at this
      obtain ⟨n, hn, _⟩ := ratioOf_eq_some this
      simp [hn]
    obtain ⟨n, hn⟩ := Option.isSome_iff_exists.mp this
    simp [hn]


/-! ## Removal: ratio redistribution -/


theorem SameButExpand.ratioOf {h h' : Hy3Layout} (hs : SameButExpand h h') (a : Nat) :
    h'.ratioOf a = h.ratioOf a := by
  have := congrArg (Option.map Hy3Node.size_ratio) (hs a)
  simpa [Hy3Layout.ratioOf, Hy3Node.noExpand, Function.comp_def] using this

theorem SameButExpand.isSome {h h' : Hy3Layout} (hs : SameButExpand h h') (a : Nat) :
    (h'.get a).isSome = (h.get a).isSome := by
  have := congrArg Option.isSome (hs a)
  simpa using this

theorem SameButExpand.group {h h' : Hy3Layout} (hs : SameButExpand h h') {a : Nat}
    {g : Hy3GroupData} (hg : h.group a = some g) :
    ∃ g', h'.group a = some g' ∧ g'.noExpand = g.noExpand := by
  obtain ⟨n, hn, hd⟩ := group_eq_some hg
  obtain ⟨n', hn', e⟩ := hs.get hn
  obtain ⟨g', hd', eg⟩ := Hy3Node.noExpand_group e hd
  exact ⟨g', group_of_get hn' hd', eg⟩

theorem ratioSum_perm {h : Hy3Layout} {l1 l2 : List Nat} (p : l1.Perm l2) :
    h.ratioSum l1 = h.ratioSum l2 :=
  (p.map _).sum_eq

theorem childrenOf_of_group {h : Hy3Layout} {a : Nat} {cs : List Nat}
    (e : (h.group a).map Hy3GroupData.children = some cs) : h.childrenOf a = cs := by
  cases hg : h.group a with
  | none => simp [hg] at e
  | some g =>
    obtain ⟨n, hn, hd⟩ := group_eq_some hg
    simp only [hg, Option.map_some', Option.some.injEq] at e
    simp [childrenOf, hn, Hy3Node.children, Hy3NodeData.children, hd, e]

/-- Detaching a child `c` of a group `G` that has another child: the call returns `G`, the child
list of `G` loses `c`, and each survivor receives the same share. -/
theorem removeFromParentRecursive_survivors
    (fuel : Nat) (h : Hy3Layout) (c G : Nat) (cn : Hy3Node) (gd : Hy3GroupData)
    (hc : h.get c = some cn) (hp : cn.parent = some G) (hG : h.group G = some gd)
    (hmem : c ∈ gd.children) (hnodup : gd.children.Nodup) (hlen : 2 ≤ gd.children.length)
    (hall : ∀ s ∈ gd.children, (h.get s).isSome)
    (hpre : (removePrelude (fuel + 1) h c).isSome) :
    ∃ r, removeFromParentRecursive (fuel + 1) h c = some r ∧ r.ret = some G ∧
      r.layout.childrenOf G = gd.children.erase c ∧
      (∀ s ∈ gd.children, s ≠ c → ∀ x, h.ratioOf s = some x →
        r.layout.ratioOf s =
          some (x + -((1 - cn.size_ratio) / ((gd.children.length : ℚ) - 1)))) := by
  obtain ⟨⟨h1, actor⟩, hpre⟩ := Option.isSome_iff_exists.mp hpre
  have hs := removePrelude_same hpre
  obtain ⟨cn1, hc1, ec⟩ := hs.get hc
  have hp1 : cn1.parent = some G := (Hy3Node.noExpand_parent ec).trans hp
  have hr1 : cn1.size_ratio = cn.size_ratio := Hy3Node.noExpand_ratio ec
  obtain ⟨gd1, hG1, eg⟩ := hs.group hG
  have hch : gd1.children = gd.children := Hy3GroupData.noExpand_children eg
  have hfe : gd.children.filter (fun s => s ≠ c) = gd.children.erase c := by
    rw [hnodup.erase_eq_filter]
    congr 1
    funext s
    by_cases e : s = c <;> simp [e]
  have hlen' : (gd.children.erase c).length = gd.children.length - 1 :=
    List.length_erase_of_mem hmem
  have hne : gd1.children.filter (fun s => s ≠ c) ≠ [] := by
    rw [hch, hfe]
    intro e
    rw [e] at hlen'
    simp at hlen'
    omega
  have hall1 : ∀ s ∈ gd1.children, (h1.get s).isSome := by
    intro s hs'
    rw [hs.isSome]
    exact hall s (hch ▸ hs')
  obtain ⟨h', el, hr, hg', hpar⟩ :=
    removeLoop_detach fuel h1 c G cn1 gd1 hc1 hp1 hG1 (hch ▸ hmem) hne hall1
  rw [hch, hfe] at hr hg'
  have hcast : ((gd.children.erase c).length : ℚ) = (gd.children.length : ℚ) - 1 := by
    rw [hlen']
    push_cast [Nat.cast_sub (by omega : 1 ≤ gd.children.length)]
    ring
  have hnd' : (gd.children.erase c).Nodup := hnodup.erase c
  have hsurv : ∀ s ∈ gd.children.erase c, ∀ x, h.ratioOf s = some x →
      h'.ratioOf s = some (x + -((1 - cn.size_ratio) / ((gd.children.length : ℚ) - 1))) := by
    intro s hs' x hx
    rw [hr s, hs.ratioOf, hx, List.count_eq_one_of_mem hnd' hs', hr1, hcast]
    simp
  have hch' : h'.childrenOf G = gd.children.erase c := childrenOf_of_group hg'
  refine ⟨⟨h', some G, actor⟩, ?_, rfl, hch', ?_⟩
  · simp [removeFromParentRecursive, hpre, el]
  · intro s hs' hsc x hx
    exact hsurv s ((List.mem_erase_of_ne hsc).mpr hs') x hx

/-- C1. Ratio conservation on removal: when a child `c` of a group `G` with `n ≥ 2` distinct
children whose ratios sum to `n` is detached with `removeFromParentRecursive` (the expansion
prelude having completed), the call returns `G`, the child list of `G` loses exactly `c`, every
surviving child's `size_ratio` changes by exactly `-(1 - c.size_ratio) / (n - 1)`, and the
`n - 1` surviving ratios sum to `n - 1`. -/
theorem removeFromParentRecursive_ratio_conservation
    (fuel : Nat) (h : Hy3Layout) (c G : Nat) (cn : Hy3Node) (gd : Hy3GroupData)
    (hc : h.get c = some cn) (hp : cn.parent = some G) (hG : h.group G = some gd)
    (hmem : c ∈ gd.children) (hnodup : gd.children.Nodup) (hlen : 2 ≤ gd.children.length)
    (hall : ∀ s ∈ gd.children, (h.get s).isSome)
    (hsum : h.ratioSum gd.children = gd.children.length)
    (hpre : (removePrelude (fuel + 1) h c).isSome) :
    ∃ r, removeFromParentRecursive (fuel + 1) h c = some r ∧ r.ret = some G ∧
      r.layout.childrenOf G = gd.children.erase c ∧
      (∀ s ∈ gd.children, s ≠ c → ∀ x, h.ratioOf s = some x →
        r.layout.ratioOf s =
          some (x + -((1 - cn.size_ratio) / ((gd.children.length : ℚ) - 1)))) ∧
      r.layout.ratioSum (r.layout.childrenOf G) = (gd.children.length : ℚ) - 1 := by
  obtain ⟨r, hr, hret, hch', hsurv0⟩ :=
    removeFromParentRecursive_survivors fuel h c G cn gd hc hp hG hmem hnodup hlen hall hpre
  have hlen' : (gd.children.erase c).length = gd.children.length - 1 :=
    List.length_erase_of_mem hmem
  have hcast : ((gd.children.erase c).length : ℚ) = (gd.children.length : ℚ) - 1 := by
    rw [hlen']
    push_cast [Nat.cast_sub (by omega : 1 ≤ gd.children.length)]
    ring
  have hsurv : ∀ s ∈ gd.children.erase c, ∀ x, h.ratioOf s = some x →
      r.layout.ratioOf s = some (x + -((1 - cn.size_ratio) / ((gd.children.length : ℚ) - 1))) :=
    fun s hs' x hx =>
      hsurv0 s (List.mem_of_mem_erase hs') (fun e => (hnodup.mem_erase_iff.mp (e ▸ hs')).1 rfl) x hx
  refine ⟨r, hr, hret, hch', hsurv0, ?_⟩
  · rw [hch']
    have hcr : h.ratioOf c = some cn.size_ratio := by simp [Hy3Layout.ratioOf, hc]
    have h1sum : h.ratioSum gd.children = cn.size_ratio + h.ratioSum (gd.children.erase c) := by
      rw [ratioSum_perm (List.perm_cons_erase hmem)]
      simp [Hy3Layout.ratioSum, hcr]
    have h2sum : r.layout.ratioSum (gd.children.erase c) =
        h.ratioSum (gd.children.erase c) +
          ((gd.children.erase c).length : ℚ) *
            -((1 - cn.size_ratio) / ((gd.children.length : ℚ) - 1)) := by
      have key : ∀ l : List Nat, (∀ s ∈ l, s ∈ gd.children.erase c) →
          r.layout.ratioSum l = h.ratioSum l +
            (l.length : ℚ) * -((1 - cn.size_ratio) / ((gd.children.length : ℚ) - 1)) := by
        intro l
        induction l with
        | nil => intro _; simp [Hy3Layout.ratioSum]
        | cons s l ih =>
          intro hl
          have hsm := hl s (List.mem_cons_self _ _)
          have hin : (h.get s).isSome := hall s (List.mem_of_mem_erase hsm)
          obtain ⟨n, hn⟩ := Option.isSome_iff_exists.mp hin
          have hx : h.ratioOf s = some n.size_ratio := by simp [Hy3Layout.ratioOf, hn]
          have := hsurv s hsm _ hx
          have ih' := ih (fun t ht => hl t (List.mem_cons_of_mem _ ht))
          simp only [Hy3Layout.ratioSum, List.map_cons, List.sum_cons, List.length_cons] at ih' ⊢
          rw [ih', this, hx]
          push_cast
          simp only [Option.getD_some]
          ring
      exact key _ (fun _ hs' => hs')
    rw [h2sum, hcast]
    have hn1 : ((gd.children.length : ℚ) - 1) ≠ 0 := by
      have : (2 : ℚ) ≤ gd.children.length := by exact_mod_cast hlen
      linarith
    rw [hsum] at h1sum
    field_simp
    linarith


/-! ## C1 and C2: witnesses and the proportionality counterexample -/


theorem removeFromParentRecursive_ratio_conservation_witness :
    ∃ r, removeFromParentRecursive 1 exRemoval 3 = some r ∧ r.ret = some 0 ∧
      r.layout.childrenOf 0 = [1, 2, 3].erase 3 ∧
      (∀ s ∈ [1, 2, 3], s ≠ 3 → ∀ x, exRemoval.ratioOf s = some x →
        r.layout.ratioOf s = some (x + -((1 - 3 / 2) / ((([1, 2, 3] : List Nat).length : ℚ) - 1)))) ∧
      r.layout.ratioSum (r.layout.childrenOf 0) = (([1, 2, 3] : List Nat).length : ℚ) - 1 :=
  removeFromParentRecursive_ratio_conservation 0 exRemoval 3 0
    { addr := 3, parent := some 0, workspace := some 0, size_ratio := 3 / 2,
      data := Hy3NodeData.window (some 103) }
    { children := [1, 2, 3], group_focused := false, focused_child := some 1 }
    rfl rfl rfl (by decide) (by decide) (by decide) (by decide)
    (by norm_num [Hy3Layout.ratioSum, Hy3Layout.ratioOf, Hy3Layout.get, exRemoval]) rfl



theorem setParentAll_spec (p : Nat) : ∀ (cs : List Nat) (h : Hy3Layout),
    (∀ c ∈ cs, (h.get c).isSome) →
    ∃ h', setParentAll h p cs = some h' ∧ h'.next = h.next ∧
      h'.nodes.map Hy3Node.addr = h.nodes.map Hy3Node.addr ∧
      ∀ x, h'.get x =
        (h.get x).map (fun n => if x ∈ cs then { n with parent := some p } else n)
  | [], h, _ => by
    refine ⟨h, rfl, rfl, rfl, fun x => ?_⟩
    cases h.get x <;> simp
  | c :: cs, h, hall => by
    have hc : (h.get c).isSome := hall c (List.mem_cons_self _ _)
    obtain ⟨n, hn⟩ := Option.isSome_iff_exists.mp hc
    have hall' : ∀ c' ∈ cs, ((h.modify c fun n => { n with parent := some p }).get c').isSome := by
      intro c' hc'
      rw [get_modify_isSome]
      exact hall c' (List.mem_cons_of_mem _ hc')
    obtain ⟨h', e, hnext, haddr, hget⟩ := setParentAll_spec p cs _ hall'
    refine ⟨h', ?_, hnext, ?_, fun x => ?_⟩
    · simp only [setParentAll, hn]; exact e
    · rw [haddr]
      simp only [Hy3Layout.modify, List.map_map]
      congr 1
      funext m
      simp only [Function.comp]
      split <;> rfl
    · rw [hget x, get_modify]
      by_cases hxc : x = c
      · subst hxc
        cases hg : h.get x with
        | none => simp
        | some m =>
          have := get_addr hg
          simp only [if_true, Option.map_some', List.mem_cons, true_or]
          by_cases hx : x ∈ cs <;> simp [hx] <;> (cases m; simp_all)
      · simp [hxc]


/-! ## Payload swap -/


@[simp] theorem Hy3GroupData.moved_children (g : Hy3GroupData) : g.moved.children = g.children := rfl

@[simp] theorem Hy3GroupData.moved_moved (g : Hy3GroupData) : g.moved.moved = g.moved := rfl

@[simp] theorem Hy3NodeData.data_moved_children (d : Hy3NodeData) : d.moved.children = d.children := by
  cases d <;> rfl

@[simp] theorem Hy3NodeData.data_moved_moved (d : Hy3NodeData) : d.moved.moved = d.moved := by
  cases d <;> rfl

@[simp] theorem Hy3NodeData.moved_type (d : Hy3NodeData) : d.moved.type = d.type := by
  cases d <;> rfl

theorem Hy3Layout.addrs_modify (h : Hy3Layout) (a : Nat) (f : Hy3Node → Hy3Node) :
    (h.modify a f).nodes.map Hy3Node.addr = h.nodes.map Hy3Node.addr := by
  simp only [Hy3Layout.modify, List.map_map]
  congr 1
  funext m
  simp only [Function.comp]
  split <;> rfl

theorem Hy3Layout.next_modify (h : Hy3Layout) (a : Nat) (f : Hy3Node → Hy3Node) :
    (h.modify a f).next = h.next := rfl

theorem fixParents_spec (x : Nat) (d : Hy3NodeData) (h : Hy3Layout)
    (hall : ∀ c ∈ d.children, (h.get c).isSome) :
    ∃ h', fixParents h x d = some h' ∧ h'.next = h.next ∧
      h'.nodes.map Hy3Node.addr = h.nodes.map Hy3Node.addr ∧
      ∀ y, h'.get y =
        (h.get y).map (fun n => if y ∈ d.children then { n with parent := some x } else n) := by
  cases d with
  | window w =>
    refine ⟨h, rfl, rfl, rfl, fun y => ?_⟩
    cases h.get y <;> simp [Hy3NodeData.children]
  | group g => exact setParentAll_spec x g.children h hall

theorem swapData_spec (h : Hy3Layout) (a b : Nat) (na nb : Hy3Node)
    (ha : h.get a = some na) (hb : h.get b = some nb) (hab : a ≠ b)
    (hca : ∀ c ∈ na.data.children, (h.get c).isSome)
    (hcb : ∀ c ∈ nb.data.children, (h.get c).isSome) :
    ∃ h', swapData h a b = some h' ∧ h'.next = h.next ∧
      h'.nodes.map Hy3Node.addr = h.nodes.map Hy3Node.addr ∧
      ∀ x, h'.get x = (h.get x).map (swapNode a b na nb x) := by
  set h1 := h.modify a fun n => { n with data := nb.data.moved } with hh1
  set h2 := h1.modify b fun n => { n with data := na.data.moved.moved } with hh2
  have hs2 : ∀ c, (h2.get c).isSome = (h.get c).isSome := fun c => by
    rw [hh2, get_modify_isSome, hh1, get_modify_isSome]
  obtain ⟨h3, e3, n3, a3, g3⟩ := fixParents_spec a nb.data.moved h2
    (fun c hc => by rw [hs2]; exact hcb c (by simpa using hc))
  have hs3 : ∀ c, (h3.get c).isSome = (h.get c).isSome := fun c => by
    rw [g3 c, Option.isSome_map', hs2]
  obtain ⟨h4, e4, n4, a4, g4⟩ := fixParents_spec b na.data.moved.moved h3
    (fun c hc => by rw [hs3]; exact hca c (by simpa using hc))
  refine ⟨h4, ?_, ?_, ?_, fun x => ?_⟩
  · unfold swapData
    simp only [ha, hb, if_neg hab, ← hh1, ← hh2, e3, e4]
  · rw [n4, n3]; rfl
  · rw [a4, a3, hh2, addrs_modify, hh1, addrs_modify]
  · rw [g4 x, g3 x, hh2, get_modify, hh1, get_modify]
    cases hx : h.get x with
    | none => simp
    | some n =>
      have hxa := get_addr hx
      unfold swapNode
      by_cases e1 : x = a
      · have e2 : ¬ x = b := fun e => hab (e1.symm.trans e)
        simp only [e1, e2, if_true, if_false, Option.map_some']
        subst e1
        cases n
        simp_all
      · by_cases e2 : x = b
        · simp only [e1, e2, if_true, if_false, Option.map_some']
          subst e2
          simp only [if_neg e1, Option.map_some'] 
          cases n
          simp_all
        · simp only [e1, e2, if_false, Option.map_some']


/-! ## Store bookkeeping -/


theorem StoreOK.lt_next {h : Hy3Layout} (ok : StoreOK h) {a : Nat} {n : Hy3Node}
    (hn : h.get a = some n) : a < h.next := by
  have := ok.2 n (get_mem hn)
  rwa [get_addr hn] at this

theorem StoreOK.get_next {h : Hy3Layout} (ok : StoreOK h) : h.get h.next = none := by
  cases hn : h.get h.next with
  | none => rfl
  | some n => exact absurd (ok.lt_next hn) (lt_irrefl _)

theorem StoreOK.get_ge {h : Hy3Layout} (ok : StoreOK h) {a : Nat} (ha : h.next ≤ a) :
    h.get a = none := by
  cases hn : h.get a with
  | none => rfl
  | some n => exact absurd (ok.lt_next hn) (by omega)

theorem get_push_back_of_ok {h : Hy3Layout} (ok : StoreOK h) (n : Hy3Node) (b : Nat) :
    (h.push_back n).get b = if b = h.next then some { n with addr := h.next } else h.get b := by
  rw [get_push_back]
  by_cases e : b = h.next
  · subst e; simp [ok.get_next]
  · simp only [if_neg e]
    cases h.get b <;> rfl

theorem addrs_push_back (h : Hy3Layout) (n : Hy3Node) :
    (h.push_back n).nodes.map Hy3Node.addr = h.nodes.map Hy3Node.addr ++ [h.next] := by
  simp [Hy3Layout.push_back]

theorem addrs_remove (h : Hy3Layout) (a : Nat) :
    (h.remove a).nodes.map Hy3Node.addr = (h.nodes.map Hy3Node.addr).filter (fun x => x != a) := by
  simp only [Hy3Layout.remove, List.filter_map]
  rfl

theorem mem_addrs_iff {h : Hy3Layout} {a : Nat} :
    a ∈ h.nodes.map Hy3Node.addr ↔ (h.get a).isSome := by
  constructor
  · intro hm
    obtain ⟨n, hn, e⟩ := List.mem_map.mp hm
    cases hg : h.get a with
    | some _ => rfl
    | none =>
      have := List.find?_eq_none.mp hg n hn
      simp [e] at this
  · intro hs
    obtain ⟨n, hn⟩ := Option.isSome_iff_exists.mp hs
    exact List.mem_map.mpr ⟨n, get_mem hn, get_addr hn⟩

/-- Two stores with the same address sequence (without repetition) and the same node behind each
address are equal. -/
theorem nodes_ext : ∀ (l1 l2 : List Hy3Node),
    l1.map Hy3Node.addr = l2.map Hy3Node.addr → (l1.map Hy3Node.addr).Nodup →
    (∀ a, l1.find? (fun n => n.addr == a) = l2.find? (fun n => n.addr == a)) → l1 = l2
  | [], [], _, _, _ => rfl
  | [], _ :: _, e, _, _ => by simp at e
  | _ :: _, [], e, _, _ => by simp at e
  | x :: xs, y :: ys, e, nd, hf => by
    simp only [List.map_cons, List.cons.injEq] at e
    have hxy : x = y := by
      have := hf x.addr
      simp only [List.find?_cons, beq_self_eq_true, e.1] at this
      simpa using this
    subst hxy
    congr 1
    simp only [List.map_cons, List.nodup_cons] at nd
    apply nodes_ext xs ys e.2 nd.2
    intro a
    have := hf a
    simp only [List.find?_cons] at this
    by_cases hxa : x.addr = a
    · subst hxa
      have h1 : xs.find? (fun n => n.addr == x.addr) = none := by
        apply List.find?_eq_none.mpr
        intro n hn hna
        exact nd.1 (List.mem_map.mpr ⟨n, hn, by simpa using hna⟩)
      have h2 : ys.find? (fun n => n.addr == x.addr) = none := by
        apply List.find?_eq_none.mpr
        intro n hn hna
        exact nd.1 (e.2 ▸ List.mem_map.mpr ⟨n, hn, by simpa using hna⟩)
      rw [h1, h2]
    · have hb : (x.addr == a) = false := by simpa using hxa
      simpa [hb] using this

theorem Hy3Layout.ext_get {h1 h2 : Hy3Layout} (hn : h1.next = h2.next)
    (ha : h1.nodes.map Hy3Node.addr = h2.nodes.map Hy3Node.addr)
    (nd : (h1.nodes.map Hy3Node.addr).Nodup) (hg : ∀ a, h1.get a = h2.get a) : h1 = h2 := by
  cases h1; cases h2
  simp only [Hy3Layout.mk.injEq]
  exact ⟨nodes_ext _ _ ha nd hg, hn⟩


/-! ## intoGroup -/


@[simp] theorem Hy3NodeData.children_group (g : Hy3GroupData) :
    (Hy3NodeData.group g).children = g.children := rfl

@[simp] theorem Hy3NodeData.children_window (w : Option Nat) :
    (Hy3NodeData.window w).children = [] := rfl

@[simp] theorem Hy3GroupData.new_children (l : Hy3GroupLayout) :
    (Hy3GroupData.new l).children = [] := rfl

theorem intoGroup_spec (h : Hy3Layout) (ok : StoreOK h) (this : Nat) (tn : Hy3Node)
    (layout : Hy3GroupLayout) (eph : GroupEphemeralityOption)
    (ht : h.get this = some tn) (hch : ∀ c ∈ tn.data.children, (h.get c).isSome) :
    ∃ h', intoGroup h this layout eph = some (h', h.next) ∧ h'.next = h.next + 1 ∧
      h'.nodes.map Hy3Node.addr = h.nodes.map Hy3Node.addr ++ [h.next] ∧
      h'.get this = some
        { tn with
          data := Hy3NodeData.group (wrapperGroup layout eph h.next)
          parent := if this ∈ tn.data.children then some h.next else tn.parent } ∧
      h'.get h.next = some
        { addr := h.next, parent := some this, data := tn.data.moved,
          workspace := tn.workspace } ∧
      ∀ x, x ≠ this → x ≠ h.next →
        h'.get x =
          (h.get x).map
            (fun n => if x ∈ tn.data.children then { n with parent := some h.next } else n) := by
  have hlt : this < h.next := ok.lt_next ht
  have hne : this ≠ h.next := Nat.ne_of_lt hlt
  set newn : Hy3Node :=
    { addr := h.next, parent := some this, data := Hy3NodeData.group (Hy3GroupData.new layout),
      workspace := tn.workspace } with hnewn
  set h1 := h.push_back newn with hh1
  have g1 : ∀ b, h1.get b = if b = h.next then some newn else h.get b := fun b => by
    rw [hh1, get_push_back_of_ok ok]
  have g1t : h1.get this = some tn := by rw [g1, if_neg hne, ht]
  have g1n : h1.get h.next = some newn := by rw [g1, if_pos rfl]
  have hnotin : h.next ∉ tn.data.children := fun hm => by
    have := hch _ hm
    rw [ok.get_next] at this
    simp at this
  obtain ⟨h2, e2, n2, a2, g2⟩ := swapData_spec h1 this h.next tn newn g1t g1n hne
    (fun c hc => by
      rw [g1]
      split
      · rfl
      · exact hch c hc)
    (fun c hc => by simp [hnewn, Hy3NodeData.children, Hy3GroupData.new] at hc)
  refine ⟨h2.modify this fun n =>
    { n with data := Hy3NodeData.group (wrapperGroup layout eph h.next) }, ?_, ?_, ?_, ?_, ?_, ?_⟩
  · unfold intoGroup
    simp only [ht, ← hnewn, ← hh1, e2]
    rfl
  · rw [next_modify, n2, hh1]; rfl
  · rw [addrs_modify, a2, hh1, addrs_push_back]
  · rw [get_modify_same, g2, g1t]
    have := get_addr ht
    simp only [Option.map_some', swapNode, if_true, hnewn, Hy3NodeData.data_moved_children,
      Hy3NodeData.children_group, Hy3GroupData.new_children, List.not_mem_nil, if_false]
    split <;> (cases tn; simp_all)
  · rw [get_modify_ne _ (Ne.symm hne), g2, g1n]
    simp only [Option.map_some', swapNode, if_neg (Ne.symm hne), if_true, hnewn,
      Hy3NodeData.data_moved_children, Hy3NodeData.children_group, Hy3GroupData.new_children,
      List.not_mem_nil, if_false, Hy3NodeData.data_moved_moved, hnotin]
  · intro x hx1 hx2
    rw [get_modify_ne _ hx1, g2, g1, if_neg hx2]
    cases hx : h.get x with
    | none => rfl
    | some n =>
      simp only [Option.map_some', swapNode, if_neg hx1, if_neg hx2, hnewn,
        Hy3NodeData.data_moved_children, Hy3NodeData.children_group, Hy3GroupData.new_children,
        List.not_mem_nil, if_false]


/-! ## Well-formedness: first consequences -/


theorem WellFormed.child_parent {h : Hy3Layout} (wf : WellFormed h) {a c : Nat} {n : Hy3Node}
    (hn : h.get a = some n) (hc : c ∈ n.data.children) :
    ∃ cn, h.get c = some cn ∧ cn.parent = some a :=
  wf.2 a n c hn hc

theorem WellFormed.childrenInStore {h : Hy3Layout} (wf : WellFormed h) : ChildrenInStore h := by
  intro a n hn c hc
  obtain ⟨cn, e, _⟩ := wf.2 a n c hn hc
  simp [e]

theorem wellFormed_of_check {h : Hy3Layout} (hc : wellFormedCheck h = true) : WellFormed h := by
  unfold wellFormedCheck at hc
  simp only [Bool.and_eq_true, List.all_eq_true] at hc
  refine ⟨fun a n p hn hp => ?_, fun a g c hg hcm => ?_⟩
  · have := hc.1 n (get_mem hn)
    rw [hp, get_addr hn] at this
    cases hg : h.get p with
    | none => simp [hg] at this
    | some pn => exact ⟨pn, rfl, by simpa [hg] using this⟩
  · have := hc.2 g (get_mem hg) c hcm
    rw [get_addr hg] at this
    cases hg' : h.get c with
    | none => simp [hg'] at this
    | some cn => exact ⟨cn, rfl, by simpa [hg'] using this⟩


/-! ## swallowGroups -/


theorem ChildrenInStore.of_get {h : Hy3Layout} (cis : ChildrenInStore h) {a : Nat} {n : Hy3Node}
    (hn : h.get a = some n) : ∀ c ∈ n.data.children, (h.get c).isSome :=
  fun c hc => cis a n hn c hc

theorem childrenOf_of_get {h : Hy3Layout} {a : Nat} {n : Hy3Node} (hn : h.get a = some n) :
    h.childrenOf a = n.data.children := by
  simp [Hy3Layout.childrenOf, hn, Hy3Node.children]

/-- The successful branch of `swallowGroups`. -/
theorem swallowGroups_swap (h : Hy3Layout) (i child : Nat) (n cn : Hy3Node) (g : Hy3GroupData)
    (hi : h.get i = some n) (hd : n.data = Hy3NodeData.group g) (hc : g.children = [child])
    (hcn : h.get child = some cn) (hne : i ≠ child)
    (hguard : n.parent ≠ none ∨ cn.data.type = Hy3NodeType.Group)
    (hcc : ∀ c ∈ cn.data.children, (h.get c).isSome) :
    ∃ h1, swapData h i child = some h1 ∧
      swallowGroups h (some i) = some (h1.remove child, true) ∧
      h1.next = h.next ∧ h1.nodes.map Hy3Node.addr = h.nodes.map Hy3Node.addr ∧
      ∀ x, h1.get x = (h.get x).map (swapNode i child n cn x) := by
  obtain ⟨h1, e1, n1, a1, g1⟩ := swapData_spec h i child n cn hi hcn hne
    (fun c hc' => by
      rw [hd, Hy3NodeData.children_group, hc] at hc'
      simp only [List.mem_singleton] at hc'
      subst hc'
      simp [hcn])
    hcc
  refine ⟨h1, e1, ?_, n1, a1, g1⟩
  unfold swallowGroups
  simp only [hi, hd, hc, hcn, e1]
  have : ¬ (n.parent = none ∧ cn.data.type ≠ Hy3NodeType.Group) := by
    rintro ⟨h1', h2'⟩
    rcases hguard with hg | hg
    · exact hg h1'
    · exact h2' hg
  rw [if_neg this]

/-- C9 (amended). `swallowGroups(into)` swaps and returns true exactly when `into` is a non-null
group with exactly one child and, in addition, `into` has a parent or that child is a group; then
`into` holds the child's payload (as the move leaves it) and the child node is gone. In every
other case it returns false and the store is unchanged. -/
theorem swallowGroups_iff (h : Hy3Layout) (cis : ChildrenInStore h) (into : Option Nat)
    (hin : ∀ i, into = some i → (h.get i).isSome ∧ i ∉ h.childrenOf i) :
    ∃ h' b, swallowGroups h into = some (h', b) ∧
      (b = true ↔ ∃ i n g child cn, into = some i ∧ h.get i = some n ∧
        n.data = Hy3NodeData.group g ∧ g.children = [child] ∧ h.get child = some cn ∧
        (n.parent ≠ none ∨ cn.data.type = Hy3NodeType.Group)) ∧
      (b = false → h' = h) ∧
      (b = true → ∃ i child m cn, into = some i ∧ h.childrenOf i = [child] ∧
        h.get child = some cn ∧ h'.get i = some m ∧ m.data.moved = cn.data.moved ∧
        h'.get child = none) := by
  cases into with
  | none =>
    refine ⟨h, false, rfl, ?_, fun _ => rfl, fun e => by simp at e⟩
    simp
  | some i =>
    obtain ⟨hs, hself⟩ := hin i rfl
    obtain ⟨n, hn⟩ := Option.isSome_iff_exists.mp hs
    cases hd : n.data with
    | window w =>
      refine ⟨h, false, by simp [swallowGroups, hn, hd], ?_, fun _ => rfl, fun e => by simp at e⟩
      simp only [Bool.false_eq_true, false_iff, not_exists, not_and]
      intro i' n' g child cn e1 e2 e3
      cases e1
      rw [hn] at e2
      cases e2
      rw [hd] at e3
      cases e3
    | group g =>
      have hfalse : ∀ (hne : ∀ c, g.children ≠ [c]),
          swallowGroups h (some i) = some (h, false) := by
        intro hne
        unfold swallowGroups
        simp only [hn, hd]
      have hiff_false : (∀ c, g.children ≠ [c]) →
          (false = true ↔ ∃ i' n' g' child cn, some i = some i' ∧ h.get i' = some n' ∧
            n'.data = Hy3NodeData.group g' ∧ g'.children = [child] ∧ h.get child = some cn ∧
            (n'.parent ≠ none ∨ cn.data.type = Hy3NodeType.Group)) := by
        intro hne
        simp only [Bool.false_eq_true, false_iff, not_exists, not_and]
        intro i' n' g' child cn e1 e2 e3 e4
        cases e1
        rw [hn] at e2
        cases e2
        rw [hd] at e3
        cases e3
        exact absurd e4 (hne child)
      cases hc : g.children with
      | nil =>
        have hne : ∀ c, g.children ≠ [c] := fun c e => by rw [hc] at e; cases e
        exact ⟨h, false, hfalse hne, hiff_false hne, fun _ => rfl, fun e => by simp at e⟩
      | cons child rest =>
        cases rest with
        | cons c2 r2 =>
          have hne : ∀ c, g.children ≠ [c] := fun c e => by rw [hc] at e; cases e
          exact ⟨h, false, hfalse hne, hiff_false hne, fun _ => rfl, fun e => by simp at e⟩
        | nil =>
          have hmem : child ∈ n.data.children := by rw [hd, Hy3NodeData.children_group, hc]; simp
          obtain ⟨cn, hcn⟩ := Option.isSome_iff_exists.mp (cis.of_get hn child hmem)
          have hne : i ≠ child := by
            intro e
            apply hself
            rw [childrenOf_of_get hn, e]
            exact hmem
          by_cases hguard : n.parent ≠ none ∨ cn.data.type = Hy3NodeType.Group
          · obtain ⟨h1, e1, e2, _, _, g1⟩ :=
              swallowGroups_swap h i child n cn g hn hd hc hcn hne hguard (cis.of_get hcn)
            refine ⟨h1.remove child, true, e2, ?_, fun e => by simp at e, fun _ => ?_⟩
            · simp only [true_iff]
              exact ⟨i, n, g, child, cn, rfl, hn, hd, hc, hcn, hguard⟩
            · refine ⟨i, child, swapNode i child n cn i n, cn, rfl, ?_, hcn, ?_, ?_, ?_⟩
              · rw [childrenOf_of_get hn, hd, Hy3NodeData.children_group, hc]
              · rw [get_remove, if_neg hne, g1, hn]; rfl
              · unfold swapNode
                simp only [if_true]
                split <;> split <;> simp
              · rw [get_remove, if_pos rfl]
          · refine ⟨h, false, ?_, ?_, fun _ => rfl, fun e => by simp at e⟩
            · unfold swallowGroups
              simp only [hn, hd, hc, hcn]
              have : n.parent = none ∧ cn.data.type ≠ Hy3NodeType.Group := by
                push_neg at hguard
                exact hguard
              rw [if_pos this]
            · simp only [Bool.false_eq_true, false_iff, not_exists, not_and]
              intro i' n' g' child' cn' e1 e2 e3 e4 e5
              cases e1
              rw [hn] at e2
              cases e2
              rw [hd] at e3
              cases e3
              rw [hc] at e4
              cases e4
              rw [hcn] at e5
              cases e5
              exact hguard


/-! ## C8 and C9 -/


theorem swallowGroups_iff_witness :
    ∃ h' b, swallowGroups exEphemeral (some 0) = some (h', b) ∧
      (b = true ↔ ∃ i n g child cn, some 0 = some i ∧ exEphemeral.get i = some n ∧
        n.data = Hy3NodeData.group g ∧ g.children = [child] ∧ exEphemeral.get child = some cn ∧
        (n.parent ≠ none ∨ cn.data.type = Hy3NodeType.Group)) ∧
      (b = false → h' = exEphemeral) ∧
      (b = true → ∃ i child m cn, some 0 = some i ∧ exEphemeral.childrenOf i = [child] ∧
        exEphemeral.get child = some cn ∧ h'.get i = some m ∧ m.data.moved = cn.data.moved ∧
        h'.get child = none) :=
  swallowGroups_iff exEphemeral (wellFormed_of_check (by decide)).childrenInStore (some 0)
    (fun i e => by cases e; exact ⟨rfl, by decide⟩)

/-- C9 (as stated) fails: a parentless group whose only child is a window is a group with exactly
one child, yet `swallowGroups` returns false and leaves it alone (lines 785-787). -/
theorem swallowGroups_root_window_counterexample :
    (∃ g, exRootWindow.group 0 = some g ∧ g.children.length = 1) ∧
      swallowGroups exRootWindow (some 0) = some (exRootWindow, false) :=
  ⟨⟨_, rfl, rfl⟩, rfl⟩

/-- C8: `intoGroup` on the ephemeral group at address 1 of `exEphemeral` hands the new child a
payload whose `ephemeral` flag is false, although the payload held before had it set. -/
theorem intoGroup_drops_ephemeral :
    ∃ h' c, intoGroup exEphemeral 1 Hy3GroupLayout.SplitH GroupEphemeralityOption.Standard
        = some (h', c) ∧
      (exEphemeral.group 1).map Hy3GroupData.ephemeral = some true ∧
      (h'.group c).map Hy3GroupData.ephemeral = some false ∧
      (h'.get c).map Hy3Node.data ≠ (exEphemeral.get 1).map Hy3Node.data :=
  ⟨_, _, rfl, rfl, rfl, by decide⟩


/-! ## C7: grouping round trip -/


/-- What equality of moved payloads says field by field. -/
theorem Hy3NodeData.moved_eq {d d' : Hy3NodeData} (e : d'.moved = d.moved) :
    d'.type = d.type ∧ (∀ w, d = Hy3NodeData.window w → d' = Hy3NodeData.window w) ∧
      ∀ g, d = Hy3NodeData.group g → ∃ g', d' = Hy3NodeData.group g' ∧
        g'.layout = g.layout ∧ g'.previous_nontab_layout = g.previous_nontab_layout ∧
        g'.children = g.children ∧ g'.group_focused = g.group_focused ∧
        g'.focused_child = g.focused_child ∧ g'.expand_focused = g.expand_focused := by
  cases d with
  | window w =>
    cases d' with
    | window w' =>
      simp only [Hy3NodeData.moved, Hy3NodeData.window.injEq] at e
      subst e
      exact ⟨rfl, fun _ e => e, fun g e => by cases e⟩
    | group g' => simp [Hy3NodeData.moved] at e
  | group g =>
    cases d' with
    | window w' => simp [Hy3NodeData.moved] at e
    | group g' =>
      simp only [Hy3NodeData.moved, Hy3NodeData.group.injEq, Hy3GroupData.moved,
        Hy3GroupData.mk.injEq] at e
      refine ⟨rfl, fun w e => (by cases e), fun g2 e2 => ?_⟩
      cases e2
      exact ⟨g', rfl, e.1, e.2.1, e.2.2.1, e.2.2.2.1, e.2.2.2.2.1, e.2.2.2.2.2.1⟩

/-- C7 (amended). For a node `n` of a well-formed store that is not its own parent and that has a
parent or is a group, `n.intoGroup(L, e)` followed by `swallowGroups(n)` returns true, the store
holds the same addresses in the same order, every other node is exactly as before, and `n` has its
old parent, ratio, workspace and payload: the same type, the same window reference, or the same
layout, previous layout, child list, focus fields and expansion state (the flags `ephemeral` and
`containment` are not covered). -/
theorem intoGroup_swallowGroups_roundtrip (h : Hy3Layout) (ok : StoreOK h) (wf : WellFormed h)
    (n : Nat) (tn : Hy3Node) (layout : Hy3GroupLayout) (eph : GroupEphemeralityOption)
    (hn : h.get n = some tn) (hself : tn.parent ≠ some n)
    (hcond : tn.parent ≠ none ∨ tn.data.type = Hy3NodeType.Group) :
    ∃ h1 c h2, intoGroup h n layout eph = some (h1, c) ∧
      swallowGroups h1 (some n) = some (h2, true) ∧
      h2.nodes.map Hy3Node.addr = h.nodes.map Hy3Node.addr ∧
      (∀ x, x ≠ n → h2.get x = h.get x) ∧
      ∃ m, h2.get n = some m ∧ m.parent = tn.parent ∧ m.size_ratio = tn.size_ratio ∧
        m.workspace = tn.workspace ∧ m.reparenting = tn.reparenting ∧
        m.data.type = tn.data.type ∧
        (∀ w, tn.data = Hy3NodeData.window w → m.data = Hy3NodeData.window w) ∧
        ∀ g, tn.data = Hy3NodeData.group g → ∃ g', m.data = Hy3NodeData.group g' ∧
          g'.layout = g.layout ∧ g'.previous_nontab_layout = g.previous_nontab_layout ∧
          g'.children = g.children ∧ g'.group_focused = g.group_focused ∧
          g'.focused_child = g.focused_child ∧ g'.expand_focused = g.expand_focused := by
  have cis := wf.childrenInStore
  have hch := cis.of_get hn
  have hnot : n ∉ tn.data.children := by
    intro hm
    obtain ⟨cn, e1, e2⟩ := wf.child_parent hn hm
    rw [hn] at e1
    cases e1
    exact hself e2
  have hlt : n < h.next := ok.lt_next hn
  have hne : n ≠ h.next := Nat.ne_of_lt hlt
  obtain ⟨h1, e1, n1, a1, gt, gn, go⟩ := intoGroup_spec h ok n tn layout eph hn hch
  rw [if_neg hnot] at gt
  have hs1 : ∀ c, (h.get c).isSome → (h1.get c).isSome := by
    intro c hc
    by_cases e : c = n
    · rw [e, gt]; rfl
    · have : c ≠ h.next := fun e2 => by rw [e2, ok.get_next] at hc; simp at hc
      rw [go c e this]
      simpa using hc
  obtain ⟨h2, _, e2, _, a2, g2⟩ := swallowGroups_swap h1 n h.next _ _
    (wrapperGroup layout eph h.next) gt rfl rfl gn hne
    (by
      rcases hcond with hc | hc
      · exact Or.inl hc
      · exact Or.inr (by simpa using hc))
    (fun c hc => hs1 c (hch c (by simpa using hc)))
  refine ⟨h1, h.next, h2.remove h.next, e1, e2, ?_, ?_, ?_⟩
  · rw [addrs_remove, a2, a1, List.filter_append]
    have : (h.nodes.map Hy3Node.addr).filter (fun x => x != h.next) = h.nodes.map Hy3Node.addr := by
      apply List.filter_eq_self.mpr
      intro a ha
      obtain ⟨m, hm, e⟩ := List.mem_map.mp ha
      have := ok.2 m hm
      simp only [bne_iff_ne, ne_eq]
      omega
    rw [this]
    simp
  · intro x hx
    rw [get_remove]
    by_cases hxn : x = h.next
    · rw [if_pos hxn, hxn, ok.get_next]
    · rw [if_neg hxn, g2, go x hx hxn]
      cases hg : h.get x with
      | none => rfl
      | some m =>
        simp only [Option.map_some', swapNode, if_neg hx, if_neg hxn, Hy3NodeData.data_moved_children,
          Hy3NodeData.children_group, wrapperGroup, List.mem_singleton]
        by_cases hxc : x ∈ tn.data.children
        · obtain ⟨cn, e3, e4⟩ := wf.child_parent hn hxc
          rw [hg] at e3
          cases e3
          simp only [if_pos hxc]
          cases m
          simp_all
        · simp only [if_neg hxc]
  · have hm : (h2.remove h.next).get n = some { tn with data := tn.data.moved } := by
      rw [get_remove, if_neg hne, g2, gt]
      simp only [Option.map_some', swapNode, if_true, Hy3NodeData.data_moved_children,
        Hy3NodeData.data_moved_moved, if_neg hnot, Hy3NodeData.children_group, wrapperGroup,
        List.mem_singleton, if_neg hne]
    refine ⟨_, hm, rfl, rfl, rfl, rfl, ?_⟩
    exact @Hy3NodeData.moved_eq tn.data tn.data.moved (by simp)

/-- C7 (as stated) fails for a parentless window: after `intoGroup` the node is a parentless group
whose only child is a window, and `swallowGroups` refuses it (lines 785-787), returning false. -/
theorem intoGroup_swallowGroups_lone_window_counterexample :
    ∃ h1 c, intoGroup exLoneWindow 0 Hy3GroupLayout.SplitH GroupEphemeralityOption.Standard
        = some (h1, c) ∧
      swallowGroups h1 (some 0) = some (h1, false) :=
  ⟨_, _, rfl, rfl⟩



theorem intoGroup_swallowGroups_roundtrip_witness :
    ∃ h1 c h2, intoGroup exEphemeral 1 Hy3GroupLayout.SplitH GroupEphemeralityOption.Ephemeral
        = some (h1, c) ∧
      swallowGroups h1 (some 1) = some (h2, true) ∧
      h2.nodes.map Hy3Node.addr = exEphemeral.nodes.map Hy3Node.addr ∧
      (∀ x, x ≠ 1 → h2.get x = exEphemeral.get x) ∧
      ∃ m, h2.get 1 = some m ∧ m.parent = some 0 ∧ m.size_ratio = 1 ∧
        m.workspace = some 0 ∧ m.reparenting = false ∧
        m.data.type = Hy3NodeType.Group ∧
        (∀ w, Hy3NodeData.group
            { layout := Hy3GroupLayout.SplitV, previous_nontab_layout := Hy3GroupLayout.SplitV,
              children := [2, 3], group_focused := false, focused_child := some 2,
              ephemeral := true } = Hy3NodeData.window w → m.data = Hy3NodeData.window w) ∧
        ∀ g, Hy3NodeData.group
            { layout := Hy3GroupLayout.SplitV, previous_nontab_layout := Hy3GroupLayout.SplitV,
              children := [2, 3], group_focused := false, focused_child := some 2,
              ephemeral := true } = Hy3NodeData.group g → ∃ g', m.data = Hy3NodeData.group g' ∧
          g'.layout = g.layout ∧ g'.previous_nontab_layout = g.previous_nontab_layout ∧
          g'.children = g.children ∧ g'.group_focused = g.group_focused ∧
          g'.focused_child = g.focused_child ∧ g'.expand_focused = g.expand_focused :=
  intoGroup_swallowGroups_roundtrip exEphemeral (by unfold StoreOK; decide)
    (wellFormed_of_check (by decide)) 1
    { addr := 1, parent := some 0, workspace := some 0,
      data := Hy3NodeData.group
        { layout := Hy3GroupLayout.SplitV, previous_nontab_layout := Hy3GroupLayout.SplitV,
          children := [2, 3], group_focused := false, focused_child := some 2,
          ephemeral := true } }
    Hy3GroupLayout.SplitH GroupEphemeralityOption.Ephemeral rfl (by decide) (Or.inl (by decide))


/-! ## Group updates -/


theorem modifyGroup_eq (h : Hy3Layout) (a : Nat) (f : Hy3GroupData → Hy3GroupData) :
    h.modifyGroup a f = h.modify a (Hy3Node.mapGroup f) := rfl

@[simp] theorem Hy3Node.mapGroup_addr (f : Hy3GroupData → Hy3GroupData) (n : Hy3Node) :
    (n.mapGroup f).addr = n.addr := by
  unfold Hy3Node.mapGroup; split <;> rfl

@[simp] theorem Hy3Node.mapGroup_parent (f : Hy3GroupData → Hy3GroupData) (n : Hy3Node) :
    (n.mapGroup f).parent = n.parent := by
  unfold Hy3Node.mapGroup; split <;> rfl

@[simp] theorem Hy3Node.mapGroup_size_ratio (f : Hy3GroupData → Hy3GroupData) (n : Hy3Node) :
    (n.mapGroup f).size_ratio = n.size_ratio := by
  unfold Hy3Node.mapGroup; split <;> rfl

@[simp] theorem Hy3Node.mapGroup_workspace (f : Hy3GroupData → Hy3GroupData) (n : Hy3Node) :
    (n.mapGroup f).workspace = n.workspace := by
  unfold Hy3Node.mapGroup; split <;> rfl

@[simp] theorem Hy3Node.mapGroup_reparenting (f : Hy3GroupData → Hy3GroupData) (n : Hy3Node) :
    (n.mapGroup f).reparenting = n.reparenting := by
  unfold Hy3Node.mapGroup; split <;> rfl

theorem Hy3Node.mapGroup_group {f : Hy3GroupData → Hy3GroupData} {n : Hy3Node}
    {g : Hy3GroupData} (hd : n.data = Hy3NodeData.group g) :
    (n.mapGroup f).data = Hy3NodeData.group (f g) := by
  unfold Hy3Node.mapGroup; simp [hd]

theorem Hy3Node.mapGroup_window {f : Hy3GroupData → Hy3GroupData} {n : Hy3Node}
    {w : Option Nat} (hd : n.data = Hy3NodeData.window w) :
    (n.mapGroup f).data = Hy3NodeData.window w := by
  unfold Hy3Node.mapGroup; simp [hd]

theorem Hy3Node.mapGroup_children {f : Hy3GroupData → Hy3GroupData}
    (hf : ∀ g, (f g).children = g.children) (n : Hy3Node) :
    (n.mapGroup f).data.children = n.data.children := by
  cases hd : n.data with
  | window w => rw [Hy3Node.mapGroup_window hd]
  | group g => rw [Hy3Node.mapGroup_group hd]; simp [hf]

theorem Hy3Node.mapGroup_type (f : Hy3GroupData → Hy3GroupData) (n : Hy3Node) :
    (n.mapGroup f).data.type = n.data.type := by
  cases hd : n.data with
  | window w => rw [Hy3Node.mapGroup_window hd]
  | group g => rw [Hy3Node.mapGroup_group hd]; rfl

theorem get_modifyGroup (h : Hy3Layout) (a b : Nat) (f : Hy3GroupData → Hy3GroupData) :
    (h.modifyGroup a f).get b = if b = a then (h.get b).map (Hy3Node.mapGroup f) else h.get b := by
  rw [modifyGroup_eq, get_modify]
  split
  · cases hb : h.get b with
    | none => rfl
    | some n =>
      have := get_addr hb
      simp only [Option.map_some', Option.some.injEq]
      have e := Hy3Node.mapGroup_addr f n
      cases hm : n.mapGroup f
      simp_all
  · rfl

theorem addrs_modifyGroup (h : Hy3Layout) (a : Nat) (f : Hy3GroupData → Hy3GroupData) :
    (h.modifyGroup a f).nodes.map Hy3Node.addr = h.nodes.map Hy3Node.addr :=
  addrs_modify _ _ _


/-! ## Marking group focus -/


theorem mapGroup_gf_idem (n : Hy3Node) :
    (n.mapGroup fun g => { g with group_focused := true }).mapGroup
        (fun g => { g with group_focused := true }) =
      n.mapGroup fun g => { g with group_focused := true } := by
  cases hd : n.data with
  | window w => simp [Hy3Node.mapGroup, hd]
  | group g => simp [Hy3Node.mapGroup, hd]

theorem MarkedFrom.marked_refl (h : Hy3Layout) : MarkedFrom h h (fun _ => False) :=
  ⟨rfl, rfl, fun _ => ⟨fun hf => hf.elim, fun _ => rfl⟩⟩

theorem MarkedFrom.mono {h h' : Hy3Layout} {S T : Nat → Prop} (m : MarkedFrom h h' S)
    (hST : ∀ x, S x ↔ T x) : MarkedFrom h h' T :=
  ⟨m.1, m.2.1, fun x => ⟨fun ht => (m.2.2 x).1 ((hST x).mpr ht),
    fun hnt => (m.2.2 x).2 (fun hs => hnt ((hST x).mp hs))⟩⟩

theorem MarkedFrom.marked_trans {h h1 h2 : Hy3Layout} {S T : Nat → Prop} (m1 : MarkedFrom h h1 S)
    (m2 : MarkedFrom h1 h2 T) : MarkedFrom h h2 (fun x => S x ∨ T x) := by
  refine ⟨m2.1.trans m1.1, m2.2.1.trans m1.2.1, fun x => ⟨fun hst => ?_, fun hn => ?_⟩⟩
  · by_cases ht : T x
    · rw [(m2.2.2 x).1 ht]
      by_cases hs : S x
      · rw [(m1.2.2 x).1 hs]
        cases h.get x with
        | none => rfl
        | some n => simp [mapGroup_gf_idem]
      · rw [(m1.2.2 x).2 hs]
    · rw [(m2.2.2 x).2 ht]
      have hs : S x := hst.resolve_right ht
      exact (m1.2.2 x).1 hs
  · rw [(m2.2.2 x).2 (fun ht => hn (Or.inr ht)), (m1.2.2 x).2 (fun hs => hn (Or.inl hs))]

/-- Whatever `S` is, a marked store has the same nodes up to `group_focused`. -/
theorem MarkedFrom.marked_get {h h' : Hy3Layout} {S : Nat → Prop} (m : MarkedFrom h h' S) (x : Nat) :
    h'.get x = h.get x ∨
      h'.get x = (h.get x).map (Hy3Node.mapGroup fun g => { g with group_focused := true }) := by
  by_cases hs : S x
  · exact Or.inr ((m.2.2 x).1 hs)
  · exact Or.inl ((m.2.2 x).2 hs)

theorem MarkedFrom.marked_isSome {h h' : Hy3Layout} {S : Nat → Prop} (m : MarkedFrom h h' S) (x : Nat) :
    (h'.get x).isSome = (h.get x).isSome := by
  rcases m.marked_get x with e | e <;> rw [e]
  simp

theorem MarkedFrom.children {h h' : Hy3Layout} {S : Nat → Prop} (m : MarkedFrom h h' S)
    {x : Nat} {n' : Hy3Node} (hn' : h'.get x = some n') :
    ∃ n, h.get x = some n ∧ n'.data.children = n.data.children ∧ n'.parent = n.parent ∧
      n'.data.type = n.data.type := by
  rcases m.marked_get x with e | e
  · exact ⟨n', e ▸ hn', rfl, rfl, rfl⟩
  · rw [hn'] at e
    cases hx : h.get x with
    | none => simp [hx] at e
    | some n =>
      simp only [hx, Option.map_some', Option.some.injEq] at e
      subst e
      exact ⟨n, rfl, Hy3Node.mapGroup_children (by intro _; rfl) n,
        Hy3Node.mapGroup_parent _ n, Hy3Node.mapGroup_type _ n⟩

theorem MarkedFrom.marked_childrenOf {h h' : Hy3Layout} {S : Nat → Prop} (m : MarkedFrom h h' S)
    (x : Nat) : h'.childrenOf x = h.childrenOf x := by
  cases hn' : h'.get x with
  | none =>
    have := m.marked_isSome x
    rw [hn'] at this
    cases hx : h.get x with
    | none => simp [Hy3Layout.childrenOf, hn', hx]
    | some n => simp [hx] at this
  | some n' =>
    obtain ⟨n, hn, e, _⟩ := m.children hn'
    simp [Hy3Layout.childrenOf, hn', hn, Hy3Node.children, e]

theorem InSubtree.congr_sub {h h' : Hy3Layout} (hc : ∀ x, h'.childrenOf x = h.childrenOf x)
    {a x : Nat} (hs : InSubtree h a x) : InSubtree h' a x := by
  induction hs with
  | self a => exact InSubtree.self a
  | step hm _ ih => exact InSubtree.step (by rw [hc]; exact hm) ih

theorem InSubtree.iff_of_children {h h' : Hy3Layout}
    (hc : ∀ x, h'.childrenOf x = h.childrenOf x) (a x : Nat) :
    InSubtree h' a x ↔ InSubtree h a x :=
  ⟨fun hs => hs.congr_sub (fun y => (hc y).symm), fun hs => hs.congr_sub hc⟩

theorem inSubtree_iff (h : Hy3Layout) (a x : Nat) :
    InSubtree h a x ↔ x = a ∨ ∃ c ∈ h.childrenOf a, InSubtree h c x := by
  constructor
  · intro hs
    cases hs with
    | self => exact Or.inl rfl
    | step hm hs' => exact Or.inr ⟨_, hm, hs'⟩
  · rintro (e | ⟨c, hm, hs⟩)
    · subst e; exact InSubtree.self _
    · exact InSubtree.step hm hs


/-! ## markGroupFocusedRecursive -/


theorem ChildrenRanked.of_marked {h h' : Hy3Layout} {S : Nat → Prop} {rank : Nat → Nat} {B : Nat}
    (cr : ChildrenRanked h rank B) (m : MarkedFrom h h' S) : ChildrenRanked h' rank B := by
  intro a n' c hn' hc
  obtain ⟨n, hn, e, _⟩ := m.children hn'
  have := cr a n c hn (e ▸ hc)
  exact ⟨by rw [m.marked_isSome]; exact this.1, this.2⟩

theorem MarkedFrom.marked_modifyGroup (h : Hy3Layout) (a : Nat) :
    MarkedFrom h (h.modifyGroup a fun g => { g with group_focused := true }) (fun x => x = a) := by
  refine ⟨rfl, addrs_modifyGroup _ _ _, fun x => ⟨fun e => ?_, fun e => ?_⟩⟩
  · rw [get_modifyGroup, if_pos e]
  · rw [get_modifyGroup, if_neg e]

/-- A window node is not changed by marking. -/
theorem MarkedFrom.add_window {h h' : Hy3Layout} {S : Nat → Prop} (m : MarkedFrom h h' S)
    {c : Nat} {cn : Hy3Node} {w : Option Nat} (hc : h'.get c = some cn)
    (hd : cn.data = Hy3NodeData.window w) : MarkedFrom h h' (fun x => S x ∨ InSubtree h c x) := by
  have hsub : ∀ x, InSubtree h c x → x = c := by
    intro x hs
    rcases (inSubtree_iff h c x).mp hs with e | ⟨c', hm, _⟩
    · exact e
    · rw [← m.marked_childrenOf, childrenOf_of_get hc, hd] at hm
      simp at hm
  refine ⟨m.1, m.2.1, fun x => ⟨fun hst => ?_, fun hn => (m.2.2 x).2 (fun hs => hn (Or.inl hs))⟩⟩
  by_cases hs : S x
  · exact (m.2.2 x).1 hs
  · have hxc : x = c := hsub x (hst.resolve_left hs)
    subst hxc
    have e := (m.2.2 x).2 hs
    rw [e]
    rw [e] at hc
    rw [hc]
    simp [Hy3Node.mapGroup, hd]

theorem markGroupFocusedRecursive_spec (rank : Nat → Nat) (B : Nat) :
    ∀ (fuel : Nat) (h : Hy3Layout) (a : Nat), ChildrenRanked h rank B → B - rank a < fuel →
      (h.group a).isSome →
      ∃ h', markGroupFocusedRecursive fuel h a = some h' ∧ MarkedFrom h h' (InSubtree h a)
  | 0, _, _, _, hf, _ => by omega
  | fuel + 1, h, a, cr, hf, hg => by
    obtain ⟨g, hg⟩ := Option.isSome_iff_exists.mp hg
    obtain ⟨n, hn, hd⟩ := group_eq_some hg
    have key : ∀ (l : List Nat) (acc : Hy3Layout) (S : Nat → Prop),
        (∀ c ∈ l, c ∈ n.data.children) → MarkedFrom h acc S →
        ∃ acc', l.foldlM
          (fun acc c =>
            match acc.get c with
            | none => none
            | some cn =>
              match cn.data with
              | Hy3NodeData.group _ => markGroupFocusedRecursive fuel acc c
              | Hy3NodeData.window _ => some acc) acc = some acc' ∧
          MarkedFrom h acc' (fun x => S x ∨ ∃ c ∈ l, InSubtree h c x) := by
      intro l
      induction l with
      | nil =>
        intro acc S _ m
        exact ⟨acc, rfl, m.mono (fun x => by simp)⟩
      | cons c l ih =>
        intro acc S hl m
        have hcm : c ∈ n.data.children := hl c (List.mem_cons_self _ _)
        have hcr := cr a n c hn hcm
        have hs : (acc.get c).isSome := by rw [m.marked_isSome]; exact hcr.1
        obtain ⟨cn, hcn⟩ := Option.isSome_iff_exists.mp hs
        have step : ∃ acc1, (match acc.get c with
            | none => none
            | some cn =>
              match cn.data with
              | Hy3NodeData.group _ => markGroupFocusedRecursive fuel acc c
              | Hy3NodeData.window _ => some acc) = some acc1 ∧
            MarkedFrom h acc1 (fun x => S x ∨ InSubtree h c x) := by
          cases hcd : cn.data with
          | window w =>
            refine ⟨acc, by simp [hcn, hcd], m.add_window hcn hcd⟩
          | group gc =>
            have hfc : B - rank c < fuel := by omega
            obtain ⟨acc1, e1, m1⟩ := markGroupFocusedRecursive_spec rank B fuel acc c
              (cr.of_marked m) hfc (by simp [Hy3Layout.group, hcn, Hy3Node.asGroup, hcd])
            refine ⟨acc1, by simp [hcn, hcd, e1], ?_⟩
            exact (m.marked_trans m1).mono
              (fun x => by rw [InSubtree.iff_of_children (m.marked_childrenOf) c x])
        obtain ⟨acc1, e1, m1⟩ := step
        obtain ⟨acc', e', m'⟩ := ih acc1 _ (fun c' hc' => hl c' (List.mem_cons_of_mem _ hc')) m1
        refine ⟨acc', ?_, m'.mono (fun x => ?_)⟩
        · simp only [List.foldlM_cons, Option.bind_eq_bind]
          rw [e1]
          exact e'
        · simp only [List.mem_cons, exists_eq_or_imp, or_assoc]
    obtain ⟨h', e', m'⟩ := key g.children _ _ (fun c hc => by rw [hd]; exact hc)
      (MarkedFrom.marked_modifyGroup h a)
    refine ⟨h', ?_, m'.mono (fun x => ?_)⟩
    · unfold markGroupFocusedRecursive
      simp only [hg]
      exact e'
    · rw [inSubtree_iff h a x, childrenOf_of_get hn, hd]
      rfl


/-! ## The upward loop of markFocused -/


theorem AncestorChain.congr_chain {h h' : Hy3Layout}
    (hp : ∀ x, (h'.get x).map Hy3Node.parent = (h.get x).map Hy3Node.parent)
    {a : Nat} {ps : List Nat} (c : AncestorChain h a ps) : AncestorChain h' a ps := by
  induction c with
  | @root a n hn hpar =>
    have := hp a
    rw [hn] at this
    cases hn' : h'.get a with
    | none => simp [hn'] at this
    | some n' =>
      simp only [hn', Option.map_some', Option.some.injEq] at this
      exact AncestorChain.root hn' (this.trans hpar)
  | @step a p n ps hn hpar _ ih =>
    have := hp a
    rw [hn] at this
    cases hn' : h'.get a with
    | none => simp [hn'] at this
    | some n' =>
      simp only [hn', Option.map_some', Option.some.injEq] at this
      exact AncestorChain.step hn' (this.trans hpar) ih

theorem parent_modifyGroup (h : Hy3Layout) (a x : Nat) (f : Hy3GroupData → Hy3GroupData) :
    ((h.modifyGroup a f).get x).map Hy3Node.parent = (h.get x).map Hy3Node.parent := by
  rw [get_modifyGroup]
  split
  · cases h.get x <;> simp
  · rfl

theorem isSome_group_modifyGroup (h : Hy3Layout) (a x : Nat) (f : Hy3GroupData → Hy3GroupData) :
    ((h.modifyGroup a f).group x).isSome = (h.group x).isSome := by
  rw [group_modifyGroup]
  split
  · simp
  · rfl

theorem mapGroup_focus_comp (n : Hy3Node) (c c' : Nat) :
    (n.mapGroup fun g => { g with focused_child := some c, group_focused := false }).mapGroup
        (fun g => { g with focused_child := some c', group_focused := false }) =
      n.mapGroup fun g => { g with focused_child := some c', group_focused := false } := by
  cases hd : n.data with
  | window w => simp [Hy3Node.mapGroup, hd]
  | group g => simp [Hy3Node.mapGroup, hd]

theorem markFocusedLoop_spec : ∀ (ps : List Nat) (a : Nat) (h : Hy3Layout) (fuel : Nat),
    AncestorChain h a ps →
    (∀ x n p, h.get x = some n → n.parent = some p → (h.group p).isSome) →
    ps.length < fuel →
    ∃ h', markFocusedLoop fuel h a = some h' ∧ h'.next = h.next ∧
      h'.nodes.map Hy3Node.addr = h.nodes.map Hy3Node.addr ∧
      ∀ x, h'.get x = (h.get x).map (focusUpdate a ps x)
  | [], a, h, fuel, c, _, hf => by
    cases c with
    | root hn hp =>
      obtain ⟨f, rfl⟩ : ∃ f, fuel = f + 1 := ⟨fuel - 1, by simp at hf; omega⟩
      refine ⟨h, by simp [markFocusedLoop, hn, hp], rfl, rfl, fun x => ?_⟩
      cases h.get x <;> simp [focusUpdate, focusTarget]
  | p :: ps, a, h, fuel, c, hpg, hf => by
    cases c with
    | step hn hp hc =>
      obtain ⟨f, rfl⟩ : ∃ f, fuel = f + 1 := ⟨fuel - 1, by simp at hf; omega⟩
      have hg := hpg a _ p hn hp
      obtain ⟨g, hg⟩ := Option.isSome_iff_exists.mp hg
      set h1 := h.modifyGroup p fun g =>
        { g with focused_child := some a, group_focused := false } with hh1
      have hc1 : AncestorChain h1 p ps := hc.congr_chain (fun x => parent_modifyGroup _ _ _ _)
      have hpg1 : ∀ x n q, h1.get x = some n → n.parent = some q → (h1.group q).isSome := by
        intro x n q hx hq
        rw [hh1, isSome_group_modifyGroup]
        have := parent_modifyGroup h p x
          (fun g => { g with focused_child := some a, group_focused := false })
        rw [← hh1, hx] at this
        cases hx0 : h.get x with
        | none => simp [hx0] at this
        | some n0 =>
          simp only [hx0, Option.map_some', Option.some.injEq] at this
          exact hpg x n0 q hx0 (this ▸ hq)
      obtain ⟨h', e', n', a', g'⟩ := markFocusedLoop_spec ps p h1 f hc1 hpg1
        (by simp at hf; omega)
      refine ⟨h', ?_, n'.trans rfl, a'.trans (addrs_modifyGroup _ _ _), fun x => ?_⟩
      · simp only [markFocusedLoop, hn, hp, hg]
        exact e'
      · rw [g' x, hh1, get_modifyGroup]
        cases hx : h.get x with
        | none => simp
        | some n =>
          by_cases e : x = p
          · subst e
            cases ht : focusTarget x ps x with
            | some c' => simp [focusUpdate, focusTarget, ht, mapGroup_focus_comp]
            | none => simp [focusUpdate, focusTarget, ht]
          · cases ht : focusTarget p ps x with
            | some c' => simp [focusUpdate, focusTarget, ht, e]
            | none => simp [focusUpdate, focusTarget, ht, e]


/-! ## Ancestor chains and ranks -/


theorem rankedBy_of_check {h : Hy3Layout} {rank : Nat → Nat} {B : Nat}
    (hc : rankedCheck h rank B = true) : RankedBy h rank B := by
  unfold rankedCheck at hc
  simp only [List.all_eq_true, Bool.and_eq_true, decide_eq_true_eq] at hc
  intro a n hn
  have := hc n (get_mem hn)
  rw [get_addr hn] at this
  refine ⟨this.1, fun p hp => ?_⟩
  have h2 := this.2
  rw [hp] at h2
  simpa using h2

theorem WellFormed.parent_group {h : Hy3Layout} (wf : WellFormed h) {x p : Nat} {n : Hy3Node}
    (hn : h.get x = some n) (hp : n.parent = some p) : (h.group p).isSome := by
  obtain ⟨pn, hpn, hc⟩ := wf.1 x n p hn hp
  cases hd : pn.data with
  | window w => simp [Hy3Node.children, hd] at hc
  | group g => simp [Hy3Layout.group, hpn, Hy3Node.asGroup, hd]

theorem WellFormed.childrenRanked {h : Hy3Layout} (wf : WellFormed h) {rank : Nat → Nat}
    {B : Nat} (rk : RankedBy h rank B) : ChildrenRanked h rank B := by
  intro a n c hn hc
  obtain ⟨cn, hcn, hp⟩ := wf.2 a n c hn hc
  have := rk c cn hcn
  exact ⟨by simp [hcn], this.2 a hp, this.1⟩

theorem ancestorChain_exists {h : Hy3Layout} (wf : WellFormed h) {rank : Nat → Nat} {B : Nat}
    (rk : RankedBy h rank B) : ∀ (k a : Nat), rank a ≤ k → (h.get a).isSome →
      ∃ ps, AncestorChain h a ps ∧ (∀ p ∈ ps, rank p < rank a) ∧ ps.Nodup
  | k, a, hk, hs => by
    obtain ⟨n, hn⟩ := Option.isSome_iff_exists.mp hs
    cases hp : n.parent with
    | none => exact ⟨[], AncestorChain.root hn hp, by simp, List.nodup_nil⟩
    | some p =>
      have hlt := (rk a n hn).2 p hp
      obtain ⟨pn, hpn, _⟩ := wf.1 a n p hn hp
      cases k with
      | zero => omega
      | succ k =>
        obtain ⟨qs, hc, hr, hnd⟩ := ancestorChain_exists wf rk k p (by omega) (by simp [hpn])
        refine ⟨p :: qs, AncestorChain.step hn hp hc, ?_, ?_⟩
        · intro q hq
          rcases List.mem_cons.mp hq with e | e
          · rw [e]; exact hlt
          · exact lt_trans (hr q e) hlt
        · refine List.nodup_cons.mpr ⟨fun hm => ?_, hnd⟩
          exact absurd (hr p hm) (lt_irrefl _)

theorem inSubtree_rank {h : Hy3Layout} {rank : Nat → Nat} {B : Nat}
    (cr : ChildrenRanked h rank B) {a x : Nat} (hs : InSubtree h a x) (ha : (h.get a).isSome) :
    rank a ≤ rank x ∧ (h.get x).isSome := by
  induction hs with
  | self a => exact ⟨le_refl _, ha⟩
  | @step a c x hm _ ih =>
    obtain ⟨n, hn⟩ := Option.isSome_iff_exists.mp ha
    rw [childrenOf_of_get hn] at hm
    have := cr a n c hn hm
    have := ih this.1
    exact ⟨by omega, this.2⟩

theorem focusTarget_mem : ∀ (ps : List Nat) (a x c : Nat), focusTarget a ps x = some c → x ∈ ps
  | [], _, _, _, e => by simp [focusTarget] at e
  | p :: ps, a, x, c, e => by
    unfold focusTarget at e
    cases ht : focusTarget p ps x with
    | some c' => exact List.mem_cons_of_mem _ (focusTarget_mem ps p x c' ht)
    | none =>
      rw [ht] at e
      by_cases hx : x = p
      · rw [hx]; exact List.mem_cons_self _ _
      · simp [hx] at e

theorem focusTarget_none {ps : List Nat} {a x : Nat} (hx : x ∉ ps) : focusTarget a ps x = none := by
  cases ht : focusTarget a ps x with
  | none => rfl
  | some c => exact absurd (focusTarget_mem ps a x c ht) hx

theorem focusTarget_get : ∀ (ps : List Nat) (a : Nat), ps.Nodup →
    ∀ (i : Nat) (hi : i < ps.length),
      focusTarget a ps (ps.get ⟨i, hi⟩) = some ((a :: ps).get ⟨i, Nat.lt_succ_of_lt hi⟩)
  | [], _, _, i, hi => by simp at hi
  | p :: ps, a, nd, i, hi => by
    have nd' := List.nodup_cons.mp nd
    cases i with
    | zero =>
      simp only [List.get_eq_getElem, List.getElem_cons_zero, List.length_cons]
      unfold focusTarget
      rw [focusTarget_none nd'.1]
      simp
    | succ i =>
      have hi' : i < ps.length := by simpa using hi
      have := focusTarget_get ps p nd'.2 i hi'
      simp only [List.get_eq_getElem, List.getElem_cons_succ, List.length_cons] at this ⊢
      unfold focusTarget
      rw [this]


/-! ## getFocusedNode steps -/


theorem MarkedFrom.parent_map {h h' : Hy3Layout} {S : Nat → Prop} (m : MarkedFrom h h' S)
    (x : Nat) : (h'.get x).map Hy3Node.parent = (h.get x).map Hy3Node.parent := by
  rcases m.marked_get x with e | e <;> rw [e]
  cases h.get x <;> simp

theorem MarkedFrom.group_isSome {h h' : Hy3Layout} {S : Nat → Prop} (m : MarkedFrom h h' S)
    (x : Nat) : (h'.group x).isSome = (h.group x).isSome := by
  rcases m.marked_get x with e | e
  · simp [Hy3Layout.group, e]
  · simp only [Hy3Layout.group, e]
    cases hx : h.get x with
    | none => rfl
    | some n =>
      cases hd : n.data with
      | window w => simp [Hy3Node.asGroup, Hy3Node.mapGroup, hd]
      | group g => simp [Hy3Node.asGroup, Hy3Node.mapGroup, hd]

theorem AncestorChain.get_parent {h : Hy3Layout} : ∀ {ps : List Nat} {a : Nat},
    AncestorChain h a ps → ∀ (i : Nat) (hi : i < ps.length),
      ∃ yn, h.get ((a :: ps).get ⟨i, Nat.lt_succ_of_lt hi⟩) = some yn ∧
        yn.parent = some (ps.get ⟨i, hi⟩)
  | [], _, _, i, hi => by simp at hi
  | p :: ps, a, c, i, hi => by
    cases c with
    | step hn hp hc =>
      cases i with
      | zero => exact ⟨_, hn, hp⟩
      | succ i => exact hc.get_parent i (by simpa using hi)

theorem getFocusedNode_self_window {h : Hy3Layout} {a : Nat} {n : Hy3Node} {w : Option Nat}
    (hn : h.get a = some n) (hd : n.data = Hy3NodeData.window w) (fuel : Nat) (b1 b2 : Bool) :
    getFocusedNode (fuel + 1) h a b1 b2 = some (some a) := by
  simp [getFocusedNode, hn, hd]

theorem getFocusedNode_self_focused {h : Hy3Layout} {a : Nat} {n : Hy3Node} {g : Hy3GroupData}
    (hn : h.get a = some n) (hd : n.data = Hy3NodeData.group g) (hg : g.group_focused = true)
    (fuel : Nat) (b2 : Bool) :
    getFocusedNode (fuel + 1) h a false b2 = some (some a) := by
  simp only [getFocusedNode, hn, hd]
  cases g.focused_child <;> simp [hg]

theorem getFocusedNode_descend {h : Hy3Layout} {a c : Nat} {n : Hy3Node} {g : Hy3GroupData}
    (hn : h.get a = some n) (hd : n.data = Hy3NodeData.group g) (hg : g.group_focused = false)
    (hc : g.focused_child = some c) (fuel : Nat) :
    getFocusedNode (fuel + 1) h a false false = getFocusedNode fuel h c false false := by
  simp [getFocusedNode, hn, hd, hc, hg]


/-! ## C6: markFocused -/


/-- The store after `markFocused` in a well-formed acyclic store: the shape of the result. -/
theorem markFocused_spec (h : Hy3Layout) (wf : WellFormed h) (rank : Nat → Nat) (B : Nat)
    (rk : RankedBy h rank B) (n : Nat) (ps : List Nat) (hc : AncestorChain h n ps)
    (fuel : Nat) (hf : B + ps.length < fuel) :
    ∃ h1 h', markFocused fuel h n = some h' ∧ MarkedFrom h h1 (InSubtree h n) ∧
      h'.next = h.next ∧ h'.nodes.map Hy3Node.addr = h.nodes.map Hy3Node.addr ∧
      ∀ x, h'.get x = (h1.get x).map (focusUpdate n ps x) := by
  have cr := wf.childrenRanked rk
  have hn : ∃ tn, h.get n = some tn := by
    cases hc with
    | root hn _ => exact ⟨_, hn⟩
    | step hn _ _ => exact ⟨_, hn⟩
  obtain ⟨tn, hn⟩ := hn
  have hstep : ∃ h1, MarkedFrom h h1 (InSubtree h n) ∧
      markFocused fuel h n = markFocusedLoop fuel h1 n := by
    cases hd : tn.data with
    | window w =>
      refine ⟨h, ?_, by simp [markFocused, hn, hd]⟩
      exact ((MarkedFrom.marked_refl h).add_window hn hd).mono (fun x => by simp)
    | group g =>
      obtain ⟨h1, e1, m1⟩ := markGroupFocusedRecursive_spec rank B fuel h n cr (by omega)
        (by simp [Hy3Layout.group, hn, Hy3Node.asGroup, hd])
      exact ⟨h1, m1, by simp [markFocused, hn, hd, e1]⟩
  obtain ⟨h1, m1, e1⟩ := hstep
  have hc1 : AncestorChain h1 n ps := hc.congr_chain (fun x => m1.parent_map x)
  have hpg1 : ∀ x n' q, h1.get x = some n' → n'.parent = some q → (h1.group q).isSome := by
    intro x n' q hx hq
    obtain ⟨n0, hn0, _, hp0, _⟩ := m1.children hx
    rw [m1.group_isSome]
    exact wf.parent_group hn0 (hp0 ▸ hq)
  obtain ⟨h', e', n', a', g'⟩ := markFocusedLoop_spec ps n h1 fuel hc1 hpg1 (by omega)
  exact ⟨h1, h', e1.trans e', m1, n'.trans m1.1, a'.trans m1.2.1, g'⟩

/-- C6. In a well-formed acyclic store, for every stored node `n` with ancestors `ps` (parent
first, root last) and enough fuel: `markFocused` returns; afterwards `getFocusedNode(false, false)`
on the root returns `n`, every proper ancestor has `group_focused == false` and `focused_child`
equal to its child on the path to `n`, and every group in the subtree of `n` has
`group_focused == true`. -/
theorem markFocused_focus_path (h : Hy3Layout) (wf : WellFormed h) (ac : Acyclic h) (n : Nat)
    (hn : (h.get n).isSome) :
    ∃ ps N, AncestorChain h n ps ∧ ∀ fuel, N ≤ fuel →
      ∃ h', markFocused fuel h n = some h' ∧
        getFocusedNode fuel h' ((n :: ps).getLast (List.cons_ne_nil _ _)) false false
          = some (some n) ∧
        (∀ (i : Nat) (hi : i < ps.length), ∃ g, h'.group (ps.get ⟨i, hi⟩) = some g ∧
          g.group_focused = false ∧
          g.focused_child = some ((n :: ps).get ⟨i, Nat.lt_succ_of_lt hi⟩)) ∧
        (∀ x g, InSubtree h n x → h'.group x = some g → g.group_focused = true) := by
  obtain ⟨rank, B, rk⟩ := ac
  have cr := wf.childrenRanked rk
  obtain ⟨ps, hc, hr, hnd⟩ := ancestorChain_exists wf rk (rank n) n (le_refl _) hn
  refine ⟨ps, B + ps.length + 1, hc, fun fuel hN => ?_⟩
  obtain ⟨h1, h', e', m1, _, _, g'⟩ := markFocused_spec h wf rank B rk n ps hc fuel (by omega)
  have hsub : ∀ x, InSubtree h n x →
      h'.get x = (h.get x).map (Hy3Node.mapGroup fun g => { g with group_focused := true }) := by
    intro x hx
    have hnot : x ∉ ps := fun hm => by
      have := (inSubtree_rank cr hx hn).1
      have := hr x hm
      omega
    rw [g' x, (m1.2.2 x).1 hx]
    have hid : focusUpdate n ps x = id := by
      funext m
      simp [focusUpdate, focusTarget_none hnot]
    rw [hid, Option.map_id, id]
  have hanc : ∀ (i : Nat) (hi : i < ps.length), ∃ xn g, h'.get (ps.get ⟨i, hi⟩) = some xn ∧
      xn.data = Hy3NodeData.group g ∧ g.group_focused = false ∧
      g.focused_child = some ((n :: ps).get ⟨i, Nat.lt_succ_of_lt hi⟩) := by
    intro i hi
    obtain ⟨yn, hy, hyp⟩ := hc.get_parent i hi
    obtain ⟨g, hg⟩ := Option.isSome_iff_exists.mp (wf.parent_group hy hyp)
    obtain ⟨xn, hxn, hxd⟩ := group_eq_some hg
    have hnot : ¬ InSubtree h n (ps.get ⟨i, hi⟩) := fun hs => by
      have := (inSubtree_rank cr hs hn).1
      have := hr _ (List.get_mem ps i hi)
      omega
    have hid : focusUpdate n ps (ps.get ⟨i, hi⟩) = Hy3Node.mapGroup fun g =>
        { g with focused_child := some ((n :: ps).get ⟨i, Nat.lt_succ_of_lt hi⟩),
                 group_focused := false } := by
      funext m
      simp only [focusUpdate, focusTarget_get ps n hnd i hi]
    have hget : h'.get (ps.get ⟨i, hi⟩) = some (xn.mapGroup fun g =>
        { g with focused_child := some ((n :: ps).get ⟨i, Nat.lt_succ_of_lt hi⟩),
                 group_focused := false }) := by
      rw [g', (m1.2.2 _).2 hnot, hxn, hid]
      rfl
    exact ⟨_, _, hget, Hy3Node.mapGroup_group hxd, rfl, rfl⟩
  refine ⟨h', e', ?_, ?_, ?_⟩
  · have key : ∀ (i : Nat) (hi : i < (n :: ps).length) (f : Nat), i < f →
        getFocusedNode f h' ((n :: ps).get ⟨i, hi⟩) false false = some (some n) := by
      intro i
      induction i with
      | zero =>
        intro hi f hf
        obtain ⟨f', rfl⟩ : ∃ f', f = f' + 1 := ⟨f - 1, by omega⟩
        obtain ⟨tn, htn⟩ := Option.isSome_iff_exists.mp hn
        have hg := hsub n (InSubtree.self n)
        rw [htn] at hg
        simp only [List.get_eq_getElem, List.getElem_cons_zero]
        cases hd : tn.data with
        | window w =>
          exact getFocusedNode_self_window hg (Hy3Node.mapGroup_window hd) _ _ _
        | group g =>
          exact getFocusedNode_self_focused hg (Hy3Node.mapGroup_group hd) rfl _ _
      | succ i ih =>
        intro hi f hf
        obtain ⟨f', rfl⟩ : ∃ f', f = f' + 1 := ⟨f - 1, by omega⟩
        have hi' : i < ps.length := by simpa using hi
        obtain ⟨xn, g, hx, hd, hgf, hfc⟩ := hanc i hi'
        have : (n :: ps).get ⟨i + 1, hi⟩ = ps.get ⟨i, hi'⟩ := rfl
        rw [this, getFocusedNode_descend hx hd hgf hfc]
        exact ih (Nat.lt_succ_of_lt hi') f' (by omega)
    have hl : (n :: ps).getLast (List.cons_ne_nil _ _) =
        (n :: ps).get ⟨ps.length, by simp⟩ := by
      rw [List.getLast_eq_getElem]
      simp
    rw [hl]
    exact key ps.length (by simp) fuel (by omega)
  · intro i hi
    obtain ⟨xn, g, hx, hd, hgf, hfc⟩ := hanc i hi
    exact ⟨g, group_of_get hx hd, hgf, hfc⟩
  · intro x g hx hg
    obtain ⟨xn, hxn, hxd⟩ := group_eq_some hg
    rw [hsub x hx] at hxn
    cases h0 : h.get x with
    | none => simp [h0] at hxn
    | some n0 =>
      simp only [h0, Option.map_some', Option.some.injEq] at hxn
      subst hxn
      cases hd0 : n0.data with
      | window w => rw [Hy3Node.mapGroup_window hd0] at hxd; cases hxd
      | group g0 =>
        rw [Hy3Node.mapGroup_group hd0] at hxd
        cases hxd
        rfl



theorem markFocused_focus_path_witness :
    ∃ ps N, AncestorChain exEphemeral 2 ps ∧ ∀ fuel, N ≤ fuel →
      ∃ h', markFocused fuel exEphemeral 2 = some h' ∧
        getFocusedNode fuel h' ((2 :: ps).getLast (List.cons_ne_nil _ _)) false false
          = some (some 2) ∧
        (∀ (i : Nat) (hi : i < ps.length), ∃ g, h'.group (ps.get ⟨i, hi⟩) = some g ∧
          g.group_focused = false ∧
          g.focused_child = some ((2 :: ps).get ⟨i, Nat.lt_succ_of_lt hi⟩)) ∧
        (∀ x g, InSubtree exEphemeral 2 x → h'.group x = some g → g.group_focused = true) :=
  markFocused_focus_path exEphemeral (wellFormed_of_check (by decide))
    ⟨id, 3, rankedBy_of_check (by decide)⟩ 2 rfl


/-! ## C3: insertion keeps a stale ratio -/


/-- C3: moving window 1 (ratio 1/2) of `exTwoWorkspaces` to workspace 0 goes through
`removeFromParentRecursive` and `insertNode`; the target group 3, whose single child had ratio 1,
ends with the children 4 and 1 of ratios 1 and 1/2: their sum is 3/2, not 2. -/
theorem insertNode_keeps_stale_ratio :
    exTwoWorkspaces.ratioSum (exTwoWorkspaces.childrenOf 3)
        = ((exTwoWorkspaces.childrenOf 3).length : ℚ) ∧
      ∃ h', moveNodeToWorkspaceTiled exEnv 4 exTwoWorkspaces 1 (some 0) = some h' ∧
        h'.childrenOf 3 = [4, 1] ∧ h'.parentOf 1 = some (some 3) ∧
        h'.ratioSum (h'.childrenOf 3) = 3 / 2 ∧
        h'.ratioSum (h'.childrenOf 3) ≠ ((h'.childrenOf 3).length : ℚ) := by
  have key : ∃ h', moveNodeToWorkspaceTiled exEnv 4 exTwoWorkspaces 1 (some 0) = some h' ∧
      h'.childrenOf 3 = [4, 1] ∧ h'.parentOf 1 = some (some 3) ∧
      h'.ratioOf 4 = some 1 ∧ h'.ratioOf 1 = some (1 / 2) := ⟨_, rfl, rfl, rfl, rfl, rfl⟩
  obtain ⟨h', e, hc, hp, r4, r1⟩ := key
  have hsum : h'.ratioSum (h'.childrenOf 3) = 3 / 2 := by
    rw [hc]
    simp only [Hy3Layout.ratioSum, List.map_cons, List.map_nil, List.sum_cons, List.sum_nil, r4,
      r1, Option.getD_some]
    norm_num
  refine ⟨?_, h', e, hc, hp, hsum, ?_⟩
  · have c3 : exTwoWorkspaces.childrenOf 3 = [4] := rfl
    have q4 : exTwoWorkspaces.ratioOf 4 = some 1 := rfl
    rw [c3]
    simp [Hy3Layout.ratioSum, q4]
  · rw [hsum, hc]
    norm_num


/-! ## Well-formedness through projections -/


theorem parentOf_eq_some {h : Hy3Layout} {a : Nat} {p : Option Nat} :
    h.parentOf a = some p ↔ ∃ n, h.get a = some n ∧ n.parent = p := by
  unfold Hy3Layout.parentOf
  cases h.get a with
  | none => simp
  | some n => simp

theorem mem_childrenOf {h : Hy3Layout} {a c : Nat} :
    c ∈ h.childrenOf a ↔ ∃ n, h.get a = some n ∧ c ∈ n.data.children := by
  unfold Hy3Layout.childrenOf
  cases h.get a with
  | none => simp
  | some n => simp [Hy3Node.children]

theorem childrenOf_none {h : Hy3Layout} {a : Nat} (hn : h.get a = none) : h.childrenOf a = [] := by
  simp [Hy3Layout.childrenOf, hn]

/-- Well-formedness only speaks about parent pointers and child lists. -/
theorem wellFormed_iff (h : Hy3Layout) :
    WellFormed h ↔
      (∀ a p, h.parentOf a = some (some p) → (h.childrenOf p).count a = 1) ∧
      (∀ a c, c ∈ h.childrenOf a → h.parentOf c = some (some a)) := by
  constructor
  · rintro ⟨w1, w2⟩
    refine ⟨fun a p hp => ?_, fun a c hc => ?_⟩
    · obtain ⟨n, hn, e⟩ := parentOf_eq_some.mp hp
      obtain ⟨pn, hpn, hcount⟩ := w1 a n p hn e
      rw [childrenOf_of_get hpn]
      exact hcount
    · obtain ⟨n, hn, hm⟩ := mem_childrenOf.mp hc
      obtain ⟨cn, hcn, e⟩ := w2 a n c hn hm
      exact parentOf_eq_some.mpr ⟨cn, hcn, e⟩
  · rintro ⟨w1, w2⟩
    refine ⟨fun a n p hn hp => ?_, fun a g c hg hc => ?_⟩
    · have := w1 a p (parentOf_eq_some.mpr ⟨n, hn, hp⟩)
      cases hpn : h.get p with
      | none => rw [childrenOf_none hpn] at this; simp at this
      | some pn =>
        rw [childrenOf_of_get hpn] at this
        exact ⟨pn, rfl, this⟩
    · have := w2 a c (mem_childrenOf.mpr ⟨g, hg, hc⟩)
      obtain ⟨cn, hcn, e⟩ := parentOf_eq_some.mp this
      exact ⟨cn, hcn, e⟩

/-- Two stores with the same parent pointers and child lists are well-formed together. -/
theorem WellFormed.congr {h h' : Hy3Layout} (wf : WellFormed h)
    (hp : ∀ a, h'.parentOf a = h.parentOf a) (hc : ∀ a, h'.childrenOf a = h.childrenOf a) :
    WellFormed h' := by
  rw [wellFormed_iff] at wf ⊢
  refine ⟨fun a p e => ?_, fun a c e => ?_⟩
  · rw [hc]; exact wf.1 a p (hp a ▸ e)
  · rw [hp]; exact wf.2 a c (hc a ▸ e)

theorem WellFormed.mem_of_parent {h : Hy3Layout} (wf : WellFormed h) {a p : Nat}
    (hp : h.parentOf a = some (some p)) : a ∈ h.childrenOf p := by
  have := ((wellFormed_iff h).mp wf).1 a p hp
  exact List.count_pos_iff.mp (by omega)

theorem WellFormed.parent_unique {h : Hy3Layout} (wf : WellFormed h) {c a b : Nat}
    (ha : c ∈ h.childrenOf a) (hb : c ∈ h.childrenOf b) : a = b := by
  have h1 := ((wellFormed_iff h).mp wf).2 a c ha
  have h2 := ((wellFormed_iff h).mp wf).2 b c hb
  rw [h1] at h2
  simpa using h2


/-! ## Payload swap keeps well-formedness -/


theorem swapNode_parent (a b : Nat) (na nb : Hy3Node) (x : Nat) (n : Hy3Node) :
    (swapNode a b na nb x n).parent =
      if x ∈ na.data.children then some b
      else if x ∈ nb.data.children then some a else n.parent := by
  unfold swapNode
  simp only [Hy3NodeData.data_moved_children]
  split_ifs <;> rfl

theorem swapNode_data (a b : Nat) (na nb : Hy3Node) (x : Nat) (n : Hy3Node) :
    (swapNode a b na nb x n).data =
      if x = a then nb.data.moved else if x = b then na.data.moved else n.data := by
  unfold swapNode
  simp only [Hy3NodeData.data_moved_children, Hy3NodeData.data_moved_moved]
  split_ifs <;> rfl

theorem swapNode_rest (a b : Nat) (na nb : Hy3Node) (x : Nat) (n : Hy3Node) :
    (swapNode a b na nb x n).addr = n.addr ∧
      (swapNode a b na nb x n).size_ratio = n.size_ratio ∧
      (swapNode a b na nb x n).workspace = n.workspace ∧
      (swapNode a b na nb x n).reparenting = n.reparenting := by
  unfold swapNode
  split_ifs <;> exact ⟨rfl, rfl, rfl, rfl⟩

/-- Parent pointers and child lists after a payload swap. -/
theorem swapData_proj {h h' : Hy3Layout} {a b : Nat} {na nb : Hy3Node}
    (ha : h.get a = some na) (hb : h.get b = some nb)
    (hg : ∀ x, h'.get x = (h.get x).map (swapNode a b na nb x)) :
    (∀ x, h'.parentOf x = (h.parentOf x).map fun p =>
      if x ∈ h.childrenOf a then some b else if x ∈ h.childrenOf b then some a else p) ∧
    (∀ x, h'.childrenOf x =
      if x = a then h.childrenOf b else if x = b then h.childrenOf a else h.childrenOf x) := by
  have ca := childrenOf_of_get ha
  have cb := childrenOf_of_get hb
  refine ⟨fun x => ?_, fun x => ?_⟩
  · unfold Hy3Layout.parentOf
    rw [hg x, ca, cb]
    cases h.get x with
    | none => rfl
    | some n => simp [swapNode_parent]
  · cases hx : h.get x with
    | none =>
      have hxa : x ≠ a := fun e => by rw [e, ha] at hx; cases hx
      have hxb : x ≠ b := fun e => by rw [e, hb] at hx; cases hx
      have : h'.get x = none := by rw [hg x, hx]; rfl
      rw [childrenOf_none this, if_neg hxa, if_neg hxb, childrenOf_none hx]
    | some n =>
      have : h'.get x = some (swapNode a b na nb x n) := by rw [hg x, hx]; rfl
      rw [childrenOf_of_get this, swapNode_data, ca, cb, childrenOf_of_get hx]
      split_ifs <;> simp

/-- A payload swap of two distinct nodes keeps the store well-formed. -/
theorem swapData_wf {h h' : Hy3Layout} (wf : WellFormed h) {a b : Nat} {na nb : Hy3Node}
    (ha : h.get a = some na) (hb : h.get b = some nb)
    (hg : ∀ x, h'.get x = (h.get x).map (swapNode a b na nb x)) (hab : a ≠ b) :
    WellFormed h' := by
  obtain ⟨hp, hc⟩ := swapData_proj ha hb hg
  have w := (wellFormed_iff h).mp wf
  rw [wellFormed_iff]
  refine ⟨fun x p e => ?_, fun x c e => ?_⟩
  · rw [hp x] at e
    cases hpx : h.parentOf x with
    | none => simp [hpx] at e
    | some q =>
      simp only [hpx, Option.map_some', Option.some.injEq] at e
      by_cases h1 : x ∈ h.childrenOf a
      · rw [if_pos h1] at e
        cases e
        rw [hc, if_neg (Ne.symm hab), if_pos rfl]
        exact w.1 x a (w.2 a x h1)
      · rw [if_neg h1] at e
        by_cases h2 : x ∈ h.childrenOf b
        · rw [if_pos h2] at e
          cases e
          rw [hc, if_pos rfl]
          exact w.1 x b (w.2 b x h2)
        · rw [if_neg h2] at e
          subst e
          have hm := wf.mem_of_parent hpx
          have hpa : p ≠ a := fun e => h1 (e ▸ hm)
          have hpb : p ≠ b := fun e => h2 (e ▸ hm)
          rw [hc, if_neg hpa, if_neg hpb]
          exact w.1 x p hpx
  · rw [hc] at e
    rw [hp c]
    by_cases h3 : x = a
    · rw [if_pos h3] at e
      have hnot : c ∉ h.childrenOf a := fun hm => hab (wf.parent_unique hm e)
      rw [w.2 b c e]
      simp [hnot, e, h3]
    · rw [if_neg h3] at e
      by_cases h4 : x = b
      · rw [if_pos h4] at e
        rw [w.2 a c e]
        simp [e, h4]
      · rw [if_neg h4] at e
        have hna : c ∉ h.childrenOf a := fun hm => h3 (wf.parent_unique e hm)
        have hnb : c ∉ h.childrenOf b := fun hm => h4 (wf.parent_unique e hm)
        rw [w.2 x c e]
        simp [hna, hnb]


/-! ## Allocation bookkeeping and node deletion -/


theorem StoreOK.of_addrs {h h' : Hy3Layout} (ok : StoreOK h)
    (ha : h'.nodes.map Hy3Node.addr = h.nodes.map Hy3Node.addr) (hn : h.next ≤ h'.next) :
    StoreOK h' := by
  refine ⟨ha ▸ ok.1, fun n hm => ?_⟩
  have : n.addr ∈ h'.nodes.map Hy3Node.addr := List.mem_map.mpr ⟨n, hm, rfl⟩
  rw [ha] at this
  obtain ⟨m, hm', e⟩ := List.mem_map.mp this
  have := ok.2 m hm'
  omega

theorem StoreOK.push_back {h : Hy3Layout} (ok : StoreOK h) (n : Hy3Node) :
    StoreOK (h.push_back n) := by
  refine ⟨?_, fun m hm => ?_⟩
  · rw [addrs_push_back]
    refine List.Nodup.append ok.1 (List.nodup_singleton _) ?_
    intro a ha hb
    simp only [List.mem_singleton] at hb
    subst hb
    obtain ⟨m, hm, e⟩ := List.mem_map.mp ha
    have := ok.2 m hm
    omega
  · simp only [Hy3Layout.push_back, List.mem_append, List.mem_singleton] at hm ⊢
    rcases hm with hm | hm
    · have := ok.2 m hm; omega
    · subst hm; simp

theorem StoreOK.remove {h : Hy3Layout} (ok : StoreOK h) (a : Nat) : StoreOK (h.remove a) := by
  refine ⟨?_, fun m hm => ?_⟩
  · rw [addrs_remove]
    exact ok.1.filter _
  · simp only [Hy3Layout.remove, List.mem_filter] at hm
    exact ok.2 m hm.1

theorem parentOf_remove (h : Hy3Layout) (c x : Nat) :
    (h.remove c).parentOf x = if x = c then none else h.parentOf x := by
  unfold Hy3Layout.parentOf
  rw [get_remove]
  split <;> rfl

theorem childrenOf_remove (h : Hy3Layout) (c x : Nat) :
    (h.remove c).childrenOf x = if x = c then [] else h.childrenOf x := by
  unfold Hy3Layout.childrenOf
  rw [get_remove]
  by_cases e : x = c
  · simp [e]
  · simp [e]

/-- Deleting a node that nobody else points to keeps the store well-formed. -/
theorem WellFormed.remove_wf {h : Hy3Layout} (wf : WellFormed h) (c : Nat)
    (hpar : ∀ x, h.parentOf x = some (some c) → x = c)
    (hch : ∀ y, c ∈ h.childrenOf y → y = c) : WellFormed (h.remove c) := by
  have w := (wellFormed_iff h).mp wf
  rw [wellFormed_iff]
  refine ⟨fun x p e => ?_, fun x d e => ?_⟩
  · rw [parentOf_remove] at e
    by_cases hx : x = c
    · simp [hx] at e
    · rw [if_neg hx] at e
      have hp : p ≠ c := fun e2 => hx (hpar x (e2 ▸ e))
      rw [childrenOf_remove, if_neg hp]
      exact w.1 x p e
  · rw [childrenOf_remove] at e
    by_cases hx : x = c
    · simp [hx] at e
    · rw [if_neg hx] at e
      have hd : d ≠ c := fun e2 => hx (hch x (e2 ▸ e))
      rw [parentOf_remove, if_neg hd]
      exact w.2 x d e


/-! ## intoGroup keeps well-formedness -/


theorem swapData_preserves {h h' : Hy3Layout} (ok : StoreOK h) (wf : WellFormed h) {a b : Nat}
    (e : swapData h a b = some h') : StoreOK h' ∧ WellFormed h' := by
  cases ha : h.get a with
  | none => simp [swapData, ha] at e
  | some na =>
    cases hb : h.get b with
    | none => simp [swapData, ha, hb] at e
    | some nb =>
      by_cases hab : a = b
      · subst hab
        unfold swapData at e
        simp only [ha, if_true] at e
        cases hd : na.data with
        | window w =>
          simp only [hd, Option.some.injEq] at e
          subst e
          exact ⟨ok, wf⟩
        | group g => simp [hd] at e
      · obtain ⟨h2, e2, n2, a2, g2⟩ := swapData_spec h a b na nb ha hb hab
          (wf.childrenInStore.of_get ha) (wf.childrenInStore.of_get hb)
        rw [e] at e2
        cases e2
        exact ⟨ok.of_addrs a2 (le_of_eq n2.symm), swapData_wf wf ha hb g2 hab⟩

theorem intoGroup_preserves {h h' : Hy3Layout} (ok : StoreOK h) (wf : WellFormed h)
    {this c : Nat} {layout : Hy3GroupLayout} {eph : GroupEphemeralityOption}
    (e : intoGroup h this layout eph = some (h', c)) :
    StoreOK h' ∧ WellFormed h' ∧ c = h.next := by
  cases ht : h.get this with
  | none => simp [intoGroup, ht] at e
  | some tn =>
    obtain ⟨h2, e2, n2, a2, gt, gn, go⟩ :=
      intoGroup_spec h ok this tn layout eph ht (wf.childrenInStore.of_get ht)
    rw [e] at e2
    cases e2
    have hlt : this < h.next := ok.lt_next ht
    have hne : this ≠ h.next := Nat.ne_of_lt hlt
    have okp : StoreOK (h.push_back tn) := ok.push_back tn
    have ok' : StoreOK h' := by
      refine StoreOK.of_addrs okp ?_ (le_of_eq ?_)
      · rw [a2, addrs_push_back]
      · rw [n2]; rfl
    refine ⟨ok', ?_, rfl⟩
    have w := (wellFormed_iff h).mp wf
    have hC : h.childrenOf this = tn.data.children := childrenOf_of_get ht
    have instore : ∀ x, x ∈ tn.data.children → x ≠ h.next := by
      intro x hx e
      have := wf.childrenInStore.of_get ht x hx
      rw [e, ok.get_next] at this
      simp at this
    -- projections
    have par_this : h'.parentOf this =
        some (if this ∈ tn.data.children then some h.next else tn.parent) := by
      simp [Hy3Layout.parentOf, gt]
    have par_next : h'.parentOf h.next = some (some this) := by
      simp [Hy3Layout.parentOf, gn]
    have par_other : ∀ x, x ≠ this → x ≠ h.next → h'.parentOf x =
        (h.parentOf x).map fun p => if x ∈ tn.data.children then some h.next else p := by
      intro x h1 h2
      unfold Hy3Layout.parentOf
      rw [go x h1 h2]
      cases h.get x with
      | none => rfl
      | some n => by_cases hx : x ∈ tn.data.children <;> simp [hx]
    have ch_this : h'.childrenOf this = [h.next] := by
      rw [childrenOf_of_get gt]; rfl
    have ch_next : h'.childrenOf h.next = tn.data.children := by
      rw [childrenOf_of_get gn]; simp
    have ch_other : ∀ x, x ≠ this → x ≠ h.next → h'.childrenOf x = h.childrenOf x := by
      intro x h1 h2
      unfold Hy3Layout.childrenOf
      rw [go x h1 h2]
      cases h.get x with
      | none => rfl
      | some n => by_cases hx : x ∈ tn.data.children <;> simp [hx, Hy3Node.children]
    have par_child : ∀ x, x ∈ tn.data.children → h'.parentOf x = some (some h.next) := by
      intro x hx
      have hx2 := instore x hx
      by_cases hx1 : x = this
      · rw [hx1, par_this, if_pos (hx1 ▸ hx)]
      · rw [par_other x hx1 hx2, w.2 this x (hC ▸ hx)]
        simp [hx]
    rw [wellFormed_iff]
    refine ⟨fun x p hp => ?_, fun x d hd => ?_⟩
    · by_cases hx2 : x = h.next
      · rw [hx2, par_next] at hp
        cases hp
        rw [hx2, ch_this]
        simp
      · by_cases hxC : x ∈ tn.data.children
        · rw [par_child x hxC] at hp
          cases hp
          rw [ch_next, ← hC]
          exact w.1 x this (w.2 this x (hC ▸ hxC))
        · have hpx : h.parentOf x = some (some p) := by
            by_cases hx1 : x = this
            · rw [hx1, par_this, if_neg (hx1 ▸ hxC)] at hp
              rw [hx1]
              simp [Hy3Layout.parentOf, ht]
              simpa using hp
            · rw [par_other x hx1 hx2] at hp
              cases hq : h.parentOf x with
              | none => simp [hq] at hp
              | some q => simpa [hq, hxC] using hp
          have hm := wf.mem_of_parent hpx
          have hp1 : p ≠ this := fun e => hxC (hC ▸ e ▸ hm)
          have hp2 : p ≠ h.next := fun e => by
            rw [e, childrenOf_none ok.get_next] at hm
            simp at hm
          rw [ch_other p hp1 hp2]
          exact w.1 x p hpx
    · by_cases hx1 : x = this
      · rw [hx1, ch_this] at hd
        simp only [List.mem_singleton] at hd
        rw [hd, par_next, hx1]
      · by_cases hx2 : x = h.next
        · rw [hx2, ch_next] at hd
          rw [par_child d hd, hx2]
        · rw [ch_other x hx1 hx2] at hd
          have hd2 : d ≠ h.next := fun e => by
            obtain ⟨n, hn, hm⟩ := mem_childrenOf.mp hd
            have := wf.childrenInStore.of_get hn d hm
            rw [e, ok.get_next] at this
            simp at this
          have hdC : d ∉ tn.data.children := fun hm => hx1 (wf.parent_unique hd (hC ▸ hm))
          have hpd := w.2 x d hd
          by_cases hd1 : d = this
          · rw [hd1, par_this, if_neg (hd1 ▸ hdC)]
            rw [hd1] at hpd
            simpa [Hy3Layout.parentOf, ht] using hpd
          · rw [par_other d hd1 hd2, hpd]
            simp [hdC]


/-! ## swallowGroups keeps well-formedness -/


/-- Inversion of `swallowGroups`. -/
theorem swallowGroups_cases {h h' : Hy3Layout} {into : Option Nat} {b : Bool}
    (e : swallowGroups h into = some (h', b)) :
    (b = false ∧ h' = h) ∨
      (b = true ∧ ∃ i n g child cn h1, into = some i ∧ h.get i = some n ∧
        n.data = Hy3NodeData.group g ∧ g.children = [child] ∧ h.get child = some cn ∧
        (n.parent ≠ none ∨ cn.data.type = Hy3NodeType.Group) ∧
        swapData h i child = some h1 ∧ h' = h1.remove child) := by
  unfold swallowGroups at e
  cases into with
  | none =>
    simp only [Option.some.injEq, Prod.mk.injEq] at e
    exact Or.inl ⟨e.2.symm, e.1.symm⟩
  | some i =>
    simp only at e
    cases hn : h.get i with
    | none => simp [hn] at e
    | some n =>
      simp only [hn] at e
      cases hd : n.data with
      | window w =>
        simp only [hd, Option.some.injEq, Prod.mk.injEq] at e
        exact Or.inl ⟨e.2.symm, e.1.symm⟩
      | group g =>
        simp only [hd] at e
        split at e
        · next child hc =>
          cases hcn : h.get child with
          | none => simp [hcn] at e
          | some cn =>
            simp only [hcn] at e
            split at e
            · simp only [Option.some.injEq, Prod.mk.injEq] at e
              exact Or.inl ⟨e.2.symm, e.1.symm⟩
            · next hguard =>
              cases hs : swapData h i child with
              | none => simp [hs] at e
              | some h1 =>
                simp only [hs, Option.some.injEq, Prod.mk.injEq] at e
                refine Or.inr ⟨e.2.symm, i, n, g, child, cn, h1, rfl, hn, hd, hc, hcn, ?_, hs,
                  e.1.symm⟩
                by_contra hcon
                push_neg at hcon
                exact hguard ⟨hcon.1, hcon.2⟩
        · simp only [Option.some.injEq, Prod.mk.injEq] at e
          exact Or.inl ⟨e.2.symm, e.1.symm⟩

theorem swapData_ne_of_group {h h1 : Hy3Layout} {a b : Nat} {n : Hy3Node} {g : Hy3GroupData}
    (hn : h.get a = some n) (hd : n.data = Hy3NodeData.group g)
    (e : swapData h a b = some h1) : a ≠ b := by
  intro hab
  subst hab
  unfold swapData at e
  simp [hn, hd] at e

theorem swallowGroups_preserves {h h' : Hy3Layout} (ok : StoreOK h) (wf : WellFormed h)
    {into : Option Nat} {b : Bool} (e : swallowGroups h into = some (h', b)) :
    StoreOK h' ∧ WellFormed h' := by
  rcases swallowGroups_cases e with ⟨_, rfl⟩ | ⟨_, i, n, g, child, cn, h1, _, hn, hd, hc, hcn, _,
    hs, rfl⟩
  · exact ⟨ok, wf⟩
  · have hne := swapData_ne_of_group hn hd hs
    obtain ⟨h2, e2, n2, a2, g2⟩ := swapData_spec h i child n cn hn hcn hne
      (wf.childrenInStore.of_get hn) (wf.childrenInStore.of_get hcn)
    rw [hs] at e2
    cases e2
    have ok1 : StoreOK h1 := ok.of_addrs a2 (le_of_eq n2.symm)
    have wf1 : WellFormed h1 := swapData_wf wf hn hcn g2 hne
    obtain ⟨hp, hch⟩ := swapData_proj hn hcn g2
    have w := (wellFormed_iff h).mp wf
    have chi : h.childrenOf i = [child] := by
      rw [childrenOf_of_get hn, hd, Hy3NodeData.children_group, hc]
    have pchild : h.parentOf child = some (some i) := w.2 i child (by rw [chi]; simp)
    refine ⟨ok1.remove child, wf1.remove_wf child (fun x hx => ?_) (fun y hy => ?_)⟩
    · rw [hp x] at hx
      cases hpx : h.parentOf x with
      | none => simp [hpx] at hx
      | some q =>
        simp only [hpx, Option.map_some', Option.some.injEq] at hx
        by_cases h1' : x ∈ h.childrenOf i
        · rw [chi] at h1'
          simpa using h1'
        · rw [if_neg h1'] at hx
          by_cases h2' : x ∈ h.childrenOf child
          · rw [if_pos h2'] at hx
            cases hx
            exact absurd rfl hne
          · rw [if_neg h2'] at hx
            subst hx
            exact absurd (wf.mem_of_parent hpx) h2'
    · rw [hch y] at hy
      by_cases h3 : y = i
      · rw [if_pos h3] at hy
        have := w.2 child child hy
        rw [pchild] at this
        simp only [Option.some.injEq] at this
        exact absurd this hne
      · rw [if_neg h3] at hy
        by_cases h4 : y = child
        · exact h4
        · rw [if_neg h4] at hy
          have := w.2 y child hy
          rw [pchild] at this
          simp only [Option.some.injEq] at this
          exact absurd this.symm h3


/-! ## More projections -/


theorem childrenOf_modifyGroup (h : Hy3Layout) (a x : Nat) (f : Hy3GroupData → Hy3GroupData) :
    (h.modifyGroup a f).childrenOf x =
      if x = a then ((h.group x).map fun g => (f g).children).getD [] else h.childrenOf x := by
  unfold Hy3Layout.childrenOf Hy3Layout.group
  rw [get_modifyGroup]
  by_cases e : x = a
  · simp only [if_pos e]
    cases hx : h.get x with
    | none => rfl
    | some n =>
      cases hd : n.data with
      | window w => simp [Hy3Node.mapGroup, hd, Hy3Node.children, Hy3Node.asGroup]
      | group g => simp [Hy3Node.mapGroup, hd, Hy3Node.children, Hy3Node.asGroup]
  · simp only [if_neg e]

theorem childrenOf_modifyGroup_same (h : Hy3Layout) (a x : Nat)
    (f : Hy3GroupData → Hy3GroupData) (hf : ∀ g, (f g).children = g.children) :
    (h.modifyGroup a f).childrenOf x = h.childrenOf x := by
  rw [childrenOf_modifyGroup]
  split
  · unfold Hy3Layout.childrenOf Hy3Layout.group
    cases hx : h.get x with
    | none => rfl
    | some n =>
      cases hd : n.data with
      | window w => simp [Hy3Node.children, Hy3Node.asGroup, hd]
      | group g => simp [Hy3Node.children, Hy3Node.asGroup, hd, hf]
  · rfl

theorem parentOf_modify_parent (h : Hy3Layout) (a x : Nat) (p : Option Nat) :
    (h.modify a fun n => { n with parent := p }).parentOf x =
      if x = a then (h.parentOf x).map (fun _ => p) else h.parentOf x := by
  unfold Hy3Layout.parentOf
  rw [get_modify]
  split
  · cases h.get x <;> rfl
  · rfl

theorem childrenOf_modify_of (h : Hy3Layout) (a x : Nat) (f : Hy3Node → Hy3Node)
    (hf : ∀ n, (f n).data = n.data) : (h.modify a f).childrenOf x = h.childrenOf x := by
  unfold Hy3Layout.childrenOf
  rw [get_modify]
  by_cases e : x = a
  · rw [if_pos e]
    cases h.get x with
    | none => rfl
    | some n => simp [Hy3Node.children, hf]
  · rw [if_neg e]

theorem childrenOf_modify_parent (h : Hy3Layout) (a x : Nat) (p : Option Nat) :
    (h.modify a fun n => { n with parent := p }).childrenOf x = h.childrenOf x :=
  childrenOf_modify_of _ _ _ _ (fun _ => rfl)

theorem parentOf_modify_of (h : Hy3Layout) (a x : Nat) (f : Hy3Node → Hy3Node)
    (hf : ∀ n, (f n).parent = n.parent) : (h.modify a f).parentOf x = h.parentOf x := by
  unfold Hy3Layout.parentOf
  rw [get_modify]
  split
  · cases h.get x with
    | none => rfl
    | some n => simp [hf]
  · rfl

theorem focusBeforeRemove_childrenOf (h : Hy3Layout) (p : Nat) (cs : List Nat) (c x : Nat) :
    (focusBeforeRemove h p cs c).childrenOf x = h.childrenOf x := by
  unfold focusBeforeRemove
  split
  · exact childrenOf_modifyGroup_same _ _ _ _ (fun _ => rfl)
  · rfl

theorem focusBeforeRemove_addrs (h : Hy3Layout) (p : Nat) (cs : List Nat) (c : Nat) :
    (focusBeforeRemove h p cs c).nodes.map Hy3Node.addr = h.nodes.map Hy3Node.addr ∧
      (focusBeforeRemove h p cs c).next = h.next := by
  unfold focusBeforeRemove
  split
  · exact ⟨addrs_modifyGroup _ _ _, rfl⟩
  · exact ⟨rfl, rfl⟩

theorem focusBeforeRemove_get_isSome (h : Hy3Layout) (p : Nat) (cs : List Nat) (c x : Nat) :
    ((focusBeforeRemove h p cs c).get x).isSome = (h.get x).isSome := by
  unfold focusBeforeRemove
  split
  · exact get_modifyGroup_isSome _ _ _ _
  · rfl

/-- The ratio loop changes nothing but ratios. -/
theorem addRatioAll_frame (d : ℚ) : ∀ (cs : List Nat) (h h' : Hy3Layout),
    addRatioAll h cs d = some h' →
    h'.next = h.next ∧ h'.nodes.map Hy3Node.addr = h.nodes.map Hy3Node.addr ∧
      ∀ x, ∃ k : ℚ, h'.get x =
        (h.get x).map (fun n => { n with size_ratio := n.size_ratio + k })
  | [], h, h', e => by
    simp only [addRatioAll, Option.some.injEq] at e
    subst e
    refine ⟨rfl, rfl, fun x => ⟨0, ?_⟩⟩
    cases h.get x <;> simp
  | c :: cs, h, h', e => by
    unfold addRatioAll at e
    cases hc : h.get c with
    | none => simp [hc] at e
    | some n =>
      simp only [hc] at e
      obtain ⟨n1, a1, g1⟩ := addRatioAll_frame d cs _ h' e
      refine ⟨n1, a1.trans (addrs_modify _ _ _), fun x => ?_⟩
      obtain ⟨k, hk⟩ := g1 x
      rw [get_modify] at hk
      by_cases hx : x = c
      · refine ⟨d + k, ?_⟩
        rw [hk, if_pos hx]
        cases hg : h.get x with
        | none => rfl
        | some m =>
          have := get_addr hg
          simp only [Option.map_some', Option.some.injEq]
          cases m
          simp_all
          ring
      · exact ⟨k, by rw [hk, if_neg hx]⟩

theorem addRatioAll_proj {d : ℚ} {cs : List Nat} {h h' : Hy3Layout}
    (e : addRatioAll h cs d = some h') :
    (∀ x, h'.parentOf x = h.parentOf x) ∧ (∀ x, h'.childrenOf x = h.childrenOf x) ∧
      (∀ x, h'.group x = h.group x) := by
  obtain ⟨_, _, g⟩ := addRatioAll_frame d cs h h' e
  refine ⟨fun x => ?_, fun x => ?_, fun x => ?_⟩
  · obtain ⟨k, hk⟩ := g x
    unfold Hy3Layout.parentOf
    rw [hk]
    cases h.get x <;> rfl
  · obtain ⟨k, hk⟩ := g x
    unfold Hy3Layout.childrenOf
    rw [hk]
    cases h.get x <;> rfl
  · obtain ⟨k, hk⟩ := g x
    unfold Hy3Layout.group
    rw [hk]
    cases h.get x <;> rfl


/-! ## The removal loop, round by round -/


/-- One round of the removal loop, in terms of `detachStore`. -/
theorem removeLoop_step {this : Nat} {fuel : Nat} {h : Hy3Layout} {c gp : Nat} {pn : Hy3Node}
    {group : Hy3GroupData} (hc : h.get c = some pn) (hp : pn.parent = some gp)
    (hg : h.group gp = some group) (hm : c ∈ group.children) :
    removeLoop this (fuel + 1) h c =
      if group.children.filter (fun s => s ≠ c) ≠ [] then
        (addRatioAll (detachStore this c gp group.children h)
          (group.children.filter fun s => s ≠ c)
          (-((1 - pn.size_ratio) /
            (((group.children.filter fun s => s ≠ c).length
              - (if this ∈ group.children.filter (fun s => s ≠ c) then 1 else 0) : Nat) : ℚ)))).map
          fun h4 => (h4.modify this fun n => { n with parent := none }, some gp)
      else removeLoop this fuel (detachStore this c gp group.children h) gp := by
  have hr : ∀ a, (((focusBeforeRemove h gp group.children c).modifyGroup gp fun g =>
      { g with
        children := group.children.filter fun s => s ≠ c
        group_focused := false
        focused_child :=
          if (group.children.filter fun s => s ≠ c).length = 1 then
            (group.children.filter fun s => s ≠ c).head?
          else g.focused_child }).ratioOf a) = h.ratioOf a := fun a => by
    rw [ratioOf_modifyGroup, focusBeforeRemove_ratioOf]
  have hrc : h.ratioOf c = some pn.size_ratio := by simp [Hy3Layout.ratioOf, hc]
  obtain ⟨cn2, hcn2, hcr2⟩ := ratioOf_eq_some ((hr c).trans hrc)
  rw [removeLoop]
  simp only [hc, hp, hg, hm, not_true_eq_false, if_false, hcn2, hcr2, detachStore]
  split
  · cases addRatioAll _ _ _ <;> rfl
  · rfl

theorem removeLoop_root {this : Nat} {fuel : Nat} {h : Hy3Layout} {c : Nat} {pn : Hy3Node}
    (hc : h.get c = some pn) (hp : pn.parent = none) :
    removeLoop this (fuel + 1) h c = some (if c ≠ this then h.remove c else h, none) := by
  rw [removeLoop]
  simp only [hc, hp]

/-- Parent pointers, child lists and addresses after `detachStore`. -/
theorem detachStore_proj (this child gp : Nat) (h : Hy3Layout) (group : Hy3GroupData)
    (hg : h.group gp = some group) :
    (∀ x, (detachStore this child gp group.children h).parentOf x =
      if x = child then (if child ≠ this then none else (h.parentOf x).map fun _ => none)
      else h.parentOf x) ∧
    (∀ x, (detachStore this child gp group.children h).childrenOf x =
      if x = child ∧ child ≠ this then []
      else if x = gp then group.children.filter (fun s => s ≠ child) else h.childrenOf x) := by
  have hg1 : (focusBeforeRemove h gp group.children child).group gp =
      (h.group gp).map (fun g => (focusBeforeRemove h gp group.children child).group gp |>.getD g) := by
    have := focusBeforeRemove_children h gp group.children child gp
    rw [hg] at this ⊢
    cases hx : (focusBeforeRemove h gp group.children child).group gp with
    | none => simp [hx] at this
    | some g1 => simp
  have hs1 : ((focusBeforeRemove h gp group.children child).group gp).isSome := by
    rw [hg1, hg]; rfl
  obtain ⟨g1, hg1'⟩ := Option.isSome_iff_exists.mp hs1
  refine ⟨fun x => ?_, fun x => ?_⟩
  · unfold detachStore
    by_cases hct : child ≠ this
    · simp only [if_pos hct]
      rw [parentOf_remove, parentOf_modifyGroup, focusBeforeRemove_parentOf]
    · simp only [if_neg hct]
      rw [parentOf_modify_parent, parentOf_modifyGroup, focusBeforeRemove_parentOf]
  · unfold detachStore
    by_cases hct : child ≠ this
    · simp only [if_pos hct]
      rw [childrenOf_remove, childrenOf_modifyGroup, focusBeforeRemove_childrenOf]
      by_cases hx : x = child
      · simp [hx, hct]
      · by_cases hx2 : x = gp
        · subst hx2
          simp [hx, hg1']
        · simp [hx, hx2]
    · simp only [if_neg hct]
      rw [childrenOf_modify_parent, childrenOf_modifyGroup, focusBeforeRemove_childrenOf]
      by_cases hx2 : x = gp
      · subst hx2
        simp [hct, hg1']
      · simp [hct, hx2]

theorem detachStore_addrs (this child gp : Nat) (cs0 : List Nat) (h : Hy3Layout) :
    (detachStore this child gp cs0 h).next = h.next ∧
      (detachStore this child gp cs0 h).nodes.map Hy3Node.addr =
        if child ≠ this then (h.nodes.map Hy3Node.addr).filter (fun x => x != child)
        else h.nodes.map Hy3Node.addr := by
  unfold detachStore
  by_cases hct : child ≠ this
  · simp only [if_pos hct]
    refine ⟨(focusBeforeRemove_addrs h gp cs0 child).2, ?_⟩
    rw [addrs_remove, addrs_modifyGroup, (focusBeforeRemove_addrs h gp cs0 child).1]
  · simp only [if_neg hct]
    refine ⟨(focusBeforeRemove_addrs h gp cs0 child).2, ?_⟩
    rw [addrs_modify, addrs_modifyGroup, (focusBeforeRemove_addrs h gp cs0 child).1]


/-! ## Removal keeps well-formedness -/


theorem StoreOK.detachStore {h : Hy3Layout} (ok : StoreOK h) (this child gp : Nat)
    (cs0 : List Nat) : StoreOK (detachStore this child gp cs0 h) := by
  obtain ⟨hn, ha⟩ := detachStore_addrs this child gp cs0 h
  by_cases hct : child ≠ this
  · rw [if_pos hct] at ha
    have okr := ok.remove child
    exact StoreOK.of_addrs okr (by rw [ha, addrs_remove]) (le_of_eq hn.symm)
  · rw [if_neg hct] at ha
    exact ok.of_addrs ha (le_of_eq hn.symm)

/-- Taking a child out of its parent's list keeps the store well-formed: the child is `this`
(whose parent pointer is cleared) or an emptied group (which is deleted). -/
theorem WellFormed.detachStore_wf {h : Hy3Layout} (wf : WellFormed h) {this child gp : Nat}
    {group : Hy3GroupData} (hg : h.group gp = some group)
    (hp : h.parentOf child = some (some gp))
    (hc : child = this ∨ h.childrenOf child = []) :
    WellFormed (detachStore this child gp group.children h) := by
  obtain ⟨pp, pc⟩ := detachStore_proj this child gp h group hg
  have w := (wellFormed_iff h).mp wf
  have chgp : h.childrenOf gp = group.children := by
    obtain ⟨n, hn, hd⟩ := group_eq_some hg
    rw [childrenOf_of_get hn, hd]; rfl
  have hmem : child ∈ h.childrenOf gp := wf.mem_of_parent hp
  rw [wellFormed_iff]
  refine ⟨fun x p e => ?_, fun x d e => ?_⟩
  · rw [pp x] at e
    by_cases hx : x = child
    · rw [if_pos hx] at e
      by_cases hct : child ≠ this
      · simp [hct] at e
      · rw [if_neg hct] at e
        cases hq : h.parentOf x <;> simp [hq] at e
    · rw [if_neg hx] at e
      have hcount := w.1 x p e
      rw [pc p]
      by_cases hpc : p = child ∧ child ≠ this
      · exfalso
        have hm := wf.mem_of_parent e
        rcases hc with hc | hc
        · exact hpc.2 hc
        · rw [hpc.1, hc] at hm
          simp at hm
      · rw [if_neg hpc]
        by_cases hpg : p = gp
        · rw [if_pos hpg, ← chgp, ← hpg]
          rw [List.count_filter (by simpa using hx)]
          exact hcount
        · rw [if_neg hpg]
          exact hcount
  · rw [pc x] at e
    by_cases hxc : x = child ∧ child ≠ this
    · simp [hxc] at e
    · rw [if_neg hxc] at e
      have hd : d ∈ h.childrenOf x ∧ d ≠ child := by
        by_cases hxg : x = gp
        · rw [if_pos hxg] at e
          have := List.mem_filter.mp e
          exact ⟨by rw [hxg, chgp]; exact this.1, by simpa using this.2⟩
        · rw [if_neg hxg] at e
          refine ⟨e, fun hdc => hxg ?_⟩
          exact wf.parent_unique (hdc ▸ e) hmem
      rw [pp d, if_neg hd.2]
      exact w.2 x d hd.1

theorem removeLoop_preserves (this : Nat) : ∀ (fuel : Nat) (h : Hy3Layout) (c : Nat)
    (h' : Hy3Layout) (r : Option Nat), StoreOK h → WellFormed h →
    (c = this ∨ (h.childrenOf c = [] ∧ h.parentOf this = some none)) →
    (h.get this).isSome →
    removeLoop this fuel h c = some (h', r) →
    StoreOK h' ∧ WellFormed h' ∧ h'.parentOf this = some none
  | 0, _, _, _, _, _, _, _, _, e => by simp [removeLoop] at e
  | fuel + 1, h, c, h', r, ok, wf, hc, ht, e => by
    cases hcn : h.get c with
    | none => simp [removeLoop, hcn] at e
    | some pn =>
      cases hp : pn.parent with
      | none =>
        rw [removeLoop_root hcn hp] at e
        simp only [Option.some.injEq, Prod.mk.injEq] at e
        obtain ⟨e1, _⟩ := e
        subst e1
        by_cases hct : c ≠ this
        · rw [if_pos hct]
          have hc' := hc.resolve_left hct
          have hpc : h.parentOf c = some none := by simp [Hy3Layout.parentOf, hcn, hp]
          refine ⟨ok.remove c, wf.remove_wf c (fun x hx => ?_) (fun y hy => ?_), ?_⟩
          · have := wf.mem_of_parent hx
            rw [hc'.1] at this
            simp at this
          · have := ((wellFormed_iff h).mp wf).2 y c hy
            rw [hpc] at this
            simp at this
          · rw [parentOf_remove, if_neg (Ne.symm hct)]
            exact hc'.2
        · rw [if_neg hct]
          push_neg at hct
          subst hct
          exact ⟨ok, wf, by simp [Hy3Layout.parentOf, hcn, hp]⟩
      | some gp =>
        obtain ⟨group, hg⟩ := Option.isSome_iff_exists.mp (wf.parent_group hcn hp)
        have hpc : h.parentOf c = some (some gp) := by simp [Hy3Layout.parentOf, hcn, hp]
        have chgp : h.childrenOf gp = group.children := by
          obtain ⟨n, hn, hd⟩ := group_eq_some hg
          rw [childrenOf_of_get hn, hd]; rfl
        have hm : c ∈ group.children := chgp ▸ wf.mem_of_parent hpc
        rw [removeLoop_step hcn hp hg hm] at e
        have hc2 : c = this ∨ h.childrenOf c = [] := hc.imp id (fun x => x.1)
        have ok3 := ok.detachStore this c gp group.children
        have wf3 : WellFormed (detachStore this c gp group.children h) :=
          wf.detachStore_wf hg hpc hc2
        obtain ⟨pp, pc⟩ := detachStore_proj this c gp h group hg
        have hpt3 : (detachStore this c gp group.children h).parentOf this = some none := by
          rw [pp this]
          by_cases hct : this = c
          · rw [if_pos hct, if_neg (by simp [hct])]
            obtain ⟨tn, htn⟩ := Option.isSome_iff_exists.mp ht
            simp [Hy3Layout.parentOf, htn]
          · rw [if_neg hct]
            exact (hc.resolve_left (Ne.symm hct)).2
        have hts3 : ((detachStore this c gp group.children h).get this).isSome := by
          obtain ⟨n, hn, _⟩ := parentOf_eq_some.mp hpt3
          simp [hn]
        by_cases hcs : group.children.filter (fun s => s ≠ c) ≠ []
        · rw [if_pos hcs] at e
          cases h4e : addRatioAll (detachStore this c gp group.children h)
              (group.children.filter fun s => s ≠ c)
              (-((1 - pn.size_ratio) /
                (((group.children.filter fun s => s ≠ c).length
                  - (if this ∈ group.children.filter (fun s => s ≠ c) then 1 else 0) : Nat)
                    : ℚ))) with
          | none => rw [h4e] at e; simp at e
          | some h4 =>
            rw [h4e] at e
            simp only [Option.map_some', Option.some.injEq, Prod.mk.injEq] at e
            obtain ⟨e1, _⟩ := e
            subst e1
            obtain ⟨n4, a4, _⟩ := addRatioAll_frame _ _ _ _ h4e
            obtain ⟨p4, c4, _⟩ := addRatioAll_proj h4e
            have ok4 : StoreOK h4 := ok3.of_addrs a4 (le_of_eq n4.symm)
            have wf4 : WellFormed h4 := wf3.congr p4 c4
            have hpt4 : h4.parentOf this = some none := by rw [p4]; exact hpt3
            refine ⟨ok4.of_addrs (addrs_modify _ _ _) (le_refl _), ?_, ?_⟩
            · refine wf4.congr (fun a => ?_) (fun a => childrenOf_modify_parent _ _ _ _)
              rw [parentOf_modify_parent]
              split
              · next e2 => rw [e2, hpt4]; rfl
              · rfl
            · rw [parentOf_modify_parent, if_pos rfl, hpt4]; rfl
        · rw [if_neg hcs] at e
          push_neg at hcs
          refine removeLoop_preserves this fuel _ gp h' r ok3 wf3 ?_ hts3 e
          by_cases hgt : gp = this
          · exact Or.inl hgt
          · refine Or.inr ⟨?_, hpt3⟩
            rw [pc gp]
            by_cases hgc : gp = c ∧ c ≠ this
            · rw [if_pos hgc]
            · rw [if_neg hgc, if_pos rfl, hcs]


/-! ## removeFromParentRecursive keeps well-formedness -/


theorem collapseStack_addrs : ∀ (fuel : Nat) (h : Hy3Layout) (p : Option Nat) (h' : Hy3Layout),
    collapseStack fuel h p = some h' →
      h'.next = h.next ∧ h'.nodes.map Hy3Node.addr = h.nodes.map Hy3Node.addr
  | 0, _, _, _, e => by simp [collapseStack] at e
  | _ + 1, _, none, _, e => by simp [collapseStack] at e
  | fuel + 1, h, some a, h', e => by
    unfold collapseStack at e
    cases hn : h.get a with
    | none => simp [hn] at e
    | some n =>
      simp only [hn] at e
      cases hd : n.data with
      | window w =>
        simp only [hd, Option.some.injEq] at e
        subst e; exact ⟨rfl, rfl⟩
      | group g =>
        simp only [hd] at e
        split at e
        · have ih := collapseStack_addrs fuel _ _ _ e
          exact ⟨ih.1, ih.2.trans (addrs_modifyGroup _ _ _)⟩
        · simp only [Option.some.injEq] at e
          subst e; exact ⟨rfl, rfl⟩

theorem removePrelude_addrs {fuel : Nat} {h h' : Hy3Layout} {this : Nat} {actor : Option Nat}
    (e : removePrelude fuel h this = some (h', actor)) :
    h'.next = h.next ∧ h'.nodes.map Hy3Node.addr = h.nodes.map Hy3Node.addr := by
  unfold removePrelude at e
  cases hn : h.get this with
  | none => simp [hn] at e
  | some tn =>
    simp only [hn] at e
    cases hp : tn.parent with
    | none =>
      simp only [hp, Option.some.injEq, Prod.mk.injEq] at e
      rw [← e.1]; exact ⟨rfl, rfl⟩
    | some p =>
      simp only [hp] at e
      cases ha : getExpandActor fuel h this with
      | none => simp [ha] at e
      | some act =>
        simp only [ha] at e
        cases han : h.get act with
        | none => simp [han] at e
        | some an =>
          simp only [han] at e
          cases hd : an.data with
          | window w =>
            simp only [hd, Option.some.injEq, Prod.mk.injEq] at e
            rw [← e.1]; exact ⟨rfl, rfl⟩
          | group g =>
            simp only [hd] at e
            cases hc : collapseExpansions fuel h act with
            | none => simp [hc] at e
            | some h1 =>
              simp only [hc, Option.some.injEq, Prod.mk.injEq] at e
              rw [← e.1]
              unfold collapseExpansions at hc
              cases hg : h.group act with
              | none => simp [hg] at hc
              | some g2 =>
                simp only [hg] at hc
                split at hc
                · simp only [Option.some.injEq] at hc
                  subst hc; exact ⟨rfl, rfl⟩
                · have ih := collapseStack_addrs _ _ _ _ hc
                  exact ⟨ih.1, ih.2.trans (addrs_modifyGroup _ _ _)⟩

theorem SameButExpand.parentOf {h h' : Hy3Layout} (hs : SameButExpand h h') (a : Nat) :
    h'.parentOf a = h.parentOf a := by
  have := congrArg (Option.map Hy3Node.parent) (hs a)
  simpa [Hy3Layout.parentOf, Hy3Node.noExpand, Function.comp_def] using this

theorem SameButExpand.childrenOf {h h' : Hy3Layout} (hs : SameButExpand h h') (a : Nat) :
    h'.childrenOf a = h.childrenOf a := by
  cases hn : h.get a with
  | none =>
    have := hs.isSome a
    rw [hn] at this
    cases hn' : h'.get a with
    | none => simp [Hy3Layout.childrenOf, hn, hn']
    | some n' => simp [hn'] at this
  | some n =>
    obtain ⟨n', hn', e⟩ := hs.get hn
    rw [childrenOf_of_get hn, childrenOf_of_get hn']
    cases hd : n.data with
    | window w =>
      have := congrArg Hy3Node.data e
      simp only [Hy3Node.noExpand, hd] at this
      cases hd' : n'.data with
      | window w' => rfl
      | group g' => simp [hd'] at this
    | group g =>
      obtain ⟨g', hd', eg⟩ := Hy3Node.noExpand_group e hd
      rw [hd', Hy3NodeData.children_group, Hy3NodeData.children_group,
        Hy3GroupData.noExpand_children eg]

theorem removeFromParentRecursive_preserves {fuel : Nat} {h : Hy3Layout} {this : Nat}
    {r : RemoveResult} (ok : StoreOK h) (wf : WellFormed h)
    (e : removeFromParentRecursive fuel h this = some r) :
    StoreOK r.layout ∧ WellFormed r.layout ∧ r.layout.parentOf this = some none ∧
      ∀ g, this ∉ r.layout.childrenOf g := by
  unfold removeFromParentRecursive at e
  cases hpre : removePrelude fuel h this with
  | none => simp [hpre] at e
  | some pr =>
    obtain ⟨h1, actor⟩ := pr
    simp only [hpre] at e
    cases hl : removeLoop this fuel h1 this with
    | none => simp [hl] at e
    | some lr =>
      obtain ⟨h2, ret⟩ := lr
      simp only [hl, Option.some.injEq] at e
      subst e
      have hs := removePrelude_same hpre
      obtain ⟨n1, a1⟩ := removePrelude_addrs hpre
      have ok1 : StoreOK h1 := ok.of_addrs a1 (le_of_eq n1.symm)
      have wf1 : WellFormed h1 := wf.congr hs.parentOf hs.childrenOf
      have ht1 : (h1.get this).isSome := by
        cases fuel with
        | zero => simp [removeLoop] at hl
        | succ f =>
          cases hg : h1.get this with
          | none => simp [removeLoop, hg] at hl
          | some _ => rfl
      obtain ⟨ok2, wf2, hp2⟩ := removeLoop_preserves this fuel h1 this h2 ret ok1 wf1 (Or.inl rfl)
        ht1 hl
      refine ⟨ok2, wf2, hp2, fun g hg => ?_⟩
      have := ((wellFormed_iff h2).mp wf2).2 g this hg
      rw [hp2] at this
      simp at this


/-! ## markFocused only touches focus fields -/


theorem SameButFocus.focus_refl (h : Hy3Layout) : SameButFocus h h := ⟨rfl, rfl, fun _ => rfl⟩

theorem SameButFocus.focus_trans {h1 h2 h3 : Hy3Layout} (a : SameButFocus h1 h2)
    (b : SameButFocus h2 h3) : SameButFocus h1 h3 :=
  ⟨b.1.trans a.1, b.2.1.trans a.2.1, fun x => (b.2.2 x).trans (a.2.2 x)⟩

theorem mapGroup_comp (f g : Hy3GroupData → Hy3GroupData) (n : Hy3Node) :
    (n.mapGroup f).mapGroup g = n.mapGroup (fun x => g (f x)) := by
  cases hd : n.data with
  | window w => simp [Hy3Node.mapGroup, hd]
  | group d => simp [Hy3Node.mapGroup, hd]

theorem SameButFocus.focus_modifyGroup (h : Hy3Layout) (a : Nat) (f : Hy3GroupData → Hy3GroupData)
    (hf : ∀ g, (f g).noFocus = g.noFocus) : SameButFocus h (h.modifyGroup a f) := by
  refine ⟨rfl, addrs_modifyGroup _ _ _, fun x => ?_⟩
  rw [get_modifyGroup]
  split
  · cases h.get x with
    | none => rfl
    | some n =>
      simp only [Option.map_some', Option.some.injEq, mapGroup_comp]
      congr 1
      funext g
      exact hf g
  · rfl

theorem SameButFocus.focus_get {h h' : Hy3Layout} (s : SameButFocus h h') {a : Nat} {n : Hy3Node}
    (hn : h.get a = some n) :
    ∃ n', h'.get a = some n' ∧
      n'.mapGroup Hy3GroupData.noFocus = n.mapGroup Hy3GroupData.noFocus := by
  have := s.2.2 a
  rw [hn] at this
  cases hn' : h'.get a with
  | none => simp [hn'] at this
  | some n' => exact ⟨n', rfl, by simpa [hn'] using this⟩

theorem SameButFocus.symm {h h' : Hy3Layout} (s : SameButFocus h h') : SameButFocus h' h :=
  ⟨s.1.symm, s.2.1.symm, fun x => (s.2.2 x).symm⟩

theorem mapGroup_noFocus_eq {n n' : Hy3Node}
    (e : n'.mapGroup Hy3GroupData.noFocus = n.mapGroup Hy3GroupData.noFocus) :
    n'.addr = n.addr ∧ n'.parent = n.parent ∧ n'.size_ratio = n.size_ratio ∧
      n'.workspace = n.workspace ∧ n'.reparenting = n.reparenting ∧
      n'.data.children = n.data.children ∧ n'.data.type = n.data.type := by
  have e1 := congrArg Hy3Node.addr e
  have e2 := congrArg Hy3Node.parent e
  have e3 := congrArg Hy3Node.size_ratio e
  have e4 := congrArg Hy3Node.workspace e
  have e5 := congrArg Hy3Node.reparenting e
  have e6 := congrArg (fun m => m.data.children) e
  have e7 := congrArg (fun m => m.data.type) e
  simp only [Hy3Node.mapGroup_addr, Hy3Node.mapGroup_parent, Hy3Node.mapGroup_size_ratio,
    Hy3Node.mapGroup_workspace, Hy3Node.mapGroup_reparenting, Hy3Node.mapGroup_type] at e1 e2 e3 e4 e5 e7
  dsimp only at e6
  rw [Hy3Node.mapGroup_children (by intro _; rfl), Hy3Node.mapGroup_children (by intro _; rfl)] at e6
  exact ⟨e1, e2, e3, e4, e5, e6, e7⟩

theorem SameButFocus.focus_parentOf {h h' : Hy3Layout} (s : SameButFocus h h') (a : Nat) :
    h'.parentOf a = h.parentOf a := by
  have := congrArg (Option.map Hy3Node.parent) (s.2.2 a)
  simp only [Option.map_map] at this
  unfold Hy3Layout.parentOf
  cases h1 : h'.get a <;> cases h2 : h.get a <;> simp_all [Function.comp_def]

theorem SameButFocus.focus_childrenOf {h h' : Hy3Layout} (s : SameButFocus h h') (a : Nat) :
    h'.childrenOf a = h.childrenOf a := by
  cases hn : h.get a with
  | none =>
    have := s.2.2 a
    rw [hn] at this
    cases hn' : h'.get a with
    | none => simp [Hy3Layout.childrenOf, hn, hn']
    | some n' => simp [hn'] at this
  | some n =>
    obtain ⟨n', hn', e⟩ := s.focus_get hn
    rw [childrenOf_of_get hn, childrenOf_of_get hn']
    exact (mapGroup_noFocus_eq e).2.2.2.2.2.1

theorem SameButFocus.storeOK {h h' : Hy3Layout} (s : SameButFocus h h') (ok : StoreOK h) :
    StoreOK h' := ok.of_addrs s.2.1 (le_of_eq s.1.symm)

theorem SameButFocus.wellFormed {h h' : Hy3Layout} (s : SameButFocus h h')
    (wf : WellFormed h) : WellFormed h' := wf.congr s.focus_parentOf s.focus_childrenOf

theorem markFocusedLoop_same : ∀ (fuel : Nat) (h : Hy3Layout) (a : Nat) (h' : Hy3Layout),
    markFocusedLoop fuel h a = some h' → SameButFocus h h'
  | 0, _, _, _, e => by simp [markFocusedLoop] at e
  | fuel + 1, h, a, h', e => by
    unfold markFocusedLoop at e
    cases hn : h.get a with
    | none => simp [hn] at e
    | some n =>
      simp only [hn] at e
      cases hp : n.parent with
      | none =>
        simp only [hp, Option.some.injEq] at e
        subst e; exact SameButFocus.focus_refl _
      | some p =>
        simp only [hp] at e
        cases hg : h.group p with
        | none => simp [hg] at e
        | some g =>
          simp only [hg] at e
          have ih := markFocusedLoop_same fuel _ _ _ e
          exact SameButFocus.focus_trans (SameButFocus.focus_modifyGroup h p _ (by intro _; rfl)) ih

theorem markGroupFocusedRecursive_same : ∀ (fuel : Nat) (h : Hy3Layout) (a : Nat)
    (h' : Hy3Layout), markGroupFocusedRecursive fuel h a = some h' → SameButFocus h h'
  | 0, _, _, _, e => by simp [markGroupFocusedRecursive] at e
  | fuel + 1, h, a, h', e => by
    unfold markGroupFocusedRecursive at e
    cases hg : h.group a with
    | none => simp [hg] at e
    | some g =>
      simp only [hg] at e
      have key : ∀ (l : List Nat) (acc acc' : Hy3Layout),
          l.foldlM
            (fun acc c =>
              match acc.get c with
              | none => none
              | some cn =>
                match cn.data with
                | Hy3NodeData.group _ => markGroupFocusedRecursive fuel acc c
                | Hy3NodeData.window _ => some acc) acc = some acc' →
          SameButFocus acc acc' := by
        intro l
        induction l with
        | nil =>
          intro acc acc' e
          simp only [List.foldlM_nil, Option.pure_def, Option.some.injEq] at e
          subst e; exact SameButFocus.focus_refl _
        | cons c l ih =>
          intro acc acc' e
          simp only [List.foldlM_cons, Option.bind_eq_bind] at e
          cases hc : acc.get c with
          | none => simp [hc] at e
          | some cn =>
            simp only [hc] at e
            cases hd : cn.data with
            | window w =>
              simp only [hd, Option.some_bind] at e
              exact ih _ _ e
            | group gc =>
              simp only [hd] at e
              cases hr : markGroupFocusedRecursive fuel acc c with
              | none => simp [hr] at e
              | some acc1 =>
                simp only [hr, Option.some_bind] at e
                exact SameButFocus.focus_trans (markGroupFocusedRecursive_same fuel _ _ _ hr)
                  (ih _ _ e)
      have := key _ _ _ e
      exact SameButFocus.focus_trans (SameButFocus.focus_modifyGroup h a _ (by intro _; rfl)) this

theorem markFocused_same {fuel : Nat} {h h' : Hy3Layout} {a : Nat}
    (e : markFocused fuel h a = some h') : SameButFocus h h' := by
  unfold markFocused at e
  cases hn : h.get a with
  | none => simp [hn] at e
  | some n =>
    simp only [hn] at e
    cases hd : n.data with
    | window w =>
      simp only [hd] at e
      exact markFocusedLoop_same _ _ _ _ e
    | group g =>
      simp only [hd] at e
      cases hr : markGroupFocusedRecursive fuel h a with
      | none => simp [hr] at e
      | some h1 =>
        simp only [hr] at e
        exact SameButFocus.focus_trans (markGroupFocusedRecursive_same _ _ _ _ hr)
          (markFocusedLoop_same _ _ _ _ e)


/-! ## Attaching a node keeps well-formedness -/


theorem parentOf_push_back {h : Hy3Layout} (ok : StoreOK h) (n : Hy3Node) (b : Nat) :
    (h.push_back n).parentOf b = if b = h.next then some n.parent else h.parentOf b := by
  unfold Hy3Layout.parentOf
  rw [get_push_back_of_ok ok]
  split <;> rfl

theorem childrenOf_push_back {h : Hy3Layout} (ok : StoreOK h) (n : Hy3Node) (b : Nat) :
    (h.push_back n).childrenOf b = if b = h.next then n.data.children else h.childrenOf b := by
  by_cases hb : b = h.next
  · rw [if_pos hb]
    have : (h.push_back n).get b = some { n with addr := h.next } := by
      rw [get_push_back_of_ok ok, if_pos hb]
    rw [childrenOf_of_get this]
  · rw [if_neg hb]
    unfold Hy3Layout.childrenOf
    rw [get_push_back_of_ok ok, if_neg hb]

theorem parentOf_next {h : Hy3Layout} (ok : StoreOK h) : h.parentOf h.next = none := by
  simp [Hy3Layout.parentOf, ok.get_next]

theorem WellFormed.not_child_of_root {h : Hy3Layout} (wf : WellFormed h) {x : Nat}
    (hx : h.parentOf x = some none) (g : Nat) : x ∉ h.childrenOf g := fun hm => by
  have := ((wellFormed_iff h).mp wf).2 g x hm
  rw [hx] at this
  cases this

theorem WellFormed.push_back_leaf {h : Hy3Layout} (ok : StoreOK h) (wf : WellFormed h)
    (n : Hy3Node) (hp : n.parent = none) (hc : n.data.children = []) :
    WellFormed (h.push_back n) := by
  have w := (wellFormed_iff h).mp wf
  have nochild : ∀ g, h.next ∉ h.childrenOf g := by
    intro g hm
    have := w.2 g _ hm
    rw [parentOf_next ok] at this
    cases this
  rw [wellFormed_iff]
  refine ⟨fun a p hpa => ?_, fun a c hm => ?_⟩
  · rw [parentOf_push_back ok] at hpa
    by_cases ha : a = h.next
    · rw [if_pos ha, hp] at hpa; cases hpa
    · rw [if_neg ha] at hpa
      have hpm := wf.mem_of_parent hpa
      have hpn : p ≠ h.next := fun e => by
        rw [e, childrenOf_none ok.get_next] at hpm
        simp at hpm
      rw [childrenOf_push_back ok, if_neg hpn]
      exact w.1 a p hpa
  · rw [childrenOf_push_back ok] at hm
    by_cases ha : a = h.next
    · rw [if_pos ha, hc] at hm; simp at hm
    · rw [if_neg ha] at hm
      have hcn : c ≠ h.next := fun e => nochild a (e ▸ hm)
      rw [parentOf_push_back ok, if_neg hcn]
      exact w.2 a c hm

theorem intoGroup_root_frame {h h' : Hy3Layout} (ok : StoreOK h) (wf : WellFormed h)
    {this c : Nat} {layout : Hy3GroupLayout} {eph : GroupEphemeralityOption}
    (e : intoGroup h this layout eph = some (h', c)) {x : Nat}
    (hx : h.parentOf x = some none) : h'.parentOf x = some none := by
  cases ht : h.get this with
  | none => simp [intoGroup, ht] at e
  | some tn =>
    obtain ⟨h2, e2, n2, a2, gt, gn, go⟩ :=
      intoGroup_spec h ok this tn layout eph ht (wf.childrenInStore.of_get ht)
    rw [e] at e2
    cases e2
    have hC : h.childrenOf this = tn.data.children := childrenOf_of_get ht
    have hxC : x ∉ tn.data.children := hC ▸ wf.not_child_of_root hx this
    by_cases hx1 : x = this
    · subst hx1
      have : tn.parent = none := by
        simpa [Hy3Layout.parentOf, ht] using hx
      simp [Hy3Layout.parentOf, gt, hxC, this]
    · have hx2 : x ≠ h.next := fun e => by
        rw [e, parentOf_next ok] at hx; cases hx
      unfold Hy3Layout.parentOf at hx ⊢
      rw [go x hx1 hx2]
      cases hg : h.get x with
      | none => simp [hg] at hx
      | some n => simpa [hg, hxC] using hx

theorem insertAfter_perm : ∀ (cs : List Nat) (a node : Nat) (r : List Nat),
    insertAfter cs a node = some r → r.Perm (node :: cs)
  | [], _, _, _, e => by simp [insertAfter] at e
  | x :: xs, a, node, r, e => by
    unfold insertAfter at e
    split at e
    · cases e
      exact List.Perm.swap _ _ _
    · cases hr : insertAfter xs a node with
      | none => simp [hr] at e
      | some r1 =>
        simp only [hr, Option.map_some', Option.some.injEq] at e
        subst e
        exact ((insertAfter_perm xs a node r1 hr).cons x).trans (List.Perm.swap _ _ _)

theorem attach_children {h h' : Hy3Layout} {oi node : Nat} {oa : Option Nat}
    (e : attach h oi node oa = some h') :
    ∃ g f, h.group oi = some g ∧ ((f g).children).Perm (node :: g.children) ∧
      h' = h.modifyGroup oi f := by
  unfold attach at e
  cases hg : h.group oi with
  | none => simp [hg] at e
  | some g =>
    simp only [hg] at e
    cases oa with
    | none =>
      simp only [Option.some.injEq] at e
      exact ⟨g, _, rfl, List.perm_append_comm, e.symm⟩
    | some a =>
      simp only at e
      cases hr : insertAfter g.children a node with
      | none => simp [hr] at e
      | some cs =>
        simp only [hr, Option.some.injEq] at e
        exact ⟨g, _, rfl, insertAfter_perm _ _ _ _ hr, e.symm⟩

theorem WellFormed.attach_proj {h h' : Hy3Layout} (wf : WellFormed h) {oi node : Nat}
    {cs : List Nat} (hx : h.parentOf node = some none)
    (hperm : cs.Perm (node :: h.childrenOf oi))
    (hp : ∀ x, h'.parentOf x = if x = node then some (some oi) else h.parentOf x)
    (hc : ∀ x, h'.childrenOf x = if x = oi then cs else h.childrenOf x) : WellFormed h' := by
  have w := (wellFormed_iff h).mp wf
  have nochild := wf.not_child_of_root hx
  rw [wellFormed_iff]
  refine ⟨fun a p hpa => ?_, fun a c hm => ?_⟩
  · rw [hp] at hpa
    by_cases ha : a = node
    · rw [if_pos ha] at hpa
      cases hpa
      rw [hc, if_pos rfl, hperm.count_eq, ha, List.count_cons_self,
        List.count_eq_zero_of_not_mem (nochild oi)]
    · rw [if_neg ha] at hpa
      rw [hc]
      by_cases hpo : p = oi
      · rw [if_pos hpo, hperm.count_eq, List.count_cons_of_ne ha, ← hpo]
        exact w.1 a p hpa
      · rw [if_neg hpo]
        exact w.1 a p hpa
  · rw [hc] at hm
    rw [hp]
    by_cases hcn : c = node
    · rw [if_pos hcn]
      by_cases ha : a = oi
      · rw [ha]
      · rw [if_neg ha] at hm
        exact absurd (hcn ▸ hm) (nochild a)
    · rw [if_neg hcn]
      by_cases ha : a = oi
      · rw [if_pos ha] at hm
        have := hperm.mem_iff.mp hm
        simp only [List.mem_cons] at this
        rcases this with h1 | h1
        · exact absurd h1 hcn
        · rw [ha]; exact w.2 oi c h1
      · rw [if_neg ha] at hm
        exact w.2 a c hm

/-- Attaching a parentless node to a group keeps the store well-formed. -/
theorem attach_preserves {h h' : Hy3Layout} (ok : StoreOK h) (wf : WellFormed h)
    {oi node : Nat} {oa : Option Nat} (hx : h.parentOf node = some none)
    (e : attach (h.modify node fun n => { n with parent := some oi, reparenting := false })
      oi node oa = some h') : StoreOK h' ∧ WellFormed h' := by
  obtain ⟨g, f, hg, hperm, rfl⟩ := attach_children e
  have hch4 : ∀ x, (h.modify node fun n =>
      { n with parent := some oi, reparenting := false }).childrenOf x = h.childrenOf x :=
    fun x => childrenOf_modify_of _ _ _ _ (fun _ => rfl)
  have hgc : h.childrenOf oi = g.children := by
    rw [← hch4 oi]
    obtain ⟨n, hn, hd⟩ := group_eq_some hg
    rw [childrenOf_of_get hn, hd]; rfl
  refine ⟨?_, ?_⟩
  · refine ok.of_addrs ?_ (le_of_eq ?_)
    · rw [addrs_modifyGroup, addrs_modify]
    · rfl
  · refine wf.attach_proj hx (hgc ▸ hperm) (fun x => ?_) (fun x => ?_)
    · rw [parentOf_modifyGroup]
      unfold Hy3Layout.parentOf at hx ⊢
      rw [get_modify]
      by_cases hxn : x = node
      · rw [if_pos hxn, if_pos hxn, hxn]
        cases hn : h.get node with
        | none => simp [hn] at hx
        | some n => rfl
      · rw [if_neg hxn, if_neg hxn]
    · rw [childrenOf_modifyGroup]
      by_cases hxo : x = oi
      · rw [if_pos hxo, if_pos hxo, hxo, hg]; rfl
      · rw [if_neg hxo, if_neg hxo, hch4]


/-! ## insertNode keeps well-formedness -/


theorem openingAfterFromRoot_preserves {fuel : Nat} {h h1 : Hy3Layout} {ws fr : Option Nat}
    {node : Nat} (ok : StoreOK h) (wf : WellFormed h) (hx : h.parentOf node = some none)
    (e : openingAfterFromRoot fuel h ws = some (h1, fr)) :
    StoreOK h1 ∧ WellFormed h1 ∧ h1.parentOf node = some none := by
  unfold openingAfterFromRoot at e
  cases hr : getWorkspaceRootGroup h ws with
  | none =>
    simp only [hr, Option.some.injEq, Prod.mk.injEq] at e
    obtain ⟨rfl, _⟩ := e
    exact ⟨ok, wf, hx⟩
  | some root =>
    simp only [hr] at e
    cases hf : getFocusedNode fuel h root false false with
    | none => simp [hf] at e
    | some oa =>
      simp only [hf] at e
      split at e
      · cases hi : intoGroup h root Hy3GroupLayout.SplitH GroupEphemeralityOption.Standard with
        | none => simp [hi] at e
        | some r =>
          obtain ⟨h2, c⟩ := r
          simp only [hi, Option.some.injEq, Prod.mk.injEq] at e
          obtain ⟨rfl, _⟩ := e
          obtain ⟨ok2, wf2, _⟩ := intoGroup_preserves ok wf hi
          exact ⟨ok2, wf2, intoGroup_root_frame ok wf hi hx⟩
      · simp only [Option.some.injEq, Prod.mk.injEq] at e
        obtain ⟨rfl, _⟩ := e
        exact ⟨ok, wf, hx⟩

theorem openingInto_preserves {env : Env} {h h2 : Hy3Layout} {ws oa oi : Option Nat}
    {node : Nat} (ok : StoreOK h) (wf : WellFormed h) (hx : h.parentOf node = some none)
    (e : openingInto env h ws oa = some (h2, oi)) :
    StoreOK h2 ∧ WellFormed h2 ∧ h2.parentOf node = some none := by
  unfold openingInto at e
  cases oa with
  | some a =>
    simp only at e
    cases ha : h.get a with
    | none => simp [ha] at e
    | some an =>
      simp only [ha, Option.some.injEq, Prod.mk.injEq] at e
      obtain ⟨rfl, _⟩ := e
      exact ⟨ok, wf, hx⟩
  | none =>
    simp only at e
    cases hr : getWorkspaceRootGroup h ws with
    | some r =>
      simp only [hr, Option.some.injEq, Prod.mk.injEq] at e
      obtain ⟨rfl, _⟩ := e
      exact ⟨ok, wf, hx⟩
    | none =>
      simp only [hr] at e
      have hnode : node ≠ h.next := fun e => by
        rw [e, parentOf_next ok] at hx; cases hx
      set R : Hy3Node :=
        { addr := h.next, workspace := ws,
          data := Hy3NodeData.group (Hy3GroupData.new
            (if env.monitorHeight ws > env.monitorWidth ws then Hy3GroupLayout.SplitV
             else Hy3GroupLayout.SplitH)) } with hR
      have ok1 : StoreOK (h.push_back R) := ok.push_back R
      have wf1 : WellFormed (h.push_back R) := wf.push_back_leaf ok R rfl rfl
      have hx1 : (h.push_back R).parentOf node = some none := by
        rw [parentOf_push_back ok, if_neg hnode, hx]
      split at e
      · simp only [Option.some.injEq, Prod.mk.injEq] at e
        obtain ⟨rfl, _⟩ := e
        set h1 := h.push_back R with hh1
        have hn1 : h1.next = h.next + 1 := rfl
        set T : Hy3Node :=
          { addr := h1.next, parent := some h.next, workspace := ws,
            data := Hy3NodeData.group (Hy3GroupData.new Hy3GroupLayout.Tabbed) } with hT
        set T0 : Hy3Node := { T with parent := none } with hT0
        have okT : StoreOK (h1.push_back T) := ok1.push_back T
        have wf0 : WellFormed (h1.push_back T0) := wf1.push_back_leaf ok1 T0 rfl rfl
        have hnode1 : node ≠ h1.next := fun e => by
          rw [e, parentOf_next ok1] at hx1; cases hx1
        have hroot : h.next ≠ h1.next := by rw [hn1]; omega
        have hgR : h1.get h.next = some R := by
          rw [hh1, get_push_back_of_ok ok, if_pos rfl]
        have hgRT : (h1.push_back T).get h.next = some R := by
          rw [get_push_back_of_ok ok1, if_neg hroot, hgR]
        refine ⟨?_, ?_, ?_⟩
        · refine okT.of_addrs ?_ (le_of_eq ?_)
          · rw [addrs_modifyGroup]
          · rfl
        · have hp0 : (h1.push_back T0).parentOf h1.next = some none := by
            rw [parentOf_push_back ok1, if_pos rfl]
          have hc0 : (h1.push_back T0).childrenOf h.next = [] := by
            rw [childrenOf_push_back ok1, if_neg hroot, childrenOf_of_get hgR]; rfl
          refine wf0.attach_proj hp0 (show List.Perm [h1.next] _ by rw [hc0]) (fun x => ?_) (fun x => ?_)
          · rw [parentOf_modifyGroup, parentOf_push_back ok1, parentOf_push_back ok1]
            by_cases hxt : x = h1.next
            · rw [if_pos hxt, if_pos hxt]
            · rw [if_neg hxt, if_neg hxt, if_neg hxt]
          · rw [childrenOf_modifyGroup]
            by_cases hxo : x = h.next
            · rw [if_pos hxo, if_pos hxo, hxo, group_of_get hgRT rfl]; rfl
            · rw [if_neg hxo, if_neg hxo, childrenOf_push_back ok1, childrenOf_push_back ok1]
        · rw [parentOf_modifyGroup, parentOf_push_back ok1, if_neg hnode1, hx1]
      · simp only [Option.some.injEq, Prod.mk.injEq] at e
        obtain ⟨rfl, _⟩ := e
        exact ⟨ok1, wf1, hx1⟩

theorem autotile_aux {h h3 : Hy3Layout} {a oi' : Nat} {oa' : Option Nat}
    {L : Hy3GroupLayout} {E : GroupEphemeralityOption}
    {node : Nat} (ok : StoreOK h) (wf : WellFormed h) (hx : h.parentOf node = some none)
    (e : (match intoGroup h a L E with
      | none => none
      | some (h1, a1) => some (h1, a, some a1)) = some (h3, oi', oa')) :
    StoreOK h3 ∧ WellFormed h3 ∧ h3.parentOf node = some none := by
  cases hi : intoGroup h a L E with
  | none => simp [hi] at e
  | some r =>
    obtain ⟨h2, c⟩ := r
    simp only [hi, Option.some.injEq, Prod.mk.injEq] at e
    obtain ⟨rfl, _⟩ := e
    obtain ⟨ok2, wf2, _⟩ := intoGroup_preserves ok wf hi
    exact ⟨ok2, wf2, intoGroup_root_frame ok wf hi hx⟩

theorem autotile_preserves {env : Env} {h h3 : Hy3Layout} {oi oi' : Nat} {oa oa' : Option Nat}
    {node : Nat} (ok : StoreOK h) (wf : WellFormed h) (hx : h.parentOf node = some none)
    (e : autotile env h oi oa = some (h3, oi', oa')) :
    StoreOK h3 ∧ WellFormed h3 ∧ h3.parentOf node = some none := by
  unfold autotile at e
  cases hn : h.get oi with
  | none => simp [hn] at e
  | some oin =>
    simp only [hn] at e
    cases hd : oin.data with
    | window w => simp [hd] at e
    | group tg =>
      simp only [hd] at e
      cases oa with
      | none =>
        simp only [Option.some.injEq, Prod.mk.injEq] at e
        obtain ⟨rfl, _⟩ := e
        exact ⟨ok, wf, hx⟩
      | some a =>
        simp only at e
        split_ifs at e <;>
          first
          | exact autotile_aux ok wf hx e
          | (simp only [Option.some.injEq, Prod.mk.injEq] at e
             obtain ⟨rfl, _⟩ := e
             exact ⟨ok, wf, hx⟩)

theorem insertNode_preserves {env : Env} {fuel : Nat} {h h' : Hy3Layout} {node : Nat}
    (ok : StoreOK h) (wf : WellFormed h) (e : insertNode env fuel h node = some h') :
    StoreOK h' ∧ WellFormed h' := by
  unfold insertNode at e
  cases hn : h.get node with
  | none => simp [hn] at e
  | some nn =>
    simp only [hn] at e
    split at e
    · cases e; exact ⟨ok, wf⟩
    · rename_i hpar
      split at e
      · cases e; exact ⟨ok, wf⟩
      · have hpn : nn.parent = none := not_not.mp hpar
        have hx : h.parentOf node = some none := by
          simp [Hy3Layout.parentOf, hn, hpn]
        have ok0 : StoreOK (h.modify node fun n => { n with reparenting := true }) :=
          ok.of_addrs (addrs_modify _ _ _) (le_refl _)
        have wf0 : WellFormed (h.modify node fun n => { n with reparenting := true }) :=
          wf.congr
            (fun a => parentOf_modify_of h node a (fun n => { n with reparenting := true })
              (by intro _; rfl))
            (fun a => childrenOf_modify_of h node a (fun n => { n with reparenting := true })
              (by intro _; rfl))
        have hx0 : (h.modify node fun n =>
            { n with reparenting := true }).parentOf node = some none := by
          rw [parentOf_modify_of h node node (fun n => { n with reparenting := true })
            (by intro _; rfl), hx]
        cases h1e : openingAfterFromRoot fuel
            (h.modify node fun n => { n with reparenting := true }) nn.workspace with
        | none => simp [h1e] at e
        | some r1 =>
          obtain ⟨h1, fr⟩ := r1
          simp only [h1e] at e
          obtain ⟨ok1, wf1, hx1⟩ := openingAfterFromRoot_preserves ok0 wf0 hx0 h1e
          split at e
          · cases e
          · rename_i oa1 hau
            split at e
            · cases e
            · cases e
            · rename_i h2 oi0 h2e
              obtain ⟨ok2, wf2, hx2⟩ := openingInto_preserves ok1 wf1 hx1 h2e
              split at e
              · cases e
              · rename_i oin hoin
                split at e
                · cases e; exact ⟨ok2, wf2⟩
                · split at e
                  · cases e
                  · rename_i h3 oi oa h3e
                    obtain ⟨ok3, wf3, hx3⟩ := autotile_preserves ok2 wf2 hx2 h3e
                    split at e
                    · cases e
                    · rename_i h5 h5e
                      obtain ⟨ok5, wf5⟩ := attach_preserves ok3 wf3 hx3 h5e
                      have s := markFocused_same e
                      exact ⟨s.storeOK ok5, s.wellFormed wf5⟩


/-! ## C4: well-formedness is preserved -/


/-- C4: tree well-formedness is preserved. In a store with distinct addresses where every node
with a non-null parent occurs exactly once in that parent's child list and every member of a
child list has that group as its parent, the same holds in the store left by each of
`intoGroup`, `swallowGroups`, `swapData`, `insertNode` and `removeFromParentRecursive`; after the
last one the detached node has a null parent and occurs in no child list. -/
theorem wellFormed_preserved (env : Env) (fuel : Nat) (h : Hy3Layout) (ok : StoreOK h)
    (wf : WellFormed h) :
    (∀ this layout ephemeral h' c,
        intoGroup h this layout ephemeral = some (h', c) → WellFormed h') ∧
      (∀ into h' b, swallowGroups h into = some (h', b) → WellFormed h') ∧
      (∀ a b h', swapData h a b = some h' → WellFormed h') ∧
      (∀ node h', insertNode env fuel h node = some h' → WellFormed h') ∧
      (∀ this r, removeFromParentRecursive fuel h this = some r →
        WellFormed r.layout ∧ r.layout.parentOf this = some none ∧
          ∀ g, this ∉ r.layout.childrenOf g) :=
  ⟨fun _ _ _ _ _ e => (intoGroup_preserves ok wf e).2.1,
    fun _ _ _ e => (swallowGroups_preserves ok wf e).2,
    fun _ _ _ e => (swapData_preserves ok wf e).2,
    fun _ _ e => (insertNode_preserves ok wf e).2,
    fun _ _ e => (removeFromParentRecursive_preserves ok wf e).2⟩

theorem wellFormed_preserved_witness :
    StoreOK exDetached ∧ WellFormed exDetached ∧
      (∃ h' c, intoGroup exDetached 2 Hy3GroupLayout.SplitH GroupEphemeralityOption.Standard
          = some (h', c) ∧ WellFormed h') ∧
      (∃ h', swallowGroups exDetached (some 0) = some (h', true) ∧ WellFormed h') ∧
      (∃ h', swapData exDetached 1 3 = some h' ∧ WellFormed h') ∧
      (∃ h', insertNode exEnv 5 exDetached 4 = some h' ∧ h'.parentOf 4 = some (some 1) ∧
        h'.childrenOf 1 = [2, 4, 3] ∧ WellFormed h') ∧
      (∃ r, removeFromParentRecursive 5 exDetached 3 = some r ∧ WellFormed r.layout ∧
        r.layout.parentOf 3 = some none ∧ ∀ g, 3 ∉ r.layout.childrenOf g) := by
  have ok : StoreOK exDetached := by unfold StoreOK; decide
  have wf : WellFormed exDetached := wellFormed_of_check (by decide)
  have T := wellFormed_preserved exEnv 5 exDetached ok wf
  have e1 : ∃ h' c, intoGroup exDetached 2 Hy3GroupLayout.SplitH
      GroupEphemeralityOption.Standard = some (h', c) := ⟨_, _, rfl⟩
  have e2 : ∃ h', swallowGroups exDetached (some 0) = some (h', true) := ⟨_, rfl⟩
  have e3 : ∃ h', swapData exDetached 1 3 = some h' := ⟨_, rfl⟩
  have e4 : ∃ h', insertNode exEnv 5 exDetached 4 = some h' ∧
      h'.parentOf 4 = some (some 1) ∧ h'.childrenOf 1 = [2, 4, 3] := ⟨_, rfl, rfl, rfl⟩
  have e5 : ∃ r, removeFromParentRecursive 5 exDetached 3 = some r := ⟨_, rfl⟩
  obtain ⟨h1, c1, e1⟩ := e1
  obtain ⟨h2, e2⟩ := e2
  obtain ⟨h3, e3⟩ := e3
  obtain ⟨h4, e4, p4, c4⟩ := e4
  obtain ⟨r5, e5⟩ := e5
  exact ⟨ok, wf, ⟨h1, c1, e1, T.1 _ _ _ _ _ e1⟩, ⟨h2, e2, T.2.1 _ _ _ e2⟩,
    ⟨h3, e3, T.2.2.1 _ _ _ e3⟩, ⟨h4, e4, p4, c4, T.2.2.2.1 _ _ e4⟩,
    ⟨r5, e5, T.2.2.2.2 _ _ e5⟩⟩


/-! ## A parentless group stays out of every child list -/


theorem RootKept.modify {r : Nat} {h : Hy3Layout} (k : RootKept r h) (x : Nat)
    (f : Hy3Node → Hy3Node)
    (hf : ∀ n, h.get x = some n → r ∉ n.data.children →
      r ∉ (f n).data.children ∧
        (x = r → n.data.type = Hy3NodeType.Group → n.parent = none →
          (f n).data.type = Hy3NodeType.Group ∧ (f n).parent = none)) :
    RootKept r (h.modify x f) := by
  refine ⟨k.lt, fun a ha => ?_, fun n hn => ?_, fun a g hg => ?_⟩
  · exact get_modify_none f (k.fresh a ha)
  · rw [get_modify] at hn
    by_cases hx : r = x
    · rw [if_pos hx] at hn
      cases hm : h.get r with
      | none => simp [hm] at hn
      | some m =>
        simp only [hm, Option.map_some', Option.some.injEq] at hn
        subst hn
        have hmx : h.get x = some m := hx ▸ hm
        have := (hf m hmx (k.nochild x m hmx)).2 hx.symm (k.root m hm).1 (k.root m hm).2
        exact this
    · rw [if_neg hx] at hn
      exact k.root n hn
  · rw [get_modify] at hg
    by_cases hx : a = x
    · rw [if_pos hx] at hg
      cases hm : h.get a with
      | none => simp [hm] at hg
      | some m =>
        simp only [hm, Option.map_some', Option.some.injEq] at hg
        subst hg
        have hmx : h.get x = some m := hx ▸ hm
        exact (hf m hmx (k.nochild x m hmx)).1
    · rw [if_neg hx] at hg
      exact k.nochild a g hg

theorem RootKept.kept_modifyGroup {r : Nat} {h : Hy3Layout} (k : RootKept r h) (x : Nat)
    (f : Hy3GroupData → Hy3GroupData)
    (hf : ∀ g, h.group x = some g → r ∉ g.children → r ∉ (f g).children) :
    RootKept r (h.modifyGroup x f) := by
  rw [modifyGroup_eq]
  refine k.modify x _ (fun n hn hc => ?_)
  cases hd : n.data with
  | window w =>
    rw [Hy3Node.mapGroup_window hd]
    refine ⟨by simp, fun _ ht _ => ?_⟩
    cases ht
  | group g =>
    rw [Hy3Node.mapGroup_group hd]
    refine ⟨?_, fun _ _ hp => ⟨rfl, by simpa using hp⟩⟩
    rw [hd] at hc
    exact hf g (group_of_get hn hd) hc

theorem RootKept.kept_remove {r : Nat} {h : Hy3Layout} (k : RootKept r h) (x : Nat) :
    RootKept r (h.remove x) := by
  refine ⟨k.lt, fun a ha => ?_, fun n hn => ?_, fun a g hg => ?_⟩
  · rw [get_remove, k.fresh a ha]
    simp
  · rw [get_remove] at hn
    split at hn
    · cases hn
    · exact k.root n hn
  · rw [get_remove] at hg
    split at hg
    · cases hg
    · exact k.nochild a g hg

theorem RootKept.kept_push_back {r : Nat} {h : Hy3Layout} (k : RootKept r h) (n : Hy3Node)
    (hn : r ∉ n.data.children) : RootKept r (h.push_back n) := by
  refine ⟨Nat.lt_succ_of_lt k.lt, fun a ha => ?_, fun m hm => ?_, fun a g hg => ?_⟩
  · have ha1 : h.next + 1 ≤ a := ha
    rw [get_push_back, k.fresh a (by omega)]
    simp only
    rw [if_neg (by omega)]
  · rw [get_push_back] at hm
    cases hr : h.get r with
    | none =>
      simp only [hr] at hm
      rw [if_neg (Nat.ne_of_lt k.lt)] at hm
      cases hm
    | some m' =>
      simp only [hr, Option.some.injEq] at hm
      subst hm
      exact k.root _ hr
  · rw [get_push_back] at hg
    cases ha : h.get a with
    | none =>
      simp only [ha] at hg
      split at hg
      · cases hg
        exact hn
      · cases hg
    | some m' =>
      simp only [ha, Option.some.injEq] at hg
      subst hg
      exact k.nochild _ _ ha

theorem RootKept.of_sameButFocus {r : Nat} {h h' : Hy3Layout} (k : RootKept r h)
    (s : SameButFocus h h') : RootKept r h' := by
  refine ⟨s.1 ▸ k.lt, fun a ha => ?_, fun n hn => ?_, fun a g hg => ?_⟩
  · have := s.2.2 a
    rw [k.fresh a (s.1 ▸ ha)] at this
    cases hq : h'.get a with
    | none => rfl
    | some q => simp [hq] at this
  · obtain ⟨m, hm, e⟩ := s.symm.focus_get hn
    have q := mapGroup_noFocus_eq e
    have := k.root m hm
    exact ⟨by rw [← q.2.2.2.2.2.2]; exact this.1, by rw [← q.2.1]; exact this.2⟩
  · obtain ⟨m, hm, e⟩ := s.symm.focus_get hg
    have q := mapGroup_noFocus_eq e
    rw [← q.2.2.2.2.2.1]
    exact k.nochild a m hm

theorem collapseStack_rootKept {r : Nat} : ∀ (fuel : Nat) (h : Hy3Layout) (a : Option Nat)
    (h' : Hy3Layout), RootKept r h → collapseStack fuel h a = some h' → RootKept r h'
  | 0, _, _, _, _, e => by simp [collapseStack] at e
  | _ + 1, _, none, _, _, e => by simp [collapseStack] at e
  | fuel + 1, h, some a, h', k, e => by
    unfold collapseStack at e
    cases hn : h.get a with
    | none => simp [hn] at e
    | some n =>
      simp only [hn] at e
      cases hd : n.data with
      | window w =>
        simp only [hd, Option.some.injEq] at e
        exact e ▸ k
      | group g =>
        simp only [hd] at e
        split at e
        · refine collapseStack_rootKept fuel _ _ _ ?_ e
          exact k.kept_modifyGroup a _ (fun _ _ hc => hc)
        · simp only [Option.some.injEq] at e
          exact e ▸ k

theorem collapseExpansions_rootKept {r : Nat} {fuel : Nat} {h h' : Hy3Layout} {a : Nat}
    (k : RootKept r h) (e : collapseExpansions fuel h a = some h') : RootKept r h' := by
  unfold collapseExpansions at e
  cases hg : h.group a with
  | none => simp [hg] at e
  | some g =>
    simp only [hg] at e
    split at e
    · simp only [Option.some.injEq] at e
      exact e ▸ k
    · refine collapseStack_rootKept fuel _ _ _ ?_ e
      exact k.kept_modifyGroup a _ (fun _ _ hc => hc)

theorem removePrelude_rootKept {r : Nat} {fuel : Nat} {h h' : Hy3Layout} {this : Nat}
    {actor : Option Nat} (k : RootKept r h) (e : removePrelude fuel h this = some (h', actor)) :
    RootKept r h' := by
  unfold removePrelude at e
  cases hn : h.get this with
  | none => simp [hn] at e
  | some tn =>
    simp only [hn] at e
    cases hp : tn.parent with
    | none =>
      simp only [hp, Option.some.injEq, Prod.mk.injEq] at e
      exact e.1 ▸ k
    | some p =>
      simp only [hp] at e
      cases ha : getExpandActor fuel h this with
      | none => simp [ha] at e
      | some act =>
        simp only [ha] at e
        cases han : h.get act with
        | none => simp [han] at e
        | some an =>
          simp only [han] at e
          cases hd : an.data with
          | window w =>
            simp only [hd, Option.some.injEq, Prod.mk.injEq] at e
            exact e.1 ▸ k
          | group g =>
            simp only [hd] at e
            cases hc : collapseExpansions fuel h act with
            | none => simp [hc] at e
            | some h1 =>
              simp only [hc, Option.some.injEq, Prod.mk.injEq] at e
              exact e.1 ▸ collapseExpansions_rootKept k hc

theorem addRatioAll_rootKept {r : Nat} {d : ℚ} : ∀ (cs : List Nat) (h h' : Hy3Layout),
    RootKept r h → addRatioAll h cs d = some h' → RootKept r h'
  | [], h, h', k, e => by
    simp only [addRatioAll, Option.some.injEq] at e
    exact e ▸ k
  | c :: cs, h, h', k, e => by
    unfold addRatioAll at e
    cases hc : h.get c with
    | none => simp [hc] at e
    | some n =>
      simp only [hc] at e
      refine addRatioAll_rootKept cs _ _ ?_ e
      exact k.modify c _ (fun n _ hcn => ⟨hcn, fun _ ht hp => ⟨ht, hp⟩⟩)

theorem focusBeforeRemove_rootKept {r : Nat} {h : Hy3Layout} (k : RootKept r h)
    (p : Nat) (cs : List Nat) (c : Nat) : RootKept r (focusBeforeRemove h p cs c) := by
  unfold focusBeforeRemove
  split
  · exact k.kept_modifyGroup p _ (fun _ _ hc => hc)
  · exact k

theorem removeLoop_rootKept {r this : Nat} : ∀ (fuel : Nat) (h : Hy3Layout) (parent : Nat)
    (h' : Hy3Layout) (ret : Option Nat), RootKept r h →
    removeLoop this fuel h parent = some (h', ret) → RootKept r h'
  | 0, _, _, _, _, _, e => by simp [removeLoop] at e
  | fuel + 1, h, parent, h', ret, k, e => by
    unfold removeLoop at e
    cases hn : h.get parent with
    | none => simp [hn] at e
    | some pn =>
      simp only [hn] at e
      cases hp : pn.parent with
      | none =>
        simp only [hp, Option.some.injEq, Prod.mk.injEq] at e
        rw [← e.1]
        split
        · exact k.kept_remove parent
        · exact k
      | some gp =>
        simp only [hp] at e
        cases hg : h.group gp with
        | none => simp [hg] at e
        | some group =>
          simp only [hg] at e
          have k1 := focusBeforeRemove_rootKept k gp group.children parent
          split at e
          · simp only [Option.some.injEq, Prod.mk.injEq] at e
            exact e.1 ▸ k1
          · have k2 : RootKept r ((focusBeforeRemove h gp group.children parent).modifyGroup gp
                fun g =>
                { g with
                  children := group.children.filter fun c => c ≠ parent
                  group_focused := false
                  focused_child :=
                    if (group.children.filter fun c => c ≠ parent).length = 1 then
                      (group.children.filter fun c => c ≠ parent).head?
                    else g.focused_child }) := by
              refine k1.kept_modifyGroup gp _ (fun g hg1 hc => ?_)
              have hgr : r ∉ group.children := by
                obtain ⟨n, hn1, hd1⟩ := group_eq_some hg
                have := k.nochild gp n hn1
                rwa [hd1] at this
              intro hm
              exact hgr (List.mem_of_mem_filter hm)
            split at e
            · cases e
            · rename_i cn hcn
              have k3 : RootKept r (if parent ≠ this then
                  ((focusBeforeRemove h gp group.children parent).modifyGroup gp
                    fun g =>
                    { g with
                      children := group.children.filter fun c => c ≠ parent
                      group_focused := false
                      focused_child :=
                        if (group.children.filter fun c => c ≠ parent).length = 1 then
                          (group.children.filter fun c => c ≠ parent).head?
                        else g.focused_child }).remove parent
                  else ((focusBeforeRemove h gp group.children parent).modifyGroup gp
                    fun g =>
                    { g with
                      children := group.children.filter fun c => c ≠ parent
                      group_focused := false
                      focused_child :=
                        if (group.children.filter fun c => c ≠ parent).length = 1 then
                          (group.children.filter fun c => c ≠ parent).head?
                        else g.focused_child }).modify parent
                          fun n => { n with parent := none }) := by
                split
                · exact k2.kept_remove parent
                · exact k2.modify parent _ (fun n _ hcn => ⟨hcn, fun _ ht _ => ⟨ht, rfl⟩⟩)
              split at e
              · split at e
                · cases e
                · rename_i h4 h4e
                  simp only [Option.some.injEq, Prod.mk.injEq] at e
                  rw [← e.1]
                  exact (addRatioAll_rootKept _ _ _ k3 h4e).modify this _
                    (fun n _ hcn => ⟨hcn, fun _ ht _ => ⟨ht, rfl⟩⟩)
              · exact removeLoop_rootKept fuel _ gp h' ret k3 e

theorem removeFromParentRecursive_rootKept {r : Nat} {fuel : Nat} {h : Hy3Layout} {this : Nat}
    {res : RemoveResult} (k : RootKept r h)
    (e : removeFromParentRecursive fuel h this = some res) : RootKept r res.layout := by
  unfold removeFromParentRecursive at e
  cases hp : removePrelude fuel h this with
  | none => simp [hp] at e
  | some p =>
    obtain ⟨h1, actor⟩ := p
    simp only [hp] at e
    cases hl : removeLoop this fuel h1 this with
    | none => simp [hl] at e
    | some q =>
      obtain ⟨h2, ret⟩ := q
      simp only [hl, Option.some.injEq] at e
      subst e
      exact removeLoop_rootKept fuel _ _ _ _ (removePrelude_rootKept k hp) hl


/-! ## Swapping, swallowing and window removal keep the root -/


theorem setParentAll_rootKept {r p : Nat} : ∀ (cs : List Nat) (h h' : Hy3Layout),
    r ∉ cs → RootKept r h → setParentAll h p cs = some h' → RootKept r h'
  | [], h, h', _, k, e => by
    simp only [setParentAll, Option.some.injEq] at e
    exact e ▸ k
  | c :: cs, h, h', hr, k, e => by
    unfold setParentAll at e
    cases hc : h.get c with
    | none => simp [hc] at e
    | some n =>
      simp only [hc] at e
      have hrc : c ≠ r := fun e => hr (by simp [e])
      refine setParentAll_rootKept cs _ _ (fun hm => hr (List.mem_cons_of_mem _ hm)) ?_ e
      exact k.modify c _ (fun n _ hcn => ⟨hcn, fun hx _ _ => absurd hx hrc⟩)

theorem fixParents_rootKept {r x : Nat} {d : Hy3NodeData} {h h' : Hy3Layout}
    (hr : r ∉ d.children) (k : RootKept r h) (e : fixParents h x d = some h') :
    RootKept r h' := by
  unfold fixParents at e
  cases d with
  | window w =>
    simp only [Option.some.injEq] at e
    exact e ▸ k
  | group g => exact setParentAll_rootKept g.children _ _ hr k e

theorem swapData_rootKept {r a b : Nat} {h h' : Hy3Layout} (k : RootKept r h)
    (e : swapData h a b = some h')
    (hab : ∀ na nb, h.get a = some na → h.get b = some nb →
      (a = r → nb.data.type = Hy3NodeType.Group) ∧ (b = r → na.data.type = Hy3NodeType.Group)) :
    RootKept r h' := by
  unfold swapData at e
  cases ha : h.get a with
  | none => simp [ha] at e
  | some na =>
    cases hb : h.get b with
    | none => simp [ha, hb] at e
    | some nb =>
      simp only [ha, hb] at e
      have hra : r ∉ na.data.children := k.nochild a na ha
      have hrb : r ∉ nb.data.children := k.nochild b nb hb
      obtain ⟨t1, t2⟩ := hab na nb ha hb
      split at e
      · split at e
        · simp only [Option.some.injEq] at e
          exact e ▸ k
        · cases e
      · have k1 : RootKept r (h.modify a fun n => { n with data := nb.data.moved }) :=
          k.modify a _ (fun n _ _ =>
            ⟨by simpa using hrb, fun hx _ hp => ⟨by simpa using t1 hx, hp⟩⟩)
        have k2 : RootKept r ((h.modify a fun n => { n with data := nb.data.moved }).modify b
            fun n => { n with data := na.data.moved.moved }) :=
          k1.modify b _ (fun n _ _ =>
            ⟨by simpa using hra, fun hx _ hp => ⟨by simpa using t2 hx, hp⟩⟩)
        split at e
        · cases e
        · rename_i h3 h3e
          exact fixParents_rootKept (by simpa using hra)
            (fixParents_rootKept (by simpa using hrb) k2 h3e) e

theorem swallowGroups_rootKept {r : Nat} {h h' : Hy3Layout} {into : Option Nat} {b : Bool}
    (k : RootKept r h) (e : swallowGroups h into = some (h', b)) : RootKept r h' := by
  rcases swallowGroups_cases e with ⟨_, rfl⟩ | ⟨_, i, n, g, child, cn, h1, _, hn, hd, hc, hcn,
    hguard, hs, rfl⟩
  · exact k
  · refine (swapData_rootKept k hs (fun na nb ha hb => ⟨fun hi => ?_, fun _ => ?_⟩)).kept_remove child
    · rw [hcn] at hb
      cases hb
      rcases hguard with hp | ht
      · rw [hi] at hn
        exact absurd (k.root n hn).2 hp
      · exact ht
    · rw [hn] at ha
      cases ha
      rw [hd]; rfl

theorem swallowLoop_rootKept {r : Nat} : ∀ (fuel : Nat) (h : Hy3Layout) (tp : Option Nat)
    (h' : Hy3Layout), RootKept r h → swallowLoop fuel h tp = some h' → RootKept r h'
  | 0, _, _, _, _, e => by simp [swallowLoop] at e
  | _ + 1, h, none, h', k, e => by
    simp only [swallowLoop, Option.some.injEq] at e
    exact e ▸ k
  | fuel + 1, h, some tp, h', k, e => by
    unfold swallowLoop at e
    cases hs : swallowGroups h (some tp) with
    | none => simp [hs] at e
    | some q =>
      obtain ⟨h1, b⟩ := q
      have k1 := swallowGroups_rootKept k hs
      cases b with
      | false =>
        simp only [hs, Option.some.injEq] at e
        exact e ▸ k1
      | true =>
        simp only [hs] at e
        cases ht : h1.get tp with
        | none => simp [ht] at e
        | some tn =>
          simp only [ht] at e
          exact swallowLoop_rootKept fuel _ _ _ k1 e

theorem onWindowRemovedTiling_rootKept {r : Nat} {env : Env} {fuel : Nat} {h h' : Hy3Layout}
    {window : Nat} (k : RootKept r h) (e : onWindowRemovedTiling env fuel h window = some h') :
    RootKept r h' := by
  unfold onWindowRemovedTiling at e
  cases hw : getNodeFromWindow h (some window) with
  | none =>
    simp only [hw, Option.some.injEq] at e
    exact e ▸ k
  | some node =>
    simp only [hw] at e
    cases hr : removeFromParentRecursive fuel h node with
    | none => simp [hr] at e
    | some res =>
      simp only [hr] at e
      have k1 : RootKept r (res.layout.remove node) :=
        (removeFromParentRecursive_rootKept k hr).kept_remove node
      cases hret : res.ret with
      | none =>
        simp only [hret, Option.some.injEq] at e
        exact e ▸ k1
      | some parent =>
        simp only [hret] at e
        cases hg : (res.layout.remove node).group parent with
        | none => simp [hg] at e
        | some group =>
          simp only [hg] at e
          split at e
          · split at e
            · cases e
            · exact swallowLoop_rootKept fuel _ _ _ k1 e
            · simp only [Option.some.injEq] at e
              exact e ▸ k1
          · simp only [Option.some.injEq] at e
            exact e ▸ k1


/-! ## Shifting keeps the root -/


theorem breakLoop_rootKept {r node : Nat} {direction : ShiftDirection}
    {shift once visible : Bool} : ∀ (fuel : Nat) (h : Hy3Layout) (origin : Nat)
    (parent : Option Nat) (hbo : Bool) (h' : Hy3Layout) (o p : Nat) (b : Bool),
    RootKept r h →
    breakLoop node direction shift once visible fuel h origin parent hbo
      = some (some (h', o, p, b)) → RootKept r h'
  | 0, _, _, _, _, _, _, _, _, _, e => by simp [breakLoop] at e
  | _ + 1, _, _, none, _, _, _, _, _, _, e => by simp [breakLoop] at e
  | fuel + 1, h, origin, some bp, hbo, h', o, p, b, k, e => by
    unfold breakLoop at e
    cases hn : h.get bp with
    | none => simp [hn] at e
    | some pn =>
      simp only [hn] at e
      cases hd : pn.data with
      | window w => simp [hd] at e
      | group group =>
        simp only [hd] at e
        split at e
        · cases e
        · simp only [Option.some.injEq, Prod.mk.injEq] at e
          exact e.1 ▸ k
        · split at e
          · split at e
            · cases e
            · split at e
              · simp only [Option.some.injEq, Prod.mk.injEq] at e
                exact e.1 ▸ k
              · split at e
                · simp only [Option.some.injEq, Prod.mk.injEq] at e
                  rw [← e.1]
                  exact k.kept_modifyGroup bp _ (fun _ _ hc => hc)
                · split at e
                  · cases e
                  · rename_i h2 h2e
                    simp only [Option.some.injEq, Prod.mk.injEq] at e
                    rw [← e.1]
                    have k1 := k.kept_push_back
                      { addr := h.next, parent := some bp,
                        data := Hy3NodeData.group (Hy3GroupData.new
                          (if shiftIsVertical direction then Hy3GroupLayout.SplitV
                           else Hy3GroupLayout.SplitH)),
                        workspace := pn.workspace } (by simp)
                    have hne : h.next ≠ r := Nat.ne_of_gt k.lt
                    have k2 := swapData_rootKept k1 h2e (fun na nb ha hb => by
                      rw [get_push_back, hn] at ha
                      simp only [Option.some.injEq] at ha
                      rw [get_push_back, k.fresh _ (le_refl _)] at hb
                      simp only [if_true, Option.some.injEq] at hb
                      refine ⟨fun _ => ?_, fun _ => ?_⟩
                      · rw [← hb]; rfl
                      · rw [← ha, hd]; rfl)
                    refine k2.kept_modifyGroup bp _ (fun g _ hc => ?_)
                    simp only [List.mem_append, List.mem_singleton, not_or]
                    exact ⟨hc, Ne.symm hne⟩
          · exact breakLoop_rootKept fuel h bp _ _ h' o p b k e

theorem mem_reorderChild {cs : List Nat} {node insert : Nat} {res : List Nat}
    (e : reorderChild cs node insert = some res) {x : Nat} (hx : x ∈ res) : x ∈ cs := by
  unfold reorderChild at e
  split at e
  · rename_i hnode
    simp only [Option.some.injEq] at e
    subst e
    simp only [List.mem_filterMap, id_eq, exists_eq_right, List.mem_append, List.mem_cons,
      Option.some.injEq] at hx
    have sub : ∀ l : List (Option Nat), some x ∈ l →
        l.Sublist ((cs.map some).set (cs.indexOf node) none) → x ∈ cs := by
      intro l hm hl
      have h1 := hl.subset hm
      have h2 := List.mem_or_eq_of_mem_set h1
      rcases h2 with h2 | h2
      · simpa using h2
      · cases h2
    rcases hx with hx | hx | hx
    · exact sub _ hx (List.take_sublist _ _)
    · exact hx ▸ hnode
    · exact sub _ hx (List.drop_sublist _ _)
  · cases e

theorem applyShift_rootKept {r : Nat} {fuel : Nat} {h h' : Hy3Layout} {node target insert : Nat}
    (k : RootKept r h) (hnr : node ≠ r) (e : applyShift fuel h node target insert = some h') :
    RootKept r h' := by
  unfold applyShift at e
  cases hn : h.get node with
  | none => simp [hn] at e
  | some nn =>
    cases hg : h.group target with
    | none => simp [hn, hg] at e
    | some gd =>
      simp only [hn, hg] at e
      have hrg : r ∉ gd.children := by
        obtain ⟨n, hn1, hd1⟩ := group_eq_some hg
        have := k.nochild target n hn1
        rwa [hd1] at this
      split at e
      · split at e
        · cases e
        · rename_i cs hcs
          simp only [Option.some.injEq] at e
          rw [← e]
          exact k.kept_modifyGroup target _ (fun _ _ _ hm => hrg (mem_reorderChild hcs hm))
      · have k1 : RootKept r (h.modifyGroup target fun g =>
            { g with children := insertAt g.children insert node }) := by
          refine k.kept_modifyGroup target _ (fun g _ hc hm => ?_)
          simp only [insertAt, List.mem_append, List.mem_cons] at hm
          rcases hm with hm | hm | hm
          · exact hc (List.mem_of_mem_take hm)
          · exact hnr hm.symm
          · exact hc (List.mem_of_mem_drop hm)
        split at e
        · cases e
        · rename_i res hres
          have k2 : RootKept r (res.layout.modify node fun n =>
              { n with parent := some target, size_ratio := 1 }) :=
            (removeFromParentRecursive_rootKept k1 hres).modify node _
              (fun n _ hcn => ⟨hcn, fun hx _ _ => absurd hx hnr⟩)
          split at e
          · cases e
          · rename_i h3 h3e
            have k3 : RootKept r h3 := by
              split at h3e
              · simp only [Option.some.injEq] at h3e
                exact h3e ▸ k2
              · split at h3e
                · cases h3e
                · split at h3e
                  · cases h3e
                  · split at h3e
                    · split at h3e
                      · cases h3e
                      · simp only [Option.some.injEq] at h3e
                        exact h3e ▸ k2
                      · obtain ⟨q, hq, hq2⟩ := Option.map_eq_some'.mp h3e
                        obtain ⟨h5, b5⟩ := q
                        simp only at hq2
                        rw [← hq2]
                        exact swallowGroups_rootKept k2 hq
                    · simp only [Option.some.injEq] at h3e
                      exact h3e ▸ k2
            split at e
            · cases e
            · split at e
              · cases e
              · rename_i h4 h4e
                exact (swallowLoop_rootKept fuel _ _ _ k3 h4e).of_sameButFocus
                  (markFocused_same e)

theorem shiftOrGetFocus_rootKept {r : Nat} {fuel : Nat} {h h' : Hy3Layout} {node : Nat}
    {direction : ShiftDirection} {shift once visible : Bool} {ret : Option Nat}
    (k : RootKept r h)
    (e : shiftOrGetFocus fuel h node direction shift once visible = some (h', ret)) :
    RootKept r h' := by
  unfold shiftOrGetFocus at e
  cases ha : getExpandActor fuel h node with
  | none => simp [ha] at e
  | some bo =>
    simp only [ha] at e
    cases hb : h.get bo with
    | none => simp [hb] at e
    | some bn =>
      simp only [hb] at e
      cases hl : breakLoop node direction shift once visible fuel h bo bn.parent false with
      | none => simp [hl] at e
      | some q =>
        cases q with
        | none =>
          simp only [hl, Option.some.injEq, Prod.mk.injEq] at e
          exact e.1 ▸ k
        | some t =>
          obtain ⟨h1, origin, parent, hbo⟩ := t
          simp only [hl] at e
          have k1 := breakLoop_rootKept fuel h bo bn.parent false h1 origin parent hbo k hl
          have hnr : node ≠ r := by
            intro hnr
            subst hnr
            cases fuel with
            | zero => simp [getExpandActor] at ha
            | succ f =>
              unfold getExpandActor at ha
              cases hn : h.get node with
              | none => simp [hn] at ha
              | some n =>
                have hp := (k.root n hn).2
                simp only [hn, hp, Option.some.injEq] at ha
                subst ha
                rw [hn] at hb
                cases hb
                rw [hp] at hl
                simp [breakLoop] at hl
          split at e
          · cases e
          · simp only [Option.some.injEq, Prod.mk.injEq] at e
            exact e.1 ▸ k1
          · rename_i tg ins hres
            cases hs : applyShift fuel h1 node tg ins with
            | none => simp [hs] at e
            | some h2 =>
              simp only [hs, Option.map_some', Option.some.injEq, Prod.mk.injEq] at e
              exact e.1 ▸ applyShift_rootKept k1 hnr hs

theorem shiftNode_rootKept {r : Nat} {fuel : Nat} {h h' : Hy3Layout} {node : Nat}
    {direction : ShiftDirection} {once visible : Bool} (k : RootKept r h)
    (e : shiftNode fuel h node direction once visible = some h') : RootKept r h' := by
  have viaShift : ∀ h2, (shiftOrGetFocus fuel h node direction true once visible).map Prod.fst
      = some h2 → RootKept r h2 := by
    intro h2 e2
    cases hs : shiftOrGetFocus fuel h node direction true once visible with
    | none => simp [hs] at e2
    | some q =>
      obtain ⟨h3, ret⟩ := q
      simp only [hs, Option.map_some', Option.some.injEq] at e2
      exact e2 ▸ shiftOrGetFocus_rootKept k hs
  unfold shiftNode at e
  cases hn : h.get node with
  | none => simp [hn] at e
  | some nn =>
    simp only [hn] at e
    split at e
    · cases hp : nn.parent with
      | none =>
        simp only [hp] at e
        exact viaShift _ e
      | some p =>
        simp only [hp] at e
        cases hpn : h.get p with
        | none => simp [hpn] at e
        | some pn =>
          simp only [hpn] at e
          cases hd : pn.data with
          | window w => simp [hd] at e
          | group pg =>
            simp only [hd] at e
            split at e
            · cases hpp : pn.parent with
              | none =>
                simp only [hpp, Option.some.injEq] at e
                rw [← e]
                exact k.kept_modifyGroup p _ (fun _ _ hc => hc)
              | some gp =>
                simp only [hpp] at e
                cases hs : swapData h node p with
                | none => simp [hs] at e
                | some h1 =>
                  simp only [hs, Option.some.injEq] at e
                  rw [← e]
                  refine (swapData_rootKept k hs (fun na nb ha hb => ⟨fun hx => ?_, fun hx => ?_⟩)).kept_remove node
                  · subst hx
                    have := (k.root nn hn).2
                    rw [hp] at this
                    cases this
                  · subst hx
                    have := (k.root pn hpn).2
                    rw [hpp] at this
                    cases this
            · exact viaShift _ e
    · exact viaShift _ e


/-! ## C10: a workspace root is always a group -/


theorem rootKept_of_wellFormed {h : Hy3Layout} {r : Nat} {n : Hy3Node} (ok : StoreOK h)
    (wf : WellFormed h) (hr : h.get r = some n) (hg : n.data.type = Hy3NodeType.Group)
    (hp : n.parent = none) : RootKept r h := by
  refine ⟨ok.lt_next hr, fun a ha => ok.get_ge ha, fun m hm => ?_, fun a g hga hm => ?_⟩
  · rw [hr] at hm
    cases hm
    exact ⟨hg, hp⟩
  · obtain ⟨cn, hcn, hpar⟩ := wf.2 a g r hga hm
    rw [hr] at hcn
    cases hcn
    rw [hp] at hpar
    cases hpar

/-- C10: a workspace root is always a Group. For a parentless Group `r` of a well-formed store,
in the store left by `swallowGroups(r)`, by `onWindowRemovedTiling` of any window, and by
`shiftNode` or `shiftOrGetFocus` on any node, the node `r`, if it is still in the store, is
still of type Group. -/
theorem root_stays_group (env : Env) (fuel : Nat) (h : Hy3Layout) (r : Nat) (n : Hy3Node)
    (ok : StoreOK h) (wf : WellFormed h) (hr : h.get r = some n)
    (hg : n.data.type = Hy3NodeType.Group) (hp : n.parent = none) :
    (∀ h' b, swallowGroups h (some r) = some (h', b) →
        ∀ m, h'.get r = some m → m.data.type = Hy3NodeType.Group) ∧
      (∀ window h', onWindowRemovedTiling env fuel h window = some h' →
        ∀ m, h'.get r = some m → m.data.type = Hy3NodeType.Group) ∧
      (∀ node direction once visible h',
        shiftNode fuel h node direction once visible = some h' →
        ∀ m, h'.get r = some m → m.data.type = Hy3NodeType.Group) ∧
      (∀ node direction shift once visible h' ret,
        shiftOrGetFocus fuel h node direction shift once visible = some (h', ret) →
        ∀ m, h'.get r = some m → m.data.type = Hy3NodeType.Group) :=
  have k := rootKept_of_wellFormed ok wf hr hg hp
  ⟨fun _ _ e m hm => ((swallowGroups_rootKept k e).root m hm).1,
    fun _ _ e m hm => ((onWindowRemovedTiling_rootKept k e).root m hm).1,
    fun _ _ _ _ _ e m hm => ((shiftNode_rootKept k e).root m hm).1,
    fun _ _ _ _ _ _ _ e m hm => ((shiftOrGetFocus_rootKept k e).root m hm).1⟩

theorem root_stays_group_witness :
    (∃ h' m, swallowGroups exEphemeral (some 0) = some (h', true) ∧ h'.get 0 = some m ∧
        m.data.type = Hy3NodeType.Group ∧ h'.childrenOf 0 = [2, 3]) ∧
      (∃ h' m, onWindowRemovedTiling exEnv 5 exEphemeral 102 = some h' ∧
        h'.get 0 = some m ∧ m.data.type = Hy3NodeType.Group ∧ h'.childrenOf 0 = [1] ∧
        (h'.get 1).map (fun x => x.data) = some (Hy3NodeData.window (some 101))) ∧
      (∃ h' m, shiftNode 5 exEphemeral 3 ShiftDirection.Left false false = some h' ∧
        h'.get 0 = some m ∧ m.data.type = Hy3NodeType.Group ∧ h'.childrenOf 0 = [3, 1]) ∧
      (∃ h' m, shiftOrGetFocus 5 exEphemeral 2 ShiftDirection.Up true true false
          = some (h', none) ∧
        h'.get 0 = some m ∧ m.data.type = Hy3NodeType.Group) := by
  have ok : StoreOK exEphemeral := by unfold StoreOK; decide
  have wf : WellFormed exEphemeral := wellFormed_of_check (by decide)
  have hr : exEphemeral.get 0 = some
      { addr := 0, workspace := some 0,
        data := Hy3NodeData.group
          { children := [1], group_focused := false, focused_child := some 1 } } := rfl
  have T := root_stays_group exEnv 5 exEphemeral 0 _ ok wf hr rfl rfl
  have e1 : ∃ h', swallowGroups exEphemeral (some 0) = some (h', true) ∧
      (h'.get 0).isSome ∧ h'.childrenOf 0 = [2, 3] := ⟨_, rfl, rfl, rfl⟩
  have e2 : ∃ h', onWindowRemovedTiling exEnv 5 exEphemeral 102 = some h' ∧
      (h'.get 0).isSome ∧ h'.childrenOf 0 = [1] ∧
      (h'.get 1).map (fun x => x.data) = some (Hy3NodeData.window (some 101)) :=
    ⟨_, rfl, rfl, rfl, rfl⟩
  have e3 : ∃ h', shiftNode 5 exEphemeral 3 ShiftDirection.Left false false = some h' ∧
      (h'.get 0).isSome ∧ h'.childrenOf 0 = [3, 1] := ⟨_, rfl, rfl, rfl⟩
  have e4 : ∃ h', shiftOrGetFocus 5 exEphemeral 2 ShiftDirection.Up true true false
      = some (h', none) ∧ (h'.get 0).isSome := ⟨_, rfl, rfl⟩
  obtain ⟨h1, e1, s1, c1⟩ := e1
  obtain ⟨h2, e2, s2, c2, d2⟩ := e2
  obtain ⟨h3, e3, s3, c3⟩ := e3
  obtain ⟨h4, e4, s4⟩ := e4
  obtain ⟨m1, g1⟩ := Option.isSome_iff_exists.mp s1
  obtain ⟨m2, g2⟩ := Option.isSome_iff_exists.mp s2
  obtain ⟨m3, g3⟩ := Option.isSome_iff_exists.mp s3
  obtain ⟨m4, g4⟩ := Option.isSome_iff_exists.mp s4
  exact ⟨⟨h1, m1, e1, g1, T.1 _ _ e1 m1 g1, c1⟩, ⟨h2, m2, e2, g2, T.2.1 _ _ e2 m2 g2, c2, d2⟩,
    ⟨h3, m3, e3, g3, T.2.2.1 _ _ _ _ _ e3 m3 g3, c3⟩,
    ⟨h4, m4, e4, g4, T.2.2.2 _ _ _ _ _ _ _ e4 m4 g4⟩⟩


/-! ## Focus invariant: basic lemmas -/


theorem rankedBy_iff (h : Hy3Layout) (rank : Nat → Nat) (B : Nat) :
    RankedBy h rank B ↔
      (∀ a, (h.get a).isSome → rank a ≤ B) ∧
      (∀ a p, h.parentOf a = some (some p) → rank p < rank a) := by
  constructor
  · intro rk
    refine ⟨fun a ha => ?_, fun a p hp => ?_⟩
    · obtain ⟨n, hn⟩ := Option.isSome_iff_exists.mp ha
      exact (rk a n hn).1
    · obtain ⟨n, hn, hpn⟩ := parentOf_eq_some.mp hp
      exact (rk a n hn).2 p hpn
  · intro ⟨h1, h2⟩ a n hn
    exact ⟨h1 a (by simp [hn]), fun p hp => h2 a p (parentOf_eq_some.mpr ⟨n, hn, hp⟩)⟩

theorem isSome_of_parentOf {h : Hy3Layout} {a : Nat} {p : Option Nat}
    (hp : h.parentOf a = some p) : (h.get a).isSome := by
  obtain ⟨n, hn, _⟩ := parentOf_eq_some.mp hp
  simp [hn]

theorem parentOf_isSome (h : Hy3Layout) (a : Nat) :
    (h.parentOf a).isSome = (h.get a).isSome := by
  unfold Hy3Layout.parentOf
  cases h.get a <;> rfl

/-- Same parents and the same set of stored addresses give the same ranking. -/
theorem RankedBy.congr_rank {h h' : Hy3Layout} {rank : Nat → Nat} {B : Nat}
    (rk : RankedBy h rank B) (hp : ∀ a, h'.parentOf a = h.parentOf a) : RankedBy h' rank B := by
  rw [rankedBy_iff] at rk ⊢
  refine ⟨fun a ha => rk.1 a ?_, fun a p hpa => rk.2 a p (hp a ▸ hpa)⟩
  rw [← parentOf_isSome, ← hp, parentOf_isSome]
  exact ha

theorem group_remove (h : Hy3Layout) (c x : Nat) :
    (h.remove c).group x = if x = c then none else h.group x := by
  unfold Hy3Layout.group
  rw [get_remove]
  split <;> rfl

theorem group_push_back {h : Hy3Layout} (ok : StoreOK h) (n : Hy3Node) (b : Nat) :
    (h.push_back n).group b = if b = h.next then n.asGroup else h.group b := by
  unfold Hy3Layout.group
  rw [get_push_back_of_ok ok]
  split <;> rfl

theorem FocusInv.inv_modifyGroup {h : Hy3Layout} (fi : FocusInv h) (a : Nat)
    (f : Hy3GroupData → Hy3GroupData)
    (hf : ∀ g, h.group a = some g → g.focusOK → (f g).focusOK) :
    FocusInv (h.modifyGroup a f) := by
  intro b g hg
  rw [group_modifyGroup] at hg
  by_cases hb : b = a
  · rw [if_pos hb] at hg
    cases hq : h.group b with
    | none => simp [hq] at hg
    | some q =>
      simp only [hq, Option.map_some', Option.some.injEq] at hg
      rw [← hg]
      exact hf q (hb ▸ hq) (fi b q hq)
  · rw [if_neg hb] at hg
    exact fi b g hg

theorem FocusInv.modify_of {h : Hy3Layout} (fi : FocusInv h) (a : Nat) (f : Hy3Node → Hy3Node)
    (hf : ∀ n, (f n).data = n.data) : FocusInv (h.modify a f) := by
  intro b g hg
  rw [group_modify_of h a b f hf] at hg
  exact fi b g hg

theorem FocusInv.inv_remove {h : Hy3Layout} (fi : FocusInv h) (c : Nat) :
    FocusInv (h.remove c) := by
  intro b g hg
  rw [group_remove] at hg
  split at hg
  · cases hg
  · exact fi b g hg

theorem FocusInv.inv_push_back {h : Hy3Layout} (ok : StoreOK h) (fi : FocusInv h) (n : Hy3Node)
    (hn : ∀ g, n.data = Hy3NodeData.group g → g.focusOK) : FocusInv (h.push_back n) := by
  intro b g hg
  rw [group_push_back ok] at hg
  split at hg
  · cases hd : n.data with
    | window w => simp [Hy3Node.asGroup, hd] at hg
    | group q =>
      simp only [Hy3Node.asGroup, hd, Option.some.injEq] at hg
      exact hg ▸ hn q hd
  · exact fi b g hg

theorem Hy3GroupData.focusOK_new (l : Hy3GroupLayout) : (Hy3GroupData.new l).focusOK := by
  intro hf
  simp [Hy3GroupData.new] at hf

theorem FocusInv.of_sameGroups {h h' : Hy3Layout} (fi : FocusInv h)
    (hg : ∀ a, h'.group a = h.group a) : FocusInv h' :=
  fun a g hga => fi a g (hg a ▸ hga)

/-! ### markFocused keeps the invariants -/

theorem markGroupFocusedRecursive_focusInv : ∀ (fuel : Nat) (h : Hy3Layout) (a : Nat)
    (h' : Hy3Layout), FocusInv h → markGroupFocusedRecursive fuel h a = some h' → FocusInv h'
  | 0, _, _, _, _, e => by simp [markGroupFocusedRecursive] at e
  | fuel + 1, h, a, h', fi, e => by
    unfold markGroupFocusedRecursive at e
    cases hg : h.group a with
    | none => simp [hg] at e
    | some g =>
      simp only [hg] at e
      have key : ∀ (l : List Nat) (acc acc' : Hy3Layout), FocusInv acc →
          l.foldlM
            (fun acc c =>
              match acc.get c with
              | none => none
              | some cn =>
                match cn.data with
                | Hy3NodeData.group _ => markGroupFocusedRecursive fuel acc c
                | Hy3NodeData.window _ => some acc) acc = some acc' →
          FocusInv acc' := by
        intro l
        induction l with
        | nil =>
          intro acc acc' fa e
          simp only [List.foldlM_nil, Option.pure_def, Option.some.injEq] at e
          exact e ▸ fa
        | cons c l ih =>
          intro acc acc' fa e
          simp only [List.foldlM_cons, Option.bind_eq_bind] at e
          cases hc : acc.get c with
          | none => simp [hc] at e
          | some cn =>
            simp only [hc] at e
            cases hd : cn.data with
            | window w =>
              simp only [hd, Option.some_bind] at e
              exact ih _ _ fa e
            | group gc =>
              simp only [hd] at e
              cases hr : markGroupFocusedRecursive fuel acc c with
              | none => simp [hr] at e
              | some acc1 =>
                simp only [hr, Option.some_bind] at e
                exact ih _ _ (markGroupFocusedRecursive_focusInv fuel _ _ _ fa hr) e
      refine key _ _ _ ?_ e
      exact fi.inv_modifyGroup a _ (fun _ _ _ hf => by simp at hf)

theorem markFocusedLoop_focusInv : ∀ (fuel : Nat) (h : Hy3Layout) (a : Nat) (h' : Hy3Layout),
    WellFormed h → FocusInv h → markFocusedLoop fuel h a = some h' → FocusInv h'
  | 0, _, _, _, _, _, e => by simp [markFocusedLoop] at e
  | fuel + 1, h, a, h', wf, fi, e => by
    unfold markFocusedLoop at e
    cases hn : h.get a with
    | none => simp [hn] at e
    | some n =>
      simp only [hn] at e
      cases hp : n.parent with
      | none =>
        simp only [hp, Option.some.injEq] at e
        exact e ▸ fi
      | some p =>
        simp only [hp] at e
        cases hg : h.group p with
        | none => simp [hg] at e
        | some g =>
          simp only [hg] at e
          have hm : a ∈ g.children := by
            have := wf.mem_of_parent (parentOf_eq_some.mpr ⟨n, hn, hp⟩)
            obtain ⟨pn, hpn, hd⟩ := group_eq_some hg
            rw [childrenOf_of_get hpn, hd] at this
            exact this
          refine markFocusedLoop_focusInv fuel _ p h' ?_ ?_ e
          · exact (SameButFocus.focus_modifyGroup h p _ (by intro _; rfl)).wellFormed wf
          · refine fi.inv_modifyGroup p _ (fun q hq _ _ => ?_)
            rw [hg] at hq
            cases hq
            exact ⟨a, rfl, hm⟩

theorem markFocused_focusInv {fuel : Nat} {h h' : Hy3Layout} {a : Nat} (wf : WellFormed h)
    (fi : FocusInv h) (e : markFocused fuel h a = some h') : FocusInv h' := by
  unfold markFocused at e
  cases hn : h.get a with
  | none => simp [hn] at e
  | some n =>
    simp only [hn] at e
    cases hd : n.data with
    | window w =>
      simp only [hd] at e
      exact markFocusedLoop_focusInv _ _ _ _ wf fi e
    | group g =>
      simp only [hd] at e
      cases hr : markGroupFocusedRecursive fuel h a with
      | none => simp [hr] at e
      | some h1 =>
        simp only [hr] at e
        exact markFocusedLoop_focusInv _ _ _ _
          ((markGroupFocusedRecursive_same _ _ _ _ hr).wellFormed wf)
          (markGroupFocusedRecursive_focusInv _ _ _ _ fi hr) e

theorem SameButFocus.rankedBy {h h' : Hy3Layout} (s : SameButFocus h h') {rank : Nat → Nat}
    {B : Nat} (rk : RankedBy h rank B) : RankedBy h' rank B :=
  rk.congr_rank s.focus_parentOf

/-! ### getFocusedNode ends at a window or a focused group -/

theorem getFocusedNode_ends {h : Hy3Layout} (wf : WellFormed h) {rank : Nat → Nat} {B : Nat}
    (rk : RankedBy h rank B) (fi : FocusInv h) : ∀ (k root : Nat), B - rank root ≤ k →
    (h.get root).isSome →
    ∀ fuel, k < fuel → ∃ x n, getFocusedNode fuel h root false false = some (some x) ∧
      h.get x = some n ∧
      (n.data.type = Hy3NodeType.Window ∨
        ∃ g, n.data = Hy3NodeData.group g ∧ g.group_focused = true)
  | k, root, hk, hs, fuel, hf => by
    obtain ⟨f, rfl⟩ : ∃ f, fuel = f + 1 := ⟨fuel - 1, by omega⟩
    obtain ⟨n, hn⟩ := Option.isSome_iff_exists.mp hs
    cases hd : n.data with
    | window w =>
      exact ⟨root, n, getFocusedNode_self_window hn hd f false false, hn,
        Or.inl (by rw [hd]; rfl)⟩
    | group g =>
      cases hgf : g.group_focused with
      | true =>
        exact ⟨root, n, getFocusedNode_self_focused hn hd hgf f false, hn,
          Or.inr ⟨g, hd, hgf⟩⟩
      | false =>
        obtain ⟨fc, hfc, hm⟩ := fi root g (group_of_get hn hd) hgf
        have cr := wf.childrenRanked rk root n fc hn (by rw [hd]; exact hm)
        rw [getFocusedNode_descend hn hd hgf hfc]
        cases k with
        | zero =>
          have := (rk root n hn).1
          omega
        | succ k =>
          exact getFocusedNode_ends wf rk fi k fc (by omega) cr.1 f (by omega)


/-! ## intoGroup and swallowGroups keep rank and focus -/


theorem Hy3GroupData.focusOK_moved {g : Hy3GroupData} (hg : g.focusOK) : g.moved.focusOK := hg

theorem group_of_data_moved {d : Hy3NodeData} {g : Hy3GroupData}
    (e : d.moved = Hy3NodeData.group g) : ∃ g0, d = Hy3NodeData.group g0 ∧ g = g0.moved := by
  cases d with
  | window w => cases e
  | group g0 =>
    refine ⟨g0, rfl, ?_⟩
    simp only [Hy3NodeData.moved, Hy3NodeData.group.injEq] at e
    exact e.symm

theorem intoGroup_inv {h h' : Hy3Layout} (ok : StoreOK h) (wf : WellFormed h)
    {rank : Nat → Nat} {B : Nat} (rk : RankedBy h rank B) (fi : FocusInv h)
    {this c : Nat} {layout : Hy3GroupLayout} {eph : GroupEphemeralityOption}
    (e : intoGroup h this layout eph = some (h', c)) :
    RankedBy h' (fun x => if x = c then 2 * rank this + 1 else 2 * rank x) (2 * B + 1) ∧
      FocusInv h' := by
  cases ht : h.get this with
  | none => simp [intoGroup, ht] at e
  | some tn =>
    obtain ⟨h2, e2, n2, a2, gt, gn, go⟩ :=
      intoGroup_spec h ok this tn layout eph ht (wf.childrenInStore.of_get ht)
    rw [e] at e2
    cases e2
    have hlt : this < h.next := ok.lt_next ht
    have hne : this ≠ h.next := Nat.ne_of_lt hlt
    have cr := wf.childrenRanked rk
    refine ⟨?_, ?_⟩
    · intro a n hn
      beta_reduce
      by_cases ha1 : a = h.next
      · subst ha1
        rw [gn] at hn
        cases hn
        simp only [if_true]
        have := (rk this tn ht).1
        refine ⟨by omega, fun p hp => ?_⟩
        simp only [Option.some.injEq] at hp
        subst hp
        rw [if_neg hne]
        omega
      · rw [if_neg ha1]
        by_cases ha2 : a = this
        · subst ha2
          rw [gt] at hn
          cases hn
          have hb := rk a tn ht
          refine ⟨by have := hb.1; omega, fun p hp => ?_⟩
          simp only at hp
          split at hp
          · rename_i hmem
            have := (cr a tn a ht hmem).2.1
            omega
          · have := hb.2 p hp
            have hpn : p ≠ h.next := by
              intro e
              obtain ⟨pn, hpn, _⟩ := wf.1 a tn p ht hp
              rw [e, ok.get_next] at hpn
              cases hpn
            rw [if_neg hpn]
            omega
        · rw [go a ha2 ha1] at hn
          cases hm : h.get a with
          | none => simp [hm] at hn
          | some m =>
            simp only [hm, Option.map_some', Option.some.injEq] at hn
            have hb := rk a m hm
            refine ⟨by have := hb.1; omega, fun p hp => ?_⟩
            by_cases hmem : a ∈ tn.data.children
            · rw [if_pos hmem] at hn
              subst hn
              simp only [Option.some.injEq] at hp
              subst hp
              simp only [if_true]
              have := (cr this tn a ht hmem).2.1
              omega
            · rw [if_neg hmem] at hn
              subst hn
              have := hb.2 p hp
              have hpn : p ≠ h.next := by
                intro e
                obtain ⟨pn, hpn, _⟩ := wf.1 a m p hm hp
                rw [e, ok.get_next] at hpn
                cases hpn
              rw [if_neg hpn]
              omega
    · intro a g hg
      obtain ⟨n, hn, hd⟩ := group_eq_some hg
      by_cases ha1 : a = h.next
      · subst ha1
        rw [gn] at hn
        cases hn
        simp only at hd
        obtain ⟨g0, hd0, rfl⟩ := group_of_data_moved hd
        exact fi this g0 (group_of_get ht hd0)
      · by_cases ha2 : a = this
        · subst ha2
          rw [gt] at hn
          cases hn
          simp only [Hy3NodeData.group.injEq] at hd
          subst hd
          intro _
          exact ⟨h.next, rfl, by simp [wrapperGroup]⟩
        · rw [go a ha2 ha1] at hn
          cases hm : h.get a with
          | none => simp [hm] at hn
          | some m =>
            simp only [hm, Option.map_some', Option.some.injEq] at hn
            have hdm : m.data = Hy3NodeData.group g := by
              rw [← hd, ← hn]
              split <;> rfl
            exact fi a g (group_of_get hm hdm)

theorem swallowGroups_inv {h h' : Hy3Layout} (ok : StoreOK h) (wf : WellFormed h)
    {rank : Nat → Nat} {B : Nat} (rk : RankedBy h rank B) (fi : FocusInv h)
    {into : Option Nat} {b : Bool} (e : swallowGroups h into = some (h', b)) :
    RankedBy h' rank B ∧ FocusInv h' := by
  rcases swallowGroups_cases e with ⟨_, rfl⟩ | ⟨_, i, n, g, child, cn, h1, _, hn, hd, hc, hcn, _,
    hs, rfl⟩
  · exact ⟨rk, fi⟩
  · have hne := swapData_ne_of_group hn hd hs
    obtain ⟨h2, e2, n2, a2, g2⟩ := swapData_spec h i child n cn hn hcn hne
      (wf.childrenInStore.of_get hn) (wf.childrenInStore.of_get hcn)
    rw [hs] at e2
    cases e2
    have cr := wf.childrenRanked rk
    have hci : child ∈ n.data.children := by rw [hd]; simp [hc]
    have hrc := (cr i n child hn hci).2.1
    refine ⟨?_, ?_⟩
    · intro a m hm
      rw [get_remove] at hm
      split at hm
      · cases hm
      · rw [g2] at hm
        cases hq : h.get a with
        | none => simp [hq] at hm
        | some q =>
          simp only [hq, Option.map_some', Option.some.injEq] at hm
          have hb := rk a q hq
          refine ⟨hb.1, fun p hp => ?_⟩
          rw [← hm, swapNode_parent] at hp
          split at hp
          · rename_i hmem
            rw [hd] at hmem
            simp only [Hy3NodeData.children_group, hc, List.mem_singleton] at hmem
            contradiction
          · split at hp
            · rename_i hmem
              simp only [Option.some.injEq] at hp
              subst hp
              have := (cr child cn a hcn hmem).2.1
              omega
            · exact hb.2 p hp
    · intro a q hq
      obtain ⟨m, hm, hdm⟩ := group_eq_some hq
      rw [get_remove] at hm
      split at hm
      · cases hm
      · rename_i hac
        rw [g2] at hm
        cases hq0 : h.get a with
        | none => simp [hq0] at hm
        | some m0 =>
          simp only [hq0, Option.map_some', Option.some.injEq] at hm
          rw [← hm, swapNode_data] at hdm
          by_cases hai : a = i
          · rw [if_pos hai] at hdm
            obtain ⟨g0, hd0, rfl⟩ := group_of_data_moved hdm
            exact fi child g0 (group_of_get hcn hd0)
          · rw [if_neg hai, if_neg hac] at hdm
            exact fi a q (group_of_get hq0 hdm)


/-! ## Detaching a child keeps rank and focus -/


theorem RankedBy.of_fewer_parents {h h' : Hy3Layout} {rank : Nat → Nat} {B : Nat}
    (rk : RankedBy h rank B)
    (hp : ∀ a p, h'.parentOf a = some p → ∃ q, h.parentOf a = some q ∧ (p = none ∨ p = q)) :
    RankedBy h' rank B := by
  rw [rankedBy_iff] at rk ⊢
  refine ⟨fun a ha => ?_, fun a p hpa => ?_⟩
  · rw [← parentOf_isSome] at ha
    obtain ⟨p, hp1⟩ := Option.isSome_iff_exists.mp ha
    obtain ⟨q, hq, _⟩ := hp a p hp1
    exact rk.1 a (isSome_of_parentOf hq)
  · obtain ⟨q, hq, hpq⟩ := hp a _ hpa
    rcases hpq with e | e
    · cases e
    · exact rk.2 a p (e ▸ hq)

theorem focusBeforeRemove_group (h : Hy3Layout) (p : Nat) (cs : List Nat) (c x : Nat) :
    (focusBeforeRemove h p cs c).group x =
      if x = p ∧ cs.length > 2 then
        (h.group x).map fun g =>
          { g with
            group_focused := false
            focused_child :=
              if cs.head? = some c then cs.get? 1 else cs.get? (cs.indexOf c - 1) }
      else h.group x := by
  unfold focusBeforeRemove
  by_cases hl : cs.length > 2
  · by_cases hx : x = p
    · have hc : x = p ∧ cs.length > 2 := ⟨hx, hl⟩
      rw [if_pos hc, if_pos hl, group_modifyGroup, if_pos hx]
    · have hc : ¬ (x = p ∧ cs.length > 2) := fun hh => hx hh.1
      rw [if_neg hc, if_pos hl, group_modifyGroup, if_neg hx]
  · have hc : ¬ (x = p ∧ cs.length > 2) := fun hh => hl hh.2
    rw [if_neg hc, if_neg hl]

theorem detachStore_group (this child gp : Nat) (h : Hy3Layout) (group : Hy3GroupData)
    (hg : h.group gp = some group) (hne : gp ≠ child) :
    (∀ x, x ≠ gp → (detachStore this child gp group.children h).group x =
      if x = child ∧ child ≠ this then none else h.group x) ∧
    ∃ g', (detachStore this child gp group.children h).group gp = some g' ∧
      g'.children = group.children.filter (fun s => s ≠ child) ∧
      g'.focused_child =
        if (group.children.filter fun s => s ≠ child).length = 1 then
          (group.children.filter fun s => s ≠ child).head?
        else if group.children.length > 2 then
          (if group.children.head? = some child then group.children.get? 1
           else group.children.get? (group.children.indexOf child - 1))
        else group.focused_child := by
  refine ⟨fun x hx => ?_, ?_⟩
  · have hn1 : ¬ (x = gp ∧ group.children.length > 2) := fun hh => hx hh.1
    unfold detachStore
    by_cases hct : child ≠ this
    · simp only [if_pos hct]
      rw [group_remove, group_modifyGroup, if_neg hx, focusBeforeRemove_group, if_neg hn1]
      by_cases hxc : x = child
      · have hc : x = child ∧ child ≠ this := ⟨hxc, hct⟩
        rw [if_pos hxc, if_pos hc]
      · have hc : ¬ (x = child ∧ child ≠ this) := fun hh => hxc hh.1
        rw [if_neg hxc, if_neg hc]
    · have hc : ¬ (x = child ∧ child ≠ this) := fun hh => hct hh.2
      simp only [if_neg hct]
      rw [group_modify_parent, group_modifyGroup, if_neg hx, focusBeforeRemove_group,
        if_neg hn1, if_neg hc]
  · have key : ∃ g1, (focusBeforeRemove h gp group.children child).group gp = some g1 ∧
        g1.focused_child =
          if group.children.length > 2 then
            (if group.children.head? = some child then group.children.get? 1
             else group.children.get? (group.children.indexOf child - 1))
          else group.focused_child := by
      rw [focusBeforeRemove_group, hg]
      by_cases hl : group.children.length > 2
      · have hc : gp = gp ∧ group.children.length > 2 := ⟨rfl, hl⟩
        rw [if_pos hc, if_pos hl]
        exact ⟨_, rfl, rfl⟩
      · have hc : ¬ (gp = gp ∧ group.children.length > 2) := fun hh => hl hh.2
        rw [if_neg hc, if_neg hl]
        exact ⟨_, rfl, rfl⟩
    obtain ⟨g1, hg1, hf1⟩ := key
    unfold detachStore
    by_cases hct : child ≠ this
    · simp only [if_pos hct]
      rw [group_remove, if_neg hne, group_modifyGroup, if_pos rfl, hg1]
      exact ⟨_, rfl, rfl, by simp only [hf1]⟩
    · simp only [if_neg hct]
      rw [group_modify_parent, group_modifyGroup, if_pos rfl, hg1]
      exact ⟨_, rfl, rfl, by simp only [hf1]⟩

theorem neighbour_mem_filter {cs : List Nat} {child : Nat} (nd : cs.Nodup) (hm : child ∈ cs)
    (hl : cs.length > 2) :
    ∃ fc, (if cs.head? = some child then cs.get? 1 else cs.get? (cs.indexOf child - 1)) = some fc ∧
      fc ∈ cs.filter (fun s => s ≠ child) := by
  by_cases hh : cs.head? = some child
  · rw [if_pos hh]
    match cs, hh, nd, hl with
    | x :: y :: rest, hh, nd, _ =>
      simp only [List.head?_cons, Option.some.injEq] at hh
      subst hh
      refine ⟨y, rfl, ?_⟩
      simp only [List.nodup_cons, List.mem_cons, not_or] at nd
      simp only [List.mem_filter, List.mem_cons, true_or, or_true, decide_eq_true_eq, true_and]
      exact fun e => nd.1.1 e.symm
  · rw [if_neg hh]
    have hi : cs.indexOf child < cs.length := List.indexOf_lt_length.mpr hm
    have hpos : cs.indexOf child ≠ 0 := by
      intro h0
      apply hh
      match cs, hm, h0 with
      | x :: rest, _, h0 =>
        simp only [List.head?_cons, Option.some.injEq]
        by_contra hx
        rw [List.indexOf_cons_ne _ hx] at h0
        cases h0
    have hlt : cs.indexOf child - 1 < cs.length := by omega
    refine ⟨cs.get ⟨cs.indexOf child - 1, hlt⟩, List.get?_eq_get hlt, ?_⟩
    simp only [List.mem_filter, decide_eq_true_eq]
    refine ⟨List.get_mem _ _ _, fun e => ?_⟩
    have h1 : cs.get ⟨cs.indexOf child, hi⟩ = child := List.indexOf_get hi
    have := (List.Nodup.get_inj_iff nd).mp (e.trans h1.symm)
    simp only [Fin.mk.injEq] at this
    omega

theorem WellFormed.children_nodup {h : Hy3Layout} (wf : WellFormed h) (a : Nat) :
    (h.childrenOf a).Nodup := by
  rw [List.nodup_iff_count_le_one]
  intro c
  by_cases hc : c ∈ h.childrenOf a
  · have w := (wellFormed_iff h).mp wf
    exact le_of_eq (w.1 c a (w.2 a c hc))
  · rw [List.count_eq_zero_of_not_mem hc]
    omega

theorem detachStore_focusOK {this child gp : Nat} {h : Hy3Layout} {group : Hy3GroupData}
    (wf : WellFormed h) (hg : h.group gp = some group) (hne : gp ≠ child)
    (hm : child ∈ group.children)
    (hcs : group.children.filter (fun s => s ≠ child) ≠ []) :
    ∀ g', (detachStore this child gp group.children h).group gp = some g' → g'.focusOK := by
  intro g' hg'
  obtain ⟨_, g2, hg2, hc2, hf2⟩ := detachStore_group this child gp h group hg hne
  rw [hg2] at hg'
  cases hg'
  intro _
  rw [hf2, hc2]
  have nd : group.children.Nodup := by
    have := wf.children_nodup gp
    obtain ⟨n, hn, hd⟩ := group_eq_some hg
    rwa [childrenOf_of_get hn, hd] at this
  by_cases h1 : (group.children.filter fun s => s ≠ child).length = 1
  · rw [if_pos h1]
    match hq : group.children.filter (fun s => s ≠ child), hcs with
    | x :: rest, _ => exact ⟨x, rfl, by simp⟩
  · rw [if_neg h1]
    have hlen : (group.children.filter fun s => s ≠ child).length < group.children.length :=
      List.length_filter_lt_length_iff_exists.mpr ⟨child, hm, by simp⟩
    have h2 : 2 ≤ (group.children.filter fun s => s ≠ child).length := by
      have : (group.children.filter fun s => s ≠ child).length ≠ 0 := by
        intro e; exact hcs (List.length_eq_zero.mp e)
      omega
    have hl : group.children.length > 2 := by omega
    rw [if_pos hl]
    exact neighbour_mem_filter nd hm hl


/-! ## removeFromParentRecursive keeps rank and focus -/


theorem removeLoop_inv (this : Nat) {rank : Nat → Nat} {B : Nat} :
    ∀ (fuel : Nat) (h : Hy3Layout) (c : Nat)
    (h' : Hy3Layout) (r : Option Nat), StoreOK h → WellFormed h → RankedBy h rank B →
    (c = this ∨ (h.childrenOf c = [] ∧ h.parentOf this = some none)) →
    (h.get this).isSome → rank c ≤ rank this →
    (∀ a g, h.group a = some g → a ≠ c ∨ c = this → g.focusOK) →
    removeLoop this fuel h c = some (h', r) → RankedBy h' rank B ∧ FocusInv h'
  | 0, _, _, _, _, _, _, _, _, _, _, _, e => by simp [removeLoop] at e
  | fuel + 1, h, c, h', r, ok, wf, rk, hc, ht, hrk, hfo, e => by
    cases hcn : h.get c with
    | none => simp [removeLoop, hcn] at e
    | some pn =>
      cases hp : pn.parent with
      | none =>
        rw [removeLoop_root hcn hp] at e
        simp only [Option.some.injEq, Prod.mk.injEq] at e
        obtain ⟨e1, _⟩ := e
        subst e1
        by_cases hct : c ≠ this
        · rw [if_pos hct]
          refine ⟨rk.of_fewer_parents (fun a p hpa => ?_), fun a g hg => ?_⟩
          · rw [parentOf_remove] at hpa
            split at hpa
            · cases hpa
            · exact ⟨p, hpa, Or.inr rfl⟩
          · rw [group_remove] at hg
            split at hg
            · cases hg
            · rename_i hac
              exact hfo a g hg (Or.inl hac)
        · rw [if_neg hct]
          push_neg at hct
          exact ⟨rk, fun a g hg => hfo a g hg (Or.inr hct)⟩
      | some gp =>
        obtain ⟨group, hg⟩ := Option.isSome_iff_exists.mp (wf.parent_group hcn hp)
        have hpc : h.parentOf c = some (some gp) := by simp [Hy3Layout.parentOf, hcn, hp]
        have chgp : h.childrenOf gp = group.children := by
          obtain ⟨n, hn, hd⟩ := group_eq_some hg
          rw [childrenOf_of_get hn, hd]; rfl
        have hm : c ∈ group.children := chgp ▸ wf.mem_of_parent hpc
        rw [removeLoop_step hcn hp hg hm] at e
        have hc2 : c = this ∨ h.childrenOf c = [] := hc.imp id (fun x => x.1)
        have ok3 := ok.detachStore this c gp group.children
        have wf3 : WellFormed (detachStore this c gp group.children h) :=
          wf.detachStore_wf hg hpc hc2
        obtain ⟨pp, pc⟩ := detachStore_proj this c gp h group hg
        have hrgp : rank gp < rank c := (rk c pn hcn).2 gp hp
        have hne : gp ≠ c := fun e => by rw [e] at hrgp; exact lt_irrefl _ hrgp
        have rk3 : RankedBy (detachStore this c gp group.children h) rank B := by
          refine rk.of_fewer_parents (fun a p hpa => ?_)
          rw [pp a] at hpa
          by_cases hac : a = c
          · rw [if_pos hac] at hpa
            rw [hac]
            refine ⟨_, hpc, Or.inl ?_⟩
            split at hpa
            · cases hpa
            · rw [hac, hpc] at hpa
              simp only [Option.map_some', Option.some.injEq] at hpa
              exact hpa.symm
          · rw [if_neg hac] at hpa
            exact ⟨p, hpa, Or.inr rfl⟩
        have hpt3 : (detachStore this c gp group.children h).parentOf this = some none := by
          rw [pp this]
          by_cases hct : this = c
          · rw [if_pos hct, if_neg (by simp [hct])]
            obtain ⟨tn, htn⟩ := Option.isSome_iff_exists.mp ht
            simp [Hy3Layout.parentOf, htn]
          · rw [if_neg hct]
            exact (hc.resolve_left (Ne.symm hct)).2
        have hts3 : ((detachStore this c gp group.children h).get this).isSome := by
          obtain ⟨n, hn, _⟩ := parentOf_eq_some.mp hpt3
          simp [hn]
        obtain ⟨gother, _⟩ := detachStore_group this c gp h group hg hne
        have hfother : ∀ a g, a ≠ gp →
            (detachStore this c gp group.children h).group a = some g → g.focusOK := by
          intro a g hagp hga
          rw [gother a hagp] at hga
          split at hga
          · cases hga
          · rename_i hcond
            refine hfo a g hga ?_
            by_cases hac : a = c
            · exact Or.inr (by_contra fun hct => hcond ⟨hac, hct⟩)
            · exact Or.inl hac
        by_cases hcs : group.children.filter (fun s => s ≠ c) ≠ []
        · rw [if_pos hcs] at e
          cases h4e : addRatioAll (detachStore this c gp group.children h)
              (group.children.filter fun s => s ≠ c)
              (-((1 - pn.size_ratio) /
                (((group.children.filter fun s => s ≠ c).length
                  - (if this ∈ group.children.filter (fun s => s ≠ c) then 1 else 0) : Nat)
                    : ℚ))) with
          | none => rw [h4e] at e; simp at e
          | some h4 =>
            rw [h4e] at e
            simp only [Option.map_some', Option.some.injEq, Prod.mk.injEq] at e
            obtain ⟨e1, _⟩ := e
            subst e1
            obtain ⟨p4, c4, g4⟩ := addRatioAll_proj h4e
            have rk4 : RankedBy h4 rank B := rk3.congr_rank p4
            refine ⟨rk4.of_fewer_parents (fun a p hpa => ?_), fun a g hga => ?_⟩
            · rw [parentOf_modify_parent] at hpa
              split at hpa
              · cases hq : h4.parentOf a with
                | none => simp [hq] at hpa
                | some q =>
                  simp only [hq, Option.map_some', Option.some.injEq] at hpa
                  exact ⟨q, rfl, Or.inl hpa.symm⟩
              · exact ⟨p, hpa, Or.inr rfl⟩
            · rw [group_modify_parent, g4] at hga
              by_cases hagp : a = gp
              · rw [hagp] at hga
                exact detachStore_focusOK wf hg hne hm hcs g hga
              · exact hfother a g hagp hga
        · rw [if_neg hcs] at e
          push_neg at hcs
          have hgt : gp ≠ this := fun e => by
            rw [e] at hrgp
            omega
          refine removeLoop_inv this fuel _ gp h' r ok3 wf3 rk3 ?_ hts3 (by omega) ?_ e
          · refine Or.inr ⟨?_, hpt3⟩
            rw [pc gp]
            by_cases hgc : gp = c ∧ c ≠ this
            · rw [if_pos hgc]
            · rw [if_neg hgc, if_pos rfl, hcs]
          · intro a g hga hor
            rcases hor with hagp | hgt2
            · exact hfother a g hagp hga
            · exact absurd hgt2 hgt

theorem SameButExpand.focusInv {h h' : Hy3Layout} (s : SameButExpand h h') (fi : FocusInv h) :
    FocusInv h' := by
  intro a g' hg'
  obtain ⟨n', hn', hd'⟩ := group_eq_some hg'
  have hsa := s a
  rw [hn'] at hsa
  cases hn : h.get a with
  | none => simp [hn] at hsa
  | some n =>
    simp only [hn, Option.map_some', Option.some.injEq] at hsa
    have hdata := congrArg Hy3Node.data hsa
    simp only [Hy3Node.noExpand, hd'] at hdata
    cases hd : n.data with
    | window w => simp [hd] at hdata
    | group g =>
      simp only [hd, Hy3NodeData.group.injEq] at hdata
      have h1 := congrArg Hy3GroupData.group_focused hdata
      have h2 := congrArg Hy3GroupData.focused_child hdata
      have h3 := congrArg Hy3GroupData.children hdata
      simp only [Hy3GroupData.noExpand] at h1 h2 h3
      have := fi a g (group_of_get hn hd)
      intro hf
      rw [h1] at hf
      obtain ⟨fc, hfc, hm⟩ := this hf
      exact ⟨fc, by rw [h2]; exact hfc, by rw [h3]; exact hm⟩

theorem removeFromParentRecursive_inv {fuel : Nat} {h : Hy3Layout} {this : Nat}
    {r : RemoveResult} (ok : StoreOK h) (wf : WellFormed h) {rank : Nat → Nat} {B : Nat}
    (rk : RankedBy h rank B) (fi : FocusInv h)
    (e : removeFromParentRecursive fuel h this = some r) :
    RankedBy r.layout rank B ∧ FocusInv r.layout := by
  unfold removeFromParentRecursive at e
  cases hpre : removePrelude fuel h this with
  | none => simp [hpre] at e
  | some pr =>
    obtain ⟨h1, actor⟩ := pr
    simp only [hpre] at e
    cases hl : removeLoop this fuel h1 this with
    | none => simp [hl] at e
    | some lr =>
      obtain ⟨h2, ret⟩ := lr
      simp only [hl, Option.some.injEq] at e
      subst e
      have hs := removePrelude_same hpre
      obtain ⟨n1, a1⟩ := removePrelude_addrs hpre
      have ok1 : StoreOK h1 := ok.of_addrs a1 (le_of_eq n1.symm)
      have wf1 : WellFormed h1 := wf.congr hs.parentOf hs.childrenOf
      have rk1 : RankedBy h1 rank B := rk.congr_rank hs.parentOf
      have fi1 : FocusInv h1 := hs.focusInv fi
      have ht1 : (h1.get this).isSome := by
        cases fuel with
        | zero => simp [removeLoop] at hl
        | succ f =>
          cases hg : h1.get this with
          | none => simp [removeLoop, hg] at hl
          | some _ => rfl
      exact removeLoop_inv this fuel h1 this h2 ret ok1 wf1 rk1 (Or.inl rfl) ht1 (le_refl _)
        (fun a g hg _ => fi1 a g hg) hl


/-! ## Subtrees, hasChild and rank lifting -/


theorem InSubtree.tail {h : Hy3Layout} {a p c : Nat} (hs : InSubtree h a p)
    (hc : c ∈ h.childrenOf p) : InSubtree h a c := by
  induction hs with
  | self a => exact InSubtree.step hc (InSubtree.self c)
  | step hm _ ih => exact InSubtree.step hm (ih hc)

theorem InSubtree.cases_tail {h : Hy3Layout} {a x : Nat} (hs : InSubtree h a x) :
    x = a ∨ ∃ p, InSubtree h a p ∧ x ∈ h.childrenOf p := by
  induction hs with
  | self a => exact Or.inl rfl
  | @step a c x hm hcx ih =>
    right
    rcases ih with e | ⟨p, hp, hx⟩
    · exact ⟨a, InSubtree.self a, e ▸ hm⟩
    · exact ⟨p, InSubtree.step hm hp, hx⟩

theorem hasChildLoop_of_inSubtree {h : Hy3Layout} (wf : WellFormed h) {node : Nat} :
    ∀ (fuel a : Nat), InSubtree h node a → a ≠ node →
      hasChildLoop fuel h node (some a) ≠ some false
  | 0, _, _, _ => by simp [hasChildLoop]
  | fuel + 1, a, hs, hne => by
    rcases hs.cases_tail with e | ⟨p, hp, hm⟩
    · exact absurd e hne
    · have hpar := ((wellFormed_iff h).mp wf).2 p a hm
      obtain ⟨an, han, hpa⟩ := parentOf_eq_some.mp hpar
      unfold hasChildLoop
      simp only [han, hpa, Option.some.injEq]
      by_cases hpn : p = node
      · rw [if_pos hpn]
        simp
      · rw [if_neg hpn]
        exact hasChildLoop_of_inSubtree wf fuel p hp hpn

/-- Lifting the subtree below `node` above everything else keeps a ranking. -/
theorem rank_lift {h : Hy3Layout} (wf : WellFormed h) {rank : Nat → Nat} {B : Nat}
    (rk : RankedBy h rank B) (node : Nat) :
    ∃ rank2, RankedBy h rank2 (2 * B + 1) ∧
      ∀ y, (h.get y).isSome → ¬ InSubtree h node y → rank2 y < rank2 node := by
  classical
  refine ⟨fun x => if InSubtree h node x then rank x + B + 1 else rank x, ?_, ?_⟩
  · intro a n hn
    have hb := rk a n hn
    beta_reduce
    refine ⟨by split <;> omega, fun p hp => ?_⟩
    have hlt := hb.2 p hp
    by_cases hsa : InSubtree h node a
    · rw [if_pos hsa]
      split <;> omega
    · rw [if_neg hsa]
      have hsp : ¬ InSubtree h node p := fun hsp =>
        hsa (hsp.tail (wf.mem_of_parent (parentOf_eq_some.mpr ⟨n, hn, hp⟩)))
      rw [if_neg hsp]
      exact hlt
  · intro y hy hsy
    beta_reduce
    rw [if_neg hsy, if_pos (InSubtree.self node)]
    obtain ⟨n, hn⟩ := Option.isSome_iff_exists.mp hy
    have := (rk y n hn).1
    omega

theorem find_of_mem_nodup : ∀ (l : List Hy3Node) (n : Hy3Node),
    (l.map Hy3Node.addr).Nodup → n ∈ l → l.find? (fun m => m.addr == n.addr) = some n
  | [], _, _, hn => by cases hn
  | x :: xs, n, nd, hn => by
    simp only [List.map_cons, List.nodup_cons] at nd
    by_cases hx : x.addr = n.addr
    · rw [List.find?_cons_of_pos _ (by simpa using hx)]
      rcases List.mem_cons.mp hn with e | e
      · rw [e]
      · exact absurd (List.mem_map_of_mem Hy3Node.addr e) (hx ▸ nd.1)
    · rw [List.find?_cons_of_neg _ (by simpa using hx)]
      rcases List.mem_cons.mp hn with e | e
      · exact absurd (e ▸ rfl) hx
      · exact find_of_mem_nodup xs n nd.2 e

theorem get_of_mem {h : Hy3Layout} (ok : StoreOK h) {n : Hy3Node} (hn : n ∈ h.nodes) :
    h.get n.addr = some n := find_of_mem_nodup h.nodes n ok.1 hn

theorem getWorkspaceRootGroup_spec {h : Hy3Layout} (ok : StoreOK h) {ws : Option Nat} {r : Nat}
    (e : getWorkspaceRootGroup h ws = some r) :
    ∃ n, h.get r = some n ∧ n.parent = none ∧ n.reparenting = false ∧
      n.data.type = Hy3NodeType.Group := by
  unfold getWorkspaceRootGroup at e
  obtain ⟨n, hf, rfl⟩ := Option.map_eq_some'.mp e
  have hp := List.find?_some hf
  have hm := List.mem_of_find?_eq_some hf
  simp only [Bool.and_eq_true, beq_iff_eq, Bool.not_eq_true', decide_eq_true_eq] at hp
  exact ⟨n, get_of_mem ok hm, hp.1.1.2, hp.2, hp.1.2⟩


/-! ## insertNode: the anchor lies outside the inserted subtree -/


theorem InSubtree.eq_of_leaf {h : Hy3Layout} {a x : Nat} (hl : h.childrenOf a = [])
    (hs : InSubtree h a x) : x = a := by
  cases hs with
  | self => rfl
  | step hm _ => rw [hl] at hm; cases hm

theorem intoGroup_flag {h h' : Hy3Layout} (ok : StoreOK h) (wf : WellFormed h)
    {this c : Nat} {layout : Hy3GroupLayout} {eph : GroupEphemeralityOption}
    (e : intoGroup h this layout eph = some (h', c)) {x : Nat} (hx : x ≠ this)
    (hf : (h.get x).map Hy3Node.reparenting = some true) :
    (h'.get x).map Hy3Node.reparenting = some true := by
  cases ht : h.get this with
  | none => simp [intoGroup, ht] at e
  | some tn =>
    obtain ⟨h2, e2, n2, a2, gt, gn, go⟩ :=
      intoGroup_spec h ok this tn layout eph ht (wf.childrenInStore.of_get ht)
    rw [e] at e2
    cases e2
    have hx2 : x ≠ h.next := fun e => by
      rw [e, ok.get_next] at hf
      cases hf
    rw [go x hx hx2]
    cases hq : h.get x with
    | none => simp [hq] at hf
    | some q =>
      simp only [hq, Option.map_some', Option.some.injEq] at hf ⊢
      split <;> exact hf

theorem openingAfterFromRoot_inv {fuel : Nat} {h h1 : Hy3Layout} {ws fr : Option Nat}
    {node : Nat} (ok : StoreOK h) (wf : WellFormed h) (ac : Acyclic h) (fi : FocusInv h)
    (hf : (h.get node).map Hy3Node.reparenting = some true)
    (e : openingAfterFromRoot fuel h ws = some (h1, fr)) :
    Acyclic h1 ∧ FocusInv h1 ∧ (h1.get node).map Hy3Node.reparenting = some true := by
  unfold openingAfterFromRoot at e
  cases hr : getWorkspaceRootGroup h ws with
  | none =>
    simp only [hr, Option.some.injEq, Prod.mk.injEq] at e
    obtain ⟨rfl, _⟩ := e
    exact ⟨ac, fi, hf⟩
  | some root =>
    simp only [hr] at e
    cases hfn : getFocusedNode fuel h root false false with
    | none => simp [hfn] at e
    | some oa =>
      simp only [hfn] at e
      split at e
      · cases hi : intoGroup h root Hy3GroupLayout.SplitH GroupEphemeralityOption.Standard with
        | none => simp [hi] at e
        | some r =>
          obtain ⟨h2, c⟩ := r
          simp only [hi, Option.some.injEq, Prod.mk.injEq] at e
          obtain ⟨rfl, _⟩ := e
          obtain ⟨rank, B, rk⟩ := ac
          obtain ⟨rk2, fi2⟩ := intoGroup_inv ok wf rk fi hi
          obtain ⟨rn, hrn, _, hrf, _⟩ := getWorkspaceRootGroup_spec ok hr
          have hne : node ≠ root := fun e => by
            rw [e, hrn] at hf
            simp only [Option.map_some', Option.some.injEq] at hf
            rw [hrf] at hf
            cases hf
          exact ⟨⟨_, _, rk2⟩, fi2, intoGroup_flag ok wf hi hne hf⟩
      · simp only [Option.some.injEq, Prod.mk.injEq] at e
        obtain ⟨rfl, _⟩ := e
        exact ⟨ac, fi, hf⟩

theorem anchorUsable_spec {fuel : Nat} {h : Hy3Layout} (wf : WellFormed h) {node a : Nat}
    {oa0 : Option Nat} (e : anchorUsable fuel h node oa0 = some (some a))
    (hpn : h.parentOf node = some none) (hpa : ∃ p, h.parentOf a = some (some p)) :
    ¬ InSubtree h node a := by
  unfold anchorUsable at e
  cases oa0 with
  | none => simp at e
  | some a0 =>
    simp only at e
    cases hn : h.get node with
    | none => simp [hn] at e
    | some nn =>
      cases ha : h.get a0 with
      | none => simp [hn, ha] at e
      | some an =>
        simp only [hn, ha] at e
        have hane : a ≠ node := fun e => by
          obtain ⟨p, hp⟩ := hpa
          rw [e, hpn] at hp
          cases hp
        split at e
        · cases e
        · rename_i b hb
          split at e
          · cases e
          · rename_i hbr
            simp only [Option.some.injEq] at e
            subst e
            have hbf : b = false := by
              cases b with
              | true => simp at hbr
              | false => rfl
            subst hbf
            by_cases hty : nn.data.type = Hy3NodeType.Group
            · rw [if_pos hty] at hb
              rw [if_neg hane] at hb
              unfold hasChild at hb
              simp only [hn] at hb
              cases hd : nn.data with
              | window w => rw [hd] at hty; cases hty
              | group g =>
                simp only [hd] at hb
                intro hs
                exact hasChildLoop_of_inSubtree wf fuel a0 hs hane hb
            · intro hs
              have hl : h.childrenOf node = [] := by
                rw [childrenOf_of_get hn]
                cases hd : nn.data with
                | window w => rfl
                | group g => rw [hd] at hty; exact absurd rfl hty
              exact hane (hs.eq_of_leaf hl)

theorem openingInto_inv {env : Env} {fuel : Nat} {h h2 : Hy3Layout} {ws oa0 oa1 : Option Nat}
    {oi0 node : Nat} (ok : StoreOK h) (wf : WellFormed h) (ac : Acyclic h) (fi : FocusInv h)
    (hx : h.parentOf node = some none)
    (hf : (h.get node).map Hy3Node.reparenting = some true)
    (hau : anchorUsable fuel h node oa0 = some oa1)
    (e : openingInto env h ws oa1 = some (h2, some oi0)) :
    FocusInv h2 ∧ ∃ rank2 B2, RankedBy h2 rank2 B2 ∧ rank2 oi0 < rank2 node ∧
      ∀ a, oa1 = some a → rank2 a < rank2 node := by
  obtain ⟨rank, B, rk⟩ := ac
  unfold openingInto at e
  cases oa1 with
  | some a =>
    simp only at e
    cases ha : h.get a with
    | none => simp [ha] at e
    | some an =>
      simp only [ha, Option.some.injEq, Prod.mk.injEq] at e
      obtain ⟨rfl, hpa⟩ := e
      have hpar : h.parentOf a = some (some oi0) := parentOf_eq_some.mpr ⟨an, ha, hpa⟩
      have hns := anchorUsable_spec wf hau hx ⟨oi0, hpar⟩
      obtain ⟨rank2, rk2, hlift⟩ := rank_lift wf rk node
      have hmem := wf.mem_of_parent hpar
      obtain ⟨pn, hpn, _⟩ := wf.1 a an oi0 ha hpa
      refine ⟨fi, rank2, _, rk2, hlift oi0 (by simp [hpn]) (fun hs => hns (hs.tail hmem)), ?_⟩
      intro a' ha'
      cases ha'
      exact hlift a (by simp [ha]) hns
  | none =>
    simp only at e
    cases hr : getWorkspaceRootGroup h ws with
    | some r =>
      simp only [hr, Option.some.injEq, Prod.mk.injEq] at e
      obtain ⟨rfl, rfl⟩ := e
      obtain ⟨rn, hrn, hrp, hrf, _⟩ := getWorkspaceRootGroup_spec ok hr
      have hne : r ≠ node := fun e => by
        rw [← e, hrn] at hf
        simp only [Option.map_some', Option.some.injEq] at hf
        rw [hrf] at hf
        cases hf
      obtain ⟨rank2, rk2, hlift⟩ := rank_lift wf rk node
      refine ⟨fi, rank2, _, rk2, hlift r (by simp [hrn]) (fun hs => ?_), fun a ha => by cases ha⟩
      rcases hs.cases_tail with e | ⟨p, _, hm⟩
      · exact hne e
      · have := ((wellFormed_iff h).mp wf).2 p r hm
        rw [parentOf_eq_some] at this
        obtain ⟨n', hn', hp'⟩ := this
        rw [hrn] at hn'
        cases hn'
        rw [hrp] at hp'
        cases hp'
    | none =>
      simp only [hr] at e
      have hnode : node ≠ h.next := fun e => by
        rw [e, parentOf_next ok] at hx; cases hx
      obtain ⟨nn, hnn, _⟩ := parentOf_eq_some.mp hx
      set R : Hy3Node :=
        { addr := h.next, workspace := ws,
          data := Hy3NodeData.group (Hy3GroupData.new
            (if env.monitorHeight ws > env.monitorWidth ws then Hy3GroupLayout.SplitV
             else Hy3GroupLayout.SplitH)) } with hR
      have ok1 : StoreOK (h.push_back R) := ok.push_back R
      have fi1 : FocusInv (h.push_back R) := fi.inv_push_back ok R (fun g hg => by
        simp only [hR, Hy3NodeData.group.injEq] at hg
        exact hg ▸ Hy3GroupData.focusOK_new _)
      have hn1 : (h.push_back R).next = h.next + 1 := rfl
      split at e
      · simp only [Option.some.injEq, Prod.mk.injEq] at e
        obtain ⟨rfl, rfl⟩ := e
        set h1 := h.push_back R with hh1
        set T : Hy3Node :=
          { addr := h1.next, parent := some h.next, workspace := ws,
            data := Hy3NodeData.group (Hy3GroupData.new Hy3GroupLayout.Tabbed) } with hT
        have fiT : FocusInv (h1.push_back T) := fi1.inv_push_back ok1 T (fun g hg => by
          simp only [hT, Hy3NodeData.group.injEq] at hg
          exact hg ▸ Hy3GroupData.focusOK_new _)
        refine ⟨?_, fun x => if x = h.next then 0 else if x = h1.next then 1 else rank x + 2,
          B + 2, ?_, ?_, fun a ha => by cases ha⟩
        · refine fiT.inv_modifyGroup h.next _ (fun g _ hg hgf => ?_)
          obtain ⟨fc, hfc, hm⟩ := hg hgf
          exact ⟨fc, hfc, List.mem_append_left _ hm⟩
        · rw [rankedBy_iff]
          have hgetT : ∀ b, (h1.push_back T).get b =
              if b = h1.next then some { T with addr := h1.next }
              else if b = h.next then some { R with addr := h.next } else h.get b := by
            intro b
            rw [get_push_back_of_ok ok1, hh1, get_push_back_of_ok ok]
          refine ⟨fun a ha => ?_, fun a p hp => ?_⟩
          · rw [get_modifyGroup_isSome, hgetT] at ha
            by_cases h1a : a = h.next
            · rw [if_pos h1a]; omega
            · rw [if_neg h1a]
              by_cases h2a : a = h1.next
              · rw [if_pos h2a]; omega
              · rw [if_neg h2a]
                rw [if_neg h2a, if_neg h1a] at ha
                obtain ⟨n, hn⟩ := Option.isSome_iff_exists.mp ha
                have := (rk a n hn).1
                omega
          · rw [parentOf_modifyGroup] at hp
            unfold Hy3Layout.parentOf at hp
            rw [hgetT] at hp
            by_cases h2a : a = h1.next
            · rw [if_pos h2a] at hp
              simp only [Option.map_some', Option.some.injEq, hT] at hp
              subst hp
              have : h1.next ≠ h.next := by rw [hn1]; omega
              rw [if_pos rfl, h2a, if_neg this, if_pos rfl]
              omega
            · rw [if_neg h2a] at hp
              by_cases h1a : a = h.next
              · rw [if_pos h1a] at hp
                simp [hR] at hp
              · rw [if_neg h1a] at hp
                obtain ⟨n, hn, hpn⟩ := parentOf_eq_some.mp hp
                obtain ⟨pn, hpnn, _⟩ := wf.1 a n p hn hpn
                have hp1 : p ≠ h.next := fun e => by
                  rw [e, ok.get_next] at hpnn; cases hpnn
                have hp2 : p ≠ h1.next := fun e => by
                  have := ok.lt_next hpnn
                  rw [e, hn1] at this
                  omega
                rw [if_neg hp1, if_neg hp2, if_neg h1a, if_neg h2a]
                have := (rk a n hn).2 p hpn
                omega
        · beta_reduce
          have hnode1 : node ≠ h1.next := fun e => by
            have := ok.lt_next hnn
            rw [e, hn1] at this
            omega
          have : h1.next ≠ h.next := by rw [hn1]; omega
          rw [if_neg this, if_pos rfl, if_neg hnode, if_neg hnode1]
          omega
      · simp only [Option.some.injEq, Prod.mk.injEq] at e
        obtain ⟨rfl, rfl⟩ := e
        refine ⟨fi1, fun x => if x = h.next then 0 else rank x + 1, B + 1, ?_, ?_,
          fun a ha => by cases ha⟩
        · rw [rankedBy_iff]
          refine ⟨fun a ha => ?_, fun a p hp => ?_⟩
          · rw [get_push_back_of_ok ok] at ha
            by_cases h1a : a = h.next
            · rw [if_pos h1a]; omega
            · rw [if_neg h1a] at ha ⊢
              obtain ⟨n, hn⟩ := Option.isSome_iff_exists.mp ha
              have := (rk a n hn).1
              omega
          · rw [parentOf_push_back ok] at hp
            by_cases h1a : a = h.next
            · rw [if_pos h1a] at hp
              simp [hR] at hp
            · rw [if_neg h1a] at hp
              obtain ⟨n, hn, hpn⟩ := parentOf_eq_some.mp hp
              obtain ⟨pn, hpnn, _⟩ := wf.1 a n p hn hpn
              have hp1 : p ≠ h.next := fun e => by
                rw [e, ok.get_next] at hpnn; cases hpnn
              rw [if_neg hp1, if_neg h1a]
              have := (rk a n hn).2 p hpn
              omega
        · beta_reduce
          rw [if_pos rfl, if_neg hnode]
          omega


/-! ## insertNode keeps acyclicity and the focus invariant -/


theorem autotile_inv {env : Env} {h h3 : Hy3Layout} {oi0 oi : Nat} {oa1 oa : Option Nat}
    {node : Nat} (ok : StoreOK h) (wf : WellFormed h) (fi : FocusInv h)
    {rank : Nat → Nat} {B : Nat} (rk : RankedBy h rank B) (hns : (h.get node).isSome)
    (hoi : rank oi0 < rank node) (hoa : ∀ a, oa1 = some a → rank a < rank node)
    (e : autotile env h oi0 oa1 = some (h3, oi, oa)) :
    FocusInv h3 ∧ ∃ rank3 B3, RankedBy h3 rank3 B3 ∧ rank3 oi < rank3 node := by
  have same : ∀ {x : Hy3Layout × Nat × Option Nat}, x = (h3, oi, oa) → x.1 = h → x.2.1 = oi0 →
      FocusInv h3 ∧ ∃ rank3 B3, RankedBy h3 rank3 B3 ∧ rank3 oi < rank3 node := by
    intro x hx h1 h2
    subst hx
    simp only at h1 h2
    subst h1 h2
    exact ⟨fi, rank, B, rk, hoi⟩
  have into : ∀ {a : Nat} {L : Hy3GroupLayout} {E : GroupEphemeralityOption},
      rank a < rank node →
      (match intoGroup h a L E with
        | none => none
        | some (h1, a1) => some (h1, a, some a1)) = some (h3, oi, oa) →
      FocusInv h3 ∧ ∃ rank3 B3, RankedBy h3 rank3 B3 ∧ rank3 oi < rank3 node := by
    intro a L E hra e
    cases hi : intoGroup h a L E with
    | none => simp [hi] at e
    | some r =>
      obtain ⟨h2, c⟩ := r
      simp only [hi, Option.some.injEq, Prod.mk.injEq] at e
      obtain ⟨rfl, rfl, _⟩ := e
      obtain ⟨rk2, fi2⟩ := intoGroup_inv ok wf rk fi hi
      obtain ⟨_, _, hc⟩ := intoGroup_preserves ok wf hi
      refine ⟨fi2, _, _, rk2, ?_⟩
      beta_reduce
      have h1 : a ≠ c := fun e => by
        have : (h.get a).isSome := by
          cases hq : h.get a with
          | none => simp [intoGroup, hq] at hi
          | some _ => rfl
        rw [e, hc, ok.get_next] at this
        cases this
      have h2 : node ≠ c := fun e => by
        rw [e, hc, ok.get_next] at hns
        cases hns
      rw [if_neg h1, if_neg h2]
      omega
  unfold autotile at e
  cases hn : h.get oi0 with
  | none => simp [hn] at e
  | some oin =>
    simp only [hn] at e
    cases hd : oin.data with
    | window w => simp [hd] at e
    | group tg =>
      simp only [hd] at e
      cases oa1 with
      | none =>
        simp only [Option.some.injEq] at e
        exact same e rfl rfl
      | some a =>
        simp only at e
        have hra := hoa a rfl
        split_ifs at e <;>
          first
          | exact into hra e
          | (simp only [Option.some.injEq] at e
             exact same e rfl rfl)

theorem attach_children_focus {h h' : Hy3Layout} {oi node : Nat} {oa : Option Nat}
    (e : attach h oi node oa = some h') :
    ∃ g f, h.group oi = some g ∧ ((f g).children).Perm (node :: g.children) ∧
      (f g).group_focused = g.group_focused ∧ (f g).focused_child = g.focused_child ∧
      h' = h.modifyGroup oi f := by
  unfold attach at e
  cases hg : h.group oi with
  | none => simp [hg] at e
  | some g =>
    simp only [hg] at e
    cases oa with
    | none =>
      simp only [Option.some.injEq] at e
      exact ⟨g, _, rfl, List.perm_append_comm, rfl, rfl, e.symm⟩
    | some a =>
      simp only at e
      cases hr : insertAfter g.children a node with
      | none => simp [hr] at e
      | some cs =>
        simp only [hr, Option.some.injEq] at e
        exact ⟨g, _, rfl, insertAfter_perm _ _ _ _ hr, rfl, rfl, e.symm⟩

theorem attach_inv {h h' : Hy3Layout} (fi : FocusInv h) {rank : Nat → Nat} {B : Nat}
    (rk : RankedBy h rank B) {oi node : Nat} {oa : Option Nat} (hoi : rank oi < rank node)
    (e : attach (h.modify node fun n => { n with parent := some oi, reparenting := false })
      oi node oa = some h') : RankedBy h' rank B ∧ FocusInv h' := by
  obtain ⟨g, f, hg, hperm, hgf, hfc, rfl⟩ := attach_children_focus e
  refine ⟨?_, ?_⟩
  · rw [rankedBy_iff] at rk ⊢
    refine ⟨fun a ha => rk.1 a ?_, fun a p hp => ?_⟩
    · rw [get_modifyGroup_isSome, get_modify_isSome] at ha
      exact ha
    · rw [parentOf_modifyGroup] at hp
      unfold Hy3Layout.parentOf at hp
      rw [get_modify] at hp
      by_cases han : a = node
      · rw [if_pos han] at hp
        cases hq : h.get a with
        | none => simp [hq] at hp
        | some q =>
          simp only [hq, Option.map_some', Option.some.injEq] at hp
          rw [← hp, han]
          exact hoi
      · rw [if_neg han] at hp
        exact rk.2 a p hp
  · refine FocusInv.inv_modifyGroup (fi.modify_of node _ (by intro _; rfl)) oi f
      (fun g' hg' hok hf' => ?_)
    rw [hg] at hg'
    cases hg'
    rw [hgf] at hf'
    obtain ⟨fc, h1, h2⟩ := hok hf'
    exact ⟨fc, by rw [hfc]; exact h1, hperm.mem_iff.mpr (List.mem_cons_of_mem _ h2)⟩

theorem insertNode_inv {env : Env} {fuel : Nat} {h h' : Hy3Layout} {node : Nat}
    (ok : StoreOK h) (wf : WellFormed h) (ac : Acyclic h) (fi : FocusInv h)
    (e : insertNode env fuel h node = some h') : Acyclic h' ∧ FocusInv h' := by
  unfold insertNode at e
  cases hn : h.get node with
  | none => simp [hn] at e
  | some nn =>
    simp only [hn] at e
    split at e
    · cases e; exact ⟨ac, fi⟩
    · rename_i hpar
      split at e
      · cases e; exact ⟨ac, fi⟩
      · have hpn : nn.parent = none := not_not.mp hpar
        have hx : h.parentOf node = some none := by
          simp [Hy3Layout.parentOf, hn, hpn]
        have ok0 : StoreOK (h.modify node fun n => { n with reparenting := true }) :=
          ok.of_addrs (addrs_modify _ _ _) (le_refl _)
        have hp0 : ∀ a, (h.modify node fun n => { n with reparenting := true }).parentOf a
            = h.parentOf a :=
          fun a => parentOf_modify_of h node a (fun n => { n with reparenting := true })
            (by intro _; rfl)
        have wf0 : WellFormed (h.modify node fun n => { n with reparenting := true }) :=
          wf.congr hp0
            (fun a => childrenOf_modify_of h node a (fun n => { n with reparenting := true })
              (by intro _; rfl))
        have hx0 : (h.modify node fun n =>
            { n with reparenting := true }).parentOf node = some none := by
          rw [hp0, hx]
        have ac0 : Acyclic (h.modify node fun n => { n with reparenting := true }) := by
          obtain ⟨rank, B, rk⟩ := ac
          exact ⟨rank, B, rk.congr_rank hp0⟩
        have fi0 : FocusInv (h.modify node fun n => { n with reparenting := true }) :=
          fi.modify_of node _ (by intro _; rfl)
        have hf0 : ((h.modify node fun n => { n with reparenting := true }).get node).map
            Hy3Node.reparenting = some true := by
          rw [get_modify_eq _ hn]; rfl
        cases h1e : openingAfterFromRoot fuel
            (h.modify node fun n => { n with reparenting := true }) nn.workspace with
        | none => simp [h1e] at e
        | some r1 =>
          obtain ⟨h1, fr⟩ := r1
          simp only [h1e] at e
          obtain ⟨ok1, wf1, hx1⟩ := openingAfterFromRoot_preserves ok0 wf0 hx0 h1e
          obtain ⟨ac1, fi1, hf1⟩ := openingAfterFromRoot_inv ok0 wf0 ac0 fi0 hf0 h1e
          split at e
          · cases e
          · rename_i oa1 hau
            split at e
            · cases e
            · cases e
            · rename_i h2 oi0 h2e
              obtain ⟨ok2, wf2, hx2⟩ := openingInto_preserves ok1 wf1 hx1 h2e
              obtain ⟨fi2, rank2, B2, rk2, hoi2, hoa2⟩ :=
                openingInto_inv ok1 wf1 ac1 fi1 hx1 hf1 hau h2e
              split at e
              · cases e
              · rename_i oin hoin
                split at e
                · cases e; exact ⟨⟨rank2, B2, rk2⟩, fi2⟩
                · split at e
                  · cases e
                  · rename_i h3 oi oa h3e
                    obtain ⟨ok3, wf3, hx3⟩ := autotile_preserves ok2 wf2 hx2 h3e
                    obtain ⟨fi3, rank3, B3, rk3, hoi3⟩ := autotile_inv ok2 wf2 fi2 rk2
                      (isSome_of_parentOf hx2) hoi2 hoa2 h3e
                    split at e
                    · cases e
                    · rename_i h5 h5e
                      obtain ⟨ok5, wf5⟩ := attach_preserves ok3 wf3 hx3 h5e
                      obtain ⟨rk5, fi5⟩ := attach_inv fi3 rk3 hoi3 h5e
                      have s := markFocused_same e
                      exact ⟨⟨rank3, B3, s.rankedBy rk5⟩, markFocused_focusInv wf5 fi5 e⟩


/-! ## C5: single focus path -/


theorem onWindowCreatedTiling_inv {env : Env} {fuel : Nat} {h h' : Hy3Layout} {window : Nat}
    (ok : StoreOK h) (wf : WellFormed h) (ac : Acyclic h) (fi : FocusInv h)
    (e : onWindowCreatedTiling env fuel h window = some h') :
    StoreOK h' ∧ WellFormed h' ∧ Acyclic h' ∧ FocusInv h' := by
  unfold onWindowCreatedTiling at e
  split at e
  · cases e; exact ⟨ok, wf, ac, fi⟩
  · split at e
    · cases e; exact ⟨ok, wf, ac, fi⟩
    · set N : Hy3Node :=
        { addr := h.next, parent := none, data := Hy3NodeData.window (some window),
          workspace := env.windowWorkspace window } with hN
      have ok1 : StoreOK (h.push_back N) := ok.push_back N
      have wf1 : WellFormed (h.push_back N) := wf.push_back_leaf ok N rfl rfl
      have fi1 : FocusInv (h.push_back N) := fi.inv_push_back ok N (fun g hg => by
        simp [hN] at hg)
      have ac1 : Acyclic (h.push_back N) := by
        obtain ⟨rank, B, rk⟩ := ac
        refine ⟨rank, B + rank h.next, ?_⟩
        rw [rankedBy_iff] at rk ⊢
        refine ⟨fun a ha => ?_, fun a p hp => ?_⟩
        · rw [get_push_back_of_ok ok] at ha
          by_cases h1a : a = h.next
          · rw [h1a]; omega
          · rw [if_neg h1a] at ha
            have := rk.1 a ha
            omega
        · rw [parentOf_push_back ok] at hp
          by_cases h1a : a = h.next
          · rw [if_pos h1a] at hp
            simp [hN] at hp
          · rw [if_neg h1a] at hp
            exact rk.2 a p hp
      obtain ⟨ok2, wf2⟩ := insertNode_preserves ok1 wf1 e
      obtain ⟨ac2, fi2⟩ := insertNode_inv ok1 wf1 ac1 fi1 e
      exact ⟨ok2, wf2, ac2, fi2⟩

theorem reachable_inv {h : Hy3Layout} (hr : Reachable h) :
    StoreOK h ∧ WellFormed h ∧ Acyclic h ∧ FocusInv h := by
  induction hr with
  | empty =>
    refine ⟨⟨List.nodup_nil, fun n hn => by cases hn⟩, ⟨?_, ?_⟩, ⟨id, 0, ?_⟩, ?_⟩
    · intro a n p hn
      cases hn
    · intro a g c hn
      cases hn
    · intro a n hn
      cases hn
    · intro a g hg
      simp [Hy3Layout.group, Hy3Layout.get, Hy3Layout.empty] at hg
  | onWindowCreatedTiling env fuel window _ e ih =>
    obtain ⟨ok, wf, ac, fi⟩ := ih
    exact onWindowCreatedTiling_inv ok wf ac fi e
  | insertNode env fuel node _ e ih =>
    obtain ⟨ok, wf, ac, fi⟩ := ih
    obtain ⟨ok2, wf2⟩ := insertNode_preserves ok wf e
    obtain ⟨ac2, fi2⟩ := insertNode_inv ok wf ac fi e
    exact ⟨ok2, wf2, ac2, fi2⟩
  | markFocused fuel node _ e ih =>
    obtain ⟨ok, wf, ⟨rank, B, rk⟩, fi⟩ := ih
    have s := markFocused_same e
    exact ⟨s.storeOK ok, s.wellFormed wf, ⟨rank, B, s.rankedBy rk⟩, markFocused_focusInv wf fi e⟩
  | intoGroup node layout ephemeral c _ e ih =>
    obtain ⟨ok, wf, ⟨rank, B, rk⟩, fi⟩ := ih
    obtain ⟨ok2, wf2, _⟩ := intoGroup_preserves ok wf e
    obtain ⟨rk2, fi2⟩ := intoGroup_inv ok wf rk fi e
    exact ⟨ok2, wf2, ⟨_, _, rk2⟩, fi2⟩
  | swallowGroups into b _ e ih =>
    obtain ⟨ok, wf, ⟨rank, B, rk⟩, fi⟩ := ih
    obtain ⟨ok2, wf2⟩ := swallowGroups_preserves ok wf e
    obtain ⟨rk2, fi2⟩ := swallowGroups_inv ok wf rk fi e
    exact ⟨ok2, wf2, ⟨_, _, rk2⟩, fi2⟩
  | removeFromParentRecursive fuel node r _ e ih =>
    obtain ⟨ok, wf, ⟨rank, B, rk⟩, fi⟩ := ih
    obtain ⟨ok2, wf2, _⟩ := removeFromParentRecursive_preserves ok wf e
    obtain ⟨rk2, fi2⟩ := removeFromParentRecursive_inv ok wf rk fi e
    exact ⟨ok2, wf2, ⟨_, _, rk2⟩, fi2⟩

/-- C5: single focus path. In every store reachable from the empty store by opening windows,
`insertNode`, `markFocused`, `intoGroup`, `swallowGroups` and `removeFromParentRecursive`, every
group with `group_focused == false` (on a focus chain or not) has a non-null `focused_child`
that is a member of its own child list; hence, with enough fuel, `getFocusedNode(false, false)`
on any stored node (a workspace root in particular) returns a stored node that is a Window or
a Group with `group_focused == true`. -/
theorem single_focus_path (h : Hy3Layout) (hr : Reachable h) :
    (∀ a g, h.group a = some g → g.group_focused = false →
      ∃ fc, g.focused_child = some fc ∧ fc ∈ g.children) ∧
    ∀ root, (h.get root).isSome → ∃ N, ∀ fuel, N ≤ fuel →
      ∃ x n, getFocusedNode fuel h root false false = some (some x) ∧ h.get x = some n ∧
        (n.data.type = Hy3NodeType.Window ∨
          ∃ g, n.data = Hy3NodeData.group g ∧ g.group_focused = true) := by
  obtain ⟨_, wf, ⟨rank, B, rk⟩, fi⟩ := reachable_inv hr
  refine ⟨fun a g hg hf => fi a g hg hf, fun root hs => ⟨B - rank root + 1, fun fuel hf => ?_⟩⟩
  exact getFocusedNode_ends wf rk fi (B - rank root) root (le_refl _) hs fuel (by omega)

theorem single_focus_path_witness :
    ∃ h1 h2, onWindowCreatedTiling exEnv 5 Hy3Layout.empty 101 = some h1 ∧
      onWindowCreatedTiling exEnv 5 h1 102 = some h2 ∧
      h2.childrenOf 1 = [0, 2] ∧
      getFocusedNode 5 h2 1 false false = some (some 2) ∧
      (∀ a g, h2.group a = some g → g.group_focused = false →
        ∃ fc, g.focused_child = some fc ∧ fc ∈ g.children) ∧
      ∀ root, (h2.get root).isSome → ∃ N, ∀ fuel, N ≤ fuel →
        ∃ x n, getFocusedNode fuel h2 root false false = some (some x) ∧ h2.get x = some n ∧
          (n.data.type = Hy3NodeType.Window ∨
            ∃ g, n.data = Hy3NodeData.group g ∧ g.group_focused = true) := by
  have run : ∃ h1 h2, onWindowCreatedTiling exEnv 5 Hy3Layout.empty 101 = some h1 ∧
      onWindowCreatedTiling exEnv 5 h1 102 = some h2 ∧ h2.childrenOf 1 = [0, 2] ∧
      getFocusedNode 5 h2 1 false false = some (some 2) := ⟨_, _, rfl, rfl, rfl, rfl⟩
  obtain ⟨h1, h2, e1, e2, c2, f2⟩ := run
  have r2 : Reachable h2 :=
    Reachable.onWindowCreatedTiling exEnv 5 102
      (Reachable.onWindowCreatedTiling exEnv 5 101 Reachable.empty e1) e2
  have T := single_focus_path h2 r2
  exact ⟨h1, h2, e1, e2, c2, f2, T.1, T.2⟩


/-! ## C16: insertNode aborts without mutation -/


/-- C16: `insertNode` called with a node that already has a parent, or whose workspace is not
valid, returns at once with the node store unchanged (every node with its parent, payload,
`size_ratio` and `reparenting` flag as before), whatever the fuel. -/
theorem insertNode_abort_unchanged (env : Env) (fuel : Nat) (h : Hy3Layout) (node : Nat)
    (nn : Hy3Node) (hn : h.get node = some nn)
    (hbad : nn.parent ≠ none ∨ env.validWorkspace nn.workspace = false) :
    insertNode env fuel h node = some h := by
  unfold insertNode
  simp only [hn]
  by_cases hp : nn.parent ≠ none
  · rw [if_pos hp]
  · rw [if_neg hp]
    rcases hbad with hb | hb
    · exact absurd hb hp
    · rw [if_pos hb]

theorem insertNode_abort_unchanged_witness :
    insertNode exEnv 0 exEphemeral 2 = some exEphemeral ∧
      insertNode { exEnv with validWorkspace := fun _ => false } 7 exDetached 4
        = some exDetached :=
  ⟨insertNode_abort_unchanged exEnv 0 exEphemeral 2 _ rfl (Or.inl (by decide)),
    insertNode_abort_unchanged { exEnv with validWorkspace := fun _ => false } 7 exDetached 4 _
      rfl (Or.inr rfl)⟩


/-! ## C14: resize rejection is atomic -/


/-- C14: resize rejection is atomic. When `resize` reaches the comparison with `MIN_RATIO`
for a parent of non-zero extent: if the requested ratio of the node or of its neighbour is
below 0, the call returns with the node store and the layout fields unchanged; if both are at
least 0 (0 included), the two ratios are written and the parent is laid out again. -/
theorem resize_rejection_atomic (cfg : LayoutConfig) (fuel : Nat) (h : Hy3Layout)
    (geo : Geometry) (this : Nat) (direction : ShiftDirection) (delta : ℚ) (r : ResizeRequest)
    (hreq : resizeRequest h geo this direction delta = some (some r))
    (hsize : r.parent_size ≠ 0) :
    ((r.requested_size_ratio < 0 ∨ r.requested_neighbor_size_ratio < 0) →
        resize cfg fuel h geo this direction delta = some (h, geo)) ∧
      ((0 ≤ r.requested_size_ratio ∧ 0 ≤ r.requested_neighbor_size_ratio) →
        resize cfg fuel h geo this direction delta =
          (recalcSizePosRecursive cfg fuel
            ((h.modify this fun n => { n with size_ratio := r.requested_size_ratio }).modify
              r.neighbor fun n => { n with size_ratio := r.requested_neighbor_size_ratio })
            geo r.parent_node).map
            fun g =>
              ((h.modify this fun n => { n with size_ratio := r.requested_size_ratio }).modify
                r.neighbor fun n => { n with size_ratio := r.requested_neighbor_size_ratio },
               g)) := by
  refine ⟨fun hneg => ?_, fun hpos => ?_⟩
  · unfold resize
    simp only [hreq]
    rw [if_neg]
    rintro ⟨_, h1, h2⟩
    rcases hneg with hn | hn
    · exact absurd h1 (not_le.mpr hn)
    · exact absurd h2 (not_le.mpr hn)
  · unfold resize
    simp only [hreq]
    rw [if_pos ⟨hsize, hpos.1, hpos.2⟩]

theorem resize_rejection_atomic_witness :
    resize exConfig 5 (exPair (1 / 10) (9 / 10)) exGeometry 1 ShiftDirection.Right (-10)
        = some (exPair (1 / 10) (9 / 10), exGeometry) ∧
      (exPair (1 / 10) (9 / 10)).ratioOf 1 = some (1 / 10) ∧
      (exPair (1 / 10) (9 / 10)).ratioOf 2 = some (9 / 10) := by
  have hreq : resizeRequest (exPair (1 / 10) (9 / 10)) exGeometry 1 ShiftDirection.Right (-10)
      = some (some
        { parent_node := 0, neighbor := 2, parent_size := 100,
          requested_size_ratio := -1 / 10, requested_neighbor_size_ratio := 11 / 10 }) := by
    decide!
  have T := resize_rejection_atomic exConfig 5 (exPair (1 / 10) (9 / 10)) exGeometry 1
    ShiftDirection.Right (-10) _ hreq (by norm_num)
  exact ⟨T.1 (Or.inl (by norm_num)), rfl, rfl⟩


/-! ## findNeighbor follows the reference definition -/


theorem getLast_ne_index {cs : List Nat} {y : Nat} (hm : y ∈ cs) (hl : cs.getLast? ≠ some y) :
    cs.indexOf y + 1 < cs.length := by
  have hi : cs.indexOf y < cs.length := List.indexOf_lt_length.mpr hm
  by_contra hcon
  have he : cs.indexOf y = cs.length - 1 := by omega
  apply hl
  have hne : cs ≠ [] := fun e => by rw [e] at hm; cases hm
  rw [List.getLast?_eq_getLast _ hne, List.getLast_eq_getElem]
  congr 1
  have := List.indexOf_get hi
  simp only [List.get_eq_getElem] at this
  simp only [← he]
  exact this

theorem head_ne_index {cs : List Nat} {y : Nat} (hm : y ∈ cs) (hl : cs.head? ≠ some y) :
    cs.indexOf y ≠ 0 := by
  intro h0
  apply hl
  match cs, hm, h0 with
  | x :: rest, _, h0 =>
    simp only [List.head?_cons, Option.some.injEq]
    by_contra hx
    rw [List.indexOf_cons_ne _ hx] at h0
    cases h0

theorem getImmediateSibling_eq {h : Hy3Layout} (wf : WellFormed h) {y p : Nat} {n : Hy3Node}
    {direction : ShiftDirection} (hn : h.get y = some n) (hp : n.parent = some p)
    (he : notOutermostOnAxis h direction y p = true) :
    getImmediateSibling h y direction = siblingInDirection (h.childrenOf p) y direction ∧
      (siblingInDirection (h.childrenOf p) y direction).isSome := by
  obtain ⟨g, hg⟩ := Option.isSome_iff_exists.mp (wf.parent_group hn hp)
  have hcs : h.childrenOf p = g.children := by
    obtain ⟨pn, hpn, hd⟩ := group_eq_some hg
    rw [childrenOf_of_get hpn, hd]; rfl
  have hm : y ∈ g.children := hcs ▸ wf.mem_of_parent (parentOf_eq_some.mpr ⟨n, hn, hp⟩)
  unfold notOutermostOnAxis at he
  simp only [hg, Bool.and_eq_true, bne_iff_ne, ne_eq] at he
  have hout := he.2
  unfold getImmediateSibling siblingInDirection
  simp only [hn, hp, hg, hcs]
  cases direction with
  | Left =>
    have h0 : g.children.indexOf y ≠ 0 := head_ne_index hm hout
    have hi : g.children.indexOf y < g.children.length := List.indexOf_lt_length.mpr hm
    simp only [directionToIteratorIncrement, if_true, if_neg h0]
    rw [if_neg (by omega)]
    exact ⟨rfl, by rw [List.get?_eq_get (by omega)]; rfl⟩
  | Up =>
    have h0 : g.children.indexOf y ≠ 0 := head_ne_index hm hout
    have hi : g.children.indexOf y < g.children.length := List.indexOf_lt_length.mpr hm
    simp only [directionToIteratorIncrement, if_true, if_neg h0]
    rw [if_neg (by omega)]
    exact ⟨rfl, by rw [List.get?_eq_get (by omega)]; rfl⟩
  | Right =>
    have h1 : g.children.indexOf y + 1 < g.children.length := getLast_ne_index hm hout
    simp only [directionToIteratorIncrement, show ¬ ((1 : Int) = -1) by decide, if_false]
    rw [if_pos (show g.children.indexOf y < g.children.length by omega)]
    dsimp only
    rw [if_neg (show ¬ (g.children.indexOf y + 1 = g.children.length) by omega)]
    exact ⟨rfl, by rw [List.get?_eq_get h1]; rfl⟩
  | Down =>
    have h1 : g.children.indexOf y + 1 < g.children.length := getLast_ne_index hm hout
    simp only [directionToIteratorIncrement, show ¬ ((1 : Int) = -1) by decide, if_false]
    rw [if_pos (show g.children.indexOf y < g.children.length by omega)]
    dsimp only
    rw [if_neg (show ¬ (g.children.indexOf y + 1 = g.children.length) by omega)]
    exact ⟨rfl, by rw [List.get?_eq_get h1]; rfl⟩

theorem findNeighborLoop_spec {h : Hy3Layout} (wf : WellFormed h) (direction : ShiftDirection) :
    ∀ (ps : List Nat) (y : Nat), AncestorChain h y ps → ∀ fuel, ps.length < fuel →
      findNeighborLoop direction fuel h y = some (findNeighborSpec h direction y ps) ∧
      (findNeighborSpec h direction y ps = none ↔
        ∀ (i : Nat) (hi : i < ps.length),
          notOutermostOnAxis h direction ((y :: ps).get ⟨i, Nat.lt_succ_of_lt hi⟩)
            (ps.get ⟨i, hi⟩) = false)
  | [], y, hc, fuel, hf => by
    cases hc with
    | root hn hp =>
      obtain ⟨f, rfl⟩ : ∃ f, fuel = f + 1 := ⟨fuel - 1, by omega⟩
      refine ⟨by simp [findNeighborLoop, hn, hp, findNeighborSpec], ?_⟩
      simp [findNeighborSpec]
  | p :: ps, y, hc, fuel, hf => by
    cases hc with
    | step hn hp hrest =>
      obtain ⟨f, rfl⟩ : ∃ f, fuel = f + 1 := ⟨fuel - 1, by omega⟩
      have ih := findNeighborLoop_spec wf direction ps p hrest f (by simpa using hf)
      obtain ⟨g, hg⟩ := Option.isSome_iff_exists.mp (wf.parent_group hn hp)
      have hcs : h.childrenOf p = g.children := by
        obtain ⟨pn, hpn, hd⟩ := group_eq_some hg
        rw [childrenOf_of_get hpn, hd]; rfl
      have hm : y ∈ g.children :=
        hcs ▸ wf.mem_of_parent (parentOf_eq_some.mpr ⟨_, hn, hp⟩)
      by_cases he : notOutermostOnAxis h direction y p = true
      · obtain ⟨hsib, hsome⟩ := getImmediateSibling_eq wf hn hp he
        have he' := he
        unfold notOutermostOnAxis at he'
        simp only [hg, Bool.and_eq_true, bne_iff_ne, ne_eq, beq_iff_eq] at he'
        obtain ⟨⟨hl, hax⟩, hout⟩ := he'
        obtain ⟨outer, houter⟩ : ∃ o, getOuterChild g direction = some o := by
          have hne : g.children ≠ [] := fun e => by rw [e] at hm; cases hm
          cases direction <;>
            simp only [getOuterChild] <;>
            first
            | exact ⟨_, List.head?_eq_head hne⟩
            | exact ⟨_, List.getLast?_eq_getLast _ hne⟩
        have hoy : outer ≠ y := fun e => hout (by rw [houter, e])
        refine ⟨?_, ?_⟩
        · unfold findNeighborLoop findNeighborSpec
          simp only [hn, hp, hg, houter, if_pos he]
          rw [if_pos ⟨hl, hax⟩, if_pos hoy, hsib]
          obtain ⟨s, hs⟩ := Option.isSome_iff_exists.mp hsome
          rw [hs]; rfl
        · unfold findNeighborSpec
          rw [if_pos he]
          constructor
          · intro hnone
            rw [hnone] at hsome
            cases hsome
          · intro hall
            have := hall 0 (by simp)
            simp only [List.get_eq_getElem, List.getElem_cons_zero] at this
            rw [he] at this
            cases this
      · have hef : notOutermostOnAxis h direction y p = false := by
          cases hq : notOutermostOnAxis h direction y p with
          | true => exact absurd hq he
          | false => rfl
        refine ⟨?_, ?_⟩
        · unfold findNeighborSpec
          rw [if_neg he]
          unfold findNeighborLoop
          simp only [hn, hp, hg]
          have hef' := hef
          unfold notOutermostOnAxis at hef'
          simp only [hg, Bool.and_eq_false_iff, bne_eq_false_iff_eq, beq_eq_false_iff_ne,
            ne_eq] at hef'
          by_cases hcond : g.layout ≠ Hy3GroupLayout.Tabbed
              ∧ getAxisOfLayout g.layout = getAxisOfDirection direction
          · rw [if_pos hcond]
            rcases hef' with (h1 | h1) | h1
            · exact absurd h1 hcond.1
            · exact absurd hcond.2 h1
            · simp only [h1, ne_eq, not_true_eq_false, if_false]
              exact ih.1
          · rw [if_neg hcond]
            exact ih.1
        · unfold findNeighborSpec
          rw [if_neg he, ih.2]
          constructor
          · intro hall i hi
            cases i with
            | zero => simpa using hef
            | succ i => exact hall i (by simpa using hi)
          · intro hall i hi
            exact hall (i + 1) (by simpa using hi)


/-! ## C15: findNeighbor -/


/-- C15: for a node `x` of a well-formed store with ancestors `ps` (parent first, root last) and
fuel above the number of ancestors, `findNeighbor(direction)` returns the immediate sibling in
that direction of the lowest ancestor-or-self `y` whose parent is a non-tabbed group on the axis
of the direction in which `y` is not the outermost child; it returns null exactly when there is
no such `y` (for a root in particular). -/
theorem findNeighbor_lowest_not_outermost (h : Hy3Layout) (wf : WellFormed h) (x : Nat)
    (ps : List Nat) (hc : AncestorChain h x ps) (direction : ShiftDirection) (fuel : Nat)
    (hf : ps.length < fuel) :
    findNeighbor fuel h x direction = some (findNeighborSpec h direction x ps) ∧
      (findNeighborSpec h direction x ps = none ↔
        ∀ (i : Nat) (hi : i < ps.length),
          notOutermostOnAxis h direction ((x :: ps).get ⟨i, Nat.lt_succ_of_lt hi⟩)
            (ps.get ⟨i, hi⟩) = false) :=
  findNeighborLoop_spec wf direction ps x hc fuel hf

theorem findNeighbor_lowest_not_outermost_witness :
    findNeighbor 3 exEphemeral 3 ShiftDirection.Up = some (some 2) ∧
      findNeighbor 3 exEphemeral 2 ShiftDirection.Up = some none ∧
      findNeighbor 1 exEphemeral 0 ShiftDirection.Up = some none := by
  have wf : WellFormed exEphemeral := wellFormed_of_check (by decide)
  have c0 : AncestorChain exEphemeral 0 [] := AncestorChain.root (n := _) rfl rfl
  have c1 : AncestorChain exEphemeral 1 [0] := AncestorChain.step (n := _) rfl rfl c0
  have c3 : AncestorChain exEphemeral 3 [1, 0] := AncestorChain.step (n := _) rfl rfl c1
  have c2 : AncestorChain exEphemeral 2 [1, 0] := AncestorChain.step (n := _) rfl rfl c1
  have T3 := findNeighbor_lowest_not_outermost exEphemeral wf 3 [1, 0] c3 ShiftDirection.Up 3
    (by decide)
  have T2 := findNeighbor_lowest_not_outermost exEphemeral wf 2 [1, 0] c2 ShiftDirection.Up 3
    (by decide)
  have T0 := findNeighbor_lowest_not_outermost exEphemeral wf 0 [] c0 ShiftDirection.Up 1
    (by decide)
  exact ⟨T3.1, T2.1, T0.1⟩


/-! ## The prelude of removeFromParentRecursive returns -/


theorem ChildrenRanked.of_sameButExpand {h h' : Hy3Layout} {rank : Nat → Nat} {B : Nat}
    (cr : ChildrenRanked h rank B) (s : SameButExpand h h') : ChildrenRanked h' rank B := by
  intro a n' c hn' hc
  have hco : c ∈ h'.childrenOf a := by rw [childrenOf_of_get hn']; exact hc
  rw [s.childrenOf] at hco
  obtain ⟨n, hn, hm⟩ := mem_childrenOf.mp hco
  have := cr a n c hn hm
  refine ⟨?_, this.2⟩
  have hs := s.isSome c
  rw [hs]
  exact this.1

theorem collapseStack_total {rank : Nat → Nat} {B : Nat} :
    ∀ (fuel : Nat) (h : Hy3Layout) (a : Nat),
      (∀ b g, h.group b = some g → g.expand_focused = ExpandFocusType.Stack →
        ∃ fc, g.focused_child = some fc ∧ fc ∈ g.children) →
      ChildrenRanked h rank B → (h.get a).isSome → B - rank a < fuel →
      ∃ h', collapseStack fuel h (some a) = some h'
  | 0, _, _, _, _, _, hf => by omega
  | fuel + 1, h, a, hst, cr, hs, hf => by
    obtain ⟨n, hn⟩ := Option.isSome_iff_exists.mp hs
    unfold collapseStack
    simp only [hn]
    cases hd : n.data with
    | window w => exact ⟨h, rfl⟩
    | group g =>
      simp only
      by_cases hst1 : g.expand_focused = ExpandFocusType.Stack
      · rw [if_pos hst1]
        obtain ⟨fc, hfc, hm⟩ := hst a g (group_of_get hn hd) hst1
        rw [hfc]
        have hcr := cr a n fc hn (by rw [hd]; exact hm)
        have s : SameButExpand h (h.modifyGroup a fun g =>
            { g with expand_focused := ExpandFocusType.NotExpanded }) :=
          SameButExpand.modifyGroup h a _ (by intro _; rfl)
        refine collapseStack_total fuel _ fc ?_ (cr.of_sameButExpand s) ?_ (by omega)
        · intro b gb hgb hsb
          rw [group_modifyGroup] at hgb
          by_cases hba : b = a
          · rw [if_pos hba] at hgb
            cases hq : h.group b with
            | none => simp [hq] at hgb
            | some q =>
              simp only [hq, Option.map_some', Option.some.injEq] at hgb
              rw [← hgb] at hsb
              cases hsb
          · rw [if_neg hba] at hgb
            exact hst b gb hgb hsb
        · rw [s.isSome]
          exact hcr.1
      · rw [if_neg hst1]
        exact ⟨h, rfl⟩

theorem collapseExpansions_total {rank : Nat → Nat} {B : Nat} {h : Hy3Layout}
    (ei : ExpandInv h) (cr : ChildrenRanked h rank B) {a : Nat} {n : Hy3Node}
    {g : Hy3GroupData} (hn : h.get a = some n) (hd : n.data = Hy3NodeData.group g)
    {fuel : Nat} (hf : B < fuel) : ∃ h', collapseExpansions fuel h a = some h' := by
  unfold collapseExpansions
  rw [group_of_get hn hd]
  simp only
  by_cases hne : g.expand_focused = ExpandFocusType.NotExpanded
  · rw [if_pos hne]
    exact ⟨h, rfl⟩
  · rw [if_neg hne]
    obtain ⟨fc, hfc, hm⟩ := ei a g (group_of_get hn hd) hne
    rw [hfc]
    have hcr := cr a n fc hn (by rw [hd]; exact hm)
    have s : SameButExpand h (h.modifyGroup a fun g =>
        { g with expand_focused := ExpandFocusType.NotExpanded }) :=
      SameButExpand.modifyGroup h a _ (by intro _; rfl)
    refine collapseStack_total fuel _ fc ?_ (cr.of_sameButExpand s) ?_ (by omega)
    · intro b gb hgb hsb
      rw [group_modifyGroup] at hgb
      by_cases hba : b = a
      · rw [if_pos hba] at hgb
        cases hq : h.group b with
        | none => simp [hq] at hgb
        | some q =>
          simp only [hq, Option.map_some', Option.some.injEq] at hgb
          rw [← hgb] at hsb
          cases hsb
      · rw [if_neg hba] at hgb
        exact ei b gb hgb (by rw [hsb]; decide)
    · rw [s.isSome]
      exact hcr.1

theorem getExpandActor_total {h : Hy3Layout} (wf : WellFormed h) :
    ∀ (ps : List Nat) (x : Nat), AncestorChain h x ps → ∀ fuel, ps.length < fuel →
      ∃ actor, getExpandActor fuel h x = some actor ∧ (h.get actor).isSome
  | [], x, hc, fuel, hf => by
    cases hc with
    | root hn hp =>
      obtain ⟨f, rfl⟩ : ∃ f, fuel = f + 1 := ⟨fuel - 1, by omega⟩
      exact ⟨x, by simp [getExpandActor, hn, hp], by simp [hn]⟩
  | p :: ps, x, hc, fuel, hf => by
    cases hc with
    | step hn hp hrest =>
      obtain ⟨f, rfl⟩ : ∃ f, fuel = f + 1 := ⟨fuel - 1, by omega⟩
      obtain ⟨g, hg⟩ := Option.isSome_iff_exists.mp (wf.parent_group hn hp)
      unfold getExpandActor
      simp only [hn, hp, hg]
      split
      · exact getExpandActor_total wf ps p hrest f (by simpa using hf)
      · exact ⟨x, rfl, by simp [hn]⟩

theorem removePrelude_total {h : Hy3Layout} (wf : WellFormed h) {rank : Nat → Nat} {B : Nat}
    (rk : RankedBy h rank B) (ei : ExpandInv h) {x : Nat} {ps : List Nat}
    (hc : AncestorChain h x ps) {fuel : Nat} (hf : B + ps.length < fuel) :
    ∃ h1 actor, removePrelude fuel h x = some (h1, actor) := by
  have hx : ∃ tn, h.get x = some tn := by
    cases hc with
    | root hn _ => exact ⟨_, hn⟩
    | step hn _ _ => exact ⟨_, hn⟩
  obtain ⟨tn, htn⟩ := hx
  unfold removePrelude
  simp only [htn]
  cases hp : tn.parent with
  | none => exact ⟨h, none, rfl⟩
  | some p =>
    simp only
    obtain ⟨actor, ha, hs⟩ := getExpandActor_total wf ps x hc fuel (by omega)
    obtain ⟨an, han⟩ := Option.isSome_iff_exists.mp hs
    simp only [ha, han]
    cases hd : an.data with
    | window w => exact ⟨h, none, rfl⟩
    | group g =>
      simp only
      obtain ⟨h1, h1e⟩ := collapseExpansions_total ei (wf.childrenRanked rk) han hd
        (show B < fuel by omega)
      rw [h1e]
      exact ⟨h1, some actor, rfl⟩


/-! ## The removal loop returns and deletes the emptied ancestors -/


theorem AncestorChain.rank_lt {h : Hy3Layout} {rank : Nat → Nat} {B : Nat}
    (rk : RankedBy h rank B) : ∀ {ps : List Nat} {a : Nat}, AncestorChain h a ps →
      ∀ q ∈ ps, rank q < rank a
  | [], _, _, q, hq => by cases hq
  | p :: ps, a, hc, q, hq => by
    cases hc with
    | step hn hp hrest =>
      have h1 := (rk a _ hn).2 p hp
      rcases List.mem_cons.mp hq with e | e
      · rw [e]; exact h1
      · exact lt_trans (AncestorChain.rank_lt rk hrest q e) h1

theorem AncestorChain.congr_on {h h' : Hy3Layout} : ∀ {ps : List Nat} {a : Nat},
    AncestorChain h a ps →
    (∀ y, y = a ∨ y ∈ ps → (h'.get y).map Hy3Node.parent = (h.get y).map Hy3Node.parent) →
    AncestorChain h' a ps
  | [], a, hc, hp => by
    cases hc with
    | root hn hpn =>
      have := hp a (Or.inl rfl)
      rw [hn] at this
      cases hq : h'.get a with
      | none => simp [hq] at this
      | some n' =>
        simp only [hq, Option.map_some', Option.some.injEq] at this
        exact AncestorChain.root hq (this.trans hpn)
  | p :: ps, a, hc, hp => by
    cases hc with
    | step hn hpn hrest =>
      have := hp a (Or.inl rfl)
      rw [hn] at this
      cases hq : h'.get a with
      | none => simp [hq] at this
      | some n' =>
        simp only [hq, Option.map_some', Option.some.injEq] at this
        refine AncestorChain.step hq (this.trans hpn) (hrest.congr_on (fun y hy => hp y ?_))
        rcases hy with e | e
        · exact Or.inr (e ▸ List.mem_cons_self _ _)
        · exact Or.inr (List.mem_cons_of_mem _ e)

theorem emptiedAncestors_congr {h h' : Hy3Layout} : ∀ (ps : List Nat) (c : Nat),
    (∀ q ∈ ps, h'.childrenOf q = h.childrenOf q) →
    emptiedAncestors h' c ps = emptiedAncestors h c ps
  | [], _, _ => rfl
  | p :: ps, c, hq => by
    unfold emptiedAncestors
    rw [hq p (List.mem_cons_self _ _),
      emptiedAncestors_congr ps p (fun q hm => hq q (List.mem_cons_of_mem _ hm))]

theorem detachStore_isSome (this child gp : Nat) (cs0 : List Nat) (h : Hy3Layout) (a : Nat) :
    ((detachStore this child gp cs0 h).get a).isSome =
      if a = child ∧ child ≠ this then false else (h.get a).isSome := by
  unfold detachStore
  by_cases hct : child ≠ this
  · simp only [if_pos hct]
    rw [get_remove]
    by_cases hac : a = child
    · have hc : a = child ∧ child ≠ this := ⟨hac, hct⟩
      rw [if_pos hac, if_pos hc]; rfl
    · have hc : ¬ (a = child ∧ child ≠ this) := fun hh => hac hh.1
      rw [if_neg hac, if_neg hc, get_modifyGroup_isSome, focusBeforeRemove_get_isSome]
  · have hc : ¬ (a = child ∧ child ≠ this) := fun hh => hct hh.2
    simp only [if_neg hct]
    rw [if_neg hc, get_modify_isSome, get_modifyGroup_isSome, focusBeforeRemove_get_isSome]

theorem removeLoop_total (this : Nat) {rank : Nat → Nat} {B : Nat} :
    ∀ (ps : List Nat) (h : Hy3Layout) (c : Nat), AncestorChain h c ps → StoreOK h →
    WellFormed h → RankedBy h rank B →
    (c = this ∨ (h.childrenOf c = [] ∧ rank c < rank this)) →
    ∀ fuel, ps.length < fuel →
    ∃ h', removeLoop this fuel h c = some (h', (emptiedAncestors h c ps).2) ∧
      (∀ a, (h'.get a).isSome ↔
        ((h.get a).isSome ∧ (a = c → c = this) ∧ a ∉ (emptiedAncestors h c ps).1)) ∧
      ((∀ a, (h.group a).isSome → h.childrenOf a = [] → a = c ∧ c ≠ this) →
        ∀ a, (h'.group a).isSome → h'.childrenOf a ≠ [])
  | [], h, c, hc, ok, wf, rk, hcc, fuel, hf => by
    cases hc with
    | root hn hp =>
      obtain ⟨f, rfl⟩ : ∃ f, fuel = f + 1 := ⟨fuel - 1, by omega⟩
      rw [removeLoop_root hn hp]
      refine ⟨_, rfl, fun a => ?_, fun hP a hga hca => ?_⟩
      swap
      · by_cases hct : c ≠ this
        · rw [if_pos hct] at hga hca
          rw [group_remove] at hga
          rw [childrenOf_remove] at hca
          by_cases hac : a = c
          · rw [if_pos hac] at hga; cases hga
          · rw [if_neg hac] at hga hca
            exact hac (hP a hga hca).1
        · rw [if_neg hct] at hga hca
          exact hct (hP a hga hca).2
      simp only [emptiedAncestors, List.not_mem_nil, not_false_eq_true, and_true]
      by_cases hct : c ≠ this
      · rw [if_pos hct, get_remove]
        by_cases hac : a = c
        · rw [if_pos hac]
          simp only [Option.isSome_none, Bool.false_eq_true, false_iff, not_and]
          intro _ himp
          exact hct (himp hac)
        · rw [if_neg hac]
          exact ⟨fun hs => ⟨hs, fun e => absurd e hac⟩, fun hs => hs.1⟩
      · rw [if_neg hct]
        push_neg at hct
        exact ⟨fun hs => ⟨hs, fun _ => hct⟩, fun hs => hs.1⟩
  | p :: ps, h, c, hc, ok, wf, rk, hcc, fuel, hf => by
    cases hc with
    | step hn hp hrest =>
      obtain ⟨f, rfl⟩ : ∃ f, fuel = f + 1 := ⟨fuel - 1, by omega⟩
      obtain ⟨group, hg⟩ := Option.isSome_iff_exists.mp (wf.parent_group hn hp)
      have hpc : h.parentOf c = some (some p) := by simp [Hy3Layout.parentOf, hn, hp]
      have chgp : h.childrenOf p = group.children := by
        obtain ⟨n, hn1, hd⟩ := group_eq_some hg
        rw [childrenOf_of_get hn1, hd]; rfl
      have hm : c ∈ group.children := chgp ▸ wf.mem_of_parent hpc
      rw [removeLoop_step hn hp hg hm]
      have ok3 := ok.detachStore this c p group.children
      have wf3 : WellFormed (detachStore this c p group.children h) :=
        wf.detachStore_wf hg hpc (hcc.imp id And.left)
      obtain ⟨pp, pc⟩ := detachStore_proj this c p h group hg
      have hrp : rank p < rank c := (rk c _ hn).2 p hp
      have hrest_rank := AncestorChain.rank_lt rk hrest
      have hcp : c ≠ p := fun e => by rw [e] at hrp; exact lt_irrefl _ hrp
      obtain ⟨pg, -⟩ := detachStore_group this c p h group hg (Ne.symm hcp)
      have hother : (∀ a, (h.group a).isSome → h.childrenOf a = [] → a = c ∧ c ≠ this) →
          ∀ a, a ≠ p → ((detachStore this c p group.children h).group a).isSome →
            (detachStore this c p group.children h).childrenOf a ≠ [] := by
        intro hP a hap hga hca
        rw [pg a hap] at hga
        rw [pc a] at hca
        by_cases hac : a = c ∧ c ≠ this
        · rw [if_pos hac] at hga; cases hga
        · rw [if_neg hac] at hga hca
          rw [if_neg hap] at hca
          exact hac (hP a hga hca)
      by_cases hcs : group.children.filter (fun s => s ≠ c) ≠ []
      · rw [if_pos hcs]
        have hsp : emptiedAncestors h c (p :: ps) = ([], some p) := by
          unfold emptiedAncestors
          rw [chgp, if_neg hcs]
        rw [hsp]
        obtain ⟨h4, h4e, g4⟩ := addRatioAll_spec
          _ (group.children.filter fun s => s ≠ c)
          (detachStore this c p group.children h) (fun s hs => by
            rw [detachStore_isSome]
            have hsc : s ≠ c := by
              have := (List.mem_filter.mp hs).2
              simpa using this
            rw [if_neg (fun hh => hsc hh.1)]
            exact wf.childrenInStore.of_get (group_eq_some hg).choose_spec.1 s
              (by
                have := (group_eq_some hg).choose_spec.2
                rw [this]
                exact (List.mem_filter.mp hs).1))
        rw [h4e]
        refine ⟨_, rfl, fun a => ?_, fun hP a hga hca => ?_⟩
        swap
        · rw [group_modify_parent, (addRatioAll_proj h4e).2.2] at hga
          rw [childrenOf_modify_parent, (addRatioAll_proj h4e).2.1] at hca
          by_cases hap : a = p
          · rw [pc a, if_neg (fun hh => hcp (hh.1.symm.trans hap)), if_pos hap] at hca
            exact hcs hca
          · exact hother hP a hap hga hca
        rw [get_modify_isSome, g4, Option.isSome_map', detachStore_isSome]
        simp only [List.not_mem_nil, not_false_eq_true, and_true]
        by_cases hac : a = c ∧ c ≠ this
        · rw [if_pos hac]
          simp only [Bool.false_eq_true, false_iff, not_and]
          intro _ himp
          exact hac.2 (himp hac.1)
        · rw [if_neg hac]
          refine ⟨fun hs => ⟨hs, fun e => ?_⟩, fun hs => hs.1⟩
          by_contra hct
          exact hac ⟨e, hct⟩
      · rw [if_neg hcs]
        push_neg at hcs
        have hsp : emptiedAncestors h c (p :: ps) =
            (p :: (emptiedAncestors h p ps).1, (emptiedAncestors h p ps).2) := by
          show (if (h.childrenOf p).filter (fun s => s ≠ c) = [] then _ else _) = _
          rw [chgp, if_pos hcs]
        have hcps : c ∉ ps := fun hmem => by
          have := hrest_rank c hmem
          omega
        have hpps : p ∉ ps := fun hmem => by
          have := hrest_rank p hmem
          omega
        have hchain3 : AncestorChain (detachStore this c p group.children h) p ps := by
          refine hrest.congr_on (fun y hy => ?_)
          have hyc : y ≠ c := by
            rcases hy with e | e
            · rw [e]; exact Ne.symm hcp
            · exact fun e2 => hcps (e2 ▸ e)
          have := pp y
          rw [if_neg hyc] at this
          exact this
        have hemp : emptiedAncestors (detachStore this c p group.children h) p ps
            = emptiedAncestors h p ps := by
          refine emptiedAncestors_congr ps p (fun q hq => ?_)
          rw [pc q]
          have hqc : q ≠ c := fun e => hcps (e ▸ hq)
          have hqp : q ≠ p := fun e => hpps (e ▸ hq)
          rw [if_neg (fun hh => hqc hh.1), if_neg hqp]
        have hpthis : p ≠ this := by
          rcases hcc with e | e
          · rw [← e]; exact Ne.symm hcp
          · intro e2
            have := e.2
            rw [← e2] at this
            omega
        obtain ⟨h', he, hst, hne⟩ := removeLoop_total this ps _ p hchain3 ok3 wf3
          (rk.of_fewer_parents (fun a q hpa => by
            rw [pp a] at hpa
            by_cases hac : a = c
            · rw [if_pos hac] at hpa
              rw [hac]
              refine ⟨_, hpc, Or.inl ?_⟩
              split at hpa
              · cases hpa
              · rw [hac, hpc] at hpa
                simp only [Option.map_some', Option.some.injEq] at hpa
                exact hpa.symm
            · rw [if_neg hac] at hpa
              exact ⟨q, hpa, Or.inr rfl⟩))
          (Or.inr ⟨by
            rw [pc p]
            by_cases hgc : p = c ∧ c ≠ this
            · rw [if_pos hgc]
            · rw [if_neg hgc, if_pos rfl, hcs], by
            rcases hcc with e | e
            · rw [← e]; exact hrp
            · exact lt_trans hrp e.2⟩)
          f (by simpa using hf)
        rw [hemp] at he hst
        rw [hsp]
        refine ⟨h', he, fun a => ?_, fun hP => hne (fun a hga hca => ?_)⟩
        swap
        · by_cases hap : a = p
          · exact ⟨hap, hpthis⟩
          · exact absurd hca (hother hP a hap hga)
        rw [hst a, detachStore_isSome]
        simp only [List.mem_cons, not_or]
        by_cases hac : a = c ∧ c ≠ this
        · rw [if_pos hac]
          simp only [Bool.false_eq_true, false_and, false_iff, not_and]
          intro _ himp
          exact absurd (himp hac.1) hac.2
        · rw [if_neg hac]
          constructor
          · rintro ⟨hs, himp, hne⟩
            refine ⟨hs, fun e => ?_, fun e => hpthis (himp e), hne⟩
            by_contra hct
            exact hac ⟨e, hct⟩
          · rintro ⟨hs, _, hap, hne⟩
            exact ⟨hs, fun e => absurd e hap, hne⟩


/-! ## removeFromParentRecursive returns -/


theorem expandInv_of_check {h : Hy3Layout} (hc : expandCheck h = true) : ExpandInv h := by
  unfold expandCheck at hc
  simp only [List.all_eq_true] at hc
  intro a g hg hne
  obtain ⟨n, hn, hd⟩ := group_eq_some hg
  have := hc n (get_mem hn)
  have hag : n.asGroup = some g := by simp [Hy3Node.asGroup, hd]
  rw [hag] at this
  simp only [Bool.or_eq_true, decide_eq_true_eq] at this
  rcases this with e | e
  · exact absurd e hne
  · cases hf : g.focused_child with
    | none => simp [hf] at e
    | some fc => exact ⟨fc, rfl, by simpa [hf] using e⟩

theorem noEmptyGroup_of_check {h : Hy3Layout} (hc : noEmptyGroupCheck h = true) :
    NoEmptyGroup h := by
  unfold noEmptyGroupCheck at hc
  simp only [List.all_eq_true] at hc
  intro a g hg he
  obtain ⟨n, hn, hd⟩ := group_eq_some hg
  have := hc n (get_mem hn)
  have hag : n.asGroup = some g := by simp [Hy3Node.asGroup, hd]
  rw [hag] at this
  simp [he] at this

theorem childrenOf_of_group_eq {h : Hy3Layout} {a : Nat} {g : Hy3GroupData}
    (hg : h.group a = some g) : h.childrenOf a = g.children := by
  obtain ⟨n, hn, hd⟩ := group_eq_some hg
  rw [childrenOf_of_get hn, hd]; rfl

theorem SameButExpand.expand_group_isSome {h h' : Hy3Layout} (hs : SameButExpand h h') (a : Nat) :
    (h'.group a).isSome = (h.group a).isSome := by
  cases hg : h.group a with
  | some g =>
    obtain ⟨g', hg', -⟩ := hs.group hg
    rw [hg']; rfl
  | none =>
    cases hg' : h'.group a with
    | none => rfl
    | some g' =>
      have hs' : SameButExpand h' h := fun b => (hs b).symm
      obtain ⟨g2, hg2, -⟩ := hs'.group hg'
      rw [hg] at hg2; cases hg2

theorem removeFromParentRecursive_total {h : Hy3Layout} (ok : StoreOK h) (wf : WellFormed h)
    {rank : Nat → Nat} {B : Nat} (rk : RankedBy h rank B) (ei : ExpandInv h) {x : Nat}
    {ps : List Nat} (hc : AncestorChain h x ps) {fuel : Nat} (hf : B + ps.length < fuel) :
    ∃ r, removeFromParentRecursive fuel h x = some r ∧
      r.ret = (emptiedAncestors h x ps).2 ∧
      (∀ a, (r.layout.get a).isSome ↔
        ((h.get a).isSome ∧ a ∉ (emptiedAncestors h x ps).1)) ∧
      (NoEmptyGroup h → NoEmptyGroup r.layout) := by
  obtain ⟨h1, actor, e1⟩ := removePrelude_total wf rk ei hc hf
  have s := removePrelude_same e1
  have ad := removePrelude_addrs e1
  have ok1 : StoreOK h1 := ok.of_addrs ad.2 (le_of_eq ad.1.symm)
  have wf1 : WellFormed h1 := by
    rw [wellFormed_iff] at wf ⊢
    refine ⟨fun a p hp => ?_, fun a c hm => ?_⟩
    · rw [s.parentOf] at hp
      rw [s.childrenOf]
      exact wf.1 a p hp
    · rw [s.childrenOf] at hm
      rw [s.parentOf]
      exact wf.2 a c hm
  have rk1 : RankedBy h1 rank B := by
    rw [rankedBy_iff] at rk ⊢
    refine ⟨fun a ha => ?_, fun a p hp => ?_⟩
    · rw [s.isSome] at ha
      exact rk.1 a ha
    · rw [s.parentOf] at hp
      exact rk.2 a p hp
  have hc1 : AncestorChain h1 x ps := hc.congr_on (fun y _ => s.parentOf y)
  have hemp : emptiedAncestors h1 x ps = emptiedAncestors h x ps :=
    emptiedAncestors_congr ps x (fun q _ => s.childrenOf q)
  obtain ⟨h2, e2, hst, hne⟩ := removeLoop_total x ps h1 x hc1 ok1 wf1 rk1 (Or.inl rfl) fuel
    (by omega)
  rw [hemp] at e2 hst
  refine ⟨⟨h2, _, actor⟩, ?_, rfl, fun a => ?_, fun hN => ?_⟩
  · unfold removeFromParentRecursive
    rw [e1]
    simp only [e2]
  · rw [hst a, s.isSome a]
    exact ⟨fun hh => ⟨hh.1, hh.2.2⟩, fun hh => ⟨hh.1, fun _ => rfl, hh.2⟩⟩
  · intro a g hg he
    refine hne (fun b hgb hcb => ?_) a (by rw [hg]; rfl) (by rw [childrenOf_of_group_eq hg, he])
    rw [s.expand_group_isSome] at hgb
    rw [s.childrenOf] at hcb
    obtain ⟨gb, hgb'⟩ := Option.isSome_iff_exists.mp hgb
    exact absurd (by rw [← childrenOf_of_group_eq hgb']; exact hcb) (hN b gb hgb')


/-! ## C11: removal deletes exactly the emptied ancestors -/


/-- C11: in a well-formed, acyclic store whose expanded groups name a child, for a node `x`
with ancestors `ps` (parent first, root last), `x.removeFromParentRecursive` returns whenever
the fuel is large enough; it returns the nearest ancestor that keeps a child (null when every
ancestor is emptied or `x` has no parent), the nodes of the store afterwards are exactly the old
ones without the ancestors left with zero children, and if no group had an empty child list
before then none has one afterwards. -/
theorem removeFromParentRecursive_removes_emptied (h : Hy3Layout) (ok : StoreOK h)
    (wf : WellFormed h) (ac : Acyclic h) (ei : ExpandInv h) (x : Nat) (ps : List Nat)
    (hc : AncestorChain h x ps) :
    ∃ N, ∀ fuel, N ≤ fuel →
      ∃ r, removeFromParentRecursive fuel h x = some r ∧
        r.ret = (emptiedAncestors h x ps).2 ∧
        (∀ a, (r.layout.get a).isSome ↔
          ((h.get a).isSome ∧ a ∉ (emptiedAncestors h x ps).1)) ∧
        (NoEmptyGroup h → NoEmptyGroup r.layout) := by
  obtain ⟨rank, B, rk⟩ := ac
  exact ⟨B + ps.length + 1, fun fuel hf =>
    removeFromParentRecursive_total ok wf rk ei hc (by omega)⟩

theorem removeFromParentRecursive_removes_emptied_witness :
    (∃ N, ∀ fuel, N ≤ fuel →
      ∃ r, removeFromParentRecursive fuel exEphemeral 3 = some r ∧
        r.ret = some 1 ∧
        (∀ a, (r.layout.get a).isSome ↔ ((exEphemeral.get a).isSome ∧ a ∉ [])) ∧
        (NoEmptyGroup exEphemeral → NoEmptyGroup r.layout)) ∧
    (∃ N, ∀ fuel, N ≤ fuel →
      ∃ r, removeFromParentRecursive fuel exRootWindow 1 = some r ∧
        r.ret = none ∧
        (∀ a, (r.layout.get a).isSome ↔ ((exRootWindow.get a).isSome ∧ a ∉ [0])) ∧
        (NoEmptyGroup exRootWindow → NoEmptyGroup r.layout)) ∧
    NoEmptyGroup exEphemeral ∧ NoEmptyGroup exRootWindow := by
  have c0 : AncestorChain exEphemeral 0 [] := AncestorChain.root (n := _) rfl rfl
  have c1 : AncestorChain exEphemeral 1 [0] := AncestorChain.step (n := _) rfl rfl c0
  have c3 : AncestorChain exEphemeral 3 [1, 0] := AncestorChain.step (n := _) rfl rfl c1
  have d0 : AncestorChain exRootWindow 0 [] := AncestorChain.root (n := _) rfl rfl
  have d1 : AncestorChain exRootWindow 1 [0] := AncestorChain.step (n := _) rfl rfl d0
  have T1 := removeFromParentRecursive_removes_emptied exEphemeral
    (by unfold StoreOK; decide) (wellFormed_of_check (by decide))
    ⟨id, 3, rankedBy_of_check (by decide)⟩ (expandInv_of_check (by decide)) 3 [1, 0] c3
  have T2 := removeFromParentRecursive_removes_emptied exRootWindow
    (by unfold StoreOK; decide) (wellFormed_of_check (by decide))
    ⟨id, 1, rankedBy_of_check (by decide)⟩ (expandInv_of_check (by decide)) 1 [0] d1
  have e1 : emptiedAncestors exEphemeral 3 [1, 0] = ([], some 1) := by decide
  have e2 : emptiedAncestors exRootWindow 1 [0] = ([0], none) := by decide
  rw [e1] at T1
  rw [e2] at T2
  exact ⟨T1, T2, noEmptyGroup_of_check (by decide), noEmptyGroup_of_check (by decide)⟩


/-! ## A removal that leaves the parent a child stops there -/


theorem removeFromParentRecursive_one_round {h : Hy3Layout} (wf : WellFormed h)
    {rank : Nat → Nat} {B : Nat} (rk : RankedBy h rank B) (ei : ExpandInv h) {x p : Nat}
    {ps : List Nat} (hc : AncestorChain h x (p :: ps))
    (hrem : (h.childrenOf p).filter (fun s => s ≠ x) ≠ []) {fuel : Nat}
    (hf : B + (p :: ps).length < fuel) :
    ∃ r, removeFromParentRecursive fuel h x = some r ∧ r.ret = some p ∧
      r.layout.childrenOf p = (h.childrenOf p).filter (fun s => s ≠ x) ∧
      (∀ a, a ≠ p → r.layout.childrenOf a = h.childrenOf a) ∧
      r.layout.parentOf x = some none ∧
      (∀ a, a ≠ x → r.layout.parentOf a = h.parentOf a) ∧
      (∀ a, (r.layout.get a).isSome = (h.get a).isSome) ∧
      (((h.childrenOf p).filter (fun s => s ≠ x)).length = 1 →
        (r.layout.group p).map Hy3GroupData.focused_child =
          some ((h.childrenOf p).filter (fun s => s ≠ x)).head?) := by
  obtain ⟨h1, actor, e1⟩ := removePrelude_total wf rk ei hc hf
  have s := removePrelude_same e1
  have hc1 : AncestorChain h1 x (p :: ps) := hc.congr_on (fun y _ => s.parentOf y)
  have wf1 : WellFormed h1 := by
    rw [wellFormed_iff] at wf ⊢
    refine ⟨fun a q hp => ?_, fun a c hm => ?_⟩
    · rw [s.parentOf] at hp
      rw [s.childrenOf]
      exact wf.1 a q hp
    · rw [s.childrenOf] at hm
      rw [s.parentOf]
      exact wf.2 a c hm
  obtain ⟨f, rfl⟩ : ∃ f, fuel = f + 1 := ⟨fuel - 1, by simp at hf; omega⟩
  cases hc1 with
  | step hn hp hrest =>
    obtain ⟨group, hg⟩ := Option.isSome_iff_exists.mp (wf1.parent_group hn hp)
    have hpc : h1.parentOf x = some (some p) := by simp [Hy3Layout.parentOf, hn, hp]
    have chgp : h1.childrenOf p = group.children := childrenOf_of_group_eq hg
    have hch : h.childrenOf p = group.children := (s.childrenOf p).symm.trans chgp
    have hm : x ∈ group.children := chgp ▸ wf1.mem_of_parent hpc
    have hxp : x ≠ p := by
      intro e
      have h0 := (rankedBy_iff h rank B).mp rk
      have := h0.2 x p ((s.parentOf x).symm.trans hpc)
      rw [e] at this
      exact lt_irrefl _ this
    rw [hch] at hrem ⊢
    have e2 := @removeLoop_step x f _ _ _ _ _ hn hp hg hm
    rw [if_pos hrem] at e2
    obtain ⟨pp, pc⟩ := detachStore_proj x x p h1 group hg
    obtain ⟨pg, g3, hg3, hg3c, hg3f⟩ := detachStore_group x x p h1 group hg (Ne.symm hxp)
    obtain ⟨h4, h4e, g4⟩ := addRatioAll_spec _ (group.children.filter fun s => s ≠ x)
      (detachStore x x p group.children h1) (fun c hcm => by
        rw [detachStore_isSome]
        have hsc : ¬ (c = x ∧ x ≠ x) := fun hh => hh.2 rfl
        rw [if_neg hsc]
        exact wf1.childrenInStore.of_get (group_eq_some hg).choose_spec.1 c
          (by
            have := (group_eq_some hg).choose_spec.2
            rw [this]
            exact (List.mem_filter.mp hcm).1))
    rw [h4e] at e2
    have pr := addRatioAll_proj h4e
    have hxx : ¬ (x ≠ x) := fun hh => hh rfl
    refine ⟨⟨h4.modify x fun n => { n with parent := none }, some p, actor⟩, ?_, rfl, ?_, fun a ha => ?_, ?_, fun a ha => ?_, fun a => ?_,
      fun hl => ?_⟩
    · unfold removeFromParentRecursive
      rw [e1]
      simp only [e2, Option.map_some']
    · show (h4.modify x _).childrenOf p = _
      rw [childrenOf_modify_parent, pr.2.1, pc p,
        if_neg (fun hh => hxx hh.2), if_pos rfl]
    · show (h4.modify x _).childrenOf a = _
      rw [childrenOf_modify_parent, pr.2.1, pc a,
        if_neg (fun hh => hxx hh.2), if_neg ha, s.childrenOf]
    · show (h4.modify x _).parentOf x = _
      rw [parentOf_modify_parent, if_pos rfl, pr.1, pp x, if_pos rfl, if_neg hxx, hpc]
      rfl
    · show (h4.modify x _).parentOf a = _
      rw [parentOf_modify_parent, if_neg ha, pr.1, pp a, if_neg ha, s.parentOf]
    · show ((h4.modify x _).get a).isSome = _
      rw [get_modify_isSome, g4 a, Option.isSome_map', detachStore_isSome,
        if_neg (fun hh => hxx hh.2), s.isSome]
    · show ((h4.modify x _).group p).map _ = _
      rw [group_modify_parent, pr.2.2, hg3, Option.map_some', hg3f, if_pos hl]


/-! ## C12: one remaining child does not repeat the removal -/


/-- C12 (counterexample): in `exEphemeral` the group 1 has the children 2 and 3; removing 3
leaves it exactly one child, and the removal is not repeated on the grandparent: group 1 keeps
its parent 0, stays the child of 0, and is the node returned. -/
theorem removeFromParentRecursive_one_child_counterexample :
    ∃ r, removeFromParentRecursive 3 exEphemeral 3 = some r ∧
      r.layout.childrenOf 1 = [2] ∧ r.layout.childrenOf 0 = [1] ∧
      r.layout.parentOf 1 = some (some 0) ∧ r.ret = some 1 :=
  ⟨_, rfl, by decide, by decide, by decide, by decide⟩

/-- C12 (amended): in a well-formed, acyclic store whose expanded groups name a child, when
detaching `x` leaves its parent `p` with at least one remaining child (exactly one included),
`removeFromParentRecursive` does one round only: it returns `p`, the child list of `p` is the
old one without `x`, every other child list (the grandparent's included) and every other parent
pointer (that of `p` included) is unchanged, no node leaves the store, `x` is parentless, and
when exactly one child remains it becomes the `focused_child` of `p`. -/
theorem removeFromParentRecursive_stops_at_nonempty_parent (h : Hy3Layout) (wf : WellFormed h)
    (ac : Acyclic h) (ei : ExpandInv h) (x p : Nat) (ps : List Nat)
    (hc : AncestorChain h x (p :: ps))
    (hrem : (h.childrenOf p).filter (fun s => s ≠ x) ≠ []) :
    ∃ N, ∀ fuel, N ≤ fuel →
      ∃ r, removeFromParentRecursive fuel h x = some r ∧ r.ret = some p ∧
        r.layout.childrenOf p = (h.childrenOf p).filter (fun s => s ≠ x) ∧
        (∀ a, a ≠ p → r.layout.childrenOf a = h.childrenOf a) ∧
        r.layout.parentOf x = some none ∧
        (∀ a, a ≠ x → r.layout.parentOf a = h.parentOf a) ∧
        (∀ a, (r.layout.get a).isSome = (h.get a).isSome) ∧
        (((h.childrenOf p).filter (fun s => s ≠ x)).length = 1 →
          (r.layout.group p).map Hy3GroupData.focused_child =
            some ((h.childrenOf p).filter (fun s => s ≠ x)).head?) := by
  obtain ⟨rank, B, rk⟩ := ac
  exact ⟨B + (p :: ps).length + 1, fun fuel hf =>
    removeFromParentRecursive_one_round wf rk ei hc hrem (by omega)⟩

theorem removeFromParentRecursive_stops_at_nonempty_parent_witness :
    ∃ N, ∀ fuel, N ≤ fuel →
      ∃ r, removeFromParentRecursive fuel exEphemeral 3 = some r ∧ r.ret = some 1 ∧
        r.layout.childrenOf 1 = [2] ∧
        (∀ a, a ≠ 1 → r.layout.childrenOf a = exEphemeral.childrenOf a) ∧
        r.layout.parentOf 3 = some none ∧
        (∀ a, a ≠ 3 → r.layout.parentOf a = exEphemeral.parentOf a) ∧
        (∀ a, (r.layout.get a).isSome = (exEphemeral.get a).isSome) ∧
        ([2].length = 1 →
          (r.layout.group 1).map Hy3GroupData.focused_child = some [2].head?) := by
  have c0 : AncestorChain exEphemeral 0 [] := AncestorChain.root (n := _) rfl rfl
  have c1 : AncestorChain exEphemeral 1 [0] := AncestorChain.step (n := _) rfl rfl c0
  have c3 : AncestorChain exEphemeral 3 [1, 0] := AncestorChain.step (n := _) rfl rfl c1
  exact removeFromParentRecursive_stops_at_nonempty_parent exEphemeral
    (wellFormed_of_check (by decide)) ⟨id, 3, rankedBy_of_check (by decide)⟩
    (expandInv_of_check (by decide)) 3 1 [0] c3 (by decide)


/-! ## Helpers for the placement by insertNode -/


theorem getFocusedNode_congr {h h' : Hy3Layout}
    (hd : ∀ x, (h'.get x).map Hy3Node.data = (h.get x).map Hy3Node.data) (b1 b2 : Bool) :
    ∀ (fuel r : Nat), getFocusedNode fuel h' r b1 b2 = getFocusedNode fuel h r b1 b2
  | 0, _ => rfl
  | fuel + 1, r => by
    unfold getFocusedNode
    have := hd r
    cases hn : h.get r with
    | none =>
      rw [hn] at this
      cases hn' : h'.get r with
      | none => rfl
      | some n' => simp [hn'] at this
    | some n =>
      rw [hn] at this
      cases hn' : h'.get r with
      | none => simp [hn'] at this
      | some n' =>
        simp only [hn', Option.map_some', Option.some.injEq] at this
        simp only [this]
        cases n.data with
        | window w => rfl
        | group g =>
          simp only
          cases g.focused_child with
          | none => rfl
          | some fc =>
            simp only
            rw [getFocusedNode_congr hd b1 b2 fuel fc]

theorem getFocusedNode_inSubtree {h : Hy3Layout} (fi : FocusInv h) :
    ∀ (fuel r x : Nat), getFocusedNode fuel h r false false = some (some x) → InSubtree h r x
  | 0, _, _, e => by simp [getFocusedNode] at e
  | fuel + 1, r, x, e => by
    unfold getFocusedNode at e
    cases hn : h.get r with
    | none => simp [hn] at e
    | some n =>
      simp only [hn] at e
      cases hd : n.data with
      | window w =>
        simp only [hd, Option.some.injEq] at e
        exact e ▸ InSubtree.self r
      | group g =>
        simp only [hd] at e
        cases hf : g.focused_child with
        | none =>
          simp only [hf, Option.some.injEq] at e
          exact e ▸ InSubtree.self r
        | some fc =>
          simp only [hf] at e
          by_cases hgf : g.group_focused = true
          · simp only [hgf, Bool.not_false, Bool.and_self, Bool.false_and, Bool.or_false,
              if_true, Option.some.injEq] at e
            exact e ▸ InSubtree.self r
          · have hgf' : g.group_focused = false := by simpa using hgf
            simp only [hgf', Bool.not_false, Bool.and_false, Bool.false_and, Bool.or_self,
              Bool.false_eq_true, if_false] at e
            obtain ⟨fc', h1, h2⟩ := fi r g (group_of_get hn hd) hgf'
            rw [hf] at h1
            cases h1
            refine InSubtree.step ?_ (getFocusedNode_inSubtree fi fuel fc x e)
            rw [childrenOf_of_get hn, hd]
            exact h2

theorem inSubtree_root_unique {h : Hy3Layout} (wf : WellFormed h) {rank : Nat → Nat} {B : Nat}
    (rk : RankedBy h rank B) {r n : Nat} (hr : h.parentOf r = some none)
    (hn : h.parentOf n = some none) :
    ∀ (k a : Nat), rank a ≤ k → InSubtree h r a → InSubtree h n a → r = n
  | k, a, hk, h1, h2 => by
    have w := (wellFormed_iff h).mp wf
    rcases h1.cases_tail with e1 | ⟨p1, hp1, hm1⟩
    · rcases h2.cases_tail with e2 | ⟨p2, _, hm2⟩
      · exact e1.symm.trans e2
      · have := w.2 p2 a hm2
        rw [e1, hr] at this
        cases this
    · have hpa := w.2 p1 a hm1
      rcases h2.cases_tail with e2 | ⟨p2, hp2, hm2⟩
      · rw [e2, hn] at hpa
        cases hpa
      · have hpa2 := w.2 p2 a hm2
        rw [hpa] at hpa2
        simp only [Option.some.injEq] at hpa2
        subst hpa2
        have hlt := ((rankedBy_iff h rank B).mp rk).2 a p1 hpa
        cases k with
        | zero => omega
        | succ k => exact inSubtree_root_unique wf rk hr hn k p1 (by omega) hp1 hp2

theorem AncestorChain.inSubtree {h : Hy3Layout} (wf : WellFormed h) :
    ∀ {ps : List Nat} {a : Nat}, AncestorChain h a ps → ∀ q ∈ ps, InSubtree h q a
  | [], _, _, q, hq => by cases hq
  | p :: ps, a, hc, q, hq => by
    cases hc with
    | step hn hp hrest =>
      have hpa : h.parentOf a = some (some p) := by simp [Hy3Layout.parentOf, hn, hp]
      have hm := wf.mem_of_parent hpa
      rcases List.mem_cons.mp hq with e | e
      · rw [e]; exact InSubtree.step hm (InSubtree.self a)
      · exact (AncestorChain.inSubtree wf hrest q e).tail hm

theorem AncestorChain.length_le_rank {h : Hy3Layout} {rank : Nat → Nat} {B : Nat}
    (rk : RankedBy h rank B) : ∀ {ps : List Nat} {a : Nat}, AncestorChain h a ps →
      ps.length ≤ rank a
  | [], _, _ => Nat.zero_le _
  | p :: ps, a, hc => by
    cases hc with
    | step hn hp hrest =>
      have h1 := (rk a _ hn).2 p hp
      have h2 := AncestorChain.length_le_rank rk hrest
      simp only [List.length_cons]
      omega

theorem hasChildLoop_false {h : Hy3Layout} {node : Nat} :
    ∀ {ps : List Nat} {a : Nat}, AncestorChain h a ps → node ∉ ps →
      ∀ fuel, ps.length + 1 < fuel → hasChildLoop fuel h node (some a) = some false
  | [], a, hc, _, fuel, hf => by
    cases hc with
    | root hn hp =>
      obtain ⟨f, rfl⟩ : ∃ f, fuel = f + 2 := ⟨fuel - 2, by simp at hf; omega⟩
      simp [hasChildLoop, hn, hp]
  | p :: ps, a, hc, hnot, fuel, hf => by
    cases hc with
    | step hn hp hrest =>
      obtain ⟨f, rfl⟩ : ∃ f, fuel = f + 1 := ⟨fuel - 1, by omega⟩
      have hpn : p ≠ node := fun e => hnot (e ▸ List.mem_cons_self _ _)
      unfold hasChildLoop
      simp only [hn, hp, Option.some.injEq]
      rw [if_neg hpn]
      exact hasChildLoop_false hrest (fun hm => hnot (List.mem_cons_of_mem _ hm)) f
        (by simp at hf; omega)

theorem insertAfter_of_mem (node : Nat) : ∀ (cs : List Nat) (a : Nat), a ∈ cs →
    ∃ r, insertAfter cs a node = some r
  | [], _, hm => by cases hm
  | x :: xs, a, hm => by
    unfold insertAfter
    by_cases e : x = a
    · rw [if_pos e]; exact ⟨_, rfl⟩
    · rw [if_neg e]
      rcases List.mem_cons.mp hm with e2 | e2
      · exact absurd e2.symm e
      · obtain ⟨r, hr⟩ := insertAfter_of_mem node xs a e2
        rw [hr]; exact ⟨_, rfl⟩


/-! ## insertNode splices the node after the focused node -/


theorem markFocused_total {h : Hy3Layout} (wf : WellFormed h) {rank : Nat → Nat} {B : Nat}
    (rk : RankedBy h rank B) {n : Nat} (hn : (h.get n).isSome) {fuel : Nat}
    (hf : 2 * B < fuel) : ∃ h', markFocused fuel h n = some h' ∧ SameButFocus h h' := by
  obtain ⟨ps, hc, _, _⟩ := ancestorChain_exists wf rk (rank n) n (le_refl _) hn
  have hl := AncestorChain.length_le_rank rk hc
  obtain ⟨m, hm⟩ := Option.isSome_iff_exists.mp hn
  have hb := (rk n m hm).1
  obtain ⟨_, h', e, _⟩ := markFocused_spec h wf rank B rk n ps hc fuel (by omega)
  exact ⟨h', e, markFocused_same e⟩

/-- The last steps of `insertNode` (lines 268-288): attach the node and mark it focused. -/
theorem insertNode_tail {h3 h5 : Hy3Layout} (ok : StoreOK h3) (wf : WellFormed h3)
    (fi : FocusInv h3) {rank : Nat → Nat} {B : Nat} (rk : RankedBy h3 rank B) {oi node : Nat}
    {oa : Option Nat} (hx : h3.parentOf node = some none) (hoi : rank oi < rank node)
    (e : attach (h3.modify node fun n => { n with parent := some oi, reparenting := false })
      oi node oa = some h5) {fuel : Nat} (hf : 2 * B < fuel) :
    ∃ h', markFocused fuel h5 node = some h' ∧ SameButFocus h5 h' := by
  obtain ⟨_, wf5⟩ := attach_preserves ok wf hx e
  obtain ⟨rk5, _⟩ := attach_inv fi rk hoi e
  obtain ⟨g, f, _, _, rfl⟩ := attach_children e
  refine markFocused_total wf5 rk5 ?_ hf
  rw [get_modifyGroup_isSome, get_modify_isSome]
  exact isSome_of_parentOf hx



theorem SameButFocus.focus_isSome {h h' : Hy3Layout} (s : SameButFocus h h') (a : Nat) :
    (h'.get a).isSome = (h.get a).isSome := by
  have := congrArg Option.isSome (s.2.2 a)
  simpa using this

/-- The placement of `insertNode` after the focused node of the workspace root. -/
theorem insertNode_after_focused {env : Env} {h : Hy3Layout} (ok : StoreOK h)
    (wf : WellFormed h) {rank : Nat → Nat} {B : Nat} (rk : RankedBy h rank B) (fi : FocusInv h)
    {node : Nat} {nn : Hy3Node} (hn : h.get node = some nn) (hp : nn.parent = none)
    (hv : env.validWorkspace nn.workspace = true) {root a : Nat}
    (hr : getWorkspaceRootGroup (h.modify node fun n => { n with reparenting := true })
      nn.workspace = some root) {fuel : Nat}
    (hfa : getFocusedNode fuel h root false false = some (some a)) (hne : a ≠ root)
    (hrep : (h.get a).map Hy3Node.reparenting = some false) (hat : env.at_enable = 0)
    (hf : 4 * B + 4 < fuel) :
    ∃ p cs h', h.parentOf a = some (some p) ∧ insertAfter (h.childrenOf p) a node = some cs ∧
      insertNode env fuel h node = some h' ∧ h'.childrenOf p = cs ∧
      h'.parentOf node = some (some p) ∧ (∀ x, x ≠ p → h'.childrenOf x = h.childrenOf x) ∧
      (∀ x, x ≠ node → h'.parentOf x = h.parentOf x) ∧
      (∀ x, (h'.get x).isSome = (h.get x).isSome) := by
  have w := (wellFormed_iff h).mp wf
  have hx : h.parentOf node = some none := by simp [Hy3Layout.parentOf, hn, hp]
  have ok0 : StoreOK (h.modify node fun n => { n with reparenting := true }) :=
    ok.of_addrs (addrs_modify _ _ _) (le_refl _)
  have hp0 : ∀ x, (h.modify node fun n => { n with reparenting := true }).parentOf x
      = h.parentOf x :=
    fun x => parentOf_modify_of h node x (fun n => { n with reparenting := true })
      (by intro _; rfl)
  have hc0 : ∀ x, (h.modify node fun n => { n with reparenting := true }).childrenOf x
      = h.childrenOf x :=
    fun x => childrenOf_modify_of h node x (fun n => { n with reparenting := true })
      (by intro _; rfl)
  have wf0 : WellFormed (h.modify node fun n => { n with reparenting := true }) :=
    wf.congr hp0 hc0
  have rk0 : RankedBy (h.modify node fun n => { n with reparenting := true }) rank B :=
    rk.congr_rank hp0
  have fi0 : FocusInv (h.modify node fun n => { n with reparenting := true }) :=
    fi.modify_of node _ (by intro _; rfl)
  have hx0 : (h.modify node fun n => { n with reparenting := true }).parentOf node
      = some none := by rw [hp0, hx]
  have hn0 := get_modify_eq (fun n : Hy3Node => { n with reparenting := true }) hn
  obtain ⟨rn, hrn, hrp, hrr, _⟩ := getWorkspaceRootGroup_spec ok0 hr
  have hrootne : root ≠ node := by
    intro e
    rw [e, hn0] at hrn
    cases hrn
    cases hrr
  have hrootpar : h.parentOf root = some none := by
    rw [← hp0]
    exact parentOf_eq_some.mpr ⟨rn, hrn, hrp⟩
  have hd0 : ∀ x, ((h.modify node fun n => { n with reparenting := true }).get x).map
      Hy3Node.data = (h.get x).map Hy3Node.data := by
    intro x
    rw [get_modify]
    split
    · cases h.get x <;> rfl
    · rfl
  have hfa0 := (getFocusedNode_congr hd0 false false fuel root).trans hfa
  have hsub : InSubtree h root a := getFocusedNode_inSubtree fi fuel root a hfa
  obtain ⟨p, hps, hm⟩ : ∃ p, InSubtree h root p ∧ a ∈ h.childrenOf p := by
    rcases hsub.cases_tail with e | hh
    · exact absurd e hne
    · exact hh
  have hpa : h.parentOf a = some (some p) := w.2 p a hm
  have han : a ≠ node := by
    intro e
    rw [e, hx] at hpa
    cases hpa
  have hnot : ¬ InSubtree h node a := fun hs =>
    hrootne (inSubtree_root_unique wf rk hrootpar hx (rank a) a (le_refl _) hsub hs)
  have hnotp : ¬ InSubtree h node p := fun hs => hnot (hs.tail hm)
  have hpn : p ≠ node := fun e => hnotp (e ▸ InSubtree.self _)
  obtain ⟨an, han1, hanp⟩ := parentOf_eq_some.mp hpa
  have ha0 : (h.modify node fun n => { n with reparenting := true }).get a = some an := by
    rw [get_modify_ne _ han]; exact han1
  have hanr : an.reparenting = false := by
    rw [han1] at hrep
    simpa using hrep
  have e1 : openingAfterFromRoot fuel (h.modify node fun n => { n with reparenting := true })
      nn.workspace = some (h.modify node fun n => { n with reparenting := true }, some a) := by
    unfold openingAfterFromRoot
    simp only [hr, hfa0]
    rw [if_neg (fun e => hne (Option.some.inj e))]
  obtain ⟨ps, hca, _, _⟩ := ancestorChain_exists wf0 rk0 (rank a) a (le_refl _)
    (by rw [ha0]; rfl)
  have hlen := AncestorChain.length_le_rank rk0 hca
  have hra := (rk a an han1).1
  have hnps : node ∉ ps := fun hmem =>
    hnot ((AncestorChain.inSubtree wf0 hca node hmem).congr_sub (fun y => (hc0 y).symm))
  have e2 : anchorUsable fuel (h.modify node fun n => { n with reparenting := true }) node
      (some a) = some (some a) := by
    unfold anchorUsable
    simp only [hn0, ha0]
    have hb : (if nn.data.type = Hy3NodeType.Group then
        (if a = node then some true
         else hasChild fuel (h.modify node fun n => { n with reparenting := true }) node
          (some a))
        else some false) = some false := by
      by_cases ht : nn.data.type = Hy3NodeType.Group
      · rw [if_pos ht, if_neg han]
        unfold hasChild
        rw [hn0]
        simp only
        cases hdn : nn.data with
        | window w => rfl
        | group gg =>
          simp only
          exact hasChildLoop_false hca hnps fuel (by omega)
      · rw [if_neg ht]
    simp only [hb, hanr, Bool.or_self, Bool.false_eq_true, if_false]
  have e3 : openingInto env (h.modify node fun n => { n with reparenting := true })
      nn.workspace (some a)
      = some (h.modify node fun n => { n with reparenting := true }, some p) := by
    unfold openingInto
    simp only [ha0, hanp]
  obtain ⟨g, hg⟩ := Option.isSome_iff_exists.mp (wf0.parent_group ha0 hanp)
  obtain ⟨pn, hpn0, hpd⟩ := group_eq_some hg
  have e4 : autotile env (h.modify node fun n => { n with reparenting := true }) p (some a)
      = some (h.modify node fun n => { n with reparenting := true }, p, some a) := by
    unfold autotile
    simp only [hpn0, hpd]
    rw [if_neg (fun hh => hh.1 hat)]
  have hg4 : ((h.modify node fun n => { n with reparenting := true }).modify node fun n =>
      { n with parent := some p, reparenting := false }).group p = some g := by
    rw [group_modify_of _ _ _ _ (by intro _; rfl)]
    exact hg
  have hgc : h.childrenOf p = g.children := by
    rw [← hc0]; exact childrenOf_of_group_eq hg
  obtain ⟨cs, hcs⟩ := insertAfter_of_mem node g.children a (hgc ▸ hm)
  have e5 : attach ((h.modify node fun n => { n with reparenting := true }).modify node fun n =>
      { n with parent := some p, reparenting := false }) p node (some a)
      = some (((h.modify node fun n => { n with reparenting := true }).modify node fun n =>
        { n with parent := some p, reparenting := false }).modifyGroup p fun g =>
          { g with children := cs }) := by
    unfold attach
    simp only [hg4, hcs]
  obtain ⟨rank2, rk2, hlift⟩ := rank_lift wf0 rk0 node
  have hoi : rank2 p < rank2 node :=
    hlift p (by rw [hpn0]; rfl) (fun hs => hnotp (hs.congr_sub (fun y => (hc0 y).symm)))
  obtain ⟨h', e6, s⟩ := insertNode_tail ok0 wf0 fi0 rk2 hx0 hoi e5
    (show 2 * (2 * B + 1) < fuel by omega)
  refine ⟨p, cs, h', hpa, by rw [hgc]; exact hcs, ?_, ?_, ?_, fun x hxp => ?_, fun x hxn => ?_,
    fun x => ?_⟩
  · unfold insertNode
    simp only [hn]
    rw [if_neg (not_not.mpr hp), if_neg (by rw [hv]; simp)]
    simp only [e1, e2, e3, hpn0, hpd, e4, e5, e6]
  · rw [s.focus_childrenOf, childrenOf_modifyGroup, if_pos rfl, hg4]
    rfl
  · rw [s.focus_parentOf, parentOf_modifyGroup]
    unfold Hy3Layout.parentOf
    rw [get_modify_same, hn0]
    rfl
  · rw [s.focus_childrenOf, childrenOf_modifyGroup, if_neg hxp,
      childrenOf_modify_of _ _ _ _ (by intro _; rfl), hc0]
  · rw [s.focus_parentOf, parentOf_modifyGroup]
    unfold Hy3Layout.parentOf
    rw [get_modify_ne _ hxn, get_modify_ne _ hxn]
  · rw [s.focus_isSome, get_modifyGroup_isSome, get_modify_isSome, get_modify_isSome]


/-! ## insertNode appends the node when no anchor is left -/


theorem SameButFocus.focus_layout {h h' : Hy3Layout} (s : SameButFocus h h') (a : Nat) :
    (h'.group a).map Hy3GroupData.layout = (h.group a).map Hy3GroupData.layout := by
  have := s.2.2 a
  unfold Hy3Layout.group
  cases hn : h.get a with
  | none =>
    rw [hn] at this
    cases hn' : h'.get a with
    | none => rfl
    | some n' => simp [hn'] at this
  | some n =>
    rw [hn] at this
    cases hn' : h'.get a with
    | none => simp [hn'] at this
    | some n' =>
      simp only [hn', Option.map_some', Option.some.injEq] at this
      have hd := congrArg Hy3Node.data this
      simp only [Hy3Node.mapGroup] at hd
      simp only [Option.some_bind, Hy3Node.asGroup]
      cases hd1 : n.data <;> cases hd2 : n'.data <;> simp only [hd1, hd2] at hd ⊢ <;>
        first
        | rfl
        | (exfalso; revert hd; simp; done)
        | (simp only [Hy3NodeData.group.injEq] at hd
           have := congrArg Hy3GroupData.layout hd
           simpa [Hy3GroupData.noFocus] using this)

/-- The placement of `insertNode` when no anchor is left: the node is appended to the child list
of the group `openingInto` returns. -/
theorem insertNode_append {env : Env} {h : Hy3Layout} (ok : StoreOK h) (wf : WellFormed h)
    (ac : Acyclic h) (fi : FocusInv h) {node : Nat} {nn : Hy3Node} (hn : h.get node = some nn)
    (hp : nn.parent = none) (hv : env.validWorkspace nn.workspace = true)
    (hr : getWorkspaceRootGroup (h.modify node fun n => { n with reparenting := true })
      nn.workspace = none)
    (hfb : fallbackAnchor env (h.modify node fun n => { n with reparenting := true })
      nn.workspace = none) {h2 : Hy3Layout} {oi : Nat}
    (e3 : openingInto env (h.modify node fun n => { n with reparenting := true }) nn.workspace
      none = some (h2, some oi)) {g : Hy3GroupData} (hg : h2.group oi = some g)
    {rank2 : Nat → Nat} {B2 : Nat} (rk2 : RankedBy h2 rank2 B2) (hoi : rank2 oi < rank2 node)
    {fuel : Nat} (hf : 2 * B2 < fuel) :
    ∃ h', insertNode env fuel h node = some h' ∧
      (∀ x, h'.childrenOf x = if x = oi then g.children ++ [node] else h2.childrenOf x) ∧
      (∀ x, h'.parentOf x = if x = node then some (some oi) else h2.parentOf x) ∧
      (∀ x, (h'.group x).map Hy3GroupData.layout = (h2.group x).map Hy3GroupData.layout) := by
  have hx : h.parentOf node = some none := by simp [Hy3Layout.parentOf, hn, hp]
  have ok0 : StoreOK (h.modify node fun n => { n with reparenting := true }) :=
    ok.of_addrs (addrs_modify _ _ _) (le_refl _)
  have hp0 : ∀ x, (h.modify node fun n => { n with reparenting := true }).parentOf x
      = h.parentOf x :=
    fun x => parentOf_modify_of h node x (fun n => { n with reparenting := true })
      (by intro _; rfl)
  have hc0 : ∀ x, (h.modify node fun n => { n with reparenting := true }).childrenOf x
      = h.childrenOf x :=
    fun x => childrenOf_modify_of h node x (fun n => { n with reparenting := true })
      (by intro _; rfl)
  have wf0 : WellFormed (h.modify node fun n => { n with reparenting := true }) :=
    wf.congr hp0 hc0
  have ac0 : Acyclic (h.modify node fun n => { n with reparenting := true }) := by
    obtain ⟨rank, B, rk⟩ := ac
    exact ⟨rank, B, rk.congr_rank hp0⟩
  have fi0 : FocusInv (h.modify node fun n => { n with reparenting := true }) :=
    fi.modify_of node _ (by intro _; rfl)
  have hx0 : (h.modify node fun n => { n with reparenting := true }).parentOf node
      = some none := by rw [hp0, hx]
  have hf0 : ((h.modify node fun n => { n with reparenting := true }).get node).map
      Hy3Node.reparenting = some true := by
    rw [get_modify_eq _ hn]; rfl
  have e1 : openingAfterFromRoot fuel (h.modify node fun n => { n with reparenting := true })
      nn.workspace = some (h.modify node fun n => { n with reparenting := true }, none) := by
    unfold openingAfterFromRoot
    simp only [hr]
  have e2 : anchorUsable fuel (h.modify node fun n => { n with reparenting := true }) node
      none = some none := rfl
  obtain ⟨ok2, wf2, hx2⟩ := openingInto_preserves ok0 wf0 hx0 e3
  obtain ⟨fi2, -⟩ := openingInto_inv ok0 wf0 ac0 fi0 hx0 hf0 e2 e3
  obtain ⟨oin, hoin, hoid⟩ := group_eq_some hg
  have e4 : autotile env h2 oi none = some (h2, oi, none) := by
    unfold autotile
    simp only [hoin, hoid]
  have hg4 : (h2.modify node fun n =>
      { n with parent := some oi, reparenting := false }).group oi = some g := by
    rw [group_modify_of _ _ _ _ (by intro _; rfl)]
    exact hg
  have e5 : attach (h2.modify node fun n => { n with parent := some oi, reparenting := false })
      oi node none
      = some ((h2.modify node fun n =>
        { n with parent := some oi, reparenting := false }).modifyGroup oi fun g =>
          { g with children := g.children ++ [node] }) := by
    unfold attach
    simp only [hg4]
  obtain ⟨h', e6, s⟩ := insertNode_tail ok2 wf2 fi2 rk2 hx2 hoi e5 hf
  obtain ⟨n2, hn2, _⟩ := parentOf_eq_some.mp hx2
  refine ⟨h', ?_, fun x => ?_, fun x => ?_, fun x => ?_⟩
  · unfold insertNode
    simp only [hn]
    rw [if_neg (not_not.mpr hp), if_neg (by rw [hv]; simp)]
    simp only [e1, hfb, e2, e3, hoin, hoid, e4, e5, e6]
  · rw [s.focus_childrenOf, childrenOf_modifyGroup]
    by_cases hxo : x = oi
    · rw [if_pos hxo, if_pos hxo, hxo, hg4]
      rfl
    · rw [if_neg hxo, if_neg hxo, childrenOf_modify_of _ _ _ _ (by intro _; rfl)]
  · rw [s.focus_parentOf, parentOf_modifyGroup]
    unfold Hy3Layout.parentOf
    by_cases hxn : x = node
    · rw [if_pos hxn, hxn, get_modify_eq _ hn2]
      rfl
    · rw [if_neg hxn, get_modify_ne _ hxn]
  · rw [s.focus_layout, group_modifyGroup, group_modify_of _ _ _ _ (by intro _; rfl)]
    by_cases hxo : x = oi
    · rw [if_pos hxo, hxo, hg]
      rfl
    · rw [if_neg hxo]


/-! ## insertNode on a workspace without a root -/


/-- With no root, no anchor and `tab_first_window` off, `insertNode` creates the root and makes
the node its only child. -/
theorem insertNode_new_root {env : Env} {h : Hy3Layout} (ok : StoreOK h) (wf : WellFormed h)
    {rank : Nat → Nat} {B : Nat} (rk : RankedBy h rank B) (fi : FocusInv h) {node : Nat}
    {nn : Hy3Node} (hn : h.get node = some nn)
    (hp : nn.parent = none) (hv : env.validWorkspace nn.workspace = true)
    (hr : getWorkspaceRootGroup (h.modify node fun n => { n with reparenting := true })
      nn.workspace = none)
    (hfb : fallbackAnchor env (h.modify node fun n => { n with reparenting := true })
      nn.workspace = none) (htab : env.tab_first_window = 0)
    {fuel : Nat} (hf : 2 * B + 4 < fuel) :
    ∃ h', insertNode env fuel h node = some h' ∧
      h'.parentOf h.next = some none ∧ h'.childrenOf h.next = [node] ∧
      h'.parentOf node = some (some h.next) ∧
      (∀ x, x ≠ h.next → h'.childrenOf x = h.childrenOf x) ∧
      (∀ x, x ≠ h.next → x ≠ node → h'.parentOf x = h.parentOf x) := by
  have ok0 : StoreOK (h.modify node fun n => { n with reparenting := true }) :=
    ok.of_addrs (addrs_modify _ _ _) (le_refl _)
  have hp0 : ∀ x, (h.modify node fun n => { n with reparenting := true }).parentOf x
      = h.parentOf x :=
    fun x => parentOf_modify_of h node x (fun n => { n with reparenting := true })
      (by intro _; rfl)
  have hc0 : ∀ x, (h.modify node fun n => { n with reparenting := true }).childrenOf x
      = h.childrenOf x :=
    fun x => childrenOf_modify_of h node x (fun n => { n with reparenting := true })
      (by intro _; rfl)
  have hnn : node ≠ h.next := fun e => by
    rw [e, ok.get_next] at hn
    cases hn
  have e3 : openingInto env (h.modify node fun n => { n with reparenting := true })
      nn.workspace none
      = some ((h.modify node fun n => { n with reparenting := true }).push_back
        { addr := h.next, workspace := nn.workspace,
          data := Hy3NodeData.group (Hy3GroupData.new
            (if env.monitorHeight nn.workspace > env.monitorWidth nn.workspace then
              Hy3GroupLayout.SplitV else Hy3GroupLayout.SplitH)) }, some h.next) := by
    unfold openingInto
    simp only [hr]
    rw [if_neg (not_not.mpr htab)]
    rfl
  have P1 := fun x => parentOf_push_back ok0
    { addr := h.next, workspace := nn.workspace,
      data := Hy3NodeData.group (Hy3GroupData.new
        (if env.monitorHeight nn.workspace > env.monitorWidth nn.workspace then
          Hy3GroupLayout.SplitV else Hy3GroupLayout.SplitH)) } x
  have C1 := fun x => childrenOf_push_back ok0
    { addr := h.next, workspace := nn.workspace,
      data := Hy3NodeData.group (Hy3GroupData.new
        (if env.monitorHeight nn.workspace > env.monitorWidth nn.workspace then
          Hy3GroupLayout.SplitV else Hy3GroupLayout.SplitH)) } x
  have G1 : ((h.modify node fun n => { n with reparenting := true }).push_back
      { addr := h.next, workspace := nn.workspace,
        data := Hy3NodeData.group (Hy3GroupData.new
          (if env.monitorHeight nn.workspace > env.monitorWidth nn.workspace then
            Hy3GroupLayout.SplitV else Hy3GroupLayout.SplitH)) }).group h.next
      = some (Hy3GroupData.new
          (if env.monitorHeight nn.workspace > env.monitorWidth nn.workspace then
            Hy3GroupLayout.SplitV else Hy3GroupLayout.SplitH)) := by
    rw [group_push_back ok0]
    exact if_pos rfl
  have S1 := fun x => get_push_back_of_ok ok0
    { addr := h.next, workspace := nn.workspace,
      data := Hy3NodeData.group (Hy3GroupData.new
        (if env.monitorHeight nn.workspace > env.monitorWidth nn.workspace then
          Hy3GroupLayout.SplitV else Hy3GroupLayout.SplitH)) } x
  have hnext : (h.modify node fun n => { n with reparenting := true }).next = h.next := rfl
  simp only [hnext] at P1 C1 S1
  have rk0 := (rankedBy_iff h rank B).mp rk
  have rk2 : RankedBy ((h.modify node fun n => { n with reparenting := true }).push_back
      { addr := h.next, workspace := nn.workspace,
        data := Hy3NodeData.group (Hy3GroupData.new
          (if env.monitorHeight nn.workspace > env.monitorWidth nn.workspace then
            Hy3GroupLayout.SplitV else Hy3GroupLayout.SplitH)) })
      (fun x => if x = h.next then 0 else rank x + 2) (B + 2) := by
    rw [rankedBy_iff]
    refine ⟨fun a ha => ?_, fun a p hpa => ?_⟩
    · by_cases e : a = h.next
      · rw [if_pos e]; omega
      · rw [if_neg e]
        rw [S1, if_neg e, get_modify_isSome] at ha
        have := rk0.1 a ha
        omega
    · rw [P1, hp0] at hpa
      by_cases e : a = h.next
      · rw [if_pos e] at hpa; cases hpa
      · rw [if_neg e] at hpa
        have hps : (h.get p).isSome := by
          obtain ⟨n, hn1, hn2⟩ := parentOf_eq_some.mp hpa
          obtain ⟨pn, hpn, _⟩ := wf.1 a n p hn1 hn2
          rw [hpn]; rfl
        have hpne : p ≠ h.next := fun e2 => by
          rw [e2, ok.get_next] at hps
          cases hps
        rw [if_neg e, if_neg hpne]
        have := rk0.2 a p hpa
        omega
  obtain ⟨h', e, hc, hpar, _⟩ := insertNode_append ok wf ⟨rank, B, rk⟩ fi hn hp hv hr hfb e3 G1
    rk2 (by rw [if_pos rfl, if_neg hnn]; omega) (show 2 * (B + 2) < fuel by omega)
  refine ⟨h', e, ?_, ?_, ?_, fun x hx => ?_, fun x hx hxn => ?_⟩
  · rw [hpar, if_neg (Ne.symm hnn), P1, if_pos rfl]
  · rw [hc, if_pos rfl]; rfl
  · rw [hpar, if_pos rfl]
  · rw [hc, if_neg hx, C1, if_neg hx, hc0]
  · rw [hpar, if_neg hxn, P1, if_neg hx, hp0]

/-- With no root, no anchor and `tab_first_window` on, `insertNode` creates the root and a
tabbed child of it, and makes the node the only child of the tabbed group. -/
theorem insertNode_new_tab {env : Env} {h : Hy3Layout} (ok : StoreOK h) (wf : WellFormed h)
    {rank : Nat → Nat} {B : Nat} (rk : RankedBy h rank B) (fi : FocusInv h) {node : Nat}
    {nn : Hy3Node} (hn : h.get node = some nn)
    (hp : nn.parent = none) (hv : env.validWorkspace nn.workspace = true)
    (hr : getWorkspaceRootGroup (h.modify node fun n => { n with reparenting := true })
      nn.workspace = none)
    (hfb : fallbackAnchor env (h.modify node fun n => { n with reparenting := true })
      nn.workspace = none) (htab : env.tab_first_window ≠ 0)
    {fuel : Nat} (hf : 2 * B + 4 < fuel) :
    ∃ h', insertNode env fuel h node = some h' ∧
      h'.parentOf h.next = some none ∧ h'.childrenOf h.next = [h.next + 1] ∧
      h'.parentOf (h.next + 1) = some (some h.next) ∧
      (h'.group (h.next + 1)).map Hy3GroupData.layout = some Hy3GroupLayout.Tabbed ∧
      h'.childrenOf (h.next + 1) = [node] ∧
      h'.parentOf node = some (some (h.next + 1)) ∧
      (∀ x, x ≠ h.next → x ≠ h.next + 1 → h'.childrenOf x = h.childrenOf x) ∧
      (∀ x, x ≠ h.next → x ≠ h.next + 1 → x ≠ node → h'.parentOf x = h.parentOf x) := by
  have ok0 : StoreOK (h.modify node fun n => { n with reparenting := true }) :=
    ok.of_addrs (addrs_modify _ _ _) (le_refl _)
  have hp0 : ∀ x, (h.modify node fun n => { n with reparenting := true }).parentOf x
      = h.parentOf x :=
    fun x => parentOf_modify_of h node x (fun n => { n with reparenting := true })
      (by intro _; rfl)
  have hc0 : ∀ x, (h.modify node fun n => { n with reparenting := true }).childrenOf x
      = h.childrenOf x :=
    fun x => childrenOf_modify_of h node x (fun n => { n with reparenting := true })
      (by intro _; rfl)
  have hlt := ok.lt_next hn
  have hnn : node ≠ h.next := by omega
  have hnt : node ≠ h.next + 1 := by omega
  have ok1 := ok0.push_back
    { addr := h.next, workspace := nn.workspace,
      data := Hy3NodeData.group (Hy3GroupData.new
        (if env.monitorHeight nn.workspace > env.monitorWidth nn.workspace then
          Hy3GroupLayout.SplitV else Hy3GroupLayout.SplitH)) }
  have e3 : openingInto env (h.modify node fun n => { n with reparenting := true })
      nn.workspace none
      = some ((((h.modify node fun n => { n with reparenting := true }).push_back
        { addr := h.next, workspace := nn.workspace,
          data := Hy3NodeData.group (Hy3GroupData.new
            (if env.monitorHeight nn.workspace > env.monitorWidth nn.workspace then
              Hy3GroupLayout.SplitV else Hy3GroupLayout.SplitH)) }).push_back
        { addr := h.next + 1, parent := some h.next, workspace := nn.workspace,
          data := Hy3NodeData.group (Hy3GroupData.new Hy3GroupLayout.Tabbed) }).modifyGroup
        h.next fun g => { g with children := g.children ++ [h.next + 1] },
        some (h.next + 1)) := by
    unfold openingInto
    simp only [hr]
    rw [if_pos htab]
    rfl
  have G0 : ((h.modify node fun n => { n with reparenting := true }).push_back
      { addr := h.next, workspace := nn.workspace,
        data := Hy3NodeData.group (Hy3GroupData.new
          (if env.monitorHeight nn.workspace > env.monitorWidth nn.workspace then
            Hy3GroupLayout.SplitV else Hy3GroupLayout.SplitH)) }).group h.next
      = some (Hy3GroupData.new
          (if env.monitorHeight nn.workspace > env.monitorWidth nn.workspace then
            Hy3GroupLayout.SplitV else Hy3GroupLayout.SplitH)) := by
    rw [group_push_back ok0]
    exact if_pos rfl
  have P2 : ∀ x, ((((h.modify node fun n => { n with reparenting := true }).push_back
        { addr := h.next, workspace := nn.workspace,
          data := Hy3NodeData.group (Hy3GroupData.new
            (if env.monitorHeight nn.workspace > env.monitorWidth nn.workspace then
              Hy3GroupLayout.SplitV else Hy3GroupLayout.SplitH)) }).push_back
        { addr := h.next + 1, parent := some h.next, workspace := nn.workspace,
          data := Hy3NodeData.group (Hy3GroupData.new Hy3GroupLayout.Tabbed) }).modifyGroup
        h.next fun g => { g with children := g.children ++ [h.next + 1] }).parentOf x
      = if x = h.next + 1 then some (some h.next)
        else if x = h.next then some none else h.parentOf x := by
    intro x
    rw [parentOf_modifyGroup, parentOf_push_back ok1, parentOf_push_back ok0, hp0]
    rfl
  have C2 : ∀ x, ((((h.modify node fun n => { n with reparenting := true }).push_back
        { addr := h.next, workspace := nn.workspace,
          data := Hy3NodeData.group (Hy3GroupData.new
            (if env.monitorHeight nn.workspace > env.monitorWidth nn.workspace then
              Hy3GroupLayout.SplitV else Hy3GroupLayout.SplitH)) }).push_back
        { addr := h.next + 1, parent := some h.next, workspace := nn.workspace,
          data := Hy3NodeData.group (Hy3GroupData.new Hy3GroupLayout.Tabbed) }).modifyGroup
        h.next fun g => { g with children := g.children ++ [h.next + 1] }).childrenOf x
      = if x = h.next then [h.next + 1]
        else if x = h.next + 1 then [] else h.childrenOf x := by
    intro x
    rw [childrenOf_modifyGroup]
    by_cases e : x = h.next
    · rw [if_pos e, if_pos e, e, group_push_back ok1]
      have hne : ¬ (h.next = ((h.modify node fun n => { n with reparenting := true }).push_back
        { addr := h.next, workspace := nn.workspace,
          data := Hy3NodeData.group (Hy3GroupData.new
            (if env.monitorHeight nn.workspace > env.monitorWidth nn.workspace then
              Hy3GroupLayout.SplitV else Hy3GroupLayout.SplitH)) }).next) := by
        show ¬ (h.next = h.next + 1)
        omega
      rw [if_neg hne, G0]
      rfl
    · rw [if_neg e, if_neg e, childrenOf_push_back ok1, childrenOf_push_back ok0, hc0]
      by_cases e2 : x = h.next + 1
      · rw [if_pos e2]
        exact if_pos e2
      · rw [if_neg e2]
        have : ¬ (x = ((h.modify node fun n => { n with reparenting := true }).push_back
          { addr := h.next, workspace := nn.workspace,
            data := Hy3NodeData.group (Hy3GroupData.new
              (if env.monitorHeight nn.workspace > env.monitorWidth nn.workspace then
                Hy3GroupLayout.SplitV else Hy3GroupLayout.SplitH)) }).next) := e2
        rw [if_neg this]
        exact if_neg e
  have G2 : ((((h.modify node fun n => { n with reparenting := true }).push_back
        { addr := h.next, workspace := nn.workspace,
          data := Hy3NodeData.group (Hy3GroupData.new
            (if env.monitorHeight nn.workspace > env.monitorWidth nn.workspace then
              Hy3GroupLayout.SplitV else Hy3GroupLayout.SplitH)) }).push_back
        { addr := h.next + 1, parent := some h.next, workspace := nn.workspace,
          data := Hy3NodeData.group (Hy3GroupData.new Hy3GroupLayout.Tabbed) }).modifyGroup
        h.next fun g => { g with children := g.children ++ [h.next + 1] }).group (h.next + 1)
      = some (Hy3GroupData.new Hy3GroupLayout.Tabbed) := by
    rw [group_modifyGroup, if_neg (by omega), group_push_back ok1]
    exact if_pos rfl
  have S2 : ∀ x, (((((h.modify node fun n => { n with reparenting := true }).push_back
        { addr := h.next, workspace := nn.workspace,
          data := Hy3NodeData.group (Hy3GroupData.new
            (if env.monitorHeight nn.workspace > env.monitorWidth nn.workspace then
              Hy3GroupLayout.SplitV else Hy3GroupLayout.SplitH)) }).push_back
        { addr := h.next + 1, parent := some h.next, workspace := nn.workspace,
          data := Hy3NodeData.group (Hy3GroupData.new Hy3GroupLayout.Tabbed) }).modifyGroup
        h.next fun g => { g with children := g.children ++ [h.next + 1] }).get x).isSome →
      x ≠ h.next → x ≠ h.next + 1 → (h.get x).isSome := by
    intro x hs h1 h2
    rw [get_modifyGroup_isSome, get_push_back_of_ok ok1] at hs
    have : ¬ (x = ((h.modify node fun n => { n with reparenting := true }).push_back
      { addr := h.next, workspace := nn.workspace,
        data := Hy3NodeData.group (Hy3GroupData.new
          (if env.monitorHeight nn.workspace > env.monitorWidth nn.workspace then
            Hy3GroupLayout.SplitV else Hy3GroupLayout.SplitH)) }).next) := h2
    rw [if_neg this, get_push_back_of_ok ok0] at hs
    have : ¬ (x = (h.modify node fun n => { n with reparenting := true }).next) := h1
    rw [if_neg this, get_modify_isSome] at hs
    exact hs
  have rk0 := (rankedBy_iff h rank B).mp rk
  have rk2 : RankedBy ((((h.modify node fun n => { n with reparenting := true }).push_back
        { addr := h.next, workspace := nn.workspace,
          data := Hy3NodeData.group (Hy3GroupData.new
            (if env.monitorHeight nn.workspace > env.monitorWidth nn.workspace then
              Hy3GroupLayout.SplitV else Hy3GroupLayout.SplitH)) }).push_back
        { addr := h.next + 1, parent := some h.next, workspace := nn.workspace,
          data := Hy3NodeData.group (Hy3GroupData.new Hy3GroupLayout.Tabbed) }).modifyGroup
        h.next fun g => { g with children := g.children ++ [h.next + 1] })
      (fun x => if x = h.next then 0 else if x = h.next + 1 then 1 else rank x + 2)
      (B + 2) := by
    rw [rankedBy_iff]
    refine ⟨fun a ha => ?_, fun a p hpa => ?_⟩
    · by_cases e : a = h.next
      · rw [if_pos e]; omega
      · rw [if_neg e]
        by_cases e2 : a = h.next + 1
        · rw [if_pos e2]; omega
        · rw [if_neg e2]
          have := rk0.1 a (S2 a ha e e2)
          omega
    · rw [P2] at hpa
      by_cases e2 : a = h.next + 1
      · rw [if_pos e2] at hpa
        simp only [Option.some.injEq] at hpa
        subst hpa
        rw [if_pos rfl, if_neg (by omega : ¬ a = h.next), if_pos e2]
        omega
      · rw [if_neg e2] at hpa
        by_cases e : a = h.next
        · rw [if_pos e] at hpa; cases hpa
        · rw [if_neg e] at hpa
          have hps : (h.get p).isSome := by
            obtain ⟨n, hn1, hn2⟩ := parentOf_eq_some.mp hpa
            obtain ⟨pn, hpn, _⟩ := wf.1 a n p hn1 hn2
            rw [hpn]; rfl
          obtain ⟨pn, hpn⟩ := Option.isSome_iff_exists.mp hps
          have hpl := ok.lt_next hpn
          rw [if_neg e, if_neg e2, if_neg (by omega : ¬ p = h.next),
            if_neg (by omega : ¬ p = h.next + 1)]
          have := rk0.2 a p hpa
          omega
  obtain ⟨h', e, hc, hpar, hlay⟩ := insertNode_append ok wf ⟨rank, B, rk⟩ fi hn hp hv hr hfb e3
    G2 rk2 (by rw [if_neg (by omega : ¬ h.next + 1 = h.next), if_pos rfl, if_neg hnn,
      if_neg hnt]; omega) (show 2 * (B + 2) < fuel by omega)
  refine ⟨h', e, ?_, ?_, ?_, ?_, ?_, ?_, fun x hx hx2 => ?_, fun x hx hx2 hxn => ?_⟩
  · rw [hpar, if_neg (Ne.symm hnn), P2, if_neg (by omega), if_pos rfl]
  · rw [hc, if_neg (by omega), C2, if_pos rfl]
  · rw [hpar, if_neg (Ne.symm hnt), P2, if_pos rfl]
  · rw [hlay, G2]; rfl
  · rw [hc, if_pos rfl]; rfl
  · rw [hpar, if_pos rfl]
  · rw [hc, if_neg hx2, C2, if_neg hx, if_neg hx2]
  · rw [hpar, if_neg hxn, P2, if_neg hx2, if_neg hx]


/-! ## C17: placement by insertNode -/


theorem focusInv_of_check {h : Hy3Layout} (hc : focusCheck h = true) : FocusInv h := by
  unfold focusCheck at hc
  simp only [List.all_eq_true] at hc
  intro a g hg hne
  obtain ⟨n, hn, hd⟩ := group_eq_some hg
  have := hc n (get_mem hn)
  have hag : n.asGroup = some g := by simp [Hy3Node.asGroup, hd]
  rw [hag] at this
  simp only [hne, Bool.false_or] at this
  cases hf : g.focused_child with
  | none => simp [hf] at this
  | some fc => exact ⟨fc, rfl, by simpa [hf] using this⟩



/-- C17 (counterexample): with `tab_first_window` on, a window inserted on a workspace without a
root and without an anchor is not made a child of the workspace root group: the root (address
1) gets the single child 2, a new tabbed group, and the window 0 becomes the child of 2. -/
theorem insertNode_tab_first_window_counterexample :
    getWorkspaceRootGroup exLoneWindow (some 0) = none ∧
    fallbackAnchor exEnvTab exLoneWindow (some 0) = none ∧
    ∃ h', insertNode exEnvTab 3 exLoneWindow 0 = some h' ∧
      getWorkspaceRootGroup h' (some 0) = some 1 ∧ h'.childrenOf 1 = [2] ∧
      0 ∉ h'.childrenOf 1 ∧ h'.parentOf 0 = some (some 2) ∧ h'.childrenOf 2 = [0] :=
  ⟨by decide, by decide, _, rfl, by decide, by decide, by decide, by decide, by decide⟩

/-- C17 (amended): for a parentless node on a valid workspace of a well-formed, acyclic store
with the focus invariant, and every sufficiently large fuel: (1) when the workspace has a root
whose focused node `a` is not the root itself and is not flagged `reparenting`, and autotile
is disabled, `insertNode` returns, the child list of the parent of `a` is the old list with the
node inserted immediately after `a`, the node's parent is the parent of `a`, and all other
child lists and parent pointers and the set of nodes are unchanged; (2) when the workspace has
no root and no fallback anchor is found, `insertNode` returns and has created a root group at
the next free address: with `tab_first_window` off the node is the only child of that root,
with `tab_first_window` on the root's only child is a new Tabbed group and the node is the only
child of that Tabbed group (not of the root). -/
theorem insertNode_placement (env : Env) (h : Hy3Layout) (ok : StoreOK h) (wf : WellFormed h)
    (ac : Acyclic h) (fi : FocusInv h) (node : Nat) (nn : Hy3Node) (hn : h.get node = some nn)
    (hp : nn.parent = none) (hv : env.validWorkspace nn.workspace = true) :
    ∃ N, ∀ fuel, N ≤ fuel →
      (∀ root a,
        getWorkspaceRootGroup (h.modify node fun n => { n with reparenting := true })
          nn.workspace = some root →
        getFocusedNode fuel h root false false = some (some a) → a ≠ root →
        (h.get a).map Hy3Node.reparenting = some false → env.at_enable = 0 →
        ∃ p cs h', h.parentOf a = some (some p) ∧
          insertAfter (h.childrenOf p) a node = some cs ∧
          insertNode env fuel h node = some h' ∧ h'.childrenOf p = cs ∧
          h'.parentOf node = some (some p) ∧
          (∀ x, x ≠ p → h'.childrenOf x = h.childrenOf x) ∧
          (∀ x, x ≠ node → h'.parentOf x = h.parentOf x) ∧
          (∀ x, (h'.get x).isSome = (h.get x).isSome)) ∧
      (getWorkspaceRootGroup (h.modify node fun n => { n with reparenting := true })
          nn.workspace = none →
        fallbackAnchor env (h.modify node fun n => { n with reparenting := true })
          nn.workspace = none →
        ∃ h', insertNode env fuel h node = some h' ∧ h'.parentOf h.next = some none ∧
          (∀ x, x < h.next → h'.childrenOf x = h.childrenOf x) ∧
          (∀ x, x < h.next → x ≠ node → h'.parentOf x = h.parentOf x) ∧
          (env.tab_first_window = 0 →
            h'.childrenOf h.next = [node] ∧ h'.parentOf node = some (some h.next)) ∧
          (env.tab_first_window ≠ 0 →
            h'.childrenOf h.next = [h.next + 1] ∧
            h'.parentOf (h.next + 1) = some (some h.next) ∧
            (h'.group (h.next + 1)).map Hy3GroupData.layout = some Hy3GroupLayout.Tabbed ∧
            h'.childrenOf (h.next + 1) = [node] ∧
            h'.parentOf node = some (some (h.next + 1)))) := by
  obtain ⟨rank, B, rk⟩ := ac
  refine ⟨4 * B + 5, fun fuel hf => ⟨fun root a hr hfa hne hrep hat => ?_, fun hr hfb => ?_⟩⟩
  · exact insertNode_after_focused ok wf rk fi hn hp hv hr hfa hne hrep hat (by omega)
  · by_cases htab : env.tab_first_window = 0
    · obtain ⟨h', e, h1, h2, h3, h4, h5⟩ :=
        insertNode_new_root ok wf rk fi hn hp hv hr hfb htab
          (show 2 * B + 4 < fuel by omega)
      exact ⟨h', e, h1, fun x hx => h4 x (by omega), fun x hx hxn => h5 x (by omega) hxn,
        fun _ => ⟨h2, h3⟩, fun hh => absurd htab hh⟩
    · obtain ⟨h', e, h1, h2, h3, h4, h5, h6, h7, h8⟩ :=
        insertNode_new_tab ok wf rk fi hn hp hv hr hfb htab
          (show 2 * B + 4 < fuel by omega)
      exact ⟨h', e, h1, fun x hx => h7 x (by omega) (by omega),
        fun x hx hxn => h8 x (by omega) (by omega) hxn,
        fun hh => absurd hh htab, fun _ => ⟨h2, h3, h4, h5, h6⟩⟩



theorem insertNode_placement_witness :
    (∃ N, ∀ fuel, N ≤ fuel → ∃ h', insertNode exEnv fuel exDetached 4 = some h' ∧
      h'.childrenOf 1 = [2, 4, 3] ∧ h'.parentOf 4 = some (some 1)) ∧
    (∃ N, ∀ fuel, N ≤ fuel → ∃ h', insertNode exEnv fuel exLoneWindow 0 = some h' ∧
      h'.childrenOf 1 = [0] ∧ h'.parentOf 0 = some (some 1)) ∧
    (∃ N, ∀ fuel, N ≤ fuel → ∃ h', insertNode exEnvTab fuel exLoneWindow 0 = some h' ∧
      h'.childrenOf 1 = [2] ∧ h'.childrenOf 2 = [0] ∧ h'.parentOf 0 = some (some 2)) := by
  refine ⟨?_, ?_, ?_⟩
  · obtain ⟨N, hN⟩ := insertNode_placement exEnv exDetached (by unfold StoreOK; decide)
      (wellFormed_of_check (by decide)) ⟨id, 4, rankedBy_of_check (by decide)⟩
      (focusInv_of_check (by decide)) 4 _ rfl rfl rfl
    refine ⟨N + 3, fun fuel hf => ?_⟩
    obtain ⟨f, rfl⟩ : ∃ f, fuel = f + 3 := ⟨fuel - 3, by omega⟩
    obtain ⟨p, cs, h', hpa, hcs, e, hc, hpn, _⟩ :=
      (hN (f + 3) (by omega)).1 0 2 (by decide) rfl (by decide) rfl rfl
    have hp1 : exDetached.parentOf 2 = some (some 1) := rfl
    rw [hp1] at hpa
    simp only [Option.some.injEq] at hpa
    subst hpa
    have hcs1 : insertAfter (exDetached.childrenOf 1) 2 4 = some [2, 4, 3] := rfl
    rw [hcs1] at hcs
    simp only [Option.some.injEq] at hcs
    subst hcs
    exact ⟨h', e, hc, hpn⟩
  · obtain ⟨N, hN⟩ := insertNode_placement exEnv exLoneWindow (by unfold StoreOK; decide)
      (wellFormed_of_check (by decide)) ⟨id, 0, rankedBy_of_check (by decide)⟩
      (focusInv_of_check (by decide)) 0 _ rfl rfl rfl
    refine ⟨N, fun fuel hf => ?_⟩
    obtain ⟨h', e, _, _, _, h0, _⟩ := (hN fuel hf).2 (by decide) (by decide)
    exact ⟨h', e, (h0 rfl).1, (h0 rfl).2⟩
  · obtain ⟨N, hN⟩ := insertNode_placement exEnvTab exLoneWindow (by unfold StoreOK; decide)
      (wellFormed_of_check (by decide)) ⟨id, 0, rankedBy_of_check (by decide)⟩
      (focusInv_of_check (by decide)) 0 _ rfl rfl rfl
    refine ⟨N, fun fuel hf => ?_⟩
    obtain ⟨h', e, _, _, _, _, h1⟩ := (hN fuel hf).2 (by decide) (by decide)
    have := h1 (by decide)
    exact ⟨h', e, this.1, this.2.2.2.1, this.2.2.2.2⟩


/-! ## The layout pass: setHidden and the expansion target -/


theorem layoutReady_of_check {h : Hy3Layout} (hc : layoutReadyCheck h = true) :
    LayoutReady h := by
  unfold layoutReadyCheck at hc
  simp only [List.all_eq_true] at hc
  refine ⟨fun a n hn hd => ?_, fun a g fc hg hf => ?_⟩
  · have := hc n (get_mem hn)
    rw [hd] at this
    cases this
  · obtain ⟨n, hn, hd⟩ := group_eq_some hg
    have := hc n (get_mem hn)
    rw [hd] at this
    simp only [hf, decide_eq_true_eq] at this
    exact this

theorem Geometry.set_ne (geo : Geometry) {a x : Nat} (g : NodeGeometry) (hx : x ≠ a) :
    geo.set a g x = geo x := if_neg hx

theorem Geometry.set_same (geo : Geometry) (a : Nat) (g : NodeGeometry) :
    geo.set a g a = g := if_pos rfl

/-- `setHidden` returns and writes only inside the subtree of its node. -/
theorem setHidden_total {h : Hy3Layout} {rank : Nat → Nat} {B : Nat}
    (cr : ChildrenRanked h rank B) (b : Bool) :
    ∀ (fuel a : Nat) (geo : Geometry), B - rank a < fuel → (h.get a).isSome →
      ∃ geo', setHidden fuel h geo a b = some geo' ∧
        ∀ x, ¬ InSubtree h a x → geo' x = geo x
  | 0, _, _, hf, _ => by omega
  | fuel + 1, a, geo, hf, hs => by
    obtain ⟨n, hn⟩ := Option.isSome_iff_exists.mp hs
    unfold setHidden
    simp only [hn]
    have hself : ∀ x, ¬ InSubtree h a x → x ≠ a := fun x hx e => hx (e ▸ InSubtree.self x)
    cases hd : n.data with
    | window w =>
      exact ⟨_, rfl, fun x hx => Geometry.set_ne _ _ (hself x hx)⟩
    | group g =>
      simp only
      have key : ∀ (l : List Nat) (acc : Geometry), (∀ c ∈ l, c ∈ g.children) →
          ∃ acc', l.foldlM (fun acc child => setHidden fuel h acc child b) acc = some acc' ∧
            ∀ x, ¬ InSubtree h a x → acc' x = acc x := by
        intro l
        induction l with
        | nil => exact fun acc _ => ⟨acc, rfl, fun _ _ => rfl⟩
        | cons c l ih =>
          intro acc hl
          have hc : c ∈ n.data.children := by
            rw [hd]; exact hl c (List.mem_cons_self _ _)
          obtain ⟨hcs, hcr, _⟩ := cr a n c hn hc
          obtain ⟨acc1, e1, f1⟩ := setHidden_total cr b fuel c acc (by omega) hcs
          obtain ⟨acc2, e2, f2⟩ := ih acc1 (fun c' hc' => hl c' (List.mem_cons_of_mem _ hc'))
          refine ⟨acc2, ?_, fun x hx => ?_⟩
          · simp only [List.foldlM_cons, e1, Option.bind_eq_bind, Option.some_bind]
            exact e2
          · rw [f2 x hx, f1 x (fun hs' => hx (InSubtree.step
              (by rw [childrenOf_of_get hn]; exact hc) hs'))]
      obtain ⟨acc', e, f⟩ := key g.children _ (fun _ hc => hc)
      exact ⟨acc', e, fun x hx => by rw [f x hx, Geometry.set_ne _ _ (hself x hx)]⟩

/-- The expansion target of a latch lies in the subtree of the focused child. -/
theorem expansionTarget_total {h : Hy3Layout} {rank : Nat → Nat} {B : Nat}
    (cr : ChildrenRanked h rank B) (ei : ExpandInv h) :
    ∀ (fuel fc : Nat), B - rank fc < fuel → (h.get fc).isSome →
      ∃ e, expansionTarget fuel h (some fc) = some (some e) ∧ InSubtree h fc e ∧
        (h.get e).isSome
  | 0, _, hf, _ => by omega
  | fuel + 1, fc, hf, hs => by
    obtain ⟨n, hn⟩ := Option.isSome_iff_exists.mp hs
    unfold expansionTarget
    simp only [hn]
    cases hd : n.data with
    | window w => exact ⟨fc, rfl, InSubtree.self fc, hs⟩
    | group g =>
      simp only
      by_cases he : g.expand_focused ≠ ExpandFocusType.NotExpanded
      · rw [if_pos he]
        obtain ⟨fc', hf', hm⟩ := ei fc g (group_of_get hn hd) he
        have hc : fc' ∈ n.data.children := by rw [hd]; exact hm
        obtain ⟨hcs, hcr, _⟩ := cr fc n fc' hn hc
        obtain ⟨e, e1, e2, e3⟩ := expansionTarget_total cr ei fuel fc' (by omega) hcs
        rw [hf']
        exact ⟨e, e1, InSubtree.step (by rw [childrenOf_of_get hn]; exact hc) e2, e3⟩
      · rw [if_neg he]
        exact ⟨fc, rfl, InSubtree.self fc, hs⟩


/-! ## The layout pass: the child loop -/


theorem not_properDesc_self {h : Hy3Layout} {rank : Nat → Nat} {B : Nat}
    (cr : ChildrenRanked h rank B) {a : Nat} : ¬ ProperDesc h a a := by
  rintro ⟨c, hc, hs⟩
  obtain ⟨n, hn, hm⟩ := mem_childrenOf.mp hc
  obtain ⟨hcs, hlt, _⟩ := cr a n c hn hm
  have := (inSubtree_rank cr hs hcs).1
  omega

theorem properDesc_of_child {h : Hy3Layout} {a c x : Nat} (hc : c ∈ h.childrenOf a)
    (hp : ProperDesc h c x) : ProperDesc h a x := by
  obtain ⟨c', hc', hs⟩ := hp
  exact ⟨c, hc, InSubtree.step hc' hs⟩

theorem properDesc_of_inSubtree {h : Hy3Layout} {a e x : Nat} (he : ProperDesc h a e)
    (hs : InSubtree h e x) : ProperDesc h a x := by
  obtain ⟨c, hc, hce⟩ := he
  refine ⟨c, hc, ?_⟩
  clear hc
  induction hce with
  | self _ => exact hs
  | step hm _ ih => exact InSubtree.step hm (ih hs)

/-- A child of `a` is not below one of its siblings. -/
theorem not_inSubtree_sibling {h : Hy3Layout} (wf : WellFormed h) {rank : Nat → Nat} {B : Nat}
    (cr : ChildrenRanked h rank B) {a c c' : Nat} (hc : c ∈ h.childrenOf a)
    (hc' : c' ∈ h.childrenOf a) (hne : c ≠ c') : ¬ InSubtree h c' c := by
  intro hs
  have w := (wellFormed_iff h).mp wf
  rcases hs.cases_tail with e | ⟨q, hq, hm⟩
  · exact hne e
  · have h1 := w.2 q c hm
    have h2 := w.2 a c hc
    rw [h1] at h2
    simp only [Option.some.injEq] at h2
    subst h2
    obtain ⟨n, hn, hm'⟩ := mem_childrenOf.mp hc'
    obtain ⟨hcs, hlt, _⟩ := cr q n c' hn hm'
    have := (inSubtree_rank cr hq hcs).1
    omega

theorem not_inSubtree_parent {h : Hy3Layout} {rank : Nat → Nat} {B : Nat}
    (cr : ChildrenRanked h rank B) {a c : Nat} (hc : c ∈ h.childrenOf a) :
    ¬ InSubtree h c a := by
  intro hs
  obtain ⟨n, hn, hm⟩ := mem_childrenOf.mp hc
  obtain ⟨hcs, hlt, _⟩ := cr a n c hn hm
  have := (inSubtree_rank cr hs hcs).1
  omega

/-- The child loop of `recalcSizePosRecursive` returns; it writes only to the children in the
list and below them, and when no child is skipped each child ends with the fields the loop
assigned to it. -/
theorem recalcChildren_spec {h : Hy3Layout} (wf : WellFormed h) {rank : Nat → Nat} {B : Nat}
    (cr : ChildrenRanked h rank B) {this : Nat} {group : Hy3GroupData}
    (hg : h.group this = some group) (recurse : Geometry → Nat → Option Geometry)
    (hrec : ∀ c ∈ group.children, ∀ geo, ∃ geo', recurse geo c = some geo' ∧
      ∀ x, ¬ ProperDesc h c x → geo' x = geo x)
    (tpos tsize gtl gbr : Vector2D) (tab mul : ℚ) (inset : Int) (hp ef dce : Bool) :
    ∀ (l : List Nat) (geo : Geometry) (offset : ℚ), (∀ c ∈ l, c ∈ group.children) →
      l.Nodup →
      ∃ geo', recalcChildren recurse h this group tpos tsize gtl gbr tab mul inset hp ef dce
          l geo offset = some geo' ∧
        (∀ x, (∀ c ∈ l, ¬ InSubtree h c x) → geo' x = geo x) ∧
        (dce = false → ∀ p ∈ placements h group.layout tpos tsize gtl gbr tab mul inset hp
          (geo this).hidden ef group.children group.focused_child l offset, geo' p.1 = p.2)
  | [], geo, offset, _, _ => ⟨geo, rfl, fun _ _ => rfl, fun _ p hp => by cases hp⟩
  | c :: rest, geo, offset, hl, hnd => by
    have hgc := childrenOf_of_group_eq hg
    have hcm : c ∈ h.childrenOf this := hgc ▸ hl c (List.mem_cons_self _ _)
    obtain ⟨n, hn, hm⟩ := mem_childrenOf.mp hcm
    obtain ⟨hcs, _, _⟩ := cr this n c hn hm
    obtain ⟨cn, hcn⟩ := Option.isSome_iff_exists.mp hcs
    have hrest : ∀ c' ∈ rest, c' ∈ group.children :=
      fun c' hc' => hl c' (List.mem_cons_of_mem _ hc')
    have hnd' := (List.nodup_cons.mp hnd)
    unfold recalcChildren
    simp only [hcn]
    by_cases hskip : (dce && decide (group.focused_child = some c)) = true
    · rw [if_pos hskip]
      obtain ⟨geo', e, f, _⟩ := recalcChildren_spec wf cr hg recurse hrec tpos tsize gtl gbr tab
        mul inset hp ef dce rest geo
        (if group.layout = Hy3GroupLayout.Tabbed then offset else offset + cn.size_ratio * mul)
        hrest hnd'.2
      refine ⟨geo', e, fun x hx => f x (fun c' hc' => hx c' (List.mem_cons_of_mem _ hc')),
        fun hd => ?_⟩
      rw [hd] at hskip
      simp at hskip
    · rw [if_neg hskip]
      obtain ⟨geo1, e1, f1⟩ := hrec c (hl c (List.mem_cons_self _ _))
        (geo.set c (placeChild group.layout tpos tsize gtl gbr tab mul inset hp
          (geo this).hidden ef group.children group.focused_child c cn.size_ratio offset).1)
      rw [e1]
      simp only
      obtain ⟨geo', e, f, pl⟩ := recalcChildren_spec wf cr hg recurse hrec tpos tsize gtl gbr
        tab mul inset hp ef dce rest geo1
        (placeChild group.layout tpos tsize gtl gbr tab mul inset hp
          (geo this).hidden ef group.children group.focused_child c cn.size_ratio offset).2
        hrest hnd'.2
      have hthis : geo1 this = geo this := by
        rw [f1 this (fun hpd => not_inSubtree_parent cr hcm
          (by obtain ⟨c', hc', hs⟩ := hpd; exact InSubtree.step hc' hs))]
        exact Geometry.set_ne _ _ (fun e => not_inSubtree_parent cr hcm (by rw [e]; exact InSubtree.self c))
      have hcfix : geo' c = (placeChild group.layout tpos tsize gtl gbr tab mul inset hp
          (geo this).hidden ef group.children group.focused_child c cn.size_ratio offset).1 := by
        rw [f c (fun c' hc' => not_inSubtree_sibling wf cr hcm (hgc ▸ hrest c' hc')
          (fun e => hnd'.1 (e ▸ hc'))), f1 c (not_properDesc_self cr)]
        exact Geometry.set_same _ _ _
      refine ⟨geo', e, fun x hx => ?_, fun hd p hpm => ?_⟩
      · rw [f x (fun c' hc' => hx c' (List.mem_cons_of_mem _ hc')),
          f1 x (fun hpd => hx c (List.mem_cons_self _ _)
            (by obtain ⟨c', hc', hs⟩ := hpd; exact InSubtree.step hc' hs))]
        exact Geometry.set_ne _ _
          (fun e => hx c (List.mem_cons_self _ _) (by rw [e]; exact InSubtree.self c))
      · unfold placements at hpm
        have hr : (h.ratioOf c).getD 0 = cn.size_ratio := by
          simp [Hy3Layout.ratioOf, hcn]
        rw [hr] at hpm
        rcases List.mem_cons.mp hpm with e0 | e0
        · rw [e0]
          exact hcfix
        · rw [hthis] at pl
          exact pl hd p e0


/-! ## The layout pass returns and writes only below its node -/


theorem inSubtree_rank_le {h : Hy3Layout} {rank : Nat → Nat} {B : Nat}
    (cr : ChildrenRanked h rank B) {a x : Nat} (hs : InSubtree h a x) (ha : rank a ≤ B) :
    rank x ≤ B := by
  induction hs with
  | self _ => exact ha
  | step hm _ ih =>
    obtain ⟨n, hn, hm'⟩ := mem_childrenOf.mp hm
    exact ih (cr _ n _ hn hm').2.2

theorem recalcSizePosRecursive_total (cfg : LayoutConfig) {h : Hy3Layout} (wf : WellFormed h)
    {rank : Nat → Nat} {B : Nat} (cr : ChildrenRanked h rank B) (lr : LayoutReady h)
    (ei : ExpandInv h) :
    ∀ (fuel this : Nat) (geo : Geometry), B - rank this < fuel → (h.get this).isSome →
      ∃ geo', recalcSizePosRecursive cfg fuel h geo this = some geo' ∧
        ∀ x, ¬ ProperDesc h this x → geo' x = geo x
  | 0, _, _, hf, _ => by omega
  | fuel + 1, this, geo, hf, hs => by
    obtain ⟨n, hn⟩ := Option.isSome_iff_exists.mp hs
    unfold recalcSizePosRecursive
    simp only [hn]
    cases hd : n.data with
    | window w =>
      cases w with
      | none => exact absurd hd (lr.1 this n hn)
      | some w => exact ⟨geo, rfl, fun _ _ => rfl⟩
    | group group =>
      simp only
      have hg := group_of_get hn hd
      have hgc := childrenOf_of_group_eq hg
      have hchild : ∀ c ∈ group.children,
          (h.get c).isSome ∧ rank this < rank c ∧ rank c ≤ B :=
        fun c hc => cr this n c hn (by rw [hd]; exact hc)
      split
      · rename_i heq
        exfalso
        split at heq
        · rename_i hexp
          have hne : group.expand_focused ≠ ExpandFocusType.NotExpanded := by simpa using hexp
          obtain ⟨fc, hfc, hm⟩ := ei this group hg hne
          obtain ⟨fn, hfn⟩ := Option.isSome_iff_exists.mp (hchild fc hm).1
          simp only [hfc, hfn] at heq
          split at heq <;> cases heq
        · cases heq
      · rename_i dce hdce
        clear hdce
        have hun : ∀ g1 : Option Geometry,
            (if group.layout = Hy3GroupLayout.Tabbed then
              match group.focused_child with
              | none => some geo
              | some fc =>
                match h.get fc with
                | none => none
                | some _ => if (geo fc).hidden = false then setHidden fuel h geo fc false
                            else some geo
            else some geo) = g1 →
            ∃ geo1, g1 = some geo1 ∧ ∀ x, ¬ ProperDesc h this x → geo1 x = geo x := by
          intro g1 e
          split at e
          · split at e
            · exact ⟨geo, e.symm, fun _ _ => rfl⟩
            · rename_i fc hfc
              have hm := lr.2 this group fc hg hfc
              obtain ⟨fn, hfn⟩ := Option.isSome_iff_exists.mp (hchild fc hm).1
              simp only [hfn] at e
              split at e
              · obtain ⟨geo1, e1, f1⟩ := setHidden_total cr false fuel fc geo
                  (by have := (hchild fc hm).2; omega) (hchild fc hm).1
                rw [e1] at e
                exact ⟨geo1, e.symm, fun x hx => f1 x (fun hs => hx ⟨fc, hgc ▸ hm, hs⟩)⟩
              · exact ⟨geo, e.symm, fun _ _ => rfl⟩
          · exact ⟨geo, e.symm, fun _ _ => rfl⟩
        split
        · rename_i heq
          obtain ⟨_, e, _⟩ := hun _ heq
          cases e
        · rename_i geo1 heq
          obtain ⟨geo1', e, f1⟩ := hun _ heq
          cases e
          clear heq hun
          have hrec : ∀ c ∈ group.children, ∀ geo, ∃ geo',
              recalcSizePosRecursive cfg fuel h geo c = some geo' ∧
                ∀ x, ¬ ProperDesc h c x → geo' x = geo x :=
            fun c hc geo => recalcSizePosRecursive_total cfg wf cr lr ei fuel c geo
              (by have := (hchild c hc).2; omega) (hchild c hc).1
          have hnd : group.children.Nodup := hgc ▸ wf.children_nodup this
          have finish : ∀ geo4 : Geometry, (∀ x, ¬ ProperDesc h this x → geo4 x = geo1 x) →
              ∀ (tpos tsize gtl gbr : Vector2D) (tab mul : ℚ) (inset : Int) (hp ef : Bool),
              ∃ geo', recalcChildren (recalcSizePosRecursive cfg fuel h) h this group tpos tsize
                  gtl gbr tab mul inset hp ef dce group.children geo4 0 = some geo' ∧
                ∀ x, ¬ ProperDesc h this x → geo' x = geo x := by
            intro geo4 f4 tpos tsize gtl gbr tab mul inset hp ef
            obtain ⟨geo', e, f, _⟩ := recalcChildren_spec wf cr hg _ hrec tpos tsize gtl gbr tab
              mul inset hp ef dce group.children geo4 0 (fun _ hc => hc) hnd
            exact ⟨geo', e, fun x hx => by
              rw [f x (fun c hc hs => hx ⟨c, hgc ▸ hc, hs⟩), f4 x hx, f1 x hx]⟩
          by_cases hL : group.expand_focused = ExpandFocusType.Latch
          · rw [if_pos hL]
            obtain ⟨fc, hfc, hm⟩ := ei this group hg (by rw [hL]; decide)
            obtain ⟨en, e1, hsub, hes⟩ := expansionTarget_total cr ei fuel fc
              (by have := (hchild fc hm).2; omega) (hchild fc hm).1
            have hepd : ProperDesc h this en := ⟨fc, hgc ▸ hm, hsub⟩
            have hrk : rank this < rank en ∧ rank en ≤ B := by
              have := (inSubtree_rank cr hsub (hchild fc hm).1).1
              have := (hchild fc hm).2
              have := inSubtree_rank_le cr hsub (hchild fc hm).2.2
              omega
            rw [hfc, e1]
            simp only
            obtain ⟨geo3, e3, f3⟩ := setHidden_total cr
              ((geo1.set en { geo1 en with
                position := (geo this).position, size := (geo this).size }) this).hidden
              fuel en
              (geo1.set en { geo1 en with
                position := (geo this).position, size := (geo this).size })
              (by omega) hes
            rw [e3]
            simp only
            obtain ⟨geo4, e4, f4⟩ := recalcSizePosRecursive_total cfg wf cr lr ei fuel en
              (geo3.set en { geo3 en with
                gap_topleft_offset :=
                  if n.parent ≠ none then (geo this).gap_topleft_offset
                  else ⟨((-(cfg.gaps_in.left - cfg.gaps_out.left) : Int) : ℚ),
                        ((-(cfg.gaps_in.top - cfg.gaps_out.top) : Int) : ℚ)⟩
                gap_bottomright_offset :=
                  if n.parent ≠ none then (geo this).gap_bottomright_offset
                  else ⟨((-(cfg.gaps_in.right - cfg.gaps_out.right) : Int) : ℚ),
                        ((-(cfg.gaps_in.bottom - cfg.gaps_out.bottom) : Int) : ℚ)⟩ })
              (by omega) hes
            rw [e4]
            simp only [Option.map_some']
            refine finish geo4 (fun x hx => ?_) _ _ _ _ _ _ _ _ _
            have hxe : x ≠ en := fun e => hx (e ▸ hepd)
            rw [f4 x (fun hpd => hx (properDesc_of_inSubtree hepd
                (by obtain ⟨c', hc', hs'⟩ := hpd; exact InSubtree.step hc' hs'))),
              Geometry.set_ne _ _ hxe,
              f3 x (fun hs' => hx (properDesc_of_inSubtree hepd hs')),
              Geometry.set_ne _ _ hxe]
          · rw [if_neg hL]
            simp only
            exact finish geo1 (fun _ _ => rfl) _ _ _ _ _ _ _ _ _


/-! ## The layout pass on a group without expansion -/


/-- For a group without an active expansion the layout pass returns, writes only below the
group, and leaves every child with the fields of `groupPlacements`. -/
theorem recalcSizePosRecursive_group (cfg : LayoutConfig) {h : Hy3Layout} (wf : WellFormed h)
    {rank : Nat → Nat} {B : Nat} (cr : ChildrenRanked h rank B) (lr : LayoutReady h)
    (ei : ExpandInv h) {this : Nat} {n : Hy3Node} {group : Hy3GroupData}
    (hn : h.get this = some n) (hd : n.data = Hy3NodeData.group group)
    (hne : group.expand_focused = ExpandFocusType.NotExpanded) (geo : Geometry) {fuel : Nat}
    (hf : B - rank this < fuel) :
    ∃ geo', recalcSizePosRecursive cfg fuel h geo this = some geo' ∧
      (∀ x, ¬ ProperDesc h this x → geo' x = geo x) ∧
      ∀ p ∈ groupPlacements cfg h n group (geo this), geo' p.1 = p.2 := by
  obtain ⟨f, rfl⟩ : ∃ f, fuel = f + 1 := ⟨fuel - 1, by omega⟩
  have hg := group_of_get hn hd
  have hgc := childrenOf_of_group_eq hg
  have hchild : ∀ c ∈ group.children,
      (h.get c).isSome ∧ rank this < rank c ∧ rank c ≤ B :=
    fun c hc => cr this n c hn (by rw [hd]; exact hc)
  have hrec : ∀ c ∈ group.children, ∀ geo, ∃ geo',
      recalcSizePosRecursive cfg f h geo c = some geo' ∧
        ∀ x, ¬ ProperDesc h c x → geo' x = geo x :=
    fun c hc geo => recalcSizePosRecursive_total cfg wf cr lr ei f c geo
      (by have := (hchild c hc).2; omega) (hchild c hc).1
  have hnd : group.children.Nodup := hgc ▸ wf.children_nodup this
  have hun : ∀ g1 : Option Geometry,
      (if group.layout = Hy3GroupLayout.Tabbed then
        match group.focused_child with
        | none => some geo
        | some fc =>
          match h.get fc with
          | none => none
          | some _ => if (geo fc).hidden = false then setHidden f h geo fc false
                      else some geo
      else some geo) = g1 →
      ∃ geo1, g1 = some geo1 ∧ ∀ x, ¬ ProperDesc h this x → geo1 x = geo x := by
    intro g1 e
    split at e
    · split at e
      · exact ⟨geo, e.symm, fun _ _ => rfl⟩
      · rename_i fc hfc
        have hm := lr.2 this group fc hg hfc
        obtain ⟨fn, hfn⟩ := Option.isSome_iff_exists.mp (hchild fc hm).1
        simp only [hfn] at e
        split at e
        · obtain ⟨geo1, e1, f1⟩ := setHidden_total cr false f fc geo
            (by have := (hchild fc hm).2; omega) (hchild fc hm).1
          rw [e1] at e
          exact ⟨geo1, e.symm, fun x hx => f1 x (fun hs => hx ⟨fc, hgc ▸ hm, hs⟩)⟩
        · exact ⟨geo, e.symm, fun _ _ => rfl⟩
    · exact ⟨geo, e.symm, fun _ _ => rfl⟩
  unfold recalcSizePosRecursive
  simp only [hn, hd, hne, bne_self_eq_false, Bool.false_eq_true, if_false]
  split
  · rename_i heq
    obtain ⟨_, e, _⟩ := hun _ heq
    cases e
  · rename_i geo1 heq
    obtain ⟨geo1', e, f1⟩ := hun _ heq
    cases e
    rw [if_neg (by decide)]
    simp only
    obtain ⟨geo', e, fr, pl⟩ := recalcChildren_spec wf cr hg (recalcSizePosRecursive cfg f h)
      hrec (geo this).position (geo this).size (effectiveGaps cfg n.parent (geo this)).1
      (effectiveGaps cfg n.parent (geo this)).2
      (((cfg.tab_bar_height + cfg.tab_bar_padding : Int) : ℚ))
      (ratioMul group.layout (geo this).size (effectiveGaps cfg n.parent (geo this)).1
        (effectiveGaps cfg n.parent (geo this)).2 group.children.length)
      cfg.group_inset (decide (n.parent ≠ none)) false false group.children geo1 0
      (fun _ hc => hc) hnd
    have hthis : geo1 this = geo this := f1 this (not_properDesc_self cr)
    rw [hthis] at pl
    refine ⟨geo', ?_, fun x hx => ?_, pl rfl⟩
    · rw [← e]
      rfl
    · rw [fr x (fun c hc hs => hx ⟨c, hgc ▸ hc, hs⟩), f1 x hx]


/-! ## The fields written to one child -/


theorem placements_fst (h : Hy3Layout) (L : Hy3GroupLayout) (tpos tsize gtl gbr : Vector2D)
    (tab mul : ℚ) (inset : Int) (hp th ef : Bool) (children : List Nat) (fc : Option Nat) :
    ∀ (l : List Nat) (o : ℚ),
      (placements h L tpos tsize gtl gbr tab mul inset hp th ef children fc l o).map Prod.fst
        = l
  | [], _ => rfl
  | c :: rest, o => by
    unfold placements
    simp only [List.map_cons]
    rw [placements_fst h L tpos tsize gtl gbr tab mul inset hp th ef children fc rest]

theorem Vector2D.along_splitH (v : Vector2D) : v.along Hy3GroupLayout.SplitH = v.x := rfl

theorem Vector2D.along_splitV (v : Vector2D) : v.along Hy3GroupLayout.SplitV = v.y := rfl

theorem Vector2D.cross_splitH (v : Vector2D) : v.cross Hy3GroupLayout.SplitH = v.y := rfl

theorem Vector2D.cross_splitV (v : Vector2D) : v.cross Hy3GroupLayout.SplitV = v.x := rfl

theorem placeChild_common {L : Hy3GroupLayout} (hL : L ≠ Hy3GroupLayout.Tabbed)
    (tpos tsize gtl gbr : Vector2D) (tab mul : ℚ) (inset : Int) (hp th ef : Bool)
    (children : List Nat) (fc : Option Nat) (c : Nat) (r o : ℚ) :
    (placeChild L tpos tsize gtl gbr tab mul inset hp th ef children fc c r o).1.position.along L
        = tpos.along L + o ∧
      (placeChild L tpos tsize gtl gbr tab mul inset hp th ef children fc c r o).1.position.cross L
        = tpos.cross L ∧
      (placeChild L tpos tsize gtl gbr tab mul inset hp th ef children fc c r o).1.size.cross L
        = tsize.cross L ∧
      (placeChild L tpos tsize gtl gbr tab mul inset hp th ef children fc c r o).1.hidden
        = (th || ef) := by
  cases L with
  | Tabbed => exact absurd rfl hL
  | SplitH =>
    unfold placeChild
    simp only [Vector2D.along_splitH, Vector2D.along_splitV, Vector2D.cross_splitH,
      Vector2D.cross_splitV]
    split_ifs <;> simp
  | SplitV =>
    unfold placeChild
    simp only [Vector2D.along_splitH, Vector2D.along_splitV, Vector2D.cross_splitH,
      Vector2D.cross_splitV]
    split_ifs <;> simp

theorem placeChild_first {L : Hy3GroupLayout} (hL : L ≠ Hy3GroupLayout.Tabbed)
    (tpos tsize gtl gbr : Vector2D) (tab mul : ℚ) (inset : Int) (hp th ef : Bool)
    {children : List Nat} (fc : Option Nat) {c : Nat} (r o : ℚ) (hlen : children.length ≠ 1)
    (hfirst : children.head? = some c) :
    (placeChild L tpos tsize gtl gbr tab mul inset hp th ef children fc c r o).1.size.along L
        = r * mul + gtl.along L ∧
      (placeChild L tpos tsize gtl gbr tab mul inset hp th ef children fc c r o).2
        = o + r * mul + gtl.along L := by
  cases L with
  | Tabbed => exact absurd rfl hL
  | SplitH =>
    unfold placeChild
    simp only [Vector2D.along_splitH, Vector2D.along_splitV]
    rw [if_neg hlen, if_pos hfirst]
    simp
  | SplitV =>
    unfold placeChild
    simp only [Vector2D.along_splitH, Vector2D.along_splitV]
    rw [if_neg hlen, if_pos hfirst]
    simp

theorem placeChild_later {L : Hy3GroupLayout} (hL : L ≠ Hy3GroupLayout.Tabbed)
    (tpos tsize gtl gbr : Vector2D) (tab mul : ℚ) (inset : Int) (hp th ef : Bool)
    {children : List Nat} (fc : Option Nat) {c : Nat} (r o : ℚ) (hlen : children.length ≠ 1)
    (hfirst : children.head? ≠ some c) :
    (placeChild L tpos tsize gtl gbr tab mul inset hp th ef children fc c r o).1.size.along L
        = r * mul + (if children.getLast? = some c then gbr.along L else 0) ∧
      (placeChild L tpos tsize gtl gbr tab mul inset hp th ef children fc c r o).2
        = o + r * mul := by
  cases L with
  | Tabbed => exact absurd rfl hL
  | SplitH =>
    unfold placeChild
    simp only [Vector2D.along_splitH, Vector2D.along_splitV]
    rw [if_neg hlen, if_neg hfirst]
    split_ifs <;> simp
  | SplitV =>
    unfold placeChild
    simp only [Vector2D.along_splitH, Vector2D.along_splitV]
    rw [if_neg hlen, if_neg hfirst]
    split_ifs <;> simp


/-! ## The children after the first tile the rest of the group -/


theorem getLast?_cons_ne_nil {α : Type} (a : α) {l : List α} (hl : l ≠ []) :
    (a :: l).getLast? = l.getLast? := by
  cases l with
  | nil => exact absurd rfl hl
  | cons b l => exact List.getLast?_cons_cons

theorem ratioSum_cons (h : Hy3Layout) (c : Nat) (l : List Nat) :
    h.ratioSum (c :: l) = (h.ratioOf c).getD 0 + h.ratioSum l := by
  simp [Hy3Layout.ratioSum]

theorem ratioSum_nil (h : Hy3Layout) : h.ratioSum [] = 0 := by
  simp [Hy3Layout.ratioSum]

/-- The children after the first one tile the rest of the group along its axis. -/
theorem placements_tail (h : Hy3Layout) {L : Hy3GroupLayout} (hL : L ≠ Hy3GroupLayout.Tabbed)
    (tpos tsize gtl gbr : Vector2D) (tab mul : ℚ) (inset : Int) (hp th ef : Bool)
    {children : List Nat} (fc : Option Nat) (hlen : children.length ≠ 1) :
    ∀ (l : List Nat) (o : ℚ), l ≠ [] → (∀ c ∈ l, children.head? ≠ some c) → l.Nodup →
      children.getLast? = l.getLast? →
      (∀ p, (placements h L tpos tsize gtl gbr tab mul inset hp th ef children fc l o).head?
          = some p → p.2.position.along L = tpos.along L + o) ∧
      List.Chain' (fun a b : Nat × NodeGeometry =>
          b.2.position.along L = a.2.position.along L + a.2.size.along L)
        (placements h L tpos tsize gtl gbr tab mul inset hp th ef children fc l o) ∧
      (∀ p, (placements h L tpos tsize gtl gbr tab mul inset hp th ef children fc l o).getLast?
          = some p →
        p.2.position.along L + p.2.size.along L
          = tpos.along L + o + h.ratioSum l * mul + gbr.along L)
  | [], _, hne, _, _, _ => absurd rfl hne
  | [c], o, _, hfirst, _, hlast => by
    have hc1 := hfirst c (List.mem_singleton_self c)
    have hcl : children.getLast? = some c := hlast
    obtain ⟨pa, _, _, _⟩ := placeChild_common hL tpos tsize gtl gbr tab mul inset hp th ef
      children fc c ((h.ratioOf c).getD 0) o
    obtain ⟨sa, _⟩ := placeChild_later hL tpos tsize gtl gbr tab mul inset hp th ef fc
      ((h.ratioOf c).getD 0) o hlen hc1
    rw [if_pos hcl] at sa
    unfold placements
    unfold placements
    refine ⟨fun p hp' => ?_, List.chain'_singleton _, fun p hp' => ?_⟩
    · simp only [List.head?_cons, Option.some.injEq] at hp'
      rw [← hp']
      exact pa
    · simp only [List.getLast?_singleton, Option.some.injEq] at hp'
      rw [← hp']
      simp only
      rw [pa, sa, ratioSum_cons, ratioSum_nil]
      ring
  | c :: c2 :: l', o, _, hfirst, hnd, hlast => by
    have hc1 := hfirst c (List.mem_cons_self _ _)
    have hnd' := List.nodup_cons.mp hnd
    have hcl : children.getLast? ≠ some c := by
      rw [hlast, List.getLast?_cons_cons]
      intro e
      exact hnd'.1 (List.mem_of_getLast?_eq_some e)
    obtain ⟨pa, _, _, _⟩ := placeChild_common hL tpos tsize gtl gbr tab mul inset hp th ef
      children fc c ((h.ratioOf c).getD 0) o
    obtain ⟨sa, oa⟩ := placeChild_later hL tpos tsize gtl gbr tab mul inset hp th ef fc
      ((h.ratioOf c).getD 0) o hlen hc1
    rw [if_neg hcl, add_zero] at sa
    obtain ⟨ih1, ih2, ih3⟩ := placements_tail h hL tpos tsize gtl gbr tab mul inset hp th ef fc
      hlen (c2 :: l')
      (placeChild L tpos tsize gtl gbr tab mul inset hp th ef children fc c
        ((h.ratioOf c).getD 0) o).2
      (List.cons_ne_nil _ _) (fun c' hc' => hfirst c' (List.mem_cons_of_mem _ hc')) hnd'.2
      (by rw [hlast, List.getLast?_cons_cons])
    have hne : placements h L tpos tsize gtl gbr tab mul inset hp th ef children fc (c2 :: l')
        (placeChild L tpos tsize gtl gbr tab mul inset hp th ef children fc c
          ((h.ratioOf c).getD 0) o).2 ≠ [] := by
      unfold placements
      exact List.cons_ne_nil _ _
    unfold placements
    refine ⟨fun p hp' => ?_, ?_, fun p hp' => ?_⟩
    · simp only [List.head?_cons, Option.some.injEq] at hp'
      rw [← hp']
      exact pa
    · rw [List.chain'_cons']
      refine ⟨fun q hq => ?_, ih2⟩
      have := ih1 q (Option.mem_def.mp hq)
      rw [this, oa, pa, sa]
      ring
    · rw [getLast?_cons_ne_nil _ hne] at hp'
      have := ih3 p hp'
      rw [this, oa, ratioSum_cons (l := c2 :: l')]
      ring


/-! ## A split group is tiled exactly -/


theorem placements_cross (h : Hy3Layout) {L : Hy3GroupLayout} (hL : L ≠ Hy3GroupLayout.Tabbed)
    (tpos tsize gtl gbr : Vector2D) (tab mul : ℚ) (inset : Int) (hp th ef : Bool)
    (children : List Nat) (fc : Option Nat) :
    ∀ (l : List Nat) (o : ℚ),
      ∀ p ∈ placements h L tpos tsize gtl gbr tab mul inset hp th ef children fc l o,
        p.2.position.cross L = tpos.cross L ∧ p.2.size.cross L = tsize.cross L ∧
          p.2.hidden = (th || ef)
  | [], _, p, hp' => by cases hp'
  | c :: rest, o, p, hp' => by
    unfold placements at hp'
    rcases List.mem_cons.mp hp' with e | e
    · rw [e]
      exact (placeChild_common hL tpos tsize gtl gbr tab mul inset hp th ef children fc c
        _ o).2
    · exact placements_cross h hL tpos tsize gtl gbr tab mul inset hp th ef children fc rest _
        p e

theorem Vector2D.ext_axis {L : Hy3GroupLayout} {v w : Vector2D} (ha : v.along L = w.along L)
    (hc : v.cross L = w.cross L) : v = w := by
  cases v; cases w
  cases L <;> simp_all [Vector2D.along, Vector2D.cross]

theorem splitConstraint_eq {L : Hy3GroupLayout} (hL : L ≠ Hy3GroupLayout.Tabbed)
    (tsize gtl gbr : Vector2D) :
    splitConstraint L tsize gtl gbr = tsize.along L - gtl.along L - gbr.along L := by
  cases L with
  | Tabbed => exact absurd rfl hL
  | SplitH => rfl
  | SplitV => rfl

/-- A split group of at least two distinct children whose ratios sum to their number is tiled
exactly by the fields the child loop assigns. -/
theorem placements_tile (h : Hy3Layout) {L : Hy3GroupLayout} (hL : L ≠ Hy3GroupLayout.Tabbed)
    (tpos tsize gtl gbr : Vector2D) (tab : ℚ) (inset : Int) (hp th ef : Bool)
    {children : List Nat} (fc : Option Nat) (hnd : children.Nodup)
    (h2 : 2 ≤ children.length) (hsum : h.ratioSum children = (children.length : ℚ)) :
    (∀ p, (placements h L tpos tsize gtl gbr tab (ratioMul L tsize gtl gbr children.length)
        inset hp th ef children fc children 0).head? = some p → p.2.position = tpos) ∧
      List.Chain' (fun a b : Nat × NodeGeometry =>
          b.2.position.along L = a.2.position.along L + a.2.size.along L)
        (placements h L tpos tsize gtl gbr tab (ratioMul L tsize gtl gbr children.length)
          inset hp th ef children fc children 0) ∧
      (∀ p, (placements h L tpos tsize gtl gbr tab (ratioMul L tsize gtl gbr children.length)
          inset hp th ef children fc children 0).getLast? = some p →
        p.2.position.along L + p.2.size.along L = tpos.along L + tsize.along L) := by
  have hlen : children.length ≠ 1 := by omega
  have hn0 : (children.length : ℚ) ≠ 0 := by
    have : children.length ≠ 0 := by omega
    exact_mod_cast this
  have hmul : (children.length : ℚ) * ratioMul L tsize gtl gbr children.length
      = tsize.along L - gtl.along L - gbr.along L := by
    unfold ratioMul
    rw [if_pos hL, if_neg (by omega), splitConstraint_eq hL]
    field_simp
  generalize ratioMul L tsize gtl gbr children.length = mul at hmul ⊢
  cases hch : children with
  | nil => rw [hch] at h2; simp at h2
  | cons c0 rest =>
    have hrest : rest ≠ [] := by
      intro e
      rw [hch, e] at h2
      simp at h2
    rw [hch] at hnd
    have hnd' := List.nodup_cons.mp hnd
    have hhead : (c0 :: rest).head? = some c0 := rfl
    rw [hch] at hlen hsum hmul
    obtain ⟨pa, pc, _, _⟩ := placeChild_common hL tpos tsize gtl gbr tab mul inset hp th ef
      (c0 :: rest) fc c0 ((h.ratioOf c0).getD 0) 0
    obtain ⟨sa, oa⟩ := placeChild_first hL tpos tsize gtl gbr tab mul inset hp th ef fc
      ((h.ratioOf c0).getD 0) 0 hlen hhead
    obtain ⟨t1, t2, t3⟩ := placements_tail h hL tpos tsize gtl gbr tab mul inset hp th ef fc
      hlen rest
      (placeChild L tpos tsize gtl gbr tab mul inset hp th ef (c0 :: rest) fc c0
        ((h.ratioOf c0).getD 0) 0).2
      hrest (fun c hc e => hnd'.1 (by
        simp only [List.head?_cons, Option.some.injEq] at e
        exact e ▸ hc)) hnd'.2 (getLast?_cons_ne_nil c0 hrest)
    have hne : placements h L tpos tsize gtl gbr tab mul inset hp th ef (c0 :: rest) fc rest
        (placeChild L tpos tsize gtl gbr tab mul inset hp th ef (c0 :: rest) fc c0
          ((h.ratioOf c0).getD 0) 0).2 ≠ [] := by
      intro e
      have := placements_fst h L tpos tsize gtl gbr tab mul inset hp th ef (c0 :: rest) fc rest
        (placeChild L tpos tsize gtl gbr tab mul inset hp th ef (c0 :: rest) fc c0
          ((h.ratioOf c0).getD 0) 0).2
      rw [e] at this
      exact hrest this.symm
    unfold placements
    refine ⟨fun p hp' => ?_, ?_, fun p hp' => ?_⟩
    · simp only [List.head?_cons, Option.some.injEq] at hp'
      rw [← hp']
      exact Vector2D.ext_axis (by rw [pa, add_zero]) pc
    · rw [List.chain'_cons']
      refine ⟨fun q hq => ?_, t2⟩
      have := t1 q (Option.mem_def.mp hq)
      rw [this, oa, pa, sa]
      ring
    · rw [getLast?_cons_ne_nil _ hne] at hp'
      have := t3 p hp'
      rw [this, oa]
      rw [ratioSum_cons] at hsum
      have e1 : h.ratioSum rest * mul
          = ((c0 :: rest).length : ℚ) * mul - (h.ratioOf c0).getD 0 * mul := by
        rw [← hsum]; ring
      rw [e1, hmul]
      ring


/-! ## C19: a split group is tiled exactly -/


/-- C19: in a well-formed, acyclic store that the layout pass can traverse, for a SplitH or
SplitV group with at least two children, no active expansion and `size_ratio` values summing to
the number of children, `recalcSizePosRecursive` returns for every sufficiently large fuel, the
group's own fields are unchanged, the first child's position is the group's position, every
later child starts along the axis where the previous child ends, the last child ends where the
group ends, and every child has the group's position and size across the axis. -/
theorem recalcSizePosRecursive_split_tiles (cfg : LayoutConfig) (h : Hy3Layout)
    (wf : WellFormed h) (ac : Acyclic h) (lr : LayoutReady h) (ei : ExpandInv h) (this : Nat)
    (n : Hy3Node) (group : Hy3GroupData) (hn : h.get this = some n)
    (hd : n.data = Hy3NodeData.group group) (hL : group.layout ≠ Hy3GroupLayout.Tabbed)
    (h2 : 2 ≤ group.children.length)
    (hne : group.expand_focused = ExpandFocusType.NotExpanded)
    (hsum : h.ratioSum group.children = (group.children.length : ℚ)) (geo : Geometry) :
    ∃ N, ∀ fuel, N ≤ fuel →
      ∃ geo', recalcSizePosRecursive cfg fuel h geo this = some geo' ∧ geo' this = geo this ∧
        (∀ c, group.children.head? = some c → (geo' c).position = (geo this).position) ∧
        List.Chain' (fun a b =>
            (geo' b).position.along group.layout
              = (geo' a).position.along group.layout + (geo' a).size.along group.layout)
          group.children ∧
        (∀ c, group.children.getLast? = some c →
          (geo' c).position.along group.layout + (geo' c).size.along group.layout
            = (geo this).position.along group.layout
              + (geo this).size.along group.layout) ∧
        (∀ c ∈ group.children,
          (geo' c).position.cross group.layout = (geo this).position.cross group.layout ∧
          (geo' c).size.cross group.layout = (geo this).size.cross group.layout) := by
  obtain ⟨rank, B, rk⟩ := ac
  have cr := wf.childrenRanked rk
  refine ⟨B + 1, fun fuel hf => ?_⟩
  obtain ⟨geo', e, fr, pl⟩ := recalcSizePosRecursive_group cfg wf cr lr ei hn hd hne geo
    (show B - rank this < fuel by omega)
  have hnd : group.children.Nodup := by
    rw [← childrenOf_of_group_eq (group_of_get hn hd)]
    exact wf.children_nodup this
  obtain ⟨t1, t2, t3⟩ := placements_tile h hL (geo this).position (geo this).size
    (effectiveGaps cfg n.parent (geo this)).1 (effectiveGaps cfg n.parent (geo this)).2
    (((cfg.tab_bar_height + cfg.tab_bar_padding : Int) : ℚ)) cfg.group_inset
    (decide (n.parent ≠ none)) (geo this).hidden false group.focused_child hnd h2 hsum
  have t4 := placements_cross h hL (geo this).position (geo this).size
    (effectiveGaps cfg n.parent (geo this)).1 (effectiveGaps cfg n.parent (geo this)).2
    (((cfg.tab_bar_height + cfg.tab_bar_padding : Int) : ℚ))
    (ratioMul group.layout (geo this).size (effectiveGaps cfg n.parent (geo this)).1
      (effectiveGaps cfg n.parent (geo this)).2 group.children.length) cfg.group_inset
    (decide (n.parent ≠ none)) (geo this).hidden false group.children group.focused_child
    group.children 0
  have hfst := placements_fst h group.layout (geo this).position (geo this).size
    (effectiveGaps cfg n.parent (geo this)).1 (effectiveGaps cfg n.parent (geo this)).2
    (((cfg.tab_bar_height + cfg.tab_bar_padding : Int) : ℚ))
    (ratioMul group.layout (geo this).size (effectiveGaps cfg n.parent (geo this)).1
      (effectiveGaps cfg n.parent (geo this)).2 group.children.length) cfg.group_inset
    (decide (n.parent ≠ none)) (geo this).hidden false group.children group.focused_child
    group.children 0
  change ∀ p ∈ placements _ _ _ _ _ _ _ _ _ _ _ _ _ _ _ _, geo' p.1 = p.2 at pl
  generalize placements h group.layout (geo this).position (geo this).size
    (effectiveGaps cfg n.parent (geo this)).1 (effectiveGaps cfg n.parent (geo this)).2
    (((cfg.tab_bar_height + cfg.tab_bar_padding : Int) : ℚ))
    (ratioMul group.layout (geo this).size (effectiveGaps cfg n.parent (geo this)).1
      (effectiveGaps cfg n.parent (geo this)).2 group.children.length) cfg.group_inset
    (decide (n.parent ≠ none)) (geo this).hidden false group.children group.focused_child
    group.children 0 = ps at t1 t2 t3 t4 hfst pl
  refine ⟨geo', e, fr this (not_properDesc_self cr), fun c hc => ?_, ?_, fun c hc => ?_,
    fun c hc => ?_⟩
  · rw [← hfst, List.head?_map] at hc
    obtain ⟨p, hp1, hp2⟩ := Option.map_eq_some'.mp hc
    rw [← hp2, pl p (List.mem_of_mem_head? hp1)]
    exact t1 p hp1
  · rw [← hfst, List.chain'_map]
    refine (List.Chain'.iff_mem.mp t2).imp (fun a b hab => ?_)
    rw [pl a hab.1, pl b hab.2.1]
    exact hab.2.2
  · rw [← hfst, List.getLast?_map] at hc
    obtain ⟨p, hp1, hp2⟩ := Option.map_eq_some'.mp hc
    rw [← hp2, pl p (List.mem_of_getLast?_eq_some hp1)]
    exact t3 p hp1
  · rw [← hfst] at hc
    obtain ⟨p, hp1, hp2⟩ := List.mem_map.mp hc
    rw [← hp2, pl p hp1]
    exact ⟨(t4 p hp1).1, (t4 p hp1).2.1⟩



theorem recalcSizePosRecursive_split_tiles_witness :
    ∃ N, ∀ fuel, N ≤ fuel →
      ∃ geo', recalcSizePosRecursive exGapConfig fuel (exPair (1 / 2) (3 / 2)) exGeometry 0
          = some geo' ∧ geo' 0 = exGeometry 0 ∧
        (∀ c, [1, 2].head? = some c → (geo' c).position = (exGeometry 0).position) ∧
        List.Chain' (fun a b =>
            (geo' b).position.along Hy3GroupLayout.SplitH
              = (geo' a).position.along Hy3GroupLayout.SplitH
                + (geo' a).size.along Hy3GroupLayout.SplitH) [1, 2] ∧
        (∀ c, [1, 2].getLast? = some c →
          (geo' c).position.along Hy3GroupLayout.SplitH
              + (geo' c).size.along Hy3GroupLayout.SplitH
            = (exGeometry 0).position.along Hy3GroupLayout.SplitH
              + (exGeometry 0).size.along Hy3GroupLayout.SplitH) ∧
        (∀ c ∈ [1, 2],
          (geo' c).position.cross Hy3GroupLayout.SplitH
            = (exGeometry 0).position.cross Hy3GroupLayout.SplitH ∧
          (geo' c).size.cross Hy3GroupLayout.SplitH
            = (exGeometry 0).size.cross Hy3GroupLayout.SplitH) :=
  recalcSizePosRecursive_split_tiles exGapConfig (exPair (1 / 2) (3 / 2))
    (wellFormed_of_check (by decide)) ⟨id, 2, rankedBy_of_check (by decide)⟩
    (layoutReady_of_check (by decide)) (expandInv_of_check (by decide)) 0 _
    { children := [1, 2], group_focused := false, focused_child := some 1 } rfl rfl
    (by decide) (by decide) rfl (by decide!) exGeometry


/-! ## C20: tabbed groups and visibility -/


theorem placements_tabbed (h : Hy3Layout) (tpos tsize gtl gbr : Vector2D) (tab mul : ℚ)
    (inset : Int) (hp th ef : Bool) (children : List Nat) (fc : Option Nat) :
    ∀ (l : List Nat) (o : ℚ),
      ∀ p ∈ placements h Hy3GroupLayout.Tabbed tpos tsize gtl gbr tab mul inset hp th ef
          children fc l o,
        p.2 = { position := tpos, size := tsize,
                hidden := th || ef || decide (fc ≠ some p.1),
                gap_topleft_offset := ⟨gtl.x, gtl.y + tab⟩,
                gap_bottomright_offset := gbr }
  | [], _, p, hp' => by cases hp'
  | c :: rest, o, p, hp' => by
    unfold placements at hp'
    rcases List.mem_cons.mp hp' with e | e
    · rw [e]
      rfl
    · exact placements_tabbed h tpos tsize gtl gbr tab mul inset hp th ef children fc rest _
        p e

/-- C20 (counterexample): for the parentless tabbed group of `exTabRoot`, whose own
`gap_topleft_offset` is zero, with inner gaps 5, outer gaps 20 and a tab bar of 15 + 5, the
children get the top gap offset 35 (the configured 20 - 5 plus the tab bar), not the group's
own offset plus the tab bar (20). -/
theorem recalcSizePosRecursive_tabbed_root_gap_counterexample :
    ∃ geo', recalcSizePosRecursive exGapConfig 2 exTabRoot exGeometry 0 = some geo' ∧
      (exGeometry 0).hidden = false ∧
      (exGeometry 0).gap_topleft_offset.y = 0 ∧
      (geo' 1).gap_topleft_offset.y = 35 ∧ (geo' 2).gap_topleft_offset.y = 35 ∧
      (geo' 1).gap_topleft_offset.y ≠ (exGeometry 0).gap_topleft_offset.y
        + ((exGapConfig.tab_bar_height + exGapConfig.tab_bar_padding : Int) : ℚ) :=
  ⟨_, rfl, by decide, by decide!, by decide!, by decide!, by decide!⟩

/-- C20 (amended): in a well-formed, acyclic store that the layout pass can traverse, for a
group that is not hidden and has no active expansion, `recalcSizePosRecursive` returns for
every sufficiently large fuel and leaves the group's own fields unchanged; if the group is
Tabbed every child has the group's position and size, the left gap offset the pass works with
and that top gap offset plus tab-bar height plus padding, where the offsets the pass works with
are the group's own when it has a parent and the configured outer minus inner gaps when it is a
root, and `hidden` is true exactly for the children other than `focused_child`; if the group is
SplitH or SplitV every child has `hidden == false`. -/
theorem recalcSizePosRecursive_tabbed_visibility (cfg : LayoutConfig) (h : Hy3Layout)
    (wf : WellFormed h) (ac : Acyclic h) (lr : LayoutReady h) (ei : ExpandInv h) (this : Nat)
    (n : Hy3Node) (group : Hy3GroupData) (hn : h.get this = some n)
    (hd : n.data = Hy3NodeData.group group)
    (hne : group.expand_focused = ExpandFocusType.NotExpanded) (geo : Geometry)
    (hvis : (geo this).hidden = false) :
    ∃ N, ∀ fuel, N ≤ fuel →
      ∃ geo', recalcSizePosRecursive cfg fuel h geo this = some geo' ∧ geo' this = geo this ∧
        (group.layout = Hy3GroupLayout.Tabbed → ∀ c ∈ group.children,
          (geo' c).position = (geo this).position ∧ (geo' c).size = (geo this).size ∧
          (geo' c).gap_topleft_offset =
            ⟨(effectiveGaps cfg n.parent (geo this)).1.x,
              (effectiveGaps cfg n.parent (geo this)).1.y
                + ((cfg.tab_bar_height + cfg.tab_bar_padding : Int) : ℚ)⟩ ∧
          ((geo' c).hidden = true ↔ group.focused_child ≠ some c)) ∧
        (group.layout ≠ Hy3GroupLayout.Tabbed → ∀ c ∈ group.children,
          (geo' c).hidden = false) ∧
        (n.parent ≠ none →
          (effectiveGaps cfg n.parent (geo this)).1 = (geo this).gap_topleft_offset) ∧
        (n.parent = none →
          (effectiveGaps cfg n.parent (geo this)).1 =
            ⟨((cfg.gaps_out.left - cfg.gaps_in.left : Int) : ℚ),
              ((cfg.gaps_out.top - cfg.gaps_in.top : Int) : ℚ)⟩) := by
  obtain ⟨rank, B, rk⟩ := ac
  have cr := wf.childrenRanked rk
  refine ⟨B + 1, fun fuel hf => ?_⟩
  obtain ⟨geo', e, fr, pl⟩ := recalcSizePosRecursive_group cfg wf cr lr ei hn hd hne geo
    (show B - rank this < fuel by omega)
  have hfst := placements_fst h group.layout (geo this).position (geo this).size
    (effectiveGaps cfg n.parent (geo this)).1 (effectiveGaps cfg n.parent (geo this)).2
    (((cfg.tab_bar_height + cfg.tab_bar_padding : Int) : ℚ))
    (ratioMul group.layout (geo this).size (effectiveGaps cfg n.parent (geo this)).1
      (effectiveGaps cfg n.parent (geo this)).2 group.children.length) cfg.group_inset
    (decide (n.parent ≠ none)) (geo this).hidden false group.children group.focused_child
    group.children 0
  refine ⟨geo', e, fr this (not_properDesc_self cr), fun hL c hc => ?_, fun hL c hc => ?_,
    fun hpar => ?_, fun hpar => ?_⟩
  · rw [← hfst] at hc
    obtain ⟨p, hp1, hp2⟩ := List.mem_map.mp hc
    have hp1' := hp1
    rw [hL] at hp1'
    have := placements_tabbed h _ _ _ _ _ _ _ _ _ _ _ _ _ _ p hp1'
    rw [← hp2, pl p hp1, this, hvis]
    refine ⟨rfl, rfl, rfl, ?_⟩
    simp
  · rw [← hfst] at hc
    obtain ⟨p, hp1, hp2⟩ := List.mem_map.mp hc
    have := (placements_cross h hL _ _ _ _ _ _ _ _ _ _ _ _ _ _ p hp1).2.2
    rw [← hp2, pl p hp1, this, hvis]
    rfl
  · unfold effectiveGaps
    simp only
    rw [if_pos hpar]
  · unfold effectiveGaps
    simp only
    rw [if_neg (not_not.mpr hpar)]
    congr 1 <;> push_cast <;> ring



theorem recalcSizePosRecursive_tabbed_visibility_witness :
    ∃ N, ∀ fuel, N ≤ fuel →
      ∃ geo', recalcSizePosRecursive exGapConfig fuel exTabRoot exGeometry 0 = some geo' ∧
        (geo' 1).position = ⟨0, 0⟩ ∧ (geo' 1).size = ⟨100, 50⟩ ∧
        (geo' 1).gap_topleft_offset = ⟨15, 35⟩ ∧ (geo' 1).hidden = false ∧
        (geo' 2).position = ⟨0, 0⟩ ∧ (geo' 2).size = ⟨100, 50⟩ ∧
        (geo' 2).gap_topleft_offset = ⟨15, 35⟩ ∧ (geo' 2).hidden = true := by
  obtain ⟨N, hN⟩ := recalcSizePosRecursive_tabbed_visibility exGapConfig exTabRoot
    (wellFormed_of_check (by decide)) ⟨id, 2, rankedBy_of_check (by decide)⟩
    (layoutReady_of_check (by decide)) (expandInv_of_check (by decide)) 0 _
    { layout := Hy3GroupLayout.Tabbed, children := [1, 2], group_focused := false,
      focused_child := some 1 } rfl rfl rfl exGeometry rfl
  refine ⟨N, fun fuel hf => ?_⟩
  obtain ⟨geo', e, _, ht, _, _, hroot⟩ := hN fuel hf
  have h1 := ht rfl 1 (by decide)
  have h2 := ht rfl 2 (by decide)
  have hg := hroot rfl
  have hgv : (effectiveGaps exGapConfig none (exGeometry 0)).1 = ⟨15, 15⟩ := by
    rw [hg]
    simp only [exGapConfig]
    norm_num
  simp only [hgv] at h1 h2
  refine ⟨geo', e, h1.1, h1.2.1, ?_, ?_, h2.1, h2.2.1, ?_, ?_⟩
  · rw [h1.2.2.1]
    simp only [exGapConfig]
    norm_num
  · have := h1.2.2.2
    cases hh : (geo' 1).hidden with
    | false => rfl
    | true => exact absurd rfl (this.mp hh)
  · rw [h2.2.2.1]
    simp only [exGapConfig]
    norm_num
  · exact h2.2.2.2.mpr (by decide)


/-! ## Two windows opened on an empty workspace -/


theorem onWindowCreatedTiling_first (env : Env) (w1 : Nat) (ws : Option Nat)
    (hfl1 : env.windowFloating w1 = false) (hw1 : env.windowWorkspace w1 = ws)
    (hv : env.validWorkspace ws = true) (hlast : env.lastWindow = none)
    (hmouse : env.mouseWindow = none) (htab : env.tab_first_window = 0)
    (hmon : env.monitorHeight ws ≤ env.monitorWidth ws) (f : Nat) :
    onWindowCreatedTiling env (f + 2) Hy3Layout.empty w1 = some (exFirst w1 ws) := by
  have hmon' : ¬ (env.monitorHeight ws > env.monitorWidth ws) := not_lt.mpr hmon
  simp [onWindowCreatedTiling, hfl1, getNodeFromWindow, Hy3Layout.empty, insertNode,
    Hy3Layout.push_back, Hy3Layout.get, Hy3Layout.modify, hw1, hv, openingAfterFromRoot,
    getWorkspaceRootGroup, Hy3NodeData.type, fallbackAnchor, hlast, hmouse, anchorUsable,
    openingInto, htab, hmon', autotile, attach, Hy3Layout.group, Hy3Node.asGroup,
    Hy3Layout.modifyGroup, markFocused, markFocusedLoop, Hy3GroupData.new, exFirst]

theorem onWindowCreatedTiling_second (env : Env) (w1 w2 : Nat) (ws : Option Nat)
    (hfl2 : env.windowFloating w2 = false) (hw2 : env.windowWorkspace w2 = ws)
    (hv : env.validWorkspace ws = true) (hat : env.at_enable = 0) (hne : w1 ≠ w2) (f : Nat) :
    onWindowCreatedTiling env (f + 3) (exFirst w1 ws) w2 = some (exSecond w1 w2 ws) := by
  simp [onWindowCreatedTiling, hfl2, getNodeFromWindow, insertNode,
    Hy3Layout.push_back, Hy3Layout.get, Hy3Layout.modify, hw2, hv, openingAfterFromRoot,
    getWorkspaceRootGroup, Hy3NodeData.type, fallbackAnchor, anchorUsable,
    openingInto, autotile, attach, Hy3Layout.group, Hy3Node.asGroup, hat, hne,
    Hy3Layout.modifyGroup, markFocused, markFocusedLoop, Hy3GroupData.new, exFirst, exSecond,
    getFocusedNode, insertAfter, hasChild]

/-- The layout pass on the root of `exSecond`. -/
theorem recalcSizePosRecursive_exSecond (cfg : LayoutConfig) (w1 w2 : Nat) (ws : Option Nat)
    (geo : Geometry) (f : Nat) :
    ∃ geo', recalcSizePosRecursive cfg (f + 2) (exSecond w1 w2 ws) geo 1 = some geo' ∧
      (geo' 0).position = (geo 1).position ∧
      (geo' 0).size.x = splitConstraint Hy3GroupLayout.SplitH (geo 1).size
          (effectiveGaps cfg none (geo 1)).1 (effectiveGaps cfg none (geo 1)).2 / 2
        + (effectiveGaps cfg none (geo 1)).1.x ∧
      (geo' 2).position.x = (geo' 0).position.x + (geo' 0).size.x ∧
      (geo' 2).size.x = splitConstraint Hy3GroupLayout.SplitH (geo 1).size
          (effectiveGaps cfg none (geo 1)).1 (effectiveGaps cfg none (geo 1)).2 / 2
        + (effectiveGaps cfg none (geo 1)).2.x ∧
      (geo' 0).position.y = (geo 1).position.y ∧ (geo' 2).position.y = (geo 1).position.y ∧
      (geo' 0).size.y = (geo 1).size.y ∧ (geo' 2).size.y = (geo 1).size.y := by
  have wf : WellFormed (exSecond w1 w2 ws) := wellFormed_of_check rfl
  have rk : RankedBy (exSecond w1 w2 ws) (fun x => if x = 1 then 0 else 1) 1 :=
    rankedBy_of_check rfl
  have hn : (exSecond w1 w2 ws).get 1 = some
      { addr := 1, workspace := ws,
        data := Hy3NodeData.group
          { children := [0, 2], group_focused := false, focused_child := some 2 } } := rfl
  obtain ⟨geo', e, _, pl⟩ := recalcSizePosRecursive_group cfg wf (wf.childrenRanked rk)
    (layoutReady_of_check rfl) (expandInv_of_check rfl) hn rfl rfl geo
    (show 1 - (if (1 : Nat) = 1 then 0 else 1) < f + 2 by simp)
  refine ⟨geo', e, ?_⟩
  have p0 := pl _ (List.mem_cons_self _ _)
  have p2 := pl _ (List.mem_cons_of_mem _ (List.mem_cons_self _ _))
  simp only at p0 p2
  have r0 : ((exSecond w1 w2 ws).ratioOf 0).getD 0 = 1 := rfl
  have r2 : ((exSecond w1 w2 ws).ratioOf 2).getD 0 = 1 := rfl
  rw [r0] at p0 p2
  rw [r2] at p2
  rw [p0, p2]
  simp [placeChild, ratioMul, splitConstraint]


/-! ## C18: two windows on an empty workspace -/


/-- C18 (counterexample): on the landscape monitor of `exEnv`, with `tab_first_window` and
autotile off and no anchor window, opening the windows 101 and 102 on the empty store gives the
root 1 with the children 0 and 2, and both children have `size_ratio` 1, not 0.5. -/
theorem onWindowCreatedTiling_ratio_counterexample :
    ∃ h1 h2, onWindowCreatedTiling exEnv 3 Hy3Layout.empty 101 = some h1 ∧
      onWindowCreatedTiling exEnv 3 h1 102 = some h2 ∧ h2.childrenOf 1 = [0, 2] ∧
      h2.ratioOf 0 = some 1 ∧ h2.ratioOf 2 = some 1 ∧
      h2.ratioOf 0 ≠ some (1 / 2) ∧ h2.ratioOf 2 ≠ some (1 / 2) :=
  ⟨_, _, rfl, rfl, by decide, by decide!, by decide!, by decide!, by decide!⟩

/-- C18 (amended): starting from the empty store, on a valid workspace whose monitor is at
least as wide as tall, with `tab_first_window` and autotile off and no last-focused window or
window under the cursor, tiling two distinct non-floating windows `w1` and `w2` returns for
every fuel from 3 on and yields the store `exSecond`: a single parentless SplitH group (address
1) with the child list [0, 2], the nodes of `w1` and `w2`, each with `size_ratio` 1 (the ratios
sum to the number of children); the layout pass on the root then gives each child half of the
horizontal constraint (plus its outer gap), the first child at the root's position and the
second child next to it, both with the root's vertical position and size. -/
theorem onWindowCreatedTiling_two_windows (env : Env) (w1 w2 : Nat) (ws : Option Nat)
    (hfl1 : env.windowFloating w1 = false) (hfl2 : env.windowFloating w2 = false)
    (hw1 : env.windowWorkspace w1 = ws) (hw2 : env.windowWorkspace w2 = ws)
    (hv : env.validWorkspace ws = true) (hlast : env.lastWindow = none)
    (hmouse : env.mouseWindow = none) (htab : env.tab_first_window = 0)
    (hat : env.at_enable = 0) (hmon : env.monitorHeight ws ≤ env.monitorWidth ws)
    (hne : w1 ≠ w2) (cfg : LayoutConfig) (geo : Geometry) (fuel : Nat) (hf : 3 ≤ fuel) :
    ∃ h1 h2 geo', onWindowCreatedTiling env fuel Hy3Layout.empty w1 = some h1 ∧
      onWindowCreatedTiling env fuel h1 w2 = some h2 ∧ h2 = exSecond w1 w2 ws ∧
      getWorkspaceRootGroup h2 ws = some 1 ∧
      (h2.group 1).map Hy3GroupData.layout = some Hy3GroupLayout.SplitH ∧
      h2.childrenOf 1 = [0, 2] ∧ h2.parentOf 1 = some none ∧
      (h2.get 0).map Hy3Node.data = some (Hy3NodeData.window (some w1)) ∧
      (h2.get 2).map Hy3Node.data = some (Hy3NodeData.window (some w2)) ∧
      h2.ratioOf 0 = some 1 ∧ h2.ratioOf 2 = some 1 ∧
      recalcSizePosRecursive cfg fuel h2 geo 1 = some geo' ∧
      (geo' 0).position = (geo 1).position ∧
      (geo' 0).size.x = splitConstraint Hy3GroupLayout.SplitH (geo 1).size
          (effectiveGaps cfg none (geo 1)).1 (effectiveGaps cfg none (geo 1)).2 / 2
        + (effectiveGaps cfg none (geo 1)).1.x ∧
      (geo' 2).position.x = (geo' 0).position.x + (geo' 0).size.x ∧
      (geo' 2).size.x = splitConstraint Hy3GroupLayout.SplitH (geo 1).size
          (effectiveGaps cfg none (geo 1)).1 (effectiveGaps cfg none (geo 1)).2 / 2
        + (effectiveGaps cfg none (geo 1)).2.x ∧
      (geo' 0).position.y = (geo 1).position.y ∧ (geo' 2).position.y = (geo 1).position.y ∧
      (geo' 0).size.y = (geo 1).size.y ∧ (geo' 2).size.y = (geo 1).size.y := by
  obtain ⟨f, rfl⟩ : ∃ f, fuel = f + 3 := ⟨fuel - 3, by omega⟩
  have e1 := onWindowCreatedTiling_first env w1 ws hfl1 hw1 hv hlast hmouse htab hmon (f + 1)
  have e2 := onWindowCreatedTiling_second env w1 w2 ws hfl2 hw2 hv hat hne f
  obtain ⟨geo', e3, g⟩ := recalcSizePosRecursive_exSecond cfg w1 w2 ws geo (f + 1)
  refine ⟨_, _, geo', e1, e2, rfl, ?_, rfl, rfl, rfl, rfl, rfl, rfl, rfl, e3, g⟩
  simp [getWorkspaceRootGroup, exSecond, Hy3NodeData.type]

theorem onWindowCreatedTiling_two_windows_witness :
    ∃ h1 h2 geo', onWindowCreatedTiling exEnv 3 Hy3Layout.empty 101 = some h1 ∧
      onWindowCreatedTiling exEnv 3 h1 102 = some h2 ∧ h2 = exSecond 101 102 (some 0) ∧
      recalcSizePosRecursive exGapConfig 3 h2 exGeometry 1 = some geo' ∧
      (geo' 0).position = ⟨0, 0⟩ ∧ (geo' 0).size.x = 50 ∧
      (geo' 2).position.x = 50 ∧ (geo' 2).size.x = 50 := by
  obtain ⟨h1, h2, geo', e1, e2, e3, _, _, _, _, _, _, _, _, e4, g1, g2, g3, g4, _⟩ :=
    onWindowCreatedTiling_two_windows exEnv 101 102 (some 0) rfl rfl rfl rfl rfl rfl rfl rfl
      rfl (by decide!) (by decide) exGapConfig exGeometry 3 (le_refl _)
  have hc : splitConstraint Hy3GroupLayout.SplitH (exGeometry 1).size
      (effectiveGaps exGapConfig none (exGeometry 1)).1
      (effectiveGaps exGapConfig none (exGeometry 1)).2 = 70 := by
    simp [splitConstraint, effectiveGaps, exGeometry, exGapConfig]
    norm_num
  have hg1 : (effectiveGaps exGapConfig none (exGeometry 1)).1.x = 15 := by
    simp [effectiveGaps, exGapConfig]
  have hg2 : (effectiveGaps exGapConfig none (exGeometry 1)).2.x = 15 := by
    simp [effectiveGaps, exGapConfig]
  rw [hc, hg1] at g2
  rw [hc, hg2] at g4
  refine ⟨h1, h2, geo', e1, e2, e3, e4, g1, ?_, ?_, ?_⟩
  · rw [g2]; norm_num
  · rw [g3, g2, g1]
    simp [exGeometry]
    norm_num
  · rw [g4]; norm_num


/-! ## C30: getFocusedNode returns the first stopping node and never null -/

theorem getFocusedNode_ne_null (h : Hy3Layout) (i s : Bool) :
    ∀ (fuel this : Nat), getFocusedNode fuel h this i s ≠ some none
  | 0, _ => by simp [getFocusedNode]
  | fuel + 1, this => by
    unfold getFocusedNode
    cases hn : h.get this with
    | none => simp
    | some n =>
      cases hd : n.data with
      | window w => simp [hd]
      | group g =>
        cases hf : g.focused_child with
        | none => simp [hd, hf]
        | some fc =>
          simp only [hd, hf]
          split
          · simp
          · exact getFocusedNode_ne_null h i s fuel fc

theorem getFocusedNode_chain {h : Hy3Layout} (wf : WellFormed h) {rank : Nat → Nat} {B : Nat}
    (rk : RankedBy h rank B)
    (hfc : ∀ a g fc, h.group a = some g → g.focused_child = some fc → fc ∈ g.children)
    (i s : Bool) : ∀ (k this : Nat), B - rank this ≤ k → (h.get this).isSome →
    ∀ fuel, k < fuel → ∃ x, getFocusedNode fuel h this i s = some (some x) ∧
      FocusChain h i s this x ∧ focusStops h i s x = true
  | k, this, hk, hs, fuel, hf => by
    obtain ⟨f, rfl⟩ : ∃ f, fuel = f + 1 := ⟨fuel - 1, by omega⟩
    obtain ⟨n, hn⟩ := Option.isSome_iff_exists.mp hs
    unfold getFocusedNode
    simp only [hn]
    cases hd : n.data with
    | window w =>
      exact ⟨this, rfl, FocusChain.here this, by simp [focusStops, hn, hd]⟩
    | group g =>
      simp only
      cases hf0 : g.focused_child with
      | none => exact ⟨this, rfl, FocusChain.here this, by simp [focusStops, hn, hd, hf0]⟩
      | some fc =>
        simp only
        by_cases hc : ((!i && g.group_focused)
            || (s && g.expand_focused != ExpandFocusType.NotExpanded)) = true
        · rw [if_pos hc]
          refine ⟨this, rfl, FocusChain.here this, ?_⟩
          simp only [focusStops, hn, hd, hf0, Option.isNone_some, Bool.false_or]
          exact hc
        · rw [if_neg hc]
          have hg := group_of_get hn hd
          have hm := hfc this g fc hg hf0
          have cr := wf.childrenRanked rk this n fc hn (by rw [hd]; exact hm)
          cases k with
          | zero =>
            have := (rk this n hn).1
            omega
          | succ k =>
            obtain ⟨x, e, c, st⟩ :=
              getFocusedNode_chain wf rk hfc i s k fc (by omega) cr.1 f (by omega)
            refine ⟨x, e, FocusChain.step hg hf0 ?_ c, st⟩
            simp only [focusStops, hn, hd, hf0, Option.isNone_some, Bool.false_or]
            simpa using hc

/-- C30 (counterexample): called on the group 0 of `exUnfocused`, which is not a window and has
no `focused_child`, `getFocusedNode` returns the group itself and not null. -/
theorem getFocusedNode_null_counterexample :
    (∃ g, exUnfocused.group 0 = some g ∧ g.focused_child = none) ∧
      getFocusedNode 1 exUnfocused 0 false false = some (some 0) ∧
      ∀ fuel, getFocusedNode fuel exUnfocused 0 false false ≠ some none :=
  ⟨⟨_, rfl, rfl⟩, rfl, fun fuel => getFocusedNode_ne_null _ _ _ fuel 0⟩

/-- C30 (amended): `getFocusedNode` never returns null; in a well-formed acyclic store in which
every non-null `focused_child` is a child of its group, called on a node of the store with
enough fuel it returns the first node on the `focused_child` chain that is a window, or a group
without `focused_child`, or a group with `group_focused` set (unless `ignore_group_focus`), or
a group with `expand_focused != NotExpanded` (if `stop_at_expanded`). -/
theorem getFocusedNode_first_stop {h : Hy3Layout} (wf : WellFormed h) {rank : Nat → Nat}
    {B : Nat} (rk : RankedBy h rank B)
    (hfc : ∀ a g fc, h.group a = some g → g.focused_child = some fc → fc ∈ g.children)
    (this : Nat) (hs : (h.get this).isSome) (ignore_group_focus stop_at_expanded : Bool) :
    (∀ fuel, getFocusedNode fuel h this ignore_group_focus stop_at_expanded ≠ some none) ∧
    ∃ N, ∀ fuel, N ≤ fuel →
      ∃ x, getFocusedNode fuel h this ignore_group_focus stop_at_expanded = some (some x) ∧
        FocusChain h ignore_group_focus stop_at_expanded this x ∧
        focusStops h ignore_group_focus stop_at_expanded x = true :=
  ⟨fun fuel => getFocusedNode_ne_null h _ _ fuel this,
    B + 1, fun fuel hf => getFocusedNode_chain wf rk hfc _ _ B this (by omega) hs fuel
      (by omega)⟩


theorem getFocusedNode_first_stop_witness :
    (∀ fuel, getFocusedNode fuel exEphemeral 0 false false ≠ some none) ∧
    ∃ N, ∀ fuel, N ≤ fuel →
      ∃ x, getFocusedNode fuel exEphemeral 0 false false = some (some x) ∧
        FocusChain exEphemeral false false 0 x ∧ focusStops exEphemeral false false x = true :=
  getFocusedNode_first_stop (wellFormed_of_check (by decide))
    (rankedBy_of_check (show rankedCheck exEphemeral id 3 = true by decide))
    (layoutReady_of_check (by decide)).2 0 rfl false false

/-! ## C21: the tab toggle round trip -/

theorem Hy3GroupData.layoutSetTo_fields {g : Hy3GroupData} {L : Hy3GroupLayout}
    (hL : L ≠ Hy3GroupLayout.Tabbed) (hs : g.layoutSetTo L) :
    g.layout = L ∧ g.previous_nontab_layout = L := by
  rcases hs with ⟨h1, h2⟩ | ⟨g0, h1, h2⟩
  · simpa [Hy3GroupData.new, hL] using And.intro h1 h2
  · simpa [Hy3GroupData.setLayout, hL] using And.intro h1 h2

theorem changeGroupOn_child {h : Hy3Layout} {child p : Nat} {n : Hy3Node} {g : Hy3GroupData}
    (hn : h.get child = some n) (hp : n.parent = some p) (hg : h.group p = some g)
    (layout : Hy3GroupLayout) :
    changeGroupOn h child layout = some (h.modifyGroup p fun g => g.setLayout layout) := by
  simp [changeGroupOn, hn, hp, hg]

theorem get_modifyGroup_parent {h : Hy3Layout} {child p : Nat} {n : Hy3Node}
    (hn : h.get child = some n) (hp : n.parent = some p) (f : Hy3GroupData → Hy3GroupData) :
    ∃ n1, (h.modifyGroup p f).get child = some n1 ∧ n1.parent = some p := by
  rw [get_modifyGroup]
  split
  · exact ⟨n.mapGroup f, by simp [hn], by simp [hp]⟩
  · exact ⟨n, hn, hp⟩

theorem modifyGroup_setLayout_restore {h : Hy3Layout} {p : Nat} {g : Hy3GroupData}
    {L : Hy3GroupLayout} (hg : h.group p = some g) (hl : g.layout = L)
    (hpl : g.previous_nontab_layout = L) (hL : L ≠ Hy3GroupLayout.Tabbed) (x : Nat) :
    ((h.modifyGroup p fun g => g.setLayout Hy3GroupLayout.Tabbed).modifyGroup p
      fun g => g.setLayout L).get x = h.get x := by
  obtain ⟨n, hn, hd⟩ := group_eq_some hg
  rw [get_modifyGroup, get_modifyGroup]
  split
  · rename_i hx
    subst hx
    rw [hn]
    simp only [Option.map_some', Option.some.injEq]
    cases n with
    | mk addr parent reparenting data size_ratio workspace =>
      simp only at hd
      subst hd
      cases g
      simp only [Hy3Node.mapGroup, Hy3GroupData.setLayout] at *
      simp [hl, hpl, hL]
  · rfl

/-- C21: for a node `child` whose parent group `g` is not tabbed, `untabGroupOn(child)` leaves
the store as it is; and when the layout `L` of `g` (SplitH or SplitV) was established by the
constructor or by `setLayout`, `changeGroupOn(child, Tabbed)` changes only the layout of `g`,
to Tabbed, with `previous_nontab_layout` still `L`, and a following `untabGroupOn(child)` or
`toggleTabGroupOn(child)` sets the layout back to `L`, which restores every node of the
store. -/
theorem tab_toggle_round_trip {h : Hy3Layout} {child p : Nat} {n : Hy3Node} {g : Hy3GroupData}
    (hn : h.get child = some n) (hp : n.parent = some p) (hg : h.group p = some g) :
    (g.layout ≠ Hy3GroupLayout.Tabbed → untabGroupOn h child = some h) ∧
    ∀ L, (L = Hy3GroupLayout.SplitH ∨ L = Hy3GroupLayout.SplitV) → g.layoutSetTo L →
      ∃ h1 g1, changeGroupOn h child Hy3GroupLayout.Tabbed = some h1 ∧
        h1.group p = some g1 ∧ g1 = { g with layout := Hy3GroupLayout.Tabbed } ∧
        g1.layout = Hy3GroupLayout.Tabbed ∧ g1.previous_nontab_layout = L ∧
        (∀ x, x ≠ p → h1.get x = h.get x) ∧
        (∃ h2, untabGroupOn h1 child = some h2 ∧ h2.group p = some g ∧ g.layout = L ∧
          ∀ x, h2.get x = h.get x) ∧
        (∃ h2, toggleTabGroupOn h1 child = some h2 ∧ h2.group p = some g ∧ g.layout = L ∧
          ∀ x, h2.get x = h.get x) := by
  refine ⟨fun hl => by simp [untabGroupOn, hn, hp, hg, hl], fun L hL hs => ?_⟩
  have hLT : L ≠ Hy3GroupLayout.Tabbed := by rcases hL with e | e <;> rw [e] <;> decide
  obtain ⟨hl, hpl⟩ := Hy3GroupData.layoutSetTo_fields hLT hs
  have hg1 : (h.modifyGroup p fun g => g.setLayout Hy3GroupLayout.Tabbed).group p
      = some { g with layout := Hy3GroupLayout.Tabbed } := by
    rw [group_modifyGroup, if_pos rfl, hg]
    simp [Hy3GroupData.setLayout]
  obtain ⟨n1, hn1, hp1⟩ := get_modifyGroup_parent hn hp
    (fun g => g.setLayout Hy3GroupLayout.Tabbed)
  have hback : ∀ x, ((h.modifyGroup p fun g => g.setLayout Hy3GroupLayout.Tabbed).modifyGroup p
      fun g => g.setLayout L).get x = h.get x :=
    modifyGroup_setLayout_restore hg hl hpl hLT
  have hgb : ((h.modifyGroup p fun g => g.setLayout Hy3GroupLayout.Tabbed).modifyGroup p
      fun g => g.setLayout L).group p = some g := by
    unfold Hy3Layout.group
    rw [hback]
    exact hg
  refine ⟨_, _, changeGroupOn_child hn hp hg _, hg1, rfl, rfl, hpl,
    fun x hx => get_modifyGroup_ne _ hx, ⟨_, ?_, hgb, hl, hback⟩, ⟨_, ?_, hgb, hl, hback⟩⟩
  · simp only [untabGroupOn, hn1, hp1, hg1, ne_eq, not_true_eq_false, if_false]
    rw [changeGroupOn_child hn1 hp1 hg1, hpl]
  · simp only [toggleTabGroupOn, hn1, hp1, hg1, ne_eq, not_true_eq_false, if_false]
    rw [changeGroupOn_child hn1 hp1 hg1, hpl]

theorem tab_toggle_round_trip_witness :
    ∃ h1 g1, changeGroupOn exThree 1 Hy3GroupLayout.Tabbed = some h1 ∧
      h1.group 0 = some g1 ∧ g1.layout = Hy3GroupLayout.Tabbed ∧
      g1.previous_nontab_layout = Hy3GroupLayout.SplitH ∧
      (∃ h2, untabGroupOn h1 1 = some h2 ∧ ∀ x, h2.get x = exThree.get x) ∧
      (∃ h2, toggleTabGroupOn h1 1 = some h2 ∧ ∀ x, h2.get x = exThree.get x) := by
  obtain ⟨h1, g1, e, hg1, _, hl, hpl, _, ⟨h2, e2, _, _, r2⟩, ⟨h3, e3, _, _, r3⟩⟩ :=
    (@tab_toggle_round_trip exThree 1 0 _ _ rfl rfl rfl).2 Hy3GroupLayout.SplitH (Or.inl rfl) (Or.inl ⟨rfl, rfl⟩)
  exact ⟨h1, g1, e, hg1, hl, hpl, ⟨h2, e2, r2⟩, ⟨h3, e3, r3⟩⟩


/-! ## C26: getFocusOverride returns the node it has just invalidated -/

/-- C26 (evaluation): in `exTwoWorkspaces` node 1 is on workspace 1; with node 1 recorded for
the window 201 of workspace 0 and direction Left, `getFocusOverride` discards the entry but
returns node 1, not null; only the next call returns null. -/
theorem getFocusOverride_returns_invalidated_node :
    (exTwoWorkspaces.get 1).map Hy3Node.workspace = some (some 1) ∧
    exEnv.windowWorkspace 201 = some 0 ∧
    getFocusOverride exEnv exTwoWorkspaces
        (setFocusOverride [] 201 ShiftDirection.Left (some 1)) 201 ShiftDirection.Left
      = some { intercepts := [], ret := some 1 } ∧
    getFocusOverride exEnv exTwoWorkspaces [] 201 ShiftDirection.Left
      = some { intercepts := [], ret := none } := by
  refine ⟨rfl, rfl, ?_, rfl⟩
  decide


/-! ## Focus queries: `shiftOrGetFocus` with `shift == false` -/

theorem descendLoop_query_succ (direction : ShiftDirection) (once visible : Bool) (fuel : Nat)
    (h : Hy3Layout) (iter : Nat) :
    descendLoop direction false once visible (fuel + 1) h iter =
      match h.group iter with
      | none => none
      | some g =>
        if g.children = [] then some (ShiftTarget.ret none)
        else
          match g.children.get? (descendPick direction false visible g).1 with
          | none => none
          | some next =>
            match h.get next with
            | none => none
            | some nn =>
              if stopsDescent nn then
                (getFocusedNode fuel h next false false).map ShiftTarget.ret
              else descendLoop direction false once visible fuel h next := by
  rw [descendLoop]
  cases h.group iter with
  | none => rfl
  | some g => rfl

theorem descendLoop_query (direction : ShiftDirection) (once visible : Bool) :
    ∀ (fuel : Nat) (h : Hy3Layout) (iter : Nat),
      descendLoop direction false once visible fuel h iter =
        (queryDescend direction visible fuel h iter).map ShiftTarget.ret
  | 0, _, _ => rfl
  | fuel + 1, h, iter => by
    rw [descendLoop_query_succ, queryDescend]
    cases h.group iter with
    | none => rfl
    | some g =>
      simp only
      by_cases hc : g.children = []
      · rw [if_pos hc, if_pos hc]; rfl
      · rw [if_neg hc, if_neg hc]
        cases g.children.get? (descendPick direction false visible g).1 with
        | none => rfl
        | some next =>
          simp only
          cases h.get next with
          | none => rfl
          | some nn =>
            simp only
            by_cases hs : stopsDescent nn = true
            · rw [if_pos hs, if_pos hs]
            · rw [if_neg hs, if_neg hs]
              exact descendLoop_query direction once visible fuel h next

theorem resolveInsert_tail (fuel : Nat) (h : Hy3Layout) (direction : ShiftDirection)
    (once visible : Bool) (cs : List Nat) (i : Nat) :
    (match cs.get? i with
      | none => none
      | some iter =>
        match h.get iter with
        | none => none
        | some itn =>
          if stopsDescent itn = true then
            Option.map ShiftTarget.ret (getFocusedNode fuel h iter false false)
          else descendLoop direction false once visible fuel h iter) =
      Option.map ShiftTarget.ret
        (match cs.get? i with
          | none => none
          | some iter =>
            match h.get iter with
            | none => none
            | some itn =>
              if stopsDescent itn = true then getFocusedNode fuel h iter false false
              else queryDescend direction visible fuel h iter) := by
  cases cs.get? i with
  | none => rfl
  | some iter =>
    simp only
    cases h.get iter with
    | none => rfl
    | some itn =>
      simp only
      by_cases hs : stopsDescent itn = true
      · rw [if_pos hs, if_pos hs]
      · rw [if_neg hs, if_neg hs]
        exact descendLoop_query direction once visible fuel h iter

theorem resolveInsert_query (fuel : Nat) (h : Hy3Layout) (node o p : Nat) (hbo : Bool)
    (direction : ShiftDirection) (once visible : Bool) :
    resolveInsert fuel h node o p hbo direction false once visible =
      (queryResolve fuel h o p direction visible).map ShiftTarget.ret := by
  unfold resolveInsert queryResolve shiftNeighbour
  cases h.group p with
  | none => rfl
  | some pg =>
    simp only [Bool.false_and, Bool.or_false, Bool.not_false, if_true, Bool.false_eq_true,
      if_false]
    cases pg.children.head? with
    | none => rfl
    | some front =>
      cases pg.children.getLast? with
      | none => rfl
      | some back =>
        simp only
        split_ifs
        · rfl
        · rfl
        · exact resolveInsert_tail fuel h direction once visible _ _
        · rfl
        · rfl
        · exact resolveInsert_tail fuel h direction once visible _ _

theorem breakLoop_query (node : Nat) (direction : ShiftDirection) (once visible : Bool) :
    ∀ (fuel : Nat) (h : Hy3Layout) (o : Nat) (p : Option Nat) (hbo : Bool),
      (∃ hb, breakLoop node direction false once visible fuel h o p hbo =
        (queryClimb direction visible fuel h o p).map
          (Option.map fun q => (h, q.1, q.2, hb)))
  | 0, _, _, _, _ => ⟨false, rfl⟩
  | fuel + 1, h, o, none, hbo => ⟨false, rfl⟩
  | fuel + 1, h, o, some p, hbo => by
    unfold breakLoop queryClimb breaksAt
    cases hn : h.get p with
    | none => exact ⟨false, rfl⟩
    | some pn =>
      simp only
      cases hd : pn.data with
      | window w => exact ⟨false, rfl⟩
      | group g =>
        simp only [Bool.and_false, Bool.false_and, Bool.false_eq_true, if_false]
        by_cases hm : (shiftMatchesLayout g.layout direction
            && (!visible || g.layout != Hy3GroupLayout.Tabbed)) = true
        · simp only [hm, if_true]
          cases (if shiftIsForward direction = true then g.children.getLast?
              else g.children.head?) with
          | none => exact ⟨false, rfl⟩
          | some edge =>
            simp only
            by_cases he : (edge != o) = true
            · simp only [he]
              exact ⟨_, rfl⟩
            · have he' : (edge != o) = false := by simpa using he
              simp only [he']
              cases pn.parent with
              | none => exact ⟨false, rfl⟩
              | some gp =>
                exact breakLoop_query node direction once visible fuel h p (some gp) _
        · simp only [hm, if_false]
          cases pn.parent with
          | none => exact ⟨false, rfl⟩
          | some gp => exact breakLoop_query node direction once visible fuel h p (some gp) _

/-- With `shift == false`, `shiftOrGetFocus` returns the store it was given together with the
pointer computed by `focusQuery`. -/
theorem shiftOrGetFocus_query (fuel : Nat) (h : Hy3Layout) (node : Nat)
    (direction : ShiftDirection) (once visible : Bool) :
    shiftOrGetFocus fuel h node direction false once visible =
      (focusQuery fuel h node direction visible).map fun r => (h, r) := by
  unfold shiftOrGetFocus focusQuery
  cases getExpandActor fuel h node with
  | none => rfl
  | some bo =>
    simp only
    cases h.get bo with
    | none => rfl
    | some bn =>
      simp only
      obtain ⟨hb, e⟩ := breakLoop_query node direction once visible fuel h bo bn.parent false
      rw [e]
      cases queryClimb direction visible fuel h bo bn.parent with
      | none => rfl
      | some q =>
        cases q with
        | none => rfl
        | some q =>
          obtain ⟨O, P⟩ := q
          simp only [Option.map_some']
          rw [resolveInsert_query]
          cases queryResolve fuel h O P direction visible with
          | none => rfl
          | some r => rfl


/-! ## Focus queries return -/

theorem getFocusedNode_total {h : Hy3Layout} (wf : WellFormed h) {rank : Nat → Nat} {B : Nat}
    (rk : RankedBy h rank B)
    (hfc : ∀ a g fc, h.group a = some g → g.focused_child = some fc → fc ∈ g.children)
    (i s : Bool) {this : Nat} (hs : (h.get this).isSome) {fuel : Nat}
    (hf : B - rank this < fuel) : ∃ x, getFocusedNode fuel h this i s = some (some x) := by
  obtain ⟨x, e, _⟩ := getFocusedNode_chain wf rk hfc i s (B - rank this) this (le_refl _) hs
    fuel hf
  exact ⟨x, e⟩

theorem descendPick_lt {h : Hy3Layout}
    (hfc : ∀ a g fc, h.group a = some g → g.focused_child = some fc → fc ∈ g.children)
    {a : Nat} {g : Hy3GroupData} (hg : h.group a = some g) (hne : g.children ≠ [])
    (direction : ShiftDirection) (shift visible : Bool) :
    (descendPick direction shift visible g).1 < g.children.length := by
  have hpos : 0 < g.children.length := List.length_pos.mpr hne
  unfold descendPick
  cases hf : g.focused_child with
  | none =>
    simp only
    split_ifs <;> simp only <;> omega
  | some fc =>
    have hm := hfc a g fc hg hf
    have hi := List.indexOf_lt_length.mpr hm
    simp only
    split_ifs <;> simp only <;> omega

theorem stopsDescent_false {n : Hy3Node} (hs : ¬ stopsDescent n = true) :
    ∃ g, n.data = Hy3NodeData.group g := by
  unfold stopsDescent at hs
  cases hd : n.data with
  | window w => simp [hd] at hs
  | group g => exact ⟨g, rfl⟩

theorem queryDescend_total {h : Hy3Layout} (wf : WellFormed h) {rank : Nat → Nat} {B : Nat}
    (rk : RankedBy h rank B)
    (hfc : ∀ a g fc, h.group a = some g → g.focused_child = some fc → fc ∈ g.children)
    (direction : ShiftDirection) (visible : Bool) :
    ∀ (k iter : Nat), B - rank iter ≤ k → (h.group iter).isSome → ∀ fuel, k < fuel →
      ∃ r, queryDescend direction visible fuel h iter = some r
  | k, iter, hk, hs, fuel, hf => by
    obtain ⟨f, rfl⟩ : ∃ f, fuel = f + 1 := ⟨fuel - 1, by omega⟩
    obtain ⟨g, hg⟩ := Option.isSome_iff_exists.mp hs
    obtain ⟨n, hn, hd⟩ := group_eq_some hg
    rw [queryDescend]
    simp only [hg]
    by_cases hc : g.children = []
    · exact ⟨none, by rw [if_pos hc]⟩
    · rw [if_neg hc]
      have hlt := descendPick_lt hfc hg hc direction false visible
      obtain ⟨next, hnext⟩ : ∃ next,
          g.children.get? (descendPick direction false visible g).1 = some next :=
        ⟨_, List.get?_eq_get hlt⟩
      have hm : next ∈ g.children := List.get?_mem hnext
      have cr := wf.childrenRanked rk iter n next hn (by rw [hd]; exact hm)
      obtain ⟨nn, hnn⟩ := Option.isSome_iff_exists.mp cr.1
      simp only [hnext, hnn]
      by_cases hst : stopsDescent nn = true
      · rw [if_pos hst]
        obtain ⟨x, e⟩ := getFocusedNode_total wf rk hfc false false cr.1
          (show B - rank next < f by omega)
        exact ⟨_, e⟩
      · rw [if_neg hst]
        obtain ⟨g2, hd2⟩ := stopsDescent_false hst
        cases k with
        | zero => omega
        | succ k =>
          exact queryDescend_total wf rk hfc direction visible k next (by omega)
            (by rw [group_of_get hnn hd2]; rfl) f (by omega)


theorem breaksAt_true {direction : ShiftDirection} {visible : Bool} {g : Hy3GroupData}
    {o : Nat} (hb : breaksAt direction visible g o = some true) :
    (shiftMatchesLayout g.layout direction
      && (!visible || g.layout != Hy3GroupLayout.Tabbed)) = true ∧
    ∃ edge, (if shiftIsForward direction then g.children.getLast? else g.children.head?)
      = some edge ∧ edge ≠ o := by
  unfold breaksAt at hb
  split at hb
  · rename_i hm
    refine ⟨hm, ?_⟩
    split at hb
    · simp at hb
    · rename_i edge he
      exact ⟨edge, he, by simpa using hb⟩
  · simp at hb

theorem indexOf_get?_self {cs : List Nat} {o : Nat} (hm : o ∈ cs) :
    cs.get? (cs.indexOf o) = some o := by
  have hi := List.indexOf_lt_length.mpr hm
  rw [List.get?_eq_get hi]
  simp

theorem shiftNeighbour_some {direction : ShiftDirection} {cs : List Nat} {o edge : Nat}
    (hm : o ∈ cs)
    (he : (if shiftIsForward direction then cs.getLast? else cs.head?) = some edge)
    (hne : edge ≠ o) :
    ∃ s, shiftNeighbour direction cs o = some s ∧ s ∈ cs ∧
      (shiftIsForward direction = true → cs.get? (cs.indexOf o + 1) = some s) ∧
      (shiftIsForward direction = false →
        cs.indexOf o ≠ 0 ∧ cs.get? (cs.indexOf o - 1) = some s) := by
  have hi := List.indexOf_lt_length.mpr hm
  have hself := indexOf_get?_self hm
  unfold shiftNeighbour
  by_cases hf : shiftIsForward direction = true
  · rw [if_pos hf] at he
    simp only [hf, if_true, hi]
    have hlt : cs.indexOf o + 1 < cs.length := by
      by_contra hge
      have hlast : cs.getLast? = cs.get? (cs.length - 1) := by
        rw [List.getLast?_eq_getElem?]
        simp
      rw [hlast, show cs.length - 1 = cs.indexOf o by omega, hself] at he
      exact hne (by simpa using he.symm)
    refine ⟨cs.get ⟨_, hlt⟩, List.get?_eq_get hlt, List.get_mem _ _ _, fun _ => List.get?_eq_get hlt,
      fun hff => by simp at hff⟩
  · have hf' : shiftIsForward direction = false := by simpa using hf
    rw [if_neg hf] at he
    have h0 : cs.indexOf o ≠ 0 := by
      intro e0
      rw [e0] at hself
      cases cs with
      | nil => simp at hm
      | cons c rest =>
        simp only [List.head?_cons, Option.some.injEq] at he
        simp only [List.get?_cons_zero, Option.some.injEq] at hself
        exact hne (he ▸ hself)
    simp only [hf', Bool.false_eq_true, if_false, h0]
    have hlt : cs.indexOf o - 1 < cs.length := by omega
    exact ⟨cs.get ⟨_, hlt⟩, List.get?_eq_get hlt, List.get_mem _ _ _,
      fun hff => by simp at hff, fun _ => ⟨h0, List.get?_eq_get hlt⟩⟩

theorem queryClimb_total {h : Hy3Layout} (wf : WellFormed h) {rank : Nat → Nat} {B : Nat}
    (rk : RankedBy h rank B) (direction : ShiftDirection) (visible : Bool) :
    ∀ (k o : Nat) (n : Hy3Node), rank o ≤ k → h.get o = some n → ∀ fuel, k < fuel →
      ∃ r, queryClimb direction visible fuel h o n.parent = some r ∧
        ∀ O P, r = some (O, P) → ∃ m g, h.get O = some m ∧ m.parent = some P ∧
          h.group P = some g ∧ breaksAt direction visible g O = some true
  | k, o, n, hk, hn, fuel, hf => by
    obtain ⟨f, rfl⟩ : ∃ f, fuel = f + 1 := ⟨fuel - 1, by omega⟩
    cases hp : n.parent with
    | none => exact ⟨none, rfl, fun O P e => by simp at e⟩
    | some p =>
      obtain ⟨g, hg⟩ := Option.isSome_iff_exists.mp (wf.parent_group hn hp)
      obtain ⟨pn, hpn, hd⟩ := group_eq_some hg
      have hlt := (rk o n hn).2 p hp
      have hm : o ∈ g.children := by
        have := wf.mem_of_parent (show h.parentOf o = some (some p) by
          simp [Hy3Layout.parentOf, hn, hp])
        rwa [childrenOf_of_group_eq hg] at this
      rw [queryClimb]
      simp only [hpn, hd]
      have hup : ∃ r, (match pn.parent with
          | none => some none
          | some grandparent => queryClimb direction visible f h p (some grandparent)) = some r ∧
          ∀ O P, r = some (O, P) → ∃ m g, h.get O = some m ∧ m.parent = some P ∧
            h.group P = some g ∧ breaksAt direction visible g O = some true := by
        cases k with
        | zero => omega
        | succ k =>
          obtain ⟨r, e, hr⟩ := queryClimb_total wf rk direction visible k p pn (by omega) hpn f
            (by omega)
          refine ⟨r, ?_, hr⟩
          cases hpp : pn.parent with
          | none =>
            rw [hpp] at e
            cases f with
            | zero => omega
            | succ f => simpa [queryClimb] using e
          | some gp =>
            rw [hpp] at e
            exact e
      cases hb : breaksAt direction visible g o with
      | none =>
        exfalso
        unfold breaksAt at hb
        split at hb
        · split at hb
          · rename_i he
            split at he
            · rw [List.getLast?_eq_none_iff] at he
              rw [he] at hm
              simp at hm
            · rw [List.head?_eq_none_iff] at he
              rw [he] at hm
              simp at hm
          · simp at hb
        · simp at hb
      | some b =>
        cases b with
        | true =>
          refine ⟨some (o, p), rfl, fun O P e => ?_⟩
          simp only [Option.some.injEq, Prod.mk.injEq] at e
          obtain ⟨rfl, rfl⟩ := e
          exact ⟨n, g, hn, hp, hg, hb⟩
        | false => exact hup


theorem queryResolve_at_break {h : Hy3Layout} {O P : Nat} {m : Hy3Node} {g : Hy3GroupData}
    {direction : ShiftDirection} {visible : Bool} (wf : WellFormed h)
    (hm : h.get O = some m) (hp : m.parent = some P) (hg : h.group P = some g)
    (hb : breaksAt direction visible g O = some true) (fuel : Nat) :
    ∃ s sn, shiftNeighbour direction g.children O = some s ∧ s ∈ g.children ∧
      h.get s = some sn ∧ sn.parent = some P ∧
      queryResolve fuel h O P direction visible =
        if stopsDescent sn then getFocusedNode fuel h s false false
        else queryDescend direction visible fuel h s := by
  obtain ⟨_, edge, he, hne⟩ := breaksAt_true hb
  have hmem : O ∈ g.children := by
    have := wf.mem_of_parent (show h.parentOf O = some (some P) by
      simp [Hy3Layout.parentOf, hm, hp])
    rwa [childrenOf_of_group_eq hg] at this
  obtain ⟨s, hs, hsm, -, -⟩ := shiftNeighbour_some hmem he hne
  obtain ⟨pn, hpn, hd⟩ := group_eq_some hg
  obtain ⟨sn, hsn, hsp⟩ := wf.2 P pn s hpn (by rw [Hy3Node.children, hd]; exact hsm)
  refine ⟨s, sn, hs, hsm, hsn, hsp, ?_⟩
  unfold queryResolve
  simp only [hg]
  obtain ⟨front, hfront⟩ : ∃ front, g.children.head? = some front := by
    cases hc : g.children with
    | nil => rw [hc] at hmem; simp at hmem
    | cons c rest => exact ⟨c, rfl⟩
  obtain ⟨back, hback⟩ : ∃ back, g.children.getLast? = some back := by
    cases hl : g.children.getLast? with
    | none =>
      rw [List.getLast?_eq_none_iff] at hl
      rw [hl] at hmem; simp at hmem
    | some b => exact ⟨b, rfl⟩
  simp only [hfront, hback, hs, hsn]
  by_cases hf : shiftIsForward direction = true
  · rw [if_pos hf, hback] at he
    have : back ≠ O := by
      intro e
      exact hne (by simpa [e] using he.symm)
    have hbO : (O == back) = false := by simpa using fun e => this e.symm
    simp [hf, hbO]
  · have hf' : shiftIsForward direction = false := by simpa using hf
    rw [if_neg hf, hfront] at he
    have : front ≠ O := by
      intro e
      exact hne (by simpa [e] using he.symm)
    have hbO : (O == front) = false := by simpa using fun e => this e.symm
    simp [hf', hbO]

theorem focusQuery_total {h : Hy3Layout} (wf : WellFormed h) {rank : Nat → Nat} {B : Nat}
    (rk : RankedBy h rank B)
    (hfc : ∀ a g fc, h.group a = some g → g.focused_child = some fc → fc ∈ g.children)
    {node : Nat} (hs : (h.get node).isSome) (direction : ShiftDirection) (visible : Bool)
    {fuel : Nat} (hf : B < fuel) :
    ∃ r, focusQuery fuel h node direction visible = some r := by
  obtain ⟨ps, hc, -, -⟩ := ancestorChain_exists wf rk (rank node) node (le_refl _) hs
  obtain ⟨nn, hnn⟩ := Option.isSome_iff_exists.mp hs
  have hlen := AncestorChain.length_le_rank rk hc
  have hrn := (rk node nn hnn).1
  obtain ⟨actor, ha, has⟩ := getExpandActor_total wf ps node hc fuel (by omega)
  obtain ⟨an, han⟩ := Option.isSome_iff_exists.mp has
  have hra := (rk actor an han).1
  unfold focusQuery
  simp only [ha, han]
  obtain ⟨r, e, hr⟩ := queryClimb_total wf rk direction visible (rank actor) actor an
    (le_refl _) han fuel (by omega)
  rw [e]
  cases r with
  | none => exact ⟨none, rfl⟩
  | some q =>
    obtain ⟨O, P⟩ := q
    obtain ⟨m, g, hm, hp, hg, hb⟩ := hr O P rfl
    obtain ⟨s, sn, -, -, hsn, -, e2⟩ := queryResolve_at_break wf hm hp hg hb fuel
    simp only [e2]
    have hrs := (rk s sn hsn).1
    by_cases hst : stopsDescent sn = true
    · rw [if_pos hst]
      obtain ⟨x, ex⟩ := getFocusedNode_total wf rk hfc false false
        (show (h.get s).isSome by simp [hsn]) (show B - rank s < fuel by omega)
      exact ⟨_, ex⟩
    · rw [if_neg hst]
      obtain ⟨g2, hd2⟩ := stopsDescent_false hst
      exact queryDescend_total wf rk hfc direction visible (B - rank s) s (le_refl _)
        (by rw [group_of_get hsn hd2]; rfl) fuel (by omega)


/-! ## C25: focus queries are non-destructive -/

/-- C25: called with `shift == false`, `shiftOrGetFocus` returns the store it was given (every
node with its child list, parent pointer, layout, focus and expansion flags and size ratio is
the one of the input) whenever it returns; and in a well-formed acyclic store in which every
non-null `focused_child` is a child of its group it returns, for every node of the store, once
the fuel exceeds the height bound. -/
theorem shiftOrGetFocus_query_unchanged (h : Hy3Layout) (node : Nat)
    (direction : ShiftDirection) (once visible : Bool) :
    (∀ fuel h1 r, shiftOrGetFocus fuel h node direction false once visible = some (h1, r) →
      h1 = h) ∧
    (WellFormed h → ∀ (rank : Nat → Nat) (B : Nat), RankedBy h rank B →
      (∀ a g fc, h.group a = some g → g.focused_child = some fc → fc ∈ g.children) →
      (h.get node).isSome → ∀ fuel, B < fuel →
        ∃ r, shiftOrGetFocus fuel h node direction false once visible = some (h, r)) := by
  refine ⟨fun fuel h1 r e => ?_, fun wf rank B rk hfc hs fuel hf => ?_⟩
  · rw [shiftOrGetFocus_query] at e
    cases hq : focusQuery fuel h node direction visible with
    | none => simp [hq] at e
    | some q =>
      simp only [hq, Option.map_some', Option.some.injEq, Prod.mk.injEq] at e
      exact e.1.symm
  · obtain ⟨r, e⟩ := focusQuery_total wf rk hfc hs direction visible hf
    exact ⟨r, by rw [shiftOrGetFocus_query, e]; rfl⟩

theorem shiftOrGetFocus_query_unchanged_witness :
    ∀ fuel, 3 < fuel → ∃ r, shiftOrGetFocus fuel exEphemeral 2 ShiftDirection.Down false false
      false = some (exEphemeral, r) :=
  (shiftOrGetFocus_query_unchanged exEphemeral 2 ShiftDirection.Down false false).2
    (wellFormed_of_check (by decide)) id 3 (rankedBy_of_check (by decide))
    (layoutReady_of_check (by decide)).2 rfl


/-! ## Payloads after a removal that stops at the parent -/

theorem focusBeforeRemove_get_ne (h : Hy3Layout) (p : Nat) (cs : List Nat) (c : Nat) {y : Nat}
    (hy : y ≠ p) : (focusBeforeRemove h p cs c).get y = h.get y := by
  unfold focusBeforeRemove
  split
  · exact get_modifyGroup_ne _ hy
  · rfl

theorem detachStore_data (this child gp : Nat) (cs0 : List Nat) (h : Hy3Layout) {y : Nat}
    (hy : y ≠ gp) :
    ((detachStore this child gp cs0 h).get y).map Hy3Node.data =
      if y = child ∧ child ≠ this then none else (h.get y).map Hy3Node.data := by
  unfold detachStore
  by_cases hct : child ≠ this
  · simp only [if_pos hct]
    rw [get_remove]
    by_cases hyc : y = child
    · simp [hyc, hct]
    · rw [if_neg hyc, if_neg (fun hh => hyc hh.1), get_modifyGroup_ne _ hy,
        focusBeforeRemove_get_ne _ _ _ _ hy]
  · simp only [if_neg hct]
    rw [if_neg (fun hh => hct hh.2), get_modify]
    split
    · rw [get_modifyGroup_ne _ hy, focusBeforeRemove_get_ne _ _ _ _ hy]
      cases h.get y <;> rfl
    · rw [get_modifyGroup_ne _ hy, focusBeforeRemove_get_ne _ _ _ _ hy]

theorem detachStore_flags (this child gp : Nat) (cs0 : List Nat) (h : Hy3Layout)
    (hne : gp ≠ child) :
    ((detachStore this child gp cs0 h).group gp).map
        (fun g => (g.layout, g.ephemeral, g.expand_focused)) =
      (h.group gp).map (fun g => (g.layout, g.ephemeral, g.expand_focused)) := by
  unfold detachStore
  have key : (((focusBeforeRemove h gp cs0 child).modifyGroup gp fun g =>
      { g with
        children := cs0.filter fun c => c ≠ child
        group_focused := false
        focused_child :=
          if (cs0.filter fun c => c ≠ child).length = 1 then
            (cs0.filter fun c => c ≠ child).head?
          else g.focused_child }).group gp).map
        (fun g => (g.layout, g.ephemeral, g.expand_focused)) =
      (h.group gp).map (fun g => (g.layout, g.ephemeral, g.expand_focused)) := by
    rw [group_modifyGroup, if_pos rfl, focusBeforeRemove_group]
    by_cases hl : gp = gp ∧ cs0.length > 2
    · rw [if_pos hl]
      cases h.group gp <;> simp
    · rw [if_neg hl]
      cases h.group gp <;> simp
  by_cases hct : child ≠ this
  · simp only [if_pos hct]
    rw [group_remove, if_neg hne]
    exact key
  · simp only [if_neg hct]
    rw [group_modify_parent]
    exact key

theorem Hy3Node.noExpand_data_eq {a b : Hy3Node} (e : a.noExpand = b.noExpand) :
    a.noExpand.data = b.noExpand.data := by rw [e]

theorem SameButExpand.data {h h' : Hy3Layout} (hs : SameButExpand h h') (y : Nat) :
    (h'.get y).map (fun n => n.noExpand.data) = (h.get y).map (fun n => n.noExpand.data) := by
  have := congrArg (Option.map Hy3Node.data) (hs y)
  simpa [Option.map_map, Function.comp] using this

theorem noExpand_data_of_data {a b : Option Hy3Node}
    (e : a.map Hy3Node.data = b.map Hy3Node.data) :
    a.map (fun n => n.noExpand.data) = b.map (fun n => n.noExpand.data) := by
  cases a with
  | none =>
    cases b with
    | none => rfl
    | some y => simp at e
  | some x =>
    cases b with
    | none => simp at e
    | some y =>
      simp only [Option.map_some', Option.some.injEq] at e ⊢
      unfold Hy3Node.noExpand
      simp only [e]

theorem removeFromParentRecursive_one_round_data {h : Hy3Layout} (wf : WellFormed h)
    {rank : Nat → Nat} {B : Nat} (rk : RankedBy h rank B) {x p : Nat}
    {ps : List Nat} (hc : AncestorChain h x (p :: ps))
    (hrem : (h.childrenOf p).filter (fun s => s ≠ x) ≠ []) {fuel : Nat} {r : RemoveResult}
    (e : removeFromParentRecursive fuel h x = some r) :
    (∀ y, y ≠ p → (r.layout.get y).map (fun n => n.noExpand.data) =
      (h.get y).map (fun n => n.noExpand.data)) ∧
    (r.layout.group p).map (fun g => (g.layout, g.ephemeral)) =
      (h.group p).map (fun g => (g.layout, g.ephemeral)) := by
  unfold removeFromParentRecursive at e
  cases e1 : removePrelude fuel h x with
  | none => simp [e1] at e
  | some q =>
    obtain ⟨h1, actor⟩ := q
    simp only [e1] at e
    have s := removePrelude_same e1
    have hc1 : AncestorChain h1 x (p :: ps) := hc.congr_on (fun y _ => s.parentOf y)
    have wf1 : WellFormed h1 := by
      rw [wellFormed_iff] at wf ⊢
      refine ⟨fun a q hp => ?_, fun a c hm => ?_⟩
      · rw [s.parentOf] at hp
        rw [s.childrenOf]
        exact wf.1 a q hp
      · rw [s.childrenOf] at hm
        rw [s.parentOf]
        exact wf.2 a c hm
    cases fuel with
    | zero => simp [removeLoop] at e
    | succ f =>
      cases hc1 with
      | step hn hp hrest =>
        obtain ⟨group, hg⟩ := Option.isSome_iff_exists.mp (wf1.parent_group hn hp)
        have hpc : h1.parentOf x = some (some p) := by simp [Hy3Layout.parentOf, hn, hp]
        have chgp : h1.childrenOf p = group.children := childrenOf_of_group_eq hg
        have hch : h.childrenOf p = group.children := (s.childrenOf p).symm.trans chgp
        have hm : x ∈ group.children := chgp ▸ wf1.mem_of_parent hpc
        have hxp : x ≠ p := by
          intro e
          have h0 := (rankedBy_iff h rank B).mp rk
          have := h0.2 x p ((s.parentOf x).symm.trans hpc)
          rw [e] at this
          exact lt_irrefl _ this
        rw [hch] at hrem
        have e2 := @removeLoop_step x f _ _ _ _ _ hn hp hg hm
        rw [if_pos hrem] at e2
        rw [e2] at e
        generalize h4e : addRatioAll (detachStore x x p group.children h1) _ _ = X at e
        cases X with
        | none => simp at e
        | some h4 =>
          simp only [Option.map_some', Option.some.injEq] at e
          subst e
          obtain ⟨_, _, g4⟩ := addRatioAll_frame _ _ _ _ h4e
          have pr := addRatioAll_proj h4e
          have hxx : ¬ (x ≠ x) := fun hh => hh rfl
          have hd4 : ∀ y, (h4.get y).map Hy3Node.data =
              ((detachStore x x p group.children h1).get y).map Hy3Node.data := by
            intro y
            obtain ⟨k, hk⟩ := g4 y
            rw [hk]
            cases (detachStore x x p group.children h1).get y <;> rfl
          refine ⟨fun y hy => ?_, ?_⟩
          · show ((h4.modify x _).get y).map _ = _
            have h5 : ((h4.modify x fun n => { n with parent := none }).get y).map Hy3Node.data
                = (h1.get y).map Hy3Node.data := by
              rw [get_modify]
              split
              · rw [← detachStore_data x x p group.children h1 hy |>.trans
                  (if_neg (fun hh => hxx hh.2)), ← hd4]
                cases h4.get y <;> rfl
              · rw [hd4, detachStore_data x x p group.children h1 hy,
                  if_neg (fun hh => hxx hh.2)]
            rw [noExpand_data_of_data h5]
            exact s.data y
          · show ((h4.modify x _).group p).map _ = _
            rw [group_modify_parent, pr.2.2]
            have f1 := detachStore_flags x x p group.children h1 (Ne.symm hxp)
            have f2 : ((detachStore x x p group.children h1).group p).map
                (fun g => (g.layout, g.ephemeral)) = (h1.group p).map
                (fun g => (g.layout, g.ephemeral)) := by
              have := congrArg (Option.map fun t : Hy3GroupLayout × Bool × ExpandFocusType =>
                (t.1, t.2.1)) f1
              simpa [Option.map_map, Function.comp] using this
            rw [f2, hg]
            cases hg0 : h.group p with
            | none =>
              have hs1 : SameButExpand h1 h := fun a => (s a).symm
              obtain ⟨g', hg', -⟩ := hs1.group hg
              simp [hg0] at hg'
            | some g0 =>
              obtain ⟨g', hg', en⟩ := s.group hg0
              rw [hg] at hg'
              cases hg'
              simp only [Option.map_some', Option.some.injEq, Prod.mk.injEq]
              have e1 := congrArg Hy3GroupData.layout en
              have e2 := congrArg Hy3GroupData.ephemeral en
              exact ⟨e1, e2⟩

/-- After a removal that stops at the parent `p`, every node other than `p` holds the payload
it had when the prelude of the removal had run. -/
theorem removeFromParentRecursive_one_round_payload {h : Hy3Layout} (wf : WellFormed h)
    {x p : Nat} {ps : List Nat} (hc : AncestorChain h x (p :: ps))
    (hrem : (h.childrenOf p).filter (fun s => s ≠ x) ≠ []) {fuel : Nat} {r : RemoveResult}
    (e : removeFromParentRecursive fuel h x = some r) :
    ∃ h1 actor, removePrelude fuel h x = some (h1, actor) ∧
      ∀ y, y ≠ p → (r.layout.get y).map Hy3Node.data = (h1.get y).map Hy3Node.data := by
  unfold removeFromParentRecursive at e
  cases e1 : removePrelude fuel h x with
  | none => simp [e1] at e
  | some q =>
    obtain ⟨h1, actor⟩ := q
    simp only [e1] at e
    refine ⟨h1, actor, rfl, ?_⟩
    have s := removePrelude_same e1
    have hc1 : AncestorChain h1 x (p :: ps) := hc.congr_on (fun y _ => s.parentOf y)
    have wf1 : WellFormed h1 := by
      rw [wellFormed_iff] at wf ⊢
      refine ⟨fun a q hp => ?_, fun a c hm => ?_⟩
      · rw [s.parentOf] at hp
        rw [s.childrenOf]
        exact wf.1 a q hp
      · rw [s.childrenOf] at hm
        rw [s.parentOf]
        exact wf.2 a c hm
    cases fuel with
    | zero => simp [removeLoop] at e
    | succ f =>
      cases hc1 with
      | step hn hp hrest =>
        obtain ⟨group, hg⟩ := Option.isSome_iff_exists.mp (wf1.parent_group hn hp)
        have hpc : h1.parentOf x = some (some p) := by simp [Hy3Layout.parentOf, hn, hp]
        have chgp : h1.childrenOf p = group.children := childrenOf_of_group_eq hg
        have hch : h.childrenOf p = group.children := (s.childrenOf p).symm.trans chgp
        have hm : x ∈ group.children := chgp ▸ wf1.mem_of_parent hpc
        rw [hch] at hrem
        have e2 := @removeLoop_step x f _ _ _ _ _ hn hp hg hm
        rw [if_pos hrem] at e2
        rw [e2] at e
        generalize h4e : addRatioAll (detachStore x x p group.children h1) _ _ = X at e
        cases X with
        | none => simp at e
        | some h4 =>
          simp only [Option.map_some', Option.some.injEq] at e
          subst e
          obtain ⟨_, _, g4⟩ := addRatioAll_frame _ _ _ _ h4e
          have hxx : ¬ (x ≠ x) := fun hh => hh rfl
          have hd4 : ∀ y, (h4.get y).map Hy3Node.data =
              ((detachStore x x p group.children h1).get y).map Hy3Node.data := by
            intro y
            obtain ⟨k, hk⟩ := g4 y
            rw [hk]
            cases (detachStore x x p group.children h1).get y <;> rfl
          intro y hy
          show ((h4.modify x _).get y).map _ = _
          rw [get_modify]
          split
          · rw [← detachStore_data x x p group.children h1 hy |>.trans
              (if_neg (fun hh => hxx hh.2)), ← hd4]
            cases h4.get y <;> rfl
          · rw [hd4, detachStore_data x x p group.children h1 hy,
              if_neg (fun hh => hxx hh.2)]

/-! ## One collapse of the cascade in onWindowRemovedTiling -/

theorem swallowLoop_single {h1 : Hy3Layout} (wf1 : WellFormed h1) {rank : Nat → Nat} {B : Nat}
    (rk1 : RankedBy h1 rank B) {P x : Nat} {n xn : Hy3Node} {g1 : Hy3GroupData}
    (hP : h1.get P = some n) (hd : n.data = Hy3NodeData.group g1) (hc : g1.children = [x])
    (hx : h1.get x = some xn)
    (hguard : n.parent ≠ none ∨ xn.data.type = Hy3NodeType.Group)
    (hstop : ∀ G, n.parent = some G → (h1.childrenOf G).length ≠ 1 ∨
      (h1.parentOf G = some none ∧ xn.data.type ≠ Hy3NodeType.Group))
    {fuel : Nat} (hf : 2 ≤ fuel) :
    ∃ h2, swallowLoop fuel h1 (some P) = some h2 ∧
      h2.get P = some { n with data := xn.data.moved } ∧ h2.get x = none ∧
      (∀ y, h1.get y = none → h2.get y = none) := by
  have cr := wf1.childrenRanked rk1
  have hxm : x ∈ n.data.children := by rw [hd]; simp [hc]
  have hrx := (cr P n x hP hxm).2.1
  have hne : P ≠ x := fun e => by rw [e] at hrx; exact lt_irrefl _ hrx
  have hPx : P ∉ xn.data.children := fun hm => by
    have := (cr x xn P hx hm).2.1
    omega
  obtain ⟨h1s, -, es, -, -, gs⟩ := swallowGroups_swap h1 P x n xn g1 hP hd hc hx hne hguard
    (wf1.childrenInStore.of_get hx)
  have hP2 : (h1s.remove x).get P = some { n with data := xn.data.moved } := by
    rw [get_remove, if_neg hne, gs, hP]
    simp [swapNode, hPx, hd, hc, hne]
  have hx2 : (h1s.remove x).get x = none := by rw [get_remove, if_pos rfl]
  have hnone : ∀ y, h1.get y = none → (h1s.remove x).get y = none := by
    intro y hy
    rw [get_remove]
    split
    · rfl
    · rw [gs, hy]; rfl
  refine ⟨h1s.remove x, ?_, hP2, hx2, hnone⟩
  obtain ⟨f, rfl⟩ : ∃ f, fuel = f + 2 := ⟨fuel - 2, by omega⟩
  rw [swallowLoop]
  simp only [es, hP2]
  cases hp : n.parent with
  | none => rfl
  | some G =>
    have hrP := (rk1 P n hP).2 G hp
    obtain ⟨gg, hgg⟩ := Option.isSome_iff_exists.mp (wf1.parent_group hP hp)
    obtain ⟨Gn, hGn, hdG⟩ := group_eq_some hgg
    have hGx : G ≠ x := fun e => by rw [e] at hrP; omega
    have hGP : G ≠ P := fun e => by rw [e] at hrP; exact lt_irrefl _ hrP
    have hGc : G ∉ xn.data.children := fun hm => by
      have := (cr x xn G hx hm).2.1
      omega
    have hG2 : (h1s.remove x).get G = some Gn := by
      rw [get_remove, if_neg hGx, gs, hGn]
      simp [swapNode, hGc, hd, hc, hGx, hGP]
    have hPm : P ∈ gg.children := by
      have := wf1.mem_of_parent (show h1.parentOf P = some (some G) by
        simp [Hy3Layout.parentOf, hP, hp])
      rwa [childrenOf_of_group_eq hgg] at this
    have hsw : swallowGroups (h1s.remove x) (some G) = some (h1s.remove x, false) := by
      unfold swallowGroups
      simp only [hG2, hdG]
      cases hcs : gg.children with
      | nil => rfl
      | cons c rest =>
        cases rest with
        | cons c2 rest2 => rfl
        | nil =>
          rw [hcs] at hPm
          simp only [List.mem_singleton] at hPm
          subst hPm
          simp only [hP2]
          rcases hstop G hp with hl | ⟨hroot, hty⟩
          · rw [childrenOf_of_group_eq hgg, hcs] at hl
            simp at hl
          · have hGpar : Gn.parent = none := by
              simpa [Hy3Layout.parentOf, hGn] using hroot
            rw [if_pos ⟨hGpar, by simpa using hty⟩]
    rw [swallowLoop]
    simp only [hsw]


theorem getNodeFromWindow_spec {h : Hy3Layout} (ok : StoreOK h) {w : Option Nat} {c : Nat}
    (e : getNodeFromWindow h w = some c) :
    ∃ n, h.get c = some n ∧ n.data = Hy3NodeData.window w := by
  unfold getNodeFromWindow at e
  cases hf : h.nodes.find? (fun n => n.data == Hy3NodeData.window w) with
  | none => simp [hf] at e
  | some n =>
    simp only [hf, Option.map_some', Option.some.injEq] at e
    subst e
    have hm := List.mem_of_find?_eq_some hf
    have hp := List.find?_some hf
    exact ⟨n, get_of_mem ok hm, by simpa using hp⟩

theorem Hy3Node.noExpand_data_type (n : Hy3Node) : n.noExpand.data.type = n.data.type := by
  unfold Hy3Node.noExpand
  cases n.data <;> rfl

theorem noExpand_data_moved (n : Hy3Node) (d : Hy3NodeData) :
    ({ n with data := d.moved } : Hy3Node).noExpand.data = ({ n with data := d } :
      Hy3Node).noExpand.data.moved := by
  unfold Hy3Node.noExpand
  cases d <;> rfl

theorem RankedBy.rank_remove {h : Hy3Layout} {rank : Nat → Nat} {B : Nat} (rk : RankedBy h rank B)
    (c : Nat) : RankedBy (h.remove c) rank B := by
  intro a n hn
  rw [get_remove] at hn
  split at hn
  · cases hn
  · exact rk a n hn


theorem noExpand_data_congr (n n' : Hy3Node) (e : n.data = n'.data) :
    n.noExpand.data = n'.noExpand.data := by
  unfold Hy3Node.noExpand
  simp only [e]

theorem Hy3Node.noExpand_idem (n : Hy3Node) : n.noExpand.noExpand = n.noExpand := by
  unfold Hy3Node.noExpand
  cases n.data <;> rfl

theorem Hy3Node.mapGroup_collapse (n : Hy3Node) :
    (n.mapGroup fun g => { g with expand_focused := ExpandFocusType.NotExpanded }) = n.noExpand := by
  unfold Hy3Node.mapGroup Hy3Node.noExpand
  cases n with
  | mk addr parent reparenting data size_ratio workspace =>
    cases data <;> rfl

/-- What `collapseExpansions` may do to a node: leave it as it is, or reset its
`expand_focused`. -/
theorem collapseStack_lowered : ∀ (fuel : Nat) (h : Hy3Layout) (p : Option Nat)
    (h' : Hy3Layout), collapseStack fuel h p = some h' →
    ∀ a n', h'.get a = some n' → ∃ n, h.get a = some n ∧ (n' = n ∨ n' = n.noExpand)
  | 0, _, _, _, e => by simp [collapseStack] at e
  | _ + 1, _, none, _, e => by simp [collapseStack] at e
  | fuel + 1, h, some a0, h', e => by
    unfold collapseStack at e
    cases hn : h.get a0 with
    | none => simp [hn] at e
    | some n0 =>
      simp only [hn] at e
      cases hd : n0.data with
      | window w =>
        simp only [hd, Option.some.injEq] at e
        subst e
        exact fun a n' hn' => ⟨n', hn', Or.inl rfl⟩
      | group g =>
        simp only [hd] at e
        split at e
        · intro a n' hn'
          obtain ⟨n1, h1, hor⟩ := collapseStack_lowered fuel _ _ _ e a n' hn'
          rw [get_modifyGroup] at h1
          split at h1
          · cases ha : h.get a with
            | none => simp [ha] at h1
            | some n =>
              simp only [ha, Option.map_some', Option.some.injEq] at h1
              rw [Hy3Node.mapGroup_collapse] at h1
              refine ⟨n, rfl, Or.inr ?_⟩
              rcases hor with e1 | e1
              · rw [e1, ← h1]
              · rw [e1, ← h1, Hy3Node.noExpand_idem]
          · exact ⟨n1, h1, hor⟩
        · simp only [Option.some.injEq] at e
          subst e
          exact fun a n' hn' => ⟨n', hn', Or.inl rfl⟩

theorem collapseExpansions_lowered {fuel : Nat} {h h' : Hy3Layout} {a0 : Nat}
    (e : collapseExpansions fuel h a0 = some h') :
    ∀ a n', h'.get a = some n' → ∃ n, h.get a = some n ∧ (n' = n ∨ n' = n.noExpand) := by
  unfold collapseExpansions at e
  cases hg : h.group a0 with
  | none => simp [hg] at e
  | some g =>
    simp only [hg] at e
    split at e
    · simp only [Option.some.injEq] at e
      subst e
      exact fun a n' hn' => ⟨n', hn', Or.inl rfl⟩
    · intro a n' hn'
      obtain ⟨n1, h1, hor⟩ := collapseStack_lowered _ _ _ _ e a n' hn'
      rw [get_modifyGroup] at h1
      split at h1
      · cases ha : h.get a with
        | none => simp [ha] at h1
        | some n =>
          simp only [ha, Option.map_some', Option.some.injEq] at h1
          rw [Hy3Node.mapGroup_collapse] at h1
          refine ⟨n, rfl, Or.inr ?_⟩
          rcases hor with e1 | e1
          · rw [e1, ← h1]
          · rw [e1, ← h1, Hy3Node.noExpand_idem]
      · exact ⟨n1, h1, hor⟩

/-- The prelude of `removeFromParentRecursive` leaves every node as it was or with its
`expand_focused` reset to `NotExpanded`. -/
theorem removePrelude_lowered {fuel : Nat} {h h' : Hy3Layout} {this : Nat} {actor : Option Nat}
    (e : removePrelude fuel h this = some (h', actor)) :
    ∀ a n', h'.get a = some n' → ∃ n, h.get a = some n ∧ (n' = n ∨ n' = n.noExpand) := by
  unfold removePrelude at e
  cases hn : h.get this with
  | none => simp [hn] at e
  | some tn =>
    simp only [hn] at e
    cases hp : tn.parent with
    | none =>
      simp only [hp, Option.some.injEq, Prod.mk.injEq] at e
      rw [← e.1]
      exact fun a n' hn' => ⟨n', hn', Or.inl rfl⟩
    | some p =>
      simp only [hp] at e
      cases ha : getExpandActor fuel h this with
      | none => simp [ha] at e
      | some act =>
        simp only [ha] at e
        cases han : h.get act with
        | none => simp [han] at e
        | some an =>
          simp only [han] at e
          cases hd : an.data with
          | window w =>
            simp only [hd, Option.some.injEq, Prod.mk.injEq] at e
            rw [← e.1]
            exact fun a n' hn' => ⟨n', hn', Or.inl rfl⟩
          | group g =>
            simp only [hd] at e
            cases hc : collapseExpansions fuel h act with
            | none => simp [hc] at e
            | some h1 =>
              simp only [hc, Option.some.injEq, Prod.mk.injEq] at e
              rw [← e.1]
              exact collapseExpansions_lowered hc

/-- Under a parent without an active expansion the prelude of the removal of a window node
changes nothing. -/
theorem removePrelude_not_expanded {fuel : Nat} {h : Hy3Layout} {c E : Nat} {cn : Hy3Node}
    {g : Hy3GroupData} {w : Option Nat} (hc : h.get c = some cn) (hp : cn.parent = some E)
    (hd : cn.data = Hy3NodeData.window w) (hg : h.group E = some g)
    (hne : g.expand_focused = ExpandFocusType.NotExpanded) :
    removePrelude (fuel + 1) h c = some (h, none) := by
  unfold removePrelude
  simp only [hc, hp]
  have : getExpandActor (fuel + 1) h c = some c := by
    rw [getExpandActor]
    simp only [hc, hp, hg]
    rw [if_neg (fun hh => hh hne)]
  simp only [this, hc, hd]

/-- The collapse of `onWindowRemovedTiling`: the window node `c` is taken out of its parent `P`,
which keeps the single child `x`; when the test of line 336 passes, the root guard of
`swallowGroups` does not apply to `P`, and the cascade stops at the parent of `P`, the node `P`
ends up with the payload that `x` holds when the prelude of the removal has run (the payload
of `x`, with `expand_focused` reset if `collapseExpansions` went through `x`), and the node `x`
is gone. -/
theorem onWindowRemovedTiling_collapse {h : Hy3Layout} (ok : StoreOK h) (wf : WellFormed h)
    {rank : Nat → Nat} {B : Nat} (rk : RankedBy h rank B) (ei : ExpandInv h) (env : Env)
    {w c P x : Nat} {g : Hy3GroupData} {xn : Hy3Node}
    (hw : getNodeFromWindow h (some w) = some c)
    (hPc : h.parentOf c = some (some P))
    (hg : h.group P = some g)
    (hcx : g.children.filter (fun s => s ≠ c) = [x])
    (hx : h.get x = some xn)
    (hcol : g.ephemeral = true ∨
      (env.node_collapse_policy = 0 ∧ xn.data.type = Hy3NodeType.Group))
    (hguard : h.parentOf P ≠ some none ∨ xn.data.type = Hy3NodeType.Group)
    (hstop : ∀ G, h.parentOf P = some (some G) → (h.childrenOf G).length ≠ 1 ∨
      (h.parentOf G = some none ∧ xn.data.type ≠ Hy3NodeType.Group))
    {fuel : Nat} (hf : 2 * B + 2 < fuel) :
    ∃ h' m h1 actor xn1, onWindowRemovedTiling env fuel h w = some h' ∧ h'.get P = some m ∧
      h.parentOf P = some m.parent ∧ removePrelude fuel h c = some (h1, actor) ∧
      h1.get x = some xn1 ∧ m.data.moved = xn1.data.moved ∧
      (xn1 = xn ∨ xn1 = xn.noExpand) ∧
      (g.expand_focused = ExpandFocusType.NotExpanded → xn1 = xn) ∧
      h'.get x = none ∧ h'.get c = none := by
  obtain ⟨cn, hcn, hcd⟩ := getNodeFromWindow_spec ok hw
  obtain ⟨ps0, hchain, -, -⟩ := ancestorChain_exists wf rk (rank c) c (le_refl _)
    (by simp [hcn])
  have hlen := AncestorChain.length_le_rank rk hchain
  have hrc := (rk c cn hcn).1
  have hcc : h.childrenOf c = [] := by rw [childrenOf_of_get hcn, hcd]; rfl
  cases hchain with
  | root hn hp =>
    rw [hcn] at hn
    cases hn
    simp [Hy3Layout.parentOf, hcn, hp] at hPc
  | @step _ p n ps hn hp hrest =>
    rw [hcn] at hn
    cases hn
    have hpP : p = P := by simpa [Hy3Layout.parentOf, hcn, hp] using hPc
    subst hpP
    have hchain : AncestorChain h c (p :: ps) := AncestorChain.step hcn hp hrest
    have hch : h.childrenOf p = g.children := childrenOf_of_group_eq hg
    have hrem : (h.childrenOf p).filter (fun s => s ≠ c) ≠ [] := by rw [hch, hcx]; simp
    obtain ⟨r, e, hret, hcP, hco, hpc, hpo, hsome, -⟩ :=
      removeFromParentRecursive_one_round wf rk ei hchain hrem
        (show B + (p :: ps).length < fuel by omega)
    obtain ⟨-, hflag⟩ := removeFromParentRecursive_one_round_data wf rk hchain hrem e
    obtain ⟨h1, actor, epre, hdat⟩ := removeFromParentRecursive_one_round_payload wf hchain hrem e
    obtain ⟨ok_r, wf_r, -, hnoc⟩ := removeFromParentRecursive_preserves ok wf e
    have rk0 := (rankedBy_iff h rank B).mp rk
    have rk_r : RankedBy r.layout rank B := by
      rw [rankedBy_iff]
      refine ⟨fun a ha => rk0.1 a (hsome a ▸ ha), fun a q hq => ?_⟩
      by_cases hac : a = c
      · rw [hac, hpc] at hq
        simp at hq
      · exact rk0.2 a q (hpo a hac ▸ hq)
    have hrP : rank p < rank c := rk0.2 c p hPc
    have hPne : p ≠ c := fun e0 => by rw [e0] at hrP; exact lt_irrefl _ hrP
    have hxm : x ∈ g.children.filter (fun s => s ≠ c) := by rw [hcx]; simp
    have hxc : x ≠ c := by simpa using (List.mem_filter.mp hxm).2
    have hxg : x ∈ g.children := (List.mem_filter.mp hxm).1
    obtain ⟨pn0, hpn0, hpd0⟩ := group_eq_some hg
    have hrx : rank p < rank x :=
      (wf.childrenRanked rk p pn0 x hpn0 (by rw [hpd0]; exact hxg)).2.1
    have hxP : x ≠ p := fun e0 => by rw [e0] at hrx; exact lt_irrefl _ hrx
    have wf1 : WellFormed (r.layout.remove c) := by
      refine wf_r.remove_wf c (fun y hy => ?_) (fun y hy => absurd hy (hnoc y))
      by_contra hyc
      rw [hpo y hyc] at hy
      have := wf.mem_of_parent hy
      rw [hcc] at this
      simp at this
    have rk1 : RankedBy (r.layout.remove c) rank B := rk_r.rank_remove c
    obtain ⟨g1, hg1⟩ : ∃ g1, r.layout.group p = some g1 := by
      cases hq : r.layout.group p with
      | none => simp [hq, hg] at hflag
      | some g1 => exact ⟨g1, rfl⟩
    have hfl : g1.ephemeral = g.ephemeral := by
      simp only [hg1, hg, Option.map_some', Option.some.injEq, Prod.mk.injEq] at hflag
      exact hflag.2
    have hc1 : g1.children = [x] := by
      rw [← childrenOf_of_group_eq hg1, hcP, hch, hcx]
    obtain ⟨Pn, hPn, hPd⟩ := group_eq_some hg1
    have hPpar : h.parentOf p = some Pn.parent := by
      rw [← hpo p hPne]
      simp [Hy3Layout.parentOf, hPn]
    obtain ⟨xn1, hxn1⟩ : ∃ xn1, r.layout.get x = some xn1 :=
      Option.isSome_iff_exists.mp (by rw [hsome, hx]; rfl)
    obtain ⟨xp, hxp1⟩ : ∃ xp, h1.get x = some xp := by
      have := hdat x hxP
      rw [hxn1] at this
      cases hq : h1.get x with
      | none => simp [hq] at this
      | some xp => exact ⟨xp, rfl⟩
    have hxd : xn1.data = xp.data := by
      have := hdat x hxP
      simpa [hxn1, hxp1] using this
    obtain ⟨xn0, hxn0, hlow⟩ := removePrelude_lowered epre x xp hxp1
    rw [hx] at hxn0
    cases hxn0
    have hxt : xn1.data.type = xn.data.type := by
      rw [hxd]
      rcases hlow with e0 | e0
      · rw [e0]
      · rw [e0, Hy3Node.noExpand_data_type]
    have hP1 : (r.layout.remove c).get p = some Pn := by rw [get_remove, if_neg hPne, hPn]
    have hx1 : (r.layout.remove c).get x = some xn1 := by rw [get_remove, if_neg hxc, hxn1]
    have hg1r : (r.layout.remove c).group p = some g1 := by
      rw [group_remove, if_neg hPne, hg1]
    have hpo1 : ∀ a, a ≠ c → (r.layout.remove c).parentOf a = h.parentOf a := fun a ha => by
      rw [parentOf_remove, if_neg ha, hpo a ha]
    obtain ⟨h2, esw, hP2, hx2, hnone⟩ := swallowLoop_single wf1 rk1 hP1 hPd hc1 hx1
      (by
        rcases hguard with hgd | hgd
        · left
          intro e0
          rw [hPpar, e0] at hgd
          exact hgd rfl
        · right
          rw [hxt]; exact hgd)
      (fun G hG => by
        have hPG : h.parentOf p = some (some G) := by rw [hPpar, hG]
        have hrG : rank G < rank p := rk0.2 p G hPG
        have hGc : G ≠ c := fun e0 => by rw [e0] at hrG; omega
        have hGp : G ≠ p := fun e0 => by rw [e0] at hrG; exact lt_irrefl _ hrG
        rcases hstop G hPG with hl | ⟨hroot, hty⟩
        · left
          rw [childrenOf_remove, if_neg hGc, hco G hGp]
          exact hl
        · right
          exact ⟨by rw [hpo1 G hGc, hroot], by rw [hxt]; exact hty⟩)
      (show 2 ≤ fuel by omega)
    refine ⟨h2, _, h1, actor, xp, ?_, hP2, hPpar, epre, hxp1, ?_, hlow, ?_, hx2,
      hnone c (by rw [get_remove, if_pos rfl])⟩
    · unfold onWindowRemovedTiling
      simp only [hw, e, hret, hg1r, hc1]
      have hcollapse : (if g1.ephemeral = true then some true
          else nodeIsCollapsible env (r.layout.remove c) x) = some true := by
        rcases hcol with he | ⟨hpol, hty⟩
        · rw [if_pos (hfl.trans he)]
        · by_cases he : g1.ephemeral = true
          · rw [if_pos he]
          · rw [if_neg he]
            unfold nodeIsCollapsible
            simp [hx1, hxt, hty, hpol]
      simp only [hcollapse]
      exact esw
    · show xn1.data.moved.moved = xp.data.moved
      rw [Hy3NodeData.data_moved_moved, hxd]
    · intro hne
      obtain ⟨f, rfl⟩ : ∃ f, fuel = f + 1 := ⟨fuel - 1, by omega⟩
      rw [removePrelude_not_expanded hcn hp hcd hg hne] at epre
      simp only [Option.some.injEq, Prod.mk.injEq] at epre
      rw [← epre.1, hx] at hxp1
      exact (Option.some.inj hxp1).symm

/-! ## C22, C23, C24: collapsing groups when a window is removed -/

theorem filter_ne_of_length_two {cs : List Nat} {c x : Nat} (hnd : cs.Nodup)
    (hl : cs.length = 2) (hc : c ∈ cs) (hx : x ∈ cs) (hxc : x ≠ c) :
    cs.filter (fun s => s ≠ c) = [x] := by
  match cs, hl with
  | [a, b], _ =>
    simp only [List.nodup_cons, List.mem_singleton, List.not_mem_nil, not_false_eq_true,
      List.nodup_nil, and_true] at hnd
    simp only [List.mem_cons, List.mem_singleton, List.not_mem_nil, or_false] at hc hx
    rcases hc with rfl | rfl <;> rcases hx with rfl | rfl
    · exact absurd rfl hxc
    · simp [List.filter, hxc]
    · simp [List.filter, hxc]
    · exact absurd rfl hxc

/-- C22 (counterexample): the root 0 of `exRootEphemeral` is an ephemeral group with exactly the
two windows 1 and 2; after the window of node 2 is removed, node 0 is still a group, with the
single child 1, and node 1 is still in the store. And where the group is collapsed, its node
need not hold the remaining child's payload as it was: in `exLatched true` the ephemeral group 1
(latched) holds the group 2, whose `expand_focused` is `Stack`, and the window 3; after the
window of node 3 is removed, node 1 holds the children of 2 with `expand_focused` reset to
`NotExpanded`. -/
theorem onWindowRemovedTiling_ephemeral_root_counterexample :
    ((∃ g, exRootEphemeral.group 0 = some g ∧ g.ephemeral = true ∧ g.children = [1, 2]) ∧
    ∃ h', onWindowRemovedTiling exEnv 10 exRootEphemeral 102 = some h' ∧
      (h'.get 0).map (fun n => n.data.type) = some Hy3NodeType.Group ∧
      h'.childrenOf 0 = [1] ∧ (h'.get 1).isSome = true) ∧
    (∃ g, (exLatched true).group 1 = some g ∧ g.ephemeral = true ∧ g.children = [2, 3]) ∧
    ((exLatched true).group 2).map Hy3GroupData.expand_focused = some ExpandFocusType.Stack ∧
    ∃ h', onWindowRemovedTiling exEnv 10 (exLatched true) 103 = some h' ∧
      h'.childrenOf 1 = [4, 5] ∧ h'.get 2 = none ∧
      (h'.group 1).map Hy3GroupData.expand_focused = some ExpandFocusType.NotExpanded :=
  ⟨⟨⟨_, rfl, rfl, rfl⟩, _, rfl, by decide, by decide, by decide⟩,
    ⟨_, rfl, rfl, rfl⟩, rfl, _, rfl, by decide, by decide, by decide⟩

/-- C22 (amended): in a well-formed acyclic store, let `E` be an ephemeral group with exactly two
children, the window node `c` (of window `w`) and `x`. If `E` has a parent or `x` is a group
(the root guard of `swallowGroups` does not apply), and the parent of `E`, if any, has another
child or is a root while `x` is a window (the cascade stops there), then
`onWindowRemovedTiling(w)` returns, and afterwards the node `E`, with its parent pointer
unchanged, holds the payload that `x` has once the `collapseExpansions` call at the start of
the removal has run (`removePrelude`), the flags `ephemeral` and `containment` apart: that is
the payload of `x` itself, or the payload of `x` with `expand_focused` reset to `NotExpanded`,
and it is the payload of `x` itself when `E` has no active expansion. The nodes `x` and `c` are
gone. -/
theorem onWindowRemovedTiling_ephemeral_collapse {h : Hy3Layout} (ok : StoreOK h)
    (wf : WellFormed h) {rank : Nat → Nat} {B : Nat} (rk : RankedBy h rank B) (ei : ExpandInv h)
    (env : Env) {w c E x : Nat} {g : Hy3GroupData} {xn : Hy3Node}
    (hw : getNodeFromWindow h (some w) = some c)
    (hEc : h.parentOf c = some (some E)) (hg : h.group E = some g)
    (heph : g.ephemeral = true) (hlen : g.children.length = 2)
    (hxm : x ∈ g.children) (hxc : x ≠ c) (hx : h.get x = some xn)
    (hguard : h.parentOf E ≠ some none ∨ xn.data.type = Hy3NodeType.Group)
    (hstop : ∀ G, h.parentOf E = some (some G) → (h.childrenOf G).length ≠ 1 ∨
      (h.parentOf G = some none ∧ xn.data.type ≠ Hy3NodeType.Group)) :
    ∃ N, ∀ fuel, N ≤ fuel →
      ∃ h' m h1 actor xn1, onWindowRemovedTiling env fuel h w = some h' ∧
        h'.get E = some m ∧ h.parentOf E = some m.parent ∧
        removePrelude fuel h c = some (h1, actor) ∧ h1.get x = some xn1 ∧
        m.data.moved = xn1.data.moved ∧ (xn1 = xn ∨ xn1 = xn.noExpand) ∧
        (g.expand_focused = ExpandFocusType.NotExpanded → xn1 = xn) ∧
        h'.get x = none ∧ h'.get c = none := by
  have hcm : c ∈ g.children := by
    rw [← childrenOf_of_group_eq hg]
    exact wf.mem_of_parent hEc
  have hnd : g.children.Nodup := by
    rw [← childrenOf_of_group_eq hg]
    exact wf.children_nodup E
  exact ⟨2 * B + 3, fun fuel hf =>
    onWindowRemovedTiling_collapse ok wf rk ei env hw hEc hg
      (filter_ne_of_length_two hnd hlen hcm hxm hxc) hx (Or.inl heph) hguard hstop
      (show 2 * B + 2 < fuel by omega)⟩

theorem onWindowRemovedTiling_ephemeral_collapse_witness :
    (∃ N, ∀ fuel, N ≤ fuel →
      ∃ h' m h1 actor xn1, onWindowRemovedTiling exEnv fuel (exLatched true) 103 = some h' ∧
        h'.get 1 = some m ∧ (exLatched true).parentOf 1 = some m.parent ∧
        removePrelude fuel (exLatched true) 3 = some (h1, actor) ∧ h1.get 2 = some xn1 ∧
        m.data.moved = xn1.data.moved ∧
        (xn1 =
            { addr := 2, parent := some 1, workspace := some 0,
              data := Hy3NodeData.group
                { layout := Hy3GroupLayout.SplitV,
                  previous_nontab_layout := Hy3GroupLayout.SplitV,
                  children := [4, 5], group_focused := false, focused_child := some 4,
                  expand_focused := ExpandFocusType.Stack } } ∨
          xn1 = Hy3Node.noExpand
            { addr := 2, parent := some 1, workspace := some 0,
              data := Hy3NodeData.group
                { layout := Hy3GroupLayout.SplitV,
                  previous_nontab_layout := Hy3GroupLayout.SplitV,
                  children := [4, 5], group_focused := false, focused_child := some 4,
                  expand_focused := ExpandFocusType.Stack } }) ∧
        (ExpandFocusType.Latch = ExpandFocusType.NotExpanded → xn1 =
            { addr := 2, parent := some 1, workspace := some 0,
              data := Hy3NodeData.group
                { layout := Hy3GroupLayout.SplitV,
                  previous_nontab_layout := Hy3GroupLayout.SplitV,
                  children := [4, 5], group_focused := false, focused_child := some 4,
                  expand_focused := ExpandFocusType.Stack } }) ∧
        h'.get 2 = none ∧ h'.get 3 = none) ∧
    ∃ h', onWindowRemovedTiling exEnv 10 (exLatched true) 103 = some h' ∧
      (h'.get 1).map Hy3Node.data = some (Hy3NodeData.group
        { layout := Hy3GroupLayout.SplitV, previous_nontab_layout := Hy3GroupLayout.SplitV,
          children := [4, 5], group_focused := false, focused_child := some 4 }) :=
  ⟨@onWindowRemovedTiling_ephemeral_collapse (exLatched true)
    (by unfold StoreOK; decide) (wellFormed_of_check (by decide)) id 6
    (rankedBy_of_check (by decide)) (expandInv_of_check (by decide)) exEnv 103 3 1 2 _ _
    rfl rfl rfl rfl rfl (by decide) (by decide) rfl (Or.inl (by decide))
    (fun G hG => Or.inl (by
      have : G = 0 := by
        have h1 : (exLatched true).parentOf 1 = some (some 0) := rfl
        rw [h1] at hG
        simpa using hG.symm
      subst this
      decide)),
    _, rfl, by decide⟩

/-- C23 (counterexample): with `node_collapse_policy == 0`, the group 1 of `exNested` is neither
ephemeral nor a root; removing the window of node 3 leaves it the single child 2, a window, and
group 1 is not collapsed: it is still a group with the child list [2], and node 2 is still in
the store. And where the group is collapsed, its node need not take the child's payload as it
was: in `exLatched false` the group 1 (not ephemeral, latched) holds the group 2, whose
`expand_focused` is `Stack`, and the window 3; after the window of node 3 is removed, node 1
holds the children of 2 with `expand_focused` reset to `NotExpanded`. -/
theorem onWindowRemovedTiling_policy_always_counterexample :
    (exEnv.node_collapse_policy = 0 ∧
    (∃ g, exNested.group 1 = some g ∧ g.ephemeral = false ∧ g.children = [2, 3]) ∧
    exNested.parentOf 1 = some (some 0) ∧
    ∃ h', onWindowRemovedTiling exEnv 10 exNested 103 = some h' ∧
      (h'.get 1).map (fun n => n.data.type) = some Hy3NodeType.Group ∧
      h'.childrenOf 1 = [2] ∧ (h'.get 2).isSome = true) ∧
    (∃ g, (exLatched false).group 1 = some g ∧ g.ephemeral = false ∧ g.children = [2, 3]) ∧
    ((exLatched false).group 2).map Hy3GroupData.expand_focused = some ExpandFocusType.Stack ∧
    ∃ h', onWindowRemovedTiling exEnv 10 (exLatched false) 103 = some h' ∧
      h'.childrenOf 1 = [4, 5] ∧ h'.get 2 = none ∧
      (h'.group 1).map Hy3GroupData.expand_focused = some ExpandFocusType.NotExpanded :=
  ⟨⟨rfl, ⟨_, rfl, rfl, rfl⟩, rfl, _, rfl, by decide, by decide, by decide⟩,
    ⟨_, rfl, rfl, rfl⟩, rfl, _, rfl, by decide, by decide, by decide⟩

/-- C23 (amended): with `node_collapse_policy == 0`, in a well-formed acyclic store, when
removing the window node `c` (of window `w`) leaves a group `P`, ephemeral or not, with exactly
one remaining child `x` and `x` is itself a group, and the parent of `P`, if any, has another child
(the cascade stops there), `onWindowRemovedTiling(w)` returns and collapses `P` into `x`: the
node `P`, with its parent pointer unchanged, holds the payload that `x` has once the
`collapseExpansions` call at the start of the removal has run (`removePrelude`), the flags
`ephemeral` and `containment` apart: that is the payload of `x` itself, or the payload of `x`
with `expand_focused` reset to `NotExpanded`, and it is the payload of `x` itself when `P` has
no active expansion. The nodes `x` and `c` are gone. -/
theorem onWindowRemovedTiling_policy_always {h : Hy3Layout} (ok : StoreOK h)
    (wf : WellFormed h) {rank : Nat → Nat} {B : Nat} (rk : RankedBy h rank B) (ei : ExpandInv h)
    (env : Env) (hpol : env.node_collapse_policy = 0) {w c P x : Nat} {g : Hy3GroupData}
    {xn : Hy3Node} (hw : getNodeFromWindow h (some w) = some c)
    (hPc : h.parentOf c = some (some P)) (hg : h.group P = some g)
    (hcx : g.children.filter (fun s => s ≠ c) = [x])
    (hx : h.get x = some xn) (hxg : xn.data.type = Hy3NodeType.Group)
    (hstop : ∀ G, h.parentOf P = some (some G) → (h.childrenOf G).length ≠ 1) :
    ∃ N, ∀ fuel, N ≤ fuel →
      ∃ h' m h1 actor xn1, onWindowRemovedTiling env fuel h w = some h' ∧
        h'.get P = some m ∧ h.parentOf P = some m.parent ∧
        removePrelude fuel h c = some (h1, actor) ∧ h1.get x = some xn1 ∧
        m.data.moved = xn1.data.moved ∧ (xn1 = xn ∨ xn1 = xn.noExpand) ∧
        (g.expand_focused = ExpandFocusType.NotExpanded → xn1 = xn) ∧
        h'.get x = none ∧ h'.get c = none :=
  ⟨2 * B + 3, fun fuel hf =>
    onWindowRemovedTiling_collapse ok wf rk ei env hw hPc hg hcx hx (Or.inr ⟨hpol, hxg⟩)
      (Or.inr hxg) (fun G hG => Or.inl (hstop G hG)) (show 2 * B + 2 < fuel by omega)⟩

theorem onWindowRemovedTiling_policy_always_witness :
    (∃ N, ∀ fuel, N ≤ fuel →
      ∃ h' m h1 actor xn1, onWindowRemovedTiling exEnv fuel exNestedGroup 104 = some h' ∧
        h'.get 1 = some m ∧ exNestedGroup.parentOf 1 = some m.parent ∧
        removePrelude fuel exNestedGroup 4 = some (h1, actor) ∧ h1.get 2 = some xn1 ∧
        m.data.moved = xn1.data.moved ∧
        (xn1 =
            { addr := 2, parent := some 1, workspace := some 0,
              data := Hy3NodeData.group
                { children := [3, 6], group_focused := false, focused_child := some 3 } } ∨
          xn1 = Hy3Node.noExpand
            { addr := 2, parent := some 1, workspace := some 0,
              data := Hy3NodeData.group
                { children := [3, 6], group_focused := false, focused_child := some 3 } }) ∧
        (ExpandFocusType.NotExpanded = ExpandFocusType.NotExpanded → xn1 =
            { addr := 2, parent := some 1, workspace := some 0,
              data := Hy3NodeData.group
                { children := [3, 6], group_focused := false, focused_child := some 3 } }) ∧
        h'.get 2 = none ∧ h'.get 4 = none) ∧
    ∃ h', onWindowRemovedTiling exEnv 10 exNestedGroup 104 = some h' ∧
      (h'.get 1).map Hy3Node.data = some (Hy3NodeData.group
        { children := [3, 6], group_focused := false, focused_child := some 3 }) :=
  ⟨@onWindowRemovedTiling_policy_always exNestedGroup
    (by unfold StoreOK; decide) (wellFormed_of_check (by decide)) id 6
    (rankedBy_of_check (by decide)) (expandInv_of_check (by decide)) exEnv rfl 104 4 1 2 _ _
    rfl rfl rfl rfl rfl rfl
    (fun G hG => by
      have : G = 0 := by
        have h1 : exNestedGroup.parentOf 1 = some (some 0) := rfl
        rw [h1] at hG
        simpa using hG.symm
      subst this
      decide),
    _, rfl, by decide⟩

/-- C24 (evaluation): with `node_collapse_policy == 1`, the group 1 of `exCascade` is not
ephemeral and holds the ephemeral group 2 (windows 3 and 4). Removing the window of node 4
collapses group 2 and then, in the same loop, group 1: node 1 ends up as the window 103 and
node 2 is gone, although group 1 still had its child after the removal. -/
theorem onWindowRemovedTiling_never_collapses_cascade :
    exEnvNever.node_collapse_policy = 1 ∧
    (∃ g, exCascade.group 1 = some g ∧ g.ephemeral = false ∧ g.children = [2]) ∧
    ∃ h', onWindowRemovedTiling exEnvNever 10 exCascade 104 = some h' ∧
      (h'.get 1).map Hy3Node.data = some (Hy3NodeData.window (some 103)) ∧
      h'.get 2 = none ∧ h'.childrenOf 0 = [1, 5] :=
  ⟨rfl, ⟨_, rfl, rfl, rfl⟩, _, rfl, by decide, by decide, by decide⟩


/-! ## insertNode up to the autotile step -/

/-- The steps of `insertNode` before the autotile heuristic (lines 112-235), when the workspace
has a root whose focused node `a` is not the root itself: the anchor is `a` and the target group
is the parent `p` of `a`. -/
theorem insertNode_to_autotile {env : Env} {h : Hy3Layout} (ok : StoreOK h)
    (wf : WellFormed h) {rank : Nat → Nat} {B : Nat} (rk : RankedBy h rank B) (fi : FocusInv h)
    {node : Nat} {nn : Hy3Node} (hn : h.get node = some nn) (hp : nn.parent = none)
    (hv : env.validWorkspace nn.workspace = true) {root a : Nat}
    (hr : getWorkspaceRootGroup (h.modify node fun n => { n with reparenting := true })
      nn.workspace = some root) {fuel : Nat}
    (hfa : getFocusedNode fuel h root false false = some (some a)) (hne : a ≠ root)
    (hrep : (h.get a).map Hy3Node.reparenting = some false)
    (hf : B + 2 < fuel) :
    ∃ p an, h.parentOf a = some (some p) ∧ h.get a = some an ∧ a ≠ node ∧ p ≠ node ∧
      ¬ InSubtree h node a ∧ ¬ InSubtree h node p ∧ a ∈ h.childrenOf p ∧
      insertNode env fuel h node =
        match autotile env (h.modify node fun n => { n with reparenting := true }) p
            (some a) with
        | none => none
        | some (h3, opening_into, opening_after) =>
          match attach (h3.modify node fun n =>
              { n with parent := some opening_into, reparenting := false })
              opening_into node opening_after with
          | none => none
          | some h5 => markFocused fuel h5 node := by
  have w := (wellFormed_iff h).mp wf
  have hx : h.parentOf node = some none := by simp [Hy3Layout.parentOf, hn, hp]
  have ok0 : StoreOK (h.modify node fun n => { n with reparenting := true }) :=
    ok.of_addrs (addrs_modify _ _ _) (le_refl _)
  have hp0 : ∀ x, (h.modify node fun n => { n with reparenting := true }).parentOf x
      = h.parentOf x :=
    fun x => parentOf_modify_of h node x (fun n => { n with reparenting := true })
      (by intro _; rfl)
  have hc0 : ∀ x, (h.modify node fun n => { n with reparenting := true }).childrenOf x
      = h.childrenOf x :=
    fun x => childrenOf_modify_of h node x (fun n => { n with reparenting := true })
      (by intro _; rfl)
  have wf0 : WellFormed (h.modify node fun n => { n with reparenting := true }) :=
    wf.congr hp0 hc0
  have rk0 : RankedBy (h.modify node fun n => { n with reparenting := true }) rank B :=
    rk.congr_rank hp0
  have hn0 := get_modify_eq (fun n : Hy3Node => { n with reparenting := true }) hn
  obtain ⟨rn, hrn, hrp, hrr, _⟩ := getWorkspaceRootGroup_spec ok0 hr
  have hrootne : root ≠ node := by
    intro e
    rw [e, hn0] at hrn
    cases hrn
    cases hrr
  have hrootpar : h.parentOf root = some none := by
    rw [← hp0]
    exact parentOf_eq_some.mpr ⟨rn, hrn, hrp⟩
  have hd0 : ∀ x, ((h.modify node fun n => { n with reparenting := true }).get x).map
      Hy3Node.data = (h.get x).map Hy3Node.data := by
    intro x
    rw [get_modify]
    split
    · cases h.get x <;> rfl
    · rfl
  have hfa0 := (getFocusedNode_congr hd0 false false fuel root).trans hfa
  have hsub : InSubtree h root a := getFocusedNode_inSubtree fi fuel root a hfa
  obtain ⟨p, hps, hm⟩ : ∃ p, InSubtree h root p ∧ a ∈ h.childrenOf p := by
    rcases hsub.cases_tail with e | hh
    · exact absurd e hne
    · exact hh
  have hpa : h.parentOf a = some (some p) := w.2 p a hm
  have han : a ≠ node := by
    intro e
    rw [e, hx] at hpa
    cases hpa
  have hnot : ¬ InSubtree h node a := fun hs =>
    hrootne (inSubtree_root_unique wf rk hrootpar hx (rank a) a (le_refl _) hsub hs)
  have hnotp : ¬ InSubtree h node p := fun hs => hnot (hs.tail hm)
  have hpn : p ≠ node := fun e => hnotp (e ▸ InSubtree.self _)
  obtain ⟨an, han1, hanp⟩ := parentOf_eq_some.mp hpa
  have ha0 : (h.modify node fun n => { n with reparenting := true }).get a = some an := by
    rw [get_modify_ne _ han]; exact han1
  have hanr : an.reparenting = false := by
    rw [han1] at hrep
    simpa using hrep
  have e1 : openingAfterFromRoot fuel (h.modify node fun n => { n with reparenting := true })
      nn.workspace = some (h.modify node fun n => { n with reparenting := true }, some a) := by
    unfold openingAfterFromRoot
    simp only [hr, hfa0]
    rw [if_neg (fun e => hne (Option.some.inj e))]
  obtain ⟨ps, hca, _, _⟩ := ancestorChain_exists wf0 rk0 (rank a) a (le_refl _)
    (by rw [ha0]; rfl)
  have hlen := AncestorChain.length_le_rank rk0 hca
  have hra := (rk a an han1).1
  have hnps : node ∉ ps := fun hmem =>
    hnot ((AncestorChain.inSubtree wf0 hca node hmem).congr_sub (fun y => (hc0 y).symm))
  have e2 : anchorUsable fuel (h.modify node fun n => { n with reparenting := true }) node
      (some a) = some (some a) := by
    unfold anchorUsable
    simp only [hn0, ha0]
    have hb : (if nn.data.type = Hy3NodeType.Group then
        (if a = node then some true
         else hasChild fuel (h.modify node fun n => { n with reparenting := true }) node
          (some a))
        else some false) = some false := by
      by_cases ht : nn.data.type = Hy3NodeType.Group
      · rw [if_pos ht, if_neg han]
        unfold hasChild
        rw [hn0]
        simp only
        cases hdn : nn.data with
        | window w => rfl
        | group gg =>
          simp only
          exact hasChildLoop_false hca hnps fuel (by omega)
      · rw [if_neg ht]
    simp only [hb, hanr, Bool.or_self, Bool.false_eq_true, if_false]
  have e3 : openingInto env (h.modify node fun n => { n with reparenting := true })
      nn.workspace (some a)
      = some (h.modify node fun n => { n with reparenting := true }, some p) := by
    unfold openingInto
    simp only [ha0, hanp]
  obtain ⟨g, hg⟩ := Option.isSome_iff_exists.mp (wf0.parent_group ha0 hanp)
  obtain ⟨pn, hpn0, hpd⟩ := group_eq_some hg
  refine ⟨p, an, hpa, han1, han, hpn, hnot, hnotp, hm, ?_⟩
  unfold insertNode
  simp only [hn]
  rw [if_neg (not_not.mpr hp), if_neg (by rw [hv]; simp)]
  simp only [e1, e2, e3, hpn0, hpd]


theorem insertAfter_length : ∀ (cs : List Nat) (a node : Nat) (r : List Nat),
    insertAfter cs a node = some r → r.length = cs.length + 1 := fun cs a node r e =>
  (insertAfter_perm cs a node r e).length_eq

/-- Lines 268-288 of `insertNode`, from a store `h3` in which `node` is parentless: the node is
spliced after `a` into the child list of `oi` and marked focused. -/
theorem insertNode_attach_after {h3 : Hy3Layout} (ok : StoreOK h3) (wf : WellFormed h3)
    (fi : FocusInv h3) {rank : Nat → Nat} {B : Nat} (rk : RankedBy h3 rank B)
    {oi node a : Nat} {g : Hy3GroupData} (hx : h3.parentOf node = some none)
    (hoi : rank oi < rank node) (hg : h3.group oi = some g) (hm : a ∈ g.children)
    {fuel : Nat} (hf : 2 * B < fuel) :
    ∃ cs h', insertAfter g.children a node = some cs ∧
      (match attach (h3.modify node fun n =>
          { n with parent := some oi, reparenting := false }) oi node (some a) with
        | none => none
        | some h5 => markFocused fuel h5 node) = some h' ∧
      h'.childrenOf oi = cs ∧ h'.parentOf node = some (some oi) ∧
      (∀ x, x ≠ oi → h'.childrenOf x = h3.childrenOf x) ∧
      (∀ x, x ≠ node → h'.parentOf x = h3.parentOf x) ∧
      (∀ x, (h'.get x).isSome = (h3.get x).isSome) ∧
      (∀ x, (h'.group x).map Hy3GroupData.layout = (h3.group x).map Hy3GroupData.layout) ∧
      (∀ x, x ≠ node → x ≠ oi → (h'.get x).map (Hy3Node.mapGroup Hy3GroupData.noFocus) =
        (h3.get x).map (Hy3Node.mapGroup Hy3GroupData.noFocus)) := by
  obtain ⟨nn, hnn, -⟩ := parentOf_eq_some.mp hx
  have hg4 : (h3.modify node fun n =>
      { n with parent := some oi, reparenting := false }).group oi = some g := by
    rw [group_modify_of _ _ _ _ (by intro _; rfl)]
    exact hg
  obtain ⟨cs, hcs⟩ := insertAfter_of_mem node g.children a hm
  have e5 : attach (h3.modify node fun n =>
      { n with parent := some oi, reparenting := false }) oi node (some a)
      = some ((h3.modify node fun n =>
        { n with parent := some oi, reparenting := false }).modifyGroup oi fun g =>
          { g with children := cs }) := by
    unfold attach
    simp only [hg4, hcs]
  obtain ⟨h', e6, s⟩ := insertNode_tail ok wf fi rk hx hoi e5 hf
  refine ⟨cs, h', hcs, by rw [e5]; exact e6, ?_, ?_, fun x hxp => ?_, fun x hxn => ?_,
    fun x => ?_, fun x => ?_, fun x hxn hxo => ?_⟩
  · rw [s.focus_childrenOf, childrenOf_modifyGroup, if_pos rfl, hg4]
    rfl
  · rw [s.focus_parentOf, parentOf_modifyGroup]
    unfold Hy3Layout.parentOf
    rw [get_modify_same, hnn]
    rfl
  · rw [s.focus_childrenOf, childrenOf_modifyGroup, if_neg hxp,
      childrenOf_modify_of _ _ _ _ (by intro _; rfl)]
  · rw [s.focus_parentOf, parentOf_modifyGroup]
    unfold Hy3Layout.parentOf
    rw [get_modify_ne _ hxn]
  · rw [s.focus_isSome, get_modifyGroup_isSome, get_modify_isSome]
  · rw [s.focus_layout, group_modifyGroup]
    split
    · rename_i hxo
      rw [group_modify_of _ _ _ _ (by intro _; rfl)]
      cases h3.group x <;> rfl
    · rw [group_modify_of _ _ _ _ (by intro _; rfl)]
  · rw [s.2.2 x, get_modifyGroup_ne _ hxo, get_modify_ne _ hxn]


theorem autotile_enabled {env : Env} {h : Hy3Layout} {p a : Nat} {pn : Hy3Node}
    {g : Hy3GroupData} (hpn : h.get p = some pn) (hpd : pn.data = Hy3NodeData.group g)
    (hat : env.at_enable ≠ 0) (hlen : 2 ≤ g.children.length)
    (hlay : g.layout ≠ Hy3GroupLayout.Tabbed)
    (hws : env.shouldAutotileWorkspace pn.workspace = true) :
    autotile env h p (some a) =
      if 0 ≤ autotileTrigger env g ∧ (autotileTrigger env g = 0 ∨
          autotileExtent env p g / ((g.children.length : ℚ) + 1)
            < (autotileTrigger env g : ℚ)) then
        match intoGroup h a (autotileLayout g)
            (if env.at_ephemeral ≠ 0 then GroupEphemeralityOption.Ephemeral
             else GroupEphemeralityOption.Standard) with
        | none => none
        | some (h1, a1) => some (h1, a, some a1)
      else some (h, p, some a) := by
  unfold autotile autotileTrigger autotileExtent autotileLayout
  simp only [hpn, hpd]
  have hc : env.at_enable ≠ 0 ∧ g.children.length > 1 ∧ g.layout ≠ Hy3GroupLayout.Tabbed
      ∧ env.shouldAutotileWorkspace pn.workspace = true := ⟨hat, by omega, hlay, hws⟩
  rw [if_pos hc]
  by_cases hh : g.layout = Hy3GroupLayout.SplitH
  · simp only [hh, decide_True, if_true, ge_iff_le]
  · simp only [hh, decide_False, Bool.false_eq_true, if_false, ge_iff_le]

theorem reparenting_frame {h : Hy3Layout} (ok : StoreOK h) (wf : WellFormed h)
    {rank : Nat → Nat} {B : Nat} (rk : RankedBy h rank B) (fi : FocusInv h) (node : Nat) :
    StoreOK (h.modify node fun n => { n with reparenting := true }) ∧
    WellFormed (h.modify node fun n => { n with reparenting := true }) ∧
    RankedBy (h.modify node fun n => { n with reparenting := true }) rank B ∧
    FocusInv (h.modify node fun n => { n with reparenting := true }) ∧
    (∀ x, (h.modify node fun n => { n with reparenting := true }).parentOf x = h.parentOf x) ∧
    (∀ x, (h.modify node fun n => { n with reparenting := true }).childrenOf x
      = h.childrenOf x) ∧
    (∀ x, (h.modify node fun n => { n with reparenting := true }).group x = h.group x) ∧
    (h.modify node fun n => { n with reparenting := true }).next = h.next := by
  have hp0 : ∀ x, (h.modify node fun n => { n with reparenting := true }).parentOf x
      = h.parentOf x :=
    fun x => parentOf_modify_of h node x (fun n => { n with reparenting := true })
      (by intro _; rfl)
  have hc0 : ∀ x, (h.modify node fun n => { n with reparenting := true }).childrenOf x
      = h.childrenOf x :=
    fun x => childrenOf_modify_of h node x (fun n => { n with reparenting := true })
      (by intro _; rfl)
  exact ⟨ok.of_addrs (addrs_modify _ _ _) (le_refl _), wf.congr hp0 hc0, rk.congr_rank hp0,
    fi.modify_of node _ (by intro _; rfl), hp0, hc0,
    fun x => group_modify_of _ _ _ _ (by intro _; rfl), rfl⟩


/-- The two outcomes of the autotile step of `insertNode` for a fixed fuel. -/
theorem insertNode_autotile_cases {env : Env} {h : Hy3Layout} (ok : StoreOK h)
    (wf : WellFormed h) {rank : Nat → Nat} {B : Nat} (rk : RankedBy h rank B) (fi : FocusInv h)
    {node : Nat} {nn : Hy3Node} (hn : h.get node = some nn) (hp : nn.parent = none)
    (hv : env.validWorkspace nn.workspace = true) {root a : Nat}
    (hr : getWorkspaceRootGroup (h.modify node fun n => { n with reparenting := true })
      nn.workspace = some root) {fuel : Nat}
    (hfa : getFocusedNode fuel h root false false = some (some a)) (hne : a ≠ root)
    (hrep : (h.get a).map Hy3Node.reparenting = some false)
    (hat : env.at_enable ≠ 0) {G : Nat} {Gn : Hy3Node} {g : Hy3GroupData}
    (hpa : h.parentOf a = some (some G)) (hG : h.get G = some Gn)
    (hGd : Gn.data = Hy3NodeData.group g) (hlen : 2 ≤ g.children.length)
    (hlay : g.layout ≠ Hy3GroupLayout.Tabbed)
    (hws : env.shouldAutotileWorkspace Gn.workspace = true)
    (hf : 8 * B + 8 < fuel) :
    ((autotileTrigger env g = 0 ∨ (0 < autotileTrigger env g ∧
        autotileExtent env G g / ((g.children.length : ℚ) + 1)
          < (autotileTrigger env g : ℚ))) →
      ∃ h' an m, insertNode env fuel h node = some h' ∧ h.get a = some an ∧
        h'.childrenOf a = [h.next, node] ∧
        (h'.group a).map Hy3GroupData.layout = some (autotileLayout g) ∧
        h'.childrenOf G = g.children ∧ h'.parentOf node = some (some a) ∧
        h'.get h.next = some m ∧
        m.mapGroup Hy3GroupData.noFocus =
          ({ addr := h.next, parent := some a, data := an.data.moved,
             workspace := an.workspace } : Hy3Node).mapGroup Hy3GroupData.noFocus) ∧
    (¬ (autotileTrigger env g = 0 ∨ (0 < autotileTrigger env g ∧
        autotileExtent env G g / ((g.children.length : ℚ) + 1)
          < (autotileTrigger env g : ℚ))) →
      ∃ h' cs, insertNode env fuel h node = some h' ∧
        insertAfter g.children a node = some cs ∧ h'.childrenOf G = cs ∧
        cs.length = g.children.length + 1 ∧ h'.parentOf node = some (some G) ∧
        h'.childrenOf a = h.childrenOf a ∧
        (h'.group a).map Hy3GroupData.layout = (h.group a).map Hy3GroupData.layout) := by
  obtain ⟨p, an, hpa', han1, han, hpn, hnot, hnotp, hm, eq⟩ :=
    insertNode_to_autotile ok wf rk fi hn hp hv hr hfa hne hrep (show B + 2 < fuel by omega)
  have hpG : p = G := by
    rw [hpa] at hpa'
    simpa using hpa'.symm
  subst hpG
  obtain ⟨ok0, wf0, rk0, fi0, hp0, hc0, hg0, hnext⟩ := reparenting_frame ok wf rk fi node
  have hG0 : (h.modify node fun n => { n with reparenting := true }).get p = some Gn := by
    rw [get_modify_ne _ hpn]; exact hG
  have ha0 : (h.modify node fun n => { n with reparenting := true }).get a = some an := by
    rw [get_modify_ne _ han]; exact han1
  have hgG : h.group p = some g := group_of_get hG hGd
  have hgG0 : (h.modify node fun n => { n with reparenting := true }).group p = some g := by
    rw [hg0]; exact hgG
  have hmg : a ∈ g.children := by rw [← childrenOf_of_group_eq hgG]; exact hm
  have hx0 : (h.modify node fun n => { n with reparenting := true }).parentOf node
      = some none := by
    rw [hp0]; simp [Hy3Layout.parentOf, hn, hp]
  have e_auto := autotile_enabled (a := a) hG0 hGd hat hlen hlay hws
  obtain ⟨rank2, rk2, hlift⟩ := rank_lift wf0 rk0 node
  have hrG : rank2 p < rank2 node :=
    hlift p (by rw [hG0]; rfl) (fun hs => hnotp (hs.congr_sub (fun y => (hc0 y).symm)))
  have hra : rank2 a < rank2 node :=
    hlift a (by rw [ha0]; rfl) (fun hs => hnot (hs.congr_sub (fun y => (hc0 y).symm)))
  have hcond : (0 ≤ autotileTrigger env g ∧ (autotileTrigger env g = 0 ∨
      autotileExtent env p g / ((g.children.length : ℚ) + 1)
        < (autotileTrigger env g : ℚ))) ↔
      (autotileTrigger env g = 0 ∨ (0 < autotileTrigger env g ∧
        autotileExtent env p g / ((g.children.length : ℚ) + 1)
          < (autotileTrigger env g : ℚ))) := by
    constructor
    · rintro ⟨h0le, h1 | h1⟩
      · exact Or.inl h1
      · by_cases h2 : autotileTrigger env g = 0
        · exact Or.inl h2
        · exact Or.inr ⟨lt_of_le_of_ne h0le (Ne.symm h2), h1⟩
    · rintro (h1 | ⟨h1, h2⟩)
      · exact ⟨le_of_eq h1.symm, Or.inl h1⟩
      · exact ⟨le_of_lt h1, Or.inr h2⟩
  refine ⟨fun hc => ?_, fun hc => ?_⟩
  · rw [if_pos (hcond.mpr hc)] at e_auto
    obtain ⟨h1, e_into, -, -, gta, gtn, gto⟩ := intoGroup_spec
      (h.modify node fun n => { n with reparenting := true }) ok0 a an (autotileLayout g)
      (if env.at_ephemeral ≠ 0 then GroupEphemeralityOption.Ephemeral
       else GroupEphemeralityOption.Standard) ha0 (wf0.childrenInStore.of_get ha0)
    rw [hnext] at e_into gta gtn gto
    rw [e_into] at e_auto
    obtain ⟨ok1, wf1, hx1⟩ := autotile_preserves ok0 wf0 hx0 e_auto
    obtain ⟨rk3, fi1⟩ := intoGroup_inv ok0 wf0 rk2 fi0 e_into
    have halt : a < h.next := ok.lt_next han1
    have hnlt : node < h.next := ok.lt_next hn
    have hGlt : p < h.next := ok.lt_next hG
    have hoi : (fun x => if x = h.next then 2 * rank2 a + 1 else 2 * rank2 x) a
        < (fun x => if x = h.next then 2 * rank2 a + 1 else 2 * rank2 x) node := by
      simp only [if_neg (Nat.ne_of_lt halt), if_neg (Nat.ne_of_lt hnlt)]
      omega
    have hg1 : h1.group a = some (wrapperGroup (autotileLayout g)
        (if env.at_ephemeral ≠ 0 then GroupEphemeralityOption.Ephemeral
         else GroupEphemeralityOption.Standard) h.next) := group_of_get gta rfl
    obtain ⟨cs, h', hcs, e_tail, c1, c2, c3, -, -, c6, c7⟩ :=
      insertNode_attach_after ok1 wf1 fi1 rk3 hx1 hoi hg1
        (show h.next ∈ (wrapperGroup (autotileLayout g)
          (if env.at_ephemeral ≠ 0 then GroupEphemeralityOption.Ephemeral
           else GroupEphemeralityOption.Standard) h.next).children by simp [wrapperGroup])
        (show 2 * (2 * (2 * B + 1) + 1) < fuel by omega)
    have hcs' : cs = [h.next, node] := by
      simp [wrapperGroup, insertAfter] at hcs
      exact hcs.symm
    have hrGa : rank p < rank a := ((rankedBy_iff h rank B).mp rk).2 a p hpa
    have hGa : p ≠ a := fun e0 => by rw [e0] at hrGa; exact lt_irrefl _ hrGa
    have hG1 : h1.childrenOf p = g.children := by
      unfold Hy3Layout.childrenOf
      rw [gto p hGa (Nat.ne_of_lt hGlt), hG0]
      simp only [Option.map_some']
      split <;> simp [Hy3Node.children, hGd]
    have h7 := c7 h.next (Ne.symm (Nat.ne_of_lt hnlt)) (Ne.symm (Nat.ne_of_lt halt))
    rw [gtn] at h7
    obtain ⟨m, hm', hmeq⟩ := Option.map_eq_some'.mp h7
    refine ⟨h', an, m, ?_, han1, by rw [c1, hcs'], ?_, by rw [c3 p hGa, hG1], c2, hm', hmeq⟩
    · rw [eq, e_auto]
      exact e_tail
    · rw [c6, hg1]
      rfl
  · rw [if_neg (fun hh => hc (hcond.mp hh))] at e_auto
    obtain ⟨cs, h', hcs, e_tail, c1, c2, c3, -, -, c6, -⟩ :=
      insertNode_attach_after ok0 wf0 fi0 rk2 hx0 hrG hgG0 hmg
        (show 2 * (2 * B + 1) < fuel by omega)
    have hrGa : rank p < rank a := ((rankedBy_iff h rank B).mp rk).2 a p hpa
    have hGa : a ≠ p := fun e0 => by rw [e0] at hrGa; exact lt_irrefl _ hrGa
    refine ⟨h', cs, ?_, hcs, c1, insertAfter_length _ _ _ _ hcs, c2, ?_, ?_⟩
    · rw [eq, e_auto]
      exact e_tail
    · rw [c3 a hGa, hc0]
    · rw [c6, hg0]


/-! ## C29: the autotile trigger -/

/-- C29: with autotile enabled on an eligible workspace, an anchor `a` (the focused node of the
workspace root) in a non-tabbed target group `G` with `n >= 2` children, extent `S` along the
axis of `G` and trigger `t` for that axis, and every sufficiently large fuel: when `t == 0` or
(`t > 0` and `S / (n + 1) < t`), `insertNode` wraps the anchor: the node `a` becomes a group
with the layout perpendicular to that of `G` whose child list is [the new node holding the
former payload of `a`, `node`], and the child list of `G` is unchanged; otherwise `node` is
spliced into `G` after `a`, `G` has `n + 1` children and `a` keeps its child list and
layout. -/
theorem insertNode_autotile_trigger (env : Env) (h : Hy3Layout) (ok : StoreOK h)
    (wf : WellFormed h) (ac : Acyclic h) (fi : FocusInv h) (node : Nat) (nn : Hy3Node)
    (hn : h.get node = some nn) (hp : nn.parent = none)
    (hv : env.validWorkspace nn.workspace = true) (hat : env.at_enable ≠ 0) :
    ∃ N, ∀ fuel, N ≤ fuel → ∀ (root a G : Nat) (Gn : Hy3Node) (g : Hy3GroupData),
      getWorkspaceRootGroup (h.modify node fun n => { n with reparenting := true })
        nn.workspace = some root →
      getFocusedNode fuel h root false false = some (some a) → a ≠ root →
      (h.get a).map Hy3Node.reparenting = some false →
      h.parentOf a = some (some G) → h.get G = some Gn → Gn.data = Hy3NodeData.group g →
      2 ≤ g.children.length → g.layout ≠ Hy3GroupLayout.Tabbed →
      env.shouldAutotileWorkspace Gn.workspace = true →
      ((autotileTrigger env g = 0 ∨ (0 < autotileTrigger env g ∧
          autotileExtent env G g / ((g.children.length : ℚ) + 1)
            < (autotileTrigger env g : ℚ))) →
        ∃ h' an m, insertNode env fuel h node = some h' ∧ h.get a = some an ∧
          h'.childrenOf a = [h.next, node] ∧
          (h'.group a).map Hy3GroupData.layout = some (autotileLayout g) ∧
          h'.childrenOf G = g.children ∧ h'.parentOf node = some (some a) ∧
          h'.get h.next = some m ∧
          m.mapGroup Hy3GroupData.noFocus =
            ({ addr := h.next, parent := some a, data := an.data.moved,
               workspace := an.workspace } : Hy3Node).mapGroup Hy3GroupData.noFocus) ∧
      (¬ (autotileTrigger env g = 0 ∨ (0 < autotileTrigger env g ∧
          autotileExtent env G g / ((g.children.length : ℚ) + 1)
            < (autotileTrigger env g : ℚ))) →
        ∃ h' cs, insertNode env fuel h node = some h' ∧
          insertAfter g.children a node = some cs ∧ h'.childrenOf G = cs ∧
          cs.length = g.children.length + 1 ∧ h'.parentOf node = some (some G) ∧
          h'.childrenOf a = h.childrenOf a ∧
          (h'.group a).map Hy3GroupData.layout = (h.group a).map Hy3GroupData.layout) := by
  obtain ⟨rank, B, rk⟩ := ac
  exact ⟨8 * B + 9, fun fuel hf root a G Gn g hr hfa hne hrep hpa hG hGd hlen hlay hws =>
    insertNode_autotile_cases ok wf rk fi hn hp hv hr hfa hne hrep hat hpa hG hGd hlen hlay
      hws (by omega)⟩

theorem insertNode_autotile_trigger_witness :
    ∃ N, ∀ fuel, N ≤ fuel → ∃ h', insertNode exEnvAuto fuel exDetached 4 = some h' ∧
      h'.childrenOf 2 = [5, 4] ∧
      (h'.group 2).map Hy3GroupData.layout = some Hy3GroupLayout.SplitH ∧
      h'.childrenOf 1 = [2, 3] ∧ h'.parentOf 4 = some (some 2) := by
  obtain ⟨N, hN⟩ := insertNode_autotile_trigger exEnvAuto exDetached
    (by unfold StoreOK; decide) (wellFormed_of_check (by decide))
    ⟨id, 4, rankedBy_of_check (by decide)⟩ (focusInv_of_check (by decide)) 4 _ rfl rfl rfl
    (by decide)
  refine ⟨N + 3, fun fuel hf => ?_⟩
  obtain ⟨f, rfl⟩ : ∃ f, fuel = f + 3 := ⟨fuel - 3, by omega⟩
  obtain ⟨h', an, m, e, -, c1, c2, c3, c4, -, -⟩ :=
    (hN (f + 3) (by omega) 0 2 1 _ _ (by decide) rfl (by decide) rfl rfl rfl rfl (by decide)
      (by decide) rfl).1 (Or.inl rfl)
  exact ⟨h', e, c1, c2, c3, c4⟩


/-! ## C28: a token with a numeric prefix is not skipped -/

/-- C28 (evaluation): parsing the option value "1 2x" gives the whitelist [1, 2]: the token "2x"
is not an integer, yet `std::stoi` reads 2 from it and workspace 2 is autotiled; and for "3x"
the whitelist is [3], so workspace 4 is not autotiled although the value lists no integer. -/
theorem updateAutotileWorkspaces_numeric_prefix :
    regexTokens "1 2x".toList = ["1".toList, "2x".toList] ∧
    stoi "2x".toList = some 2 ∧
    (updateAutotileWorkspaces {} "1 2x".toList).workspaces = [1, 2] ∧
    shouldAutotileWorkspace (updateAutotileWorkspaces {} "1 2x".toList) 2 = true ∧
    (updateAutotileWorkspaces {} "3x".toList).workspaces = [3] ∧
    shouldAutotileWorkspace (updateAutotileWorkspaces {} "3x".toList) 4 = false := by
  decide

/-! ## The focus query in the opposite direction -/

theorem shiftIsForward_reverse (d : ShiftDirection) :
    shiftIsForward (reverse d) = !shiftIsForward d := by
  cases d <;> rfl

theorem shiftMatchesLayout_reverse (l : Hy3GroupLayout) (d : ShiftDirection) :
    shiftMatchesLayout l (reverse d) = shiftMatchesLayout l d := by
  cases d <;> cases l <;> rfl

theorem queryDescend_succ (d : ShiftDirection) (v : Bool) (fuel : Nat) (h : Hy3Layout)
    (iter : Nat) :
    queryDescend d v (fuel + 1) h iter =
      match h.group iter with
      | none => none
      | some g =>
        if g.children = [] then some none
        else
          match g.children.get? (descendPick d false v g).1 with
          | none => none
          | some next => queryEnter d v fuel h next := by
  rw [queryDescend]
  unfold queryEnter
  rfl

theorem getFocusedNode_window {h : Hy3Layout} {x : Nat} {n : Hy3Node} {w : Option Nat}
    (hn : h.get x = some n) (hw : n.data = Hy3NodeData.window w) (i s : Bool) (fuel : Nat) :
    getFocusedNode (fuel + 1) h x i s = some (some x) := by
  simp [getFocusedNode, hn, hw]

theorem stopsDescent_iff_window {h : Hy3Layout}
    (noexp : ∀ x g, h.group x = some g → g.expand_focused = ExpandFocusType.NotExpanded)
    {x : Nat} {n : Hy3Node} (hn : h.get x = some n) :
    stopsDescent n = true ↔ ∃ w, n.data = Hy3NodeData.window w := by
  unfold stopsDescent
  cases hd : n.data with
  | window w => simp
  | group g =>
    have := noexp x g (group_of_get hn hd)
    simp [this]


theorem get?_zero_head? (cs : List Nat) : cs.get? 0 = cs.head? := by
  cases cs <;> rfl

theorem get?_last_getLast? (cs : List Nat) : cs.get? (cs.length - 1) = cs.getLast? := by
  rw [List.getLast?_eq_getElem?, List.get?_eq_getElem?]

/-- Where the break test passes a tab group, the group does not match. -/
theorem matches_not_tabbed {d : ShiftDirection} {v : Bool} {g : Hy3GroupData}
    (htab : g.layout = Hy3GroupLayout.Tabbed → v = true ∨ shiftIsVertical d = true)
    (hm : (shiftMatchesLayout g.layout d
      && (!v || g.layout != Hy3GroupLayout.Tabbed)) = true) :
    shiftMatchesLayout g.layout d = true ∧ (g.layout == Hy3GroupLayout.Tabbed) = false := by
  simp only [Bool.and_eq_true, Bool.or_eq_true, Bool.not_eq_true', bne_iff_ne, ne_eq] at hm
  refine ⟨hm.1, ?_⟩
  cases hl : g.layout == Hy3GroupLayout.Tabbed with
  | false => rfl
  | true =>
    have hl' : g.layout = Hy3GroupLayout.Tabbed := by simpa using hl
    rcases htab hl' with e | e
    · rcases hm.2 with e2 | e2
      · rw [e] at e2; cases e2
      · exact absurd hl' e2
    · have := hm.1
      rw [hl'] at this
      simp [shiftMatchesLayout, e] at this

theorem descendPick_of_matches {d : ShiftDirection} {v : Bool} {g : Hy3GroupData}
    (hm : shiftMatchesLayout g.layout d = true)
    (ht : (g.layout == Hy3GroupLayout.Tabbed) = false) :
    (descendPick d false v g).1 = if shiftIsForward d then 0 else g.children.length - 1 := by
  unfold descendPick
  cases g.focused_child <;> cases hf : shiftIsForward d <;> simp [hm, ht, hf]

theorem descendPick_of_focus {d : ShiftDirection} {v : Bool} {g : Hy3GroupData} {o : Nat}
    (hf : g.focused_child = some o)
    (hm : (shiftMatchesLayout g.layout d
      && (!v || g.layout != Hy3GroupLayout.Tabbed)) = false) :
    (descendPick d false v g).1 = g.children.indexOf o := by
  unfold descendPick
  simp only [hf]
  cases ht : g.layout == Hy3GroupLayout.Tabbed with
  | true => simp
  | false =>
    have : (g.layout != Hy3GroupLayout.Tabbed) = true := by simp [bne, ht]
    simp only [this, Bool.or_true, Bool.and_true] at hm
    simp [hm]

/-- The child that the descent picks does not break the climb in the opposite direction. -/
theorem breaksAt_reverse_of_pick {d : ShiftDirection} {v : Bool} {g : Hy3GroupData}
    (htab : g.layout = Hy3GroupLayout.Tabbed → v = true ∨ shiftIsVertical d = true)
    {next : Nat} (hp : g.children.get? (descendPick d false v g).1 = some next) :
    breaksAt (reverse d) v g next = some false := by
  unfold breaksAt
  rw [shiftMatchesLayout_reverse, shiftIsForward_reverse]
  by_cases hm : (shiftMatchesLayout g.layout d
      && (!v || g.layout != Hy3GroupLayout.Tabbed)) = true
  · rw [if_pos hm]
    obtain ⟨h1, h2⟩ := matches_not_tabbed htab hm
    rw [descendPick_of_matches h1 h2] at hp
    cases hf : shiftIsForward d with
    | true =>
      rw [hf, if_pos rfl, get?_zero_head?] at hp
      simp [hp]
    | false =>
      rw [hf] at hp
      simp only [Bool.false_eq_true, if_false] at hp
      rw [get?_last_getLast?] at hp
      simp [hp]
  · rw [if_neg hm]

/-- A climb that passes the group of the focused child `o` is undone by the descent in the
opposite direction: it picks `o`. -/
theorem pick_reverse_of_pass {d : ShiftDirection} {v : Bool} {g : Hy3GroupData}
    (htab : g.layout = Hy3GroupLayout.Tabbed → v = true ∨ shiftIsVertical d = true)
    {o : Nat} (hmem : o ∈ g.children) (hf : g.focused_child = some o)
    (hb : breaksAt d v g o = some false) :
    g.children.get? (descendPick (reverse d) false v g).1 = some o := by
  unfold breaksAt at hb
  by_cases hm : (shiftMatchesLayout g.layout d
      && (!v || g.layout != Hy3GroupLayout.Tabbed)) = true
  · rw [if_pos hm] at hb
    obtain ⟨h1, h2⟩ := matches_not_tabbed htab hm
    rw [descendPick_of_matches (by rw [shiftMatchesLayout_reverse]; exact h1) h2,
      shiftIsForward_reverse]
    cases hfw : shiftIsForward d with
    | true =>
      rw [hfw] at hb
      simp only [if_true] at hb
      simp only [Bool.not_true, Bool.false_eq_true, if_false]
      rw [get?_last_getLast?]
      cases hl : g.children.getLast? with
      | none => simp [hl] at hb
      | some e => simpa [hl] using hb
    | false =>
      rw [hfw] at hb
      simp only [Bool.false_eq_true, if_false] at hb
      simp only [Bool.not_false, if_true]
      rw [get?_zero_head?]
      cases hl : g.children.head? with
      | none => simp [hl] at hb
      | some e => simpa [hl] using hb
  · have hm' : (shiftMatchesLayout g.layout (reverse d)
      && (!v || g.layout != Hy3GroupLayout.Tabbed)) = false := by
      rw [shiftMatchesLayout_reverse]; simpa using hm
    rw [descendPick_of_focus hf hm']
    exact indexOf_get?_self hmem


theorem indexOf_of_get? {cs : List Nat} (nd : cs.Nodup) {i s : Nat} (hs : cs.get? i = some s) :
    cs.indexOf s = i := by
  obtain ⟨hlt, e⟩ := List.get?_eq_some.mp hs
  have := List.indexOf_getElem nd i hlt
  have e' : cs[i] = s := e
  rw [e'] at this
  exact this

/-- The sibling reached from `o` in one direction reaches `o` in the opposite direction, and
is not the last child in that direction. -/
theorem shiftNeighbour_back {d : ShiftDirection} {cs : List Nat} (nd : cs.Nodup) {o edge : Nat}
    (hm : o ∈ cs)
    (he : (if shiftIsForward d then cs.getLast? else cs.head?) = some edge) (hne : edge ≠ o)
    {s : Nat} (hs : shiftNeighbour d cs o = some s) :
    shiftNeighbour (reverse d) cs s = some o ∧
      ∃ e, (if shiftIsForward (reverse d) then cs.getLast? else cs.head?) = some e ∧ e ≠ s := by
  obtain ⟨s', hs', hsm, hfw, hbw⟩ := shiftNeighbour_some hm he hne
  rw [hs] at hs'
  cases hs'
  have hself := indexOf_get?_self hm
  have hi := List.indexOf_lt_length.mpr hm
  unfold shiftNeighbour
  rw [shiftIsForward_reverse]
  cases hf : shiftIsForward d with
  | true =>
    have h1 := hfw hf
    have hidx := indexOf_of_get? nd h1
    simp only [Bool.not_true, Bool.false_eq_true, if_false, hidx, Nat.add_one_ne_zero,
      Nat.add_sub_cancel]
    refine ⟨hself, ?_⟩
    cases hc : cs with
    | nil => rw [hc] at hm; simp at hm
    | cons c rest =>
      refine ⟨c, rfl, ?_⟩
      intro e
      have h0 : cs.get? 0 = some s := by rw [hc, e]; rfl
      have := indexOf_of_get? nd h0
      omega
  | false =>
    obtain ⟨h0, h1⟩ := hbw hf
    have hidx := indexOf_of_get? nd h1
    have hlt : cs.indexOf o - 1 < cs.length := by omega
    simp only [Bool.not_false, if_true, hidx, hlt]
    rw [show cs.indexOf o - 1 + 1 = cs.indexOf o by omega]
    refine ⟨hself, ?_⟩
    cases hl : cs.getLast? with
    | none =>
      rw [List.getLast?_eq_none_iff] at hl
      rw [hl] at hm; simp at hm
    | some b =>
      refine ⟨b, rfl, ?_⟩
      intro e
      have h2 : cs.get? (cs.length - 1) = some s := by rw [get?_last_getLast?, hl, e]
      have := indexOf_of_get? nd h2
      omega

/-- At the group where the climb broke, the climb in the opposite direction from the sibling
that was reached breaks as well. -/
theorem breaksAt_back {d : ShiftDirection} {v : Bool} {g : Hy3GroupData} (nd : g.children.Nodup)
    {o s : Nat} (hm : o ∈ g.children) (hb : breaksAt d v g o = some true)
    (hs : shiftNeighbour d g.children o = some s) :
    breaksAt (reverse d) v g s = some true ∧ shiftNeighbour (reverse d) g.children s = some o := by
  obtain ⟨hmt, edge, he, hne⟩ := breaksAt_true hb
  obtain ⟨hn, e, hee, hes⟩ := shiftNeighbour_back nd hm he hne hs
  refine ⟨?_, hn⟩
  unfold breaksAt
  rw [shiftMatchesLayout_reverse, if_pos hmt, hee]
  simp [hes]


theorem queryClimb_pass {d : ShiftDirection} {v : Bool} {h : Hy3Layout} {t c : Nat}
    {tn : Hy3Node} {g : Hy3GroupData} (ht : h.get t = some tn)
    (hd : tn.data = Hy3NodeData.group g) (hb : breaksAt d v g c = some false) {f : Nat}
    {r : Option (Nat × Nat)} (e : queryClimb d v f h c (some t) = some r) :
    ∃ f0, queryClimb d v f0 h t tn.parent = some r := by
  cases f with
  | zero => simp [queryClimb] at e
  | succ f =>
    rw [queryClimb] at e
    simp only [ht, hd, hb] at e
    cases hp : tn.parent with
    | none =>
      rw [hp] at e
      exact ⟨1, by rw [← e]; rfl⟩
    | some gp =>
      rw [hp] at e
      exact ⟨f, e⟩

/-- The window that the descent ends on, and the climb back from it: in the opposite direction
the climb from that window passes every group the descent went through. -/
theorem queryEnter_climb_back {h : Hy3Layout} (wf : WellFormed h) {d : ShiftDirection}
    {v : Bool}
    (htab : ∀ x g, h.group x = some g → g.layout = Hy3GroupLayout.Tabbed →
      v = true ∨ shiftIsVertical d = true)
    (noexp : ∀ x g, h.group x = some g → g.expand_focused = ExpandFocusType.NotExpanded) :
    ∀ (fuel t b : Nat), queryEnter d v fuel h t = some (some b) →
      ∃ bn w, h.get b = some bn ∧ bn.data = Hy3NodeData.window w ∧ InSubtree h t b ∧
        ∀ tn, h.get t = some tn → ∀ f r, queryClimb (reverse d) v f h b bn.parent = some r →
          ∃ f0, queryClimb (reverse d) v f0 h t tn.parent = some r := by
  have stop : ∀ (fuel t b : Nat) (tn : Hy3Node), h.get t = some tn → stopsDescent tn = true →
      getFocusedNode fuel h t false false = some (some b) →
      ∃ bn w, h.get b = some bn ∧ bn.data = Hy3NodeData.window w ∧ InSubtree h t b ∧
        ∀ tn, h.get t = some tn → ∀ f r, queryClimb (reverse d) v f h b bn.parent = some r →
          ∃ f0, queryClimb (reverse d) v f0 h t tn.parent = some r := by
    intro fuel t b tn ht hs e
    obtain ⟨w, hw⟩ := (stopsDescent_iff_window noexp ht).mp hs
    cases fuel with
    | zero => simp [getFocusedNode] at e
    | succ f =>
      rw [getFocusedNode_window ht hw] at e
      simp only [Option.some.injEq] at e
      subst e
      refine ⟨tn, w, ht, hw, InSubtree.self _, fun tn' ht' f r e => ⟨f, ?_⟩⟩
      rw [ht] at ht'
      cases ht'
      exact e
  intro fuel
  induction fuel with
  | zero =>
    intro t b e
    unfold queryEnter at e
    rcases Option.eq_none_or_eq_some (h.get t) with ht | ⟨tn, ht⟩
    · simp [ht] at e
    · simp only [ht] at e
      by_cases hs : stopsDescent tn = true
      · rw [if_pos hs] at e
        exact stop 0 t b tn ht hs e
      · rw [if_neg hs] at e
        simp [queryDescend] at e
  | succ f ih =>
    intro t b e
    unfold queryEnter at e
    rcases Option.eq_none_or_eq_some (h.get t) with ht | ⟨tn, ht⟩
    · simp [ht] at e
    · simp only [ht] at e
      by_cases hs : stopsDescent tn = true
      · rw [if_pos hs] at e
        exact stop (f + 1) t b tn ht hs e
      · rw [if_neg hs, queryDescend_succ] at e
        cases hg : h.group t with
        | none => simp [hg] at e
        | some g =>
          simp only [hg] at e
          by_cases hne : g.children = []
          · simp [hne] at e
          · rw [if_neg hne] at e
            cases hp : g.children.get? (descendPick d false v g).1 with
            | none => simp only [hp, reduceCtorEq] at e
            | some next =>
              simp only [hp] at e
              obtain ⟨bn, w, hb, hw, hsub, hcl⟩ := ih next b e
              have hmem : next ∈ g.children := by
                obtain ⟨hlt, e'⟩ := List.get?_eq_some.mp hp
                rw [← e']
                exact List.get_mem _ _ _
              obtain ⟨tn0, htn0, hd⟩ := group_eq_some hg
              rw [ht] at htn0
              cases htn0
              obtain ⟨nn, hnn, hnp⟩ := wf.2 t tn next ht (by rw [Hy3Node.children, hd]; exact hmem)
              refine ⟨bn, w, hb, hw, InSubtree.step ?_ hsub, fun tn' ht' f' r e' => ?_⟩
              · rw [childrenOf_of_group_eq hg]; exact hmem
              · rw [ht] at ht'
                cases ht'
                obtain ⟨f0, e0⟩ := hcl nn hnn f' r e'
                rw [hnp] at e0
                exact queryClimb_pass ht hd (breaksAt_reverse_of_pick (htab t g hg) hp) e0


/-- The climb from a focused node, and the descent back: where the climb breaks at `O`, the
descent in the opposite direction from `O` ends where the descent from the start ends. -/
theorem queryClimb_descend_back {h : Hy3Layout} (wf : WellFormed h) {d : ShiftDirection}
    {v : Bool} {a : Nat}
    (htab : ∀ x g, h.group x = some g → g.layout = Hy3GroupLayout.Tabbed →
      v = true ∨ shiftIsVertical d = true)
    (noexp : ∀ x g, h.group x = some g → g.expand_focused = ExpandFocusType.NotExpanded) :
    ∀ (ps : List Nat) (o : Nat), AncestorChain h o ps →
      (∀ x p, (x, p) ∈ (o :: ps).zip ps →
        ∃ g, h.group p = some g ∧ g.focused_child = some x) →
      (∀ f r, queryEnter (reverse d) v f h o = some r → r = some a) →
      ∀ (fuel : Nat) (n : Hy3Node) (O P : Nat), h.get o = some n →
        queryClimb d v fuel h o n.parent = some (some (O, P)) →
        ∃ m g, h.get O = some m ∧ m.parent = some P ∧ h.group P = some g ∧
          breaksAt d v g O = some true ∧
          ∀ f r, queryEnter (reverse d) v f h O = some r → r = some a
  | [], o, hc, _, _, fuel, n, O, P, hn, e => by
    cases hc with
    | root hn' hp =>
      rw [hn] at hn'
      cases hn'
      rw [hp] at e
      cases fuel <;> simp [queryClimb] at e
  | p :: ps, o, hc, hfoc, hR, fuel, n, O, P, hn, e => by
    cases hc with
    | step hn' hp hrest =>
      rw [hn] at hn'
      cases hn'
      rw [hp] at e
      cases fuel with
      | zero => simp [queryClimb] at e
      | succ f =>
        rw [queryClimb] at e
        rcases Option.eq_none_or_eq_some (h.get p) with hpn | ⟨pn, hpn⟩
        · simp [hpn] at e
        · simp only [hpn] at e
          cases hd : pn.data with
          | window w => simp [hd] at e
          | group g =>
            simp only [hd] at e
            have hg := group_of_get hpn hd
            obtain ⟨g', hg', hf⟩ := hfoc o p (by simp)
            rw [hg] at hg'
            cases hg'
            cases hb : breaksAt d v g o with
            | none => simp [hb] at e
            | some bb =>
              cases bb with
              | true =>
                simp only [hb, Option.some.injEq, Prod.mk.injEq] at e
                obtain ⟨rfl, rfl⟩ := e
                exact ⟨n, g, hn, hp, hg, hb, hR⟩
              | false =>
                simp only [hb] at e
                cases hgp : pn.parent with
                | none => simp [hgp] at e
                | some gp =>
                  simp only [hgp] at e
                  have hmem : o ∈ g.children := by
                    have := wf.mem_of_parent (show h.parentOf o = some (some p) by
                      simp [Hy3Layout.parentOf, hn, hp])
                    rwa [childrenOf_of_group_eq hg] at this
                  have hpick := pick_reverse_of_pass (htab p g hg) hmem hf hb
                  have hRp : ∀ f r, queryEnter (reverse d) v f h p = some r → r = some a := by
                    intro f' r e'
                    unfold queryEnter at e'
                    have hns : stopsDescent pn = false := by
                      simp [stopsDescent, hd, noexp p g hg]
                    simp only [hpn, hns, Bool.false_eq_true, if_false] at e'
                    cases f' with
                    | zero => simp [queryDescend] at e'
                    | succ f' =>
                      rw [queryDescend_succ] at e'
                      have hne : g.children ≠ [] := List.ne_nil_of_mem hmem
                      simp only [hg, hne, if_false, hpick] at e'
                      exact hR f' r e'
                  exact queryClimb_descend_back wf htab noexp ps p hrest
                    (fun x q hx => hfoc x q (by
                      simp only [List.zip_cons_cons, List.mem_cons]
                      exact Or.inr hx))
                    hRp f pn O P hpn (by rw [hgp]; exact e)


theorem SameButFocus.focus_group {h h' : Hy3Layout} (s : SameButFocus h h') {x : Nat}
    {g : Hy3GroupData} (hg : h.group x = some g) :
    ∃ g', h'.group x = some g' ∧ g'.layout = g.layout ∧ g'.children = g.children ∧
      g'.expand_focused = g.expand_focused := by
  obtain ⟨n, hn, hd⟩ := group_eq_some hg
  obtain ⟨n', hn', e⟩ := s.focus_get hn
  have hdd := congrArg Hy3Node.data e
  simp only [Hy3Node.mapGroup, hd] at hdd
  cases hd' : n'.data with
  | window w => simp [hd'] at hdd
  | group g' =>
    simp only [hd', Hy3NodeData.group.injEq] at hdd
    refine ⟨g', group_of_get hn' hd', ?_, ?_, ?_⟩
    · simpa [Hy3GroupData.noFocus] using congrArg Hy3GroupData.layout hdd
    · simpa [Hy3GroupData.noFocus] using congrArg Hy3GroupData.children hdd
    · simpa [Hy3GroupData.noFocus] using congrArg Hy3GroupData.expand_focused hdd

theorem SameButFocus.focus_window {h h' : Hy3Layout} (s : SameButFocus h h') {x : Nat}
    {n : Hy3Node} {w : Option Nat} (hn : h.get x = some n) (hw : n.data = Hy3NodeData.window w) :
    h'.get x = some n := by
  obtain ⟨n', hn', e⟩ := s.focus_get hn
  have hdd := congrArg Hy3Node.data e
  simp only [Hy3Node.mapGroup, hw] at hdd
  cases hd' : n'.data with
  | group g' => simp [hd'] at hdd
  | window w' =>
    simp only [Hy3Node.mapGroup, hw, hd'] at e
    rw [hn', e]

theorem breaksAt_congr {d : ShiftDirection} {v : Bool} {g g' : Hy3GroupData}
    (hl : g'.layout = g.layout) (hc : g'.children = g.children) (o : Nat) :
    breaksAt d v g' o = breaksAt d v g o := by
  unfold breaksAt
  rw [hl, hc]

/-- The break loop reads no focus field. -/
theorem queryClimb_congr {h h' : Hy3Layout} (s : SameButFocus h h') (d : ShiftDirection)
    (v : Bool) : ∀ (fuel o : Nat) (p : Option Nat),
    queryClimb d v fuel h' o p = queryClimb d v fuel h o p
  | 0, _, _ => rfl
  | _ + 1, _, none => rfl
  | fuel + 1, o, some p => by
    rw [queryClimb, queryClimb]
    rcases Option.eq_none_or_eq_some (h.get p) with hn | ⟨pn, hn⟩
    · have hn' : h'.get p = none := by
        have := s.focus_isSome p
        rw [hn] at this
        simpa using this
      rw [hn, hn']
    · obtain ⟨pn', hn', e⟩ := s.focus_get hn
      have hpar := (mapGroup_noFocus_eq e).2.1
      rw [hn, hn']
      simp only
      cases hd : pn.data with
      | window w =>
        have := s.focus_window hn hd
        rw [hn'] at this
        cases this
        simp [hd]
      | group g =>
        obtain ⟨g', hg', hl, hc, -⟩ := s.focus_group (group_of_get hn hd)
        obtain ⟨m, hm, hmd⟩ := group_eq_some hg'
        rw [hn'] at hm
        cases hm
        simp only [hmd, breaksAt_congr hl hc, hpar]
        cases breaksAt d v g o with
        | none => rfl
        | some bb =>
          cases bb with
          | true => rfl
          | false =>
            simp only
            cases pn.parent with
            | none => rfl
            | some gp => exact queryClimb_congr s d v fuel p (some gp)

/-- The descent reads only the nodes below the node it starts from. -/
theorem queryEnter_congr {h h' : Hy3Layout}
    (noexp : ∀ x g, h.group x = some g → g.expand_focused = ExpandFocusType.NotExpanded)
    (d : ShiftDirection) (v : Bool) : ∀ (fuel t : Nat),
    (∀ x, InSubtree h t x → h'.get x = h.get x) →
    queryEnter d v fuel h' t = queryEnter d v fuel h t := by
  intro fuel
  induction fuel with
  | zero =>
    intro t hs
    unfold queryEnter
    rw [hs t (InSubtree.self t)]
    cases h.get t with
    | none => rfl
    | some tn => simp [getFocusedNode, queryDescend]
  | succ f ih =>
    intro t hs
    have ht := hs t (InSubtree.self t)
    unfold queryEnter
    rw [ht]
    rcases Option.eq_none_or_eq_some (h.get t) with hn | ⟨tn, hn⟩
    · rw [hn]
    · rw [hn]
      simp only
      by_cases hst : stopsDescent tn = true
      · rw [if_pos hst, if_pos hst]
        obtain ⟨w, hw⟩ := (stopsDescent_iff_window noexp hn).mp hst
        rw [getFocusedNode_window hn hw, getFocusedNode_window (ht.trans hn) hw]
      · rw [if_neg hst, if_neg hst, queryDescend_succ, queryDescend_succ]
        have hg : h'.group t = h.group t := by simp [Hy3Layout.group, ht]
        rw [hg]
        cases hgt : h.group t with
        | none => rfl
        | some g =>
          simp only
          by_cases hne : g.children = []
          · rw [if_pos hne, if_pos hne]
          · rw [if_neg hne, if_neg hne]
            cases hp : g.children.get? (descendPick d false v g).1 with
            | none => rfl
            | some next =>
              simp only
              have hmem : next ∈ h.childrenOf t := by
                rw [childrenOf_of_group_eq hgt]
                obtain ⟨hlt, e'⟩ := List.get?_eq_some.mp hp
                rw [← e']
                exact List.get_mem _ _ _
              exact ih next (fun x hx => hs x (InSubtree.step hmem hx))


theorem InSubtree.sub_trans {h : Hy3Layout} {a b c : Nat} (h1 : InSubtree h a b)
    (h2 : InSubtree h b c) : InSubtree h a c := by
  induction h1 with
  | self _ => exact h2
  | step hm _ ih => exact InSubtree.step hm (ih h2)

/-- Two subtrees that share a node are nested. -/
theorem inSubtree_comparable {h : Hy3Layout} (wf : WellFormed h) {a x : Nat}
    (h1 : InSubtree h a x) : ∀ {b : Nat}, InSubtree h b x → InSubtree h a b ∨ InSubtree h b a := by
  induction h1 with
  | self a => exact fun h2 => Or.inr h2
  | @step a c x hm _ ih =>
    intro b h2
    rcases ih h2 with h3 | h3
    · exact Or.inl (InSubtree.step hm h3)
    · rcases h3.cases_tail with e | ⟨q, hq, hcq⟩
      · subst e
        exact Or.inl (InSubtree.step hm (InSubtree.self _))
      · have := wf.parent_unique hm hcq
        subst this
        exact Or.inr hq

/-- The subtrees of two different children of a group share no node. -/
theorem inSubtree_siblings_disjoint {h : Hy3Layout} (wf : WellFormed h) {rank : Nat → Nat}
    {B : Nat} (rk : RankedBy h rank B) {p c c' x : Nat} (hc : c ∈ h.childrenOf p)
    (hc' : c' ∈ h.childrenOf p) (hne : c ≠ c') (h1 : InSubtree h c x) : ¬ InSubtree h c' x := by
  intro h2
  have cr := wf.childrenRanked rk
  rcases inSubtree_comparable wf h1 h2 with h3 | h3
  · exact not_inSubtree_sibling wf cr hc' hc (Ne.symm hne) h3
  · exact not_inSubtree_sibling wf cr hc hc' hne h3

/-- What `markFocused` does when called on a window: only the ancestors of the window are
written to, and only their focus fields. -/
theorem markFocused_window_frame {h : Hy3Layout} (wf : WellFormed h) {rank : Nat → Nat}
    {B : Nat} (rk : RankedBy h rank B) {b : Nat} {bn : Hy3Node} {w : Option Nat}
    (hb : h.get b = some bn) (hw : bn.data = Hy3NodeData.window w) {ps : List Nat}
    (hc : AncestorChain h b ps) {fuel : Nat} (hf : B + ps.length < fuel) :
    ∃ h', markFocused fuel h b = some h' ∧ SameButFocus h h' ∧
      ∀ x, x ∉ ps → h'.get x = h.get x := by
  obtain ⟨h1, h', e, m1, -, -, hget⟩ := markFocused_spec h wf rank B rk b ps hc fuel hf
  refine ⟨h', e, markFocused_same e, fun x hx => ?_⟩
  have hleaf : h.childrenOf b = [] := by
    rw [childrenOf_of_get hb, hw]; rfl
  have h1x : h1.get x = h.get x := by
    by_cases hs : InSubtree h b x
    · have hxb := hs.eq_of_leaf hleaf
      subst hxb
      rw [(m1.2.2 x).1 hs, hb]
      simp [Hy3Node.mapGroup, hw]
    · exact (m1.2.2 x).2 hs
  rw [hget x, h1x]
  cases h.get x with
  | none => rfl
  | some n => simp [focusUpdate, focusTarget_none hx]


theorem shiftNeighbour_ne {d : ShiftDirection} {cs : List Nat} (nd : cs.Nodup) {o edge : Nat}
    (hm : o ∈ cs)
    (he : (if shiftIsForward d then cs.getLast? else cs.head?) = some edge) (hne : edge ≠ o)
    {s : Nat} (hs : shiftNeighbour d cs o = some s) : s ≠ o := by
  obtain ⟨s', hs', -, hfw, hbw⟩ := shiftNeighbour_some hm he hne
  rw [hs] at hs'
  cases hs'
  intro e
  subst e
  cases hf : shiftIsForward d with
  | true =>
    have := indexOf_of_get? nd (hfw hf)
    omega
  | false =>
    obtain ⟨h0, h1⟩ := hbw hf
    have := indexOf_of_get? nd h1
    omega

theorem getExpandActor_noexp {h : Hy3Layout}
    (noexp : ∀ x g, h.group x = some g → g.expand_focused = ExpandFocusType.NotExpanded) :
    ∀ (fuel x y : Nat), getExpandActor fuel h x = some y → y = x
  | 0, _, _, e => by simp [getExpandActor] at e
  | fuel + 1, x, y, e => by
    unfold getExpandActor at e
    cases hn : h.get x with
    | none => simp [hn] at e
    | some n =>
      simp only [hn] at e
      cases hp : n.parent with
      | none =>
        simp only [hp, Option.some.injEq] at e
        exact e.symm
      | some p =>
        simp only [hp] at e
        cases hg : h.group p with
        | none => simp [hg] at e
        | some g =>
          simp only [hg, noexp p g hg, ne_eq, not_true_eq_false, if_false,
            Option.some.injEq] at e
          exact e.symm

theorem getExpandActor_self {h : Hy3Layout} (wf : WellFormed h)
    (noexp : ∀ x g, h.group x = some g → g.expand_focused = ExpandFocusType.NotExpanded)
    {x : Nat} {n : Hy3Node} (hn : h.get x = some n) (fuel : Nat) :
    getExpandActor (fuel + 1) h x = some x := by
  unfold getExpandActor
  simp only [hn]
  cases hp : n.parent with
  | none => rfl
  | some p =>
    obtain ⟨g, hg⟩ := Option.isSome_iff_exists.mp (wf.parent_group hn hp)
    simp [hg, noexp p g hg]

theorem queryEnter_total {h : Hy3Layout} (wf : WellFormed h) {rank : Nat → Nat} {B : Nat}
    (rk : RankedBy h rank B)
    (hfc : ∀ a g fc, h.group a = some g → g.focused_child = some fc → fc ∈ g.children)
    (d : ShiftDirection) (v : Bool) {t : Nat} (ht : (h.get t).isSome) {fuel : Nat}
    (hf : B - rank t < fuel) : ∃ r, queryEnter d v fuel h t = some r := by
  obtain ⟨tn, htn⟩ := Option.isSome_iff_exists.mp ht
  unfold queryEnter
  simp only [htn]
  by_cases hs : stopsDescent tn = true
  · rw [if_pos hs]
    obtain ⟨x, e⟩ := getFocusedNode_total wf rk hfc false false ht hf
    exact ⟨_, e⟩
  · rw [if_neg hs]
    obtain ⟨g, hd⟩ := stopsDescent_false hs
    exact queryDescend_total wf rk hfc d v (B - rank t) t (le_refl _)
      (by rw [group_of_get htn hd]; rfl) fuel hf

theorem queryResolve_enter {h : Hy3Layout} {O P : Nat} {m : Hy3Node} {g : Hy3GroupData}
    {d : ShiftDirection} {v : Bool} (wf : WellFormed h)
    (hm : h.get O = some m) (hp : m.parent = some P) (hg : h.group P = some g)
    (hb : breaksAt d v g O = some true) (fuel : Nat) :
    ∃ s sn, shiftNeighbour d g.children O = some s ∧ s ∈ g.children ∧
      h.get s = some sn ∧ sn.parent = some P ∧
      queryResolve fuel h O P d v = queryEnter d v fuel h s := by
  obtain ⟨s, sn, h1, h2, h3, h4, h5⟩ := queryResolve_at_break wf hm hp hg hb fuel
  refine ⟨s, sn, h1, h2, h3, h4, ?_⟩
  rw [h5]
  unfold queryEnter
  simp only [h3]


/-- The focus query from a focused window `a`, and the query back: where no tab group matches
the direction, the query in the opposite direction from the window that was reached, asked
after that window is marked focused, returns `a`. -/
theorem focusQuery_reverse {h : Hy3Layout} (wf : WellFormed h) {rank : Nat → Nat} {B : Nat}
    (rk : RankedBy h rank B)
    (hfc : ∀ x g fc, h.group x = some g → g.focused_child = some fc → fc ∈ g.children)
    (noexp : ∀ x g, h.group x = some g → g.expand_focused = ExpandFocusType.NotExpanded)
    {a : Nat} {an : Hy3Node} {w : Option Nat} (ha : h.get a = some an)
    (hw : an.data = Hy3NodeData.window w) {ps : List Nat} (hc : AncestorChain h a ps)
    (hfoc : ∀ x p, (x, p) ∈ (a :: ps).zip ps →
      ∃ g, h.group p = some g ∧ g.focused_child = some x)
    {d : ShiftDirection} {v : Bool}
    (htab : ∀ x g, h.group x = some g → g.layout = Hy3GroupLayout.Tabbed →
      v = true ∨ shiftIsVertical d = true)
    {fuel0 b : Nat} (hq : focusQuery fuel0 h a d v = some (some b)) :
    ∀ fuel, 2 * B < fuel →
      ∃ h', markFocused fuel h b = some h' ∧
        focusQuery fuel h' b (reverse d) v = some (some a) := by
  -- the forward query: climb to the break point, move to the sibling, descend
  unfold focusQuery at hq
  cases hea : getExpandActor fuel0 h a with
  | none => simp [hea] at hq
  | some bo =>
    have := getExpandActor_noexp noexp fuel0 a bo hea
    subst this
    simp only [hea, ha] at hq
    cases hcl : queryClimb d v fuel0 h bo an.parent with
    | none => simp [hcl] at hq
    | some rc =>
      cases rc with
      | none => simp [hcl] at hq
      | some OP =>
        obtain ⟨O, P⟩ := OP
        simp only [hcl] at hq
        have hRa : ∀ f r, queryEnter (reverse d) v f h bo = some r → r = some bo := by
          intro f r e
          unfold queryEnter at e
          have hst : stopsDescent an = true := by simp [stopsDescent, hw]
          simp only [ha, hst, if_true] at e
          cases f with
          | zero => simp [getFocusedNode] at e
          | succ f =>
            rw [getFocusedNode_window ha hw] at e
            exact (Option.some.inj e).symm
        obtain ⟨m, g, hO, hmP, hgP, hbrk, hRO⟩ :=
          queryClimb_descend_back wf htab noexp ps bo hc hfoc hRa fuel0 an O P ha hcl
        obtain ⟨S, sn, hnb, hSm, hS, hSp, heq⟩ := queryResolve_enter wf hO hmP hgP hbrk fuel0
        rw [heq] at hq
        obtain ⟨bn, wb, hb, hbw, hsub, hback⟩ := queryEnter_climb_back wf htab noexp fuel0 S b hq
        have hOm : O ∈ g.children := by
          have := wf.mem_of_parent (show h.parentOf O = some (some P) by
            simp [Hy3Layout.parentOf, hO, hmP])
          rwa [childrenOf_of_group_eq hgP] at this
        have nd : g.children.Nodup := by
          have := wf.children_nodup P
          rwa [childrenOf_of_group_eq hgP] at this
        obtain ⟨hbrk', hnb'⟩ := breaksAt_back nd hOm hbrk hnb
        obtain ⟨-, edge, he, hne⟩ := breaksAt_true hbrk
        have hSO : S ≠ O := shiftNeighbour_ne nd hOm he hne hnb
        obtain ⟨pn, hpn, hpd⟩ := group_eq_some hgP
        have hclimb : ∀ f r, queryClimb (reverse d) v f h b bn.parent = some r →
            r = some (S, P) := by
          intro f r e
          obtain ⟨f0, e0⟩ := hback sn hS f r e
          rw [hSp] at e0
          cases f0 with
          | zero => simp [queryClimb] at e0
          | succ f0 =>
            rw [queryClimb] at e0
            simp only [hpn, hpd, hbrk', Option.some.injEq] at e0
            exact e0.symm
        -- the store after markFocused
        intro fuel hf
        have hbs : (h.get b).isSome := by rw [hb]; rfl
        obtain ⟨psb, hcb, -, -⟩ := ancestorChain_exists wf rk (rank b) b (le_refl _) hbs
        have hlen := AncestorChain.length_le_rank rk hcb
        have hrb := (rk b bn hb).1
        obtain ⟨h', e, s, hframe⟩ :=
          markFocused_window_frame wf rk hb hbw hcb (show B + psb.length < fuel by omega)
        refine ⟨h', e, ?_⟩
        have wf' := s.wellFormed wf
        have noexp' : ∀ x g, h'.group x = some g →
            g.expand_focused = ExpandFocusType.NotExpanded := by
          intro x g' hg'
          obtain ⟨g0, hg0, -, -, hex⟩ := s.symm.focus_group hg'
          rw [← hex]
          exact noexp x g0 hg0
        have hb' : h'.get b = some bn := s.focus_window hb hbw
        obtain ⟨f, rfl⟩ : ∃ f, fuel = f + 1 := ⟨fuel - 1, by omega⟩
        unfold focusQuery
        rw [getExpandActor_self wf' noexp' hb' f]
        simp only [hb']
        rw [queryClimb_congr s]
        obtain ⟨r, hr, -⟩ :=
          queryClimb_total wf rk (reverse d) v (rank b) b bn (le_refl _) hb (f + 1) (by omega)
        have hrr := hclimb (f + 1) r hr
        subst hrr
        rw [hr]
        simp only
        -- at the break point in the store after markFocused
        obtain ⟨sn', hS', eS⟩ := s.focus_get hS
        have hSp' : sn'.parent = some P := by
          rw [(mapGroup_noFocus_eq eS).2.1]; exact hSp
        obtain ⟨g', hgP', hl, hcs, -⟩ := s.focus_group hgP
        have hbrk2 : breaksAt (reverse d) v g' S = some true := by
          rw [breaksAt_congr hl hcs]; exact hbrk'
        obtain ⟨s2, sn2, hnb2, -, hs2, -, heq2⟩ :=
          queryResolve_enter wf' hS' hSp' hgP' hbrk2 (f + 1)
        rw [hcs, hnb'] at hnb2
        cases hnb2
        rw [heq2]
        have hagree : ∀ x, InSubtree h O x → h'.get x = h.get x := by
          intro x hx
          apply hframe
          intro hxm
          have hxb := AncestorChain.inSubtree wf hcb x hxm
          have hSc : S ∈ h.childrenOf P := by rw [childrenOf_of_group_eq hgP]; exact hSm
          have hOc : O ∈ h.childrenOf P := by rw [childrenOf_of_group_eq hgP]; exact hOm
          exact inSubtree_siblings_disjoint wf rk hSc hOc hSO hsub (hx.sub_trans hxb)
        rw [queryEnter_congr noexp (reverse d) v (f + 1) O hagree]
        obtain ⟨r, hr⟩ := queryEnter_total wf rk hfc (reverse d) v
          (show (h.get O).isSome by rw [hO]; rfl) (show B - rank O < f + 1 by omega)
        rw [hr, hRO (f + 1) r hr]


/-! ## C27: directional shift symmetry -/

theorem noExpansion_of_nodes {h : Hy3Layout}
    (hc : ∀ g ∈ h.nodes.filterMap Hy3Node.asGroup,
      g.expand_focused = ExpandFocusType.NotExpanded) :
    ∀ x g, h.group x = some g → g.expand_focused = ExpandFocusType.NotExpanded := by
  intro x g hg
  obtain ⟨n, hn, hd⟩ := group_eq_some hg
  apply hc g
  rw [List.mem_filterMap]
  exact ⟨n, get_mem hn, by simp [Hy3Node.asGroup, hd]⟩

/-- C27 (counterexample): in `exTabs` (well-formed, no active expansion, the window 1 focused)
the query to the right from the window 1 without `visible` resolves to the window 4, the
focused tab of the tab group 2; after `markFocused` on 4 the query to the left from 4 with the
same flags resolves to the window 3, the tab before it, and not to the window 1. -/
theorem shiftOrGetFocus_reverse_tab_counterexample :
    WellFormed exTabs ∧
    (∀ x g, exTabs.group x = some g → g.expand_focused = ExpandFocusType.NotExpanded) ∧
    getFocusedNode 10 exTabs 0 false false = some (some 1) ∧
    (exTabs.get 1).map (fun n => n.data.type) = some Hy3NodeType.Window ∧
    shiftOrGetFocus 10 exTabs 1 ShiftDirection.Right false false false
      = some (exTabs, some 4) ∧
    (exTabs.get 4).map (fun n => n.data.type) = some Hy3NodeType.Window ∧
    ∃ h', markFocused 10 exTabs 4 = some h' ∧
      shiftOrGetFocus 10 h' 4 (reverse ShiftDirection.Right) false false false
        = some (h', some 3) :=
  ⟨wellFormed_of_check (by decide), noExpansion_of_nodes (by decide), rfl, rfl, rfl, rfl,
    _, rfl, rfl⟩

/-- C27 (amended): in a well-formed acyclic store with no active expansion in which every
non-null `focused_child` is a child of its group, let `a` be a focused window (every node on
the path from `a` to its root is the `focused_child` of its parent) and `d` a direction, and
let `visible` be set, or `d` be `Up` or `Down`, or no group of the store be tabbed. If
`shiftOrGetFocus(a, d, shift = false)` resolves to the node `b`, then `b.markFocused()`
returns, and afterwards `shiftOrGetFocus(b, reverse(d), shift = false)` with the same `once`
and `visible` flags returns and resolves to `a`. -/
theorem shiftOrGetFocus_reverse_returns {h : Hy3Layout} (wf : WellFormed h)
    {rank : Nat → Nat} {B : Nat} (rk : RankedBy h rank B)
    (hfc : ∀ x g fc, h.group x = some g → g.focused_child = some fc → fc ∈ g.children)
    (noexp : ∀ x g, h.group x = some g → g.expand_focused = ExpandFocusType.NotExpanded)
    {a : Nat} {an : Hy3Node} {w : Option Nat} (ha : h.get a = some an)
    (hw : an.data = Hy3NodeData.window w) {ps : List Nat} (hc : AncestorChain h a ps)
    (hfoc : ∀ x p, (x, p) ∈ (a :: ps).zip ps →
      ∃ g, h.group p = some g ∧ g.focused_child = some x)
    (d : ShiftDirection) (once visible : Bool)
    (htab : visible = true ∨ shiftIsVertical d = true ∨
      ∀ x g, h.group x = some g → g.layout ≠ Hy3GroupLayout.Tabbed)
    {fuel0 b : Nat}
    (hq : shiftOrGetFocus fuel0 h a d false once visible = some (h, some b)) :
    ∃ N, ∀ fuel, N ≤ fuel →
      ∃ h', markFocused fuel h b = some h' ∧
        shiftOrGetFocus fuel h' b (reverse d) false once visible = some (h', some a) := by
  have htab' : ∀ x g, h.group x = some g → g.layout = Hy3GroupLayout.Tabbed →
      visible = true ∨ shiftIsVertical d = true := by
    intro x g hg hl
    rcases htab with e | e | e
    · exact Or.inl e
    · exact Or.inr e
    · exact absurd hl (e x g hg)
  rw [shiftOrGetFocus_query] at hq
  have hq' : focusQuery fuel0 h a d visible = some (some b) := by
    cases hfq : focusQuery fuel0 h a d visible with
    | none => simp [hfq] at hq
    | some r =>
      simp only [hfq, Option.map_some', Option.some.injEq, Prod.mk.injEq, true_and] at hq
      rw [hq]
  refine ⟨2 * B + 1, fun fuel hf => ?_⟩
  obtain ⟨h', e, eq⟩ := focusQuery_reverse wf rk hfc noexp ha hw hc hfoc htab' hq' fuel
    (by omega)
  exact ⟨h', e, by rw [shiftOrGetFocus_query, eq]; rfl⟩

theorem shiftOrGetFocus_reverse_returns_witness :
    ∃ N, ∀ fuel, N ≤ fuel →
      ∃ h', markFocused fuel exTabs 4 = some h' ∧
        shiftOrGetFocus fuel h' 4 (reverse ShiftDirection.Right) false false true
          = some (h', some 1) :=
  @shiftOrGetFocus_reverse_returns exTabs (wellFormed_of_check (by decide)) id 4
    (rankedBy_of_check (by decide)) (layoutReady_of_check (by decide)).2
    (noExpansion_of_nodes (by decide)) 1 _ _ rfl rfl [0]
    (AncestorChain.step rfl rfl (AncestorChain.root rfl rfl))
    (fun x p hx => by
      simp only [List.zip_cons_cons, List.zip_nil_right, List.mem_singleton,
        Prod.mk.injEq] at hx
      obtain ⟨rfl, rfl⟩ := hx
      exact ⟨_, rfl, rfl⟩)
    ShiftDirection.Right false true (Or.inl rfl) 10 4 rfl


/-! ## C31: payload moves and the group flags -/

/-- C31: in `exEphemeral` the root 0 has the single child 1, a SplitV group with
`ephemeral == true`. `swallowGroups(0)` succeeds and node 0 takes the layout, the
`previous_nontab_layout`, the child list, `focused_child`, `group_focused` and `expand_focused`
of that group, but its `ephemeral` flag is false afterwards; `swapData(0, 1)` alone leaves node
0 with `ephemeral == false` in the same way. -/
theorem swallowGroups_drops_ephemeral :
    (exEphemeral.group 1).map Hy3GroupData.ephemeral = some true ∧
    (∃ h', swallowGroups exEphemeral (some 0) = some (h', true) ∧
      (h'.group 0).map (fun g => (g.layout, g.previous_nontab_layout, g.children,
          g.focused_child, g.group_focused, g.expand_focused))
        = (exEphemeral.group 1).map (fun g => (g.layout, g.previous_nontab_layout, g.children,
          g.focused_child, g.group_focused, g.expand_focused)) ∧
      (h'.group 0).map Hy3GroupData.ephemeral = some false) ∧
    ∃ h2, swapData exEphemeral 0 1 = some h2 ∧
      (h2.group 0).map Hy3GroupData.ephemeral = some false :=
  ⟨rfl, ⟨_, rfl, rfl, rfl⟩, _, rfl, rfl⟩


/-! ## C32: togglesplit and previous_nontab_layout -/

/-- C32: the root 0 of `exTabs` is a group made by the constructor with SplitH (`layout` and
`previous_nontab_layout` both SplitH). After `layoutMessage("togglesplit")` for the window 101
of its child 1, the group's `layout` is SplitV while `previous_nontab_layout` is still
SplitH. -/
theorem layoutMessage_togglesplit_stale_previous_layout :
    (exTabs.group 0).map (fun g => (g.layout, g.previous_nontab_layout))
      = some ((Hy3GroupData.new Hy3GroupLayout.SplitH).layout,
          (Hy3GroupData.new Hy3GroupLayout.SplitH).previous_nontab_layout) ∧
    ∃ h', layoutMessage exTabs (some 101) "togglesplit" = some h' ∧
      (h'.group 0).map (fun g => (g.layout, g.previous_nontab_layout))
        = some (Hy3GroupLayout.SplitV, Hy3GroupLayout.SplitH) :=
  ⟨rfl, _, rfl, rfl⟩


/-! ## C33: the focus fields of a group that loses a child -/

theorem detachStore_group_focus (this child gp : Nat) (h : Hy3Layout) (group : Hy3GroupData)
    (hg : h.group gp = some group) (hne : gp ≠ child) :
    ∃ g', (detachStore this child gp group.children h).group gp = some g' ∧
      g'.group_focused = false ∧
      g'.focused_child =
        if (group.children.filter fun s => s ≠ child).length = 1 then
          (group.children.filter fun s => s ≠ child).head?
        else if group.children.length > 2 then
          (if group.children.head? = some child then group.children.get? 1
           else group.children.get? (group.children.indexOf child - 1))
        else group.focused_child := by
  have key : ∃ g1, (focusBeforeRemove h gp group.children child).group gp = some g1 ∧
      g1.focused_child =
        if group.children.length > 2 then
          (if group.children.head? = some child then group.children.get? 1
           else group.children.get? (group.children.indexOf child - 1))
        else group.focused_child := by
    rw [focusBeforeRemove_group, hg]
    by_cases hl : group.children.length > 2
    · have hc : gp = gp ∧ group.children.length > 2 := ⟨rfl, hl⟩
      rw [if_pos hc, if_pos hl]
      exact ⟨_, rfl, rfl⟩
    · have hc : ¬ (gp = gp ∧ group.children.length > 2) := fun hh => hl hh.2
      rw [if_neg hc, if_neg hl]
      exact ⟨_, rfl, rfl⟩
  obtain ⟨g1, hg1, hf1⟩ := key
  unfold detachStore
  by_cases hct : child ≠ this
  · simp only [if_pos hct]
    rw [group_remove, if_neg hne, group_modifyGroup, if_pos rfl, hg1]
    exact ⟨_, rfl, rfl, by simp only [hf1]⟩
  · simp only [if_neg hct]
    rw [group_modify_parent, group_modifyGroup, if_pos rfl, hg1]
    exact ⟨_, rfl, rfl, by simp only [hf1]⟩

theorem length_filter_ne_of_nodup {cs : List Nat} (nd : cs.Nodup) {x : Nat} (hm : x ∈ cs) :
    (cs.filter fun s => s ≠ x).length + 1 = cs.length := by
  induction cs with
  | nil => cases hm
  | cons c rest ih =>
    obtain ⟨hc, hr⟩ := List.nodup_cons.mp nd
    by_cases hcx : c = x
    · subst hcx
      have : rest.filter (fun s => s ≠ c) = rest := by
        rw [List.filter_eq_self]
        intro a ha
        simp only [ne_eq, decide_not, Bool.not_eq_true', decide_eq_false_iff_not]
        exact fun e => hc (e ▸ ha)
      rw [List.filter_cons_of_neg (by simp), this, List.length_cons]
    · have hm' : x ∈ rest := by
        rcases List.mem_cons.mp hm with e | e
        · exact absurd e.symm hcx
        · exact e
      have := ih hr hm'
      rw [List.filter_cons_of_pos (by simpa using hcx), List.length_cons, List.length_cons]
      omega

/-- The focus fields of the parent after a removal that leaves it a child. -/
theorem removeFromParentRecursive_one_round_focus {h : Hy3Layout} (wf : WellFormed h)
    {rank : Nat → Nat} {B : Nat} (rk : RankedBy h rank B) (ei : ExpandInv h) {x p : Nat}
    {ps : List Nat} (hc : AncestorChain h x (p :: ps)) {g : Hy3GroupData}
    (hg0 : h.group p = some g)
    (hrem : g.children.filter (fun s => s ≠ x) ≠ []) {fuel : Nat}
    (hf : B + (p :: ps).length < fuel) :
    ∃ r g', removeFromParentRecursive fuel h x = some r ∧ r.layout.group p = some g' ∧
      g'.group_focused = false ∧
      g'.focused_child =
        if (g.children.filter fun s => s ≠ x).length = 1 then
          (g.children.filter fun s => s ≠ x).head?
        else if g.children.length > 2 then
          (if g.children.head? = some x then g.children.get? 1
           else g.children.get? (g.children.indexOf x - 1))
        else g.focused_child := by
  obtain ⟨h1, actor, e1⟩ := removePrelude_total wf rk ei hc hf
  have s := removePrelude_same e1
  have hc1 : AncestorChain h1 x (p :: ps) := hc.congr_on (fun y _ => s.parentOf y)
  have wf1 : WellFormed h1 := by
    rw [wellFormed_iff] at wf ⊢
    refine ⟨fun a q hp => ?_, fun a c hm => ?_⟩
    · rw [s.parentOf] at hp
      rw [s.childrenOf]
      exact wf.1 a q hp
    · rw [s.childrenOf] at hm
      rw [s.parentOf]
      exact wf.2 a c hm
  obtain ⟨f, rfl⟩ : ∃ f, fuel = f + 1 := ⟨fuel - 1, by simp at hf; omega⟩
  cases hc1 with
  | step hn hp hrest =>
    obtain ⟨group, hg, eg⟩ := s.group hg0
    have egc : group.children = g.children := by
      have := congrArg Hy3GroupData.children eg
      simpa [Hy3GroupData.noExpand] using this
    have egf : group.focused_child = g.focused_child := by
      have := congrArg Hy3GroupData.focused_child eg
      simpa [Hy3GroupData.noExpand] using this
    have hpc : h1.parentOf x = some (some p) := by simp [Hy3Layout.parentOf, hn, hp]
    have chgp : h1.childrenOf p = group.children := childrenOf_of_group_eq hg
    have hm : x ∈ group.children := chgp ▸ wf1.mem_of_parent hpc
    have hxp : x ≠ p := by
      intro e
      have h0 := (rankedBy_iff h rank B).mp rk
      have := h0.2 x p ((s.parentOf x).symm.trans hpc)
      rw [e] at this
      exact lt_irrefl _ this
    rw [← egc] at hrem ⊢
    rw [← egf]
    have e2 := @removeLoop_step x f _ _ _ _ _ hn hp hg hm
    rw [if_pos hrem] at e2
    obtain ⟨g3, hg3, hg3g, hg3f⟩ := detachStore_group_focus x x p h1 group hg (Ne.symm hxp)
    obtain ⟨h4, h4e, g4⟩ := addRatioAll_spec _ (group.children.filter fun s => s ≠ x)
      (detachStore x x p group.children h1) (fun c hcm => by
        rw [detachStore_isSome]
        have hsc : ¬ (c = x ∧ x ≠ x) := fun hh => hh.2 rfl
        rw [if_neg hsc]
        exact wf1.childrenInStore.of_get (group_eq_some hg).choose_spec.1 c
          (by
            have := (group_eq_some hg).choose_spec.2
            rw [this]
            exact (List.mem_filter.mp hcm).1))
    rw [h4e] at e2
    have pr := addRatioAll_proj h4e
    refine ⟨⟨h4.modify x fun n => { n with parent := none }, some p, actor⟩, g3, ?_, ?_,
      hg3g, hg3f⟩
    · unfold removeFromParentRecursive
      rw [e1]
      simp only [e2, Option.map_some']
    · show (h4.modify x _).group p = _
      rw [group_modify_parent, pr.2.2, hg3]


/-- C33 (counterexample): the group 0 of `exFocusedPair` has the two children 1 and 2, with
`focused_child == 1` and `group_focused == true`. Removing the child 2 clears `group_focused`;
removing the child 1 clears `group_focused` and sets `focused_child` to 2. -/
theorem removeFromParentRecursive_two_children_focus_counterexample :
    (exFocusedPair.group 0).map (fun g => (g.children, g.focused_child, g.group_focused))
      = some ([1, 2], some 1, true) ∧
    (∃ r, removeFromParentRecursive 3 exFocusedPair 2 = some r ∧
      (r.layout.group 0).map (fun g => (g.children, g.focused_child, g.group_focused))
        = some ([1], some 1, false)) ∧
    ∃ r, removeFromParentRecursive 3 exFocusedPair 1 = some r ∧
      (r.layout.group 0).map (fun g => (g.children, g.focused_child, g.group_focused))
        = some ([2], some 2, false) :=
  ⟨rfl, ⟨_, rfl, rfl⟩, _, rfl, rfl⟩

/-- C33 (amended): in a well-formed, acyclic store whose expanded groups name a child, when
`removeFromParentRecursive` removes `x` from a group `p` with at least two children (so that
`p` keeps a child), it returns, and afterwards `group_focused` of `p` is false; `focused_child`
of `p` is the remaining child when `p` had exactly two children, and otherwise the child after
`x` when `x` was first and the child before `x` when it was not. -/
theorem removeFromParentRecursive_focus_reassigned (h : Hy3Layout) (wf : WellFormed h)
    (ac : Acyclic h) (ei : ExpandInv h) (x p : Nat) (ps : List Nat)
    (hc : AncestorChain h x (p :: ps)) (g : Hy3GroupData) (hg : h.group p = some g)
    (h2 : 2 ≤ g.children.length) :
    ∃ N, ∀ fuel, N ≤ fuel →
      ∃ r g', removeFromParentRecursive fuel h x = some r ∧ r.layout.group p = some g' ∧
        g'.children = g.children.filter (fun s => s ≠ x) ∧
        g'.group_focused = false ∧
        g'.focused_child =
          if g.children.length = 2 then (g.children.filter fun s => s ≠ x).head?
          else if g.children.head? = some x then g.children.get? 1
          else g.children.get? (g.children.indexOf x - 1) := by
  obtain ⟨rank, B, rk⟩ := ac
  have hpx : h.parentOf x = some (some p) := by
    cases hc with
    | step hn hp _ => simp [Hy3Layout.parentOf, hn, hp]
  have hm : x ∈ g.children := by
    rw [← childrenOf_of_group_eq hg]
    exact wf.mem_of_parent hpx
  have nd : g.children.Nodup := by
    rw [← childrenOf_of_group_eq hg]
    exact wf.children_nodup p
  have hlen := length_filter_ne_of_nodup nd hm
  have hrem : g.children.filter (fun s => s ≠ x) ≠ [] := by
    intro e
    rw [e] at hlen
    simp at hlen
    omega
  refine ⟨B + (p :: ps).length + 1, fun fuel hf => ?_⟩
  obtain ⟨r, g', e, hg', hgf, hfc⟩ :=
    removeFromParentRecursive_one_round_focus wf rk ei hc hg hrem (show _ < fuel by omega)
  obtain ⟨r2, e2, -, hch, -⟩ := removeFromParentRecursive_one_round wf rk ei hc
    (by rw [childrenOf_of_group_eq hg]; exact hrem) (show _ < fuel by omega)
  rw [e] at e2
  cases e2
  refine ⟨r, g', e, hg', ?_, hgf, ?_⟩
  · rw [← childrenOf_of_group_eq hg', hch, childrenOf_of_group_eq hg]
  · rw [hfc]
    by_cases hl : g.children.length = 2
    · rw [if_pos hl, if_pos (by omega)]
    · rw [if_neg hl, if_neg (by omega), if_pos (by omega)]

theorem removeFromParentRecursive_focus_reassigned_witness :
    ∃ N, ∀ fuel, N ≤ fuel →
      ∃ r g', removeFromParentRecursive fuel exRemoval 2 = some r ∧
        r.layout.group 0 = some g' ∧ g'.children = [1, 3] ∧ g'.group_focused = false ∧
        g'.focused_child = some 1 := by
  have c0 : AncestorChain exRemoval 0 [] := AncestorChain.root rfl rfl
  have c2 : AncestorChain exRemoval 2 [0] := AncestorChain.step rfl rfl c0
  obtain ⟨N, hN⟩ := removeFromParentRecursive_focus_reassigned exRemoval
    (wellFormed_of_check (by decide)) ⟨id, 3, rankedBy_of_check (by decide)⟩
    (expandInv_of_check (by decide)) 2 0 [] c2 _ rfl (by decide)
  exact ⟨N, fun fuel hf => by
    obtain ⟨r, g', e, hg, hc, hgf, hfc⟩ := hN fuel hf
    exact ⟨r, g', e, hg, hc, hgf, hfc⟩⟩


/-! ## C35: the gap offsets of the children of a split group -/

theorem Vector2D.ext_of_axes (L : Hy3GroupLayout) {u v : Vector2D}
    (h1 : u.along L = v.along L) (h2 : u.cross L = v.cross L) : u = v := by
  cases u; cases v
  unfold Vector2D.along at h1
  unfold Vector2D.cross at h2
  by_cases hL : L = Hy3GroupLayout.SplitV
  · simp only [hL, if_true] at h1 h2
    simp [h1, h2]
  · simp only [hL, if_false] at h1 h2
    simp [h1, h2]

/-- The gap offsets that the child loop assigns, by the position of the child. -/
theorem placeChild_gaps {L : Hy3GroupLayout} (hL : L ≠ Hy3GroupLayout.Tabbed)
    (tpos tsize gtl gbr : Vector2D) (tab mul : ℚ) (inset : Int) (hp th ef : Bool)
    (children : List Nat) (fc : Option Nat) (c : Nat) (r o : ℚ) :
    ∀ ng, (placeChild L tpos tsize gtl gbr tab mul inset hp th ef children fc c r o).1 = ng →
    ng.gap_topleft_offset.cross L = gtl.cross L ∧
    ng.gap_bottomright_offset.cross L = gbr.cross L ∧
    ng.gap_topleft_offset.along L =
      (if children.length = 1 ∨ children.head? = some c then gtl.along L else 0) ∧
    ng.gap_bottomright_offset.along L =
      (if children.length = 1 then gbr.along L + (if hp then (inset : ℚ) else 0)
       else if children.head? = some c then 0
       else if children.getLast? = some c then gbr.along L else 0) ∧
    (children.length = 1 → ng.size = tsize) := by
  rintro _ rfl
  cases L with
  | Tabbed => exact absurd rfl hL
  | SplitH =>
    unfold placeChild
    simp only [Vector2D.along, Vector2D.cross]
    by_cases h1 : children.length = 1
    · simp [h1]
    · by_cases h2 : children.head? = some c
      · simp [h1, h2]
      · by_cases h3 : children.getLast? = some c
        · simp [h1, h2, h3]
        · simp [h1, h2, h3]
  | SplitV =>
    unfold placeChild
    simp only [Vector2D.along, Vector2D.cross]
    by_cases h1 : children.length = 1
    · simp [h1]
    · by_cases h2 : children.head? = some c
      · simp [h1, h2]
      · by_cases h3 : children.getLast? = some c
        · simp [h1, h2, h3]
        · simp [h1, h2, h3]

theorem placements_gaps (h : Hy3Layout) {L : Hy3GroupLayout} (hL : L ≠ Hy3GroupLayout.Tabbed)
    (tpos tsize gtl gbr : Vector2D) (tab mul : ℚ) (inset : Int) (hp th ef : Bool)
    (children : List Nat) (fc : Option Nat) :
    ∀ (l : List Nat) (o : ℚ),
      ∀ p ∈ placements h L tpos tsize gtl gbr tab mul inset hp th ef children fc l o,
        p.2.gap_topleft_offset.cross L = gtl.cross L ∧
        p.2.gap_bottomright_offset.cross L = gbr.cross L ∧
        p.2.gap_topleft_offset.along L =
          (if children.length = 1 ∨ children.head? = some p.1 then gtl.along L else 0) ∧
        p.2.gap_bottomright_offset.along L =
          (if children.length = 1 then gbr.along L + (if hp then (inset : ℚ) else 0)
           else if children.head? = some p.1 then 0
           else if children.getLast? = some p.1 then gbr.along L else 0) ∧
        (children.length = 1 → p.2.size = tsize)
  | [], _, p, hm => by cases hm
  | c :: rest, o, p, hm => by
    unfold placements at hm
    rcases List.mem_cons.mp hm with e | e
    · rw [e]
      exact placeChild_gaps hL tpos tsize gtl gbr tab mul inset hp th ef children fc c _ o _ rfl
    · exact placements_gaps h hL tpos tsize gtl gbr tab mul inset hp th ef children fc rest _ p e


theorem head?_ne_getLast?_of_nodup {cs : List Nat} (nd : cs.Nodup) (h2 : 2 ≤ cs.length)
    {c : Nat} (hh : cs.head? = some c) : cs.getLast? ≠ some c := by
  match cs, nd, h2, hh with
  | a :: b :: rest, nd, _, hh =>
    simp only [List.head?_cons, Option.some.injEq] at hh
    subst hh
    intro hl
    have hm := List.mem_of_getLast?_eq_some hl
    have hne : (b :: rest) ≠ [] := by simp
    rw [List.getLast?_cons_cons] at hl
    have := List.mem_of_getLast?_eq_some hl
    exact (List.nodup_cons.mp nd).1 this

/-- C35: in a well-formed, acyclic store that the layout pass can traverse, for a SplitH or
SplitV group without an active expansion whose pass works with the offsets `tl` and `br` (its
own gap offsets when it has a parent, the configured outer minus inner gaps when it is a
root), `recalcSizePosRecursive` returns for every sufficiently large fuel, and afterwards every
child has the components of `tl` and `br` across the axis; along the axis, in a group of two or
more children the first child has `tl` and 0, the last child 0 and `br`, every other child 0
and 0, and a lone child has `tl` and `br` (plus `group_inset` exactly when the group has a
parent) and the size of the group. -/
theorem recalcSizePosRecursive_gap_rules (cfg : LayoutConfig) (h : Hy3Layout)
    (wf : WellFormed h) (ac : Acyclic h) (lr : LayoutReady h) (ei : ExpandInv h) (this : Nat)
    (n : Hy3Node) (group : Hy3GroupData) (hn : h.get this = some n)
    (hd : n.data = Hy3NodeData.group group) (hL : group.layout ≠ Hy3GroupLayout.Tabbed)
    (hne : group.expand_focused = ExpandFocusType.NotExpanded) (geo : Geometry) :
    ∃ N, ∀ fuel, N ≤ fuel →
      ∃ geo', recalcSizePosRecursive cfg fuel h geo this = some geo' ∧
        ∀ c ∈ group.children,
          (geo' c).gap_topleft_offset.cross group.layout
            = (effectiveGaps cfg n.parent (geo this)).1.cross group.layout ∧
          (geo' c).gap_bottomright_offset.cross group.layout
            = (effectiveGaps cfg n.parent (geo this)).2.cross group.layout ∧
          (2 ≤ group.children.length →
            (geo' c).gap_topleft_offset.along group.layout
              = (if group.children.head? = some c then
                  (effectiveGaps cfg n.parent (geo this)).1.along group.layout else 0) ∧
            (geo' c).gap_bottomright_offset.along group.layout
              = (if group.children.getLast? = some c then
                  (effectiveGaps cfg n.parent (geo this)).2.along group.layout else 0)) ∧
          (group.children.length = 1 →
            (geo' c).gap_topleft_offset.along group.layout
              = (effectiveGaps cfg n.parent (geo this)).1.along group.layout ∧
            (geo' c).gap_bottomright_offset.along group.layout
              = (effectiveGaps cfg n.parent (geo this)).2.along group.layout
                + (if n.parent ≠ none then (cfg.group_inset : ℚ) else 0) ∧
            (geo' c).size = (geo this).size) := by
  obtain ⟨rank, B, rk⟩ := ac
  have cr := wf.childrenRanked rk
  refine ⟨B + 1, fun fuel hf => ?_⟩
  obtain ⟨geo', e, -, pl⟩ := recalcSizePosRecursive_group cfg wf cr lr ei hn hd hne geo
    (show B - rank this < fuel by omega)
  have hnd : group.children.Nodup := by
    rw [← childrenOf_of_group_eq (group_of_get hn hd)]
    exact wf.children_nodup this
  have t := placements_gaps h hL (geo this).position (geo this).size
    (effectiveGaps cfg n.parent (geo this)).1 (effectiveGaps cfg n.parent (geo this)).2
    (((cfg.tab_bar_height + cfg.tab_bar_padding : Int) : ℚ))
    (ratioMul group.layout (geo this).size (effectiveGaps cfg n.parent (geo this)).1
      (effectiveGaps cfg n.parent (geo this)).2 group.children.length) cfg.group_inset
    (decide (n.parent ≠ none)) (geo this).hidden false group.children group.focused_child
    group.children 0
  have hfst := placements_fst h group.layout (geo this).position (geo this).size
    (effectiveGaps cfg n.parent (geo this)).1 (effectiveGaps cfg n.parent (geo this)).2
    (((cfg.tab_bar_height + cfg.tab_bar_padding : Int) : ℚ))
    (ratioMul group.layout (geo this).size (effectiveGaps cfg n.parent (geo this)).1
      (effectiveGaps cfg n.parent (geo this)).2 group.children.length) cfg.group_inset
    (decide (n.parent ≠ none)) (geo this).hidden false group.children group.focused_child
    group.children 0
  change ∀ p ∈ placements _ _ _ _ _ _ _ _ _ _ _ _ _ _ _ _, geo' p.1 = p.2 at pl
  generalize placements h group.layout (geo this).position (geo this).size
    (effectiveGaps cfg n.parent (geo this)).1 (effectiveGaps cfg n.parent (geo this)).2
    (((cfg.tab_bar_height + cfg.tab_bar_padding : Int) : ℚ))
    (ratioMul group.layout (geo this).size (effectiveGaps cfg n.parent (geo this)).1
      (effectiveGaps cfg n.parent (geo this)).2 group.children.length) cfg.group_inset
    (decide (n.parent ≠ none)) (geo this).hidden false group.children group.focused_child
    group.children 0 = ps at t hfst pl
  refine ⟨geo', e, fun c hc => ?_⟩
  rw [← hfst] at hc
  obtain ⟨p, hp1, hp2⟩ := List.mem_map.mp hc
  obtain ⟨t1, t2, t3, t4, t5⟩ := t p hp1
  subst hp2
  rw [pl p hp1]
  refine ⟨t1, t2, fun h2 => ?_, fun h1 => ?_⟩
  · have hl1 : group.children.length ≠ 1 := by omega
    rw [t3, t4]
    constructor
    · simp only [hl1, false_or]
    · simp only [hl1, if_false]
      by_cases hh : group.children.head? = some p.1
      · rw [if_pos hh, if_neg (head?_ne_getLast?_of_nodup hnd h2 hh)]
      · rw [if_neg hh]
  · rw [t3, t4, if_pos (Or.inl h1), if_pos h1]
    refine ⟨rfl, ?_, t5 h1⟩
    by_cases hp : n.parent = none
    · simp [hp]
    · simp [hp]

theorem recalcSizePosRecursive_gap_rules_witness :
    ∃ N, ∀ fuel, N ≤ fuel →
      ∃ geo', recalcSizePosRecursive exGapConfig fuel (exPair 1 1) exGeometry 0 = some geo' ∧
        (geo' 1).gap_topleft_offset = ⟨15, 15⟩ ∧ (geo' 1).gap_bottomright_offset = ⟨0, 15⟩ ∧
        (geo' 2).gap_topleft_offset = ⟨0, 15⟩ ∧ (geo' 2).gap_bottomright_offset = ⟨15, 15⟩ := by
  obtain ⟨N, hN⟩ := recalcSizePosRecursive_gap_rules exGapConfig (exPair 1 1)
    (wellFormed_of_check (by decide)) ⟨id, 2, rankedBy_of_check (by decide)⟩
    (layoutReady_of_check (by decide)) (expandInv_of_check (by decide)) 0 _
    { children := [1, 2], group_focused := false, focused_child := some 1 } rfl rfl
    (by decide) rfl exGeometry
  refine ⟨N, fun fuel hf => ?_⟩
  obtain ⟨geo', e, hg⟩ := hN fuel hf
  obtain ⟨a1, a2, a3, -⟩ := hg 1 (by decide)
  obtain ⟨b1, b2, b3, -⟩ := hg 2 (by decide)
  obtain ⟨a4, a5⟩ := a3 (by decide)
  obtain ⟨b4, b5⟩ := b3 (by decide)
  refine ⟨geo', e, ?_, ?_, ?_, ?_⟩
  · refine Vector2D.ext_of_axes Hy3GroupLayout.SplitH (a4.trans ?_) (a1.trans ?_) <;>
      simp [effectiveGaps, exGapConfig, Vector2D.along, Vector2D.cross]
  · refine Vector2D.ext_of_axes Hy3GroupLayout.SplitH (a5.trans ?_) (a2.trans ?_) <;>
      simp [effectiveGaps, exGapConfig, Vector2D.along, Vector2D.cross]
  · refine Vector2D.ext_of_axes Hy3GroupLayout.SplitH (b4.trans ?_) (b1.trans ?_) <;>
      simp [effectiveGaps, exGapConfig, Vector2D.along, Vector2D.cross]
  · refine Vector2D.ext_of_axes Hy3GroupLayout.SplitH (b5.trans ?_) (b2.trans ?_) <;>
      simp [effectiveGaps, exGapConfig, Vector2D.along, Vector2D.cross]


/-! ## C36: a latch below a latch -/

/-- C36: from `exNestedGroup`, `expand(Expand)` latches the group 2 on its window 3,
`markFocused` on the group 2 focuses it as a group, and a second `expand(Expand)` latches its
parent 1 while the group 2 stays latched. In that store the expansion target of the latch
group 1 is the window 3, and `recalcSizePosRecursive` on the group 1 (not hidden, 100 by 50)
leaves the window 3 hidden and 100 by 25, the share of the group 2. After two calls of
`expand(Expand)` alone the group 2 is Stack, and the pass leaves the window 3 visible and 100
by 50. -/
theorem recalcSizePosRecursive_nested_latch_hides_target :
    ∃ h1 h2 h3 geo, expand 10 exNestedGroup (some 0) ExpandOption.Expand = some h1 ∧
      markFocused 10 h1 2 = some h2 ∧
      expand 10 h2 (some 0) ExpandOption.Expand = some h3 ∧
      (h3.group 1).map (fun g => (g.expand_focused, g.focused_child))
        = some (ExpandFocusType.Latch, some 2) ∧
      expansionTarget 10 h3 (some 2) = some (some 3) ∧
      (exGeometry 1).hidden = false ∧ (exGeometry 1).size = ⟨100, 50⟩ ∧
      recalcSizePosRecursive exConfig 10 h3 exGeometry 1 = some geo ∧
      (geo 3).hidden = true ∧ (geo 3).size = ⟨100, 25⟩ ∧
      ∃ h4 geo2, expand 10 h1 (some 0) ExpandOption.Expand = some h4 ∧
        (h4.group 1).map Hy3GroupData.expand_focused = some ExpandFocusType.Latch ∧
        (h4.group 2).map Hy3GroupData.expand_focused = some ExpandFocusType.Stack ∧
        recalcSizePosRecursive exConfig 10 h4 exGeometry 1 = some geo2 ∧
        (geo2 3).hidden = false ∧ (geo2 3).size = ⟨100, 50⟩ :=
  ⟨_, _, _, _, rfl, rfl, rfl, rfl, rfl, rfl, rfl, rfl, by decide!, by decide!,
    _, _, rfl, rfl, rfl, rfl, by decide!, by decide!⟩


/-! ## C39: expand, then shrink -/

/-- C39: in `exNestedGroupFocused` the focused node of workspace 0 is the group 2, focused as a
group, with the non-root parent 1, and no group is expanded. `expand(Expand)` latches the
parent 1 and leaves the group 2 alone; `expand(Shrink)` then clears the parent 1 and sets
`expand_focused` of the group 2 to Latch, so the group 2 does not get back the value
NotExpanded it had before the two calls. In `exNestedGroup`, where the window 3 is focused, the
two calls restore the store. -/
theorem expand_shrink_latches_focused_group :
    getWorkspaceFocusedNode 10 exNestedGroupFocused (some 0) false true = some (some 2) ∧
    (exNestedGroupFocused.group 2).map (fun g => (g.group_focused, g.expand_focused))
      = some (true, ExpandFocusType.NotExpanded) ∧
    exNestedGroupFocused.parentOf 2 = some (some 1) ∧
    exNestedGroupFocused.parentOf 1 = some (some 0) ∧
    ∃ h1 h2, expand 10 exNestedGroupFocused (some 0) ExpandOption.Expand = some h1 ∧
      (h1.group 1).map Hy3GroupData.expand_focused = some ExpandFocusType.Latch ∧
      (h1.group 2).map Hy3GroupData.expand_focused = some ExpandFocusType.NotExpanded ∧
      expand 10 h1 (some 0) ExpandOption.Shrink = some h2 ∧
      (h2.group 1).map Hy3GroupData.expand_focused = some ExpandFocusType.NotExpanded ∧
      (h2.group 2).map Hy3GroupData.expand_focused = some ExpandFocusType.Latch ∧
      ∃ h3, expand 10 exNestedGroup (some 0) ExpandOption.Expand = some h3 ∧
        expand 10 h3 (some 0) ExpandOption.Shrink = some exNestedGroup :=
  ⟨rfl, rfl, rfl, rfl, _, _, rfl, rfl, rfl, rfl, rfl, rfl, _, rfl, rfl⟩


/-! ## C40: the neighbour that executeResizeOperation resizes -/

theorem getAxisOfDirection_reverse (d : ShiftDirection) :
    getAxisOfDirection (reverse d) = getAxisOfDirection d := by
  cases d <;> rfl

/-- The lowest ancestor-or-self that `findNeighborSpec` stops at. -/
theorem findNeighborSpec_some {h : Hy3Layout} {d : ShiftDirection} {S : Nat} :
    ∀ (ps : List Nat) (y : Nat), AncestorChain h y ps → findNeighborSpec h d y ps = some S →
      ∃ c p, (c = y ∨ c ∈ ps) ∧ h.parentOf c = some (some p) ∧
        notOutermostOnAxis h d c p = true ∧
        siblingInDirection (h.childrenOf p) c d = some S
  | [], _, _, e => by simp [findNeighborSpec] at e
  | p :: ps, y, hc, e => by
    cases hc with
    | step hn hp hrest =>
      unfold findNeighborSpec at e
      by_cases hno : notOutermostOnAxis h d y p = true
      · rw [if_pos hno] at e
        exact ⟨y, p, Or.inl rfl, by simp [Hy3Layout.parentOf, hn, hp], hno, e⟩
      · rw [if_neg hno] at e
        obtain ⟨c, q, hcm, h1, h2, h3⟩ := findNeighborSpec_some ps p hrest e
        refine ⟨c, q, Or.inr ?_, h1, h2, h3⟩
        rcases hcm with rfl | hcm
        · exact List.mem_cons_self _ _
        · exact List.mem_cons_of_mem _ hcm

/-- The sibling found next to `c` in a direction has `c` as the child next to it in the
opposite direction: the request that `resize` builds for it names `c` as the neighbour. -/
theorem resizeRequest_of_sibling {h : Hy3Layout} (wf : WellFormed h) {d : ShiftDirection}
    {c p S : Nat} (hpc : h.parentOf c = some (some p))
    (hno : notOutermostOnAxis h d c p = true)
    (hs : siblingInDirection (h.childrenOf p) c d = some S) :
    S ≠ c ∧ h.parentOf S = some (some p) ∧
    (∃ g, h.group p = some g ∧ getOuterChild g (reverse d) ≠ some S) ∧
    ∀ (geo : Geometry) (delta : ℚ), ∃ req sn cn,
      resizeRequest h geo S (reverse d) delta = some (some req) ∧ req.neighbor = c ∧
      req.parent_node = p ∧ h.get S = some sn ∧ h.get c = some cn ∧
      req.requested_size_ratio + req.requested_neighbor_size_ratio
        = sn.size_ratio + cn.size_ratio := by
  obtain ⟨cn, hcn, hcp⟩ := parentOf_eq_some.mp hpc
  obtain ⟨g, hg⟩ := Option.isSome_iff_exists.mp (wf.parent_group hcn hcp)
  have hcs : h.childrenOf p = g.children := childrenOf_of_group_eq hg
  have hm : c ∈ g.children := hcs ▸ wf.mem_of_parent hpc
  have nd : g.children.Nodup := hcs ▸ wf.children_nodup p
  have hi : g.children.indexOf c < g.children.length := List.indexOf_lt_length.mpr hm
  have hself := indexOf_get?_self hm
  unfold notOutermostOnAxis at hno
  simp only [hg, Bool.and_eq_true, bne_iff_ne, ne_eq, beq_iff_eq] at hno
  obtain ⟨⟨hlay, hax⟩, hout⟩ := hno
  rw [hcs] at hs
  unfold siblingInDirection at hs
  have hget : ∀ i, g.children.get? i = some S → S ∈ g.children := by
    intro i e
    obtain ⟨hlt, e'⟩ := List.get?_eq_some.mp e
    rw [← e']
    exact List.get_mem _ _ _
  have hSm : S ∈ g.children := by
    split_ifs at hs
    · exact hget _ hs
    · exact hget _ hs
  have hSp : h.parentOf S = some (some p) :=
    ((wellFormed_iff h).mp wf).2 p S (hcs ▸ hSm)
  obtain ⟨sn, hsn, hsp⟩ := parentOf_eq_some.mp hSp
  have hidx : (directionToIteratorIncrement d = -1 →
        g.children.indexOf c ≠ 0 ∧ g.children.indexOf S = g.children.indexOf c - 1) ∧
      (directionToIteratorIncrement d ≠ -1 →
        g.children.indexOf S = g.children.indexOf c + 1) := by
    constructor
    · intro hd
      rw [if_pos hd] at hs
      by_cases h0 : g.children.indexOf c = 0
      · rw [if_pos h0] at hs; cases hs
      · rw [if_neg h0] at hs
        exact ⟨h0, indexOf_of_get? nd hs⟩
    · intro hd
      rw [if_neg hd] at hs
      exact indexOf_of_get? nd hs
  have hSc : S ≠ c := by
    intro e
    subst e
    by_cases hd : directionToIteratorIncrement d = -1
    · have := hidx.1 hd
      omega
    · have := hidx.2 hd
      omega
  have hiS : g.children.indexOf S < g.children.length := List.indexOf_lt_length.mpr hSm
  have houtS : getOuterChild g (reverse d) ≠ some S := by
    intro e
    cases d with
    | Left =>
      have h1 := hidx.1 (show directionToIteratorIncrement ShiftDirection.Left = -1 from rfl)
      have : g.children.get? (g.children.length - 1) = some S := by
        rw [get?_last_getLast?]; exact e
      have := indexOf_of_get? nd this
      omega
    | Up =>
      have h1 := hidx.1 (show directionToIteratorIncrement ShiftDirection.Up = -1 from rfl)
      have : g.children.get? (g.children.length - 1) = some S := by
        rw [get?_last_getLast?]; exact e
      have := indexOf_of_get? nd this
      omega
    | Right =>
      have h1 := hidx.2 (show directionToIteratorIncrement ShiftDirection.Right ≠ -1 by decide)
      have : g.children.get? 0 = some S := by
        rw [get?_zero_head?]; exact e
      have := indexOf_of_get? nd this
      omega
    | Down =>
      have h1 := hidx.2 (show directionToIteratorIncrement ShiftDirection.Down ≠ -1 by decide)
      have : g.children.get? 0 = some S := by
        rw [get?_zero_head?]; exact e
      have := indexOf_of_get? nd this
      omega
  refine ⟨hSc, hSp, ⟨g, hg, houtS⟩, fun geo delta => ?_⟩
  have hcond : g.layout ≠ Hy3GroupLayout.Tabbed
      ∧ getAxisOfDirection (reverse d) = getAxisOfLayout g.layout :=
    ⟨hlay, by rw [getAxisOfDirection_reverse]; exact hax.symm⟩
  obtain ⟨outer, houter⟩ : ∃ o, getOuterChild g (reverse d) = some o := by
    have hne : g.children ≠ [] := List.ne_nil_of_mem hm
    have h1 : ∃ o, g.children.head? = some o := by
      cases hcc : g.children with
      | nil => exact absurd hcc hne
      | cons a l => exact ⟨a, rfl⟩
    have h2 : ∃ o, g.children.getLast? = some o := by
      cases hl : g.children.getLast? with
      | none => exact absurd (List.getLast?_eq_none_iff.mp hl) hne
      | some b => exact ⟨b, rfl⟩
    cases d <;> first | exact h1 | exact h2
  have hne : S ≠ outer := fun e => houtS (e ▸ houter)
  have hiter : (if directionToIteratorIncrement (reverse d) = -1 then
        (if g.children.indexOf S = 0 then none
         else some (g.children.indexOf S - 1,
          delta * (g.children.length : ℚ) /
            (if getAxisOfDirection (reverse d) = Axis.Horizontal then (geo p).size.x
             else (geo p).size.y) * (directionToIteratorIncrement (reverse d) : ℚ)))
       else some (g.children.indexOf S + 1,
          delta * (g.children.length : ℚ) /
            (if getAxisOfDirection (reverse d) = Axis.Horizontal then (geo p).size.x
             else (geo p).size.y) * (directionToIteratorIncrement (reverse d) : ℚ)))
      = some (g.children.indexOf c,
          delta * (g.children.length : ℚ) /
            (if getAxisOfDirection (reverse d) = Axis.Horizontal then (geo p).size.x
             else (geo p).size.y) * (directionToIteratorIncrement (reverse d) : ℚ)) := by
    cases d with
    | Left =>
      have h1 := hidx.1 (show directionToIteratorIncrement ShiftDirection.Left = -1 from rfl)
      rw [if_neg (show ¬ directionToIteratorIncrement (reverse ShiftDirection.Left) = -1 by
        decide), show g.children.indexOf S + 1 = g.children.indexOf c by omega]
    | Up =>
      have h1 := hidx.1 (show directionToIteratorIncrement ShiftDirection.Up = -1 from rfl)
      rw [if_neg (show ¬ directionToIteratorIncrement (reverse ShiftDirection.Up) = -1 by
        decide), show g.children.indexOf S + 1 = g.children.indexOf c by omega]
    | Right =>
      have h1 := hidx.2 (show directionToIteratorIncrement ShiftDirection.Right ≠ -1 by decide)
      rw [if_pos (show directionToIteratorIncrement (reverse ShiftDirection.Right) = -1 from
        rfl), if_neg (show ¬ g.children.indexOf S = 0 by omega),
        show g.children.indexOf S - 1 = g.children.indexOf c by omega]
    | Down =>
      have h1 := hidx.2 (show directionToIteratorIncrement ShiftDirection.Down ≠ -1 by decide)
      rw [if_pos (show directionToIteratorIncrement (reverse ShiftDirection.Down) = -1 from
        rfl), if_neg (show ¬ g.children.indexOf S = 0 by omega),
        show g.children.indexOf S - 1 = g.children.indexOf c by omega]
  unfold resizeRequest
  simp only [hsn, hsp, hg]
  rw [if_pos hcond, if_pos hSm]
  simp only [houter]
  rw [if_pos hne, hiter]
  simp only [hself, hcn]
  exact ⟨_, sn, cn, rfl, rfl, rfl, rfl, rfl, by ring⟩


/-- C40: in a well-formed store, when `findNeighbor(d)` on a node `u` (with ancestors `ps` and
fuel above their number) returns a node `S`, then `S` is the sibling, in direction `d`, of an
ancestor-or-self `c` of `u`; `S` is not `c` and is not the outermost child of their parent in
direction `reverse(d)`; the request that `S.resize(reverse(d), delta)` builds names `c` as the
neighbour, and the two requested ratios have the sum of the ratios of `S` and `c`; and
`executeResizeOperation` issues exactly this `resize` for the edge `d` (shown where the other
edge has no neighbour). -/
theorem executeResizeOperation_distinct_neighbour (h : Hy3Layout) (wf : WellFormed h)
    (u : Nat) (ps : List Nat) (hc : AncestorChain h u ps) (d : ShiftDirection) (fuel : Nat)
    (hf : ps.length < fuel) (S : Nat) (hS : findNeighbor fuel h u d = some (some S)) :
    ∃ c p g, (c = u ∨ c ∈ ps) ∧ S ≠ c ∧ h.parentOf c = some (some p) ∧
      h.parentOf S = some (some p) ∧ h.group p = some g ∧
      siblingInDirection g.children c d = some S ∧
      getOuterChild g (reverse d) ≠ some S ∧
      (∀ (geo : Geometry) (delta : ℚ), ∃ req sn cn,
        resizeRequest h geo S (reverse d) delta = some (some req) ∧ req.neighbor = c ∧
        req.parent_node = p ∧ h.get S = some sn ∧ h.get c = some cn ∧
        req.requested_size_ratio + req.requested_neighbor_size_ratio
          = sn.size_ratio + cn.size_ratio) ∧
      ∀ (cfg : LayoutConfig) (geo : Geometry) (target_edge_y : ShiftDirection)
        (resize_delta : Vector2D), resize_delta.x ≠ 0 →
        findNeighbor fuel h u target_edge_y = some none →
        executeResizeOperation cfg fuel h geo u d target_edge_y resize_delta
          = resize cfg fuel h geo S (reverse d) resize_delta.x := by
  have hspec := (findNeighbor_lowest_not_outermost h wf u ps hc d fuel hf).1
  rw [hS] at hspec
  obtain ⟨c, p, hcm, hpc, hno, hs⟩ :=
    findNeighborSpec_some ps u hc (Option.some.inj hspec).symm
  obtain ⟨h1, h2, ⟨g, hg, h3⟩, h4⟩ := resizeRequest_of_sibling wf hpc hno hs
  refine ⟨c, p, g, hcm, h1, hpc, h2, hg, ?_, h3, h4, ?_⟩
  · rw [← childrenOf_of_group_eq hg]; exact hs
  · intro cfg geo ey delta hx hv
    unfold executeResizeOperation
    rw [if_pos (Or.inl hx), hS, hv]
    simp only
    cases resize cfg fuel h geo S (reverse d) delta.x with
    | none => rfl
    | some r => rfl

theorem executeResizeOperation_distinct_neighbour_witness :
    ∃ c p g, (c = 3 ∨ c ∈ [1, 0]) ∧ 2 ≠ c ∧ exEphemeral.parentOf c = some (some p) ∧
      exEphemeral.parentOf 2 = some (some p) ∧ exEphemeral.group p = some g ∧
      siblingInDirection g.children c ShiftDirection.Up = some 2 ∧
      getOuterChild g (reverse ShiftDirection.Up) ≠ some 2 ∧
      (∀ (geo : Geometry) (delta : ℚ), ∃ req sn cn,
        resizeRequest exEphemeral geo 2 (reverse ShiftDirection.Up) delta = some (some req) ∧
        req.neighbor = c ∧ req.parent_node = p ∧ exEphemeral.get 2 = some sn ∧
        exEphemeral.get c = some cn ∧
        req.requested_size_ratio + req.requested_neighbor_size_ratio
          = sn.size_ratio + cn.size_ratio) ∧
      ∀ (cfg : LayoutConfig) (geo : Geometry) (target_edge_y : ShiftDirection)
        (resize_delta : Vector2D), resize_delta.x ≠ 0 →
        findNeighbor 3 exEphemeral 3 target_edge_y = some none →
        executeResizeOperation cfg 3 exEphemeral geo 3 ShiftDirection.Up target_edge_y
            resize_delta
          = resize cfg 3 exEphemeral geo 2 (reverse ShiftDirection.Up) resize_delta.x :=
  executeResizeOperation_distinct_neighbour exEphemeral (wellFormed_of_check (by decide)) 3
    [1, 0] (AncestorChain.step rfl rfl (AncestorChain.step rfl rfl (AncestorChain.root rfl rfl)))
    ShiftDirection.Up 3 (by decide) 2 rfl


/-! ## C34: the same-parent shift -/

theorem filterMap_id_map_some (l : List Nat) : (l.map some).filterMap id = l := by
  induction l with
  | nil => rfl
  | cons a l ih => simp [List.filterMap_cons, ih]

theorem reorderChild_cons {a x : Nat} (hax : a ≠ x) (cs : List Nat) (k : Nat) :
    reorderChild (a :: cs) x (k + 1) = (reorderChild cs x k).map fun r => a :: r := by
  unfold reorderChild
  by_cases hm : x ∈ cs
  · have hm2 : x ∈ a :: cs := List.mem_cons_of_mem _ hm
    rw [if_pos hm, if_pos hm2]
    simp [List.indexOf_cons_ne _ hax, List.filterMap_cons]
  · have hm2 : x ∉ a :: cs := by
      simp only [List.mem_cons, not_or]
      exact ⟨fun e => hax e.symm, hm⟩
    rw [if_neg hm, if_neg hm2]
    rfl

theorem reorderChild_forward (x y : Nat) (l2 : List Nat) :
    ∀ l1 : List Nat, x ∉ l1 →
      reorderChild (l1 ++ x :: y :: l2) x (l1.length + 2) = some (l1 ++ y :: x :: l2)
  | [], _ => by
    unfold reorderChild
    simp [List.filterMap_cons, filterMap_id_map_some]
  | a :: l1, hx => by
    have hax : a ≠ x := fun e => hx (e ▸ List.mem_cons_self _ _)
    have hx1 : x ∉ l1 := fun m => hx (List.mem_cons_of_mem _ m)
    have := reorderChild_cons hax (l1 ++ x :: y :: l2) (l1.length + 2)
    rw [reorderChild_forward x y l2 l1 hx1] at this
    simpa using this

theorem reorderChild_backward (x y : Nat) (l2 : List Nat) (hxy : y ≠ x) :
    ∀ l1 : List Nat, x ∉ l1 →
      reorderChild (l1 ++ y :: x :: l2) x l1.length = some (l1 ++ x :: y :: l2)
  | [], _ => by
    unfold reorderChild
    simp [List.filterMap_cons, filterMap_id_map_some, List.indexOf_cons_ne _ hxy]
  | a :: l1, hx => by
    have hax : a ≠ x := fun e => hx (e ▸ List.mem_cons_self _ _)
    have hx1 : x ∉ l1 := fun m => hx (List.mem_cons_of_mem _ m)
    have := reorderChild_cons hax (l1 ++ y :: x :: l2) l1.length
    rw [reorderChild_backward x y l2 hxy l1 hx1] at this
    simpa using this


theorem getLast?_append_cons_cons_ne {x y : Nat} {l1 l2 : List Nat}
    (nd : (l1 ++ x :: y :: l2).Nodup) {e : Nat}
    (he : (l1 ++ x :: y :: l2).getLast? = some e) : e ≠ x := by
  have h1 : (l1 ++ x :: y :: l2).getLast? = (y :: l2).getLast? := by
    rw [show l1 ++ x :: y :: l2 = (l1 ++ [x]) ++ (y :: l2) by simp]
    rw [List.getLast?_append_of_ne_nil _ (by simp)]
  rw [h1] at he
  have hm : e ∈ y :: l2 := List.mem_of_getLast?_eq_some he
  have nd2 : (x :: y :: l2).Nodup := (List.nodup_append.mp nd).2.1
  intro ex
  subst ex
  exact (List.nodup_cons.mp nd2).1 hm

theorem head?_append_cons_cons_ne {x y : Nat} {l1 l2 : List Nat}
    (nd : (l1 ++ y :: x :: l2).Nodup) {e : Nat}
    (he : (l1 ++ y :: x :: l2).head? = some e) : e ≠ x := by
  cases l1 with
  | nil =>
    simp only [List.nil_append, List.head?_cons, Option.some.injEq] at he
    subst he
    simp only [List.nil_append, List.nodup_cons, List.mem_cons, not_or] at nd
    exact nd.1.1
  | cons a l1 =>
    simp only [List.cons_append, List.head?_cons, Option.some.injEq] at he
    subst he
    simp only [List.cons_append, List.nodup_cons, List.mem_append, List.mem_cons, not_or] at nd
    exact nd.1.2.2.1

theorem not_mem_left_of_nodup {x : Nat} {l1 r : List Nat} (nd : (l1 ++ r).Nodup)
    (hx : x ∈ r) : x ∉ l1 := fun m => (List.nodup_append.mp nd).2.2 m hx


theorem getExpandActor_of_noexp {h : Hy3Layout} {G x : Nat} {g : Hy3GroupData} {xn : Hy3Node}
    (hg : h.group G = some g) (hx : h.get x = some xn) (hxp : xn.parent = some G)
    (hne : g.expand_focused = ExpandFocusType.NotExpanded) (fuel : Nat) :
    getExpandActor (fuel + 1) h x = some x := by
  simp [getExpandActor, hx, hxp, hg, hne]

theorem breakLoop_at_parent {h : Hy3Layout} {G x e : Nat} {g : Hy3GroupData}
    {d : ShiftDirection} (hg : h.group G = some g)
    (hL : g.layout ≠ Hy3GroupLayout.Tabbed) (hm : shiftMatchesLayout g.layout d = true)
    (he : (if shiftIsForward d then g.children.getLast? else g.children.head?) = some e)
    (hex : e ≠ x) (once visible : Bool) (fuel : Nat) :
    breakLoop x d true once visible (fuel + 1) h x (some G) false
      = some (some (h, x, G, false)) := by
  obtain ⟨Gn, hGn, hGd⟩ := group_eq_some hg
  have hex2 : (e != x) = true := by simpa using hex
  unfold breakLoop
  simp [hGn, hGd, hm, hL, he, hex2]

theorem resolveInsert_same_parent {h : Hy3Layout} {G x y : Nat} {g : Hy3GroupData}
    {xn yn : Hy3Node} {d : ShiftDirection}
    (hg : h.group G = some g) (nd : g.children.Nodup) (hxm : x ∈ g.children)
    (hx : h.get x = some xn) (hxp : xn.parent = some G)
    (hs : shiftNeighbour d g.children x = some y)
    (hy : h.get y = some yn) (hyw : ∃ w, yn.data = Hy3NodeData.window w)
    (once visible : Bool) (fuel : Nat) :
    resolveInsert fuel h x x G false d true once visible
      = some (ShiftTarget.place G
          (if shiftIsForward d then g.children.indexOf x + 2 else g.children.indexOf x - 1)) := by
  obtain ⟨w, hw⟩ := hyw
  have hi := List.indexOf_lt_length.mpr hxm
  have hself := indexOf_get?_self hxm
  obtain ⟨b, hb⟩ : ∃ b, g.children.getLast? = some b := by
    cases hl : g.children.getLast? with
    | none => rw [List.getLast?_eq_none_iff] at hl; rw [hl] at hxm; simp at hxm
    | some b => exact ⟨b, rfl⟩
  obtain ⟨f, hf⟩ : ∃ f, g.children.head? = some f := by
    cases hl : g.children.head? with
    | none => rw [List.head?_eq_none_iff] at hl; rw [hl] at hxm; simp at hxm
    | some b => exact ⟨b, rfl⟩
  unfold shiftNeighbour at hs
  unfold resolveInsert
  cases hd : shiftIsForward d with
  | true =>
    simp only [hd, if_true, hi] at hs
    have hs2 : g.children[g.children.indexOf x + 1]? = some y := by
      rw [← List.get?_eq_getElem?]; exact hs
    have hxb : (x == b) = false := by
      rw [beq_eq_false_iff_ne]
      intro e
      subst e
      have h1 := indexOf_of_get? nd ((get?_last_getLast? g.children).trans hb)
      obtain ⟨hlt, -⟩ := List.get?_eq_some.mp hs
      omega
    simp [hg, hf, hb, hxb, hi, hs2, hy, hw, hx, hxp]
  | false =>
    simp only [hd, Bool.false_eq_true, if_false] at hs
    have h0 : g.children.indexOf x ≠ 0 := by
      intro e
      simp [e] at hs
    simp only [h0, if_false] at hs
    have hs2 : g.children[g.children.indexOf x - 1]? = some y := by
      rw [← List.get?_eq_getElem?]; exact hs
    have hxf : (x == f) = false := by
      rw [beq_eq_false_iff_ne]
      intro e
      subst e
      have h1 := indexOf_of_get? nd ((get?_zero_head? g.children).trans hf)
      exact h0 h1
    simp [hg, hf, hb, hxf, h0, hs2, hy, hw, hx, hxp]

theorem indexOf_append_cons_self {x : Nat} {l1 : List Nat} (r : List Nat) (hx : x ∉ l1) :
    (l1 ++ x :: r).indexOf x = l1.length := by
  rw [List.indexOf_append_of_not_mem hx]; simp

theorem shiftNeighbour_of_split {d : ShiftDirection} {x y : Nat} {l1 l2 cs : List Nat}
    (nd : cs.Nodup)
    (hcs : cs = if shiftIsForward d then l1 ++ x :: y :: l2 else l1 ++ y :: x :: l2) :
    x ∈ cs ∧ shiftNeighbour d cs x = some y ∧
      (∃ e, (if shiftIsForward d then cs.getLast? else cs.head?) = some e ∧ e ≠ x) ∧
      (if shiftIsForward d then cs.indexOf x + 2 else cs.indexOf x - 1)
        = (if shiftIsForward d then l1.length + 2 else l1.length) ∧
      reorderChild cs x (if shiftIsForward d then l1.length + 2 else l1.length)
        = some (if shiftIsForward d then l1 ++ y :: x :: l2 else l1 ++ x :: y :: l2) := by
  cases hd : shiftIsForward d with
  | true =>
    simp only [hd, if_true] at hcs ⊢
    subst hcs
    have hx1 : x ∉ l1 := not_mem_left_of_nodup nd (List.mem_cons_self _ _)
    have hi := indexOf_append_cons_self (y :: l2) hx1
    refine ⟨by simp, ?_, ?_, by rw [hi], reorderChild_forward x y l2 l1 hx1⟩
    · unfold shiftNeighbour
      simp only [hd, if_true, hi]
      rw [if_pos (by simp)]
      show (l1 ++ x :: y :: l2).get? (l1.length + 1) = some y
      rw [List.get?_eq_getElem?, List.getElem?_append_right (by omega)]
      simp
    · cases hl : (l1 ++ x :: y :: l2).getLast? with
      | none => simp at hl
      | some b => exact ⟨b, rfl, getLast?_append_cons_cons_ne nd hl⟩
  | false =>
    simp only [hd, Bool.false_eq_true, if_false] at hcs ⊢
    subst hcs
    have hx1 : x ∉ l1 := not_mem_left_of_nodup nd (by simp)
    have hy1 : y ∉ l1 := not_mem_left_of_nodup nd (by simp)
    have hyx : y ≠ x := by
      have := (List.nodup_append.mp nd).2.1
      simp only [List.nodup_cons, List.mem_cons, not_or] at this
      exact this.1.1
    have hi : (l1 ++ y :: x :: l2).indexOf x = l1.length + 1 := by
      rw [List.indexOf_append_of_not_mem hx1, List.indexOf_cons_ne _ hyx]; simp
    refine ⟨by simp, ?_, ?_, by rw [hi]; rfl, reorderChild_backward x y l2 hyx l1 hx1⟩
    · unfold shiftNeighbour
      simp only [hd, Bool.false_eq_true, if_false, hi]
      rw [if_neg (by omega)]
      show (l1 ++ y :: x :: l2).get? (l1.length + 1 - 1) = some y
      rw [List.get?_eq_getElem?, List.getElem?_append_right (by omega)]
      simp
    · cases hl : (l1 ++ y :: x :: l2).head? with
      | none => simp at hl
      | some b => exact ⟨b, rfl, head?_append_cons_cons_ne nd hl⟩

/-- Two consecutive entries split a list around them. -/
theorem split_of_get? {cs : List Nat} {j a b : Nat} (ha : cs.get? j = some a)
    (hb : cs.get? (j + 1) = some b) : cs = cs.take j ++ a :: b :: cs.drop (j + 2) := by
  obtain ⟨h1, e1⟩ := List.get?_eq_some.mp ha
  obtain ⟨h2, e2⟩ := List.get?_eq_some.mp hb
  have d1 : cs.drop j = a :: cs.drop (j + 1) := by
    rw [List.drop_eq_getElem_cons h1]; congr
  have d2 : cs.drop (j + 1) = b :: cs.drop (j + 2) := by
    rw [List.drop_eq_getElem_cons h2]; congr
  calc cs = cs.take j ++ cs.drop j := (List.take_append_drop j cs).symm
    _ = _ := by rw [d1, d2]

theorem split_of_shiftNeighbour {d : ShiftDirection} {x y : Nat} {cs : List Nat}
    (hm : x ∈ cs) (hs : shiftNeighbour d cs x = some y) :
    ∃ l1 l2, cs = if shiftIsForward d then l1 ++ x :: y :: l2 else l1 ++ y :: x :: l2 := by
  have hi := List.indexOf_lt_length.mpr hm
  have hself := indexOf_get?_self hm
  unfold shiftNeighbour at hs
  cases hd : shiftIsForward d with
  | true =>
    simp only [hd, if_true, hi] at hs
    exact ⟨_, _, by simpa using split_of_get? hself hs⟩
  | false =>
    simp only [hd, Bool.false_eq_true, if_false] at hs
    have h0 : cs.indexOf x ≠ 0 := by
      intro e
      simp [e] at hs
    simp only [h0, if_false] at hs
    have hself2 : cs.get? (cs.indexOf x - 1 + 1) = some x := by
      rw [Nat.sub_add_cancel (by omega)]; exact hself
    exact ⟨_, _, by simpa using split_of_get? hs hself2⟩

/-- The same-parent shift on a store: the node `x` and its window neighbour `y` in a group
without expansion change places in the child list. -/
theorem shiftOrGetFocus_same_parent {h : Hy3Layout} {G x y : Nat} {g : Hy3GroupData}
    {xn yn : Hy3Node} {d : ShiftDirection} {l1 l2 : List Nat}
    (hg : h.group G = some g) (hx : h.get x = some xn) (hxp : xn.parent = some G)
    (hy : h.get y = some yn) (hyw : ∃ w, yn.data = Hy3NodeData.window w)
    (hL : g.layout ≠ Hy3GroupLayout.Tabbed) (hm : shiftMatchesLayout g.layout d = true)
    (hne : g.expand_focused = ExpandFocusType.NotExpanded) (nd : g.children.Nodup)
    (hcs : g.children = if shiftIsForward d then l1 ++ x :: y :: l2 else l1 ++ y :: x :: l2)
    (once visible : Bool) (fuel : Nat) :
    shiftOrGetFocus (fuel + 1) h x d true once visible
      = some (h.modifyGroup G fun g =>
          { g with children :=
              if shiftIsForward d then l1 ++ y :: x :: l2 else l1 ++ x :: y :: l2 }, none) := by
  obtain ⟨hxm, hs, ⟨e, he, hex⟩, hins, hre⟩ := shiftNeighbour_of_split nd hcs
  unfold shiftOrGetFocus
  rw [getExpandActor_of_noexp hg hx hxp hne fuel]
  simp only [hx, hxp]
  rw [breakLoop_at_parent hg hL hm he hex once visible fuel]
  simp only
  rw [resolveInsert_same_parent hg nd hxm hx hxp hs hy hyw once visible (fuel + 1), hins]
  simp only
  unfold applyShift
  simp only [hx, hg, hxp, if_true, hre, Option.map_some']


/-- Writing the child list of a group back restores the store. -/
theorem modifyGroup_children_restore {h : Hy3Layout} (ok : StoreOK h) {G : Nat}
    {g : Hy3GroupData} (hg : h.group G = some g) (cs : List Nat) :
    ((h.modifyGroup G fun g => { g with children := cs }).modifyGroup G
      fun g' => { g' with children := g.children }) = h := by
  obtain ⟨n, hn, hd⟩ := group_eq_some hg
  refine Eq.symm (Hy3Layout.ext_get rfl ?_ ok.1 fun a => ?_)
  · rw [addrs_modifyGroup, addrs_modifyGroup]
  · symm
    rw [get_modifyGroup, get_modifyGroup]
    split
    · rename_i ha
      subst ha
      rw [hn]
      simp only [Option.map_some', Option.some.injEq]
      cases n with
      | mk addr parent reparenting data size_ratio workspace =>
        simp only at hd
        subst hd
        simp [Hy3Node.mapGroup]
    · rfl

theorem get_modifyGroup_parent_eq {h : Hy3Layout} {a x : Nat} {xn : Hy3Node}
    (f : Hy3GroupData → Hy3GroupData) (hx : h.get x = some xn) :
    ∃ xn', (h.modifyGroup a f).get x = some xn' ∧ xn'.parent = xn.parent := by
  rw [get_modifyGroup]
  split
  · exact ⟨_, by rw [hx]; rfl, Hy3Node.mapGroup_parent f xn⟩
  · exact ⟨xn, hx, rfl⟩

theorem get_modifyGroup_window_data {h : Hy3Layout} {a y : Nat} {yn : Hy3Node} {w : Option Nat}
    (f : Hy3GroupData → Hy3GroupData) (hy : h.get y = some yn)
    (hw : yn.data = Hy3NodeData.window w) :
    ∃ yn', (h.modifyGroup a f).get y = some yn' ∧ yn'.data = Hy3NodeData.window w := by
  rw [get_modifyGroup]
  split
  · exact ⟨_, by rw [hy]; rfl, Hy3Node.mapGroup_window hw⟩
  · exact ⟨yn, hy, hw⟩

theorem nodup_swap_split {d : ShiftDirection} {x y : Nat} {l1 l2 cs : List Nat}
    (nd : cs.Nodup)
    (hcs : cs = if shiftIsForward d then l1 ++ x :: y :: l2 else l1 ++ y :: x :: l2) :
    (if shiftIsForward d then l1 ++ y :: x :: l2 else l1 ++ x :: y :: l2).Nodup := by
  subst hcs
  cases hd : shiftIsForward d with
  | true =>
    simp only [hd, if_true] at nd ⊢
    exact (List.Perm.append_left l1 (List.Perm.swap y x l2)).nodup_iff.mp nd
  | false =>
    simp only [hd, Bool.false_eq_true, if_false] at nd ⊢
    exact (List.Perm.append_left l1 (List.Perm.swap x y l2)).nodup_iff.mp nd


theorem shiftOrGetFocus_expanded_group_counterexample :
    ∃ (hE : Hy3Layout) (g : Hy3GroupData),
      expand 10 (exPair 1 1) (some 0) ExpandOption.Expand = some hE ∧ WellFormed hE ∧
      hE.group 0 = some g ∧ g.layout = Hy3GroupLayout.SplitH ∧
      g.expand_focused = ExpandFocusType.Latch ∧
      shiftMatchesLayout g.layout ShiftDirection.Right = true ∧ g.children = [1, 2] ∧
      shiftNeighbour ShiftDirection.Right g.children 1 = some 2 ∧
      (hE.get 2).map (fun n => n.data.type) = some Hy3NodeType.Window ∧
      shiftOrGetFocus 10 hE 1 ShiftDirection.Right true false false = some (hE, none) ∧
      hE.childrenOf 0 = [1, 2] ∧ hE.childrenOf 0 ≠ [2, 1] :=
  ⟨_, _, rfl, wellFormed_of_check (by decide), rfl, rfl, rfl, rfl, rfl, rfl, rfl, rfl, rfl,
    by decide⟩

/-- C34 (with the condition that the group has no active expansion): in a well-formed store
let `G` be a group that is not tabbed, has `expand_focused == NotExpanded` and whose layout
matches the direction `d`, let `x` be a child of `G` and `y`, a Window node, the child next to
`x` in direction `d`. Then the child list of `G` is `l1 ++ x :: y :: l2` (for Right and Down;
`l1 ++ y :: x :: l2` for Left and Up), and `shiftOrGetFocus(x, d, shift = true)`, with any
`once` and `visible` and any fuel above zero, returns null and leaves the store as it was
except for the child list of `G`, which is the old list with `x` and `y` exchanged and `l1`,
`l2` in place; the same call in direction `reverse(d)` on that store gives the original store
back. -/
theorem shiftOrGetFocus_adjacent_swap (h : Hy3Layout) (ok : StoreOK h) (wf : WellFormed h)
    (G : Nat) (g : Hy3GroupData) (hg : h.group G = some g)
    (hL : g.layout ≠ Hy3GroupLayout.Tabbed)
    (hne : g.expand_focused = ExpandFocusType.NotExpanded)
    (d : ShiftDirection) (hm : shiftMatchesLayout g.layout d = true)
    (x y : Nat) (hx : x ∈ g.children) (hs : shiftNeighbour d g.children x = some y)
    (yn : Hy3Node) (hy : h.get y = some yn) (hyw : yn.data.type = Hy3NodeType.Window)
    (once visible : Bool) (fuel : Nat) (hf : 0 < fuel) :
    ∃ l1 l2 : List Nat,
      g.children = (if shiftIsForward d then l1 ++ x :: y :: l2 else l1 ++ y :: x :: l2) ∧
      shiftOrGetFocus fuel h x d true once visible
        = some (h.modifyGroup G fun g =>
            { g with children :=
                if shiftIsForward d then l1 ++ y :: x :: l2 else l1 ++ x :: y :: l2 }, none) ∧
      shiftOrGetFocus fuel
          (h.modifyGroup G fun g =>
            { g with children :=
                if shiftIsForward d then l1 ++ y :: x :: l2 else l1 ++ x :: y :: l2 })
          x (reverse d) true once visible
        = some (h, none) := by
  obtain ⟨fuel, rfl⟩ : ∃ k, fuel = k + 1 := ⟨fuel - 1, by omega⟩
  obtain ⟨Gn, hGn, hGd⟩ := group_eq_some hg
  have hcG : h.childrenOf G = g.children := childrenOf_of_group_eq hg
  have nd : g.children.Nodup := hcG ▸ wf.children_nodup G
  obtain ⟨xn, hxn, hxp⟩ := wf.child_parent hGn (by rw [hGd]; exact hx)
  obtain ⟨w, hw⟩ : ∃ w, yn.data = Hy3NodeData.window w := by
    cases hd : yn.data with
    | window w => exact ⟨w, rfl⟩
    | group g => rw [hd] at hyw; cases hyw
  obtain ⟨l1, l2, hcs⟩ := split_of_shiftNeighbour hx hs
  refine ⟨l1, l2, hcs, ?_, ?_⟩
  · exact shiftOrGetFocus_same_parent hg hxn hxp hy ⟨w, hw⟩ hL hm hne nd hcs once visible fuel
  · have nd1 := nodup_swap_split nd hcs
    have hback : (if shiftIsForward (reverse d) then l1 ++ y :: x :: l2
        else l1 ++ x :: y :: l2) = g.children := by
      rw [hcs, shiftIsForward_reverse]
      cases shiftIsForward d <;> rfl
    have hfwd : (if shiftIsForward d then l1 ++ y :: x :: l2 else l1 ++ x :: y :: l2)
        = if shiftIsForward (reverse d) then l1 ++ x :: y :: l2 else l1 ++ y :: x :: l2 := by
      rw [shiftIsForward_reverse]
      cases shiftIsForward d <;> rfl
    generalize (if shiftIsForward d then l1 ++ y :: x :: l2 else l1 ++ x :: y :: l2) = cs1
      at nd1 hfwd ⊢
    obtain ⟨xn1, hxn1, hxp1⟩ :=
      get_modifyGroup_parent_eq (a := G) (fun g => { g with children := cs1 }) hxn
    obtain ⟨yn1, hyn1, hyw1⟩ :=
      get_modifyGroup_window_data (a := G) (fun g => { g with children := cs1 }) hy hw
    have hg1 : (h.modifyGroup G fun g => { g with children := cs1 }).group G
        = some { g with children := cs1 } := by
      rw [group_modifyGroup, if_pos rfl, hg]; rfl
    have key := shiftOrGetFocus_same_parent hg1 hxn1 (hxp1.trans hxp) hyn1 ⟨w, hyw1⟩ hL
      (by rw [shiftMatchesLayout_reverse]; exact hm) hne nd1 hfwd once visible fuel
    rw [key, hback, modifyGroup_children_restore ok hg]

theorem shiftOrGetFocus_adjacent_swap_witness :
    ∃ l1 l2 : List Nat,
      ({ children := [1, 2, 3], group_focused := false, focused_child := some 2 }
          : Hy3GroupData).children
        = (if shiftIsForward ShiftDirection.Left then l1 ++ 2 :: 1 :: l2
            else l1 ++ 1 :: 2 :: l2) ∧
      shiftOrGetFocus 1 exThree 2 ShiftDirection.Left true false false
        = some (exThree.modifyGroup 0 fun g =>
            { g with children :=
                if shiftIsForward ShiftDirection.Left then l1 ++ 1 :: 2 :: l2
                else l1 ++ 2 :: 1 :: l2 }, none) ∧
      shiftOrGetFocus 1
          (exThree.modifyGroup 0 fun g =>
            { g with children :=
                if shiftIsForward ShiftDirection.Left then l1 ++ 1 :: 2 :: l2
                else l1 ++ 2 :: 1 :: l2 })
          2 (reverse ShiftDirection.Left) true false false
        = some (exThree, none) :=
  shiftOrGetFocus_adjacent_swap exThree (by unfold StoreOK; decide)
    (wellFormed_of_check (by decide)) 0 _ rfl (by decide) rfl ShiftDirection.Left rfl 2 1
    (by decide) rfl _ rfl rfl false false 1 (by decide)


/-! ## C37: insertNode creates no cycle -/

theorem intoGroup_ranked {h h' : Hy3Layout} (ok : StoreOK h) (wf : WellFormed h)
    {rank : Nat → Nat} {B : Nat} (rk : RankedBy h rank B)
    {this c : Nat} {layout : Hy3GroupLayout} {eph : GroupEphemeralityOption}
    (e : intoGroup h this layout eph = some (h', c)) :
    RankedBy h' (fun x => if x = c then 2 * rank this + 1 else 2 * rank x) (2 * B + 1) := by
  cases ht : h.get this with
  | none => simp [intoGroup, ht] at e
  | some tn =>
    obtain ⟨h2, e2, n2, a2, gt, gn, go⟩ :=
      intoGroup_spec h ok this tn layout eph ht (wf.childrenInStore.of_get ht)
    rw [e] at e2
    cases e2
    have hlt : this < h.next := ok.lt_next ht
    have hne : this ≠ h.next := Nat.ne_of_lt hlt
    have cr := wf.childrenRanked rk
    · intro a n hn
      beta_reduce
      by_cases ha1 : a = h.next
      · subst ha1
        rw [gn] at hn
        cases hn
        simp only [if_true]
        have := (rk this tn ht).1
        refine ⟨by omega, fun p hp => ?_⟩
        simp only [Option.some.injEq] at hp
        subst hp
        rw [if_neg hne]
        omega
      · rw [if_neg ha1]
        by_cases ha2 : a = this
        · subst ha2
          rw [gt] at hn
          cases hn
          have hb := rk a tn ht
          refine ⟨by have := hb.1; omega, fun p hp => ?_⟩
          simp only at hp
          split at hp
          · rename_i hmem
            have := (cr a tn a ht hmem).2.1
            omega
          · have := hb.2 p hp
            have hpn : p ≠ h.next := by
              intro e
              obtain ⟨pn, hpn, _⟩ := wf.1 a tn p ht hp
              rw [e, ok.get_next] at hpn
              cases hpn
            rw [if_neg hpn]
            omega
        · rw [go a ha2 ha1] at hn
          cases hm : h.get a with
          | none => simp [hm] at hn
          | some m =>
            simp only [hm, Option.map_some', Option.some.injEq] at hn
            have hb := rk a m hm
            refine ⟨by have := hb.1; omega, fun p hp => ?_⟩
            by_cases hmem : a ∈ tn.data.children
            · rw [if_pos hmem] at hn
              subst hn
              simp only [Option.some.injEq] at hp
              subst hp
              simp only [if_true]
              have := (cr this tn a ht hmem).2.1
              omega
            · rw [if_neg hmem] at hn
              subst hn
              have := hb.2 p hp
              have hpn : p ≠ h.next := by
                intro e
                obtain ⟨pn, hpn, _⟩ := wf.1 a m p hm hp
                rw [e, ok.get_next] at hpn
                cases hpn
              rw [if_neg hpn]
              omega

theorem openingAfterFromRoot_ranked {fuel : Nat} {h h1 : Hy3Layout} {ws fr : Option Nat}
    {node : Nat} (ok : StoreOK h) (wf : WellFormed h) (ac : Acyclic h)
    (hf : (h.get node).map Hy3Node.reparenting = some true)
    (e : openingAfterFromRoot fuel h ws = some (h1, fr)) :
    Acyclic h1 ∧ (h1.get node).map Hy3Node.reparenting = some true := by
  unfold openingAfterFromRoot at e
  cases hr : getWorkspaceRootGroup h ws with
  | none =>
    simp only [hr, Option.some.injEq, Prod.mk.injEq] at e
    obtain ⟨rfl, _⟩ := e
    exact ⟨ac, hf⟩
  | some root =>
    simp only [hr] at e
    cases hfn : getFocusedNode fuel h root false false with
    | none => simp [hfn] at e
    | some oa =>
      simp only [hfn] at e
      split at e
      · cases hi : intoGroup h root Hy3GroupLayout.SplitH GroupEphemeralityOption.Standard with
        | none => simp [hi] at e
        | some r =>
          obtain ⟨h2, c⟩ := r
          simp only [hi, Option.some.injEq, Prod.mk.injEq] at e
          obtain ⟨rfl, _⟩ := e
          obtain ⟨rank, B, rk⟩ := ac
          have rk2 := intoGroup_ranked ok wf rk hi
          obtain ⟨rn, hrn, _, hrf, _⟩ := getWorkspaceRootGroup_spec ok hr
          have hne : node ≠ root := fun e => by
            rw [e, hrn] at hf
            simp only [Option.map_some', Option.some.injEq] at hf
            rw [hrf] at hf
            cases hf
          exact ⟨⟨_, _, rk2⟩, intoGroup_flag ok wf hi hne hf⟩
      · simp only [Option.some.injEq, Prod.mk.injEq] at e
        obtain ⟨rfl, _⟩ := e
        exact ⟨ac, hf⟩

theorem openingInto_ranked {env : Env} {fuel : Nat} {h h2 : Hy3Layout} {ws oa0 oa1 : Option Nat}
    {oi0 node : Nat} (ok : StoreOK h) (wf : WellFormed h) (ac : Acyclic h)
    (hx : h.parentOf node = some none)
    (hf : (h.get node).map Hy3Node.reparenting = some true)
    (hau : anchorUsable fuel h node oa0 = some oa1)
    (e : openingInto env h ws oa1 = some (h2, some oi0)) :
    ∃ rank2 B2, RankedBy h2 rank2 B2 ∧ rank2 oi0 < rank2 node ∧
      ∀ a, oa1 = some a → rank2 a < rank2 node := by
  obtain ⟨rank, B, rk⟩ := ac
  unfold openingInto at e
  cases oa1 with
  | some a =>
    simp only at e
    cases ha : h.get a with
    | none => simp [ha] at e
    | some an =>
      simp only [ha, Option.some.injEq, Prod.mk.injEq] at e
      obtain ⟨rfl, hpa⟩ := e
      have hpar : h.parentOf a = some (some oi0) := parentOf_eq_some.mpr ⟨an, ha, hpa⟩
      have hns := anchorUsable_spec wf hau hx ⟨oi0, hpar⟩
      obtain ⟨rank2, rk2, hlift⟩ := rank_lift wf rk node
      have hmem := wf.mem_of_parent hpar
      obtain ⟨pn, hpn, _⟩ := wf.1 a an oi0 ha hpa
      refine ⟨rank2, _, rk2, hlift oi0 (by simp [hpn]) (fun hs => hns (hs.tail hmem)), ?_⟩
      intro a' ha'
      cases ha'
      exact hlift a (by simp [ha]) hns
  | none =>
    simp only at e
    cases hr : getWorkspaceRootGroup h ws with
    | some r =>
      simp only [hr, Option.some.injEq, Prod.mk.injEq] at e
      obtain ⟨rfl, rfl⟩ := e
      obtain ⟨rn, hrn, hrp, hrf, _⟩ := getWorkspaceRootGroup_spec ok hr
      have hne : r ≠ node := fun e => by
        rw [← e, hrn] at hf
        simp only [Option.map_some', Option.some.injEq] at hf
        rw [hrf] at hf
        cases hf
      obtain ⟨rank2, rk2, hlift⟩ := rank_lift wf rk node
      refine ⟨rank2, _, rk2, hlift r (by simp [hrn]) (fun hs => ?_), fun a ha => by cases ha⟩
      rcases hs.cases_tail with e | ⟨p, _, hm⟩
      · exact hne e
      · have := ((wellFormed_iff h).mp wf).2 p r hm
        rw [parentOf_eq_some] at this
        obtain ⟨n', hn', hp'⟩ := this
        rw [hrn] at hn'
        cases hn'
        rw [hrp] at hp'
        cases hp'
    | none =>
      simp only [hr] at e
      have hnode : node ≠ h.next := fun e => by
        rw [e, parentOf_next ok] at hx; cases hx
      obtain ⟨nn, hnn, _⟩ := parentOf_eq_some.mp hx
      set R : Hy3Node :=
        { addr := h.next, workspace := ws,
          data := Hy3NodeData.group (Hy3GroupData.new
            (if env.monitorHeight ws > env.monitorWidth ws then Hy3GroupLayout.SplitV
             else Hy3GroupLayout.SplitH)) } with hR
      have ok1 : StoreOK (h.push_back R) := ok.push_back R
      have hn1 : (h.push_back R).next = h.next + 1 := rfl
      split at e
      · simp only [Option.some.injEq, Prod.mk.injEq] at e
        obtain ⟨rfl, rfl⟩ := e
        set h1 := h.push_back R with hh1
        set T : Hy3Node :=
          { addr := h1.next, parent := some h.next, workspace := ws,
            data := Hy3NodeData.group (Hy3GroupData.new Hy3GroupLayout.Tabbed) } with hT
        refine ⟨fun x => if x = h.next then 0 else if x = h1.next then 1 else rank x + 2,
          B + 2, ?_, ?_, fun a ha => by cases ha⟩
        · rw [rankedBy_iff]
          have hgetT : ∀ b, (h1.push_back T).get b =
              if b = h1.next then some { T with addr := h1.next }
              else if b = h.next then some { R with addr := h.next } else h.get b := by
            intro b
            rw [get_push_back_of_ok ok1, hh1, get_push_back_of_ok ok]
          refine ⟨fun a ha => ?_, fun a p hp => ?_⟩
          · rw [get_modifyGroup_isSome, hgetT] at ha
            by_cases h1a : a = h.next
            · rw [if_pos h1a]; omega
            · rw [if_neg h1a]
              by_cases h2a : a = h1.next
              · rw [if_pos h2a]; omega
              · rw [if_neg h2a]
                rw [if_neg h2a, if_neg h1a] at ha
                obtain ⟨n, hn⟩ := Option.isSome_iff_exists.mp ha
                have := (rk a n hn).1
                omega
          · rw [parentOf_modifyGroup] at hp
            unfold Hy3Layout.parentOf at hp
            rw [hgetT] at hp
            by_cases h2a : a = h1.next
            · rw [if_pos h2a] at hp
              simp only [Option.map_some', Option.some.injEq, hT] at hp
              subst hp
              have : h1.next ≠ h.next := by rw [hn1]; omega
              rw [if_pos rfl, h2a, if_neg this, if_pos rfl]
              omega
            · rw [if_neg h2a] at hp
              by_cases h1a : a = h.next
              · rw [if_pos h1a] at hp
                simp [hR] at hp
              · rw [if_neg h1a] at hp
                obtain ⟨n, hn, hpn⟩ := parentOf_eq_some.mp hp
                obtain ⟨pn, hpnn, _⟩ := wf.1 a n p hn hpn
                have hp1 : p ≠ h.next := fun e => by
                  rw [e, ok.get_next] at hpnn; cases hpnn
                have hp2 : p ≠ h1.next := fun e => by
                  have := ok.lt_next hpnn
                  rw [e, hn1] at this
                  omega
                rw [if_neg hp1, if_neg hp2, if_neg h1a, if_neg h2a]
                have := (rk a n hn).2 p hpn
                omega
        · beta_reduce
          have hnode1 : node ≠ h1.next := fun e => by
            have := ok.lt_next hnn
            rw [e, hn1] at this
            omega
          have : h1.next ≠ h.next := by rw [hn1]; omega
          rw [if_neg this, if_pos rfl, if_neg hnode, if_neg hnode1]
          omega
      · simp only [Option.some.injEq, Prod.mk.injEq] at e
        obtain ⟨rfl, rfl⟩ := e
        refine ⟨fun x => if x = h.next then 0 else rank x + 1, B + 1, ?_, ?_,
          fun a ha => by cases ha⟩
        · rw [rankedBy_iff]
          refine ⟨fun a ha => ?_, fun a p hp => ?_⟩
          · rw [get_push_back_of_ok ok] at ha
            by_cases h1a : a = h.next
            · rw [if_pos h1a]; omega
            · rw [if_neg h1a] at ha ⊢
              obtain ⟨n, hn⟩ := Option.isSome_iff_exists.mp ha
              have := (rk a n hn).1
              omega
          · rw [parentOf_push_back ok] at hp
            by_cases h1a : a = h.next
            · rw [if_pos h1a] at hp
              simp [hR] at hp
            · rw [if_neg h1a] at hp
              obtain ⟨n, hn, hpn⟩ := parentOf_eq_some.mp hp
              obtain ⟨pn, hpnn, _⟩ := wf.1 a n p hn hpn
              have hp1 : p ≠ h.next := fun e => by
                rw [e, ok.get_next] at hpnn; cases hpnn
              rw [if_neg hp1, if_neg h1a]
              have := (rk a n hn).2 p hpn
              omega
        · beta_reduce
          rw [if_pos rfl, if_neg hnode]
          omega



theorem autotile_ranked {env : Env} {h h3 : Hy3Layout} {oi0 oi : Nat} {oa1 oa : Option Nat}
    {node : Nat} (ok : StoreOK h) (wf : WellFormed h)
    {rank : Nat → Nat} {B : Nat} (rk : RankedBy h rank B) (hns : (h.get node).isSome)
    (hoi : rank oi0 < rank node) (hoa : ∀ a, oa1 = some a → rank a < rank node)
    (e : autotile env h oi0 oa1 = some (h3, oi, oa)) :
    ∃ rank3 B3, RankedBy h3 rank3 B3 ∧ rank3 oi < rank3 node ∧
      ∀ a, oa = some a → rank3 a < rank3 node := by
  have same : ∀ {x : Hy3Layout × Nat × Option Nat}, x = (h3, oi, oa) → x.1 = h → x.2.1 = oi0 →
      x.2.2 = oa1 →
      ∃ rank3 B3, RankedBy h3 rank3 B3 ∧ rank3 oi < rank3 node ∧
      ∀ a, oa = some a → rank3 a < rank3 node := by
    intro x hx h1 h2 h3'
    subst hx
    simp only at h1 h2 h3'
    subst h1 h2 h3'
    exact ⟨rank, B, rk, hoi, hoa⟩
  have into : ∀ {a : Nat} {L : Hy3GroupLayout} {E : GroupEphemeralityOption},
      rank a < rank node →
      (match intoGroup h a L E with
        | none => none
        | some (h1, a1) => some (h1, a, some a1)) = some (h3, oi, oa) →
      ∃ rank3 B3, RankedBy h3 rank3 B3 ∧ rank3 oi < rank3 node ∧
      ∀ a, oa = some a → rank3 a < rank3 node := by
    intro a L E hra e
    cases hi : intoGroup h a L E with
    | none => simp [hi] at e
    | some r =>
      obtain ⟨h2, c⟩ := r
      simp only [hi, Option.some.injEq, Prod.mk.injEq] at e
      obtain ⟨rfl, rfl, rfl⟩ := e
      have rk2 := intoGroup_ranked ok wf rk hi
      obtain ⟨_, _, hc⟩ := intoGroup_preserves ok wf hi
      have h1 : a ≠ c := fun e => by
        have : (h.get a).isSome := by
          cases hq : h.get a with
          | none => simp [intoGroup, hq] at hi
          | some _ => rfl
        rw [e, hc, ok.get_next] at this
        cases this
      have h2 : node ≠ c := fun e => by
        rw [e, hc, ok.get_next] at hns
        cases hns
      refine ⟨_, _, rk2, ?_, ?_⟩
      · beta_reduce
        rw [if_neg h1, if_neg h2]
        omega
      · intro a' ha'
        cases ha'
        rw [if_pos rfl, if_neg h2]
        omega
  unfold autotile at e
  cases hn : h.get oi0 with
  | none => simp [hn] at e
  | some oin =>
    simp only [hn] at e
    cases hd : oin.data with
    | window w => simp [hd] at e
    | group tg =>
      simp only [hd] at e
      cases oa1 with
      | none =>
        simp only [Option.some.injEq] at e
        exact same e rfl rfl rfl
      | some a =>
        simp only at e
        have hra := hoa a rfl
        split_ifs at e <;>
          first
          | exact into hra e
          | (simp only [Option.some.injEq] at e
             exact same e rfl rfl rfl)

theorem attach_ranked {h h' : Hy3Layout} {rank : Nat → Nat} {B : Nat}
    (rk : RankedBy h rank B) {oi node : Nat} {oa : Option Nat} (hoi : rank oi < rank node)
    (e : attach (h.modify node fun n => { n with parent := some oi, reparenting := false })
      oi node oa = some h') : RankedBy h' rank B := by
  obtain ⟨g, f, hg, hperm, hgf, hfc, rfl⟩ := attach_children_focus e
  rw [rankedBy_iff] at rk ⊢
  refine ⟨fun a ha => rk.1 a ?_, fun a p hp => ?_⟩
  · rw [get_modifyGroup_isSome, get_modify_isSome] at ha
    exact ha
  · rw [parentOf_modifyGroup] at hp
    unfold Hy3Layout.parentOf at hp
    rw [get_modify] at hp
    by_cases han : a = node
    · rw [if_pos han] at hp
      cases hq : h.get a with
      | none => simp [hq] at hp
      | some q =>
        simp only [hq, Option.map_some', Option.some.injEq] at hp
        rw [← hp, han]
        exact hoi
    · rw [if_neg han] at hp
      exact rk.2 a p hp

/-- A node of smaller rank is not in the subtree below a node. -/
theorem not_inSubtree_of_rank_lt {h : Hy3Layout} (wf : WellFormed h) {rank : Nat → Nat}
    {B : Nat} (rk : RankedBy h rank B) {a x : Nat} (hlt : rank x < rank a) :
    x ≠ a ∧ ¬ InSubtree h a x := by
  refine ⟨fun e => by rw [e] at hlt; omega, fun hs => ?_⟩
  have key : ∀ {a x : Nat}, InSubtree h a x → rank a ≤ rank x := by
    intro a x hs
    induction hs with
    | self a => exact le_refl _
    | step hc _ ih =>
      have hp := ((wellFormed_iff h).mp wf).2 _ _ hc
      obtain ⟨cn, hcn, hcp⟩ := parentOf_eq_some.mp hp
      have := (rk _ cn hcn).2 _ hcp
      omega
  have := key hs
  omega


/-- `insertNode` is `insertTarget` followed by lines 268-288. -/
theorem insertNode_eq_target (env : Env) (fuel : Nat) (h : Hy3Layout) (node : Nat) :
    insertNode env fuel h node =
      match insertTarget env fuel h node with
      | none => none
      | some (h3, none) => some h3
      | some (h3, some (opening_into, opening_after)) =>
        match attach (h3.modify node fun n =>
            { n with parent := some opening_into, reparenting := false })
            opening_into node opening_after with
        | none => none
        | some h5 => markFocused fuel h5 node := by
  unfold insertNode insertTarget
  cases h.get node with
  | none => rfl
  | some nn =>
    simp only
    split
    · rfl
    · split
      · rfl
      · cases openingAfterFromRoot fuel (h.modify node fun n => { n with reparenting := true })
            nn.workspace with
        | none => rfl
        | some r1 =>
          obtain ⟨h1, fr⟩ := r1
          cases fr
          all_goals
            simp only
            generalize anchorUsable fuel h1 node _ = au
            cases au with
            | none => rfl
            | some oa1 =>
              simp only
              cases openingInto env h1 nn.workspace oa1 with
              | none => rfl
              | some r2 =>
                obtain ⟨h2, oi0⟩ := r2
                cases oi0 with
                | none => rfl
                | some oi0 =>
                  simp only
                  cases h2.get oi0 with
                  | none => rfl
                  | some oin =>
                    simp only
                    cases oin.data with
                    | window w => rfl
                    | group g =>
                      simp only
                      cases autotile env h2 oi0 oa1 with
                      | none => rfl
                      | some r3 =>
                        obtain ⟨h3, oi, oa⟩ := r3
                        rfl


/-- The store, the target group and the anchor that `insertTarget` ends with: the store is
well-formed and ranked, the node is still parentless, and the target group and the anchor
have a smaller rank than the node. -/
theorem insertTarget_ranked {env : Env} {fuel : Nat} {h h3 : Hy3Layout} {node : Nat}
    {t : Option (Nat × Option Nat)}
    (ok : StoreOK h) (wf : WellFormed h) (ac : Acyclic h)
    (e : insertTarget env fuel h node = some (h3, t)) :
    StoreOK h3 ∧ WellFormed h3 ∧ Acyclic h3 ∧
      ∀ oi oa, t = some (oi, oa) → h3.parentOf node = some none ∧
        ∃ rank3 B3, RankedBy h3 rank3 B3 ∧ rank3 oi < rank3 node ∧
          ∀ a, oa = some a → rank3 a < rank3 node := by
  unfold insertTarget at e
  cases hn : h.get node with
  | none => simp [hn] at e
  | some nn =>
    simp only [hn] at e
    split at e
    · simp only [Option.some.injEq, Prod.mk.injEq] at e
      obtain ⟨rfl, rfl⟩ := e
      exact ⟨ok, wf, ac, fun _ _ c => by cases c⟩
    · rename_i hpar
      split at e
      · simp only [Option.some.injEq, Prod.mk.injEq] at e
        obtain ⟨rfl, rfl⟩ := e
        exact ⟨ok, wf, ac, fun _ _ c => by cases c⟩
      · have hpn : nn.parent = none := not_not.mp hpar
        have hx : h.parentOf node = some none := by
          simp [Hy3Layout.parentOf, hn, hpn]
        have ok0 : StoreOK (h.modify node fun n => { n with reparenting := true }) :=
          ok.of_addrs (addrs_modify _ _ _) (le_refl _)
        have hp0 : ∀ a, (h.modify node fun n => { n with reparenting := true }).parentOf a
            = h.parentOf a :=
          fun a => parentOf_modify_of h node a (fun n => { n with reparenting := true })
            (by intro _; rfl)
        have wf0 : WellFormed (h.modify node fun n => { n with reparenting := true }) :=
          wf.congr hp0
            (fun a => childrenOf_modify_of h node a (fun n => { n with reparenting := true })
              (by intro _; rfl))
        have hx0 : (h.modify node fun n =>
            { n with reparenting := true }).parentOf node = some none := by
          rw [hp0, hx]
        have ac0 : Acyclic (h.modify node fun n => { n with reparenting := true }) := by
          obtain ⟨rank, B, rk⟩ := ac
          exact ⟨rank, B, rk.congr_rank hp0⟩
        have hf0 : ((h.modify node fun n => { n with reparenting := true }).get node).map
            Hy3Node.reparenting = some true := by
          rw [get_modify_eq _ hn]; rfl
        cases h1e : openingAfterFromRoot fuel
            (h.modify node fun n => { n with reparenting := true }) nn.workspace with
        | none => simp [h1e] at e
        | some r1 =>
          obtain ⟨h1, fr⟩ := r1
          simp only [h1e] at e
          obtain ⟨ok1, wf1, hx1⟩ := openingAfterFromRoot_preserves ok0 wf0 hx0 h1e
          obtain ⟨ac1, hf1⟩ := openingAfterFromRoot_ranked ok0 wf0 ac0 hf0 h1e
          split at e
          · cases e
          · rename_i oa1 hau
            split at e
            · cases e
            · cases e
            · rename_i h2 oi0 h2e
              obtain ⟨ok2, wf2, hx2⟩ := openingInto_preserves ok1 wf1 hx1 h2e
              obtain ⟨rank2, B2, rk2, hoi2, hoa2⟩ :=
                openingInto_ranked ok1 wf1 ac1 hx1 hf1 hau h2e
              split at e
              · cases e
              · rename_i oin hoin
                split at e
                · simp only [Option.some.injEq, Prod.mk.injEq] at e
                  obtain ⟨rfl, rfl⟩ := e
                  exact ⟨ok2, wf2, ⟨rank2, B2, rk2⟩, fun _ _ c => by cases c⟩
                · split at e
                  · cases e
                  · rename_i h3' oi oa h3e
                    simp only [Option.some.injEq, Prod.mk.injEq] at e
                    obtain ⟨rfl, rfl⟩ := e
                    obtain ⟨ok3, wf3, hx3⟩ := autotile_preserves ok2 wf2 hx2 h3e
                    obtain ⟨rank3, B3, rk3, hoi3, hoa3⟩ := autotile_ranked ok2 wf2 rk2
                      (isSome_of_parentOf hx2) hoi2 hoa2 h3e
                    refine ⟨ok3, wf3, ⟨rank3, B3, rk3⟩, fun oi' oa' c => ?_⟩
                    simp only [Option.some.injEq, Prod.mk.injEq] at c
                    obtain ⟨rfl, rfl⟩ := c
                    exact ⟨hx3, rank3, B3, rk3, hoi3, hoa3⟩


/-- C37: `insertNode` never creates a cycle. Let `node` be a node (a Window or the root of a
Group subtree) of a well-formed, acyclic store; only a parentless node gets as far as being
attached. Whenever `insertNode` reaches the point where it attaches the node
(`insertTarget`), the group `opening_into` it inserts into and
the anchor `opening_after` it inserts after (when there is one) are not the node and do not lie
in the subtree below the node; the store that `insertNode` then returns has `opening_into` as
the parent of the node. Every store `insertNode` returns is well-formed and acyclic, and from
each of its nodes the parent pointers lead through finitely many nodes to a parentless root. -/
theorem insertNode_never_creates_cycle (env : Env) (fuel : Nat) (h : Hy3Layout)
    (ok : StoreOK h) (wf : WellFormed h) (ac : Acyclic h) (node : Nat) :
    (∀ h3 opening_into opening_after,
        insertTarget env fuel h node = some (h3, some (opening_into, opening_after)) →
        opening_into ≠ node ∧ ¬ InSubtree h3 node opening_into ∧
        (∀ a, opening_after = some a → a ≠ node ∧ ¬ InSubtree h3 node a) ∧
        ∀ h', insertNode env fuel h node = some h' →
          h'.parentOf node = some (some opening_into)) ∧
    (∀ h', insertNode env fuel h node = some h' →
        WellFormed h' ∧ Acyclic h' ∧
        ∀ x, (h'.get x).isSome → ∃ ps, AncestorChain h' x ps) := by
  refine ⟨fun h3 oi oa et => ?_, fun h' e => ?_⟩
  · obtain ⟨ok3, wf3, -, hr⟩ := insertTarget_ranked ok wf ac et
    obtain ⟨hx3, rank3, B3, rk3, hoi, hoa⟩ := hr oi oa rfl
    obtain ⟨h1, h2⟩ := not_inSubtree_of_rank_lt wf3 rk3 hoi
    refine ⟨h1, h2, fun a ha => not_inSubtree_of_rank_lt wf3 rk3 (hoa a ha), fun h' e => ?_⟩
    rw [insertNode_eq_target, et] at e
    simp only at e
    split at e
    · cases e
    · rename_i h5 h5e
      obtain ⟨g, f, -, -, rfl⟩ := attach_children h5e
      obtain ⟨n3, hn3, -⟩ := parentOf_eq_some.mp hx3
      rw [(markFocused_same e).focus_parentOf, parentOf_modifyGroup]
      unfold Hy3Layout.parentOf
      rw [get_modify_same, hn3]
      rfl
  · have wf' := (insertNode_preserves ok wf e).2
    have ac' : Acyclic h' := by
      rw [insertNode_eq_target] at e
      cases et : insertTarget env fuel h node with
      | none => simp [et] at e
      | some r =>
        obtain ⟨h3, t⟩ := r
        obtain ⟨ok3, wf3, ac3, hr⟩ := insertTarget_ranked ok wf ac et
        cases t with
        | none =>
          simp only [et, Option.some.injEq] at e
          exact e ▸ ac3
        | some t =>
          obtain ⟨oi, oa⟩ := t
          obtain ⟨hx3, rank3, B3, rk3, hoi, -⟩ := hr oi oa rfl
          simp only [et] at e
          split at e
          · cases e
          · rename_i h5 h5e
            exact ⟨rank3, B3, (markFocused_same e).rankedBy (attach_ranked rk3 hoi h5e)⟩
    refine ⟨wf', ac', fun x hx => ?_⟩
    obtain ⟨rank, B, rk⟩ := ac'
    obtain ⟨ps, hc, -⟩ := ancestorChain_exists wf' rk (rank x) x (le_refl _) hx
    exact ⟨ps, hc⟩

theorem insertNode_never_creates_cycle_witness :
    (∀ h3 opening_into opening_after,
        insertTarget exEnv 5 exDetached 4 = some (h3, some (opening_into, opening_after)) →
        opening_into ≠ 4 ∧ ¬ InSubtree h3 4 opening_into ∧
        (∀ a, opening_after = some a → a ≠ 4 ∧ ¬ InSubtree h3 4 a) ∧
        ∀ h', insertNode exEnv 5 exDetached 4 = some h' →
          h'.parentOf 4 = some (some opening_into)) ∧
    (∀ h', insertNode exEnv 5 exDetached 4 = some h' →
        WellFormed h' ∧ Acyclic h' ∧
        ∀ x, (h'.get x).isSome → ∃ ps, AncestorChain h' x ps) ∧
    (∃ h3, insertTarget exEnv 5 exDetached 4 = some (h3, some (1, some 2))) ∧
    ∃ h', insertNode exEnv 5 exDetached 4 = some h' ∧ h'.childrenOf 1 = [2, 4, 3] := by
  have T := insertNode_never_creates_cycle exEnv 5 exDetached (by unfold StoreOK; decide)
    (wellFormed_of_check (by decide)) ⟨id, 4, rankedBy_of_check (by decide)⟩ 4
  exact ⟨T.1, T.2, ⟨_, rfl⟩, _, rfl, rfl⟩


/-! ## Window handles under the store operations -/

theorem windowsOf_eq {h : Hy3Layout} (ok : StoreOK h) :
    windowsOf h = (h.nodes.map Hy3Node.addr).filterMap h.windowAt := by
  unfold windowsOf
  rw [List.filterMap_map]
  refine List.filterMap_congr fun n hn => ?_
  simp [Hy3Layout.windowAt, get_of_mem ok hn]

theorem windowsOf_congr {h h' : Hy3Layout} (ok : StoreOK h) (ok' : StoreOK h')
    (ha : h'.nodes.map Hy3Node.addr = h.nodes.map Hy3Node.addr)
    (hw : ∀ a, h'.windowAt a = h.windowAt a) : windowsOf h' = windowsOf h := by
  rw [windowsOf_eq ok, windowsOf_eq ok', ha]
  exact List.filterMap_congr fun a _ => hw a

theorem windowsOf_swap {h h' : Hy3Layout} (ok : StoreOK h) (ok' : StoreOK h')
    (ha : h'.nodes.map Hy3Node.addr = h.nodes.map Hy3Node.addr) {a b : Nat}
    (hsa : (h.get a).isSome) (hsb : (h.get b).isSome)
    (hw : ∀ x, h'.windowAt x = h.windowAt (Equiv.swap a b x)) :
    (windowsOf h').Perm (windowsOf h) := by
  rw [windowsOf_eq ok, windowsOf_eq ok', ha]
  have ma : a ∈ h.nodes.map Hy3Node.addr := mem_addrs_iff.mpr hsa
  have mb : b ∈ h.nodes.map Hy3Node.addr := mem_addrs_iff.mpr hsb
  have nd := ok.1
  generalize h.nodes.map Hy3Node.addr = l at ma mb nd
  have e1 : l.filterMap h'.windowAt = (l.map (Equiv.swap a b)).filterMap h.windowAt := by
    rw [List.filterMap_map]
    exact List.filterMap_congr fun x _ => hw x
  rw [e1]
  refine List.Perm.filterMap _ ?_
  rw [List.perm_ext_iff_of_nodup (nd.map (Equiv.swap a b).injective) nd]
  intro x
  rw [List.mem_map]
  constructor
  · rintro ⟨y, hy, rfl⟩
    rw [Equiv.swap_apply_def]
    split_ifs <;> assumption
  · intro hx
    refine ⟨Equiv.swap a b x, ?_, Equiv.swap_apply_self a b x⟩
    rw [Equiv.swap_apply_def]
    split_ifs <;> assumption

theorem windowsOf_append {h h' : Hy3Layout} (ok : StoreOK h) (ok' : StoreOK h') {c : Nat}
    (ha : h'.nodes.map Hy3Node.addr = h.nodes.map Hy3Node.addr ++ [c])
    (hc : h'.windowAt c = none) (hw : ∀ x, x ≠ c → h'.windowAt x = h.windowAt x) :
    windowsOf h' = windowsOf h := by
  rw [windowsOf_eq ok, windowsOf_eq ok', ha, List.filterMap_append]
  have hcn : c ∉ h.nodes.map Hy3Node.addr := by
    have := ok'.1
    rw [ha] at this
    exact fun m => (List.nodup_append.mp this).2.2 m (List.mem_singleton_self c)
  simp only [List.filterMap_cons, hc, List.filterMap_nil, List.append_nil]
  exact List.filterMap_congr fun x hx => hw x (fun e => hcn (e ▸ hx))

theorem windowsOf_filter {h h' : Hy3Layout} (ok : StoreOK h) (ok' : StoreOK h') {c : Nat}
    (ha : h'.nodes.map Hy3Node.addr = (h.nodes.map Hy3Node.addr).filter fun x => x != c)
    (hc : h.windowAt c = none) (hw : ∀ x, x ≠ c → h'.windowAt x = h.windowAt x) :
    windowsOf h' = windowsOf h := by
  rw [windowsOf_eq ok, windowsOf_eq ok', ha]
  generalize h.nodes.map Hy3Node.addr = l
  induction l with
  | nil => rfl
  | cons x l ih =>
    by_cases hx : x = c
    · subst hx
      simp [List.filter_cons, hc, ih]
    · have : (x != c) = true := by simpa using hx
      simp only [List.filter_cons, this, if_true, List.filterMap_cons, hw x hx, ih]

theorem windowAt_modify {h : Hy3Layout} (a : Nat) {f : Hy3Node → Hy3Node}
    (hf : ∀ n, (f n).data.windowOf = n.data.windowOf) (x : Nat) :
    (h.modify a f).windowAt x = h.windowAt x := by
  unfold Hy3Layout.windowAt
  rw [get_modify]
  split
  · cases h.get x with
    | none => rfl
    | some n => simp [hf n]
  · rfl

theorem Hy3Node.mapGroup_windowOf (f : Hy3GroupData → Hy3GroupData) (n : Hy3Node) :
    (n.mapGroup f).data.windowOf = n.data.windowOf := by
  cases hd : n.data with
  | window w => rw [Hy3Node.mapGroup_window hd]
  | group g => rw [Hy3Node.mapGroup_group hd]; rfl

theorem windowAt_modifyGroup (h : Hy3Layout) (a : Nat) (f : Hy3GroupData → Hy3GroupData)
    (x : Nat) : (h.modifyGroup a f).windowAt x = h.windowAt x :=
  windowAt_modify a (Hy3Node.mapGroup_windowOf f) x

theorem windowsOf_modify {h : Hy3Layout} (ok : StoreOK h) (a : Nat) {f : Hy3Node → Hy3Node}
    (hf : ∀ n, (f n).data.windowOf = n.data.windowOf) :
    windowsOf (h.modify a f) = windowsOf h :=
  windowsOf_congr ok (ok.of_addrs (addrs_modify _ _ _) (le_refl _)) (addrs_modify _ _ _)
    (windowAt_modify a hf)

theorem windowsOf_modifyGroup {h : Hy3Layout} (ok : StoreOK h) (a : Nat)
    (f : Hy3GroupData → Hy3GroupData) : windowsOf (h.modifyGroup a f) = windowsOf h :=
  windowsOf_modify ok a (Hy3Node.mapGroup_windowOf f)

theorem windowsOf_remove {h : Hy3Layout} (ok : StoreOK h) {c : Nat}
    (hc : h.windowAt c = none) : windowsOf (h.remove c) = windowsOf h := by
  refine windowsOf_filter ok (ok.remove c) (addrs_remove h c) hc fun x hx => ?_
  unfold Hy3Layout.windowAt
  rw [get_remove, if_neg hx]


@[simp] theorem Hy3NodeData.windowOf_moved (d : Hy3NodeData) : d.moved.windowOf = d.windowOf := by
  cases d <;> rfl

theorem windowsOf_push_back {h : Hy3Layout} (ok : StoreOK h) (n : Hy3Node)
    (hn : n.data.windowOf = none) : windowsOf (h.push_back n) = windowsOf h := by
  refine windowsOf_append ok (ok.push_back n) (addrs_push_back h n) ?_ fun x hx => ?_
  · unfold Hy3Layout.windowAt
    rw [get_push_back_of_ok ok, if_pos rfl]
    exact hn
  · unfold Hy3Layout.windowAt
    rw [get_push_back_of_ok ok, if_neg hx]

theorem windowsOf_swapData {h h' : Hy3Layout} (ok : StoreOK h) (cis : ChildrenInStore h)
    {a b : Nat} (e : swapData h a b = some h') : (windowsOf h').Perm (windowsOf h) := by
  cases ha : h.get a with
  | none => simp [swapData, ha] at e
  | some na =>
    cases hb : h.get b with
    | none => simp [swapData, ha, hb] at e
    | some nb =>
      by_cases hab : a = b
      · subst hab
        unfold swapData at e
        simp only [ha, if_true] at e
        cases hd : na.data with
        | window w =>
          simp only [hd, Option.some.injEq] at e
          subst e
          exact List.Perm.refl _
        | group g => simp [hd] at e
      · obtain ⟨h2, e2, n2, a2, g2⟩ := swapData_spec h a b na nb ha hb hab
          (cis.of_get ha) (cis.of_get hb)
        rw [e] at e2
        cases e2
        refine windowsOf_swap ok (ok.of_addrs a2 (le_of_eq n2.symm)) a2 (a := a) (b := b)
          (by rw [ha]; rfl) (by rw [hb]; rfl) fun x => ?_
        unfold Hy3Layout.windowAt
        rw [g2 x, Equiv.swap_apply_def]
        by_cases hxa : x = a
        · subst hxa
          simp [ha, hb, swapNode_data]
        · by_cases hxb : x = b
          · subst hxb
            simp [ha, hb, swapNode_data, hxa]
          · rw [if_neg hxa, if_neg hxb]
            cases h.get x with
            | none => rfl
            | some n => simp [swapNode_data, hxa, hxb]

theorem windowsOf_intoGroup {h h' : Hy3Layout} (ok : StoreOK h) (wf : WellFormed h)
    {this c : Nat} {layout : Hy3GroupLayout} {eph : GroupEphemeralityOption}
    (e : intoGroup h this layout eph = some (h', c)) : (windowsOf h').Perm (windowsOf h) := by
  cases ht : h.get this with
  | none => simp [intoGroup, ht] at e
  | some tn =>
    obtain ⟨h2, e2, n2, a2, gt, gn, go⟩ :=
      intoGroup_spec h ok this tn layout eph ht (wf.childrenInStore.of_get ht)
    rw [e] at e2
    cases e2
    have hne : this ≠ h.next := Nat.ne_of_lt (ok.lt_next ht)
    set N : Hy3Node :=
      { addr := h.next, parent := some this,
        data := Hy3NodeData.group (Hy3GroupData.new layout), workspace := tn.workspace } with hN
    have ok1 : StoreOK (h.push_back N) := ok.push_back N
    have ok' : StoreOK h' := by
      refine ⟨?_, ?_⟩
      · rw [a2, ← addrs_push_back h N]; exact ok1.1
      · intro n hn
        have hm : n.addr ∈ h'.nodes.map Hy3Node.addr := List.mem_map_of_mem _ hn
        rw [a2, ← addrs_push_back h N] at hm
        obtain ⟨m, hm1, hm2⟩ := List.mem_map.mp hm
        have := ok1.2 m hm1
        rw [n2, ← hm2]
        exact this
    have w1 : windowsOf (h.push_back N) = windowsOf h := windowsOf_push_back ok N rfl
    rw [← w1]
    refine windowsOf_swap ok1 ok' (by rw [a2, addrs_push_back]) (a := this) (b := h.next)
      (by rw [get_push_back_of_ok ok, if_neg hne, ht]; rfl)
      (by rw [get_push_back_of_ok ok, if_pos rfl]; rfl) fun x => ?_
    unfold Hy3Layout.windowAt
    rw [Equiv.swap_apply_def]
    by_cases hxa : x = this
    · subst hxa
      rw [gt, if_pos rfl, get_push_back_of_ok ok, if_pos rfl]
      rfl
    · by_cases hxb : x = h.next
      · subst hxb
        rw [gn, if_neg hxa, if_pos rfl, get_push_back_of_ok ok, if_neg hne, ht]
        simp
      · rw [go x hxa hxb, if_neg hxa, if_neg hxb, get_push_back_of_ok ok, if_neg hxb]
        cases h.get x with
        | none => rfl
        | some n =>
          simp only [Option.map_some', Option.some_bind]
          split <;> rfl


/-! ## The break loop of a shift keeps the invariants -/

theorem modify_congr_of_get {h : Hy3Layout} (ok : StoreOK h) {a : Nat} {f g : Hy3Node → Hy3Node}
    (hfg : ∀ n, h.get a = some n → f n = g n) : h.modify a f = h.modify a g := by
  unfold Hy3Layout.modify
  congr 1
  refine List.map_congr_left fun n hn => ?_
  by_cases e : n.addr = a
  · rw [if_pos e, if_pos e, hfg n (e ▸ get_of_mem ok hn)]
  · rw [if_neg e, if_neg e]

/-- The root wrap of the break loop (lines 2027-2041) is `intoGroup` on the root. -/
theorem rootWrap_eq_intoGroup {h : Hy3Layout} (ok : StoreOK h) (cis : ChildrenInStore h)
    {bp : Nat} {pn : Hy3Node} (hn : h.get bp = some pn) (L : Hy3GroupLayout) :
    (match swapData (h.push_back
        { addr := h.next, parent := some bp,
          data := Hy3NodeData.group (Hy3GroupData.new L), workspace := pn.workspace })
        bp h.next with
      | none => none
      | some h2 =>
        some (h2.modifyGroup bp fun g =>
          { g with
            children := g.children ++ [h.next]
            group_focused := false
            focused_child := some h.next }, h.next))
      = intoGroup h bp L GroupEphemeralityOption.Standard := by
  unfold intoGroup
  simp only [hn]
  set N : Hy3Node :=
    { addr := h.next, parent := some bp,
      data := Hy3NodeData.group (Hy3GroupData.new L), workspace := pn.workspace } with hN
  have hne : bp ≠ h.next := Nat.ne_of_lt (ok.lt_next hn)
  have ok1 : StoreOK (h.push_back N) := ok.push_back N
  have g1 : (h.push_back N).get bp = some pn := by
    rw [get_push_back_of_ok ok, if_neg hne, hn]
  have g2 : (h.push_back N).get h.next = some N := by
    rw [get_push_back_of_ok ok, if_pos rfl]
  cases hs : swapData (h.push_back N) bp h.next with
  | none => rfl
  | some h2 =>
    simp only [Option.some.injEq, Prod.mk.injEq, and_true]
    obtain ⟨h2', e2, n2, a2, gg⟩ := swapData_spec (h.push_back N) bp h.next pn N g1 g2 hne
      (fun c hc => by
        rw [get_push_back_of_ok ok]
        split
        · rfl
        · exact cis.of_get hn c hc)
      (fun c hc => by simp [hN] at hc)
    rw [hs] at e2
    cases e2
    have ok2 : StoreOK h2 := ok1.of_addrs a2 (le_of_eq n2.symm)
    rw [modifyGroup_eq]
    refine modify_congr_of_get ok2 fun n hn2 => ?_
    rw [gg bp, g1] at hn2
    simp only [Option.map_some', Option.some.injEq] at hn2
    have hd : n.data = Hy3NodeData.group (Hy3GroupData.new L).moved := by
      rw [← hn2, swapNode_data, if_pos rfl]
      rfl
    cases n with
    | mk addr parent reparenting data size_ratio workspace =>
      simp only at hd
      subst hd
      simp [Hy3Node.mapGroup, Hy3GroupData.moved, Hy3GroupData.new]


theorem InSubtree.rank_le {h : Hy3Layout} (wf : WellFormed h) {rank : Nat → Nat} {B : Nat}
    (rk : RankedBy h rank B) {a x : Nat} (hs : InSubtree h a x) : rank a ≤ rank x := by
  induction hs with
  | self a => exact le_refl _
  | step hc _ ih =>
    have hp := ((wellFormed_iff h).mp wf).2 _ _ hc
    obtain ⟨cn, hcn, hcp⟩ := parentOf_eq_some.mp hp
    have := (rk _ cn hcn).2 _ hcp
    omega

/-- A subtree on which two stores have the same child lists is a subtree of both. -/
theorem InSubtree.of_agree {h h' : Hy3Layout} {a x : Nat} (hs : InSubtree h a x)
    (hc : ∀ y, InSubtree h a y → h'.childrenOf y = h.childrenOf y) : InSubtree h' a x := by
  induction hs with
  | self a => exact InSubtree.self a
  | step hm _ ih =>
    exact InSubtree.step (by rw [hc _ (InSubtree.self _)]; exact hm)
      (ih fun y hy => hc y (InSubtree.step hm hy))

/-- Every node of a subtree below a node of the store is in the store. -/
theorem InSubtree.in_store {h : Hy3Layout} (wf : WellFormed h) {a x : Nat}
    (hs : InSubtree h a x) (ha : (h.get a).isSome) : (h.get x).isSome := by
  induction hs with
  | self a => exact ha
  | step hm _ ih =>
    exact ih (isSome_of_parentOf (((wellFormed_iff h).mp wf).2 _ _ hm))

/-- The store that `intoGroup` leaves, in terms of parent pointers and child lists. -/
theorem intoGroup_proj {h h' : Hy3Layout} (ok : StoreOK h) (wf : WellFormed h)
    {this c : Nat} {layout : Hy3GroupLayout} {eph : GroupEphemeralityOption}
    (e : intoGroup h this layout eph = some (h', c)) :
    c = h.next ∧ this ≠ c ∧ (h.get this).isSome ∧ h'.parentOf c = some (some this) ∧
      h'.childrenOf c = h.childrenOf this ∧ h'.childrenOf this = [c] ∧
      (∀ x, x ≠ this → x ≠ c → h'.childrenOf x = h.childrenOf x) ∧
      (∀ x, (h.get x).isSome → (h'.get x).isSome) := by
  cases ht : h.get this with
  | none => simp [intoGroup, ht] at e
  | some tn =>
    obtain ⟨h2, e2, n2, a2, gt, gn, go⟩ :=
      intoGroup_spec h ok this tn layout eph ht (wf.childrenInStore.of_get ht)
    rw [e] at e2
    cases e2
    have hne : this ≠ h.next := Nat.ne_of_lt (ok.lt_next ht)
    refine ⟨rfl, hne, rfl, by simp [Hy3Layout.parentOf, gn], ?_, ?_, fun x h1 h2 => ?_,
      fun x hx => ?_⟩
    · rw [childrenOf_of_get gn, childrenOf_of_get ht]
      simp
    · rw [childrenOf_of_get gt]
      simp [wrapperGroup]
    · unfold Hy3Layout.childrenOf
      rw [go x h1 h2]
      cases h.get x with
      | none => rfl
      | some n =>
        simp only [Option.map_some']
        split <;> rfl
    · by_cases h1 : x = this
      · rw [h1, gt]; rfl
      · by_cases h2 : x = h.next
        · rw [h2, gn]; rfl
        · rw [go x h1 h2]
          simpa using hx


/-- The break loop of `shiftOrGetFocus`: the store it leaves is well-formed and acyclic and holds
the same windows; at the break `break_origin` is a child of `break_parent` and the node lies in
the subtree below `break_origin`. -/
theorem breakLoop_good {node : Nat} {direction : ShiftDirection}
    {shift once visible : Bool} : ∀ (fuel : Nat) (h : Hy3Layout) (origin : Nat)
    (parent : Option Nat) (hbo : Bool) (h' : Hy3Layout) (o p : Nat) (b : Bool),
    StoreOK h → WellFormed h → Acyclic h → h.parentOf origin = some parent →
    InSubtree h origin node →
    breakLoop node direction shift once visible fuel h origin parent hbo
      = some (some (h', o, p, b)) →
    StoreOK h' ∧ WellFormed h' ∧ Acyclic h' ∧ (windowsOf h').Perm (windowsOf h) ∧
      h'.parentOf o = some (some p) ∧ InSubtree h' o node
  | 0, _, _, _, _, _, _, _, _, _, _, _, _, _, e => by simp [breakLoop] at e
  | _ + 1, _, _, none, _, _, _, _, _, _, _, _, _, _, e => by simp [breakLoop] at e
  | fuel + 1, h, origin, some bp, hbo, h', o, p, b, ok, wf, ac, hpo, hsub, e => by
    have same : ∀ {x : Hy3Layout × Nat × Nat × Bool}, x = (h', o, p, b) → x.1 = h →
        x.2.1 = origin → x.2.2.1 = bp →
        StoreOK h' ∧ WellFormed h' ∧ Acyclic h' ∧ (windowsOf h').Perm (windowsOf h) ∧
          h'.parentOf o = some (some p) ∧ InSubtree h' o node := by
      intro x hx h1 h2 h3
      subst hx
      simp only at h1 h2 h3
      subst h1 h2 h3
      exact ⟨ok, wf, ac, List.Perm.refl _, hpo, hsub⟩
    unfold breakLoop at e
    cases hn : h.get bp with
    | none => simp [hn] at e
    | some pn =>
      simp only [hn] at e
      cases hd : pn.data with
      | window w => simp [hd] at e
      | group group =>
        simp only [hd] at e
        split at e
        · cases e
        · simp only [Option.some.injEq] at e
          exact same e rfl rfl rfl
        · split at e
          · split at e
            · cases e
            · split at e
              · simp only [Option.some.injEq] at e
                exact same e rfl rfl rfl
              · split at e
                · simp only [Option.some.injEq, Prod.mk.injEq] at e
                  obtain ⟨rfl, rfl, rfl, -⟩ := e
                  have hp : ∀ a, (h.modifyGroup bp fun g => g.setLayout
                      (if shiftIsVertical direction then Hy3GroupLayout.SplitV
                       else Hy3GroupLayout.SplitH)).parentOf a = h.parentOf a :=
                    fun a => parentOf_modifyGroup _ _ _ _
                  have hc : ∀ a, (h.modifyGroup bp fun g => g.setLayout
                      (if shiftIsVertical direction then Hy3GroupLayout.SplitV
                       else Hy3GroupLayout.SplitH)).childrenOf a = h.childrenOf a :=
                    fun a => childrenOf_modifyGroup_same _ _ _ _ (fun _ => rfl)
                  obtain ⟨rank, B, rk⟩ := ac
                  refine ⟨ok.of_addrs (addrs_modifyGroup _ _ _) (le_refl _), wf.congr hp hc,
                    ⟨rank, B, rk.congr_rank hp⟩, ?_, ?_, hsub.congr_sub hc⟩
                  · rw [windowsOf_modifyGroup ok]
                  · rw [hp]; exact hpo
                · split at e
                  · cases e
                  · rename_i h2 h2e
                    simp only [Option.some.injEq, Prod.mk.injEq] at e
                    obtain ⟨rfl, rfl, rfl, -⟩ := e
                    have hw := rootWrap_eq_intoGroup ok wf.childrenInStore hn
                      (if shiftIsVertical direction then Hy3GroupLayout.SplitV
                       else Hy3GroupLayout.SplitH)
                    simp only [h2e] at hw
                    have hi := hw.symm
                    obtain ⟨ok', wf', -⟩ := intoGroup_preserves ok wf hi
                    obtain ⟨rank, B, rk⟩ := ac
                    have rk' := intoGroup_ranked ok wf rk hi
                    obtain ⟨-, hne, -, hpc, hcc, -, hco, -⟩ := intoGroup_proj ok wf hi
                    refine ⟨ok', wf', ⟨_, _, rk'⟩, windowsOf_intoGroup ok wf hi, hpc, ?_⟩
                    have hom : origin ∈ h.childrenOf bp := wf.mem_of_parent hpo
                    refine InSubtree.step (by rw [hcc]; exact hom) (hsub.of_agree fun y hy => ?_)
                    have hys : (h.get y).isSome := hy.in_store wf (isSome_of_parentOf hpo)
                    have hle := hy.rank_le wf rk
                    have hlt : rank bp < rank origin := by
                      obtain ⟨orn, horn, hop⟩ := parentOf_eq_some.mp hpo
                      exact (rk origin orn horn).2 bp hop
                    refine hco y (fun e => ?_) (fun e => ?_)
                    · rw [e] at hle; omega
                    · rw [e, ok.get_next] at hys; cases hys
          · rename_i gp hgp
            refine breakLoop_good fuel h bp _ _ h' o p b ok wf ac ?_ ?_ e
            · simp [Hy3Layout.parentOf, hn, hgp]
            · exact InSubtree.step (wf.mem_of_parent hpo) hsub


/-! ## The target of a shift is outside the shifted subtree -/

theorem get?_mem_list {cs : List Nat} {i s : Nat} (e : cs.get? i = some s) : s ∈ cs := by
  obtain ⟨hlt, e'⟩ := List.get?_eq_some.mp e
  rw [← e']
  exact List.get_mem _ _ _

theorem descendLoop_shift_succ (direction : ShiftDirection) (once visible : Bool) (fuel : Nat)
    (h : Hy3Layout) (iter : Nat) :
    ∃ ins : Hy3GroupData → Option Nat,
    descendLoop direction true once visible (fuel + 1) h iter =
      match h.group iter with
      | none => none
      | some g =>
        if g.children = [] then some (ShiftTarget.ret none)
        else if once then (ins g).map (ShiftTarget.place iter)
        else
          match g.children.get? (descendPick direction true visible g).1 with
          | none => none
          | some next =>
            match h.get next with
            | none => none
            | some nn =>
              if stopsDescent nn then (ins g).map (ShiftTarget.place iter)
              else descendLoop direction true once visible fuel h next := by
  refine ⟨fun g =>
    if (descendPick direction true visible g).2 then
      (if (descendPick direction true visible g).1 < g.children.length then
        some ((descendPick direction true visible g).1 + 1) else none)
    else some (descendPick direction true visible g).1, ?_⟩
  rw [descendLoop]
  cases h.group iter with
  | none => rfl
  | some g =>
    simp only
    by_cases hc : g.children = []
    · rw [if_pos hc, if_pos hc]
    · rw [if_neg hc, if_neg hc]
      cases once with
      | true => rfl
      | false => rfl

/-- The group that the descent of a shift ends in lies below the group it started in. -/
theorem descendLoop_target {d : ShiftDirection} {once visible : Bool} :
    ∀ (fuel : Nat) (h : Hy3Layout) (iter T i : Nat),
      descendLoop d true once visible fuel h iter = some (ShiftTarget.place T i) →
      InSubtree h iter T
  | 0, _, _, _, _, e => by
    unfold descendLoop at e
    cases e
  | fuel + 1, h, iter, T, i, e => by
    obtain ⟨ins, hd⟩ := descendLoop_shift_succ d once visible fuel h iter
    rw [hd] at e
    have hplace : ∀ (k : Option Nat),
        k.map (ShiftTarget.place iter) = some (ShiftTarget.place T i) →
        InSubtree h iter T := by
      intro k hi
      cases k with
      | none => cases hi
      | some k =>
        simp only [Option.map_some', Option.some.injEq, ShiftTarget.place.injEq] at hi
        exact hi.1 ▸ InSubtree.self _
    cases hg : h.group iter with
    | none => rw [hg] at e; cases e
    | some gd =>
      rw [hg] at e
      simp only at e
      split at e
      · cases e
      · split at e
        · exact hplace _ e
        · split at e
          · cases e
          · rename_i next hnext
            split at e
            · cases e
            · rename_i nn hnn
              split at e
              · exact hplace _ e
              · have hm : next ∈ h.childrenOf iter := by
                  rw [childrenOf_of_group_eq hg]
                  exact get?_mem_list hnext
                exact InSubtree.step hm (descendLoop_target fuel h next T i e)

/-- Where a shift places the node: in `break_parent`, or below a sibling of `break_origin`. -/
theorem resolveInsert_target {fuel : Nat} {h : Hy3Layout} (wf : WellFormed h)
    {node o p : Nat} {hbo : Bool} {d : ShiftDirection} {once visible : Bool} {T i : Nat}
    (hpo : h.parentOf o = some (some p))
    (e : resolveInsert fuel h node o p hbo d true once visible = some (ShiftTarget.place T i)) :
    T = p ∨ ∃ s, s ∈ h.childrenOf p ∧ s ≠ o ∧ InSubtree h s T := by
  unfold resolveInsert at e
  cases hg : h.group p with
  | none => simp [hg] at e
  | some pg =>
    simp only [hg] at e
    have hcs : h.childrenOf p = pg.children := childrenOf_of_group_eq hg
    have nd : pg.children.Nodup := hcs ▸ wf.children_nodup p
    have hom : o ∈ pg.children := hcs ▸ wf.mem_of_parent hpo
    split at e
    · split at e
      · simp only [Bool.not_true, Bool.false_eq_true, if_false, Option.some.injEq,
          ShiftTarget.place.injEq] at e
        exact Or.inl e.1.symm
      · split at e
        · simp only [Bool.not_true, Bool.false_eq_true, if_false, Option.some.injEq,
            ShiftTarget.place.injEq] at e
          exact Or.inl e.1.symm
        · split at e
          · cases e
          · rename_i k hk
            split at e
            · cases e
            · rename_i iter hiter
              split at e
              · cases e
              · rename_i itn hitn
                split at e
                · simp only [if_true] at e
                  split at e
                  · cases e
                  · split at e
                    · simp only [Option.some.injEq, ShiftTarget.place.injEq] at e
                      exact Or.inl e.1.symm
                    · simp only [Option.some.injEq, ShiftTarget.place.injEq] at e
                      exact Or.inl e.1.symm
                · refine Or.inr ⟨iter, hcs ▸ get?_mem_list hiter, fun hio => ?_,
                    descendLoop_target fuel h iter T i e⟩
                  subst hio
                  have hidx := indexOf_of_get? nd hiter
                  have hlt := List.indexOf_lt_length.mpr hom
                  split_ifs at hk
                  all_goals
                    simp only [Option.some.injEq] at hk
                    omega
    · cases e

/-- The group a shift places the node in does not lie in the subtree below the node. -/
theorem shift_target_outside {h : Hy3Layout} (wf : WellFormed h) {rank : Nat → Nat} {B : Nat}
    (rk : RankedBy h rank B) {node o p T : Nat} (hpo : h.parentOf o = some (some p))
    (hsub : InSubtree h o node)
    (ht : T = p ∨ ∃ s, s ∈ h.childrenOf p ∧ s ≠ o ∧ InSubtree h s T) :
    ¬ InSubtree h node T := by
  intro hs
  have hoT := hsub.sub_trans hs
  rcases ht with rfl | ⟨s, hsm, hso, hsT⟩
  · have := hoT.rank_le wf rk
    obtain ⟨orn, horn, hop⟩ := parentOf_eq_some.mp hpo
    have := (rk o orn horn).2 T hop
    omega
  · exact inSubtree_siblings_disjoint wf rk (wf.mem_of_parent hpo) hsm (Ne.symm hso) hoT hsT


/-! ## Removal from the old parent in the middle of a shift -/

theorem SameButExpand.windowAt {h h' : Hy3Layout} (hs : SameButExpand h h') (a : Nat) :
    h'.windowAt a = h.windowAt a := by
  have := congrArg (fun o : Option Hy3Node => o.bind fun n => n.data.windowOf) (hs a)
  unfold Hy3Layout.windowAt
  cases h1 : h'.get a <;> cases h2 : h.get a <;>
    simp only [h1, h2, Option.map_some', Option.map_none', Option.some_bind, Option.none_bind,
      Hy3Node.noExpand] at this ⊢
  · cases hd : (‹Hy3Node›).data <;> simp [hd, Hy3NodeData.windowOf] at this ⊢
  · cases hd : (‹Hy3Node›).data <;> simp [hd, Hy3NodeData.windowOf] at this ⊢
  · rename_i n1 n2
    cases hd1 : n1.data <;> cases hd2 : n2.data <;>
      simp [hd1, hd2, Hy3NodeData.windowOf] at this ⊢
    exact this


theorem SameButFocus.windowAt_eq {h h' : Hy3Layout} (hs : SameButFocus h h') (a : Nat) :
    h'.windowAt a = h.windowAt a := by
  have := congrArg (fun o : Option Hy3Node => o.bind fun n => n.data.windowOf) (hs.2.2 a)
  unfold Hy3Layout.windowAt
  cases h1 : h'.get a <;> cases h2 : h.get a <;>
    simp only [h1, h2, Option.map_some', Option.map_none', Option.some_bind, Option.none_bind,
      Hy3Node.mapGroup_windowOf] at this ⊢
  all_goals exact this

theorem SameButFocus.windowsOf {h h' : Hy3Layout} (hs : SameButFocus h h') (ok : StoreOK h) :
    windowsOf h' = windowsOf h :=
  windowsOf_congr ok (hs.storeOK ok) hs.2.1 hs.windowAt_eq

theorem filterMap_set_indexOf (x : Nat) : ∀ cs : List Nat,
    ((cs.map some).set (cs.indexOf x) none).filterMap id = cs.erase x
  | [] => rfl
  | c :: cs => by
    by_cases hc : c = x
    · subst hc
      simp [List.filterMap_cons, filterMap_id_map_some]
    · rw [List.indexOf_cons_ne _ hc, List.erase_cons_tail (by simpa using hc)]
      simp only [List.map_cons, List.set_cons_succ, List.filterMap_cons, id_eq]
      rw [filterMap_set_indexOf x cs]

theorem reorderChild_perm {cs : List Nat} {node insert : Nat} {res : List Nat}
    (e : reorderChild cs node insert = some res) : res.Perm cs := by
  unfold reorderChild at e
  split at e
  · rename_i hnode
    simp only [Option.some.injEq] at e
    subst e
    have h1 : (List.take insert ((cs.map some).set (cs.indexOf node) none) ++
        some node :: List.drop insert ((cs.map some).set (cs.indexOf node) none)).Perm
        (some node :: ((cs.map some).set (cs.indexOf node) none)) := by
      refine List.perm_middle.trans (List.Perm.cons _ ?_)
      rw [List.take_append_drop]
    refine (h1.filterMap id).trans ?_
    rw [List.filterMap_cons]
    simp only [id_eq]
    rw [filterMap_set_indexOf]
    exact (List.perm_cons_erase hnode).symm
  · cases e

theorem insertAt_perm (cs : List Nat) (i node : Nat) : (insertAt cs i node).Perm (node :: cs) := by
  unfold insertAt
  refine List.perm_middle.trans (List.Perm.cons _ ?_)
  rw [List.take_append_drop]

/-- Reordering one child list keeps the store well-formed. -/
theorem WellFormed.perm_children {h h' : Hy3Layout} (wf : WellFormed h) {T : Nat}
    {cs : List Nat} (hperm : cs.Perm (h.childrenOf T))
    (hp : ∀ x, h'.parentOf x = h.parentOf x)
    (hc : ∀ x, h'.childrenOf x = if x = T then cs else h.childrenOf x) : WellFormed h' := by
  have w := (wellFormed_iff h).mp wf
  rw [wellFormed_iff]
  refine ⟨fun a p e => ?_, fun a c e => ?_⟩
  · rw [hp] at e
    rw [hc]
    split
    · rename_i hpT
      rw [hperm.count_eq, ← hpT]
      exact w.1 a p e
    · exact w.1 a p e
  · rw [hp]
    rw [hc] at e
    split at e
    · rename_i haT
      rw [haT]
      exact w.2 T c (hperm.mem_iff.mp e)
    · exact w.2 a c e

theorem childrenOf_modifyGroup_children (h : Hy3Layout) (a x : Nat) (cs : List Nat)
    (ha : (h.group a).isSome) :
    (h.modifyGroup a fun g => { g with children := cs }).childrenOf x
      = if x = a then cs else h.childrenOf x := by
  rw [childrenOf_modifyGroup]
  split
  · rename_i e
    subst e
    obtain ⟨g, hg⟩ := Option.isSome_iff_exists.mp ha
    rw [hg]
    rfl
  · rfl


theorem Pending.congr_proj {h h' : Hy3Layout} {x T : Nat} (pd : Pending h x T)
    (hp : ∀ a, h'.parentOf a = h.parentOf a) (hc : ∀ a, h'.childrenOf a = h.childrenOf a) :
    Pending h' x T := by
  obtain ⟨p1, p2, p3, p4, p5⟩ := pd
  refine ⟨fun a p e => ?_, fun a c e => ?_, ?_, ?_, ?_⟩
  · rw [hc]; exact p1 a p (hp a ▸ e)
  · rw [hp]; exact p2 a c (hc a ▸ e)
  · rw [hc]; exact p3
  · rw [hp]; exact p4
  · rw [← parentOf_isSome, hp, parentOf_isSome]; exact p5

/-- Inserting a node into the child list of a group that is not its parent. -/
theorem Pending.of_insert {h : Hy3Layout} (wf : WellFormed h) {x T i : Nat}
    {g : Hy3GroupData} (hg : h.group T = some g) (hx : (h.get x).isSome)
    (hne : h.parentOf x ≠ some (some T)) :
    Pending (h.modifyGroup T fun g => { g with children := insertAt g.children i x }) x T := by
  have w := (wellFormed_iff h).mp wf
  have hcs : h.childrenOf T = g.children := childrenOf_of_group_eq hg
  have hp : ∀ a, (h.modifyGroup T fun g =>
      { g with children := insertAt g.children i x }).parentOf a = h.parentOf a :=
    fun a => parentOf_modifyGroup _ _ _ _
  have hc : ∀ a, (h.modifyGroup T fun g =>
      { g with children := insertAt g.children i x }).childrenOf a
      = if a = T then insertAt g.children i x else h.childrenOf a := by
    intro a
    rw [childrenOf_modifyGroup]
    split
    · rename_i e
      rw [e, hg]
      rfl
    · rfl
  have hxn : x ∉ g.children := fun hm => hne (w.2 T x (hcs ▸ hm))
  have hperm := insertAt_perm g.children i x
  refine ⟨fun a p e => ?_, fun a c e => ?_, ?_, ?_, ?_⟩
  · rw [hp] at e
    rw [hc]
    split
    · rename_i hpT
      subst hpT
      have hax : a ≠ x := fun e2 => hne (e2 ▸ e)
      rw [hperm.count_eq, List.count_cons_of_ne hax, ← hcs]
      exact w.1 a p e
    · exact w.1 a p e
  · rw [hp]
    rw [hc] at e
    split at e
    · rename_i haT
      rcases List.mem_cons.mp (hperm.mem_iff.mp e) with e1 | e1
      · exact Or.inl ⟨e1, haT⟩
      · exact Or.inr (haT ▸ w.2 T c (hcs ▸ e1))
    · exact Or.inr (w.2 a c e)
  · rw [hc, if_pos rfl, hperm.count_eq, List.count_cons_self, List.count_eq_zero_of_not_mem hxn]
  · rw [hp]; exact hne
  · rw [get_modifyGroup_isSome]; exact hx

/-- One round of the removal loop on a store with a pending insertion. -/
theorem Pending.detach_pending {h : Hy3Layout} {x T : Nat} (pd : Pending h x T) {c gp : Nat}
    {group : Hy3GroupData} (hg : h.group gp = some group)
    (hp : h.parentOf c = some (some gp)) (hc : c = x ∨ h.childrenOf c = []) :
    Pending (Hy3.detachStore x c gp group.children h) x T := by
  obtain ⟨p1, p2, p3, p4, p5⟩ := pd
  obtain ⟨pp, pc⟩ := detachStore_proj x c gp h group hg
  have chgp : h.childrenOf gp = group.children := childrenOf_of_group_eq hg
  have nochild : ∀ {a q : Nat}, h.parentOf a = some (some q) → ¬ (q = c ∧ c ≠ x) := by
    rintro a q e ⟨rfl, hcx⟩
    have := p1 a q e
    rw [hc.resolve_left hcx] at this
    simp at this
  have hxc : c = x → gp ≠ T := fun e1 e2 => p4 (e1 ▸ e2 ▸ hp)
  refine ⟨fun a p e => ?_, fun a d e => ?_, ?_, ?_, ?_⟩
  · rw [pp a] at e
    by_cases hac : a = c
    · rw [if_pos hac] at e
      by_cases hcx : c ≠ x
      · rw [if_pos hcx] at e; cases e
      · rw [if_neg hcx] at e
        cases hq : h.parentOf a <;> simp [hq] at e
    · rw [if_neg hac] at e
      rw [pc p, if_neg (nochild e)]
      by_cases hpg : p = gp
      · rw [if_pos hpg, ← chgp, ← hpg, List.count_filter (by simpa using hac)]
        exact p1 a p e
      · rw [if_neg hpg]
        exact p1 a p e
  · rw [pc a] at e
    by_cases hac : a = c ∧ c ≠ x
    · rw [if_pos hac] at e; cases e
    · rw [if_neg hac] at e
      have hd : d ∈ h.childrenOf a ∧ (a = gp → d ≠ c) := by
        by_cases hag : a = gp
        · rw [if_pos hag] at e
          have := List.mem_filter.mp e
          exact ⟨by rw [hag, chgp]; exact this.1, fun _ => by simpa using this.2⟩
        · rw [if_neg hag] at e
          exact ⟨e, fun e2 => absurd e2 hag⟩
      rcases p2 a d hd.1 with hl | hr
      · exact Or.inl hl
      · right
        have hdc : d ≠ c := by
          intro e2
          subst e2
          rw [hp] at hr
          simp only [Option.some.injEq] at hr
          exact hd.2 hr.symm rfl
        rw [pp d, if_neg hdc]
        exact hr
  · rw [pc T]
    have hT : ¬ (T = c ∧ c ≠ x) := by
      rintro ⟨rfl, hcx⟩
      rw [hc.resolve_left hcx] at p3
      simp at p3
    rw [if_neg hT]
    by_cases hTg : T = gp
    · rw [if_pos hTg]
      have hxc' : x ≠ c := fun e => hxc e.symm hTg.symm
      rw [← chgp, ← hTg, List.count_filter (by simpa using hxc')]
      exact p3
    · rw [if_neg hTg]
      exact p3
  · rw [pp x]
    by_cases hxc' : x = c
    · rw [if_pos hxc', if_neg (by simp [hxc'])]
      cases hq : h.parentOf x <;> simp
    · rw [if_neg hxc']
      exact p4
  · rw [← parentOf_isSome, pp x]
    by_cases hxc' : x = c
    · rw [if_pos hxc', if_neg (by simp [hxc']), Option.isSome_map', parentOf_isSome]
      exact p5
    · rw [if_neg hxc', parentOf_isSome]
      exact p5

/-- Removing a parentless, childless node other than `x`. -/
theorem Pending.remove_root {h : Hy3Layout} {x T : Nat} (pd : Pending h x T) {c : Nat}
    (hp : h.parentOf c = some none) (hc : h.childrenOf c = []) (hcx : c ≠ x) :
    Pending (h.remove c) x T := by
  obtain ⟨p1, p2, p3, p4, p5⟩ := pd
  have hTc : T ≠ c := by
    rintro rfl
    rw [hc] at p3
    simp at p3
  refine ⟨fun a p e => ?_, fun a d e => ?_, ?_, ?_, ?_⟩
  · rw [parentOf_remove] at e
    split at e
    · cases e
    · rw [childrenOf_remove]
      have hpc : p ≠ c := by
        rintro rfl
        have := p1 a p e
        rw [hc] at this
        simp at this
      rw [if_neg hpc]
      exact p1 a p e
  · rw [childrenOf_remove] at e
    split at e
    · cases e
    · rcases p2 a d e with hl | hr
      · exact Or.inl hl
      · right
        rw [parentOf_remove]
        have hdc : d ≠ c := by
          rintro rfl
          rw [hp] at hr
          cases hr
        rw [if_neg hdc]
        exact hr
  · rw [childrenOf_remove, if_neg hTc]
    exact p3
  · rw [parentOf_remove, if_neg (Ne.symm hcx)]
    exact p4
  · rw [get_remove, if_neg (Ne.symm hcx)]
    exact p5

/-- Once the node is detached from its old parent, pointing it at the group it was inserted into
gives a well-formed store. -/
theorem Pending.finish {h : Hy3Layout} {x T : Nat} (pd : Pending h x T)
    (hx : h.parentOf x = some none) :
    WellFormed (h.modify x fun n => { n with parent := some T, size_ratio := 1 }) := by
  obtain ⟨p1, p2, p3, p4, p5⟩ := pd
  have hp : ∀ a, (h.modify x fun n => { n with parent := some T, size_ratio := 1 }).parentOf a
      = if a = x then some (some T) else h.parentOf a := by
    intro a
    unfold Hy3Layout.parentOf
    rw [get_modify]
    split
    · rename_i e
      subst e
      obtain ⟨n, hn⟩ := Option.isSome_iff_exists.mp p5
      rw [hn]
      rfl
    · rfl
  have hc : ∀ a, (h.modify x fun n => { n with parent := some T, size_ratio := 1 }).childrenOf a
      = h.childrenOf a := fun a => childrenOf_modify_of _ _ _ _ (fun _ => rfl)
  rw [wellFormed_iff]
  refine ⟨fun a p e => ?_, fun a c e => ?_⟩
  · rw [hp] at e
    rw [hc]
    split at e
    · rename_i hax
      simp only [Option.some.injEq] at e
      rw [hax, ← e]
      exact p3
    · exact p1 a p e
  · rw [hc] at e
    rw [hp]
    rcases p2 a c e with ⟨h1, h2⟩ | hr
    · rw [if_pos h1, h2]
    · have hcx : c ≠ x := by
        rintro rfl
        rw [hx] at hr
        cases hr
      rw [if_neg hcx]
      exact hr


theorem windowAt_focusBeforeRemove (h : Hy3Layout) (p : Nat) (cs : List Nat) (c y : Nat) :
    (focusBeforeRemove h p cs c).windowAt y = h.windowAt y := by
  unfold focusBeforeRemove
  split
  · exact windowAt_modifyGroup _ _ _ _
  · rfl

theorem windowAt_detachStore (this c gp : Nat) (cs : List Nat) (h : Hy3Layout) (y : Nat) :
    (detachStore this c gp cs h).windowAt y =
      if y = c ∧ c ≠ this then none else h.windowAt y := by
  unfold detachStore
  by_cases hct : c ≠ this
  · simp only [if_pos hct]
    unfold Hy3Layout.windowAt
    rw [get_remove]
    by_cases hy : y = c
    · rw [if_pos hy, if_pos ⟨hy, hct⟩]; rfl
    · rw [if_neg hy, if_neg (fun e : y = c ∧ c ≠ this => hy e.1)]
      exact (windowAt_modifyGroup _ _ _ _).trans (windowAt_focusBeforeRemove _ _ _ _ _)
  · simp only [if_neg hct]
    rw [if_neg (fun e : y = c ∧ c ≠ this => hct e.2)]
    refine (windowAt_modify c (f := fun n => { n with parent := none }) (fun _ => rfl) y).trans ?_
    exact (windowAt_modifyGroup _ _ _ _).trans (windowAt_focusBeforeRemove _ _ _ _ _)

theorem windowsOf_detachStore {h : Hy3Layout} (ok : StoreOK h) (this c gp : Nat)
    (cs : List Nat) (hc : c = this ∨ h.windowAt c = none) :
    windowsOf (detachStore this c gp cs h) = windowsOf h := by
  have ok' := ok.detachStore this c gp cs
  obtain ⟨-, ha⟩ := detachStore_addrs this c gp cs h
  by_cases hct : c ≠ this
  · rw [if_pos hct] at ha
    refine windowsOf_filter ok ok' ha (hc.resolve_left hct) fun y hy => ?_
    rw [windowAt_detachStore, if_neg (fun e : y = c ∧ c ≠ this => hy e.1)]
  · rw [if_neg hct] at ha
    refine windowsOf_congr ok ok' ha fun y => ?_
    rw [windowAt_detachStore, if_neg (fun e : y = c ∧ c ≠ this => hct e.2)]

theorem RankedBy.detach_ranked {h : Hy3Layout} {rank : Nat → Nat} {B : Nat}
    (rk : RankedBy h rank B) (this c gp : Nat) {group : Hy3GroupData}
    (hg : h.group gp = some group) :
    RankedBy (Hy3.detachStore this c gp group.children h) rank B := by
  obtain ⟨pp, -⟩ := detachStore_proj this c gp h group hg
  refine rk.of_fewer_parents fun a p e => ?_
  rw [pp a] at e
  by_cases hac : a = c
  · rw [if_pos hac] at e
    by_cases hct : c ≠ this
    · rw [if_pos hct] at e; cases e
    · rw [if_neg hct] at e
      cases hq : h.parentOf a with
      | none => simp [hq] at e
      | some q =>
        simp only [hq, Option.map_some', Option.some.injEq] at e
        exact ⟨q, rfl, Or.inl e.symm⟩
  · rw [if_neg hac] at e
    exact ⟨p, e, Or.inr rfl⟩

theorem group_of_childrenOf_ne_nil {h : Hy3Layout} {a : Nat} (hc : h.childrenOf a ≠ []) :
    ∃ g, h.group a = some g := by
  cases hn : h.get a with
  | none => exact absurd (childrenOf_none hn) hc
  | some n =>
    cases hd : n.data with
    | window w =>
      rw [childrenOf_of_get hn, hd] at hc
      exact absurd rfl hc
    | group g => exact ⟨g, group_of_get hn hd⟩

theorem windowAt_of_group {h : Hy3Layout} {a : Nat} {g : Hy3GroupData}
    (hg : h.group a = some g) : h.windowAt a = none := by
  obtain ⟨n, hn, hd⟩ := group_eq_some hg
  simp [Hy3Layout.windowAt, hn, hd, Hy3NodeData.windowOf]

/-- The removal loop on a store with a pending insertion keeps the pending insertion, the
windows and every ranking, and leaves the node parentless. -/
theorem removeLoop_pending (x T : Nat) : ∀ (fuel : Nat) (h : Hy3Layout) (c : Nat)
    (h' : Hy3Layout) (r : Option Nat), StoreOK h → Pending h x T →
    (c = x ∨ (h.childrenOf c = [] ∧ h.parentOf x = some none ∧ h.windowAt c = none)) →
    removeLoop x fuel h c = some (h', r) →
    StoreOK h' ∧ Pending h' x T ∧ h'.parentOf x = some none ∧ windowsOf h' = windowsOf h ∧
      ∀ (rank : Nat → Nat) (B : Nat), RankedBy h rank B → RankedBy h' rank B
  | 0, _, _, _, _, _, _, _, e => by simp [removeLoop] at e
  | fuel + 1, h, c, h', r, ok, pd, hc, e => by
    cases hcn : h.get c with
    | none => simp [removeLoop, hcn] at e
    | some pn =>
      cases hp : pn.parent with
      | none =>
        rw [removeLoop_root hcn hp] at e
        simp only [Option.some.injEq, Prod.mk.injEq] at e
        obtain ⟨e1, _⟩ := e
        subst e1
        have hpc : h.parentOf c = some none := by simp [Hy3Layout.parentOf, hcn, hp]
        by_cases hct : c ≠ x
        · rw [if_pos hct]
          have hc' := hc.resolve_left hct
          refine ⟨ok.remove c, pd.remove_root hpc hc'.1 hct, ?_, windowsOf_remove ok hc'.2.2,
            fun rank B rk => rk.of_fewer_parents fun a p e => ?_⟩
          · rw [parentOf_remove, if_neg (Ne.symm hct)]
            exact hc'.2.1
          · rw [parentOf_remove] at e
            split at e
            · cases e
            · exact ⟨p, e, Or.inr rfl⟩
        · rw [if_neg hct]
          push_neg at hct
          subst hct
          exact ⟨ok, pd, hpc, rfl, fun _ _ rk => rk⟩
      | some gp =>
        have hpc : h.parentOf c = some (some gp) := by simp [Hy3Layout.parentOf, hcn, hp]
        have hcount := pd.1 c gp hpc
        have hmc : c ∈ h.childrenOf gp := List.count_pos_iff.mp (by omega)
        obtain ⟨group, hg⟩ := group_of_childrenOf_ne_nil (List.ne_nil_of_mem hmc)
        have chgp : h.childrenOf gp = group.children := childrenOf_of_group_eq hg
        have hm : c ∈ group.children := chgp ▸ hmc
        rw [removeLoop_step hcn hp hg hm] at e
        have hc2 : c = x ∨ h.childrenOf c = [] := hc.imp id (fun y => y.1)
        have ok3 := ok.detachStore x c gp group.children
        have pd3 : Pending (detachStore x c gp group.children h) x T :=
          pd.detach_pending hg hpc hc2
        have w3 : windowsOf (detachStore x c gp group.children h) = windowsOf h :=
          windowsOf_detachStore ok x c gp group.children (hc.imp id (fun y => y.2.2))
        obtain ⟨pp, pc⟩ := detachStore_proj x c gp h group hg
        have hpt3 : (detachStore x c gp group.children h).parentOf x = some none := by
          rw [pp x]
          by_cases hct : x = c
          · rw [if_pos hct, if_neg (by simp [hct])]
            obtain ⟨tn, htn⟩ := Option.isSome_iff_exists.mp pd.2.2.2.2
            simp [Hy3Layout.parentOf, htn]
          · rw [if_neg hct]
            exact (hc.resolve_left (Ne.symm hct)).2.1
        by_cases hcs : group.children.filter (fun s => s ≠ c) ≠ []
        · rw [if_pos hcs] at e
          cases h4e : addRatioAll (detachStore x c gp group.children h)
              (group.children.filter fun s => s ≠ c)
              (-((1 - pn.size_ratio) /
                (((group.children.filter fun s => s ≠ c).length
                  - (if x ∈ group.children.filter (fun s => s ≠ c) then 1 else 0) : Nat)
                    : ℚ))) with
          | none => rw [h4e] at e; simp at e
          | some h4 =>
            rw [h4e] at e
            simp only [Option.map_some', Option.some.injEq, Prod.mk.injEq] at e
            obtain ⟨e1, _⟩ := e
            subst e1
            obtain ⟨n4, a4, g4⟩ := addRatioAll_frame _ _ _ _ h4e
            obtain ⟨p4, c4, _⟩ := addRatioAll_proj h4e
            have ok4 : StoreOK h4 := ok3.of_addrs a4 (le_of_eq n4.symm)
            have pd4 : Pending h4 x T := pd3.congr_proj p4 c4
            have hpt4 : h4.parentOf x = some none := by rw [p4]; exact hpt3
            have w4 : windowsOf h4 = windowsOf (detachStore x c gp group.children h) := by
              refine windowsOf_congr ok3 ok4 a4 fun y => ?_
              obtain ⟨k, hk⟩ := g4 y
              unfold Hy3Layout.windowAt
              rw [hk]
              cases (detachStore x c gp group.children h).get y <;> rfl
            have hp5 : ∀ a, (h4.modify x fun n => { n with parent := none }).parentOf a
                = h4.parentOf a := by
              intro a
              rw [parentOf_modify_parent]
              split
              · next e2 => rw [e2, hpt4]; rfl
              · rfl
            refine ⟨ok4.of_addrs (addrs_modify _ _ _) (le_refl _),
              pd4.congr_proj hp5 (fun a => childrenOf_modify_parent _ _ _ _), ?_, ?_,
              fun rank B rk => ?_⟩
            · rw [hp5]; exact hpt4
            · rw [windowsOf_modify ok4 x (f := fun n => { n with parent := none })
                (fun _ => rfl), w4, w3]
            · exact ((rk.detach_ranked x c gp hg).congr_rank p4).congr_rank hp5
        · rw [if_neg hcs] at e
          push_neg at hcs
          have hc3 : gp = x ∨
              ((detachStore x c gp group.children h).childrenOf gp = [] ∧
                (detachStore x c gp group.children h).parentOf x = some none ∧
                (detachStore x c gp group.children h).windowAt gp = none) := by
            by_cases hgt : gp = x
            · exact Or.inl hgt
            · refine Or.inr ⟨?_, hpt3, ?_⟩
              · rw [pc gp]
                by_cases hgc : gp = c ∧ c ≠ x
                · rw [if_pos hgc]
                · rw [if_neg hgc, if_pos rfl, hcs]
              · rw [windowAt_detachStore]
                split
                · rfl
                · exact windowAt_of_group hg
          obtain ⟨ok', pd', hx', w', rk'⟩ :=
            removeLoop_pending x T fuel _ gp h' r ok3 pd3 hc3 e
          exact ⟨ok', pd', hx', w'.trans w3, fun rank B rk =>
            rk' rank B (rk.detach_ranked x c gp hg)⟩


/-! ## Swallowing groups after a shift -/

theorem swallowGroups_ranked {h h' : Hy3Layout} (ok : StoreOK h) (wf : WellFormed h)
    {rank : Nat → Nat} {B : Nat} (rk : RankedBy h rank B)
    {into : Option Nat} {b : Bool} (e : swallowGroups h into = some (h', b)) :
    RankedBy h' rank B := by
  rcases swallowGroups_cases e with ⟨_, rfl⟩ | ⟨_, i, n, g, child, cn, h1, _, hn, hd, hc, hcn, _,
    hs, rfl⟩
  · exact rk
  · have hne := swapData_ne_of_group hn hd hs
    obtain ⟨h2, e2, n2, a2, g2⟩ := swapData_spec h i child n cn hn hcn hne
      (wf.childrenInStore.of_get hn) (wf.childrenInStore.of_get hcn)
    rw [hs] at e2
    cases e2
    have cr := wf.childrenRanked rk
    have hci : child ∈ n.data.children := by rw [hd]; simp [hc]
    have hrc := (cr i n child hn hci).2.1
    intro a m hm
    rw [get_remove] at hm
    split at hm
    · cases hm
    · rw [g2] at hm
      cases hq : h.get a with
      | none => simp [hq] at hm
      | some q =>
        simp only [hq, Option.map_some', Option.some.injEq] at hm
        have hb := rk a q hq
        refine ⟨hb.1, fun p hp => ?_⟩
        rw [← hm, swapNode_parent] at hp
        split at hp
        · rename_i hmem
          rw [hd] at hmem
          simp only [Hy3NodeData.children_group, hc, List.mem_singleton] at hmem
          contradiction
        · split at hp
          · rename_i hmem
            simp only [Option.some.injEq] at hp
            subst hp
            have := (cr child cn a hcn hmem).2.1
            omega
          · exact hb.2 p hp

theorem windowsOf_swallowGroups {h h' : Hy3Layout} (ok : StoreOK h) (wf : WellFormed h)
    {into : Option Nat} {b : Bool} (e : swallowGroups h into = some (h', b)) :
    (windowsOf h').Perm (windowsOf h) := by
  rcases swallowGroups_cases e with ⟨_, rfl⟩ | ⟨_, i, n, g, child, cn, h1, _, hn, hd, hc, hcn, _,
    hs, rfl⟩
  · exact List.Perm.refl _
  · have hne := swapData_ne_of_group hn hd hs
    obtain ⟨h2, e2, n2, a2, g2⟩ := swapData_spec h i child n cn hn hcn hne
      (wf.childrenInStore.of_get hn) (wf.childrenInStore.of_get hcn)
    rw [hs] at e2
    cases e2
    have ok1 : StoreOK h1 := ok.of_addrs a2 (le_of_eq n2.symm)
    have hw : h1.windowAt child = none := by
      unfold Hy3Layout.windowAt
      rw [g2 child, hcn]
      simp [swapNode_data, Ne.symm hne, hd, Hy3NodeData.moved, Hy3NodeData.windowOf]
    rw [windowsOf_remove ok1 hw]
    exact windowsOf_swapData ok wf.childrenInStore hs

/-- What a successful `swallowGroups` does to parent pointers: the only child of the group is
removed and its children become children of the group. -/
theorem swallowGroups_true_proj {h h' : Hy3Layout} (wf : WellFormed h)
    {i : Nat} (e : swallowGroups h (some i) = some (h', true)) :
    ∃ child, h.childrenOf i = [child] ∧ child ≠ i ∧
      (∀ x, x ≠ child → h'.parentOf x =
        (h.parentOf x).map fun p => if x ∈ h.childrenOf child then some i else p) ∧
      h'.parentOf child = none := by
  rcases swallowGroups_cases e with ⟨hb, _⟩ | ⟨_, i', n, g, child, cn, h1, hi, hn, hd, hc, hcn, _,
    hs, rfl⟩
  · cases hb
  · cases hi
    have hne := swapData_ne_of_group hn hd hs
    obtain ⟨h2, e2, n2, a2, g2⟩ := swapData_spec h i child n cn hn hcn hne
      (wf.childrenInStore.of_get hn) (wf.childrenInStore.of_get hcn)
    rw [hs] at e2
    cases e2
    obtain ⟨hp, hch⟩ := swapData_proj hn hcn g2
    have chi : h.childrenOf i = [child] := by
      rw [childrenOf_of_get hn, hd, Hy3NodeData.children_group, hc]
    refine ⟨child, chi, Ne.symm hne, fun x hx => ?_, ?_⟩
    · rw [parentOf_remove, if_neg hx, hp x, chi]
      cases h.parentOf x with
      | none => rfl
      | some q =>
        simp only [Option.map_some', List.mem_singleton, if_neg hx]
    · rw [parentOf_remove, if_pos rfl]


/-- The swallow loop above the target group of a shift keeps the store well-formed and ranked
and the windows in place, and the node keeps a parent. -/
theorem swallowLoop_good {x : Nat} {rank : Nat → Nat} {B : Nat} :
    ∀ (fuel : Nat) (h : Hy3Layout) (tp : Option Nat) (h' : Hy3Layout),
    StoreOK h → WellFormed h → RankedBy h rank B →
    (∃ q, h.parentOf x = some (some q) ∧ h.parentOf q = some tp) →
    swallowLoop fuel h tp = some h' →
    StoreOK h' ∧ WellFormed h' ∧ RankedBy h' rank B ∧ (windowsOf h').Perm (windowsOf h) ∧
      ∃ q', h'.parentOf x = some (some q')
  | 0, _, _, _, _, _, _, _, e => by simp [swallowLoop] at e
  | _ + 1, h, none, h', ok, wf, rk, ⟨q, hq, _⟩, e => by
    simp only [swallowLoop, Option.some.injEq] at e
    subst e
    exact ⟨ok, wf, rk, List.Perm.refl _, q, hq⟩
  | fuel + 1, h, some t, h', ok, wf, rk, ⟨q, hq, hqt⟩, e => by
    unfold swallowLoop at e
    cases hs : swallowGroups h (some t) with
    | none => simp [hs] at e
    | some r =>
      obtain ⟨h1, b⟩ := r
      obtain ⟨ok1, wf1⟩ := swallowGroups_preserves ok wf hs
      have rk1 := swallowGroups_ranked ok wf rk hs
      have w1 := windowsOf_swallowGroups ok wf hs
      cases b with
      | false =>
        simp only [hs, Option.some.injEq] at e
        subst e
        rcases swallowGroups_cases hs with ⟨_, rfl⟩ | ⟨hb, _⟩
        · exact ⟨ok, wf, rk, List.Perm.refl _, q, hq⟩
        · cases hb
      | true =>
        simp only [hs] at e
        obtain ⟨child, chi, hci, hp, -⟩ := swallowGroups_true_proj wf hs
        have hqc : q = child := by
          have := wf.mem_of_parent hqt
          rw [chi] at this
          simpa using this
        subst hqc
        have hxq : x ≠ q := by
          intro e2
          obtain ⟨xn, hxn, hxp⟩ := parentOf_eq_some.mp hq
          have := (rk x xn hxn).2 q hxp
          rw [e2] at this
          omega
        have hx1 : h1.parentOf x = some (some t) := by
          rw [hp x hxq, hq]
          simp [wf.mem_of_parent hq]
        cases ht : h1.get t with
        | none => simp [ht] at e
        | some tn =>
          simp only [ht] at e
          obtain ⟨ok', wf', rk', w', hx'⟩ := swallowLoop_good fuel h1 tn.parent h' ok1 wf1 rk1
            ⟨t, hx1, by simp [Hy3Layout.parentOf, ht]⟩ e
          exact ⟨ok', wf', rk', w'.trans w1, hx'⟩

/-- When `old_parent->hasChild(&node)` is false, neither the node nor its parent is a child of
`old_parent`. -/
theorem hasChild_false {fuel : Nat} {h : Hy3Layout} (wf : WellFormed h) {op x T : Nat}
    (hx : h.parentOf x = some (some T))
    (e : hasChild fuel h op (some x) = some false) :
    x ∉ h.childrenOf op ∧ T ∉ h.childrenOf op := by
  have w := (wellFormed_iff h).mp wf
  unfold hasChild at e
  cases hn : h.get op with
  | none => simp [childrenOf_none hn]
  | some opn =>
    simp only [hn] at e
    cases hd : opn.data with
    | window _ => simp [childrenOf_of_get hn, hd]
    | group g =>
      simp only [hd] at e
      obtain ⟨xn, hxn, hxp⟩ := parentOf_eq_some.mp hx
      cases fuel with
      | zero => simp [hasChildLoop] at e
      | succ f =>
        rw [hasChildLoop] at e
        simp only [hxn, hxp, Option.some.injEq] at e
        split at e
        · cases e
        · rename_i hTop
          refine ⟨fun hm => ?_, fun hm => ?_⟩
          · have := w.2 op x hm
            rw [hx] at this
            simp only [Option.some.injEq] at this
            exact hTop this
          · have hpT := w.2 op T hm
            obtain ⟨Tn, hTn, hTp⟩ := parentOf_eq_some.mp hpT
            cases f with
            | zero => simp [hasChildLoop] at e
            | succ f2 =>
              rw [hasChildLoop] at e
              simp [hTn, hTp] at e

theorem removeFromParentRecursive_pending {fuel : Nat} {h : Hy3Layout} {x T : Nat}
    {r : RemoveResult} (ok : StoreOK h) (pd : Pending h x T)
    (e : removeFromParentRecursive fuel h x = some r) :
    StoreOK r.layout ∧ Pending r.layout x T ∧ r.layout.parentOf x = some none ∧
      windowsOf r.layout = windowsOf h ∧
      ∀ (rank : Nat → Nat) (B : Nat), RankedBy h rank B → RankedBy r.layout rank B := by
  unfold removeFromParentRecursive at e
  cases hpre : removePrelude fuel h x with
  | none => simp [hpre] at e
  | some pr =>
    obtain ⟨h1, actor⟩ := pr
    simp only [hpre] at e
    cases hl : removeLoop x fuel h1 x with
    | none => simp [hl] at e
    | some lr =>
      obtain ⟨h2, ret⟩ := lr
      simp only [hl, Option.some.injEq] at e
      subst e
      have hs := removePrelude_same hpre
      obtain ⟨n1, a1⟩ := removePrelude_addrs hpre
      have ok1 : StoreOK h1 := ok.of_addrs a1 (le_of_eq n1.symm)
      have pd1 : Pending h1 x T := pd.congr_proj hs.parentOf hs.childrenOf
      have w1 : windowsOf h1 = windowsOf h := windowsOf_congr ok ok1 a1 hs.windowAt
      obtain ⟨ok2, pd2, hp2, w2, rk2⟩ := removeLoop_pending x T fuel h1 x h2 ret ok1 pd1
        (Or.inl rfl) hl
      exact ⟨ok2, pd2, hp2, w2.trans w1, fun rank B rk =>
        rk2 rank B (rk.congr_rank hs.parentOf)⟩


/-! ## A shift keeps the tree and its windows -/

/-- Moving the node to position `insert` of the target group (lines 2163-2204): when the target
group does not lie below the node, the store stays well-formed and acyclic, holds the same
windows, and the node has a parent. -/
theorem applyShift_good {fuel : Nat} {h h' : Hy3Layout} {node T i : Nat} (ok : StoreOK h)
    (wf : WellFormed h) {rank : Nat → Nat} {B : Nat} (rk : RankedBy h rank B)
    (hx : ∃ q, h.parentOf node = some (some q)) (hout : ¬ InSubtree h node T)
    (e : applyShift fuel h node T i = some h') :
    StoreOK h' ∧ WellFormed h' ∧ Acyclic h' ∧ (windowsOf h').Perm (windowsOf h) ∧
      ∃ q, h'.parentOf node = some (some q) := by
  unfold applyShift at e
  cases hn : h.get node with
  | none => simp [hn] at e
  | some nn =>
    cases hg : h.group T with
    | none => simp [hn, hg] at e
    | some gd =>
      simp only [hn, hg] at e
      have hcs : h.childrenOf T = gd.children := childrenOf_of_group_eq hg
      have hgs : (h.group T).isSome := by rw [hg]; rfl
      obtain ⟨Tn, hTn, -⟩ := group_eq_some hg
      split at e
      · -- same parent
        rename_i hpar
        split at e
        · cases e
        · rename_i cs hre
          simp only [Option.some.injEq] at e
          subst e
          have hp : ∀ a, (h.modifyGroup T fun g => { g with children := cs }).parentOf a
              = h.parentOf a := fun a => parentOf_modifyGroup _ _ _ _
          have hc := fun a => childrenOf_modifyGroup_children h T a cs hgs
          refine ⟨ok.of_addrs (addrs_modifyGroup _ _ _) (le_refl _),
            wf.perm_children (hcs ▸ reorderChild_perm hre) hp hc,
            ⟨rank, B, rk.congr_rank hp⟩, ?_, ?_⟩
          · rw [windowsOf_modifyGroup ok]
          · rw [hp]; exact hx
      · -- another parent
        rename_i hpar
        have hne : h.parentOf node ≠ some (some T) := by
          simp only [Hy3Layout.parentOf, hn, Option.map_some', ne_eq, Option.some.injEq]
          exact hpar
        have pd1 : Pending (h.modifyGroup T fun g =>
            { g with children := insertAt g.children i node }) node T :=
          Pending.of_insert wf hg (by rw [hn]; rfl) hne
        have ok1 : StoreOK (h.modifyGroup T fun g =>
            { g with children := insertAt g.children i node }) :=
          ok.of_addrs (addrs_modifyGroup _ _ _) (le_refl _)
        obtain ⟨rank2, rk2, hlift⟩ := rank_lift wf rk node
        have hTlt : rank2 T < rank2 node := hlift T (by rw [hTn]; rfl) hout
        have rk1 : RankedBy (h.modifyGroup T fun g =>
            { g with children := insertAt g.children i node }) rank2 (2 * B + 1) :=
          rk2.congr_rank fun a => parentOf_modifyGroup _ _ _ _
        split at e
        · cases e
        · rename_i r hr
          obtain ⟨okr, pdr, hpr, wr, rkr⟩ := removeFromParentRecursive_pending ok1 pd1 hr
          have rkr2 := rkr _ _ rk1
          -- the node is pointed at the target group
          have hp2 : ∀ a, (r.layout.modify node fun n =>
              { n with parent := some T, size_ratio := 1 }).parentOf a
              = if a = node then some (some T) else r.layout.parentOf a := by
            intro a
            unfold Hy3Layout.parentOf
            rw [get_modify]
            split
            · rename_i e2
              subst e2
              obtain ⟨n, hn2⟩ := Option.isSome_iff_exists.mp pdr.2.2.2.2
              rw [hn2]
              rfl
            · rfl
          have ok2 : StoreOK (r.layout.modify node fun n =>
              { n with parent := some T, size_ratio := 1 }) :=
            okr.of_addrs (addrs_modify _ _ _) (le_refl _)
          have wf2 := pdr.finish hpr
          have rk2' : RankedBy (r.layout.modify node fun n =>
              { n with parent := some T, size_ratio := 1 }) rank2 (2 * B + 1) := by
            rw [rankedBy_iff] at rkr2 ⊢
            refine ⟨fun a ha => rkr2.1 a ?_, fun a p hp => ?_⟩
            · rw [get_modify_isSome] at ha; exact ha
            · rw [hp2] at hp
              split at hp
              · rename_i e2
                simp only [Option.some.injEq] at hp
                rw [e2, ← hp]
                exact hTlt
              · exact rkr2.2 a p hp
          have w2 : windowsOf (r.layout.modify node fun n =>
              { n with parent := some T, size_ratio := 1 })
              = windowsOf (h.modifyGroup T fun g =>
                { g with children := insertAt g.children i node }) := by
            rw [windowsOf_modify okr node
              (f := fun n => { n with parent := some T, size_ratio := 1 }) (fun _ => rfl), wr]
          have hpn2 : (r.layout.modify node fun n =>
              { n with parent := some T, size_ratio := 1 }).parentOf node = some (some T) := by
            rw [hp2, if_pos rfl]
          have w0 : windowsOf (h.modifyGroup T fun g =>
              { g with children := insertAt g.children i node }) = windowsOf h :=
            windowsOf_modifyGroup ok _ _
          -- the ephemeral old parent
          have key : ∀ h3 : Hy3Layout, StoreOK h3 → WellFormed h3 →
              RankedBy h3 rank2 (2 * B + 1) → (windowsOf h3).Perm (windowsOf h) →
              h3.parentOf node = some (some T) →
              (match h3.get T with
                | none => none
                | some tn =>
                  match swallowLoop fuel h3 tn.parent with
                  | none => none
                  | some h4 => markFocused fuel h4 node) = some h' →
              StoreOK h' ∧ WellFormed h' ∧ Acyclic h' ∧ (windowsOf h').Perm (windowsOf h) ∧
                ∃ q, h'.parentOf node = some (some q) := by
            intro h3 ok3 wf3 rk3 w3 hp3 e3
            cases ht : h3.get T with
            | none => simp [ht] at e3
            | some tn =>
              simp only [ht] at e3
              cases hl : swallowLoop fuel h3 tn.parent with
              | none => simp [hl] at e3
              | some h4 =>
                simp only [hl] at e3
                obtain ⟨ok4, wf4, rk4, w4, q4, hq4⟩ := swallowLoop_good fuel h3 tn.parent h4
                  ok3 wf3 rk3 ⟨T, hp3, by simp [Hy3Layout.parentOf, ht]⟩ hl
                have s := markFocused_same e3
                refine ⟨s.storeOK ok4, s.wellFormed wf4, ⟨_, _, s.rankedBy rk4⟩, ?_, q4, ?_⟩
                · rw [s.windowsOf ok4]
                  exact w4.trans w3
                · rw [s.focus_parentOf]; exact hq4
          have w2' : (windowsOf (r.layout.modify node fun n =>
              { n with parent := some T, size_ratio := 1 })).Perm (windowsOf h) := by
            rw [w2, w0]
          split at e
          · cases e
          · rename_i h3 hsw
            refine key h3 ?_ ?_ ?_ ?_ ?_ e
            all_goals
              split at hsw
              · simp only [Option.some.injEq] at hsw
                subst hsw
                first | exact ok2 | exact wf2 | exact rk2' | exact w2' | exact hpn2
              · rename_i op hop
                split at hsw
                · cases hsw
                · rename_i opn hopn
                  split at hsw
                  · cases hsw
                  · rename_i group hgd
                    split at hsw
                    · split at hsw
                      · cases hsw
                      · simp only [Option.some.injEq] at hsw
                        subst hsw
                        first | exact ok2 | exact wf2 | exact rk2' | exact w2' | exact hpn2
                      · rename_i hhc
                        cases hsg : swallowGroups (r.layout.modify node fun n =>
                            { n with parent := some T, size_ratio := 1 }) (some op) with
                        | none => simp [hsg] at hsw
                        | some sr =>
                          obtain ⟨hs3, b⟩ := sr
                          simp only [hsg, Option.map_some', Option.some.injEq] at hsw
                          subst hsw
                          first
                            | exact (swallowGroups_preserves ok2 wf2 hsg).1
                            | exact (swallowGroups_preserves ok2 wf2 hsg).2
                            | exact swallowGroups_ranked ok2 wf2 rk2' hsg
                            | exact (windowsOf_swallowGroups ok2 wf2 hsg).trans w2'
                            | (cases b with
                               | false =>
                                 rcases swallowGroups_cases hsg with ⟨_, rfl⟩ | ⟨hb, _⟩
                                 · exact hpn2
                                 · cases hb
                               | true =>
                                 obtain ⟨child, chi, -, hp, -⟩ := swallowGroups_true_proj wf2 hsg
                                 obtain ⟨h1, h2⟩ := hasChild_false wf2 hpn2 hhc
                                 have hxc : node ≠ child := by
                                   intro e2
                                   rw [chi, e2] at h1
                                   simp at h1
                                 have hTc : T ≠ child := by
                                   intro e2
                                   rw [chi, e2] at h2
                                   simp at h2
                                 rw [hp node hxc, hpn2]
                                 have : node ∉ (r.layout.modify node fun n =>
                                     { n with parent := some T, size_ratio := 1 }).childrenOf
                                     child := by
                                   intro hm
                                   have := ((wellFormed_iff _).mp wf2).2 child node hm
                                   rw [hpn2] at this
                                   simp only [Option.some.injEq] at this
                                   exact hTc this
                                 simp [this])
                    · simp only [Option.some.injEq] at hsw
                      subst hsw
                      first | exact ok2 | exact wf2 | exact rk2' | exact w2' | exact hpn2


theorem getExpandActor_inSubtree {h : Hy3Layout} (wf : WellFormed h) :
    ∀ (fuel : Nat) (node a : Nat), getExpandActor fuel h node = some a → InSubtree h a node
  | 0, _, _, e => by simp [getExpandActor] at e
  | fuel + 1, node, a, e => by
    rw [getExpandActor] at e
    cases hn : h.get node with
    | none => simp [hn] at e
    | some n =>
      simp only [hn] at e
      cases hp : n.parent with
      | none =>
        simp only [hp, Option.some.injEq] at e
        exact e ▸ InSubtree.self _
      | some p =>
        simp only [hp] at e
        cases hg : h.group p with
        | none => simp [hg] at e
        | some g =>
          simp only [hg] at e
          split at e
          · have := getExpandActor_inSubtree wf fuel p a e
            exact this.tail (wf.mem_of_parent (parentOf_eq_some.mpr ⟨n, hn, hp⟩))
          · simp only [Option.some.injEq] at e
            exact e ▸ InSubtree.self _

/-- A node below a child of a group has a parent. -/
theorem hasParent_of_inSubtree {h : Hy3Layout} (wf : WellFormed h) {o p x : Nat}
    (hpo : h.parentOf o = some (some p)) (hs : InSubtree h o x) :
    ∃ q, h.parentOf x = some (some q) := by
  rcases hs.cases_tail with e | ⟨q, _, hm⟩
  · exact ⟨p, e ▸ hpo⟩
  · exact ⟨q, ((wellFormed_iff h).mp wf).2 q x hm⟩

/-- `shiftOrGetFocus` with `shift == true` on a node that has a parent: the store stays
well-formed and acyclic, the windows are the same, and the node still has a parent. -/
theorem shiftOrGetFocus_good {fuel : Nat} {h h' : Hy3Layout} {node : Nat}
    {d : ShiftDirection} {once visible : Bool} {ret : Option Nat} (ok : StoreOK h)
    (wf : WellFormed h) (ac : Acyclic h) (hx : ∃ q, h.parentOf node = some (some q))
    (e : shiftOrGetFocus fuel h node d true once visible = some (h', ret)) :
    StoreOK h' ∧ WellFormed h' ∧ Acyclic h' ∧ (windowsOf h').Perm (windowsOf h) ∧
      ∃ q, h'.parentOf node = some (some q) := by
  unfold shiftOrGetFocus at e
  cases ha : getExpandActor fuel h node with
  | none => simp [ha] at e
  | some bo =>
    simp only [ha] at e
    have hsub := getExpandActor_inSubtree wf fuel node bo ha
    cases hb : h.get bo with
    | none => simp [hb] at e
    | some bn =>
      simp only [hb] at e
      cases hbl : breakLoop node d true once visible fuel h bo bn.parent false with
      | none => simp [hbl] at e
      | some res =>
        cases res with
        | none =>
          simp only [hbl, Option.some.injEq, Prod.mk.injEq] at e
          obtain ⟨rfl, -⟩ := e
          exact ⟨ok, wf, ac, List.Perm.refl _, hx⟩
        | some res =>
          obtain ⟨h1, o, p, b⟩ := res
          simp only [hbl] at e
          obtain ⟨ok1, wf1, ac1, w1, hpo, hs1⟩ := breakLoop_good fuel h bo bn.parent false h1 o p
            b ok wf ac (by simp [Hy3Layout.parentOf, hb]) hsub hbl
          have hx1 := hasParent_of_inSubtree wf1 hpo hs1
          cases hr : resolveInsert fuel h1 node o p b d true once visible with
          | none => simp [hr] at e
          | some tgt =>
            cases tgt with
            | ret result =>
              simp only [hr, Option.some.injEq, Prod.mk.injEq] at e
              obtain ⟨rfl, -⟩ := e
              exact ⟨ok1, wf1, ac1, w1, hx1⟩
            | place T i =>
              simp only [hr] at e
              cases has : applyShift fuel h1 node T i with
              | none => simp [has] at e
              | some h2 =>
                simp only [has, Option.map_some', Option.some.injEq, Prod.mk.injEq] at e
                obtain ⟨rfl, -⟩ := e
                obtain ⟨rank, B, rk⟩ := ac1
                have hout := shift_target_outside wf1 rk hpo hs1 (resolveInsert_target wf1 hpo hr)
                obtain ⟨ok2, wf2, ac2, w2, hx2⟩ := applyShift_good ok1 wf1 rk hx1 hout has
                exact ⟨ok2, wf2, ac2, w2.trans w1, hx2⟩


/-! ## The collapse of shiftNode -/

/-- The collapse done by `shiftNode` (lines 896-899): the node, the only child of a group `p`,
swaps payloads with `p` and is removed. -/
theorem shiftNode_collapse_good {h h1 : Hy3Layout} (ok : StoreOK h) (wf : WellFormed h)
    {rank : Nat → Nat} {B : Nat} (rk : RankedBy h rank B) {node p : Nat} {nn pn : Hy3Node}
    {pg : Hy3GroupData} (hn : h.get node = some nn) (hp : nn.parent = some p)
    (hpn : h.get p = some pn) (hd : pn.data = Hy3NodeData.group pg)
    (hlen : pg.children.length = 1) (hs : swapData h node p = some h1) :
    StoreOK (h1.remove node) ∧ WellFormed (h1.remove node) ∧
      RankedBy (h1.remove node) rank B ∧
      (windowsOf (h1.remove node)).Perm (windowsOf h) ∧ (h1.remove node).get node = none ∧
      (h1.remove node).windowAt p = h.windowAt node ∧
      (h1.remove node).parentOf p = h.parentOf p := by
  have w := (wellFormed_iff h).mp wf
  have hpar : h.parentOf node = some (some p) := parentOf_eq_some.mpr ⟨nn, hn, hp⟩
  have hlt : rank p < rank node := (rk node nn hn).2 p hp
  have hne : node ≠ p := fun e => by rw [e] at hlt; omega
  have chp : h.childrenOf p = [node] := by
    have hm : node ∈ pg.children := by
      have := wf.mem_of_parent hpar
      rwa [childrenOf_of_get hpn, hd] at this
    rw [childrenOf_of_get hpn, hd, Hy3NodeData.children_group]
    match hc : pg.children, hlen, hm with
    | [c], _, hm' =>
      simp only [List.mem_singleton] at hm'
      rw [hm']
  obtain ⟨h2, e2, n2, a2, g2⟩ := swapData_spec h node p nn pn hn hpn hne
    (wf.childrenInStore.of_get hn) (wf.childrenInStore.of_get hpn)
  rw [hs] at e2
  cases e2
  have ok1 : StoreOK h1 := ok.of_addrs a2 (le_of_eq n2.symm)
  have wf1 : WellFormed h1 := swapData_wf wf hn hpn g2 hne
  obtain ⟨hpp, hch⟩ := swapData_proj hn hpn g2
  have hp1 : ∀ x, x ≠ node → h1.parentOf x =
      (h.parentOf x).map fun q => if x ∈ h.childrenOf node then some p else q := by
    intro x hx
    rw [hpp x, chp]
    cases h.parentOf x with
    | none => rfl
    | some q => simp [hx]
  have hw : h1.windowAt node = none := by
    unfold Hy3Layout.windowAt
    rw [g2 node, hn]
    simp [swapNode_data, hd, Hy3NodeData.moved, Hy3NodeData.windowOf]
  refine ⟨ok1.remove node, wf1.remove_wf node (fun x hx => ?_) (fun y hy => ?_), ?_, ?_, ?_,
    ?_, ?_⟩
  · by_contra hxn
    rw [hp1 x hxn] at hx
    cases hq : h.parentOf x with
    | none => simp [hq] at hx
    | some q =>
      simp only [hq, Option.map_some', Option.some.injEq] at hx
      split at hx
      · simp only [Option.some.injEq] at hx
        exact hne hx.symm
      · rename_i hnm
        subst hx
        exact hnm (wf.mem_of_parent hq)
  · rw [hch y] at hy
    by_cases h3 : y = node
    · exact h3
    · rw [if_neg h3] at hy
      by_cases h4 : y = p
      · rw [if_pos h4] at hy
        have := w.2 node node hy
        rw [hpar] at this
        simp only [Option.some.injEq] at this
        exact absurd this.symm hne
      · rw [if_neg h4] at hy
        have := w.2 y node hy
        rw [hpar] at this
        simp only [Option.some.injEq] at this
        exact absurd this.symm h4
  · rw [rankedBy_iff] at rk ⊢
    refine ⟨fun a ha => rk.1 a ?_, fun a q hq => ?_⟩
    · rw [get_remove] at ha
      split at ha
      · cases ha
      · rw [g2 a] at ha
        simpa using ha
    · rw [parentOf_remove] at hq
      split at hq
      · cases hq
      · rename_i han
        rw [hp1 a han] at hq
        cases hq0 : h.parentOf a with
        | none => simp [hq0] at hq
        | some q0 =>
          simp only [hq0, Option.map_some', Option.some.injEq] at hq
          split at hq
          · rename_i ham
            simp only [Option.some.injEq] at hq
            subst hq
            have := rk.2 a node (w.2 node a ham)
            omega
          · subst hq
            exact rk.2 a _ hq0
  · rw [windowsOf_remove ok1 hw]
    exact windowsOf_swapData ok wf.childrenInStore hs
  · rw [get_remove, if_pos rfl]
  · unfold Hy3Layout.windowAt
    rw [get_remove, if_neg (Ne.symm hne), g2 p, hpn, hn]
    simp [swapNode_data, Ne.symm hne]
  · rw [parentOf_remove, if_neg (Ne.symm hne), hp1 p (Ne.symm hne)]
    cases hq : h.parentOf p with
    | none => rfl
    | some q =>
      simp only [Option.map_some', Option.some.injEq]
      rw [if_neg]
      intro hm
      have := ((rankedBy_iff _ _ _).mp rk).2 p node (w.2 node p hm)
      omega


/-- The node that has a parent in a well-formed store is in exactly one child list. -/
theorem one_list_of_parent {h : Hy3Layout} (wf : WellFormed h) {x q : Nat}
    (hq : h.parentOf x = some (some q)) :
    (h.childrenOf q).count x = 1 ∧ ∀ g, x ∈ h.childrenOf g → g = q := by
  have w := (wellFormed_iff h).mp wf
  refine ⟨w.1 x q hq, fun g hg => ?_⟩
  have := w.2 g x hg
  rw [hq] at this
  simp only [Option.some.injEq] at this
  exact this.symm

/-- A node that is not in the store is in no child list of a well-formed store. -/
theorem no_list_of_absent {h : Hy3Layout} (wf : WellFormed h) {x : Nat} (hx : h.get x = none)
    (g : Nat) : x ∉ h.childrenOf g := by
  intro hg
  have := ((wellFormed_iff h).mp wf).2 g x hg
  obtain ⟨n, hn, -⟩ := parentOf_eq_some.mp this
  rw [hx] at hn
  cases hn


/-- What a shift keeps: the store invariants, well-formedness, acyclicity and the window
handles with their multiplicities. -/
theorem shiftNode_good {fuel : Nat} {h h' : Hy3Layout} {node p : Nat} {d : ShiftDirection}
    {once visible : Bool} (ok : StoreOK h) (wf : WellFormed h) (ac : Acyclic h)
    (hp : h.parentOf node = some (some p))
    (e : shiftNode fuel h node d once visible = some h') :
    StoreOK h' ∧ WellFormed h' ∧ Acyclic h' ∧ (windowsOf h').Perm (windowsOf h) ∧
      ((once = false ∨ (h.childrenOf p).length ≠ 1 ∨ h.parentOf p = some none) →
        ∃ q, h'.parentOf node = some (some q)) ∧
      (once = true → (h.childrenOf p).length = 1 → ∀ gp, h.parentOf p = some (some gp) →
        h'.get node = none ∧ h'.windowAt p = h.windowAt node ∧
          h'.parentOf p = some (some gp)) := by
  obtain ⟨nn, hn, hnp⟩ := parentOf_eq_some.mp hp
  have shifted : ∀ h2, (shiftOrGetFocus fuel h node d true once visible).map Prod.fst = some h2 →
      StoreOK h2 ∧ WellFormed h2 ∧ Acyclic h2 ∧ (windowsOf h2).Perm (windowsOf h) ∧
        ∃ q, h2.parentOf node = some (some q) := by
    intro h2 e2
    cases hr : shiftOrGetFocus fuel h node d true once visible with
    | none => simp [hr] at e2
    | some r =>
      obtain ⟨h3, ret⟩ := r
      simp only [hr, Option.map_some', Option.some.injEq] at e2
      subst e2
      exact shiftOrGetFocus_good ok wf ac ⟨p, hp⟩ hr
  unfold shiftNode at e
  simp only [hn] at e
  cases once with
  | false =>
    simp only [Bool.false_eq_true, if_false] at e
    obtain ⟨a, b, c, g, q⟩ := shifted h' e
    exact ⟨a, b, c, g, fun _ => q, fun hf => by cases hf⟩
  | true =>
    simp only [if_true, hnp] at e
    cases hpn : h.get p with
    | none => simp [hpn] at e
    | some pn =>
      simp only [hpn] at e
      cases hd : pn.data with
      | window w => simp [hd] at e
      | group pg =>
        simp only [hd] at e
        have hcp : h.childrenOf p = pg.children := by
          rw [childrenOf_of_get hpn, hd, Hy3NodeData.children_group]
        by_cases hlen : pg.children.length = 1
        · rw [if_pos hlen] at e
          cases hpp : pn.parent with
          | none =>
            simp only [hpp, Option.some.injEq] at e
            subst e
            have hpar : ∀ a, (h.modifyGroup p fun g =>
                g.setLayout Hy3GroupLayout.SplitH).parentOf a = h.parentOf a :=
              fun a => parentOf_modifyGroup h p a _
            have hch : ∀ a, (h.modifyGroup p fun g =>
                g.setLayout Hy3GroupLayout.SplitH).childrenOf a = h.childrenOf a :=
              fun a => childrenOf_modifyGroup_same h p a _ fun g => rfl
            obtain ⟨rank, B, rk⟩ := ac
            refine ⟨ok.of_addrs (addrs_modifyGroup h p _) (le_refl _), wf.congr hpar hch,
              ⟨rank, B, rk.congr_rank hpar⟩, ?_, fun _ => ⟨p, by rw [hpar]; exact hp⟩, ?_⟩
            · rw [windowsOf_modifyGroup ok]
            · intro _ _ gp hgp
              have : h.parentOf p = some none := parentOf_eq_some.mpr ⟨pn, hpn, hpp⟩
              rw [this] at hgp
              cases hgp
          | some gp =>
            simp only [hpp] at e
            cases hs : swapData h node p with
            | none => simp [hs] at e
            | some h1 =>
              simp only [hs, Option.some.injEq] at e
              subst e
              obtain ⟨rank, B, rk⟩ := ac
              obtain ⟨a, b, c, g, hg, hw, hq⟩ :=
                shiftNode_collapse_good ok wf rk hn hnp hpn hd hlen hs
              have hpgp : h.parentOf p = some (some gp) := parentOf_eq_some.mpr ⟨pn, hpn, hpp⟩
              refine ⟨a, b, ⟨rank, B, c⟩, g, ?_, ?_⟩
              · rintro (hf | hf | hf)
                · cases hf
                · rw [hcp] at hf
                  exact absurd hlen hf
                · rw [hpgp] at hf
                  cases hf
              · intro _ _ gp2 hgp2
                rw [hpgp] at hgp2
                exact ⟨hg, hw, by rw [hq, hpgp, hgp2]⟩
        · rw [if_neg hlen] at e
          obtain ⟨a, b, c, g, q⟩ := shifted h' e
          refine ⟨a, b, c, g, fun _ => q, fun _ hl => ?_⟩
          rw [hcp] at hl
          exact absurd hl hlen


/-! ## C38: shifts neither lose nor duplicate windows -/

/-- C38 (counterexample): the shifted node is not always a member of exactly one child list.
In `exCascade` the group 2 is the only child of the group 1, which has a parent; `shiftNode`
with `once` swaps the payloads of 2 and 1 and removes the node 2 from the store (lines 896-899),
so that afterwards 2 is in no child list. The root 0 of the same store has no parent:
`shiftOrGetFocus` with `shift == true` returns without a change and 0 is in no child list. -/
theorem shiftNode_collapse_removes_node_counterexample :
    StoreOK exCascade ∧ WellFormed exCascade ∧ Acyclic exCascade ∧
      exCascade.childrenOf 1 = [2] ∧
      (∃ h', shiftNode 10 exCascade 2 ShiftDirection.Left true false = some h' ∧
        h'.get 2 = none ∧ (∀ g, 2 ∉ h'.childrenOf g) ∧ h'.childrenOf 1 = [3, 4]) ∧
      shiftOrGetFocus 10 exCascade 0 ShiftDirection.Left true false false
        = some (exCascade, none) ∧
      ∀ g, 0 ∉ exCascade.childrenOf g := by
  have wf : WellFormed exCascade := wellFormed_of_check (by decide)
  refine ⟨by unfold StoreOK; decide, wf, ⟨id, 5, rankedBy_of_check (by decide)⟩, rfl,
    ⟨_, rfl, rfl, no_list_of_absent (wellFormed_of_check (by decide)) rfl, rfl⟩, rfl,
    fun g hg => ?_⟩
  have := ((wellFormed_iff _).mp wf).2 g 0 hg
  have e0 : exCascade.parentOf 0 = some none := rfl
  rw [e0] at this
  cases this

/-- C38 (amended): shifting a node that has a parent neither loses nor duplicates windows. Let
the store satisfy the store invariant, be well-formed and acyclic, and let `node` have the
parent `p`. Every store returned by `shiftOrGetFocus` with `shift == true`, and every store
returned by `shiftNode`, satisfies the store invariant, is well-formed and acyclic, and holds
the same window handles with the same multiplicities as before, so that handles held by exactly
one node stay so. After `shiftOrGetFocus` the node is a member of exactly one child list, once.
After `shiftNode` the same holds unless `once` is set, `node` is the only child of `p` and `p`
has a parent; in that case `node` is removed from the store and is in no child list, `p` holds
the window handle of `node` (if it had one) and keeps its parent. -/
theorem shift_preserves_windows (fuel : Nat) (h : Hy3Layout) (ok : StoreOK h)
    (wf : WellFormed h) (ac : Acyclic h) (node p : Nat)
    (hp : h.parentOf node = some (some p)) (d : ShiftDirection) (once visible : Bool) :
    (∀ h' ret, shiftOrGetFocus fuel h node d true once visible = some (h', ret) →
      StoreOK h' ∧ WellFormed h' ∧ Acyclic h' ∧ (windowsOf h').Perm (windowsOf h) ∧
        ((windowsOf h).Nodup → (windowsOf h').Nodup) ∧
        ∃ q, (h'.childrenOf q).count node = 1 ∧ ∀ g, node ∈ h'.childrenOf g → g = q) ∧
    (∀ h', shiftNode fuel h node d once visible = some h' →
      StoreOK h' ∧ WellFormed h' ∧ Acyclic h' ∧ (windowsOf h').Perm (windowsOf h) ∧
        ((windowsOf h).Nodup → (windowsOf h').Nodup) ∧
        ((once = false ∨ (h.childrenOf p).length ≠ 1 ∨ h.parentOf p = some none) →
          ∃ q, (h'.childrenOf q).count node = 1 ∧ ∀ g, node ∈ h'.childrenOf g → g = q) ∧
        (once = true → (h.childrenOf p).length = 1 → ∀ gp, h.parentOf p = some (some gp) →
          h'.get node = none ∧ (∀ g, node ∉ h'.childrenOf g) ∧
            h'.windowAt p = h.windowAt node ∧ h'.parentOf p = some (some gp))) := by
  refine ⟨fun h' ret e => ?_, fun h' e => ?_⟩
  · obtain ⟨a, b, c, g, q, hq⟩ := shiftOrGetFocus_good ok wf ac ⟨p, hp⟩ e
    exact ⟨a, b, c, g, fun nd => (List.Perm.nodup_iff g).mpr nd, q, one_list_of_parent b hq⟩
  · obtain ⟨a, b, c, g, h1, h2⟩ := shiftNode_good ok wf ac hp e
    refine ⟨a, b, c, g, fun nd => (List.Perm.nodup_iff g).mpr nd, fun hc => ?_,
      fun ho hl gp hgp => ?_⟩
    · obtain ⟨q, hq⟩ := h1 hc
      exact ⟨q, one_list_of_parent b hq⟩
    · obtain ⟨x, y, z⟩ := h2 ho hl gp hgp
      exact ⟨x, no_list_of_absent b x, y, z⟩

theorem shift_preserves_windows_witness :
    StoreOK exCascade ∧ WellFormed exCascade ∧ Acyclic exCascade ∧
      exCascade.parentOf 4 = some (some 2) ∧
      ((∀ h' ret, shiftOrGetFocus 10 exCascade 4 ShiftDirection.Right true false false
          = some (h', ret) →
        StoreOK h' ∧ WellFormed h' ∧ Acyclic h' ∧ (windowsOf h').Perm (windowsOf exCascade) ∧
          ((windowsOf exCascade).Nodup → (windowsOf h').Nodup) ∧
          ∃ q, (h'.childrenOf q).count 4 = 1 ∧ ∀ g, 4 ∈ h'.childrenOf g → g = q) ∧
      (∀ h', shiftNode 10 exCascade 4 ShiftDirection.Right false false = some h' →
        StoreOK h' ∧ WellFormed h' ∧ Acyclic h' ∧ (windowsOf h').Perm (windowsOf exCascade) ∧
          ((windowsOf exCascade).Nodup → (windowsOf h').Nodup) ∧
          ((false = false ∨ (exCascade.childrenOf 2).length ≠ 1 ∨
              exCascade.parentOf 2 = some none) →
            ∃ q, (h'.childrenOf q).count 4 = 1 ∧ ∀ g, 4 ∈ h'.childrenOf g → g = q) ∧
          (false = true → (exCascade.childrenOf 2).length = 1 →
            ∀ gp, exCascade.parentOf 2 = some (some gp) →
            h'.get 4 = none ∧ (∀ g, 4 ∉ h'.childrenOf g) ∧
              h'.windowAt 2 = exCascade.windowAt 4 ∧ h'.parentOf 2 = some (some gp)))) ∧
      (∃ h', shiftOrGetFocus 10 exCascade 4 ShiftDirection.Right true false false
          = some (h', none) ∧ h'.childrenOf 0 = [1, 4, 5] ∧ h'.childrenOf 1 = [2] ∧
        h'.windowAt 2 = some (some 103) ∧ h'.get 3 = none ∧
        windowsOf h' = [some 103, some 104, some 105]) ∧
      windowsOf exCascade = [some 103, some 104, some 105] :=
  ⟨by unfold StoreOK; decide, wellFormed_of_check (by decide),
    ⟨id, 5, rankedBy_of_check (by decide)⟩, rfl,
    shift_preserves_windows 10 exCascade (by unfold StoreOK; decide)
      (wellFormed_of_check (by decide)) ⟨id, 5, rankedBy_of_check (by decide)⟩ 4 2 rfl
      ShiftDirection.Right false false,
    ⟨_, rfl, rfl, rfl, rfl, rfl, rfl⟩, rfl⟩


/-! ## C13: resize moves ratio between a node and the sibling next to it -/

end Hy3
